import Mathlib

/-!
# NetSurf treeview (`desktop/treeview.c`): a shallow embedding

The C code manipulates a pointer graph of `struct treeview_node`.  Here the
memory is an explicit heap (a finite map from addresses to node records),
every C statement that reads or writes through a pointer is a `load` or a
`modify` on that heap, and loops are functions recursive on a fuel argument.

Conventions

* a pointer is an `Option Nat`; dereferencing `NULL` (or an address that holds
  no node) is the fault `Fault.null`;
* a failing `assert` is the fault `Fault.assertion`;
* a loop that runs out of fuel yields `Fault.fuel`;
* C `int` values are unbounded integers (no treeview quantity gets near the
  range of `int`);
* the `flags` bitset of a node has two bits, kept as the two booleans
  `expanded` (bit 0) and `selected` (bit 1);
* the host callbacks (`callbacks->folder`, `callbacks->entry`,
  `cw_t->redraw_request`) append to an event trace.
-/

namespace Treeview

/-! ## Data model -/

/-- Ways in which a run of the C code can go wrong in the embedding. -/
inductive Fault where
  | fuel
  | null
  | assertion
  | alloc
  deriving DecidableEq

/-- The error codes the treeview functions return. -/
inductive nserror where
  | NSERROR_OK
  | NSERROR_NOMEM
  | NSERROR_BAD_PARAMETER
  deriving DecidableEq

/-- The global `tree_g`. -/
structure treeview_globals where
  line_height : Int
  furniture_width : Int
  step_width : Int
  window_padding : Int
  icon_step : Int
  deriving DecidableEq

inductive treeview_node_type where
  | TREE_NODE_ROOT
  | TREE_NODE_FOLDER
  | TREE_NODE_ENTRY
  deriving DecidableEq

/-- Modelled from the spec: `enum treeview_relationship` is declared in
`desktop/treeview.h`; the spec names its two values `first-child-of` and
`next-sibling-of`. -/
inductive treeview_relationship where
  | TREE_REL_FIRST_CHILD
  | TREE_REL_NEXT_SIBLING
  deriving DecidableEq

/-- Modelled from the spec: `enum treeview_field_flags` is declared in
`desktop/treeview.h`; the code tests the bits `TREE_FLAG_DEFAULT` and
`TREE_FLAG_SHOW_NAME`, kept here as two booleans (`TREE_FLAG_NONE` is both
clear). -/
structure treeview_field_flags where
  dflt : Bool
  show_name : Bool
  deriving DecidableEq

structure treeview_text where
  data : List Nat
  len : Nat
  width : Int
  deriving DecidableEq

structure treeview_field where
  flags : treeview_field_flags
  field : Option (List Nat)
  value : treeview_text
  deriving DecidableEq

/-- The record `struct treeview_node`; for an entry, `fields` is the trailing
array of `struct treeview_node_entry` (empty for the other kinds). -/
structure treeview_node where
  expanded : Bool
  selected : Bool
  type : treeview_node_type
  height : Int
  inset : Int
  parent : Option Nat
  sibling_prev : Option Nat
  sibling_next : Option Nat
  children : Option Nat
  client_data : Nat
  text : treeview_field
  fields : List treeview_field
  deriving DecidableEq

/-- Modelled from the spec: `struct treeview_field_desc` (header), a schema
field: its interned name and its flags. -/
structure treeview_field_desc where
  field : List Nat
  flags : treeview_field_flags
  deriving DecidableEq

/-- Modelled from the spec: `struct treeview_field_data` (header), one field
value handed to create/update: the field name it is for, the text and its
length. -/
structure treeview_field_data where
  field : Option (List Nat)
  value : List Nat
  value_len : Nat
  deriving DecidableEq

/-- The record `struct treeview` (the window sizes and the callback tables are
not state of the embedding). -/
structure treeview where
  root : Nat
  fields : List treeview_field
  n_fields : Int
  field_width : Int
  deriving DecidableEq

/-- Modelled from the spec: `struct treeview_node_msg` (header), the tagged
message of the two notification callbacks. -/
inductive treeview_msg where
  | TREE_MSG_NODE_DELETE
  | TREE_MSG_NODE_LAUNCH (mouse : Nat)
  deriving DecidableEq

structure rect where
  x0 : Int
  y0 : Int
  x1 : Int
  y1 : Int
  deriving DecidableEq

/-- One call made on the host. -/
inductive Event where
  | folder (msg : treeview_msg) (client_data : Nat)
  | entry (msg : treeview_msg) (client_data : Nat)
  | redraw_request (r : rect)
  deriving DecidableEq

/-- The memory holding the nodes, and the trace of host callbacks so far. -/
structure State where
  heap : Nat → Option treeview_node
  events : List Event

/-! ## Memory access -/

def c_assert (b : Bool) : Except Fault Unit :=
  if b then .ok () else .error .assertion

/-- Value of a pointer that is about to be dereferenced. -/
def ptr (p : Option Nat) : Except Fault Nat :=
  match p with
  | some a => .ok a
  | none => .error .null

def load (s : State) (p : Nat) : Except Fault treeview_node :=
  match s.heap p with
  | some n => .ok n
  | none => .error .null

def store (s : State) (p : Nat) (n : treeview_node) : State :=
  { s with heap := fun q => if q = p then some n else s.heap q }

/-- One assignment through the pointer `p`. -/
def modify (s : State) (p : Nat) (f : treeview_node → treeview_node) : Except Fault State :=
  match s.heap p with
  | some n => .ok (store s p (f n))
  | none => .error .null

def free (s : State) (p : Nat) : State :=
  { s with heap := fun q => if q = p then none else s.heap q }

def emit (s : State) (e : Event) : State :=
  { s with events := s.events ++ [e] }

/-! ## Node creation and insertion -/

/-- The function `treeview_create_node_root`; `addr` is what `malloc`
returned. -/
def treeview_create_node_root (g : treeview_globals) (s : State) (addr : Option Nat) :
    Except Fault (nserror × State × Option Nat) :=
  match addr with
  | none => .ok (.NSERROR_NOMEM, s, none)
  | some n =>
    match s.heap n with
    | some _ => .error .alloc
    | none =>
      .ok (.NSERROR_OK,
        store s n
          { expanded := true, selected := false,
            type := .TREE_NODE_ROOT,
            height := 0,
            inset := g.window_padding - g.step_width,
            parent := none, sibling_prev := none, sibling_next := none, children := none,
            client_data := 0,
            text := { flags := { dflt := false, show_name := false }, field := none,
                      value := { data := [], len := 0, width := 0 } },
            fields := [] },
        some n)

/-- The loop `do { b->parent->height += b->height; b = b->parent; }
while (b->parent != NULL);` of `treeview_insert_node`. -/
def insert_height_loop : Nat → State → Nat → Except Fault State
  | 0, _, _ => .error .fuel
  | fuel + 1, s, b => do
    let nb ← load s b
    let p ← ptr nb.parent
    let s1 ← modify s p (fun np => { np with height := np.height + nb.height })
    let np ← load s1 p
    match np.parent with
    | some _ => insert_height_loop fuel s1 p
    | none => .ok s1

/-- The statement `switch (rel)` of `treeview_insert_node`: the links that
make `a` the first child of `b`, or the next sibling of `b`. -/
def insert_link (s : State) (a b : Nat) (rel : treeview_relationship) : Except Fault State :=
  match rel with
  | .TREE_REL_FIRST_CHILD => do
    let nb ← load s b
    c_assert (nb.type ≠ .TREE_NODE_ENTRY)
    let s ← modify s a (fun n => { n with parent := some b })
    let bc := (← load s b).children
    let s ← modify s a (fun n => { n with sibling_next := bc })
    let an := (← load s a).sibling_next
    let s ← (match an with
      | some x => modify s x (fun n => { n with sibling_prev := some a })
      | none => pure s)
    modify s b (fun n => { n with children := some a })
  | .TREE_REL_NEXT_SIBLING => do
    let nb ← load s b
    c_assert (nb.type ≠ .TREE_NODE_ROOT)
    let s ← modify s a (fun n => { n with sibling_prev := some b })
    let bn := (← load s b).sibling_next
    let s ← modify s a (fun n => { n with sibling_next := bn })
    let bp := (← load s b).parent
    let s ← modify s a (fun n => { n with parent := bp })
    let s ← modify s b (fun n => { n with sibling_next := some a })
    let an := (← load s a).sibling_next
    match an with
    | some x => modify s x (fun n => { n with sibling_prev := some a })
    | none => pure s

/-- The rest of `treeview_insert_node`, from `assert(a->parent != NULL)` on:
the inset of `a` and, when the parent of `a` is expanded, the heights of its
ancestors and the width of its text. -/
def insert_layout (g : treeview_globals) (font_width : List Nat → Nat → Int)
    (fuel : Nat) (s : State) (a : Nat) : Except Fault State := do
  let na ← load s a
  c_assert (na.parent ≠ none)
  let p ← ptr na.parent
  let np ← load s p
  let s ← modify s a (fun n => { n with inset := np.inset + g.step_width })
  let np ← load s p
  if np.expanded then do
    let s ← insert_height_loop fuel s a
    let na ← load s a
    if na.text.value.width = 0 then
      modify s a (fun n => { n with text := { n.text with value :=
        { n.text.value with width := font_width n.text.value.data n.text.value.len } } })
    else pure s
  else pure s

/-- The function `treeview_insert_node (a, b, rel)`. -/
def treeview_insert_node (g : treeview_globals) (font_width : List Nat → Nat → Int)
    (fuel : Nat) (s : State) (a b : Nat) (rel : treeview_relationship) : Except Fault State := do
  let na ← load s a
  c_assert (na.parent = none)
  let _ ← load s b
  let s ← insert_link s a b rel
  insert_layout g font_width fuel s a

/-- The node and relationship an insertion uses: `if (relation == NULL)
{ relation = tree->root; rel = TREE_REL_FIRST_CHILD; }`. -/
def insert_target (tree : treeview) (relation : Option Nat) (rel : treeview_relationship) :
    Nat × treeview_relationship :=
  match relation with
  | none => (tree.root, .TREE_REL_FIRST_CHILD)
  | some r => (r, rel)

/-- The record `treeview_create_node_folder` fills in before it inserts the
node (the inset is set by the insertion). -/
def new_folder (g : treeview_globals) (field : treeview_field_data) (data : Nat) :
    treeview_node :=
  { expanded := false, selected := false,
    type := .TREE_NODE_FOLDER,
    height := g.line_height,
    inset := 0,
    parent := none, sibling_prev := none, sibling_next := none, children := none,
    client_data := data,
    text := { flags := { dflt := false, show_name := false }, field := none,
              value := { data := field.value, len := field.value_len, width := 0 } },
    fields := [] }

/-- The function `treeview_create_node_folder`; `addr` is what `malloc`
returned, `relation` may be `NULL`. -/
def treeview_create_node_folder (g : treeview_globals) (font_width : List Nat → Nat → Int)
    (fuel : Nat) (tree : treeview) (s : State) (addr : Option Nat)
    (relation : Option Nat) (rel : treeview_relationship)
    (field : treeview_field_data) (data : Nat) :
    Except Fault (nserror × State × Option Nat) := do
  c_assert (data ≠ 0)
  let _ ← load s tree.root
  let target := insert_target tree relation rel
  match addr with
  | none => pure (.NSERROR_NOMEM, s, none)
  | some n =>
    match s.heap n with
    | some _ => .error .alloc
    | none =>
      let s := store s n (new_folder g field data)
      let s ← treeview_insert_node g font_width fuel s n target.1 target.2
      pure (.NSERROR_OK, s, some n)

/-- The field-filling loop `for (i = 1; i < tree->n_fields; i++)` of
`treeview_create_node_entry`: the values of `fields[1 ..]` with width 0,
each checked against the schema. -/
def entry_fields_loop (tree : treeview) (fields : List treeview_field_data) :
    Nat → Nat → List treeview_field → Except Fault (List treeview_field)
  | 0, _, acc => .ok acc
  | k + 1, i, acc => do
    let fd ← (match fields.get? i with
      | some fd => pure fd
      | none => .error .null)
    c_assert (fd.field ≠ none)
    c_assert ((tree.fields.get? i).map (fun f => f.field) = some fd.field)
    entry_fields_loop tree fields k (i + 1)
      (acc ++ [{ flags := { dflt := false, show_name := false }, field := none,
                 value := { data := fd.value, len := fd.value_len, width := 0 } }])

/-- The record `treeview_create_node_entry` fills in before it inserts the
node: the primary text from `fields[0]`, the secondary slots `fs`. -/
def new_entry (g : treeview_globals) (f0 : treeview_field_data) (fs : List treeview_field)
    (data : Nat) : treeview_node :=
  { expanded := false, selected := false,
    type := .TREE_NODE_ENTRY,
    height := g.line_height,
    inset := 0,
    parent := none, sibling_prev := none, sibling_next := none, children := none,
    client_data := data,
    text := { flags := { dflt := false, show_name := false }, field := none,
              value := { data := f0.value, len := f0.value_len, width := 0 } },
    fields := fs }

/-- The function `treeview_create_node_entry`. -/
def treeview_create_node_entry (g : treeview_globals) (font_width : List Nat → Nat → Int)
    (fuel : Nat) (tree : treeview) (s : State) (addr : Option Nat)
    (relation : Option Nat) (rel : treeview_relationship)
    (fields : List treeview_field_data) (data : Nat) :
    Except Fault (nserror × State × Option Nat) := do
  c_assert (data ≠ 0)
  let _ ← load s tree.root
  let target := insert_target tree relation rel
  match addr with
  | none => pure (.NSERROR_NOMEM, s, none)
  | some n =>
    match s.heap n with
    | some _ => .error .alloc
    | none => do
      let f0 ← (match fields.get? 0 with
        | some fd => pure fd
        | none => .error .null)
      c_assert (f0.field ≠ none)
      c_assert ((tree.fields.get? 0).map (fun f => f.field) = some f0.field)
      let fs ← entry_fields_loop tree fields (tree.n_fields - 1).toNat 1 []
      let s := store s n (new_entry g f0 fs data)
      let s ← treeview_insert_node g font_width fuel s n target.1 target.2
      pure (.NSERROR_OK, s, some n)

/-! ## Deletion, creation and destruction of a tree -/

/-- The first statement of the block "Unlink node from tree" of
`treeview_delete_node`: `if (n->parent != NULL && n->parent->children == n)
n->parent->children = n->sibling_next; else if (n->sibling_prev != NULL)
n->sibling_prev->sibling_next = n->sibling_next;`. -/
def unlink_before (s : State) (n : Nat) : Except Fault State := do
  let nn ← load s n
  let is_first ← (match nn.parent with
    | some p => do pure (decide ((← load s p).children = some n))
    | none => pure false)
  if is_first then do
    let p ← ptr nn.parent
    modify s p (fun x => { x with children := nn.sibling_next })
  else
    match nn.sibling_prev with
    | some q => modify s q (fun x => { x with sibling_next := nn.sibling_next })
    | none => pure s

/-- The second statement of that block: `if (n->sibling_next != NULL)
n->sibling_next->sibling_prev = n->sibling_prev;`. -/
def unlink_after (s : State) (n : Nat) : Except Fault State := do
  let nn ← load s n
  match nn.sibling_next with
  | some q => modify s q (fun x => { x with sibling_prev := nn.sibling_prev })
  | none => pure s

/-- The block "Unlink node from tree" of `treeview_delete_node`. -/
def delete_unlink (s : State) (n : Nat) : Except Fault State := do
  let s ← unlink_before s n
  unlink_after s n

/-- The notification the block "Handle any special treatment" of
`treeview_delete_node` makes for a node: the entry callback for an entry, the
folder callback for a folder, none for the root, with the message
`TREE_MSG_NODE_DELETE` and the client data of the node. -/
def delete_event (n : treeview_node) : List Event :=
  match n.type with
  | .TREE_NODE_ENTRY => [.entry .TREE_MSG_NODE_DELETE n.client_data]
  | .TREE_NODE_FOLDER => [.folder .TREE_MSG_NODE_DELETE n.client_data]
  | .TREE_NODE_ROOT => []

mutual
/-- The function `treeview_delete_node (tree, n)`: destroys the children,
unlinks the node, notifies the host and frees the node. -/
def treeview_delete_node : Nat → treeview → State → Nat → Except Fault (nserror × State)
  | 0, _, _, _ => .error .fuel
  | fuel + 1, tree, s, n => do
    let s ← delete_children fuel tree s n
    let s ← delete_unlink s n
    let nn ← load s n
    let s := { s with events := s.events ++ delete_event nn }
    pure (.NSERROR_OK, free s n)
/-- The loop `while (n->children != NULL) treeview_delete_node(tree,
n->children);` of `treeview_delete_node`. -/
def delete_children : Nat → treeview → State → Nat → Except Fault State
  | 0, _, _, _ => .error .fuel
  | fuel + 1, tree, s, n => do
    let nn ← load s n
    match nn.children with
    | none => pure s
    | some c => do
      let (_, s) ← treeview_delete_node fuel tree s c
      delete_children fuel tree s n
end

/-- The schema loop of `treeview_create`: copies each field descriptor,
measures its name and keeps the largest width among the fields flagged
`TREE_FLAG_SHOW_NAME`. -/
def create_fields_loop (font_width : List Nat → Nat → Int) :
    List treeview_field_desc → Int → List treeview_field → List treeview_field × Int
  | [], fw, acc => (acc, fw)
  | d :: ds, fw, acc =>
    let f : treeview_field :=
      { flags := d.flags, field := some d.field,
        value := { data := d.field, len := d.field.length,
                   width := font_width d.field d.field.length } }
    let fw := if f.flags.show_name ∧ fw < f.value.width then f.value.width else fw
    create_fields_loop font_width ds fw (acc ++ [f])

/-- The function `treeview_create`; `mem` says whether the allocations of the
tree record and of its field array succeed, `addr` is what `malloc` returned
for the root node. -/
def treeview_create (g : treeview_globals) (font_width : List Nat → Nat → Int)
    (s : State) (mem : Bool) (addr : Option Nat)
    (n_fields : Int) (fields : List treeview_field_desc) :
    Except Fault (nserror × State × Option treeview) := do
  let first ← (match fields.get? 0 with
    | some d => pure d
    | none => .error .null)
  c_assert first.flags.dflt
  let last ← (match fields.get? (n_fields - 1).toNat with
    | some d => pure d
    | none => .error .null)
  c_assert last.flags.dflt
  c_assert (n_fields ≥ 2)
  if ¬ mem then pure (.NSERROR_NOMEM, s, none)
  else do
    let (err, s, root) ← treeview_create_node_root g s addr
    match root with
    | none => pure (err, s, none)
    | some r =>
      let (fs, fw) := create_fields_loop font_width (fields.take n_fields.toNat) 0 []
      pure (.NSERROR_OK, s,
        some { root := r, fields := fs, n_fields := n_fields - 1,
               field_width := fw + g.step_width })

/-- The function `treeview_destroy` (the schema strings it releases are not
state of the embedding). -/
def treeview_destroy (fuel : Nat) (tree : treeview) (s : State) : Except Fault (nserror × State) := do
  let (_, s) ← treeview_delete_node fuel tree s tree.root
  pure (.NSERROR_OK, s)

/-! ## The traversal -/

/-- The inner loop `while (node != root && node->sibling_next == NULL)
node = node->parent;` of `treeview_walk_internal`: the node it stops at. -/
def walk_ascend : Nat → State → Nat → Nat → Except Fault Nat
  | 0, _, _, _ => .error .fuel
  | fuel + 1, s, root, node =>
    if node = root then .ok node
    else do
      let n ← load s node
      match n.sibling_next with
      | some _ => .ok node
      | none =>
        let p ← ptr n.parent
        walk_ascend fuel s root p

/-- The loop `while (node != NULL)` of `treeview_walk_internal`, entered with
the current `node`; the callback gets the node, the memory and its context and
returns whether to abort, with the memory and context it leaves. -/
def walk_loop {σ : Type} (full : Bool)
    (callback : Nat → State → σ → Except Fault (Bool × State × σ)) (root : Nat) :
    Nat → Nat → State → σ → Except Fault (Bool × State × σ)
  | 0, _, _, _ => .error .fuel
  | fuel + 1, node, s, ctx => do
    let n ← load s node
    let next := if full || n.expanded then n.children else none
    match next with
    | some child =>
      if child = root then .error .assertion
      else do
        let (stop, s, ctx) ← callback child s ctx
        if stop then pure (true, s, ctx)
        else walk_loop full callback root fuel child s ctx
    | none => do
      let up ← walk_ascend fuel s root node
      if up = root then pure (false, s, ctx)
      else do
        let nu ← load s up
        match nu.sibling_next with
        | none => .error .assertion
        | some sib =>
          if sib = root then .error .assertion
          else do
            let (stop, s, ctx) ← callback sib s ctx
            if stop then pure (true, s, ctx)
            else walk_loop full callback root fuel sib s ctx

/-- The function `treeview_walk_internal (root, full, callback, ctx)`. -/
def treeview_walk_internal {σ : Type} (fuel : Nat) (root : Option Nat) (full : Bool)
    (callback : Nat → State → σ → Except Fault (Bool × State × σ)) (s : State) (ctx : σ) :
    Except Fault (Bool × State × σ) :=
  match root with
  | none => .ok (false, s, ctx)
  | some r => walk_loop full callback r fuel r s ctx

/-! ## Expanding and contracting -/

/-- The folder loop `do { ... } while (child != NULL);` of
`treeview_node_expand`: asserts the child collapsed, measures its text if its
width is the 0 sentinel and adds its height to `additional_height`. -/
def expand_children_loop (font_width : List Nat → Nat → Int) :
    Nat → State → Nat → Int → Except Fault (State × Int)
  | 0, _, _, _ => .error .fuel
  | fuel + 1, s, child, additional_height => do
    let nc ← load s child
    c_assert (nc.expanded = false)
    let s ← (if nc.text.value.width = 0 then
        modify s child (fun n => { n with text := { n.text with value :=
          { n.text.value with width := font_width n.text.value.data n.text.value.len } } })
      else pure s)
    let nc ← load s child
    let additional_height := additional_height + nc.height
    match nc.sibling_next with
    | some next => expand_children_loop font_width fuel s next additional_height
    | none => pure (s, additional_height)

/-- Measuring slot `i` of the field array of an entry, when its width is the
0 sentinel. -/
def measure_field (font_width : List Nat → Nat → Int) (i : Nat) :
    List treeview_field → List treeview_field
  | [] => []
  | f :: fs =>
    match i with
    | 0 => { f with value := { f.value with width := font_width f.value.data f.value.len } } :: fs
    | j + 1 => f :: measure_field font_width j fs

/-- The entry loop `for (i = 0; i < tree->n_fields - 1; i++)` of
`treeview_node_expand`. -/
def expand_fields_loop (g : treeview_globals) (font_width : List Nat → Nat → Int)
    (tree : treeview) (node : Nat) : Nat → Nat → State → Int → Except Fault (State × Int)
  | 0, _, _, _ => .error .fuel
  | fuel + 1, i, s, additional_height =>
    if (i : Int) < tree.n_fields - 1 then do
      let e ← load s node
      let f ← (match e.fields.get? i with
        | some f => pure f
        | none => .error .null)
      let s ← (if f.value.width = 0 then
          modify s node (fun n => { n with fields := measure_field font_width i n.fields })
        else pure s)
      expand_fields_loop g font_width tree node fuel (i + 1) s (additional_height + g.line_height)
    else pure (s, additional_height)

/-- The loop `do { node->height += additional_height; node = node->parent; }
while (node->parent != NULL);` of `treeview_node_expand`: the memory and the
node it stops at. -/
def expand_height_loop (additional_height : Int) : Nat → State → Nat → Except Fault (State × Nat)
  | 0, _, _ => .error .fuel
  | fuel + 1, s, node => do
    let s ← modify s node (fun n => { n with height := n.height + additional_height })
    let p ← ptr (← load s node).parent
    let np ← load s p
    match np.parent with
    | some _ => expand_height_loop additional_height fuel s p
    | none => pure (s, p)

/-- The function `treeview_node_expand (tree, node)`. -/
def treeview_node_expand (g : treeview_globals) (font_width : List Nat → Nat → Int)
    (fuel : Nat) (tree : treeview) (s : State) (node : Nat) : Except Fault (nserror × State) := do
  let n ← load s node
  if n.expanded then pure (.NSERROR_OK, s)
  else
    match n.type with
    | .TREE_NODE_FOLDER =>
      match n.children with
      | none => pure (.NSERROR_OK, s)
      | some child => do
        let (s, additional_height) ← expand_children_loop font_width fuel s child 0
        let s ← modify s node (fun x => { x with expanded := true })
        let (s, top) ← expand_height_loop additional_height fuel s node
        let s ← modify s top (fun x => { x with height := x.height + additional_height })
        pure (.NSERROR_OK, s)
    | .TREE_NODE_ENTRY => do
      c_assert (n.children = none)
      let (s, additional_height) ← expand_fields_loop g font_width tree node fuel 0 s 0
      let s ← modify s node (fun x => { x with expanded := true })
      let (s, top) ← expand_height_loop additional_height fuel s node
      let s ← modify s top (fun x => { x with height := x.height + additional_height })
      pure (.NSERROR_OK, s)
    | .TREE_NODE_ROOT => .error .assertion

/-- The loop `do { node->height -= height_reduction; node = node->parent; }
while (node->parent != NULL && node->parent->flags & TREE_NODE_EXPANDED);` of
`treeview_node_contract_cb`. -/
def contract_height_loop (height_reduction : Int) : Nat → State → Nat → Except Fault State
  | 0, _, _ => .error .fuel
  | fuel + 1, s, node => do
    let s ← modify s node (fun n => { n with height := n.height - height_reduction })
    let p ← ptr (← load s node).parent
    let np ← load s p
    match np.parent with
    | none => pure s
    | some pp =>
      if (← load s pp).expanded then contract_height_loop height_reduction fuel s p
      else pure s

/-- The callback `treeview_node_contract_cb (node, ctx)`; `fuel` bounds its
height loop. -/
def treeview_node_contract_cb (g : treeview_globals) (fuel : Nat)
    (node : Nat) (s : State) (ctx : Unit) : Except Fault (Bool × State × Unit) := do
  let n ← load s node
  c_assert (n.type ≠ .TREE_NODE_ROOT)
  if n.expanded = false then pure (false, s, ctx)
  else do
    let s ← modify s node (fun x => { x with expanded := !x.expanded })
    let height_reduction := (← load s node).height - g.line_height
    c_assert (height_reduction ≥ 0)
    let s ← contract_height_loop height_reduction fuel s node
    pure (false, s, ctx)

/-- The function `treeview_node_contract (tree, node)`. -/
def treeview_node_contract (g : treeview_globals) (fuel : Nat) (_tree : treeview)
    (s : State) (node : Nat) : Except Fault (nserror × State) := do
  let n ← load s node
  if n.expanded = false then pure (.NSERROR_OK, s)
  else do
    let (_, s, _) ← treeview_walk_internal fuel (some node) false
      (treeview_node_contract_cb g fuel) s ()
    let (_, s, _) ← treeview_node_contract_cb g fuel node s ()
    pure (.NSERROR_OK, s)

/-- The secondary slots with the text of slot `i` replaced (`value.data` and
`value.len`), its cached width left as it is. -/
def set_field_text (i : Nat) (data : List Nat) (len : Nat) :
    List treeview_field → List treeview_field
  | [] => []
  | f :: fs =>
    match i with
    | 0 => { f with value := { f.value with data := data, len := len } } :: fs
    | j + 1 => f :: set_field_text j data len fs

/-- The secondary slots with the cached width of slot `i` set to 0. -/
def invalidate_field (i : Nat) : List treeview_field → List treeview_field
  | [] => []
  | f :: fs =>
    match i with
    | 0 => { f with value := { f.value with width := 0 } } :: fs
    | j + 1 => f :: invalidate_field j fs

/-- The loop `for (i = 1; i < tree->n_fields; i++)` of
`treeview_update_node_entry`, with `k` iterations left: the checks on
`fields[i]`, the new text of the slot `i - 1`, and its width, measured when the
entry is expanded and set to 0 otherwise. -/
def update_fields_loop (font_width : List Nat → Nat → Int) (tree : treeview)
    (fields : List treeview_field_data) (entry : Nat) :
    Nat → Nat → State → Except Fault State
  | 0, _, s => .ok s
  | k + 1, i, s => do
    let fd ← (match fields.get? i with
      | some fd => pure fd
      | none => .error .null)
    c_assert (fd.field ≠ none)
    c_assert ((tree.fields.get? i).map (fun f => f.field) = some fd.field)
    let e ← load s entry
    let _ ← (match e.fields.get? (i - 1) with
      | some f => pure f
      | none => .error .null)
    let s ← modify s entry
      (fun n => { n with fields := set_field_text (i - 1) fd.value fd.value_len n.fields })
    let e ← load s entry
    let s ← (if e.expanded then
        modify s entry (fun n => { n with fields := measure_field font_width (i - 1) n.fields })
      else modify s entry (fun n => { n with fields := invalidate_field (i - 1) n.fields }))
    update_fields_loop font_width tree fields entry k (i + 1) s

/-- The statements of `treeview_update_node_entry` before its loop: the
assertions, the new primary text from `fields[0]`, and its width, measured
when the parent of the entry is expanded and set to 0 otherwise. -/
def update_text (font_width : List Nat → Nat → Int) (tree : treeview)
    (s : State) (entry : Nat) (fields : List treeview_field_data) (data : Nat) :
    Except Fault State := do
  c_assert (data ≠ 0)
  let e ← load s entry
  c_assert (data = e.client_data)
  c_assert (e.parent ≠ none)
  let f0 ← (match fields.get? 0 with
    | some fd => pure fd
    | none => .error .null)
  c_assert (f0.field ≠ none)
  c_assert ((tree.fields.get? 0).map (fun f => f.field) = some f0.field)
  let s ← modify s entry (fun n => { n with text := { n.text with value :=
    { data := f0.value, len := f0.value_len, width := 0 } } })
  let e ← load s entry
  let p ← ptr e.parent
  let np ← load s p
  if np.expanded then
    modify s entry (fun n => { n with text := { n.text with value :=
      { n.text.value with width := font_width n.text.value.data n.text.value.len } } })
  else
    modify s entry (fun n => { n with text := { n.text with value :=
      { n.text.value with width := 0 } } })

/-- The function `treeview_update_node_entry (tree, entry, fields, data)`. -/
def treeview_update_node_entry (font_width : List Nat → Nat → Int) (tree : treeview)
    (s : State) (entry : Nat) (fields : List treeview_field_data) (data : Nat) :
    Except Fault (nserror × State) := do
  let s ← update_text font_width tree s entry fields data
  let s ← update_fields_loop font_width tree fields entry (tree.n_fields - 1).toNat 1 s
  pure (.NSERROR_OK, s)

/-! ## Selection -/

/-- The constant `REDRAW_MAX`. -/
def REDRAW_MAX : Int := 8000

/-- The member `purpose` of `struct treeview_selection_walk_data`. -/
inductive selection_walk_purpose where
  | TREEVIEW_WALK_HAS_SELECTION
  | TREEVIEW_WALK_CLEAR_SELECTION
  | TREEVIEW_WALK_SELECT_ALL
  deriving DecidableEq

/-- The record `struct treeview_selection_walk_data`.  The two members of its
union are kept as separate fields (a walk uses only the one that belongs to
its purpose), and `rect` is the rectangle the caller handed in by pointer. -/
structure treeview_selection_walk_data where
  purpose : selection_walk_purpose
  has_selection : Bool
  required : Bool
  rect : rect
  current_y : Int
  deriving DecidableEq

/-- The height of the row of a node: `(node->type == TREE_NODE_ENTRY) ?
node->height : tree_g.line_height`. -/
def node_row_height (g : treeview_globals) (n : treeview_node) : Int :=
  if n.type = .TREE_NODE_ENTRY then n.height else g.line_height

/-- The block `if (changed) { ... }` of `treeview_node_selection_walk_cb`. -/
def selection_mark (sw : treeview_selection_walk_data) (height : Int) :
    treeview_selection_walk_data :=
  let sw := if sw.required = false then
      { sw with required := true, rect := { sw.rect with y0 := sw.current_y - height } }
    else sw
  if sw.current_y > sw.rect.y1 then { sw with rect := { sw.rect with y1 := sw.current_y } }
  else sw

/-- The callback `treeview_node_selection_walk_cb (node, ctx)`. -/
def treeview_node_selection_walk_cb (g : treeview_globals) (node : Nat) (s : State)
    (sw : treeview_selection_walk_data) :
    Except Fault (Bool × State × treeview_selection_walk_data) := do
  let n ← load s node
  let height := node_row_height g n
  let sw := { sw with current_y := sw.current_y + height }
  match sw.purpose with
  | .TREEVIEW_WALK_HAS_SELECTION =>
    if n.selected then pure (true, s, { sw with has_selection := true })
    else pure (false, s, sw)
  | .TREEVIEW_WALK_CLEAR_SELECTION =>
    if n.selected then do
      let s ← modify s node (fun x => { x with selected := !x.selected })
      pure (false, s, selection_mark sw height)
    else pure (false, s, sw)
  | .TREEVIEW_WALK_SELECT_ALL =>
    if ¬ n.selected then do
      let s ← modify s node (fun x => { x with selected := !x.selected })
      pure (false, s, selection_mark sw height)
    else pure (false, s, sw)

/-- The function `treeview_has_selection (tree)`.  The C code leaves
`current_y` and the rectangle of the walk data uninitialised; they do not
enter the result and start at 0 here. -/
def treeview_has_selection (g : treeview_globals) (fuel : Nat) (tree : treeview) (s : State) :
    Except Fault (Bool × State) := do
  let sw : treeview_selection_walk_data :=
    { purpose := .TREEVIEW_WALK_HAS_SELECTION, has_selection := false, required := false,
      rect := { x0 := 0, y0 := 0, x1 := 0, y1 := 0 }, current_y := 0 }
  let (_, s, sw) ← treeview_walk_internal fuel (some tree.root) false
    (treeview_node_selection_walk_cb g) s sw
  pure (sw.has_selection, s)

/-- The common body of `treeview_clear_selection` and `treeview_select_all`:
the rectangle is reset, the walk is run for `purpose`, and the flag
`sw.data.redraw.required` is returned with the rectangle. -/
def selection_walk (g : treeview_globals) (fuel : Nat) (tree : treeview) (s : State)
    (purpose : selection_walk_purpose) : Except Fault (Bool × State × rect) := do
  let sw : treeview_selection_walk_data :=
    { purpose := purpose, has_selection := false, required := false,
      rect := { x0 := 0, y0 := 0, x1 := REDRAW_MAX, y1 := 0 }, current_y := 0 }
  let (_, s, sw) ← treeview_walk_internal fuel (some tree.root) false
    (treeview_node_selection_walk_cb g) s sw
  pure (sw.required, s, sw.rect)

/-- The function `treeview_clear_selection (tree, rect)`: the returned flag,
the memory and the rectangle written through `rect`. -/
def treeview_clear_selection (g : treeview_globals) (fuel : Nat) (tree : treeview) (s : State) :
    Except Fault (Bool × State × rect) :=
  selection_walk g fuel tree s .TREEVIEW_WALK_CLEAR_SELECTION

/-- The function `treeview_select_all (tree, rect)`. -/
def treeview_select_all (g : treeview_globals) (fuel : Nat) (tree : treeview) (s : State) :
    Except Fault (Bool × State × rect) :=
  selection_walk g fuel tree s .TREEVIEW_WALK_SELECT_ALL

/-! ## Pointer input -/

/-- The bit masks of `browser_mouse_state` that the treeview tests.  The enum
is declared in a header that is not among the sources, so the masks are a
parameter of the pointer functions. -/
structure browser_mouse_masks where
  BROWSER_MOUSE_PRESS_1 : Nat
  BROWSER_MOUSE_PRESS_2 : Nat
  BROWSER_MOUSE_CLICK_1 : Nat
  BROWSER_MOUSE_CLICK_2 : Nat
  BROWSER_MOUSE_DOUBLE_CLICK : Nat
  BROWSER_MOUSE_MOD_2 : Nat
  deriving DecidableEq

/-- The test `mouse & mask` of C, as a truth value. -/
def mouse_has (mouse mask : Nat) : Bool := (mouse &&& mask) != 0

/-- The record `struct treeview_mouse_action`, the context of the pointer
walk. -/
structure treeview_mouse_action_ctx where
  tree : treeview
  mouse : Nat
  x : Int
  y : Int
  current_y : Int
  deriving DecidableEq

/-- The part of `treeview_node_mouse_action_cb` that follows the test "Skip
line if we have not reached mouse y": what is done on the row that was hit;
`n` is the record of `node` read on entry and `height` its row height.  The
members `y0` and `y1` of the local rectangle, uninitialised in C until
written, start at 0.  The notification of a launched entry is written in the
source with the names `tree` and `n` of `treeview_delete_node`; it is read
here as the entry callback of `ma->tree` with the client data of `node`. -/
def mouse_action_hit (g : treeview_globals) (font_width : List Nat → Nat → Int)
    (m : browser_mouse_masks) (fuel : Nat) (node : Nat) (n : treeview_node) (height : Int)
    (s : State) (ma : treeview_mouse_action_ctx) : Except Fault State := do
  let r : rect := { x0 := 0, y0 := 0, x1 := REDRAW_MAX, y1 := 0 }
  let toggle : Bool := decide (ma.x ≥ n.inset - 1 ∧ ma.x < n.inset + g.step_width)
  let click : Bool :=
    mouse_has ma.mouse (m.BROWSER_MOUSE_CLICK_1 ||| m.BROWSER_MOUSE_CLICK_2)
  let dbl : Bool := mouse_has ma.mouse m.BROWSER_MOUSE_DOUBLE_CLICK
  let (s, r, redraw, action) ←
    (if (decide (n.type = .TREE_NODE_FOLDER) && dbl && click) || (toggle && click) then do
      let (_, s, r) ← treeview_clear_selection g fuel ma.tree s
      let n1 ← load s node
      let (_, s) ← (if n1.expanded then treeview_node_contract g fuel ma.tree s node
        else treeview_node_expand g font_width fuel ma.tree s node)
      let r := { r with y0 := if r.y0 > ma.current_y then ma.current_y else r.y0 }
      pure (s, { r with y1 := REDRAW_MAX }, true, false)
    else if decide (n.type = .TREE_NODE_ENTRY) && dbl && click then do
      let (c, s, r) ← treeview_clear_selection g fuel ma.tree s
      let n1 ← load s node
      pure (emit s (.entry (.TREE_MSG_NODE_LAUNCH ma.mouse) n1.client_data), r, c, false)
    else if mouse_has ma.mouse m.BROWSER_MOUSE_PRESS_1 && !n.selected && !toggle then do
      let (c, s, r) ← treeview_clear_selection g fuel ma.tree s
      pure (s, r, c, true)
    else if mouse_has ma.mouse m.BROWSER_MOUSE_PRESS_2 ||
        (mouse_has ma.mouse m.BROWSER_MOUSE_PRESS_1 &&
          mouse_has ma.mouse m.BROWSER_MOUSE_MOD_2) then
      pure (s, r, false, true)
    else pure (s, r, false, false) : Except Fault (State × rect × Bool × Bool))
  let (s, r, redraw) ←
    (if action then do
      let s ← modify s node (fun x => { x with selected := !x.selected })
      if redraw = false then
        pure (s, { r with y0 := ma.current_y, y1 := ma.current_y + height }, true)
      else
        let r := { r with y0 := if r.y0 > ma.current_y then ma.current_y else r.y0 }
        pure (s, { r with y1 := if r.y1 < ma.current_y + height then ma.current_y + height
                                 else r.y1 }, true)
    else pure (s, r, redraw) : Except Fault (State × rect × Bool))
  pure (if redraw then emit s (.redraw_request r) else s)

/-- The callback `treeview_node_mouse_action_cb (node, ctx)`; `fuel` bounds
the walks and loops of the calls it makes. -/
def treeview_node_mouse_action_cb (g : treeview_globals) (font_width : List Nat → Nat → Int)
    (m : browser_mouse_masks) (fuel : Nat) (node : Nat) (s : State)
    (ma : treeview_mouse_action_ctx) :
    Except Fault (Bool × State × treeview_mouse_action_ctx) := do
  let n ← load s node
  let height := node_row_height g n
  if ma.y > ma.current_y + height then
    pure (false, s, { ma with current_y := ma.current_y + height })
  else do
    let s ← mouse_action_hit g font_width m fuel node n height s ma
    pure (true, s, ma)

/-- The function `treeview_mouse_action (tree, mouse, x, y)`. -/
def treeview_mouse_action (g : treeview_globals) (font_width : List Nat → Nat → Int)
    (m : browser_mouse_masks) (fuel : Nat) (tree : treeview) (s : State)
    (mouse : Nat) (x y : Int) : Except Fault State := do
  let (_, s, _) ← treeview_walk_internal fuel (some tree.root) false
    (treeview_node_mouse_action_cb g font_width m fuel) s
    { tree := tree, mouse := mouse, x := x, y := y, current_y := 0 }
  pure s

/-! ## Redraw -/

/-- The members of `struct treeview_node_style`. -/
inductive style_member where
  | bg
  | text
  | itext
  | sbg
  | stext
  | sitext
  deriving DecidableEq

/-- A pointer to a member of `plot_style_odd` (`odd = true`) or of
`plot_style_even`. -/
structure style_ref where
  odd : Bool
  member : style_member
  deriving DecidableEq

inductive treeview_resource_id where
  | TREE_RES_CONTENT
  | TREE_RES_FOLDER
  | TREE_RES_SEARCH
  deriving DecidableEq

/-- The members of `struct treeview_resource` that `treeview_redraw` reads. -/
structure treeview_resource where
  height : Int
  ready : Bool
  deriving DecidableEq

/-- What `treeview_redraw` reads besides the tree and `tree_g`: the option
`ctx->plot->option_knockout` of the plotter, the table `treeview_res` and the
two texts of the table `treeview_furn`. -/
structure redraw_env where
  option_knockout : Bool
  treeview_res : treeview_resource_id → treeview_resource
  TREE_FURN_EXPAND : treeview_text
  TREE_FURN_CONTRACT : treeview_text

/-- One call `treeview_redraw` makes on the plotter, on the knockout layer or
on the content of an icon.  A content redraw is given the resource, the
members `x` and `y` of its `content_redraw_data` (the other members are
constants), the background style whose fill colour it takes, and the clip
rectangle. -/
inductive Plot where
  | knockout_plot_start
  | knockout_plot_end
  | clip (r : rect)
  | rectangle (x0 y0 x1 y1 : Int) (style : style_ref)
  | text (x y : Int) (data : List Nat) (len : Nat) (style : style_ref)
  | content_redraw (res : treeview_resource_id) (x y : Int) (background : style_ref)
      (clip : rect)
  deriving DecidableEq

/-- The local variables of `treeview_redraw` that live across the iterations
of its loop, and the calls made so far. -/
structure redraw_vars where
  count : Nat
  render_y : Int
  res : treeview_resource_id
  plots : List Plot
  deriving DecidableEq

/-- The loop `for (i = 0; i < tree->n_fields - 1; i++)` of `treeview_redraw`
over the fields of the expanded entry `n`. -/
def redraw_fields_loop (g : treeview_globals) (tree : treeview) (n : treeview_node)
    (x0 baseline : Int) (infotext_style : style_ref) :
    Nat → Nat → Int → List Plot → Except Fault (Int × List Plot)
  | 0, _, _, _ => .error .fuel
  | fuel + 1, i, render_y, plots =>
    if (i : Int) < tree.n_fields - 1 then do
      let ef ← (match tree.fields.get? (i + 1) with
        | some f => pure f
        | none => .error .null)
      let e ← (match n.fields.get? i with
        | some f => pure f
        | none => .error .null)
      let plots :=
        if ef.flags.show_name then
          plots ++ [.text (x0 + tree.field_width - ef.value.width - g.step_width)
              (render_y + baseline) ef.value.data ef.value.len infotext_style,
            .text (x0 + tree.field_width) (render_y + baseline) e.value.data e.value.len
              infotext_style]
        else plots ++ [.text x0 (render_y + baseline) e.value.data e.value.len infotext_style]
      redraw_fields_loop g tree n x0 baseline infotext_style fuel (i + 1)
        (render_y + g.line_height) plots
    else pure (render_y, plots)

/-- The body of the loop of `treeview_redraw` from the assertion on the node
type on, for the record `n` of the node the traversal has moved to; `r` is the
clip rectangle in plot coordinates.  The result says whether the loop is left
(`break`) or goes on (`continue`, or the end of the body). -/
def redraw_row (env : redraw_env) (g : treeview_globals) (tree : treeview) (r : rect)
    (fuel : Nat) (n : treeview_node) (v : redraw_vars) : Except Fault (Bool × redraw_vars) := do
  c_assert (n.type = .TREE_NODE_FOLDER || n.type = .TREE_NODE_ENTRY)
  let baseline : Int := Int.tdiv (g.line_height * 3 + 2) 4
  let count := (v.count + 1) % 2 ^ 32
  let inset := n.inset
  let height := if n.type = .TREE_NODE_ENTRY then n.height else g.line_height
  if v.render_y + height < r.y0 then
    pure (false, { v with count := count, render_y := v.render_y + height })
  else do
    let odd : Bool := count % 2 = 1
    let bg_style : style_ref := { odd := odd, member := if n.selected then .sbg else .bg }
    let text_style : style_ref := { odd := odd, member := if n.selected then .stext else .text }
    let infotext_style : style_ref :=
      { odd := odd, member := if n.selected then .sitext else .itext }
    let plots := v.plots ++
      [.rectangle r.x0 v.render_y r.x1 (v.render_y + height) bg_style]
    let furn := if n.expanded then env.TREE_FURN_CONTRACT else env.TREE_FURN_EXPAND
    let plots := plots ++ [.text inset (v.render_y + baseline) furn.data furn.len text_style]
    let res :=
      if n.type = .TREE_NODE_ENTRY then .TREE_RES_CONTENT
      else if n.type = .TREE_NODE_FOLDER then .TREE_RES_FOLDER
      else v.res
    let plots :=
      if (env.treeview_res res).ready then
        plots ++ [.content_redraw res (inset + g.step_width)
          (v.render_y + Int.tdiv (g.line_height - (env.treeview_res res).height + 1) 2)
          bg_style r]
      else plots
    let x0 := inset + g.step_width + g.icon_step
    let plots := plots ++
      [.text x0 (v.render_y + baseline) n.text.value.data n.text.value.len text_style]
    let render_y := v.render_y + g.line_height
    if render_y > r.y1 then
      pure (true, { count := count, render_y := render_y, res := res, plots := plots })
    else if n.type ≠ .TREE_NODE_ENTRY || !n.expanded then
      pure (false, { count := count, render_y := render_y, res := res, plots := plots })
    else do
      let (render_y, plots) ←
        redraw_fields_loop g tree n x0 baseline infotext_style fuel 0 render_y plots
      pure (decide (render_y > r.y1),
        { count := count, render_y := render_y, res := res, plots := plots })

/-- The body `redraw_row` on the node at `node`, as a callback of the
traversal: the tree is not written. -/
def redraw_node (env : redraw_env) (g : treeview_globals) (tree : treeview) (r : rect)
    (fuel : Nat) (node : Nat) (s : State) (v : redraw_vars) :
    Except Fault (Bool × State × redraw_vars) := do
  let n ← load s node
  let (stop, v) ← redraw_row env g tree r fuel n v
  pure (stop, s, v)

/-- The loop `while (node != NULL)` of `treeview_redraw`, entered with the
current `node`: the traversal written out in the function, then the body
`redraw_node`, whose field loop is bounded by `inner`. -/
def redraw_loop (env : redraw_env) (g : treeview_globals) (tree : treeview) (r : rect)
    (root : Nat) (inner : Nat) : Nat → Nat → State → redraw_vars → Except Fault redraw_vars
  | 0, _, _, _ => .error .fuel
  | fuel + 1, node, s, v => do
    let n ← load s node
    let next := if n.expanded then n.children else none
    match next with
    | some child =>
      if child = root then .error .assertion
      else do
        let (stop, _, v) ← redraw_node env g tree r inner child s v
        if stop then pure v
        else redraw_loop env g tree r root inner fuel child s v
    | none => do
      let up ← walk_ascend fuel s root node
      if up = root then pure v
      else do
        let nu ← load s up
        match nu.sibling_next with
        | none => .error .assertion
        | some sib =>
          if sib = root then .error .assertion
          else do
            let (stop, _, v) ← redraw_node env g tree r inner sib s v
            if stop then pure v
            else redraw_loop env g tree r root inner fuel sib s v

/-- The function `treeview_redraw (tree, x, y, clip, ctx)`: the calls it makes,
in order.  The tree is read and not written. -/
def treeview_redraw (env : redraw_env) (g : treeview_globals) (fuel : Nat) (tree : treeview)
    (s : State) (x y : Int) (clip : rect) : Except Fault (List Plot) := do
  let root ← load s tree.root
  c_assert root.expanded
  let plots : List Plot := if env.option_knockout then [.knockout_plot_start] else []
  let r : rect :=
    { x0 := clip.x0 + x, y0 := clip.y0 + y, x1 := clip.x1 + x, y1 := clip.y1 + y }
  let plots := plots ++ [.clip r]
  let v ← redraw_loop env g tree r tree.root fuel fuel tree.root s
    { count := 0, render_y := y, res := .TREE_RES_CONTENT, plots := plots }
  let plots :=
    if v.render_y < r.y1 then
      v.plots ++ [.rectangle r.x0 v.render_y r.x1 r.y1 { odd := false, member := .bg }]
    else v.plots
  pure (if env.option_knockout then plots ++ [.knockout_plot_end] else plots)

/-! ## Abstract shape of a (sub)tree -/

/-- A list of sibling subtrees in first-child/next-sibling form: `cons id kids
rest` is the node at address `id`, its children `kids`, and its following
siblings `rest`. -/
inductive Forest where
  | nil : Forest
  | cons (id : Nat) (kids : Forest) (rest : Forest) : Forest
  deriving DecidableEq

namespace Forest

def first : Forest → Option Nat
  | nil => none
  | cons id _ _ => some id

/-- Every node of the forest, in depth-first pre-order. -/
def ids : Forest → List Nat
  | nil => []
  | cons id k r => id :: (k.ids ++ r.ids)

/-- The top-level nodes, in sibling order. -/
def tops : Forest → List Nat
  | nil => []
  | cons id _ r => id :: r.tops

def size : Forest → Nat
  | nil => 0
  | cons _ k r => 1 + k.size + r.size

/-- Depth-first pre-order in which the children of a node are listed only when
the node is `opened`. -/
def preorder (opened : Nat → Bool) : Forest → List Nat
  | nil => []
  | cons id k r => id :: ((if opened id then k.preorder opened else []) ++ r.preorder opened)

/-- Depth-first post-order. -/
def postorder : Forest → List Nat
  | nil => []
  | cons id k r => k.postorder ++ [id] ++ r.postorder

end Forest

/-- The memory `s` holds the forest `f` as the sibling chain whose nodes have
parent `p` and whose first node has previous sibling `prev`: every link of
every node of `f` is as the shape says. -/
def Rep (s : State) : Option Nat → Option Nat → Forest → Prop
  | _, _, .nil => True
  | p, prev, .cons id k r =>
    (match s.heap id with
      | some n => n.parent = p ∧ n.sibling_prev = prev ∧ n.children = k.first ∧
          n.sibling_next = r.first
      | none => False) ∧ Rep s (some id) none k ∧ Rep s p (some id) r

instance Rep.decidable (s : State) : ∀ (f : Forest) (p prev : Option Nat), Decidable (Rep s p prev f)
  | .nil, _, _ => isTrue trivial
  | .cons id k r, p, prev => by
    unfold Rep
    have := Rep.decidable s k (some id) none
    have := Rep.decidable s r p (some id)
    cases h : s.heap id <;> simp only [] <;> infer_instance

/-- Whether the walk descends below the node at `a`: `full ||
(node->flags & TREE_NODE_EXPANDED)`. -/
def isOpen (s : State) (full : Bool) (a : Nat) : Bool :=
  full || (match s.heap a with
    | some n => n.expanded
    | none => false)

/-- Calling the callback on the nodes of a list in turn, stopping at the first
call that returns `true`. -/
def iterate_cb {σ : Type} (callback : Nat → State → σ → Except Fault (Bool × State × σ)) :
    List Nat → State → σ → Except Fault (Bool × State × σ)
  | [], s, ctx => .ok (false, s, ctx)
  | n :: ns, s, ctx =>
    match callback n s ctx with
    | .error e => .error e
    | .ok (true, s, ctx) => .ok (true, s, ctx)
    | .ok (false, s, ctx) => iterate_cb callback ns s ctx

/-- The flag and the links of a node that the traversal reads. -/
def links (n : treeview_node) : Bool × Option Nat × Option Nat × Option Nat × Option Nat :=
  (n.expanded, n.parent, n.sibling_prev, n.sibling_next, n.children)

/-- Two memories hold the same nodes with the same links and expanded flags. -/
def LinkEq (s0 s : State) : Prop :=
  ∀ a, (s.heap a).map links = (s0.heap a).map links


/-- The node at `root` holds the forest `f` as its children: its child pointer
is the first node of `f`, every node of `f` is linked as the shape says, and
`root` is not among its own descendants.  (The parent and the siblings of
`root` are not constrained.) -/
def SubtreeAt (s : State) (root : Nat) (f : Forest) : Prop :=
  (match s.heap root with
    | some n => n.children = f.first
    | none => False) ∧ Rep s (some root) none f ∧ root ∉ f.ids

instance SubtreeAt.decidable (s : State) (root : Nat) (f : Forest) : Decidable (SubtreeAt s root f) := by
  unfold SubtreeAt
  cases h : s.heap root <;> simp only [] <;> infer_instance

/-- The sequence of nodes the walk below `root` is to visit: the strict
descendants of `root` in depth-first pre-order, children in sibling order,
the children of a node (`root` included) only if `full` or the node is
expanded. -/
def walk_order (s : State) (full : Bool) (root : Nat) (f : Forest) : List Nat :=
  if isOpen s full root then f.preorder (isOpen s full) else []

/-- The nodes on which a walk along the list `l` calls a callback that acts on
its context as `g` and asks to abort as `stop` says: the nodes up to and
including the first one at which `stop` holds. -/
def visited_upto {σ : Type} (stop : σ → Nat → Bool) (g : σ → Nat → σ) : List Nat → σ → List Nat
  | [], _ => []
  | x :: xs, c => if stop c x then [x] else x :: visited_upto stop g xs (g c x)

/-- Whether `stop` holds at some call of that walk. -/
def walk_aborted {σ : Type} (stop : σ → Nat → Bool) (g : σ → Nat → σ) : List Nat → σ → Bool
  | [], _ => false
  | x :: xs, c => stop c x || walk_aborted stop g xs (g c x)

/-- The notifications of the nodes of a list, in the order of the list, as
`treeview_delete_node` makes them for the records held in `s`. -/
def delete_events (s : State) : List Nat → List Event
  | [] => []
  | a :: l =>
    (match s.heap a with
      | some n => delete_event n
      | none => []) ++ delete_events s l

/-! ## Pieces of the traversal loop, named for the proofs -/

/-- The tail of one iteration of the loop of `treeview_walk_internal` once the
next node `x` is chosen: the assertion `node != root`, the callback, and the
rest of the loop. -/
def walk_visit {σ : Type} (full : Bool)
    (callback : Nat → State → σ → Except Fault (Bool × State × σ)) (root : Nat)
    (fuel : Nat) (x : Nat) (s : State) (ctx : σ) : Except Fault (Bool × State × σ) :=
  if x = root then .error .assertion
  else
    match callback x s ctx with
    | .error e => .error e
    | .ok (true, s, ctx) => .ok (true, s, ctx)
    | .ok (false, s, ctx) => walk_loop full callback root fuel x s ctx

/-- The branch "no children" of one iteration of the loop of
`treeview_walk_internal`, entered at `node`. -/
def walk_else {σ : Type} (full : Bool)
    (callback : Nat → State → σ → Except Fault (Bool × State × σ)) (root : Nat)
    (inner outer : Nat) (node : Nat) (s : State) (ctx : σ) : Except Fault (Bool × State × σ) :=
  match walk_ascend inner s root node with
  | .error e => .error e
  | .ok up =>
    if up = root then .ok (false, s, ctx)
    else
      match s.heap up with
      | none => .error .null
      | some nu =>
        match nu.sibling_next with
        | none => .error .assertion
        | some sib => walk_visit full callback root outer sib s ctx

/-- Sequencing of two stretches of a walk: the second runs unless the first
failed or was aborted. -/
def andThen {σ : Type} (r : Except Fault (Bool × State × σ))
    (k : State → σ → Except Fault (Bool × State × σ)) : Except Fault (Bool × State × σ) :=
  match r with
  | .error e => .error e
  | .ok (true, s, ctx) => .ok (true, s, ctx)
  | .ok (false, s, ctx) => k s ctx

/-! ## Ancestors, child lists and heights -/

/-- The list `path` is the chain of strict ancestors of the node at `a`, from
its parent upwards, ending at a node that has no parent. -/
def AncPath (s : State) : Nat → List Nat → Prop
  | a, [] =>
    (match s.heap a with
      | some n => n.parent = none
      | none => False)
  | a, p :: ps =>
    (match s.heap a with
      | some n => n.parent = some p
      | none => False) ∧ AncPath s p ps

instance AncPath.decidable (s : State) : ∀ (l : List Nat) (a : Nat), Decidable (AncPath s a l)
  | [], a => by
    unfold AncPath
    cases h : s.heap a <;> simp only [] <;> infer_instance
  | p :: ps, a => by
    unfold AncPath
    have := AncPath.decidable s ps p
    cases h : s.heap a <;> simp only [] <;> infer_instance

/-- The list `kids` is the sibling chain that starts at the pointer `first`
and follows `sibling_next` up to `NULL`. -/
def ChildChain (s : State) : Option Nat → List Nat → Prop
  | first, [] => first = none
  | first, c :: cs =>
    first = some c ∧
      (match s.heap c with
        | some n => ChildChain s n.sibling_next cs
        | none => False)

instance ChildChain.decidable (s : State) :
    ∀ (l : List Nat) (first : Option Nat), Decidable (ChildChain s first l)
  | [], first => by
    unfold ChildChain
    infer_instance
  | c :: cs, first => by
    unfold ChildChain
    cases h : s.heap c with
    | none => simp only []; infer_instance
    | some n =>
      simp only []
      have := ChildChain.decidable s cs n.sibling_next
      infer_instance

/-- The sibling chain that starts at the pointer `first` runs through the
nodes of `l` and then points to `stop`. -/
def ChainTo (s : State) : Option Nat → List Nat → Option Nat → Prop
  | first, [], stop => first = stop
  | first, c :: cs, stop =>
    first = some c ∧
      (match s.heap c with
        | some n => ChainTo s n.sibling_next cs stop
        | none => False)

/-- The height of the node at `a` (0 when there is none). -/
def heightOf (s : State) (a : Nat) : Int :=
  match s.heap a with
  | some n => n.height
  | none => 0

/-- The memory `s` with `d` added to the height of every node of the list. -/
def addHeights (s : State) (l : List Nat) (d : Int) : State :=
  { s with heap := fun a =>
      (s.heap a).map (fun n => if a ∈ l then { n with height := n.height + d } else n) }

/-- Everything of a node but its texts and their cached widths (of the field
array, its length). -/
def core (n : treeview_node) :
    Bool × Bool × treeview_node_type × Int × Int × Option Nat × Option Nat × Option Nat ×
      Option Nat × Nat × Nat :=
  (n.expanded, n.selected, n.type, n.height, n.inset, n.parent, n.sibling_prev,
    n.sibling_next, n.children, n.client_data, n.fields.length)

/-- Two memories differ at most in texts and cached widths. -/
def CoreEq (s s' : State) : Prop :=
  s'.events = s.events ∧ ∀ a, (s'.heap a).map core = (s.heap a).map core

/-- The amount by which `treeview_node_expand` is to raise heights: the sum of
the heights of the children for a folder, one row per secondary field slot
(`tree->n_fields - 1` of them) for an entry. -/
def expand_amount (g : treeview_globals) (tree : treeview) (s : State) (n : treeview_node)
    (kids : List Nat) : Int :=
  match n.type with
  | .TREE_NODE_FOLDER => (kids.map (heightOf s)).sum
  | .TREE_NODE_ENTRY => g.line_height * (tree.n_fields - 1)
  | .TREE_NODE_ROOT => 0

/-- A node record with the fields that `insert_layout` may write (height, inset
and text) blanked out. -/
def lay (n : treeview_node) : treeview_node :=
  { n with height := 0, inset := 0,
           text := { flags := { dflt := false, show_name := false }, field := none,
                     value := { data := [], len := 0, width := 0 } } }

/-- The parent pointer of the node at `a` (`NULL` when there is no node). -/
def parentOf (s : State) (a : Nat) : Option Nat :=
  match s.heap a with
  | some n => n.parent
  | none => none

/-- The child pointer of the node at `a` (`NULL` when there is no node). -/
def childrenOf (s : State) (a : Nat) : Option Nat :=
  match s.heap a with
  | some n => n.children
  | none => none

/-- Where an insertion is to put the new node `a`, inserted as relation `rel`
of `b`: as first child, `a` has parent `b` and heads the child list of `b`,
followed by the former children `kids`; as next sibling, `a` has the parent of
`b` and stands right after `b` in the child list of that parent, which was
`pre ++ b :: post`. -/
def Placed (s s' : State) (a b : Nat) (rel : treeview_relationship)
    (kids pre post : List Nat) : Prop :=
  match rel with
  | .TREE_REL_FIRST_CHILD =>
    parentOf s' a = some b ∧ ChildChain s' (childrenOf s' b) (a :: kids)
  | .TREE_REL_NEXT_SIBLING =>
    ∃ p, parentOf s b = some p ∧ parentOf s' a = some p ∧ parentOf s' b = some p ∧
      ChildChain s' (childrenOf s' p) (pre ++ b :: a :: post)

/-- The checks `treeview_create_node_entry` makes on the field array it is
given: `f0` is its first element and `fs` the secondary slots built from the
others, every one naming the schema field of its position. -/
def EntryChecks (tree : treeview) (fields : List treeview_field_data)
    (f0 : treeview_field_data) (fs : List treeview_field) : Prop :=
  fields.get? 0 = some f0 ∧ f0.field ≠ none ∧
    (tree.fields.get? 0).map (fun f => f.field) = some f0.field ∧
    entry_fields_loop tree fields (tree.n_fields - 1).toNat 1 [] = .ok fs

/-! ## Selection: what the walks are to compute -/

/-- The selected flag of the node at `a` (`false` when there is none). -/
def selectedOf (s : State) (a : Nat) : Bool :=
  match s.heap a with
  | some n => n.selected
  | none => false

/-- The height of the row of the node at `a` (0 when there is none). -/
def rowHeightOf (g : treeview_globals) (s : State) (a : Nat) : Int :=
  match s.heap a with
  | some n => node_row_height g n
  | none => 0

/-- The memory `s` with the selected flag of every node of the list set to `b`. -/
def set_selected (s : State) (l : List Nat) (b : Bool) : State :=
  { s with heap := fun a =>
      (s.heap a).map (fun n => if a ∈ l then { n with selected := b } else n) }

/-- The prefix of a list that ends at its last element satisfying `p` (empty
when there is none). -/
def upto_last (p : Nat → Bool) : List Nat → List Nat
  | [] => []
  | x :: xs => if xs.any p then x :: upto_last p xs else if p x then [x] else []

/-- The rows of the list `l`, in memory `s`, whose selected flag is not `b`:
those a walk that sets the flags to `b` changes. -/
def sel_changed (s : State) (b : Bool) (a : Nat) : Bool := selectedOf s a != b

/-- The chain of strict ancestors of the node at `a` below `top`: `l` lists
them from the parent of `a` upwards, and the parent of the last one (of `a`
itself when `l` is empty) is `top`. -/
def ChainUp (s : State) : Nat → List Nat → Nat → Prop
  | a, [], top => parentOf s a = some top
  | a, q :: l, top => parentOf s a = some q ∧ ChainUp s q l top

/-- A visible row below `root` in the shape `f`: a node of `f` whose ancestors
up to and including `root` are all expanded. -/
def VisibleRow (s : State) (root : Nat) (f : Forest) (a : Nat) : Prop :=
  a ∈ f.ids ∧ ∃ l, ChainUp s a l root ∧ root ∉ l ∧ ∀ q ∈ root :: l, isOpen s false q = true

/-- The purpose of the walk that sets the selected flags to `b`. -/
def purpose_of (b : Bool) : selection_walk_purpose :=
  if b then .TREEVIEW_WALK_SELECT_ALL else .TREEVIEW_WALK_CLEAR_SELECTION

/-! ## What expanding and contracting leave alone -/

/-- A text field without its cached width. -/
def unmeasured (f : treeview_field) : treeview_field :=
  { f with value := { f.value with width := 0 } }

/-- The fields of a node that neither `treeview_node_expand` nor
`treeview_node_contract` writes: all but the expanded flag, the height and
the cached widths. -/
def stable (n : treeview_node) : treeview_node :=
  { n with expanded := false, height := 0, text := unmeasured n.text,
           fields := n.fields.map unmeasured }

/-- Two memories with the same events, the same addresses in use, and records
that differ at most in expanded flags, heights and cached widths. -/
def StableEq (s s' : State) : Prop :=
  s'.events = s.events ∧ ∀ a, (s'.heap a).map stable = (s.heap a).map stable

/-! ## Pointer input: the row that is hit -/

/-- The row a pointer walk along the rows `l` acts on, and the top of that
row: the first row whose bottom (the sum of the row heights up to and
including it, counted from `cur`) is not above `y`. -/
def hit_scan (g : treeview_globals) (s : State) (y : Int) : List Nat → Int → Option (Nat × Int)
  | [], _ => none
  | a :: l, cur =>
    if y > cur + rowHeightOf g s a then hit_scan g s y l (cur + rowHeightOf g s a)
    else some (a, cur)

/-- What a pointer dispatch is to do, given the visible rows `l` in document
order: nothing when no row is hit, and otherwise the action of
`mouse_action_hit` on the row that is hit, with `current_y` the top of that
row. -/
def mouse_dispatch (g : treeview_globals) (font_width : List Nat → Nat → Int)
    (m : browser_mouse_masks) (fuel : Nat) (tree : treeview) (s : State)
    (mouse : Nat) (x y : Int) (l : List Nat) : Except Fault State :=
  match hit_scan g s y l 0 with
  | none => .ok s
  | some (a, top) =>
    match s.heap a with
    | some n =>
      mouse_action_hit g font_width m fuel a n (node_row_height g n) s
        { tree := tree, mouse := mouse, x := x, y := y, current_y := top }
    | none => .error .null

/-- The number of `redraw_request` calls in a list of host calls. -/
def redraw_requests (evs : List Event) : Nat :=
  (evs.filter (fun e => match e with
    | .redraw_request _ => true
    | _ => false)).length

/-! ## Redraw: the rows that are painted -/

/-- The rectangles of the `rectangle` calls among a list of calls, in order. -/
def plot_rectangles : List Plot → List rect
  | [] => []
  | .rectangle x0 y0 x1 y1 _ :: l =>
    { x0 := x0, y0 := y0, x1 := x1, y1 := y1 } :: plot_rectangles l
  | _ :: l => plot_rectangles l

/-- The rows of `l` that a redraw with the clip rectangle `r` (in plot
coordinates) paints, each with its top, when the first row of `l` starts at
`y`: a row whose bottom is above the clip rectangle is passed over, and the
first painted row whose bottom is below the clip rectangle is the last. -/
def painted_rows (g : treeview_globals) (s : State) (r : rect) : List Nat → Int → List (Nat × Int)
  | [], _ => []
  | a :: l, y =>
    if y + rowHeightOf g s a < r.y0 then painted_rows g s r l (y + rowHeightOf g s a)
    else (a, y) ::
      (if y + rowHeightOf g s a > r.y1 then [] else painted_rows g s r l (y + rowHeightOf g s a))

/-- The rectangle of the row `p.1` with top `p.2`, as wide as the clip
rectangle `r`. -/
def row_rect (g : treeview_globals) (s : State) (r : rect) (p : Nat × Int) : rect :=
  { x0 := r.x0, y0 := p.2, x1 := r.x1, y1 := p.2 + rowHeightOf g s p.1 }

/-- A record that `treeview_redraw` can paint as a row with the height the
pointer walk gives it: a folder, or an entry whose height is one line when it
is collapsed and one line for each of its fields when it is expanded, the
fields being there. -/
def PaintableRow (g : treeview_globals) (tree : treeview) (n : treeview_node) : Prop :=
  (n.type = .TREE_NODE_FOLDER ∨ n.type = .TREE_NODE_ENTRY) ∧
  (n.type = .TREE_NODE_ENTRY →
    if n.expanded then
      n.height = g.line_height + (tree.n_fields - 1).toNat * g.line_height ∧
      (tree.n_fields - 1).toNat + 1 ≤ tree.fields.length ∧
      (tree.n_fields - 1).toNat ≤ n.fields.length
    else n.height = g.line_height)

instance PaintableRow.decidable (g : treeview_globals) (tree : treeview) (n : treeview_node) :
    Decidable (PaintableRow g tree n) := by
  unfold PaintableRow
  infer_instance

/-- The node at `b` is there and is a paintable row. -/
def PaintableAt (g : treeview_globals) (tree : treeview) (s : State) (b : Nat) : Prop :=
  match s.heap b with
  | some k => PaintableRow g tree k
  | none => False

instance PaintableAt.decidable (g : treeview_globals) (tree : treeview) (s : State) (b : Nat) :
    Decidable (PaintableAt g tree s b) := by
  unfold PaintableAt
  cases h : s.heap b <;> simp only [] <;> infer_instance

/-- The rectangles drawn by a redraw (none when it failed). -/
def rectangles_of (p : Except Fault (List Plot)) : List rect :=
  match p with
  | .ok plots => plot_rectangles plots
  | .error _ => []

/-- The rows of `l` with their tops, the first row starting at `y` and each
row starting where the row before it ends. -/
def row_tops (g : treeview_globals) (s : State) : List Nat → Int → List (Nat × Int)
  | [], _ => []
  | a :: l, y => (a, y) :: row_tops g s l (y + rowHeightOf g s a)

/-! ## Deletion: the shape that is left -/

/-- The forest without the node `n` and its subtree. -/
def Forest.remove (n : Nat) : Forest → Forest
  | .nil => .nil
  | .cons id k r => if id = n then r else .cons id (k.remove n) (r.remove n)

/-- The forest of the children of the node `n` (empty when `n` is not in the
forest). -/
def Forest.sub (n : Nat) : Forest → Forest
  | .nil => .nil
  | .cons id k r => if id = n then k else if n ∈ k.ids then k.sub n else r.sub n

/-- The memory that is left when the node `n` with the record `nn`, whose
descendants are `dead`, is taken out of its sibling chain and freed with its
descendants: the next sibling takes over the previous sibling of `n`, the
previous sibling (or else the parent, as its first child) takes over the next
sibling of `n`. -/
def unlinked (s : State) (n : Nat) (nn : treeview_node) (dead : List Nat) (a : Nat) :
    Option treeview_node :=
  if a = n ∨ a ∈ dead then none
  else if nn.sibling_next = some a then
    (s.heap a).map (fun x => { x with sibling_prev := nn.sibling_prev })
  else if nn.sibling_prev = some a then
    (s.heap a).map (fun x => { x with sibling_next := nn.sibling_next })
  else if nn.sibling_prev = none ∧ nn.parent = some a then
    (s.heap a).map (fun x => { x with children := nn.sibling_next })
  else s.heap a

/-- What `treeview_update_node_entry` is to leave in the secondary slot `j`
that held `f`, for an entry with `k` secondary slots whose expanded flag is
`expanded`: the text of `fields[j + 1]`, with its measured width when the
entry is expanded and the width 0 otherwise. -/
def updated_slot (font_width : List Nat → Nat → Int) (expanded : Bool)
    (fields : List treeview_field_data) (k j : Nat) (f : treeview_field) : treeview_field :=
  if j < k then
    match fields.get? (j + 1) with
    | some fd =>
      { f with value := { data := fd.value, len := fd.value_len,
                          width := if expanded then font_width fd.value fd.value_len else 0 } }
    | none => f
  else f

/-- What `treeview_update_node_entry` is to leave as the primary text that was
`t`: the text of `fields[0]`, with its measured width when the parent of the
entry is expanded (`visible`) and the width 0 otherwise. -/
def updated_text (font_width : List Nat → Nat → Int) (visible : Bool)
    (f0 : treeview_field_data) (t : treeview_field) : treeview_field :=
  { t with value := { data := f0.value, len := f0.value_len,
                      width := if visible then font_width f0.value f0.value_len else 0 } }

/-! ## Reachable memories and their invariant -/

/-- One call of the interface of the treeview on a live tree; `addr` is what
`malloc` returns to a creation (`none` when it fails). -/
inductive Call where
  | create_folder (addr : Option Nat) (relation : Option Nat) (rel : treeview_relationship)
      (field : treeview_field_data) (data : Nat)
  | create_entry (addr : Option Nat) (relation : Option Nat) (rel : treeview_relationship)
      (fields : List treeview_field_data) (data : Nat)
  | update_entry (entry : Nat) (fields : List treeview_field_data) (data : Nat)
  | delete (node : Nat)
  | expand (node : Nat)
  | contract (node : Nat)
  | has_selection
  | clear_selection
  | select_all
  | mouse_action (mouse : Nat) (x y : Int)

/-- The memory one call leaves. -/
def run_call (g : treeview_globals) (font_width : List Nat → Nat → Int)
    (m : browser_mouse_masks) (fuel : Nat) (tree : treeview) (s : State) :
    Call → Except Fault State
  | .create_folder addr relation rel field data => do
    let (_, s, _) ← treeview_create_node_folder g font_width fuel tree s addr relation rel
      field data
    pure s
  | .create_entry addr relation rel fields data => do
    let (_, s, _) ← treeview_create_node_entry g font_width fuel tree s addr relation rel
      fields data
    pure s
  | .update_entry entry fields data => do
    let (_, s) ← treeview_update_node_entry font_width tree s entry fields data
    pure s
  | .delete node => do
    let (_, s) ← treeview_delete_node fuel tree s node
    pure s
  | .expand node => do
    let (_, s) ← treeview_node_expand g font_width fuel tree s node
    pure s
  | .contract node => do
    let (_, s) ← treeview_node_contract g fuel tree s node
    pure s
  | .has_selection => do
    let (_, s) ← treeview_has_selection g fuel tree s
    pure s
  | .clear_selection => do
    let (_, s, _) ← treeview_clear_selection g fuel tree s
    pure s
  | .select_all => do
    let (_, s, _) ← treeview_select_all g fuel tree s
    pure s
  | .mouse_action mouse x y => treeview_mouse_action g font_width m fuel tree s mouse x y

/-- The calls a client may make on a live tree in the memory `s`: the node a
creation is placed relative to is a node in memory (not a stale pointer), and
the root is not handed to `treeview_delete_node` (which would destroy the
tree). -/
def Call.valid (tree : treeview) (s : State) : Call → Prop
  | .create_folder _ (some b) _ _ _ => s.heap b ≠ none
  | .create_entry _ (some b) _ _ _ => s.heap b ≠ none
  | .delete node => node ≠ tree.root
  | _ => True

/-- The cached width of a text is the measurement of the text. -/
def Measured (font_width : List Nat → Nat → Int) (t : treeview_text) : Prop :=
  t.width = font_width t.data t.len

/-- The cached width of a text is the 0 sentinel or the measurement of the
text. -/
def Cached (font_width : List Nat → Nat → Int) (t : treeview_text) : Prop :=
  t.width = 0 ∨ t.width = font_width t.data t.len

/-- The invariant of the memories in `Reach`: the nodes in memory are the root
and the nodes of a forest below it; the root is the only root node, has no
parent and no siblings, is expanded and not selected; every other node has a
parent in memory that is not an entry, and the inset of its parent plus
`step_width`; an entry has its `n_fields - 1` secondary slots and the height
of one row while collapsed, of one row for each of its fields while expanded;
every cached width is 0 or the measurement of its text, the primary text of a
node with an expanded parent is measured, and so are the secondary texts of an
expanded entry. -/
structure Inv (g : treeview_globals) (font_width : List Nat → Nat → Int) (tree : treeview)
    (s : State) : Prop where
  nf : 1 ≤ tree.n_fields
  shape : ∃ F, SubtreeAt s tree.root F ∧ F.ids.Nodup ∧
    ∀ a, s.heap a ≠ none → a = tree.root ∨ a ∈ F.ids
  root : ∃ r, s.heap tree.root = some r ∧ r.type = .TREE_NODE_ROOT ∧ r.parent = none ∧
    r.sibling_prev = none ∧ r.sibling_next = none ∧ r.expanded = true ∧ r.selected = false ∧
    r.inset = g.window_padding - g.step_width
  node : ∀ a n, s.heap a = some n → a ≠ tree.root →
    n.type ≠ .TREE_NODE_ROOT ∧ ∃ p np, n.parent = some p ∧ s.heap p = some np ∧
      np.type ≠ .TREE_NODE_ENTRY ∧ n.inset = np.inset + g.step_width
  entry : ∀ a n, s.heap a = some n → n.type = .TREE_NODE_ENTRY →
    n.fields.length = (tree.n_fields - 1).toNat ∧
    n.height = if n.expanded then g.line_height * (1 + (tree.n_fields - 1)) else g.line_height
  width : ∀ a n, s.heap a = some n →
    Cached font_width n.text.value ∧ (∀ f ∈ n.fields, Cached font_width f.value) ∧
    (∀ p np, n.parent = some p → s.heap p = some np → np.expanded = true →
      Measured font_width n.text.value) ∧
    (n.type = .TREE_NODE_ENTRY → n.expanded = true →
      ∀ f ∈ n.fields, Measured font_width f.value)

/-- The kind, the inset, the links and the number of secondary slots of a
node: what only insertion and deletion write. -/
def skel (n : treeview_node) :
    treeview_node_type × Int × Option Nat × Option Nat × Option Nat × Option Nat × Nat :=
  (n.type, n.inset, n.parent, n.sibling_prev, n.sibling_next, n.children, n.fields.length)

/-- Two memories hold the same nodes with the same kinds, insets, links and
numbers of slots. -/
def SkelEq (s s' : State) : Prop :=
  ∀ a, (s'.heap a).map skel = (s.heap a).map skel

/-- Two memories with the same events that differ at most in the heights of
nodes that satisfy `Q`. -/
def HeightEq (Q : Nat → Prop) (s s' : State) : Prop :=
  s'.events = s.events ∧
  ∀ k, s'.heap k = s.heap k ∨
    (Q k ∧ ∃ n h, s.heap k = some n ∧ s'.heap k = some { n with height := h })

/-- The forest with the new node `a` placed as relation `rel` of the node `b`:
at the head of the children of `b`, or right after `b` among its siblings. -/
def Forest.add (a b : Nat) (rel : treeview_relationship) : Forest → Forest
  | .nil => .nil
  | .cons id k r =>
    if id = b then
      match rel with
      | .TREE_REL_FIRST_CHILD => .cons id (.cons a .nil k) r
      | .TREE_REL_NEXT_SIBLING => .cons id k (.cons a .nil r)
    else .cons id (k.add a b rel) (r.add a b rel)

/-- A text with its width measured when it is the 0 sentinel. -/
def measured_text (font_width : List Nat → Nat → Int) (t : treeview_text) : treeview_text :=
  if t.width = 0 then { t with width := font_width t.data t.len } else t

/-- A node with its primary text measured when its width is the 0 sentinel. -/
def measure_node (font_width : List Nat → Nat → Int) (n : treeview_node) : treeview_node :=
  { n with text := { n.text with value := measured_text font_width n.text.value } }

/-! ## Colours -/

/-- The macro `mix_colour (c0, c1, p)` on the 32-bit type `colour`
(`0xBBGGRR`): the products and sums are taken modulo `2 ^ 32`, and `255 - p`
is converted to the unsigned type before it is multiplied. -/
def mix_colour (c0 c1 : Nat) (p : Int) : Nat :=
  ((((((c1 &&& 0xff00ff) * ((255 - p) % 2 ^ 32).toNat) % 2 ^ 32 +
      ((c0 &&& 0xff00ff) * (p % 2 ^ 32).toNat) % 2 ^ 32) % 2 ^ 32) >>> 8) &&& 0xff00ff) |||
  ((((((c1 &&& 0x00ff00) * ((255 - p) % 2 ^ 32).toNat) % 2 ^ 32 +
      ((c0 &&& 0x00ff00) * (p % 2 ^ 32).toNat) % 2 ^ 32) % 2 ^ 32) >>> 8) &&& 0x00ff00)

/-- The channel `i` (0, 1 or 2) of a colour: the byte `i` of the word. -/
def colour_channel (c i : Nat) : Nat := c / 256 ^ i % 256

/-- The colour whose three channels are those of `c`, each one step darker
(a channel that is 0 stays 0), and whose top byte is 0. -/
def darker (c : Nat) : Nat :=
  (colour_channel c 0 - 1) + 256 * (colour_channel c 1 - 1) + 65536 * (colour_channel c 2 - 1)

instance Call.valid.decidable (tree : treeview) (s : State) (c : Call) :
    Decidable (Call.valid tree s c) := by
  cases c with
  | create_folder addr relation rel field data =>
    cases relation <;> unfold Call.valid <;> infer_instance
  | create_entry addr relation rel fields data =>
    cases relation <;> unfold Call.valid <;> infer_instance
  | delete node => unfold Call.valid; infer_instance
  | _ => unfold Call.valid; infer_instance

/-- The memory after a sequence of calls, each of them valid where it is made
and returning without a fault (`none` otherwise). -/
def run_calls (g : treeview_globals) (font_width : List Nat → Nat → Int)
    (m : browser_mouse_masks) (fuel : Nat) (tree : treeview) : List Call → State → Option State
  | [], s => some s
  | c :: cs, s =>
    if Call.valid tree s c then
      match run_call g font_width m fuel tree s c with
      | .ok s' => run_calls g font_width m fuel tree cs s'
      | .error _ => none
    else none

/-- The fault a run ends with (`none` when it returns). -/
def fault_of {α : Type} (r : Except Fault α) : Option Fault :=
  match r with
  | .ok _ => none
  | .error e => some e

/-- The memory `s'` is the memory `s` but for selected flags of nodes that
satisfy `Q`: the same addresses are in use, every node has the kind, height,
inset, expanded flag, links, client data, text and fields it had, and a node
that does not satisfy `Q` has its selected flag as well. -/
def SelectedOnly (Q : Nat → Prop) (s s' : State) : Prop :=
  ∀ a, (s.heap a = none → s'.heap a = none) ∧
    ∀ x, s.heap a = some x →
      ∃ x', s'.heap a = some x' ∧ x' = { x with selected := x'.selected } ∧ (¬ Q a → x' = x)

/-- The style a call of the plotter is made with (`none` for the calls that
take no style). -/
def plot_style : Plot → Option style_ref
  | .rectangle _ _ _ _ st => some st
  | .text _ _ _ _ st => some st
  | .content_redraw _ _ _ bg _ => some bg
  | _ => none

/-- Whether a member of `struct treeview_node_style` is one of the three that
are used for a selected node (`sbg`, `stext`, `sitext`). -/
def style_member.for_selected : style_member → Bool
  | .sbg => true
  | .stext => true
  | .sitext => true
  | _ => false

/-- The calls `seg` draw the row `p.1` with top `p.2` as the zebra striping
asks: the first call is the background rectangle of the row, and every call
is made with a member of `plot_style_odd` if the place of the row among the
visible rows `rows`, counted from 1, is odd and of `plot_style_even` if it is
even, a selected member exactly when the row is selected. -/
def RowPlots (g : treeview_globals) (s : State) (r : rect) (rows : List Nat)
    (seg : List Plot) (p : Nat × Int) : Prop :=
  seg.head? = some (.rectangle r.x0 p.2 r.x1 (p.2 + rowHeightOf g s p.1)
    { odd := decide ((rows.indexOf p.1 + 1) % 2 = 1),
      member := if selectedOf s p.1 then .sbg else .bg }) ∧
  ∀ q ∈ seg, ∃ st, plot_style q = some st ∧
    st.odd = decide ((rows.indexOf p.1 + 1) % 2 = 1) ∧
    st.member.for_selected = selectedOf s p.1

/-- The styles of the calls made by a redraw, in order (none when it
failed). -/
def styles_of (p : Except Fault (List Plot)) : List style_ref :=
  match p with
  | .ok plots => plots.filterMap plot_style
  | .error _ => []

/-! ## Text search (`riscos/search.c`) -/

/-- The function `toupper` of the C locale, on the value of a character. -/
def toupper (c : Nat) : Nat := if 97 ≤ c ∧ c ≤ 122 then c - 32 else c

/-- One element of the array `context` of `find_pattern`.  The pointers into
the string are offsets from `string`, the pointers into the pattern offsets
from `pattern`, so that `pattern - 1` is `-1`. -/
structure find_context where
  ss : Nat
  s : Nat
  p : Int
  first : Bool
  deriving DecidableEq

/-- The loop `do p++; while (p < ep && *p == '*');` of `find_pattern`. -/
def skip_asterisks (pattern : List Nat) : Nat → Int → Except Fault Int
  | 0, _ => .error .fuel
  | fuel + 1, p =>
    if p + 1 < pattern.length ∧ pattern.getD (p + 1).toNat 0 = 42 then
      skip_asterisks pattern fuel (p + 1)
    else pure (p + 1)

/-- The loop `while (s < es) { ...; s++; }` of `find_pattern` that scans
forwards for a match of the character `ch`. -/
def scan_forward (string : List Nat) (case_sens : Bool) (ch : Nat) : Nat → Nat → Except Fault Nat
  | 0, _ => .error .fuel
  | fuel + 1, s =>
    if s < string.length then
      if (if case_sens then string.getD s 0 = ch else toupper (string.getD s 0) = ch) then pure s
      else scan_forward string case_sens ch fuel (s + 1)
    else pure s

/-- The local variables of `find_pattern` that live across the iterations of
its loop; `context` holds the elements `context[top - 1]`, ..., `context[0]`
of the array, so that `top` is its length. -/
structure find_vars where
  p : Int
  ss : Nat
  s : Nat
  first : Bool
  context : List find_context
  deriving DecidableEq

/-- The body of the loop `while (p < ep)` of `find_pattern` up to the test
`if (matches)`: `none` when the loop is left by `break`, and otherwise the
value of `matches` with the variables. -/
def find_pattern_match (string pattern : List Nat) (case_sens : Bool) (inner : Nat)
    (v : find_vars) : Except Fault (Option (Bool × find_vars)) :=
  if v.p < 0 ∨ pattern.getD v.p.toNat 0 = 42 then do
    let p ← skip_asterisks pattern inner v.p
    if p ≥ pattern.length then pure none
    else do
      let ch := pattern.getD p.toNat 0
      let s ← (if ch ≠ 35 then
          scan_forward string case_sens (if !case_sens then toupper ch else ch) inner v.s
        else pure v.s)
      if s < string.length then
        let context :=
          if v.context.length < 16 then
            { ss := v.ss, s := s + 1, p := p - 1, first := v.first } :: v.context
          else v.context
        pure (some (true,
          { p := p, ss := if v.first then s else v.ss, s := s, first := false,
            context := context }))
      else pure (some (false, { v with p := p, s := s }))
  else if v.s < string.length then
    let ch := pattern.getD v.p.toNat 0
    let matched : Bool :=
      if ch = 35 then true
      else if case_sens then string.getD v.s 0 = ch
      else toupper (string.getD v.s 0) = toupper ch
    pure (some (matched,
      if matched && v.first then { v with ss := v.s, first := false } else v))
  else pure (some (false, v))

/-- The loop `while (p < ep)` of `find_pattern` and the two statements after
it: `none` for `NULL`, and otherwise the offset of the result from `string`
with the value written to `*m_len`; `inner` bounds the two inner loops. -/
def find_pattern_loop (string pattern : List Nat) (case_sens : Bool) (inner : Nat) :
    Nat → find_vars → Except Fault (Option (Nat × Int))
  | 0, _ => .error .fuel
  | fuel + 1, v =>
    if v.p < pattern.length then do
      let step ← find_pattern_match string pattern case_sens inner v
      match step with
      | none => pure (some (v.ss, (v.s : Int) - v.ss))
      | some (true, v) =>
        find_pattern_loop string pattern case_sens inner fuel { v with p := v.p + 1, s := v.s + 1 }
      | some (false, v) =>
        match v.context with
        | [] => pure none
        | c :: context =>
          find_pattern_loop string pattern case_sens inner fuel
            { p := c.p, ss := c.ss, s := c.s, first := c.first, context := context }
    else pure (some (v.ss, (v.s : Int) - v.ss))

/-- The function `find_pattern (string, s_len, pattern, p_len, case_sens,
m_len)`, the lengths being those of the lists. -/
def find_pattern (fuel : Nat) (string pattern : List Nat) (case_sens : Bool) :
    Except Fault (Option (Nat × Int)) :=
  find_pattern_loop string pattern case_sens fuel fuel
    { p := -1, ss := 0, s := 0, first := true, context := [] }

/-- The loop `while (length > 0)` of `find_occurrences` on the text `box_text`
of a box: `text` is the offset of the pointer `text` from `cur->text`, `avail`
the number of list entries `calloc` can still give, and `found` the pairs
`(start_idx, end_idx)` of the entries appended to `search_found` so far.  The
result is the value `find_occurrences` returns if it stops in the loop
(`false`) or goes on to the children (`true`), with the entries. -/
def find_occurrences_loop (box_text pattern : List Nat) (case_sens : Bool) (inner : Nat) :
    Nat → Nat → Nat → Nat → List (Nat × Nat) → Except Fault (Bool × List (Nat × Nat))
  | 0, _, _, _, _ => .error .fuel
  | fuel + 1, text, length, avail, found =>
    if length > 0 then do
      let r ← find_pattern inner ((box_text.drop text).take length) pattern case_sens
      match r with
      | none => pure (true, found)
      | some (pos, m_len) =>
        if avail = 0 then pure (false, found)
        else
          let match_length := (m_len % 2 ^ 32).toNat
          let match_offset := (text + pos) % 2 ^ 32
          let new_text := text + pos + match_length
          find_occurrences_loop box_text pattern case_sens inner fuel new_text
            ((length + 2 ^ 32 - (new_text - text) % 2 ^ 32) % 2 ^ 32) (avail - 1)
            (found ++ [(match_offset, (match_offset + match_length) % 2 ^ 32)])
    else pure (true, found)

/-- Whether two characters are the same for a search: equal when `case_sens`
is set, and equal after `toupper` otherwise. -/
def char_eq (case_sens : Bool) (a b : Nat) : Bool :=
  if case_sens then a = b else toupper a = toupper b

/-- The literal pattern occurs in the string at the offset `j`. -/
def occurs_at (case_sens : Bool) (string pattern : List Nat) (j : Nat) : Prop :=
  j + pattern.length ≤ string.length ∧
    ∀ k < pattern.length, char_eq case_sens (string.getD (j + k) 0) (pattern.getD k 0) = true

instance occurs_at.decidable (case_sens : Bool) (string pattern : List Nat) (j : Nat) :
    Decidable (occurs_at case_sens string pattern j) := by
  unfold occurs_at
  infer_instance

/-- Whether the word `w` matches the wildcard pattern: `*` (42) matches any
sequence of characters, the empty one included, `#` (35) matches any one
character, and every other character matches itself (`char_eq`). -/
def wild_match (case_sens : Bool) : List Nat → List Nat → Bool
  | [], w => w.isEmpty
  | c :: p, w =>
    if c = 42 then (List.range (w.length + 1)).any (fun k => wild_match case_sens p (w.drop k))
    else
      match w with
      | [] => false
      | d :: w' => (c = 35 || char_eq case_sens d c) && wild_match case_sens p w'

/-- The result of a run of `find_pattern` that returned (`none` when it ran
out of fuel). -/
def result_of {α : Type} (r : Except Fault α) : Option α :=
  match r with
  | .ok a => some a
  | .error _ => none

/-- The result `r` of a search is the first occurrence of the literal pattern
at or after the offset `i`, with the length of the pattern as the length of
the match, or `none` when there is no occurrence from `i` on. -/
def FirstFrom (case_sens : Bool) (string pattern : List Nat) (i : Nat)
    (r : Option (Nat × Int)) : Prop :=
  match r with
  | none => ∀ j, i ≤ j → ¬ occurs_at case_sens string pattern j
  | some (pos, m_len) =>
    i ≤ pos ∧ occurs_at case_sens string pattern pos ∧
      (∀ j, i ≤ j → j < pos → ¬ occurs_at case_sens string pattern j) ∧
      m_len = pattern.length

/-- The string `abcdefghijklmnopyxyz`. -/
def exString : List Nat :=
  [97, 98, 99, 100, 101, 102, 103, 104, 105, 106, 107, 108, 109, 110, 111, 112, 121, 120, 121,
   122]

/-- The pattern `a*b*c*d*e*f*g*h*i*j*k*l*m*n*o*p*yz`, with 16 asterisks. -/
def exPattern : List Nat :=
  [97, 42, 98, 42, 99, 42, 100, 42, 101, 42, 102, 42, 103, 42, 104, 42, 105, 42, 106, 42, 107,
   42, 108, 42, 109, 42, 110, 42, 111, 42, 112, 42, 121, 122]

/-! ## What contracting leaves -/

/-- The amount by which `treeview_node_contract_cb` lowers heights when it is
called on the node at `k`: the height of the node less one row when the node
is expanded, nothing when it is collapsed. -/
def contract_reduction (g : treeview_globals) (s : State) (k : Nat) : Int :=
  match s.heap k with
  | some x => if x.expanded then x.height - g.line_height else 0
  | none => 0

/-- A record with its expanded flag cleared unless `keep`, and its height
lowered by `e`. -/
def lowered (x : treeview_node) (keep : Bool) (e : Int) : treeview_node :=
  { x with expanded := x.expanded && keep, height := x.height - e }

/-- The memory `t` is the memory `s` after the contraction callback ran on the
nodes of `D`, children of `a`, whose strict ancestors are `path`: the nodes of
`D` are collapsed, no other flag has changed, and heights are lowered only at
the nodes of `D`, at `a` and on `path`, at `a` by no more than the callback
takes off for the nodes of `D`. -/
def Contracted (g : treeview_globals) (a : Nat) (path : List Nat) (s t : State)
    (D : List Nat) : Prop :=
  t.events = s.events ∧
  ∀ k, ∃ e : Int, 0 ≤ e ∧ (k ∉ D → k ∉ a :: path → e = 0) ∧
    (k = a → e ≤ (D.map (contract_reduction g s)).sum) ∧
    t.heap k = (s.heap k).map (fun x => lowered x (!decide (k ∈ D)) e)

/-! ## A concrete tree -/

/-- An unselected node with the given kind, flag, height, links and client
data, and an empty text. -/
def mkNode (type : treeview_node_type) (expanded : Bool) (height : Int)
    (parent sibling_prev sibling_next children : Option Nat) (client_data : Nat) : treeview_node :=
  { expanded := expanded, selected := false, type := type, height := height, inset := 0,
    parent := parent, sibling_prev := sibling_prev, sibling_next := sibling_next,
    children := children, client_data := client_data,
    text := { flags := { dflt := false, show_name := false }, field := none,
              value := { data := [], len := 0, width := 0 } },
    fields := [] }

/-- A memory with six nodes: root 0 with the children 1 and 4; the expanded
folder 1 holds the entry 2 and the collapsed folder 3, which holds the
entry 5.  The row height is 20. -/
def exState : State :=
  { heap := fun a =>
      match a with
      | 0 => some (mkNode .TREE_NODE_ROOT true 80 none none none (some 1) 0)
      | 1 => some (mkNode .TREE_NODE_FOLDER true 60 (some 0) none (some 4) (some 2) 11)
      | 2 => some (mkNode .TREE_NODE_ENTRY false 20 (some 1) none (some 3) none 12)
      | 3 => some (mkNode .TREE_NODE_FOLDER false 20 (some 1) (some 2) none (some 5) 13)
      | 4 => some (mkNode .TREE_NODE_ENTRY false 20 (some 0) (some 1) none none 14)
      | 5 => some (mkNode .TREE_NODE_ENTRY false 20 (some 3) none none none 15)
      | _ => none,
    events := [] }

/-- The memory `exState` with the folder 3 expanded as well: folder 3 is two
rows high, folder 1 four rows and the root five. -/
def exNested : State :=
  { heap := fun a =>
      match a with
      | 0 => some (mkNode .TREE_NODE_ROOT true 100 none none none (some 1) 0)
      | 1 => some (mkNode .TREE_NODE_FOLDER true 80 (some 0) none (some 4) (some 2) 11)
      | 2 => some (mkNode .TREE_NODE_ENTRY false 20 (some 1) none (some 3) none 12)
      | 3 => some (mkNode .TREE_NODE_FOLDER true 40 (some 1) (some 2) none (some 5) 13)
      | 4 => some (mkNode .TREE_NODE_ENTRY false 20 (some 0) (some 1) none none 14)
      | 5 => some (mkNode .TREE_NODE_ENTRY false 20 (some 3) none none none 15)
      | _ => none,
    events := [] }

/-- The children of node 1 of `exState`. -/
def exSub : Forest := .cons 2 .nil (.cons 3 (.cons 5 .nil .nil) .nil)

/-- The children of the root of `exState`. -/
def exForest : Forest := .cons 1 exSub (.cons 4 .nil .nil)

/-- A callback that appends the node it is called on to its context and never
asks to abort. -/
def record_cb (x : Nat) (s : State) (ctx : List Nat) : Except Fault (Bool × State × List Nat) :=
  .ok (false, s, ctx ++ [x])

/-- A callback that appends the node it is called on to its context and asks
to abort at the node `t`. -/
def find_cb (t : Nat) (x : Nat) (s : State) (ctx : List Nat) :
    Except Fault (Bool × State × List Nat) :=
  .ok (decide (x = t), s, ctx ++ [x])

/-! ## Sequences of calls -/

/-- One call of the interface that changes the tree; `addr` is what `malloc`
returns to a creation. -/
inductive Op where
  | create_folder (addr : Nat) (relation : Option Nat) (rel : treeview_relationship)
      (field : treeview_field_data) (data : Nat)
  | create_entry (addr : Nat) (relation : Option Nat) (rel : treeview_relationship)
      (fields : List treeview_field_data) (data : Nat)
  | expand (node : Nat)
  | contract (node : Nat)
  | delete (node : Nat)

/-- The memory after one call. -/
def apply_op (g : treeview_globals) (font_width : List Nat → Nat → Int) (fuel : Nat)
    (tree : treeview) (s : State) : Op → Except Fault State
  | .create_folder addr relation rel field data => do
    let (_, s, _) ← treeview_create_node_folder g font_width fuel tree s (some addr) relation rel
      field data
    pure s
  | .create_entry addr relation rel fields data => do
    let (_, s, _) ← treeview_create_node_entry g font_width fuel tree s (some addr) relation rel
      fields data
    pure s
  | .expand node => do
    let (_, s) ← treeview_node_expand g font_width fuel tree s node
    pure s
  | .contract node => do
    let (_, s) ← treeview_node_contract g fuel tree s node
    pure s
  | .delete node => do
    let (_, s) ← treeview_delete_node fuel tree s node
    pure s

/-- The memory after a sequence of calls. -/
def apply_ops (g : treeview_globals) (font_width : List Nat → Nat → Int) (fuel : Nat)
    (tree : treeview) : List Op → State → Except Fault State
  | [], s => .ok s
  | op :: ops, s => do
    let s ← apply_op g font_width fuel tree s op
    apply_ops g font_width fuel tree ops s

/-- Globals of the examples: rows of height 20. -/
def exG : treeview_globals :=
  { line_height := 20, furniture_width := 10, step_width := 10, window_padding := 6,
    icon_step := 23 }

/-- Text measurement of the examples: 7 pixels per byte. -/
def exFont : List Nat → Nat → Int := fun _ l => 7 * l

/-- The schema of the examples: a title, a field shown with its name, and the
folder field. -/
def exSchema : List treeview_field_desc :=
  [{ field := [1], flags := { dflt := true, show_name := false } },
   { field := [2], flags := { dflt := false, show_name := true } },
   { field := [3], flags := { dflt := true, show_name := false } }]

/-- The empty memory. -/
def emptyState : State := { heap := fun _ => none, events := [] }

/-- The tree record `treeview_create` returns for `exSchema` on the empty
memory, `malloc` giving the root the address 0. -/
def exTree : treeview :=
  match treeview_create exG exFont emptyState true (some 0) 3 exSchema with
  | .ok (_, _, some tree) => tree
  | _ => { root := 0, fields := [], n_fields := 0, field_width := 0 }

/-- The memory that call of `treeview_create` leaves: the root alone. -/
def exFresh : State :=
  match treeview_create exG exFont emptyState true (some 0) 3 exSchema with
  | .ok (_, s, _) => s
  | .error _ => emptyState

/-- The values an entry of the examples is created with. -/
def exFields : List treeview_field_data :=
  [{ field := some [1], value := [102, 105, 108, 101], value_len := 4 },
   { field := some [2], value := [49, 48], value_len := 2 }]

/-- The value a folder of the examples is created with. -/
def exField : treeview_field_data := { field := some [3], value := [68], value_len := 1 }

/-- The height and the expanded flag of a node after a run (`none` when the
run failed or the node is not in memory). -/
def observe (r : Except Fault State) (a : Nat) : Option (Int × Bool) :=
  match r with
  | .ok s => (s.heap a).map (fun n => (n.height, n.expanded))
  | .error _ => none

/-- Whether a run ended without a fault in a memory that passes the test. -/
def ends_with (r : Except Fault State) (p : State → Bool) : Bool :=
  match r with
  | .ok s => p s
  | .error _ => false

/-- The memory `exFresh` after the folder 1 was created below the root. -/
def exOne : State :=
  match treeview_create_node_folder exG exFont 5 exTree exFresh (some 1) none
    .TREE_REL_FIRST_CHILD exField 101 with
  | .ok (_, s, _) => s
  | .error _ => emptyState

/-- The memory `exOne` after the entry 2 was created inside the folder 1. -/
def exTwo : State :=
  match treeview_create_node_entry exG exFont 5 exTree exOne (some 2) (some 1)
    .TREE_REL_FIRST_CHILD exFields 102 with
  | .ok (_, s, _) => s
  | .error _ => emptyState

/-- The memory `exTwo` after the entry 2, hidden inside the collapsed folder 1,
was deleted again. -/
def exDeleted : State :=
  match treeview_delete_node 5 exTree exTwo 2 with
  | .ok (_, s) => s
  | .error _ => emptyState

/-- The memory `exTwo` after the folder 1 was expanded. -/
def exThree : State :=
  match treeview_node_expand exG exFont 5 exTree exTwo 1 with
  | .ok (_, s) => s
  | .error _ => emptyState

/-- The memory `exState` with the entry 2 (visible) and the entry 5 (hidden
inside the collapsed folder 3) selected. -/
def exSelState : State := set_selected exState [2, 5] true

/-- Masks of the examples: one bit each, `PRESS_1 = 1`, `PRESS_2 = 2`,
`CLICK_1 = 4`, `CLICK_2 = 8`, `DOUBLE_CLICK = 16`, `MOD_2 = 2048`. -/
def exMasks : browser_mouse_masks :=
  { BROWSER_MOUSE_PRESS_1 := 1, BROWSER_MOUSE_PRESS_2 := 2, BROWSER_MOUSE_CLICK_1 := 4,
    BROWSER_MOUSE_CLICK_2 := 8, BROWSER_MOUSE_DOUBLE_CLICK := 16, BROWSER_MOUSE_MOD_2 := 2048 }

/-- The redraw environment of the examples: no knockout layer, no icon loaded,
and the furniture texts `+` and `-`. -/
def exEnv : redraw_env :=
  { option_knockout := false,
    treeview_res := fun _ => { height := 0, ready := false },
    TREE_FURN_EXPAND := { data := [43], len := 1, width := 7 },
    TREE_FURN_CONTRACT := { data := [45], len := 1, width := 7 } }

/-- The memory `exState` with the visible entries 2 and 4 selected. -/
def exSelTwo : State := set_selected exState [2, 4] true

/-- The memory `exThree` after the entry 2 was expanded. -/
def exFour : State :=
  match treeview_node_expand exG exFont 5 exTree exThree 2 with
  | .ok (_, s) => s
  | .error _ => emptyState

/-! ## Height conservation -/

/-- Height conservation as the specification states it: the height of the
root is the sum of the heights of its children, and the height of every
expanded folder is one row plus the sum of the heights of its children. -/
def HeightConservation (g : treeview_globals) (tree : treeview) (s : State) : Prop :=
  (∃ kids, ChildChain s (childrenOf s tree.root) kids ∧
    heightOf s tree.root = (kids.map (heightOf s)).sum) ∧
  (∀ a n, s.heap a = some n → n.type = .TREE_NODE_FOLDER → n.expanded = true →
    ∃ kids, ChildChain s n.children kids ∧
      n.height = g.line_height + (kids.map (heightOf s)).sum)

/-- The parent an insertion as relation `rel` of `b` gives the new node. -/
def insert_parent (s : State) (b : Nat) (rel : treeview_relationship) : Option Nat :=
  match rel with
  | .TREE_REL_FIRST_CHILD => some b
  | .TREE_REL_NEXT_SIBLING => parentOf s b

/-- The pointer `p` is the root, or a node that is collapsed. -/
def RootOrCollapsed (tree : treeview) (s : State) (p : Option Nat) : Prop :=
  p = some tree.root ∨ ∃ q nq, p = some q ∧ s.heap q = some nq ∧ nq.expanded = false

/-- A visible node: it has a parent chain up to a parentless node, and every
node on it is expanded. -/
def Visible (s : State) (node : Nat) : Prop :=
  ∃ path, AncPath s node path ∧ ∀ p ∈ path, ∀ np, s.heap p = some np → np.expanded = true

/-- The memories reached from a freshly created tree by creations whose new
parent is the root or a collapsed node, by deletions of nodes that are not
visible and by expansions of visible nodes, every call returning
`NSERROR_OK`. -/
inductive Built (g : treeview_globals) (font_width : List Nat → Nat → Int) (tree : treeview) :
    State → Prop where
  | fresh (s : State) (addr : Nat) (n_fields : Int) (fields : List treeview_field_desc) :
      treeview_create g font_width emptyState true (some addr) n_fields fields =
        .ok (.NSERROR_OK, s, some tree) → Built g font_width tree s
  | create_folder (s s' : State) (fuel a : Nat) (relation : Option Nat)
      (rel : treeview_relationship) (field : treeview_field_data) (data : Nat) :
      Built g font_width tree s →
      RootOrCollapsed tree s
        (insert_parent s (insert_target tree relation rel).1 (insert_target tree relation rel).2) →
      treeview_create_node_folder g font_width fuel tree s (some a) relation rel field data =
        .ok (.NSERROR_OK, s', some a) →
      Built g font_width tree s'
  | create_entry (s s' : State) (fuel a : Nat) (relation : Option Nat)
      (rel : treeview_relationship) (fields : List treeview_field_data) (data : Nat) :
      Built g font_width tree s →
      RootOrCollapsed tree s
        (insert_parent s (insert_target tree relation rel).1 (insert_target tree relation rel).2) →
      treeview_create_node_entry g font_width fuel tree s (some a) relation rel fields data =
        .ok (.NSERROR_OK, s', some a) →
      Built g font_width tree s'
  | delete (s s' : State) (fuel node : Nat) :
      Built g font_width tree s → ¬ Visible s node →
      treeview_delete_node fuel tree s node = .ok (.NSERROR_OK, s') →
      Built g font_width tree s'
  | expand (s s' : State) (fuel node : Nat) :
      Built g font_width tree s → Visible s node →
      treeview_node_expand g font_width fuel tree s node = .ok (.NSERROR_OK, s') →
      Built g font_width tree s'

/-- The memories reached from a freshly created tree by valid calls of the
interface that return without a fault. -/
inductive Reach (g : treeview_globals) (font_width : List Nat → Nat → Int)
    (m : browser_mouse_masks) (tree : treeview) : State → Prop where
  | fresh (s : State) (addr : Nat) (n_fields : Int) (fields : List treeview_field_desc) :
      treeview_create g font_width emptyState true (some addr) n_fields fields =
        .ok (.NSERROR_OK, s, some tree) → Reach g font_width m tree s
  | step (s s' : State) (fuel : Nat) (c : Call) :
      Reach g font_width m tree s → Call.valid tree s c →
      run_call g font_width m fuel tree s c = .ok s' → Reach g font_width m tree s'

/-- The invariant of the memories in `Built`: the root is an expanded,
parentless root node; every node has a parent chain that ends at the root;
the sibling chain below a node lists exactly the nodes whose parent it is;
an entry has no children and has its `n_fields - 1` secondary slots; only the
root is a root node; an expanded node other than the root has an expanded
parent; a collapsed node has the height of one row; an expanded folder has one
row plus the heights of its children; the root has the heights of its
children. -/
structure TreeInv (g : treeview_globals) (tree : treeview) (s : State) : Prop where
  nf : 1 ≤ tree.n_fields
  root : ∃ r, s.heap tree.root = some r ∧ r.parent = none ∧ r.expanded = true ∧
    r.type = .TREE_NODE_ROOT
  paths : ∀ a, s.heap a ≠ none →
    ∃ path, AncPath s a path ∧ (a :: path).getLast? = some tree.root
  kids : ∀ a n, s.heap a = some n →
    ∃ kids, ChildChain s n.children kids ∧ ∀ k, k ∈ kids ↔ parentOf s k = some a
  entry : ∀ a n, s.heap a = some n → n.type = .TREE_NODE_ENTRY →
    n.children = none ∧ n.fields.length = (tree.n_fields - 1).toNat
  kind : ∀ a n, s.heap a = some n → n.type = .TREE_NODE_ROOT → a = tree.root
  vis : ∀ a n, s.heap a = some n → n.expanded = true → a ≠ tree.root →
    ∃ p np, n.parent = some p ∧ s.heap p = some np ∧ np.expanded = true
  coll : ∀ a n, s.heap a = some n → n.expanded = false → n.height = g.line_height
  folder : ∀ a n, s.heap a = some n → n.expanded = true → n.type = .TREE_NODE_FOLDER →
    ∀ kids, ChildChain s n.children kids → n.height = g.line_height + (kids.map (heightOf s)).sum
  top : ∀ kids, ChildChain s (childrenOf s tree.root) kids →
    heightOf s tree.root = (kids.map (heightOf s)).sum

/-! # Lemmas and theorems -/

/-! ## The traversal visits the gated pre-order -/

section Walk
variable {σ : Type}

theorem walk_loop_succ (full : Bool) (cb : Nat → State → σ → Except Fault (Bool × State × σ))
    (root fuel node : Nat) (s : State) (c : σ) :
    walk_loop full cb root (fuel + 1) node s c =
      match s.heap node with
      | none => .error .null
      | some n =>
        match (if full || n.expanded then n.children else none) with
        | some child => walk_visit full cb root fuel child s c
        | none => walk_else full cb root fuel fuel node s c := by
  simp only [walk_loop, walk_visit, walk_else, load, bind, Except.bind, pure, Except.pure]
  cases h : s.heap node with
  | none => rfl
  | some n =>
    simp only []
    cases h2 : (if (full || n.expanded) = true then n.children else none) with
    | some child =>
      simp only []
      split
      · rfl
      · cases cb child s c with
        | error e => rfl
        | ok r =>
          obtain ⟨b, s', c'⟩ := r
          cases b <;> rfl
    | none =>
      simp only []
      cases walk_ascend fuel s root node with
      | error e => rfl
      | ok up =>
        simp only []
        split
        · rfl
        · cases h3 : s.heap up with
          | none => rfl
          | some nu =>
            simp only []
            cases nu.sibling_next with
            | none => rfl
            | some sib =>
              simp only []
              split
              · rfl
              · cases cb sib s c with
                | error e => rfl
                | ok r =>
                  obtain ⟨b, s', c'⟩ := r
                  cases b <;> rfl

theorem linkEq_get {s0 s : State} (h : LinkEq s0 s) {a : Nat} {n0 : treeview_node}
    (h0 : s0.heap a = some n0) : ∃ n, s.heap a = some n ∧ links n = links n0 := by
  have := h a
  rw [h0] at this
  cases hs : s.heap a with
  | none => rw [hs] at this; simp at this
  | some n => rw [hs] at this; exact ⟨n, rfl, by simpa using this⟩

theorem linkEq_refl (s : State) : LinkEq s s := fun _ => rfl

theorem andThen_ok_false (s : State) (c : σ) (k : State → σ → Except Fault (Bool × State × σ)) :
    andThen (.ok (false, s, c)) k = k s c := rfl

theorem iterate_cb_append (cb : Nat → State → σ → Except Fault (Bool × State × σ))
    (l1 l2 : List Nat) (s : State) (c : σ) :
    iterate_cb cb (l1 ++ l2) s c = andThen (iterate_cb cb l1 s c) (iterate_cb cb l2) := by
  induction l1 generalizing s c with
  | nil => rfl
  | cons x xs ih =>
    simp only [List.cons_append, iterate_cb]
    cases cb x s c with
    | error e => rfl
    | ok r =>
      obtain ⟨b, s', c'⟩ := r
      cases b
      · exact ih s' c'
      · rfl

theorem andThen_assoc (r : Except Fault (Bool × State × σ))
    (k1 k2 : State → σ → Except Fault (Bool × State × σ)) :
    andThen (andThen r k1) k2 = andThen r (fun s c => andThen (k1 s c) k2) := by
  cases r with
  | error e => rfl
  | ok r =>
    obtain ⟨b, s', c'⟩ := r
    cases b <;> rfl

theorem walk_else_last (full : Bool) (cb : Nat → State → σ → Except Fault (Bool × State × σ))
    (root inner outer node p : Nat) (s : State) (c : σ) (n : treeview_node)
    (hne : node ≠ root) (hn : s.heap node = some n) (hnext : n.sibling_next = none)
    (hp : n.parent = some p) :
    walk_else full cb root (inner + 1) outer node s c = walk_else full cb root inner outer p s c := by
  simp [walk_else, walk_ascend, hne, load, hn, hnext, hp, ptr, bind, Except.bind]

theorem walk_else_next (full : Bool) (cb : Nat → State → σ → Except Fault (Bool × State × σ))
    (root inner outer node sib : Nat) (s : State) (c : σ) (n : treeview_node)
    (hne : node ≠ root) (hn : s.heap node = some n) (hnext : n.sibling_next = some sib) :
    walk_else full cb root (inner + 1) outer node s c = walk_visit full cb root outer sib s c := by
  simp [walk_else, walk_ascend, hne, load, hn, hnext, bind, Except.bind]


theorem links_eq {n n0 : treeview_node} (h : links n = links n0) :
    n.expanded = n0.expanded ∧ n.parent = n0.parent ∧ n.sibling_prev = n0.sibling_prev ∧
      n.sibling_next = n0.sibling_next ∧ n.children = n0.children := by
  simpa [links] using h

theorem iterate_cb_inv (Inv : State → Prop) (cb : Nat → State → σ → Except Fault (Bool × State × σ))
    (hcb : ∀ x s c b s' c', Inv s → cb x s c = .ok (b, s', c') → Inv s')
    (l : List Nat) : ∀ (s : State) (c : σ) b s' c', Inv s →
      iterate_cb cb l s c = .ok (b, s', c') → Inv s' := by
  induction l with
  | nil =>
    intro s c b s' c' hs h
    simp only [iterate_cb, Except.ok.injEq, Prod.mk.injEq] at h
    obtain ⟨_, rfl, _⟩ := h
    exact hs
  | cons x xs ih =>
    intro s c b s' c' hs h
    simp only [iterate_cb] at h
    cases hx : cb x s c with
    | error e => rw [hx] at h; simp at h
    | ok r =>
      obtain ⟨b1, s1, c1⟩ := r
      rw [hx] at h
      have h1 := hcb x s c b1 s1 c1 hs hx
      cases b1
      · exact ih s1 c1 b s' c' h1 h
      · simp only [Except.ok.injEq, Prod.mk.injEq] at h
        obtain ⟨_, rfl, _⟩ := h
        exact h1

theorem andThen_congr (Inv : State → Prop) (r : Except Fault (Bool × State × σ))
    (k1 k2 : State → σ → Except Fault (Bool × State × σ))
    (hr : ∀ b s c, r = .ok (b, s, c) → Inv s)
    (hk : ∀ s c, Inv s → k1 s c = k2 s c) : andThen r k1 = andThen r k2 := by
  cases r with
  | error e => rfl
  | ok r =>
    obtain ⟨b, s', c'⟩ := r
    cases b
    · exact hk s' c' (hr _ _ _ rfl)
    · rfl

/-- The walk over one sibling chain: entered by visiting the first node of the
forest `f` below `p`, the loop calls the callback along the gated pre-order of
`f` and then carries on as the "no children" branch at `p` does. -/
theorem forest_walk (s0 : State) (Inv : State → Prop) (hInv : ∀ s, Inv s → LinkEq s0 s)
    (root : Nat) (full : Bool)
    (cb : Nat → State → σ → Except Fault (Bool × State × σ))
    (hcb : ∀ x s c s' c', Inv s → cb x s c = .ok (false, s', c') → Inv s') :
    ∀ (f : Forest) (p : Nat) (prev : Option Nat)
      (K : State → σ → Except Fault (Bool × State × σ)) (a : Nat),
      Rep s0 (some p) prev f → root ∉ f.ids →
      (∀ inner outer s c, a ≤ inner → a ≤ outer → Inv s →
        walk_else full cb root inner outer p s c = K s c) →
      ∀ x, f.first = some x → ∀ fuel s c, a + 2 * f.size ≤ fuel → Inv s →
        walk_visit full cb root fuel x s c =
          andThen (iterate_cb cb (f.preorder (isOpen s0 full)) s c) K := by
  intro f
  induction f with
  | nil => intro p prev K a _ _ _ x hx; simp [Forest.first] at hx
  | cons id k r ihk ihr =>
    intro p prev K a hrep hroot hK x hx fuel s c hfuel hs
    simp only [Forest.first, Option.some.injEq] at hx
    subst hx
    simp only [Rep] at hrep
    obtain ⟨hnode, hrk, hrr⟩ := hrep
    cases h0 : s0.heap id with
    | none => rw [h0] at hnode; exact hnode.elim
    | some n0 =>
    rw [h0] at hnode
    simp only [] at hnode
    obtain ⟨hpar, _, hch, hnx⟩ := hnode
    simp only [Forest.ids, List.mem_cons, List.mem_append, not_or] at hroot
    obtain ⟨hne, hrootk, hrootr⟩ := hroot
    have hne' : id ≠ root := fun h => hne h.symm
    -- what the "no children" branch at `id` does
    have hKid : ∀ inner outer s c, a + 2 * r.size + 1 ≤ inner → a + 2 * r.size + 1 ≤ outer →
        Inv s → walk_else full cb root inner outer id s c =
          andThen (iterate_cb cb (r.preorder (isOpen s0 full)) s c) K := by
      intro inner outer s c hi ho hs
      obtain ⟨n, hn, hl⟩ := linkEq_get (hInv s hs) h0
      obtain ⟨_, hp1, _, hn1, _⟩ := links_eq hl
      obtain ⟨i, rfl⟩ : ∃ i, inner = i + 1 := ⟨inner - 1, by omega⟩
      cases r with
      | nil =>
        rw [walk_else_last full cb root i outer id p s c n hne' hn (by rw [hn1, hnx]; rfl)
          (by rw [hp1, hpar])]
        simp only [Forest.preorder, iterate_cb, andThen_ok_false]
        exact hK i outer s c (by simp [Forest.size] at hi; omega) (by omega) hs
      | cons id2 k2 r2 =>
        rw [walk_else_next full cb root i outer id id2 s c n hne' hn (by rw [hn1, hnx]; rfl)]
        exact ihr p (some id) K a hrr hrootr hK id2 rfl outer s c (by omega) hs
    -- the visit of `id`
    simp only [walk_visit, if_neg hne', Forest.preorder, iterate_cb]
    cases hcbx : cb id s c with
    | error e => rfl
    | ok res =>
      obtain ⟨b, s1, c1⟩ := res
      cases b
      swap
      · rfl
      simp only []
      have hs1 := hcb id s c s1 c1 hs hcbx
      obtain ⟨n1, hn1, hl1⟩ := linkEq_get (hInv s1 hs1) h0
      obtain ⟨he1, _, _, _, hc1⟩ := links_eq hl1
      obtain ⟨fuel1, rfl⟩ : ∃ i, fuel = i + 1 := ⟨fuel - 1, by simp [Forest.size] at hfuel; omega⟩
      simp only [Forest.size] at hfuel
      rw [walk_loop_succ, hn1, iterate_cb_append]
      simp only []
      have hopen : isOpen s0 full id = (full || n1.expanded) := by
        simp [isOpen, h0, he1]
      rw [hopen]
      cases hfo : (full || n1.expanded) with
      | false =>
        simp only [Bool.false_eq_true, if_false, iterate_cb, andThen_ok_false]
        exact hKid fuel1 fuel1 s1 c1 (by omega) (by omega) hs1
      | true =>
        simp only [if_true]
        cases k with
        | nil =>
          have : n1.children = none := by rw [hc1, hch]; rfl
          rw [this]
          simp only [Forest.preorder, iterate_cb, andThen_ok_false]
          exact hKid fuel1 fuel1 s1 c1 (by omega) (by omega) hs1
        | cons idk kk rk =>
          have : n1.children = some idk := by rw [hc1, hch]; rfl
          rw [this]
          simp only []
          rw [andThen_assoc]
          exact ihk id none (fun s c => andThen (iterate_cb cb (r.preorder (isOpen s0 full)) s c) K)
            (a + 2 * r.size + 1) hrk hrootk hKid idk rfl fuel1 s1 c1 (by omega) hs1

theorem andThen_done (r : Except Fault (Bool × State × σ)) :
    andThen r (fun s c => .ok (false, s, c)) = r := by
  cases r with
  | error e => rfl
  | ok r =>
    obtain ⟨b, s', c'⟩ := r
    cases b <;> rfl

theorem walk_else_root (full : Bool) (cb : Nat → State → σ → Except Fault (Bool × State × σ))
    (root inner outer : Nat) (s : State) (c : σ) :
    walk_else full cb root (inner + 1) outer root s c = .ok (false, s, c) := by
  simp [walk_else, walk_ascend]

/-- The walk below `root` is the callback iterated along the gated pre-order
of the subtree, for every callback that, whenever it asks to go on, keeps an
invariant under which the links and expanded flags stay those of the starting
memory (the call that aborts the walk may change them). -/
theorem walk_internal_eq_iterate_cont (s0 : State) (Inv : State → Prop)
    (hInv : ∀ s, Inv s → LinkEq s0 s) (root : Nat) (full : Bool)
    (cb : Nat → State → σ → Except Fault (Bool × State × σ))
    (hcb : ∀ x s c s' c', Inv s → cb x s c = .ok (false, s', c') → Inv s')
    (f : Forest) (hsub : SubtreeAt s0 root f) (s : State) (hs : Inv s)
    (fuel : Nat) (hfuel : 2 * f.size + 2 ≤ fuel) (c : σ) :
    treeview_walk_internal fuel (some root) full cb s c =
      iterate_cb cb (walk_order s0 full root f) s c := by
  obtain ⟨hroot, hrep, hnot⟩ := hsub
  cases h0 : s0.heap root with
  | none => rw [h0] at hroot; exact hroot.elim
  | some n0 =>
  rw [h0] at hroot
  simp only [] at hroot
  obtain ⟨n, hn, hl⟩ := linkEq_get (hInv s hs) h0
  obtain ⟨he, _, _, _, hc⟩ := links_eq hl
  obtain ⟨fuel1, rfl⟩ : ∃ i, fuel = i + 1 := ⟨fuel - 1, by omega⟩
  obtain ⟨fuel2, rfl⟩ : ∃ i, fuel1 = i + 1 := ⟨fuel1 - 1, by omega⟩
  simp only [treeview_walk_internal, walk_order]
  rw [walk_loop_succ, hn]
  simp only []
  have hopen : isOpen s0 full root = (full || n.expanded) := by
    simp [isOpen, h0, he]
  rw [hopen]
  cases hfo : (full || n.expanded) with
  | false =>
    simp only [Bool.false_eq_true, if_false, iterate_cb]
    exact walk_else_root full cb root fuel2 _ s c
  | true =>
    simp only [if_true]
    cases f with
    | nil =>
      have : n.children = none := by rw [hc, hroot]; rfl
      rw [this]
      simp only [Forest.preorder, iterate_cb]
      exact walk_else_root full cb root fuel2 _ s c
    | cons idk kk rk =>
      have : n.children = some idk := by rw [hc, hroot]; rfl
      rw [this]
      simp only []
      rw [forest_walk s0 Inv hInv root full cb hcb (Forest.cons idk kk rk) root none
        (fun s c => .ok (false, s, c)) 1 hrep hnot ?_ idk rfl (fuel2 + 1) s c (by omega) hs]
      · exact andThen_done _
      · intro inner outer s c hi _ _
        obtain ⟨i, rfl⟩ : ∃ i, inner = i + 1 := ⟨inner - 1, by omega⟩
        exact walk_else_root full cb root i outer s c

/-- The walk below `root` is the callback iterated along the gated pre-order
of the subtree, for every callback that keeps an invariant under which the
links and expanded flags stay those of the starting memory. -/
theorem walk_internal_eq_iterate (s0 : State) (Inv : State → Prop)
    (hInv : ∀ s, Inv s → LinkEq s0 s) (root : Nat) (full : Bool)
    (cb : Nat → State → σ → Except Fault (Bool × State × σ))
    (hcb : ∀ x s c b s' c', Inv s → cb x s c = .ok (b, s', c') → Inv s')
    (f : Forest) (hsub : SubtreeAt s0 root f) (s : State) (hs : Inv s)
    (fuel : Nat) (hfuel : 2 * f.size + 2 ≤ fuel) (c : σ) :
    treeview_walk_internal fuel (some root) full cb s c =
      iterate_cb cb (walk_order s0 full root f) s c :=
  walk_internal_eq_iterate_cont s0 Inv hInv root full cb
    (fun x s c s' c' h1 h2 => hcb x s c false s' c' h1 h2) f hsub s hs fuel hfuel c
end Walk

section WalkClaims
variable {σ : Type}

theorem iterate_cb_pure (s : State) (cb : Nat → State → σ → Except Fault (Bool × State × σ))
    (stop : σ → Nat → Bool) (g : σ → Nat → σ)
    (hcb : ∀ x c, cb x s c = .ok (stop c x, s, g c x)) (l : List Nat) (c : σ) :
    iterate_cb cb l s c =
      .ok (walk_aborted stop g l c, s, (visited_upto stop g l c).foldl g c) := by
  induction l generalizing c with
  | nil => rfl
  | cons x xs ih =>
    simp only [iterate_cb, hcb, walk_aborted, visited_upto]
    cases hst : stop c x with
    | true => simp
    | false => simp [ih]

theorem visited_upto_prefix (stop : σ → Nat → Bool) (g : σ → Nat → σ) (l : List Nat) (c : σ) :
    visited_upto stop g l c <+: l := by
  induction l generalizing c with
  | nil => simp [visited_upto]
  | cons x xs ih =>
    simp only [visited_upto]
    split
    · exact ⟨xs, rfl⟩
    · exact (List.prefix_cons_inj x).mpr (ih _)

theorem walk_aborted_iff (stop : σ → Nat → Bool) (g : σ → Nat → σ) (l : List Nat) (c : σ) :
    walk_aborted stop g l c = true ↔
      ∃ pre x, visited_upto stop g l c = pre ++ [x] ∧ stop (pre.foldl g c) x = true ∧
        ∀ p1 y p2, pre = p1 ++ y :: p2 → stop (p1.foldl g c) y = false := by
  induction l generalizing c with
  | nil => simp [walk_aborted, visited_upto]
  | cons x xs ih =>
    simp only [walk_aborted, visited_upto, Bool.or_eq_true]
    cases hst : stop c x with
    | true =>
      simp only [true_or, if_true, true_iff]
      refine ⟨[], x, rfl, hst, ?_⟩
      intro p1 y p2 h
      simp at h
    | false =>
      simp only [Bool.false_eq_true, false_or, if_false]
      rw [ih]
      constructor
      · rintro ⟨pre, y, hv, hs, hall⟩
        refine ⟨x :: pre, y, by simp [hv], by simpa using hs, ?_⟩
        intro p1 z p2 h
        cases p1 with
        | nil =>
          simp only [List.nil_append, List.cons.injEq] at h
          obtain ⟨rfl, _⟩ := h
          simpa using hst
        | cons w p1 =>
          simp only [List.cons_append, List.cons.injEq] at h
          obtain ⟨rfl, h⟩ := h
          simpa using hall p1 z p2 h
      · rintro ⟨pre, y, hv, hs, hall⟩
        cases pre with
        | nil =>
          simp only [List.nil_append, List.cons.injEq] at hv
          obtain ⟨rfl, _⟩ := hv
          simp only [List.foldl_nil] at hs
          rw [hst] at hs
          exact absurd hs (by simp)
        | cons w pre =>
          simp only [List.cons_append, List.cons.injEq] at hv
          obtain ⟨rfl, hv⟩ := hv
          refine ⟨pre, y, hv, by simpa using hs, ?_⟩
          intro p1 z p2 h
          simpa using hall (x :: p1) z p2 (by simp [h])

theorem walk_not_aborted (stop : σ → Nat → Bool) (g : σ → Nat → σ) (l : List Nat) (c : σ)
    (h : walk_aborted stop g l c = false) :
    visited_upto stop g l c = l ∧
      ∀ p1 y p2, l = p1 ++ y :: p2 → stop (p1.foldl g c) y = false := by
  induction l generalizing c with
  | nil => simp [visited_upto]
  | cons x xs ih =>
    simp only [walk_aborted, Bool.or_eq_false_iff] at h
    obtain ⟨hst, hrest⟩ := h
    obtain ⟨hv, hall⟩ := ih _ hrest
    refine ⟨by simp [visited_upto, hst, hv], ?_⟩
    intro p1 y p2 hl
    cases p1 with
    | nil =>
      simp only [List.nil_append, List.cons.injEq] at hl
      obtain ⟨rfl, _⟩ := hl
      simpa using hst
    | cons w p1 =>
      simp only [List.cons_append, List.cons.injEq] at hl
      obtain ⟨rfl, hl⟩ := hl
      simpa using hall p1 y p2 hl

theorem preorder_subset_ids (opened : Nat → Bool) (f : Forest) :
    ∀ x ∈ f.preorder opened, x ∈ f.ids := by
  induction f with
  | nil => simp [Forest.preorder]
  | cons id k r ihk ihr =>
    intro x hx
    simp only [Forest.preorder, List.mem_cons, List.mem_append] at hx
    simp only [Forest.ids, List.mem_cons, List.mem_append]
    rcases hx with h | h | h
    · exact Or.inl h
    · split at h
      · exact Or.inr (Or.inl (ihk x h))
      · simp at h
    · exact Or.inr (Or.inr (ihr x h))

theorem preorder_all (opened : Nat → Bool) (f : Forest) (h : ∀ x ∈ f.ids, opened x = true) :
    f.preorder opened = f.ids := by
  induction f with
  | nil => rfl
  | cons id k r ihk ihr =>
    simp only [Forest.ids, List.mem_cons, List.mem_append] at h
    simp only [Forest.preorder, Forest.ids, h id (Or.inl rfl), if_true]
    rw [ihk (fun x hx => h x (Or.inr (Or.inl hx))), ihr (fun x hx => h x (Or.inr (Or.inr hx)))]

theorem walk_order_subset (s : State) (full : Bool) (root : Nat) (f : Forest) :
    ∀ x ∈ walk_order s full root f, x ∈ f.ids := by
  intro x hx
  unfold walk_order at hx
  split at hx
  · exact preorder_subset_ids _ f x hx
  · simp at hx


theorem walk_aborted_never (g : σ → Nat → σ) (l : List Nat) (c : σ) :
    walk_aborted (fun _ _ => false) g l c = false := by
  induction l generalizing c with
  | nil => rfl
  | cons x xs ih => simp [walk_aborted, ih]

/-- C6 (walk order).  In a memory where the node `root` holds the forest `f`
as its subtree, for a callback that never aborts and leaves the memory as it
is (acting on its context as `g`), `treeview_walk_internal (root, full, cb)`
returns `false` for every fuel from `2 * f.size + 2` on, having called the
callback exactly along `walk_order`: the strict descendants of `root` in
depth-first pre-order, children in sibling order, the children of a node
(`root` included) only when `full` or the node is expanded.  The sequence
never holds `root`, holds only nodes of the subtree of `root` (whatever the
siblings of `root` are), and is the whole subtree when `full`. -/
theorem walk_internal_visits_preorder (s : State) (root : Nat) (f : Forest) (full : Bool)
    (cb : Nat → State → σ → Except Fault (Bool × State × σ)) (g : σ → Nat → σ)
    (hwf : SubtreeAt s root f)
    (hcb : ∀ x c, cb x s c = .ok (false, s, g c x))
    (fuel : Nat) (hfuel : 2 * f.size + 2 ≤ fuel) (c : σ) :
    treeview_walk_internal fuel (some root) full cb s c =
        .ok (false, s, (walk_order s full root f).foldl g c) ∧
      root ∉ walk_order s full root f ∧
      (∀ x ∈ walk_order s full root f, x ∈ f.ids) ∧
      (full = true → walk_order s full root f = f.ids) := by
  refine ⟨?_, ?_, walk_order_subset s full root f, ?_⟩
  · rw [walk_internal_eq_iterate s (fun s' => s' = s) (fun s' h => h ▸ linkEq_refl s) root full cb
      ?_ f hwf s rfl fuel hfuel c]
    · rw [iterate_cb_pure s cb (fun _ _ => false) g hcb, walk_aborted_never,
        (walk_not_aborted _ g _ c (walk_aborted_never g _ c)).1]
    · intro x s1 c1 b s' c' h1 h2
      subst h1
      rw [hcb] at h2
      simp only [Except.ok.injEq, Prod.mk.injEq] at h2
      exact h2.2.1.symm
  · intro h
    exact hwf.2.2 (walk_order_subset s full root f root h)
  · intro hfull
    subst hfull
    simp only [walk_order, isOpen, Bool.true_or, if_true]
    exact preorder_all _ f (fun _ _ => rfl)

theorem walk_internal_visits_preorder_witness :
    SubtreeAt exState 1 exSub ∧
      treeview_walk_internal 8 (some 1) false record_cb exState [] =
        .ok (false, exState, [2, 3]) :=
  ⟨by decide,
   (walk_internal_visits_preorder exState 1 exSub false record_cb (fun c x => c ++ [x])
      (by decide) (fun _ _ => rfl) 8 (by decide) []).1⟩

/-- C7 (walk early abort).  In a memory where the node `root` holds the forest
`f` as its subtree, for a callback that leaves the memory as it is, acts on
its context as `g` and asks to abort as `stop` says,
`treeview_walk_internal` returns (for every fuel from `2 * f.size + 2` on)
having called the callback exactly on `visited_upto`, a prefix of the
pre-order sequence `walk_order`.  It returns `true` if and only if the
callback returned `true` at a visited node; then that node is the last one
visited and the callback returned `false` at every node before it.  When it
returns `false` it has visited the whole sequence, the callback returning
`false` at every node. -/
theorem walk_internal_early_abort (s : State) (root : Nat) (f : Forest) (full : Bool)
    (cb : Nat → State → σ → Except Fault (Bool × State × σ))
    (stop : σ → Nat → Bool) (g : σ → Nat → σ)
    (hwf : SubtreeAt s root f)
    (hcb : ∀ x c, cb x s c = .ok (stop c x, s, g c x))
    (fuel : Nat) (hfuel : 2 * f.size + 2 ≤ fuel) (c : σ) :
    ∃ b : Bool,
      treeview_walk_internal fuel (some root) full cb s c =
        .ok (b, s, (visited_upto stop g (walk_order s full root f) c).foldl g c) ∧
      visited_upto stop g (walk_order s full root f) c <+: walk_order s full root f ∧
      (b = true ↔ ∃ pre x post, visited_upto stop g (walk_order s full root f) c = pre ++ x :: post ∧
        stop (pre.foldl g c) x = true) ∧
      (b = true → ∃ pre x, visited_upto stop g (walk_order s full root f) c = pre ++ [x] ∧
        stop (pre.foldl g c) x = true ∧
        ∀ p1 y p2, pre = p1 ++ y :: p2 → stop (p1.foldl g c) y = false) ∧
      (b = false → visited_upto stop g (walk_order s full root f) c = walk_order s full root f ∧
        ∀ p1 y p2, walk_order s full root f = p1 ++ y :: p2 → stop (p1.foldl g c) y = false) := by
  refine ⟨walk_aborted stop g (walk_order s full root f) c, ?_, visited_upto_prefix _ _ _ _, ?_,
    (walk_aborted_iff stop g _ c).mp, walk_not_aborted stop g _ c⟩
  · rw [walk_internal_eq_iterate s (fun s' => s' = s) (fun s' h => h ▸ linkEq_refl s) root full cb
      ?_ f hwf s rfl fuel hfuel c]
    · exact iterate_cb_pure s cb stop g hcb _ c
    · intro x s1 c1 b s' c' h1 h2
      subst h1
      rw [hcb] at h2
      simp only [Except.ok.injEq, Prod.mk.injEq] at h2
      exact h2.2.1.symm
  · constructor
    · intro hb
      obtain ⟨pre, x, hv, hs, _⟩ := (walk_aborted_iff stop g _ c).mp hb
      exact ⟨pre, x, [], hv, hs⟩
    · rintro ⟨pre, x, post, hv, hs⟩
      by_contra hb
      simp only [Bool.not_eq_true] at hb
      obtain ⟨hv', hall⟩ := walk_not_aborted stop g _ c hb
      rw [hv'] at hv
      have := hall pre x post hv
      rw [hs] at this
      exact absurd this (by simp)

theorem walk_internal_early_abort_witness :
    SubtreeAt exState 0 exForest ∧
      ∃ b : Bool, treeview_walk_internal 14 (some 0) true (find_cb 3) exState [] =
        .ok (b, exState, [1, 2, 3]) ∧ (b = true ↔ True) :=
  ⟨by decide,
   (walk_internal_early_abort exState 0 exForest true (find_cb 3) (fun _ x => decide (x = 3))
      (fun c x => c ++ [x]) (by decide) (fun _ _ => rfl) 14 (by decide) []).imp
      (fun _ h => ⟨h.1, ⟨fun _ => trivial, fun _ => h.2.2.1.mpr ⟨[1, 2], 3, [], rfl, rfl⟩⟩⟩)⟩

end WalkClaims

/-! ## Memory lemmas -/

@[simp] theorem store_heap (s : State) (p : Nat) (n : treeview_node) (q : Nat) :
    (store s p n).heap q = if q = p then some n else s.heap q := rfl

@[simp] theorem store_events (s : State) (p : Nat) (n : treeview_node) :
    (store s p n).events = s.events := rfl

@[simp] theorem free_heap (s : State) (p q : Nat) :
    (free s p).heap q = if q = p then none else s.heap q := rfl

@[simp] theorem free_events (s : State) (p : Nat) : (free s p).events = s.events := rfl

theorem load_ok {s : State} {p : Nat} {n : treeview_node} (h : s.heap p = some n) :
    load s p = .ok n := by
  simp [load, h]

theorem modify_ok {s : State} {p : Nat} {n : treeview_node} (h : s.heap p = some n)
    (f : treeview_node → treeview_node) : modify s p f = .ok (store s p (f n)) := by
  simp [modify, h]

/-! ## Shape lemmas -/

theorem Rep_congr {s s' : State} : ∀ (f : Forest) (p prev : Option Nat),
    (∀ a ∈ f.ids, s'.heap a = s.heap a) → Rep s p prev f → Rep s' p prev f := by
  intro f
  induction f with
  | nil => intro _ _ _ _; trivial
  | cons id k r ihk ihr =>
    intro p prev h hrep
    simp only [Forest.ids, List.mem_cons, List.mem_append] at h
    simp only [Rep] at hrep ⊢
    rw [h id (Or.inl rfl)]
    exact ⟨hrep.1, ihk _ _ (fun a ha => h a (Or.inr (Or.inl ha))) hrep.2.1,
      ihr _ _ (fun a ha => h a (Or.inr (Or.inr ha))) hrep.2.2⟩

/-- Changing only the previous-sibling link of the first node of a chain. -/
theorem Rep_set_prev {s s' : State} (f : Forest) (p prev prev' : Option Nat)
    (hnd : f.ids.Nodup)
    (hfirst : ∀ a, f.first = some a → ∃ n, s.heap a = some n ∧
      s'.heap a = some { n with sibling_prev := prev' })
    (hrest : ∀ a ∈ f.ids, f.first ≠ some a → s'.heap a = s.heap a)
    (hrep : Rep s p prev f) : Rep s' p prev' f := by
  cases f with
  | nil => trivial
  | cons id k r =>
    simp only [Forest.ids, List.nodup_cons, List.mem_append, not_or, List.nodup_append] at hnd
    obtain ⟨⟨hk, hr⟩, _, _, _⟩ := hnd
    obtain ⟨n, hn, hn'⟩ := hfirst id rfl
    simp only [Rep, hn, hn'] at hrep ⊢
    refine ⟨⟨hrep.1.1, trivial, hrep.1.2.2.1, hrep.1.2.2.2⟩, ?_, ?_⟩
    · refine Rep_congr k _ _ (fun a ha => hrest a ?_ ?_) hrep.2.1
      · simp [Forest.ids, ha]
      · simp only [Forest.first, Option.some.injEq, ne_eq]
        rintro rfl
        exact hk ha
    · refine Rep_congr r _ _ (fun a ha => hrest a ?_ ?_) hrep.2.2
      · simp [Forest.ids, ha]
      · simp only [Forest.first, Option.some.injEq, ne_eq]
        rintro rfl
        exact hr ha

theorem Rep_heap {s : State} : ∀ (f : Forest) (p prev : Option Nat), Rep s p prev f →
    ∀ a ∈ f.ids, s.heap a ≠ none := by
  intro f
  induction f with
  | nil => intro _ _ _ a ha; simp [Forest.ids] at ha
  | cons id k r ihk ihr =>
    intro p prev hrep a ha
    simp only [Forest.ids, List.mem_cons, List.mem_append] at ha
    simp only [Rep] at hrep
    rcases ha with rfl | ha | ha
    · intro h
      rw [h] at hrep
      exact hrep.1
    · exact ihk _ _ hrep.2.1 a ha
    · exact ihr _ _ hrep.2.2 a ha

theorem delete_events_append (s : State) (l1 l2 : List Nat) :
    delete_events s (l1 ++ l2) = delete_events s l1 ++ delete_events s l2 := by
  induction l1 with
  | nil => rfl
  | cons a l ih => simp [delete_events, ih]

theorem delete_events_congr (s s' : State) (l : List Nat)
    (h : ∀ a ∈ l, (s'.heap a).map delete_event = (s.heap a).map delete_event) :
    delete_events s' l = delete_events s l := by
  induction l with
  | nil => rfl
  | cons a l ih =>
    simp only [delete_events]
    rw [ih (fun b hb => h b (List.mem_cons_of_mem _ hb))]
    have := h a (List.mem_cons_self _ _)
    cases h1 : s'.heap a <;> cases h2 : s.heap a <;> simp [h1, h2] at this ⊢
    exact this

theorem postorder_subset (f : Forest) : ∀ a, a ∈ f.postorder ↔ a ∈ f.ids := by
  induction f with
  | nil => simp [Forest.postorder, Forest.ids]
  | cons id k r ihk ihr =>
    intro a
    simp only [Forest.postorder, Forest.ids, List.mem_append, List.mem_cons, List.mem_singleton,
      ihk, ihr, List.not_mem_nil, or_false]
    tauto
/-! ## Deletion -/

theorem delete_children_succ (fuel : Nat) (tree : treeview) (s : State) (n : Nat) :
    delete_children (fuel + 1) tree s n =
      match s.heap n with
      | none => .error .null
      | some nn =>
        match nn.children with
        | none => .ok s
        | some c =>
          match treeview_delete_node fuel tree s c with
          | .error e => .error e
          | .ok r => delete_children fuel tree r.2 n := by
  rw [delete_children]
  simp only [load, bind, Except.bind, pure, Except.pure]
  cases s.heap n with
  | none => rfl
  | some nn =>
    simp only []
    cases nn.children with
    | none => rfl
    | some c =>
      simp only []
      cases treeview_delete_node fuel tree s c <;> rfl

theorem delete_node_succ (fuel : Nat) (tree : treeview) (s : State) (n : Nat) :
    treeview_delete_node (fuel + 1) tree s n =
      match delete_children fuel tree s n with
      | .error e => .error e
      | .ok s1 =>
        match delete_unlink s1 n with
        | .error e => .error e
        | .ok s2 =>
          match s2.heap n with
          | none => .error .null
          | some nn =>
            .ok (.NSERROR_OK, free { s2 with events := s2.events ++ delete_event nn } n) := by
  rw [treeview_delete_node]
  simp only [load, bind, Except.bind, pure, Except.pure]
  cases delete_children fuel tree s n with
  | error e => rfl
  | ok s1 =>
    simp only []
    cases delete_unlink s1 n with
    | error e => rfl
    | ok s2 =>
      simp only []
      cases s2.heap n <;> rfl

theorem unlink_after_ok (s s1 : State) (c : Nat) (nc : treeview_node)
    (hc1 : s1.heap c = some nc)
    (hx : ∀ q, nc.sibling_next = some q → q ≠ c ∧ s.heap q ≠ none)
    (hn1 : ∀ a, s1.heap a = none ↔ s.heap a = none) :
    ∃ s', unlink_after s1 c = .ok s' ∧ s'.events = s1.events ∧
      s'.heap c = some nc ∧ ∀ a, s'.heap a = none ↔ s.heap a = none := by
  rw [unlink_after]
  simp only [load_ok hc1, bind, Except.bind, pure, Except.pure]
  cases hq : nc.sibling_next with
  | none => exact ⟨s1, rfl, rfl, hc1, hn1⟩
  | some q =>
    obtain ⟨hqc, hqv⟩ := hx q hq
    have hqv1 : s1.heap q ≠ none := fun h => hqv ((hn1 q).mp h)
    obtain ⟨nq, hnq⟩ := Option.ne_none_iff_exists'.mp hqv1
    refine ⟨_, modify_ok hnq _, rfl, ?_, ?_⟩
    · simp [Ne.symm hqc, hc1]
    · intro a
      by_cases ha : a = q
      · subst ha
        simp [hqv]
      · simp [ha, hn1]

theorem unlink_before_ok (s : State) (c : Nat) (nc : treeview_node)
    (hc : s.heap c = some nc)
    (hp : ∀ q, nc.parent = some q → q ≠ c ∧ s.heap q ≠ none)
    (hv : ∀ q, nc.sibling_prev = some q → q ≠ c ∧ s.heap q ≠ none) :
    ∃ s', unlink_before s c = .ok s' ∧ s'.events = s.events ∧
      s'.heap c = some nc ∧ ∀ a, s'.heap a = none ↔ s.heap a = none := by
  have viaprev : ∃ s', (match nc.sibling_prev with
        | some q => modify s q (fun x => { x with sibling_next := nc.sibling_next })
        | none => (Except.ok s : Except Fault State)) = .ok s' ∧ s'.events = s.events ∧
        s'.heap c = some nc ∧ ∀ a, s'.heap a = none ↔ s.heap a = none := by
    cases hq : nc.sibling_prev with
    | none => exact ⟨s, rfl, rfl, hc, fun _ => Iff.rfl⟩
    | some q =>
      obtain ⟨hqc, hqv⟩ := hv q hq
      obtain ⟨nq, hnq⟩ := Option.ne_none_iff_exists'.mp hqv
      refine ⟨_, modify_ok hnq _, rfl, ?_, ?_⟩
      · simp [Ne.symm hqc, hc]
      · intro a
        by_cases ha : a = q <;> simp [ha, hnq]
  rw [unlink_before]
  simp only [load_ok hc, bind, Except.bind, pure, Except.pure]
  cases hpar : nc.parent with
  | none =>
    simp only [Bool.false_eq_true, if_false]
    exact viaprev
  | some p =>
    obtain ⟨hpc, hpv⟩ := hp p hpar
    obtain ⟨np, hnp⟩ := Option.ne_none_iff_exists'.mp hpv
    simp only [load_ok hnp]
    by_cases hfirst : np.children = some c
    · simp only [hfirst, decide_True, if_true, ptr]
      refine ⟨_, modify_ok hnp _, rfl, ?_, ?_⟩
      · simp [Ne.symm hpc, hc]
      · intro a
        by_cases ha : a = p <;> simp [ha, hnp]
    · simp only [hfirst, decide_False, Bool.false_eq_true, if_false]
      exact viaprev

/-- Unlinking a node whose parent, previous and next sibling (when not `NULL`)
are other nodes held in memory succeeds; it leaves the events, the node
itself and the set of addresses in use as they are. -/
theorem delete_unlink_ok (s : State) (c : Nat) (nc : treeview_node)
    (hc : s.heap c = some nc)
    (hp : ∀ q, nc.parent = some q → q ≠ c ∧ s.heap q ≠ none)
    (hv : ∀ q, nc.sibling_prev = some q → q ≠ c ∧ s.heap q ≠ none)
    (hx : ∀ q, nc.sibling_next = some q → q ≠ c ∧ s.heap q ≠ none) :
    ∃ s', delete_unlink s c = .ok s' ∧ s'.events = s.events ∧ s'.heap c = some nc ∧
      ∀ a, s'.heap a = none ↔ s.heap a = none := by
  obtain ⟨s1, h1, he1, hc1, hn1⟩ := unlink_before_ok s c nc hc hp hv
  obtain ⟨s2, h2, he2, hc2, hn2⟩ := unlink_after_ok s s1 c nc hc1 hx hn1
  refine ⟨s2, ?_, he2.trans he1, hc2, hn2⟩
  simp only [delete_unlink, h1, bind, Except.bind, h2]
/-- Unlinking a first child: the child pointer of the parent moves to the next
sibling, whose previous-sibling link takes that of the unlinked node. -/
theorem delete_unlink_first (s : State) (c p : Nat) (nc np : treeview_node)
    (hc : s.heap c = some nc) (hpar : nc.parent = some p) (hp : s.heap p = some np)
    (hfirst : np.children = some c) (hpc : p ≠ c)
    (hx : ∀ d, nc.sibling_next = some d → d ≠ c ∧ d ≠ p ∧ s.heap d ≠ none) :
    ∃ s', delete_unlink s c = .ok s' ∧ s'.events = s.events ∧
      ∀ a, s'.heap a =
        if nc.sibling_next = some a then
          (s.heap a).map (fun x => { x with sibling_prev := nc.sibling_prev })
        else if a = p then some { np with children := nc.sibling_next }
        else s.heap a := by
  have h1 : unlink_before s c = .ok (store s p { np with children := nc.sibling_next }) := by
    rw [unlink_before]
    simp [load_ok hc, bind, Except.bind, pure, Except.pure, hpar, load_ok hp, hfirst, ptr,
      modify_ok hp]
  have hc1 : (store s p { np with children := nc.sibling_next }).heap c = some nc := by
    simp [Ne.symm hpc, hc]
  cases hq : nc.sibling_next with
  | none =>
    rw [hq] at h1 hc1
    refine ⟨store s p { np with children := none }, ?_, rfl, ?_⟩
    · simp only [delete_unlink, h1, bind, Except.bind, unlink_after, load_ok hc1, hq, pure,
        Except.pure]
    · intro a
      simp
  | some d =>
    rw [hq] at h1 hc1
    obtain ⟨hdc, hdp, hdv⟩ := hx d hq
    obtain ⟨nd, hnd⟩ := Option.ne_none_iff_exists'.mp hdv
    have hd1 : (store s p { np with children := some d }).heap d = some nd := by
      simp [hdp, hnd]
    refine ⟨store (store s p { np with children := some d }) d
      { nd with sibling_prev := nc.sibling_prev }, ?_, rfl, ?_⟩
    · simp only [delete_unlink, h1, bind, Except.bind, unlink_after, load_ok hc1, hq]
      exact modify_ok hd1 _
    · intro a
      by_cases ha : a = d
      · subst ha
        simp [hnd]
      · have : d ≠ a := fun h => ha h.symm
        simp [ha, this]

/-- The loop that destroys the children of `n`: with the forest `f` of
children held well linked, it ends, has notified the host for the nodes of `f`
in post-order, has freed them, has left `n` without children and has touched
nothing else. -/
theorem delete_children_spec (tree : treeview) : ∀ (f : Forest) (s : State) (n : Nat)
    (nn : treeview_node) (fuel : Nat),
    s.heap n = some nn → nn.children = f.first → Rep s (some n) none f → n ∉ f.ids →
    f.ids.Nodup → 2 * f.size + 1 ≤ fuel →
    ∃ s', delete_children fuel tree s n = .ok s' ∧
      s'.events = s.events ++ delete_events s f.postorder ∧
      s'.heap n = some { nn with children := none } ∧
      (∀ a ∈ f.ids, s'.heap a = none) ∧
      (∀ a, a ≠ n → a ∉ f.ids → s'.heap a = s.heap a) := by
  intro f
  induction f with
  | nil =>
    intro s n nn fuel hn hch _ _ _ hfuel
    obtain ⟨fuel1, rfl⟩ : ∃ i, fuel = i + 1 := ⟨fuel - 1, by omega⟩
    simp only [Forest.first] at hch
    refine ⟨s, ?_, ?_, ?_, ?_, ?_⟩
    · rw [delete_children_succ, hn]
      simp only [hch]
    · simp [Forest.postorder, delete_events]
    · rw [hn, ← hch]
    · intro a ha
      simp [Forest.ids] at ha
    · intro _ _ _
      rfl
  | cons c kc rc ihk ihr =>
    intro s n nn fuel hn hch hrep hnot hnd hfuel
    simp only [Forest.size] at hfuel
    obtain ⟨fuel1, rfl⟩ : ∃ i, fuel = i + 1 := ⟨fuel - 1, by omega⟩
    obtain ⟨fuel2, rfl⟩ : ∃ i, fuel1 = i + 1 := ⟨fuel1 - 1, by omega⟩
    simp only [Forest.first] at hch
    simp only [Forest.ids, List.mem_cons, List.mem_append, not_or] at hnot
    obtain ⟨hnc, hnk, hnr⟩ := hnot
    simp only [Forest.ids, List.nodup_cons, List.mem_append, not_or, List.nodup_append] at hnd
    obtain ⟨⟨hck, hcr⟩, hkn, hrn, hdis⟩ := hnd
    simp only [Rep] at hrep
    obtain ⟨hnode, hrk, hrr⟩ := hrep
    cases hc : s.heap c with
    | none => rw [hc] at hnode; exact hnode.elim
    | some nc =>
    rw [hc] at hnode
    simp only [] at hnode
    obtain ⟨hcpar, hcprev, hcch, hcnext⟩ := hnode
    -- the children of `c`
    obtain ⟨s1, hd1, he1, hc1, hfree1, hframe1⟩ :=
      ihk s c nc fuel2 hc hcch hrk hck hkn (by omega)
    have hn1 : s1.heap n = some nn := by rw [hframe1 n hnc hnk, hn]
    -- unlinking `c`
    obtain ⟨s2, hd2, he2, hheap2⟩ := delete_unlink_first s1 c n { nc with children := none } nn
      hc1 hcpar hn1 hch (Ne.symm (Ne.symm hnc))
      (by
        intro d hd
        simp only [] at hd
        rw [hcnext] at hd
        have hdr : d ∈ rc.ids := by
          cases rc with
          | nil => simp [Forest.first] at hd
          | cons d' _ _ =>
            simp only [Forest.first, Option.some.injEq] at hd
            subst hd
            simp [Forest.ids]
        have hdc : d ≠ c := by rintro rfl; exact hcr hdr
        have hdn' : d ≠ n := by rintro rfl; exact hnr hdr
        refine ⟨hdc, hdn', ?_⟩
        rw [hframe1 d hdc (fun h => hdis h hdr)]
        exact Rep_heap rc _ _ hrr d hdr)
    simp only [] at hheap2
    have hc2 : s2.heap c = some { nc with children := none } := by
      rw [hheap2 c, if_neg, if_neg (Ne.symm hnc), hc1]
      rw [hcnext]
      intro h
      cases rc with
      | nil => simp [Forest.first] at h
      | cons d' _ _ =>
        simp only [Forest.first, Option.some.injEq] at h
        exact hcr (by simp [Forest.ids, h])
    obtain ⟨s4, hs4⟩ : ∃ s4 : State, s4 =
        free { s2 with events := s2.events ++ delete_event { nc with children := none } } c :=
      ⟨_, rfl⟩
    have hdn : treeview_delete_node (fuel2 + 1) tree s c = .ok (.NSERROR_OK, s4) := by
      rw [delete_node_succ, hd1, hs4]
      simp only [hd2, hc2]
    have hev4 : s4.events = s2.events ++ delete_event nc := by
      rw [hs4]
      rfl
    have hfr4 : ∀ a, s4.heap a = if a = c then none else s2.heap a := by
      intro a
      rw [hs4]
      rfl
    -- the remaining children
    have hn4 : s4.heap n = some { nn with children := rc.first } := by
      rw [hfr4, if_neg hnc]
      rw [hheap2 n, if_neg, if_pos rfl, hcnext]
      rw [hcnext]
      intro h
      cases rc with
      | nil => simp [Forest.first] at h
      | cons d' _ _ =>
        simp only [Forest.first, Option.some.injEq] at h
        exact hnr (by simp [Forest.ids, h])
    have hheap4 : ∀ a ∈ rc.ids, s4.heap a =
        if rc.first = some a then (s.heap a).map (fun x => { x with sibling_prev := none })
        else s.heap a := by
      intro a ha
      have hac : a ≠ c := by rintro rfl; exact hcr ha
      have han : a ≠ n := by rintro rfl; exact hnr ha
      have hak : a ∉ kc.ids := fun h => hdis h ha
      rw [hfr4, if_neg hac]
      rw [hheap2 a, hcnext, hcprev, if_neg han, hframe1 a hac hak]
    have hrep4 : Rep s4 (some n) none rc := by
      refine Rep_set_prev rc (some n) (some c) none hrn ?_ ?_ hrr
      · intro a ha
        have har : a ∈ rc.ids := by
          cases rc with
          | nil => simp [Forest.first] at ha
          | cons d' _ _ =>
            simp only [Forest.first, Option.some.injEq] at ha
            simp [Forest.ids, ha]
        obtain ⟨na, hna⟩ := Option.ne_none_iff_exists'.mp (Rep_heap rc _ _ hrr a har)
        refine ⟨na, hna, ?_⟩
        rw [hheap4 a har, if_pos ha, hna]
        rfl
      · intro a har hne
        rw [hheap4 a har, if_neg (fun h => hne h)]
    obtain ⟨s5, hd5, he5, hn5, hfree5, hframe5⟩ :=
      ihr s4 n { nn with children := rc.first } (fuel2 + 1) hn4 rfl hrep4 hnr hrn (by omega)
    refine ⟨s5, ?_, ?_, ?_, ?_, ?_⟩
    · rw [delete_children_succ, hn]
      simp only [hch, hdn]
      exact hd5
    · rw [he5, hev4, he2, he1]
      rw [delete_events_congr s _ rc.postorder]
      · simp only [Forest.postorder, delete_events_append, delete_events, hc, List.append_nil,
          List.append_assoc]
        rfl
      · intro a ha
        rw [hheap4 a ((postorder_subset rc a).mp ha)]
        split
        · cases s.heap a <;> rfl
        · rfl
    · rw [hn5]
    · intro a ha
      simp only [Forest.ids, List.mem_cons, List.mem_append] at ha
      rcases ha with rfl | ha | ha
      · rw [hframe5 a (Ne.symm hnc) hcr, hfr4, if_pos rfl]
      · have hac : a ≠ c := by rintro rfl; exact hck ha
        have han : a ≠ n := by rintro rfl; exact hnk ha
        rw [hframe5 a han (fun h => hdis ha h)]
        rw [hfr4, if_neg hac]
        rw [hheap2 a, if_neg, if_neg han, hfree1 a ha]
        rw [hcnext]
        intro h
        cases rc with
        | nil => simp [Forest.first] at h
        | cons d' _ _ =>
          simp only [Forest.first, Option.some.injEq] at h
          exact hdis ha (by simp [Forest.ids, h])
      · exact hfree5 a ha
    · intro a han hnotin
      simp only [Forest.ids, List.mem_cons, List.mem_append, not_or] at hnotin
      obtain ⟨hac, hak, har⟩ := hnotin
      rw [hframe5 a han har]
      rw [hfr4, if_neg hac]
      rw [hheap2 a, if_neg, if_neg han, hframe1 a hac hak]
      rw [hcnext]
      intro h
      cases rc with
      | nil => simp [Forest.first] at h
      | cons d' _ _ =>
        simp only [Forest.first, Option.some.injEq] at h
        exact har (by simp [Forest.ids, h])
theorem postorder_perm (f : Forest) : f.postorder.Perm f.ids := by
  induction f with
  | nil => exact List.Perm.refl _
  | cons id k r ihk ihr =>
    simp only [Forest.postorder, Forest.ids, List.append_assoc, List.singleton_append]
    exact (List.perm_middle).trans (List.Perm.cons id (List.Perm.append ihk ihr))

/-- C10 (delete notifications).  Let the node `n` hold the forest `k` as its
subtree, the nodes of `k` being distinct, and let the parent, previous and
next sibling of `n` (when not `NULL`) be nodes in memory outside that subtree.
Then `treeview_delete_node (tree, n)` returns `NSERROR_OK` for every fuel from
`2 * k.size + 2` on, and the host has received, after the events it had,
exactly the notifications `delete_event` of the nodes of the subtree in
post-order (children in sibling order, every descendant before its node, `n`
last): one `TREE_MSG_NODE_DELETE` through the entry callback for an entry and
through the folder callback for a folder, with the client data of the node,
none for a root.  That list of nodes is a permutation of the subtree, so each
node is notified once; every node of the subtree is freed.  Deleting an entry
without children makes exactly one entry notification, and `treeview_destroy`
is this deletion at the root. -/
theorem delete_node_notifications (tree : treeview) (s : State) (n : Nat) (k : Forest)
    (nn : treeview_node) (fuel : Nat)
    (hn : s.heap n = some nn) (hsub : SubtreeAt s n k) (hnd : k.ids.Nodup)
    (hp : ∀ q, nn.parent = some q → q ≠ n ∧ q ∉ k.ids ∧ s.heap q ≠ none)
    (hv : ∀ q, nn.sibling_prev = some q → q ≠ n ∧ q ∉ k.ids ∧ s.heap q ≠ none)
    (hx : ∀ q, nn.sibling_next = some q → q ≠ n ∧ q ∉ k.ids ∧ s.heap q ≠ none)
    (hfuel : 2 * k.size + 2 ≤ fuel) :
    ∃ s', treeview_delete_node fuel tree s n = .ok (.NSERROR_OK, s') ∧
      s'.events = s.events ++ delete_events s (k.postorder ++ [n]) ∧
      (k.postorder ++ [n]).Perm (n :: k.ids) ∧ (n :: k.ids).Nodup ∧
      (∀ a ∈ n :: k.ids, s'.heap a = none) ∧
      (nn.type = .TREE_NODE_ENTRY → k = .nil →
        s'.events = s.events ++ [.entry .TREE_MSG_NODE_DELETE nn.client_data]) ∧
      (nn.type = .TREE_NODE_ROOT → s'.events = s.events ++ delete_events s k.postorder) ∧
      (n = tree.root → treeview_destroy fuel tree s = .ok (.NSERROR_OK, s')) := by
  obtain ⟨hroot, hrep, hnot⟩ := hsub
  rw [hn] at hroot
  simp only [] at hroot
  obtain ⟨fuel1, rfl⟩ : ∃ i, fuel = i + 1 := ⟨fuel - 1, by omega⟩
  obtain ⟨s1, hd1, he1, hc1, hfree1, hframe1⟩ :=
    delete_children_spec tree k s n nn fuel1 hn hroot hrep hnot hnd (by omega)
  have hlink : ∀ q, q ≠ n ∧ q ∉ k.ids ∧ s.heap q ≠ none → q ≠ n ∧ s1.heap q ≠ none := by
    rintro q ⟨h1, h2, h3⟩
    exact ⟨h1, by rw [hframe1 q h1 h2]; exact h3⟩
  obtain ⟨s2, hd2, he2, hc2, hn2⟩ := delete_unlink_ok s1 n { nn with children := none } hc1
    (fun q hq => hlink q (hp q hq)) (fun q hq => hlink q (hv q hq))
    (fun q hq => hlink q (hx q hq))
  obtain ⟨s4, hs4⟩ : ∃ s4 : State, s4 =
      free { s2 with events := s2.events ++ delete_event { nn with children := none } } n :=
    ⟨_, rfl⟩
  have hdn : treeview_delete_node (fuel1 + 1) tree s n = .ok (.NSERROR_OK, s4) := by
    rw [delete_node_succ, hd1, hs4]
    simp only [hd2, hc2]
  have hev4 : s4.events = s.events ++ delete_events s k.postorder ++ delete_event nn := by
    rw [hs4]
    show s2.events ++ delete_event nn = _
    rw [he2, he1]
  have hfr4 : ∀ a, s4.heap a = if a = n then none else s2.heap a := by
    intro a
    rw [hs4]
    rfl
  have hevs : s4.events = s.events ++ delete_events s (k.postorder ++ [n]) := by
    rw [hev4, delete_events_append]
    simp [delete_events, hn]
  refine ⟨s4, hdn, hevs, ?_, List.nodup_cons.mpr ⟨hnot, hnd⟩, ?_, ?_, ?_, ?_⟩
  · exact (List.perm_append_comm).trans (List.Perm.cons n (postorder_perm k))
  · intro a ha
    rw [hfr4]
    split
    · rfl
    · simp only [List.mem_cons] at ha
      rcases ha with rfl | ha
      · contradiction
      · exact (hn2 a).mpr (hfree1 a ha)
  · intro hty hk
    subst hk
    rw [hev4]
    simp [Forest.postorder, delete_events, delete_event, hty]
  · intro hty
    rw [hev4]
    simp [delete_event, hty]
  · intro hroot'
    subst hroot'
    simp only [treeview_destroy, hdn, bind, Except.bind, pure, Except.pure]

theorem delete_node_notifications_witness :
    ∃ s', treeview_delete_node 8 ⟨0, [], 1, 0⟩ exState 1 = .ok (.NSERROR_OK, s') ∧
      s'.events = [.entry .TREE_MSG_NODE_DELETE 12, .entry .TREE_MSG_NODE_DELETE 15,
        .folder .TREE_MSG_NODE_DELETE 13, .folder .TREE_MSG_NODE_DELETE 11] :=
  (delete_node_notifications ⟨0, [], 1, 0⟩ exState 1 exSub
      (mkNode .TREE_NODE_FOLDER true 60 (some 0) none (some 4) (some 2) 11) 8 rfl
      (by decide) (by decide) (by decide) (by decide) (by decide) (by decide)).imp
    (fun _ h => ⟨h.1, h.2.1⟩)

/-! ## Ancestor chains and the height loops -/

theorem State.ext' {s t : State} (hh : ∀ a, s.heap a = t.heap a) (he : s.events = t.events) :
    s = t := by
  cases s
  cases t
  simp only [State.mk.injEq]
  exact ⟨funext hh, he⟩

theorem AncPath_congr {s s' : State}
    (h : ∀ a, (s'.heap a).map (fun n => n.parent) = (s.heap a).map (fun n => n.parent)) :
    ∀ (l : List Nat) (a : Nat), AncPath s a l → AncPath s' a l := by
  intro l
  induction l with
  | nil =>
    intro a ha
    simp only [AncPath] at ha ⊢
    have := h a
    cases h1 : s.heap a <;> cases h2 : s'.heap a <;> simp_all
  | cons p ps ih =>
    intro a ha
    simp only [AncPath] at ha ⊢
    refine ⟨?_, ih p ha.2⟩
    have := h a
    have ha1 := ha.1
    cases h1 : s.heap a <;> cases h2 : s'.heap a <;> simp_all

theorem AncPath_unique {s : State} : ∀ (l1 l2 : List Nat) (a : Nat),
    AncPath s a l1 → AncPath s a l2 → l1 = l2 := by
  intro l1
  induction l1 with
  | nil =>
    intro l2 a h1 h2
    cases l2 with
    | nil => rfl
    | cons p ps =>
      simp only [AncPath] at h1 h2
      cases h : s.heap a <;> simp_all
  | cons p ps ih =>
    intro l2 a h1 h2
    cases l2 with
    | nil =>
      simp only [AncPath] at h1 h2
      cases h : s.heap a <;> simp_all
    | cons q qs =>
      simp only [AncPath] at h1 h2
      have hpq : p = q := by
        have h11 := h1.1
        have h21 := h2.1
        cases h : s.heap a <;> simp_all
      subst hpq
      rw [ih qs p h1.2 h2.2]

theorem AncPath_suffix {s : State} : ∀ (l : List Nat) (a b : Nat), AncPath s a l → b ∈ l →
    ∃ l', AncPath s b l' ∧ l'.length < l.length := by
  intro l
  induction l with
  | nil => intro a b _ hb; simp at hb
  | cons p ps ih =>
    intro a b h hb
    simp only [AncPath] at h
    simp only [List.mem_cons] at hb
    rcases hb with rfl | hb
    · exact ⟨ps, h.2, by simp⟩
    · obtain ⟨l', h1, h2⟩ := ih p b h.2 hb
      exact ⟨l', h1, by simp; omega⟩

/-- A node is not among its own ancestors, and the ancestors are distinct. -/
theorem AncPath_nodup {s : State} : ∀ (l : List Nat) (a : Nat), AncPath s a l → (a :: l).Nodup := by
  intro l
  induction l with
  | nil => intro a _; simp
  | cons p ps ih =>
    intro a h
    have hps := ih p h.2
    refine List.nodup_cons.mpr ⟨?_, hps⟩
    intro ha
    obtain ⟨l', h1, h2⟩ := AncPath_suffix (p :: ps) a a h ha
    have := AncPath_unique _ _ a h h1
    rw [← this] at h2
    exact absurd h2 (lt_irrefl _)

theorem expand_height_loop_spec (d : Int) : ∀ (path : List Nat) (s : State) (node top : Nat)
    (fuel : Nat), AncPath s node (path ++ [top]) → path.length + 1 ≤ fuel →
    expand_height_loop d fuel s node = .ok (addHeights s (node :: path) d, top) := by
  intro path
  induction path with
  | nil =>
    intro s node top fuel h hfuel
    obtain ⟨fuel1, rfl⟩ : ∃ i, fuel = i + 1 := ⟨fuel - 1, by omega⟩
    have hnd := AncPath_nodup _ _ h
    simp only [List.nil_append, AncPath] at h
    obtain ⟨h1, h2⟩ := h
    cases hn : s.heap node with
    | none => rw [hn] at h1; exact h1.elim
    | some n =>
    cases ht : s.heap top with
    | none => rw [ht] at h2; exact h2.elim
    | some t =>
    rw [hn] at h1
    rw [ht] at h2
    simp only [] at h1 h2
    have hne : top ≠ node := by
      intro h
      simp [h] at hnd
    simp only [expand_height_loop, modify_ok hn, bind, Except.bind, load, store_heap, if_true,
      h1, ptr, if_neg hne, ht, h2, pure, Except.pure]
    congr 2
    apply State.ext'
    · intro a
      simp only [store_heap, addHeights, List.mem_singleton]
      by_cases ha : a = node
      · subst ha
        simp [hn, h1]
      · simp only [if_neg ha]
        cases s.heap a <;> simp
    · rfl
  | cons p ps ih =>
    intro s node top fuel h hfuel
    simp only [List.length_cons] at hfuel
    obtain ⟨fuel1, rfl⟩ : ∃ i, fuel = i + 1 := ⟨fuel - 1, by omega⟩
    have hnd := AncPath_nodup _ _ h
    have h' := h
    simp only [List.cons_append, AncPath] at h
    obtain ⟨h1, h2⟩ := h
    replace h2 : AncPath s p (ps ++ [top]) := h2
    cases hn : s.heap node with
    | none => rw [hn] at h1; exact h1.elim
    | some n =>
    rw [hn] at h1
    simp only [] at h1
    have hpne : p ≠ node := by
      intro h
      simp [h] at hnd
    have hp2 := h2
    cases hps : ps ++ [top] with
    | nil => simp at hps
    | cons q qs =>
    rw [hps] at hp2
    simp only [AncPath] at hp2
    cases hp : s.heap p with
    | none => rw [hp] at hp2; exact hp2.1.elim
    | some np =>
    rw [hp] at hp2
    have hpp : np.parent = some q := hp2.1
    have hanc : AncPath (store s node { n with height := n.height + d, parent := some p }) p
        (ps ++ [top]) := by
      refine AncPath_congr ?_ _ _ h2
      intro a
      simp only [store_heap]
      by_cases ha : a = node
      · subst ha
        simp [hn, h1]
      · simp [ha]
    simp only [expand_height_loop, modify_ok hn, bind, Except.bind, load, store_heap, if_true,
      h1, ptr, if_neg hpne, hp, hpp]
    rw [ih _ p top fuel1 hanc (by omega)]
    congr 2
    apply State.ext'
    · intro a
      simp only [store_heap, addHeights, List.mem_cons]
      by_cases ha : a = node
      · subst ha
        have hnp : ¬ (a = p ∨ a ∈ ps) := by
          intro h
          simp only [List.cons_append, List.nodup_cons, List.mem_cons, List.mem_append,
            List.mem_singleton, not_or] at hnd
          rcases h with h | h
          · exact hnd.1.1 h
          · exact hnd.1.2.1 h
        simp [hn, hnp, h1]
      · simp only [if_neg ha]
        cases s.heap a <;> simp [ha]
    · rfl

/-! ## The measuring loops of `treeview_node_expand` -/

theorem coreEq_refl (s : State) : CoreEq s s := ⟨rfl, fun _ => rfl⟩

theorem coreEq_trans {s1 s2 s3 : State} (h1 : CoreEq s1 s2) (h2 : CoreEq s2 s3) : CoreEq s1 s3 :=
  ⟨h2.1.trans h1.1, fun a => (h2.2 a).trans (h1.2 a)⟩

theorem coreEq_get {s s' : State} (h : CoreEq s s') {a : Nat} {n : treeview_node}
    (hn : s.heap a = some n) : ∃ n', s'.heap a = some n' ∧ core n' = core n := by
  have := h.2 a
  rw [hn] at this
  cases hs : s'.heap a with
  | none => rw [hs] at this; simp at this
  | some n' => rw [hs] at this; exact ⟨n', rfl, by simpa using this⟩

theorem core_eq {n n' : treeview_node} (h : core n' = core n) :
    n'.expanded = n.expanded ∧ n'.selected = n.selected ∧ n'.type = n.type ∧
      n'.height = n.height ∧ n'.inset = n.inset ∧ n'.parent = n.parent ∧
      n'.sibling_prev = n.sibling_prev ∧ n'.sibling_next = n.sibling_next ∧
      n'.children = n.children ∧ n'.client_data = n.client_data ∧
      n'.fields.length = n.fields.length := by
  simpa [core] using h

/-- Storing a record with the same core keeps the memory the same up to
texts. -/
theorem coreEq_store {s : State} {a : Nat} {n : treeview_node} (n' : treeview_node)
    (hn : s.heap a = some n) (h : core n' = core n) : CoreEq s (store s a n') := by
  refine ⟨rfl, fun b => ?_⟩
  simp only [store_heap]
  by_cases hb : b = a
  · subst hb
    simp [hn, h]
  · simp [hb]

theorem coreEq_heightOf {s s' : State} (h : CoreEq s s') (a : Nat) :
    heightOf s' a = heightOf s a := by
  have := h.2 a
  unfold Treeview.heightOf
  cases h1 : s.heap a <;> cases h2 : s'.heap a <;> simp [h1, h2] at this ⊢
  exact (core_eq this).2.2.2.1

theorem ChildChain_congr {s s' : State}
    (h : ∀ a, (s'.heap a).map (fun n => n.sibling_next) = (s.heap a).map (fun n => n.sibling_next)) :
    ∀ (l : List Nat) (first : Option Nat), ChildChain s first l → ChildChain s' first l := by
  intro l
  induction l with
  | nil => intro first hc; exact hc
  | cons c cs ih =>
    intro first hc
    simp only [ChildChain] at hc ⊢
    refine ⟨hc.1, ?_⟩
    have := h c
    have hc2 := hc.2
    cases h1 : s.heap c with
    | none => rw [h1] at hc2; exact hc2.elim
    | some n =>
      rw [h1] at hc2 this
      cases h2 : s'.heap c with
      | none => rw [h2] at this; simp at this
      | some n' =>
        rw [h2] at this
        simp only [Option.map_some', Option.some.injEq] at this
        simp only [this]
        exact ih _ hc2

theorem coreEq_next {s s' : State} (h : CoreEq s s') (a : Nat) :
    (s'.heap a).map (fun n => n.sibling_next) = (s.heap a).map (fun n => n.sibling_next) := by
  have := h.2 a
  cases h1 : s.heap a <;> cases h2 : s'.heap a <;> simp [h1, h2] at this ⊢
  exact (core_eq this).2.2.2.2.2.2.2.1

theorem coreEq_parent {s s' : State} (h : CoreEq s s') (a : Nat) :
    (s'.heap a).map (fun n => n.parent) = (s.heap a).map (fun n => n.parent) := by
  have := h.2 a
  cases h1 : s.heap a <;> cases h2 : s'.heap a <;> simp [h1, h2] at this ⊢
  exact (core_eq this).2.2.2.2.2.1

theorem expand_children_loop_spec (font_width : List Nat → Nat → Int) :
    ∀ (rest : List Nat) (c : Nat) (s : State) (acc : Int) (fuel : Nat),
    ChildChain s (some c) (c :: rest) →
    (∀ k ∈ c :: rest, ∀ n, s.heap k = some n → n.expanded = false) →
    rest.length + 1 ≤ fuel →
    ∃ s', expand_children_loop font_width fuel s c acc =
        .ok (s', acc + ((c :: rest).map (heightOf s)).sum) ∧ CoreEq s s' := by
  intro rest
  induction rest with
  | nil =>
    intro c s acc fuel hch hcol hfuel
    obtain ⟨fuel1, rfl⟩ : ∃ i, fuel = i + 1 := ⟨fuel - 1, by omega⟩
    simp only [ChildChain, true_and] at hch
    cases hc : s.heap c with
    | none => rw [hc] at hch; exact hch.elim
    | some nc =>
    rw [hc] at hch
    simp only [] at hch
    have hexp := hcol c (List.mem_cons_self _ _) nc hc
    by_cases hw : nc.text.value.width = 0
    · refine ⟨_, ?_, coreEq_store { nc with text := { nc.text with value :=
        { nc.text.value with width := font_width nc.text.value.data nc.text.value.len } } } hc rfl⟩
      simp [expand_children_loop, load_ok hc, hexp, c_assert, bind, Except.bind, hw,
        modify_ok hc, load, hch, pure, Except.pure, heightOf, hc]
    · refine ⟨s, ?_, coreEq_refl s⟩
      simp [expand_children_loop, load_ok hc, hexp, c_assert, bind, Except.bind, hw,
        hch, pure, Except.pure, heightOf, hc]
  | cons d rest ih =>
    intro c s acc fuel hch hcol hfuel
    simp only [List.length_cons] at hfuel
    obtain ⟨fuel1, rfl⟩ : ∃ i, fuel = i + 1 := ⟨fuel - 1, by omega⟩
    simp only [ChildChain, true_and] at hch
    cases hc : s.heap c with
    | none => rw [hc] at hch; exact hch.elim
    | some nc =>
    rw [hc] at hch
    simp only [] at hch
    obtain ⟨hnext, hrest⟩ := hch
    have hexp := hcol c (List.mem_cons_self _ _) nc hc
    have key : ∀ s1 : State, CoreEq s s1 →
        ∃ s', expand_children_loop font_width fuel1 s1 d (acc + nc.height) =
          .ok (s', acc + ((c :: d :: rest).map (heightOf s)).sum) ∧ CoreEq s s' := by
      intro s1 h1
      have hch1 : ChildChain s1 (some d) (d :: rest) :=
        ChildChain_congr (coreEq_next h1) _ _ (by simp only [ChildChain, true_and]; exact hrest)
      obtain ⟨s', hs', hce⟩ := ih d s1 (acc + nc.height) fuel1 hch1 (by
        intro k hk n hn
        have := h1.2 k
        rw [hn] at this
        cases hsk : s.heap k with
        | none => rw [hsk] at this; simp at this
        | some n0 =>
          rw [hsk] at this
          simp only [Option.map_some', Option.some.injEq] at this
          rw [(core_eq this).1]
          exact hcol k (List.mem_cons_of_mem _ hk) n0 hsk) (by omega)
      refine ⟨s', ?_, coreEq_trans h1 hce⟩
      rw [hs']
      have : ((d :: rest).map (heightOf s1)) = ((d :: rest).map (heightOf s)) :=
        List.map_congr_left (fun a _ => coreEq_heightOf h1 a)
      rw [this]
      simp only [List.map_cons, List.sum_cons, heightOf, hc]
      congr 2
      ring
    by_cases hw : nc.text.value.width = 0
    · simp only [expand_children_loop, load, modify, hc, hexp, c_assert, bind, Except.bind, hw,
        store_heap, if_true, hnext, decide_True, pure, Except.pure]
      refine key _ (coreEq_store _ hc ?_)
      simp [core, hexp, hnext]
    · simp only [expand_children_loop, load, hc, hexp, c_assert, bind, Except.bind, hw,
        hnext, decide_True, if_true, if_false, pure, Except.pure]
      exact key s (coreEq_refl s)

theorem measure_field_length (font_width : List Nat → Nat → Int) :
    ∀ (l : List treeview_field) (i : Nat), (measure_field font_width i l).length = l.length := by
  intro l
  induction l with
  | nil => intro i; simp [measure_field]
  | cons f fs ih =>
    intro i
    cases i with
    | zero => simp [measure_field]
    | succ j => simp [measure_field, ih]

theorem expand_fields_loop_spec (g : treeview_globals) (font_width : List Nat → Nat → Int)
    (tree : treeview) (node : Nat) :
    ∀ (cnt i : Nat) (s : State) (acc : Int) (fuel : Nat) (e : treeview_node),
    s.heap node = some e → (tree.n_fields - 1).toNat = i + cnt → i + cnt ≤ e.fields.length →
    cnt + 1 ≤ fuel →
    ∃ s', expand_fields_loop g font_width tree node fuel i s acc =
        .ok (s', acc + g.line_height * cnt) ∧ CoreEq s s' := by
  intro cnt
  induction cnt with
  | zero =>
    intro i s acc fuel e he hn hlen hfuel
    obtain ⟨fuel1, rfl⟩ : ∃ i, fuel = i + 1 := ⟨fuel - 1, by omega⟩
    refine ⟨s, ?_, coreEq_refl s⟩
    have : ¬ ((i : Int) < tree.n_fields - 1) := by omega
    simp [expand_fields_loop, this, pure, Except.pure]
  | succ cnt ih =>
    intro i s acc fuel e he hn hlen hfuel
    obtain ⟨fuel1, rfl⟩ : ∃ i, fuel = i + 1 := ⟨fuel - 1, by omega⟩
    have hlt : (i : Int) < tree.n_fields - 1 := by omega
    have hi : i < e.fields.length := by omega
    obtain ⟨f, hf⟩ : ∃ f, e.fields.get? i = some f := ⟨e.fields.get ⟨i, hi⟩, List.get?_eq_get hi⟩
    have key : ∀ (s1 : State) (e1 : treeview_node), CoreEq s s1 → s1.heap node = some e1 →
        e1.fields.length = e.fields.length →
        ∃ s', expand_fields_loop g font_width tree node fuel1 (i + 1) s1 (acc + g.line_height) =
          .ok (s', acc + g.line_height * ((cnt + 1 : Nat) : Int)) ∧ CoreEq s s' := by
      intro s1 e1 h1 he1 hl1
      obtain ⟨s', hs', hce⟩ := ih (i + 1) s1 (acc + g.line_height) fuel1 e1 he1 (by omega)
        (by omega) (by omega)
      refine ⟨s', ?_, coreEq_trans h1 hce⟩
      rw [hs']
      congr 2
      push_cast
      ring
    by_cases hw : f.value.width = 0
    · simp only [expand_fields_loop, hlt, if_true, load, modify, he, bind, Except.bind, hf, pure,
        Except.pure, hw]
      exact key _ { e with fields := measure_field font_width i e.fields }
        (coreEq_store { e with fields := measure_field font_width i e.fields } he
          (by simp [core, measure_field_length]))
        (by simp) (measure_field_length font_width _ _)
    · simp only [expand_fields_loop, hlt, if_true, load, he, bind, Except.bind, hf, pure,
        Except.pure, hw, if_false]
      exact key s e (coreEq_refl s) he rfl

/-! ## Expanding a node -/

theorem addHeights_events (s : State) (l : List Nat) (d : Int) :
    (addHeights s l d).events = s.events := rfl

theorem addHeights_heap (s : State) (l : List Nat) (d : Int) (a : Nat) :
    (addHeights s l d).heap a =
      (s.heap a).map (fun n => if a ∈ l then { n with height := n.height + d } else n) := rfl

theorem AncPath_self_alloc {s : State} (l : List Nat) (a : Nat) (h : AncPath s a l) :
    s.heap a ≠ none := by
  intro h0
  cases l with
  | nil => simp only [AncPath, h0] at h
  | cons p ps =>
    simp only [AncPath, h0] at h
    exact h.1

/-- Every ancestor on the path is held in memory. -/
theorem AncPath_alloc {s : State} : ∀ (l : List Nat) (a : Nat), AncPath s a l →
    ∀ b ∈ l, s.heap b ≠ none := by
  intro l
  induction l with
  | nil => intro a _ b hb; simp at hb
  | cons p ps ih =>
    intro a h b hb
    have h2 : AncPath s p ps := h.2
    simp only [List.mem_cons] at hb
    rcases hb with rfl | hb
    · exact AncPath_self_alloc ps b h2
    · exact ih p h2 b hb

/-- The tail of `treeview_node_expand`, from setting the flag on: what it
leaves in memory. -/
theorem expand_finish (s s1 : State) (node : Nat) (n : treeview_node) (init : List Nat)
    (top : Nat) (d : Int) (fuel : Nat)
    (hn : s.heap node = some n) (hpath : AncPath s node (init ++ [top]))
    (hfuel : init.length + 1 ≤ fuel) (h1 : CoreEq s s1) :
    ∃ n1 t, s1.heap node = some n1 ∧
      expand_height_loop d fuel (store s1 node { n1 with expanded := true }) node =
        .ok (addHeights (store s1 node { n1 with expanded := true }) (node :: init) d, top) ∧
      (addHeights (store s1 node { n1 with expanded := true }) (node :: init) d).heap top =
        some t ∧
      ∀ a, ((store (addHeights (store s1 node { n1 with expanded := true }) (node :: init) d)
          top { t with height := t.height + d }).heap a).map core =
        (s.heap a).map (fun x => core { x with
          expanded := x.expanded || decide (a = node),
          height := x.height + (if a ∈ node :: (init ++ [top]) then d else 0) }) := by
  obtain ⟨n1, hn1, hc1⟩ := coreEq_get h1 hn
  have hnd := AncPath_nodup _ _ hpath
  have htop_ne : top ≠ node := by
    intro h
    simp [h] at hnd
  have htop_init : top ∉ init := by
    intro h
    simp only [List.nodup_cons, List.mem_append, List.mem_singleton, not_or] at hnd
    have := hnd.2
    rw [List.nodup_append] at this
    exact this.2.2 h (List.mem_singleton_self _) 
  have hp2 : AncPath (store s1 node { n1 with expanded := true }) node (init ++ [top]) := by
    refine AncPath_congr ?_ _ _ hpath
    intro a
    simp only [store_heap]
    by_cases ha : a = node
    · subst ha
      simp [hn, (core_eq hc1).2.2.2.2.2.1]
    · simp only [if_neg ha]
      exact coreEq_parent h1 a
  have htop_s : s.heap top ≠ none :=
    AncPath_alloc _ _ hpath top (by simp)
  obtain ⟨t0, ht0⟩ := Option.ne_none_iff_exists'.mp htop_s
  obtain ⟨t1, ht1, hct1⟩ := coreEq_get h1 ht0
  refine ⟨n1, t1, hn1, expand_height_loop_spec d init _ node top fuel hp2 hfuel, ?_, ?_⟩
  · simp [addHeights_heap, htop_ne, htop_init, ht1]
  · intro a
    simp only [store_heap, addHeights_heap]
    by_cases hat : a = top
    · subst hat
      simp only [if_true, Option.map_some', ht0, List.mem_cons, List.mem_append,
        List.mem_singleton, or_true, if_true, htop_ne, decide_False, Bool.or_false]
      obtain ⟨e1, e2, e3, e4, e5, e6, e7, e8, e9, e10⟩ := core_eq hct1
      simp [core, e1, e2, e3, e4, e5, e6, e7, e8, e9, e10]
    · simp only [if_neg hat]
      by_cases han : a = node
      · subst han
        obtain ⟨e1, e2, e3, e4, e5, e6, e7, e8, e9, e10⟩ := core_eq hc1
        simp [hn, core, e2, e3, e4, e5, e6, e7, e8, e9, e10]
      · simp only [if_neg han]
        have := h1.2 a
        cases hs : s.heap a with
        | none =>
          rw [hs] at this
          cases hs1 : s1.heap a with
          | none => simp
          | some x => rw [hs1] at this; simp at this
        | some x =>
          rw [hs] at this
          cases hs1 : s1.heap a with
          | none => rw [hs1] at this; simp at this
          | some x1 =>
            rw [hs1] at this
            simp only [Option.map_some', Option.some.injEq] at this
            obtain ⟨e1, e2, e3, e4, e5, e6, e7, e8, e9, e10⟩ := core_eq this
            by_cases hai : a ∈ init
            · simp [core, e1, e2, e3, e4, e5, e6, e7, e8, e9, e10, han, hai, hat]
            · simp [core, e1, e2, e3, e4, e5, e6, e7, e8, e9, e10, han, hai, hat]

/-- What `treeview_node_expand` does to a collapsed folder with children, all
collapsed, or to a collapsed entry: it returns `NSERROR_OK`, makes no host
call, sets the flag of the node and raises the height of the node and of its
ancestors by `expand_amount`; nothing else changes but cached widths. -/
theorem expand_core (g : treeview_globals)
    (font_width : List Nat → Nat → Int) (tree : treeview) (s : State) (node : Nat)
    (n : treeview_node) (path kids : List Nat) (fuel : Nat)
    (hn : s.heap node = some n) (hcol : n.expanded = false)
    (hpath : AncPath s node path) (hne : path ≠ [])
    (hkids : ChildChain s n.children kids)
    (hkind : (n.type = .TREE_NODE_FOLDER ∧ kids ≠ [] ∧
        ∀ k ∈ kids, ∀ x, s.heap k = some x → x.expanded = false) ∨
      (n.type = .TREE_NODE_ENTRY ∧ kids = [] ∧ 1 ≤ tree.n_fields ∧
        tree.n_fields - 1 ≤ n.fields.length))
    (hfuel : path.length + kids.length + (tree.n_fields - 1).toNat + 1 ≤ fuel) :
    ∃ s', treeview_node_expand g font_width fuel tree s node = .ok (.NSERROR_OK, s') ∧
      s'.events = s.events ∧
      (∀ a, (s'.heap a).map core = (s.heap a).map (fun x => core { x with
        expanded := x.expanded || decide (a = node),
        height := x.height + (if a ∈ node :: path then expand_amount g tree s n kids else 0) })) := by
  obtain ⟨init, top, rfl⟩ : ∃ init top, path = init ++ [top] :=
    ⟨path.dropLast, path.getLast hne, (List.dropLast_append_getLast hne).symm⟩
  simp only [List.length_append, List.length_singleton] at hfuel
  rcases hkind with ⟨hty, hkne, hkcol⟩ | ⟨hty, hk, hnf, hlen⟩
  · -- a folder
    obtain ⟨c, rest, rfl⟩ : ∃ c rest, kids = c :: rest := by
      cases kids with
      | nil => exact absurd rfl hkne
      | cons c rest => exact ⟨c, rest, rfl⟩
    have hchild : n.children = some c := hkids.1
    rw [hchild] at hkids
    obtain ⟨s1, hloop, hce⟩ := expand_children_loop_spec font_width rest c s 0 fuel hkids hkcol
      (by simp at hfuel; omega)
    obtain ⟨n1, t, hn1, hh, ht, hfin⟩ := expand_finish s s1 node n init top
      (0 + ((c :: rest).map (heightOf s)).sum) fuel hn hpath (by omega) hce
    have hamt : expand_amount g tree s n (c :: rest) = 0 + ((c :: rest).map (heightOf s)).sum := by
      simp [expand_amount, hty]
    rw [hamt]
    refine ⟨_, ?_, ?_, hfin⟩
    · simp only [treeview_node_expand, load, hn, hcol, hty, hchild, hloop, bind, Except.bind,
        modify, hn1, hh, ht, pure, Except.pure, Bool.false_eq_true, if_false]
    · simp only [store_events, addHeights_events]
      exact hce.1
  · -- an entry
    subst hk
    have hchild : n.children = none := hkids
    obtain ⟨s1, hloop, hce⟩ := expand_fields_loop_spec g font_width tree node
      (tree.n_fields - 1).toNat 0 s 0 fuel n hn (by simp) (by omega) (by omega)
    obtain ⟨n1, t, hn1, hh, ht, hfin⟩ := expand_finish s s1 node n init top
      (0 + g.line_height * ((tree.n_fields - 1).toNat : Int)) fuel hn hpath (by omega) hce
    have hamt : expand_amount g tree s n [] =
        0 + g.line_height * ((tree.n_fields - 1).toNat : Int) := by
      simp only [expand_amount, hty, zero_add]
      rw [Int.toNat_of_nonneg (by omega)]
    rw [hamt]
    refine ⟨_, ?_, ?_, hfin⟩
    · simp only [treeview_node_expand, load, hn, hcol, hty, hchild, hloop, bind, Except.bind,
        modify, hn1, hh, ht, pure, Except.pure, Bool.false_eq_true, if_false, c_assert,
        decide_True, if_true]
    · simp only [store_events, addHeights_events]
      exact hce.1

/-- C5 (expand adds `additional_height` along the ancestor chain), for the
nodes on which `treeview_node_expand` does not stop at its assertion.  Let
`node` be a collapsed node with the non-empty chain of strict ancestors `path`
(up to the root, which has no parent) and the child list `kids`; let it be a
folder with at least one child whose children are all collapsed (what the
function asserts of each child), or an entry with its `tree->n_fields - 1`
secondary slots (`n_fields >= 1`).
Then `treeview_node_expand` returns `NSERROR_OK` for every fuel from the given
bound on, makes no host call, and changes nothing but cached text widths,
the expanded flag of `node`, which it sets, and the heights of `node` and of
every ancestor on `path`, each raised by the same `expand_amount`: the sum of
the heights of the children for a folder, `line_height * (n_fields - 1)` for
an entry.  The height of every other node is unchanged. -/
theorem expand_adds_additional_height (g : treeview_globals)
    (font_width : List Nat → Nat → Int) (tree : treeview) (s : State) (node : Nat)
    (n : treeview_node) (path kids : List Nat) (fuel : Nat)
    (hn : s.heap node = some n) (hcol : n.expanded = false)
    (hpath : AncPath s node path) (hne : path ≠ [])
    (hkids : ChildChain s n.children kids)
    (hkind : (n.type = .TREE_NODE_FOLDER ∧ kids ≠ [] ∧
        ∀ k ∈ kids, ∀ x, s.heap k = some x → x.expanded = false) ∨
      (n.type = .TREE_NODE_ENTRY ∧ kids = [] ∧ 1 ≤ tree.n_fields ∧
        tree.n_fields - 1 ≤ n.fields.length))
    (hfuel : path.length + kids.length + (tree.n_fields - 1).toNat + 1 ≤ fuel) :
    ∃ s', treeview_node_expand g font_width fuel tree s node = .ok (.NSERROR_OK, s') ∧
      s'.events = s.events ∧
      (∀ a, (s'.heap a).map core = (s.heap a).map (fun x => core { x with
        expanded := x.expanded || decide (a = node),
        height := x.height + (if a ∈ node :: path then expand_amount g tree s n kids else 0) })) ∧
      (s'.heap node).map (fun x => x.expanded) = some true ∧
      (∀ a ∈ node :: path, heightOf s' a = heightOf s a + expand_amount g tree s n kids) ∧
      (∀ a, a ∉ node :: path → heightOf s' a = heightOf s a) := by
  obtain ⟨s', hrun, hev, h⟩ := expand_core g font_width tree s node n path kids fuel hn hcol
    hpath hne hkids hkind hfuel
  refine ⟨s', hrun, hev, h, ?_, ?_, ?_⟩
  · have := h node
    rw [hn] at this
    cases hs : s'.heap node with
    | none => rw [hs] at this; simp at this
    | some x =>
      rw [hs] at this
      simp only [Option.map_some', Option.some.injEq, core, Prod.mk.injEq] at this
      simp [this.1]
  · intro a ha
    have := h a
    have halloc : s.heap a ≠ none := by
      simp only [List.mem_cons] at ha
      rcases ha with rfl | ha
      · rw [hn]; simp
      · exact AncPath_alloc _ _ hpath a ha
    obtain ⟨x, hx⟩ := Option.ne_none_iff_exists'.mp halloc
    rw [hx] at this
    cases hs : s'.heap a with
    | none => rw [hs] at this; simp at this
    | some x' =>
      rw [hs] at this
      simp only [Option.map_some', Option.some.injEq, core, Prod.mk.injEq, if_pos ha] at this
      simp [heightOf, hs, hx, this.2.2.2.1]
  · intro a ha
    have := h a
    cases hx : s.heap a with
    | none =>
      rw [hx] at this
      cases hs : s'.heap a with
      | none => simp [heightOf, hs, hx]
      | some x' => rw [hs] at this; simp at this
    | some x =>
      rw [hx] at this
      cases hs : s'.heap a with
      | none => rw [hs] at this; simp at this
      | some x' =>
        rw [hs] at this
        simp only [Option.map_some', Option.some.injEq, core, Prod.mk.injEq, if_neg ha] at this
        simp [heightOf, hs, hx, this.2.2.2.1]

theorem expand_adds_additional_height_witness :
    ∃ s', treeview_node_expand ⟨20, 10, 10, 6, 23⟩ (fun _ l => 7 * l) 6 ⟨0, [], 1, 0⟩ exState 3 =
        .ok (.NSERROR_OK, s') ∧
      heightOf s' 3 = 40 ∧ heightOf s' 1 = 80 ∧ heightOf s' 0 = 100 ∧ heightOf s' 2 = 20 :=
  (expand_adds_additional_height ⟨20, 10, 10, 6, 23⟩ (fun _ l => 7 * l) ⟨0, [], 1, 0⟩ exState 3
      (mkNode .TREE_NODE_FOLDER false 20 (some 1) (some 2) none (some 5) 13) [1, 0] [5] 6
      rfl rfl (by decide) (by decide) (by decide) (Or.inl (by decide)) (by decide)).imp
    (fun _ h => ⟨h.1, h.2.2.2.2.1 3 (by decide), h.2.2.2.2.1 1 (by decide),
      h.2.2.2.2.1 0 (by decide), h.2.2.2.2.2 2 (by decide)⟩)

/-! ## Insertion -/

theorem insert_link_first (s : State) (a b : Nat) (na nb : treeview_node)
    (ha : s.heap a = some na) (hb : s.heap b = some nb) (hab : a ≠ b)
    (hty : nb.type ≠ .TREE_NODE_ENTRY)
    (hx : ∀ x, nb.children = some x → x ≠ a ∧ x ≠ b ∧ s.heap x ≠ none) :
    ∃ s1, insert_link s a b .TREE_REL_FIRST_CHILD = .ok s1 ∧ s1.events = s.events ∧
      ∀ k, s1.heap k =
        if k = a then some { na with parent := some b, sibling_next := nb.children }
        else if k = b then some { nb with children := some a }
        else if nb.children = some k then
          (s.heap k).map (fun n => { n with sibling_prev := some a })
        else s.heap k := by
  have hba : b ≠ a := fun h => hab h.symm
  cases hc : nb.children with
  | none =>
    refine ⟨store (store (store s a { na with parent := some b }) a
      { na with parent := some b, sibling_next := none }) b { nb with children := some a },
      ?_, rfl, ?_⟩
    · simp [insert_link, load, modify, hb, ha, hty, c_assert, bind, Except.bind, hba, hc,
        pure, Except.pure]
    · intro k
      by_cases hka : k = a
      · subst hka
        simp [hab]
      · by_cases hkb : k = b
        · subst hkb
          simp [hba, hc]
        · simp [hka, hkb]
  | some x =>
    obtain ⟨hxa, hxb, hxv⟩ := hx x hc
    obtain ⟨nx, hnx⟩ := Option.ne_none_iff_exists'.mp hxv
    refine ⟨store (store (store (store s a { na with parent := some b }) a
      { na with parent := some b, sibling_next := some x }) x
      { nx with sibling_prev := some a }) b { nb with children := some a },
      ?_, rfl, ?_⟩
    · simp [insert_link, load, modify, hb, ha, hty, c_assert, bind, Except.bind, hba, hc,
        hxa, hxb, hnx, Ne.symm hxb]
    · intro k
      by_cases hka : k = a
      · subst hka
        simp [hab, Ne.symm hxa]
      · by_cases hkb : k = b
        · subst hkb
          simp [hba, hc, Ne.symm hxb]
        · by_cases hkx : k = x
          · subst hkx
            simp [hka, hkb, hnx]
          · have : x ≠ k := fun h => hkx h.symm
            simp [hka, hkb, hkx, this]

theorem insert_link_next (s : State) (a b : Nat) (na nb : treeview_node)
    (ha : s.heap a = some na) (hb : s.heap b = some nb) (hab : a ≠ b)
    (hty : nb.type ≠ .TREE_NODE_ROOT)
    (hx : ∀ x, nb.sibling_next = some x → x ≠ a ∧ x ≠ b ∧ s.heap x ≠ none) :
    ∃ s1, insert_link s a b .TREE_REL_NEXT_SIBLING = .ok s1 ∧ s1.events = s.events ∧
      ∀ k, s1.heap k =
        if k = a then
          some { na with parent := nb.parent, sibling_prev := some b, sibling_next := nb.sibling_next }
        else if k = b then some { nb with sibling_next := some a }
        else if nb.sibling_next = some k then
          (s.heap k).map (fun n => { n with sibling_prev := some a })
        else s.heap k := by
  have hba : b ≠ a := fun h => hab h.symm
  cases hc : nb.sibling_next with
  | none =>
    refine ⟨store (store (store (store s a { na with sibling_prev := some b }) a
      { na with sibling_prev := some b, sibling_next := none }) a
      { na with sibling_prev := some b, sibling_next := none, parent := nb.parent }) b
      { nb with sibling_next := some a }, ?_, rfl, ?_⟩
    · simp [insert_link, load, modify, hb, ha, hty, c_assert, bind, Except.bind, hba, hc,
        pure, Except.pure, hab]
    · intro k
      by_cases hka : k = a
      · subst hka
        simp [hab]
      · by_cases hkb : k = b
        · subst hkb
          simp [hba, hc]
        · simp [hka, hkb]
  | some x =>
    obtain ⟨hxa, hxb, hxv⟩ := hx x hc
    obtain ⟨nx, hnx⟩ := Option.ne_none_iff_exists'.mp hxv
    refine ⟨store (store (store (store (store s a { na with sibling_prev := some b }) a
      { na with sibling_prev := some b, sibling_next := some x }) a
      { na with sibling_prev := some b, sibling_next := some x, parent := nb.parent }) b
      { nb with sibling_next := some a }) x { nx with sibling_prev := some a }, ?_, rfl, ?_⟩
    · simp [insert_link, load, modify, hb, ha, hty, c_assert, bind, Except.bind, hba, hc,
        hxa, hxb, hnx, hab]
    · intro k
      by_cases hka : k = a
      · subst hka
        simp [hab, Ne.symm hxa]
      · by_cases hkb : k = b
        · subst hkb
          simp [hba, hc, Ne.symm hxb]
        · by_cases hkx : k = x
          · subst hkx
            simp [hka, hkb, hnx]
          · have : x ≠ k := fun h => hkx h.symm
            simp [hka, hkb, hkx, this]

theorem ChildChain_iff_ChainTo (s : State) : ∀ (l : List Nat) (first : Option Nat),
    ChildChain s first l ↔ ChainTo s first l none := by
  intro l
  induction l with
  | nil => intro first; rfl
  | cons c cs ih =>
    intro first
    simp only [ChildChain, ChainTo]
    cases s.heap c with
    | none => rfl
    | some n => simp only [ih]

theorem ChainTo_congr {s s' : State} : ∀ (l : List Nat) (first stop : Option Nat),
    (∀ k ∈ l, (s'.heap k).map (fun n => n.sibling_next) =
      (s.heap k).map (fun n => n.sibling_next)) →
    ChainTo s first l stop → ChainTo s' first l stop := by
  intro l
  induction l with
  | nil => intro first stop _ h; exact h
  | cons c cs ih =>
    intro first stop hk h
    simp only [ChainTo] at h ⊢
    refine ⟨h.1, ?_⟩
    have hc := hk c (List.mem_cons_self _ _)
    have h2 := h.2
    cases h1 : s.heap c with
    | none => rw [h1] at h2; exact h2.elim
    | some n =>
      rw [h1] at h2 hc
      cases h3 : s'.heap c with
      | none => rw [h3] at hc; simp at hc
      | some n' =>
        rw [h3] at hc
        simp only [Option.map_some', Option.some.injEq] at hc
        simp only [hc]
        exact ih _ _ (fun k hk' => hk k (List.mem_cons_of_mem _ hk')) h2

theorem ChainTo_append {s : State} : ∀ (l1 l2 : List Nat) (first stop : Option Nat),
    ChainTo s first (l1 ++ l2) stop ↔ ∃ mid, ChainTo s first l1 mid ∧ ChainTo s mid l2 stop := by
  intro l1
  induction l1 with
  | nil =>
    intro l2 first stop
    simp only [List.nil_append, ChainTo]
    constructor
    · intro h
      exact ⟨first, rfl, h⟩
    · rintro ⟨mid, rfl, h⟩
      exact h
  | cons c cs ih =>
    intro l2 first stop
    simp only [List.cons_append, ChainTo]
    cases s.heap c with
    | none => simp
    | some n =>
      simp only []
      constructor
      · rintro ⟨h1, h2⟩
        obtain ⟨mid, h3, h4⟩ := (ih l2 _ stop).mp h2
        exact ⟨mid, ⟨h1, h3⟩, h4⟩
      · rintro ⟨mid, ⟨h1, h2⟩, h3⟩
        exact ⟨h1, (ih l2 _ stop).mpr ⟨mid, h2, h3⟩⟩

theorem ChainTo_alloc {s : State} : ∀ (l : List Nat) (first stop : Option Nat),
    ChainTo s first l stop → ∀ k ∈ l, s.heap k ≠ none := by
  intro l
  induction l with
  | nil => intro _ _ _ k hk; simp at hk
  | cons c cs ih =>
    intro first stop h k hk
    simp only [ChainTo] at h
    have h2 := h.2
    cases h1 : s.heap c with
    | none => rw [h1] at h2; exact h2.elim
    | some n =>
      rw [h1] at h2
      simp only [List.mem_cons] at hk
      rcases hk with rfl | hk
      · rw [h1]; simp
      · exact ih _ _ h2 k hk

theorem ChainTo_unique {s : State} : ∀ (l1 l2 : List Nat) (first : Option Nat),
    ChainTo s first l1 none → ChainTo s first l2 none → l1 = l2 := by
  intro l1
  induction l1 with
  | nil =>
    intro l2 first h1 h2
    cases l2 with
    | nil => rfl
    | cons c cs =>
      simp only [ChainTo] at h1 h2
      rw [h1] at h2
      simp at h2
  | cons c cs ih =>
    intro l2 first h1 h2
    cases l2 with
    | nil =>
      simp only [ChainTo] at h1 h2
      rw [h2] at h1
      simp at h1
    | cons d ds =>
      simp only [ChainTo] at h1 h2
      have hcd : c = d := by
        have := h1.1.symm.trans h2.1
        simpa using this
      subst hcd
      have h12 := h1.2
      have h22 := h2.2
      cases h : s.heap c with
      | none => rw [h] at h12; exact h12.elim
      | some n =>
        rw [h] at h12 h22
        rw [ih ds _ h12 h22]

theorem ChainTo_suffix {s : State} : ∀ (l : List Nat) (first : Option Nat),
    ChainTo s first l none → ∀ c ∈ l, ∃ l', ChainTo s (some c) l' none ∧ l'.length ≤ l.length := by
  intro l
  induction l with
  | nil => intro _ _ c hc; simp at hc
  | cons d ds ih =>
    intro first h c hc
    simp only [List.mem_cons] at hc
    rcases hc with rfl | hc
    · refine ⟨c :: ds, ?_, le_refl _⟩
      simp only [ChainTo] at h ⊢
      exact ⟨trivial, h.2⟩
    · simp only [ChainTo] at h
      have h2 := h.2
      cases h1 : s.heap d with
      | none => rw [h1] at h2; exact h2.elim
      | some n =>
        rw [h1] at h2
        obtain ⟨l', hl', hlen⟩ := ih _ h2 c hc
        exact ⟨l', hl', by simp; omega⟩

/-- A sibling chain that ends at `NULL` has no repeated node. -/
theorem ChildChain_nodup {s : State} : ∀ (l : List Nat) (first : Option Nat),
    ChildChain s first l → l.Nodup := by
  intro l
  induction l with
  | nil => intro _ _; exact List.nodup_nil
  | cons c cs ih =>
    intro first h
    have hct := (ChildChain_iff_ChainTo s _ _).mp h
    simp only [ChildChain] at h
    have h2 := h.2
    cases h1 : s.heap c with
    | none => rw [h1] at h2; exact h2.elim
    | some n =>
      rw [h1] at h2
      refine List.nodup_cons.mpr ⟨?_, ih _ h2⟩
      intro hc
      obtain ⟨l', hl', hlen⟩ := ChainTo_suffix cs _ ((ChildChain_iff_ChainTo s _ _).mp h2) c hc
      have hfirst : first = some c := h.1
      rw [hfirst] at hct
      have := ChainTo_unique _ _ _ hct hl'
      rw [← this] at hlen
      simp at hlen

theorem insert_height_loop_spec : ∀ (path : List Nat) (b : Nat) (s : State) (fuel : Nat),
    AncPath s b path → path ≠ [] → path.length ≤ fuel →
    ∃ s', insert_height_loop fuel s b = .ok s' ∧ s'.events = s.events ∧
      (∀ k, (s'.heap k).map (fun n => { n with height := 0 }) =
        (s.heap k).map (fun n => { n with height := 0 })) ∧
      (∀ k, k ∉ path → s'.heap k = s.heap k) := by
  intro path
  induction path with
  | nil => intro _ _ _ _ h; exact absurd rfl h
  | cons p ps ih =>
    intro b s fuel hpath _ hfuel
    simp only [List.length_cons] at hfuel
    obtain ⟨fuel1, rfl⟩ : ∃ i, fuel = i + 1 := ⟨fuel - 1, by omega⟩
    have hnd := AncPath_nodup _ _ hpath
    have hp2 : AncPath s p ps := hpath.2
    have hb0 := AncPath_self_alloc _ _ hpath
    obtain ⟨nb, hnb⟩ := Option.ne_none_iff_exists'.mp hb0
    have hbp : nb.parent = some p := by
      have := hpath.1
      rw [hnb] at this
      exact this
    obtain ⟨np, hnp⟩ := Option.ne_none_iff_exists'.mp (AncPath_self_alloc _ _ hp2)
    have hstore : ∀ k, ((store s p { np with height := np.height + nb.height }).heap k).map
        (fun n => { n with height := 0 }) = (s.heap k).map (fun n => { n with height := 0 }) := by
      intro k
      simp only [store_heap]
      by_cases hk : k = p
      · subst hk
        simp [hnp]
      · simp [hk]
    cases ps with
    | nil =>
      have hpp : np.parent = none := by
        have := hp2
        simp only [AncPath, hnp] at this
        exact this
      refine ⟨store s p { np with height := np.height + nb.height }, ?_, rfl, hstore, ?_⟩
      · simp [insert_height_loop, load, hnb, hbp, ptr, modify, hnp, bind, Except.bind, hpp]
      · intro k hk
        simp only [List.mem_singleton] at hk
        simp [hk]
    | cons q qs =>
      have hpp : np.parent = some q := by
        have := hp2.1
        rw [hnp] at this
        exact this
      have hanc : AncPath (store s p { np with height := np.height + nb.height }) p (q :: qs) := by
        refine AncPath_congr ?_ _ _ hp2
        intro k
        simp only [store_heap]
        by_cases hk : k = p
        · subst hk
          simp [hnp]
        · simp [hk]
      obtain ⟨s', hs', he', hh', hf'⟩ := ih p _ fuel1 hanc (by simp) (by simpa using hfuel)
      refine ⟨s', ?_, he', fun k => (hh' k).trans (hstore k), ?_⟩
      · simp only [insert_height_loop, load, hnb, hbp, ptr, modify, hnp, bind, Except.bind,
          store_heap, if_true, hpp]
        rw [hpp] at hs'
        exact hs'
      · intro k hk
        simp only [List.mem_cons, not_or] at hk
        rw [hf' k (by simp only [List.mem_cons, not_or]; exact hk.2)]
        simp [hk.1]

theorem lay_of_blank_height {n m : treeview_node}
    (h : ({ n with height := 0 } : treeview_node) = { m with height := 0 }) : lay n = lay m := by
  have : lay n = lay { n with height := 0 } := rfl
  rw [this, h]
  rfl

/-- Equal up to `lay`, two memories give every node the same value of any
field that `lay` keeps. -/
theorem lay_proj {α : Type} (f : treeview_node → α) (hf : ∀ n, f n = f (lay n)) {s s' : State}
    (h : ∀ k, (s'.heap k).map lay = (s.heap k).map lay) (k : Nat) :
    (s'.heap k).map f = (s.heap k).map f := by
  have := h k
  cases h1 : s.heap k <;> cases h2 : s'.heap k <;> simp [h1, h2] at this ⊢
  rw [hf, this, ← hf]

theorem AncPath_congr_on {s s' : State} : ∀ (l : List Nat) (a : Nat),
    (∀ k ∈ a :: l, (s'.heap k).map (fun n => n.parent) = (s.heap k).map (fun n => n.parent)) →
    AncPath s a l → AncPath s' a l := by
  intro l
  induction l with
  | nil =>
    intro a h ha
    simp only [AncPath] at ha ⊢
    have := h a (List.mem_cons_self _ _)
    cases h1 : s.heap a <;> cases h2 : s'.heap a <;> simp_all
  | cons p ps ih =>
    intro a h ha
    simp only [AncPath] at ha ⊢
    refine ⟨?_, ih p (fun k hk => h k (List.mem_cons_of_mem _ hk)) ha.2⟩
    have := h a (List.mem_cons_self _ _)
    have ha1 := ha.1
    cases h1 : s.heap a <;> cases h2 : s'.heap a <;> simp_all

/-- The layout part of an insertion: it ends, makes no host call, keeps every
field but heights, the inset and the text of the new node, and touches only
the new node and its ancestors. -/
theorem insert_layout_spec (g : treeview_globals) (font_width : List Nat → Nat → Int)
    (s1 : State) (a : Nat) (path : List Nat) (fuel : Nat)
    (hpath : AncPath s1 a path) (hne : path ≠ []) (hfuel : path.length ≤ fuel) :
    ∃ s', insert_layout g font_width fuel s1 a = .ok s' ∧ s'.events = s1.events ∧
      (∀ k, (s'.heap k).map lay = (s1.heap k).map lay) ∧
      (∀ k, k ≠ a → k ∉ path → s'.heap k = s1.heap k) := by
  obtain ⟨p, ps, rfl⟩ : ∃ p ps, path = p :: ps := by
    cases path with
    | nil => exact absurd rfl hne
    | cons p ps => exact ⟨p, ps, rfl⟩
  have hnd := AncPath_nodup _ _ hpath
  have hpa : p ≠ a := by
    intro h
    simp [h] at hnd
  obtain ⟨na, hna⟩ := Option.ne_none_iff_exists'.mp (AncPath_self_alloc _ _ hpath)
  have hap : na.parent = some p := by
    have := hpath.1
    rw [hna] at this
    exact this
  obtain ⟨np, hnp⟩ := Option.ne_none_iff_exists'.mp (AncPath_self_alloc _ _ hpath.2)
  obtain ⟨s2, hs2⟩ : ∃ s2, s2 = store s1 a { na with inset := np.inset + g.step_width } :=
    ⟨_, rfl⟩
  have h2heap : ∀ k, s2.heap k = if k = a then some { na with inset := np.inset + g.step_width }
      else s1.heap k := by
    intro k
    rw [hs2]
    rfl
  have h2lay : ∀ k, (s2.heap k).map lay = (s1.heap k).map lay := by
    intro k
    rw [h2heap]
    by_cases hk : k = a
    · subst hk
      simp [hna, lay]
    · simp [hk]
  have hstart : insert_layout g font_width fuel s1 a =
      if np.expanded then
        (match insert_height_loop fuel s2 a with
          | .error e => .error e
          | .ok s3 =>
            match s3.heap a with
            | none => .error .null
            | some na3 =>
              if na3.text.value.width = 0 then
                .ok (store s3 a { na3 with text := { na3.text with value :=
                  { na3.text.value with
                    width := font_width na3.text.value.data na3.text.value.len } } })
              else .ok s3)
      else .ok s2 := by
    rw [hs2]
    simp only [insert_layout, load, hna, hap, c_assert, ptr, hnp, modify, bind, Except.bind,
      store_heap, if_neg hpa, pure, Except.pure]
    simp only [ne_eq, not_false_eq_true, decide_True, if_true, reduceCtorEq]
    cases np.expanded with
    | false => rfl
    | true =>
      simp only [if_true]
      generalize insert_height_loop fuel _ a = r
      cases r with
      | error e => rfl
      | ok s3 =>
        simp only []
        cases s3.heap a with
        | none => rfl
        | some na3 => rfl
  rw [hstart]
  cases hexp : np.expanded with
  | false =>
    refine ⟨s2, by simp, by rw [hs2]; rfl, h2lay, ?_⟩
    intro k hka _
    rw [h2heap, if_neg hka]
  | true =>
    simp only [if_true]
    have hanc : AncPath s2 a (p :: ps) := by
      refine AncPath_congr ?_ _ _ hpath
      intro k
      exact lay_proj (fun n => n.parent) (fun _ => rfl) h2lay k
    obtain ⟨s3, hs3, he3, hh3, hf3⟩ := insert_height_loop_spec (p :: ps) a s2 fuel hanc hne hfuel
    have h3lay : ∀ k, (s3.heap k).map lay = (s2.heap k).map lay := by
      intro k
      have := hh3 k
      cases h1 : s2.heap k with
      | none =>
        cases h2 : s3.heap k with
        | none => rfl
        | some y => rw [h1, h2] at this; simp at this
      | some x =>
        cases h2 : s3.heap k with
        | none => rw [h1, h2] at this; simp at this
        | some y =>
          rw [h1, h2] at this
          simp only [Option.map_some', Option.some.injEq] at this ⊢
          exact lay_of_blank_height this
    have ha3 : s3.heap a = s2.heap a := hf3 a (by
      intro h
      simp only [List.nodup_cons] at hnd
      exact hnd.1 h)
    rw [hs3]
    simp only [ha3, h2heap, if_true]
    split
    · refine ⟨_, rfl, ?_, ?_, ?_⟩
      · simp only [store_events, he3]
        rw [hs2]
        rfl
      · intro k
        simp only [store_heap]
        by_cases hk : k = a
        · subst hk
          simp [hna, lay]
        · simp only [if_neg hk]
          exact (h3lay k).trans (h2lay k)
      · intro k hka hkp
        simp only [store_heap, if_neg hka]
        rw [hf3 k hkp, h2heap, if_neg hka]
    · refine ⟨s3, rfl, ?_, fun k => (h3lay k).trans (h2lay k), ?_⟩
      · rw [he3, hs2]
        rfl
      · intro k hka hkp
        rw [hf3 k hkp, h2heap, if_neg hka]

theorem parentOf_eq {s s' : State} {a : Nat}
    (h : (s'.heap a).map (fun n => n.parent) = (s.heap a).map (fun n => n.parent)) :
    parentOf s' a = parentOf s a := by
  unfold parentOf
  cases h1 : s.heap a <;> cases h2 : s'.heap a <;> simp [h1, h2] at h ⊢
  exact h

theorem childrenOf_eq {s s' : State} {a : Nat}
    (h : (s'.heap a).map (fun n => n.children) = (s.heap a).map (fun n => n.children)) :
    childrenOf s' a = childrenOf s a := by
  unfold childrenOf
  cases h1 : s.heap a <;> cases h2 : s'.heap a <;> simp [h1, h2] at h ⊢
  exact h

/-- Inserting the parentless node `a` as first child of `b`: it becomes the
head of the child list of `b`, the former children follow in their order. -/
theorem insert_node_first (g : treeview_globals) (font_width : List Nat → Nat → Int)
    (s0 : State) (a b : Nat) (na nb : treeview_node) (kids pathb : List Nat) (fuel : Nat)
    (ha : s0.heap a = some na) (hap : na.parent = none) (hb : s0.heap b = some nb)
    (hty : nb.type ≠ .TREE_NODE_ENTRY) (hab : a ≠ b)
    (hkids : ChildChain s0 nb.children kids) (hak : a ∉ kids) (hbk : b ∉ kids)
    (hpath : AncPath s0 b pathb) (hapath : a ∉ pathb) (hfuel : pathb.length + 1 ≤ fuel) :
    ∃ s', treeview_insert_node g font_width fuel s0 a b .TREE_REL_FIRST_CHILD = .ok s' ∧
      s'.events = s0.events ∧ parentOf s' a = some b ∧
      ChildChain s' (childrenOf s' b) (a :: kids) ∧
      (∀ k, k ≠ a → (s'.heap k).map (fun n => n.parent) = (s0.heap k).map (fun n => n.parent)) ∧
      (∀ k, k ≠ a → k ≠ b → (s'.heap k).map (fun n => n.children) =
        (s0.heap k).map (fun n => n.children)) ∧
      (∀ k, k ≠ a → (s'.heap k).map (fun n => n.sibling_next) =
        (s0.heap k).map (fun n => n.sibling_next)) := by
  have hkt := (ChildChain_iff_ChainTo s0 _ _).mp hkids
  have hx : ∀ x, nb.children = some x → x ≠ a ∧ x ≠ b ∧ s0.heap x ≠ none := by
    intro x hx
    have hxk : x ∈ kids := by
      cases kids with
      | nil => simp only [ChainTo] at hkt; rw [hkt] at hx; simp at hx
      | cons c cs =>
        simp only [ChainTo] at hkt
        rw [hkt.1] at hx
        simp only [Option.some.injEq] at hx
        simp [hx]
    refine ⟨?_, ?_, ChainTo_alloc _ _ _ hkt x hxk⟩
    · rintro rfl; exact hak hxk
    · rintro rfl; exact hbk hxk
  obtain ⟨s1, hs1, he1, hh1⟩ := insert_link_first s0 a b na nb ha hb hab hty hx
  have hpar1 : ∀ k, k ≠ a →
      (s1.heap k).map (fun n => n.parent) = (s0.heap k).map (fun n => n.parent) := by
    intro k hk
    rw [hh1 k, if_neg hk]
    by_cases hkb : k = b
    · subst hkb
      simp [hb]
    · rw [if_neg hkb]
      split
      · cases s0.heap k <;> rfl
      · rfl
  have hnext1 : ∀ k, k ≠ a →
      (s1.heap k).map (fun n => n.sibling_next) = (s0.heap k).map (fun n => n.sibling_next) := by
    intro k hk
    rw [hh1 k, if_neg hk]
    by_cases hkb : k = b
    · subst hkb
      simp [hb]
    · rw [if_neg hkb]
      split
      · cases s0.heap k <;> rfl
      · rfl
  have hch1 : ∀ k, k ≠ a → k ≠ b →
      (s1.heap k).map (fun n => n.children) = (s0.heap k).map (fun n => n.children) := by
    intro k hk hkb
    rw [hh1 k, if_neg hk, if_neg hkb]
    split
    · cases s0.heap k <;> rfl
    · rfl
  have ha1 : s1.heap a = some { na with parent := some b, sibling_next := nb.children } := by
    rw [hh1 a, if_pos rfl]
  have hb1 : s1.heap b = some { nb with children := some a } := by
    rw [hh1 b, if_neg (Ne.symm hab), if_pos rfl]
  have hba : b ≠ a := Ne.symm hab
  have hanc1 : AncPath s1 a (b :: pathb) := by
    refine ⟨by rw [ha1], AncPath_congr_on _ _ ?_ hpath⟩
    intro k hk
    refine hpar1 k ?_
    simp only [List.mem_cons] at hk
    rcases hk with rfl | hk
    · exact hba
    · rintro rfl; exact hapath hk
  obtain ⟨s', hs', he', hlay, _⟩ := insert_layout_spec g font_width s1 a (b :: pathb) fuel hanc1
    (by simp) (by simpa using hfuel)
  have hpar' := lay_proj (fun n => n.parent) (fun _ => rfl) hlay
  have hnext' := lay_proj (fun n => n.sibling_next) (fun _ => rfl) hlay
  have hch' := lay_proj (fun n => n.children) (fun _ => rfl) hlay
  refine ⟨s', ?_, he'.trans he1, ?_, ?_, fun k hk => (hpar' k).trans (hpar1 k hk),
    fun k hk hkb => (hch' k).trans (hch1 k hk hkb), fun k hk => (hnext' k).trans (hnext1 k hk)⟩
  · simp only [treeview_insert_node, load, ha, hap, c_assert, hb, bind, Except.bind, hs1,
      decide_True, if_true]
    exact hs'
  · rw [parentOf_eq (hpar' a)]
    simp [parentOf, ha1]
  · rw [childrenOf_eq (hch' b)]
    simp only [childrenOf, hb1]
    rw [ChildChain_iff_ChainTo]
    have hnexta : (s'.heap a).map (fun n => n.sibling_next) = some nb.children := by
      rw [hnext' a, ha1]
      rfl
    simp only [ChainTo, true_and]
    cases hsa : s'.heap a with
    | none => rw [hsa] at hnexta; simp at hnexta
    | some na' =>
      rw [hsa] at hnexta
      simp only [Option.map_some', Option.some.injEq] at hnexta
      simp only [hnexta]
      refine ChainTo_congr kids _ _ ?_ hkt
      intro k hk
      exact (hnext' k).trans (hnext1 k (by rintro rfl; exact hak hk))

/-- Inserting the parentless node `a` as next sibling of `b`: it takes the
parent of `b` and stands right after `b` in the child list of that parent,
the other children keeping their order. -/
theorem insert_node_next (g : treeview_globals) (font_width : List Nat → Nat → Int)
    (s0 : State) (a b p : Nat) (na nb np : treeview_node) (pre post pathp : List Nat)
    (fuel : Nat)
    (ha : s0.heap a = some na) (hap : na.parent = none) (hb : s0.heap b = some nb)
    (hty : nb.type ≠ .TREE_NODE_ROOT) (hab : a ≠ b)
    (hp : s0.heap p = some np)
    (hkids : ChildChain s0 np.children (pre ++ b :: post)) (hak : a ∉ pre ++ b :: post)
    (hpath : AncPath s0 b (p :: pathp)) (hapath : a ∉ p :: pathp)
    (hfuel : pathp.length + 1 ≤ fuel) :
    ∃ s', treeview_insert_node g font_width fuel s0 a b .TREE_REL_NEXT_SIBLING = .ok s' ∧
      s'.events = s0.events ∧ parentOf s' a = some p ∧ parentOf s' b = some p ∧
      ChildChain s' (childrenOf s' p) (pre ++ b :: a :: post) ∧
      (∀ k, k ≠ a → (s'.heap k).map (fun n => n.parent) = (s0.heap k).map (fun n => n.parent)) ∧
      (∀ k, k ≠ a → (s'.heap k).map (fun n => n.children) =
        (s0.heap k).map (fun n => n.children)) ∧
      (∀ k, k ≠ a → k ≠ b → (s'.heap k).map (fun n => n.sibling_next) =
        (s0.heap k).map (fun n => n.sibling_next)) := by
  have hnd := ChildChain_nodup _ _ hkids
  have hkt := (ChildChain_iff_ChainTo s0 _ _).mp hkids
  obtain ⟨mid, hpre, hrest⟩ := (ChainTo_append pre (b :: post) _ _).mp hkt
  have hmid : mid = some b := hrest.1
  subst hmid
  have hpost : ChainTo s0 nb.sibling_next post none := by
    have := hrest.2
    rw [hb] at this
    exact this
  have hbpar : nb.parent = some p := by
    have := hpath.1
    rw [hb] at this
    exact this
  have hbpre : b ∉ pre := by
    intro h
    have := (List.nodup_append.mp hnd).2.2
    exact this h (List.mem_cons_self _ _) 
  have hbpost : b ∉ post := by
    have := (List.nodup_append.mp hnd).2.1
    exact (List.nodup_cons.mp this).1
  have hx : ∀ x, nb.sibling_next = some x → x ≠ a ∧ x ≠ b ∧ s0.heap x ≠ none := by
    intro x hx
    have hxk : x ∈ post := by
      cases post with
      | nil => simp only [ChainTo] at hpost; rw [hpost] at hx; simp at hx
      | cons c cs =>
        simp only [ChainTo] at hpost
        rw [hpost.1] at hx
        simp only [Option.some.injEq] at hx
        simp [hx]
    refine ⟨?_, ?_, ChainTo_alloc _ _ _ hpost x hxk⟩
    · rintro rfl
      exact hak (by simp [hxk])
    · rintro rfl
      exact hbpost hxk
  obtain ⟨s1, hs1, he1, hh1⟩ := insert_link_next s0 a b na nb ha hb hab hty hx
  have hpar1 : ∀ k, k ≠ a →
      (s1.heap k).map (fun n => n.parent) = (s0.heap k).map (fun n => n.parent) := by
    intro k hk
    rw [hh1 k, if_neg hk]
    by_cases hkb : k = b
    · subst hkb
      simp [hb]
    · rw [if_neg hkb]
      split
      · cases s0.heap k <;> rfl
      · rfl
  have hch1 : ∀ k, k ≠ a →
      (s1.heap k).map (fun n => n.children) = (s0.heap k).map (fun n => n.children) := by
    intro k hk
    rw [hh1 k, if_neg hk]
    by_cases hkb : k = b
    · subst hkb
      simp [hb]
    · rw [if_neg hkb]
      split
      · cases s0.heap k <;> rfl
      · rfl
  have hnext1 : ∀ k, k ≠ a → k ≠ b →
      (s1.heap k).map (fun n => n.sibling_next) = (s0.heap k).map (fun n => n.sibling_next) := by
    intro k hk hkb
    rw [hh1 k, if_neg hk, if_neg hkb]
    split
    · cases s0.heap k <;> rfl
    · rfl
  have ha1 : s1.heap a =
      some { na with parent := nb.parent, sibling_prev := some b, sibling_next := nb.sibling_next } := by
    rw [hh1 a, if_pos rfl]
  have hb1 : s1.heap b = some { nb with sibling_next := some a } := by
    rw [hh1 b, if_neg (Ne.symm hab), if_pos rfl]
  have hba : b ≠ a := Ne.symm hab
  have hpa : p ≠ a := by
    rintro rfl
    exact hapath (List.mem_cons_self _ _)
  have hanc1 : AncPath s1 a (p :: pathp) := by
    refine ⟨by rw [ha1]; exact hbpar, AncPath_congr_on _ _ ?_ hpath.2⟩
    intro k hk
    refine hpar1 k ?_
    rintro rfl
    exact hapath (by
      simp only [List.mem_cons] at hk ⊢
      exact hk)
  obtain ⟨s', hs', he', hlay, _⟩ := insert_layout_spec g font_width s1 a (p :: pathp) fuel hanc1
    (by simp) (by simpa using hfuel)
  have hpar' := lay_proj (fun n => n.parent) (fun _ => rfl) hlay
  have hnext' := lay_proj (fun n => n.sibling_next) (fun _ => rfl) hlay
  have hch' := lay_proj (fun n => n.children) (fun _ => rfl) hlay
  refine ⟨s', ?_, he'.trans he1, ?_, ?_, ?_, fun k hk => (hpar' k).trans (hpar1 k hk),
    fun k hk => (hch' k).trans (hch1 k hk), fun k hk hkb => (hnext' k).trans (hnext1 k hk hkb)⟩
  · simp only [treeview_insert_node, load, ha, hap, c_assert, hb, bind, Except.bind, hs1,
      decide_True, if_true]
    exact hs'
  · rw [parentOf_eq (hpar' a)]
    simp [parentOf, ha1, hbpar]
  · rw [parentOf_eq ((hpar' b).trans (hpar1 b hba))]
    simp [parentOf, hb, hbpar]
  · rw [childrenOf_eq ((hch' p).trans (hch1 p hpa))]
    simp only [childrenOf, hp]
    rw [ChildChain_iff_ChainTo, ChainTo_append]
    refine ⟨some b, ?_, ?_⟩
    · refine ChainTo_congr pre _ _ ?_ hpre
      intro k hk
      refine (hnext' k).trans (hnext1 k ?_ ?_)
      · rintro rfl
        exact hak (by simp [hk])
      · rintro rfl
        exact hbpre hk
    · have hnextb : (s'.heap b).map (fun n => n.sibling_next) = some (some a) := by
        rw [hnext' b, hb1]
        rfl
      have hnexta : (s'.heap a).map (fun n => n.sibling_next) = some nb.sibling_next := by
        rw [hnext' a, ha1]
        rfl
      simp only [ChainTo, true_and]
      cases hsb : s'.heap b with
      | none => rw [hsb] at hnextb; simp at hnextb
      | some nb' =>
        rw [hsb] at hnextb
        simp only [Option.map_some', Option.some.injEq] at hnextb
        simp only [hnextb, true_and]
        cases hsa : s'.heap a with
        | none => rw [hsa] at hnexta; simp at hnexta
        | some na' =>
          rw [hsa] at hnexta
          simp only [Option.map_some', Option.some.injEq] at hnexta
          simp only [hnexta]
          refine ChainTo_congr post _ _ ?_ hpost
          intro k hk
          refine (hnext' k).trans (hnext1 k ?_ ?_)
          · rintro rfl
            exact hak (by simp [hk])
          · rintro rfl
            exact hbpost hk

/-- Inserting a freshly allocated record at the address `a`, which held no
node, as relation `rel` of `b`. -/
theorem insert_fresh_placed (g : treeview_globals) (font_width : List Nat → Nat → Int)
    (s : State) (a b : Nat) (rel : treeview_relationship) (r nb : treeview_node)
    (kids pre post path : List Nat) (fuel : Nat)
    (hr : r.parent = none) (hfresh : s.heap a = none) (hb : s.heap b = some nb)
    (hpath : AncPath s b path)
    (hfirst : rel = .TREE_REL_FIRST_CHILD → nb.type ≠ .TREE_NODE_ENTRY ∧
      ChildChain s nb.children kids ∧ b ∉ kids)
    (hnext : rel = .TREE_REL_NEXT_SIBLING → nb.type ≠ .TREE_NODE_ROOT ∧
      ∃ p np, nb.parent = some p ∧ s.heap p = some np ∧
        ChildChain s np.children (pre ++ b :: post))
    (hfuel : path.length + 1 ≤ fuel) :
    ∃ s', treeview_insert_node g font_width fuel (store s a r) a b rel = .ok s' ∧
      s'.events = s.events ∧ Placed s s' a b rel kids pre post := by
  have hab : a ≠ b := by
    rintro rfl
    rw [hfresh] at hb
    simp at hb
  have hframe : ∀ k, k ≠ a → (store s a r).heap k = s.heap k := by
    intro k hk
    simp [hk]
  have ha0 : (store s a r).heap a = some r := by simp
  have hb0 : (store s a r).heap b = some nb := by rw [hframe b (Ne.symm hab), hb]
  have hapath : a ∉ path := by
    intro h
    exact AncPath_alloc _ _ hpath a h hfresh
  have hpath0 : AncPath (store s a r) b path := by
    refine AncPath_congr_on _ _ ?_ hpath
    intro k hk
    rw [hframe k]
    simp only [List.mem_cons] at hk
    rcases hk with rfl | hk
    · exact Ne.symm hab
    · rintro rfl
      exact hapath hk
  have hchain0 : ∀ (first : Option Nat) (l : List Nat), ChildChain s first l →
      a ∉ l ∧ ChildChain (store s a r) first l := by
    intro first l hl
    have hal : a ∉ l := by
      intro h
      exact ChainTo_alloc _ _ _ ((ChildChain_iff_ChainTo s _ _).mp hl) a h hfresh
    refine ⟨hal, ?_⟩
    rw [ChildChain_iff_ChainTo] at hl ⊢
    refine ChainTo_congr l _ _ ?_ hl
    intro k hk
    rw [hframe k (by rintro rfl; exact hal hk)]
  cases rel with
  | TREE_REL_FIRST_CHILD =>
    obtain ⟨hty, hkids, hbk⟩ := hfirst rfl
    obtain ⟨hak, hkids0⟩ := hchain0 _ _ hkids
    obtain ⟨s', hs', he', hp', hc', _⟩ := insert_node_first g font_width (store s a r) a b r nb
      kids path fuel ha0 hr hb0 hty hab hkids0 hak hbk hpath0 hapath hfuel
    exact ⟨s', hs', he', hp', hc'⟩
  | TREE_REL_NEXT_SIBLING =>
    obtain ⟨hty, p, np, hbp, hp, hkids⟩ := hnext rfl
    obtain ⟨hak, hkids0⟩ := hchain0 _ _ hkids
    obtain ⟨pathp, rfl⟩ : ∃ pathp, path = p :: pathp := by
      cases path with
      | nil =>
        simp only [AncPath, hb] at hpath
        rw [hpath] at hbp
        simp at hbp
      | cons q qs =>
        have := hpath.1
        simp only [hb] at this
        rw [this] at hbp
        simp only [Option.some.injEq] at hbp
        exact ⟨qs, by rw [hbp]⟩
    have hpa : p ≠ a := by
      rintro rfl
      exact hapath (List.mem_cons_self _ _)
    have hp0 : (store s a r).heap p = some np := by rw [hframe p hpa, hp]
    obtain ⟨s', hs', he', hpa', hpb', hc', _⟩ := insert_node_next g font_width (store s a r) a b p
      r nb np pre post pathp fuel ha0 hr hb0 hty hab hp0 hkids0 hak hpath0 hapath
      (by simp at hfuel; omega)
    refine ⟨s', hs', he', p, ?_, hpa', hpb', hc'⟩
    simp [parentOf, hb, hbp]

/-- C9 (insertion placement).  Let `a` be the fresh address `malloc` returns.
A creation with a non-null `relation` is placed relative to `b = relation` by
the relationship `r = rel` that was passed; a creation with a `NULL` relation
is placed as first child (`r`) of the root (`b`), whatever relationship was
passed.  Let `b` have a parent chain up to the root.  Then
`treeview_create_node_folder` returns `NSERROR_OK` and the new node `a`, and
so does `treeview_create_node_entry` when its field checks pass, and the new
node is placed as `Placed` says: as first child of `b` (not an entry), `a` has
parent `b` and is the head of the child list of `b`, followed by the former
children in their order; as next sibling of `b` (not the root), `a` has the
parent of `b` and stands right after `b` in the child list of that parent, all
other siblings in their order. -/
theorem create_node_placement (g : treeview_globals) (font_width : List Nat → Nat → Int)
    (tree : treeview) (s : State) (a : Nat) (relation : Option Nat)
    (rel : treeview_relationship) (field : treeview_field_data)
    (fields : List treeview_field_data) (data : Nat) (nroot nb : treeview_node)
    (kids pre post path : List Nat) (fuel : Nat) (f0 : treeview_field_data)
    (fs : List treeview_field) (b : Nat) (r : treeview_relationship)
    (htarget : (relation = none ∧ b = tree.root ∧ r = .TREE_REL_FIRST_CHILD) ∨
      (relation = some b ∧ r = rel))
    (hdata : data ≠ 0) (hroot : s.heap tree.root = some nroot) (hfresh : s.heap a = none)
    (hb : s.heap b = some nb) (hpath : AncPath s b path)
    (hfirst : r = .TREE_REL_FIRST_CHILD →
      nb.type ≠ .TREE_NODE_ENTRY ∧ ChildChain s nb.children kids ∧ b ∉ kids)
    (hnext : r = .TREE_REL_NEXT_SIBLING →
      nb.type ≠ .TREE_NODE_ROOT ∧ ∃ p np, nb.parent = some p ∧ s.heap p = some np ∧
        ChildChain s np.children (pre ++ b :: post))
    (hfuel : path.length + 1 ≤ fuel) :
    (∃ s', treeview_create_node_folder g font_width fuel tree s (some a) relation rel field data =
        .ok (.NSERROR_OK, s', some a) ∧
      (r = .TREE_REL_FIRST_CHILD →
        parentOf s' a = some b ∧ ChildChain s' (childrenOf s' b) (a :: kids)) ∧
      (r = .TREE_REL_NEXT_SIBLING →
        ∃ p, parentOf s b = some p ∧ parentOf s' a = some p ∧ parentOf s' b = some p ∧
          ChildChain s' (childrenOf s' p) (pre ++ b :: a :: post))) ∧
    (EntryChecks tree fields f0 fs →
      ∃ s', treeview_create_node_entry g font_width fuel tree s (some a) relation rel fields
          data = .ok (.NSERROR_OK, s', some a) ∧
        (r = .TREE_REL_FIRST_CHILD →
          parentOf s' a = some b ∧ ChildChain s' (childrenOf s' b) (a :: kids)) ∧
        (r = .TREE_REL_NEXT_SIBLING →
          ∃ p, parentOf s b = some p ∧ parentOf s' a = some p ∧ parentOf s' b = some p ∧
            ChildChain s' (childrenOf s' p) (pre ++ b :: a :: post))) := by
  have ht : insert_target tree relation rel = (b, r) := by
    rcases htarget with ⟨h1, h2, h3⟩ | ⟨h1, h2⟩
    · rw [h1, h2, h3]
      rfl
    · rw [h1, h2]
      rfl
  have hplaced : ∀ s', Placed s s' a b r kids pre post →
      (r = .TREE_REL_FIRST_CHILD →
        parentOf s' a = some b ∧ ChildChain s' (childrenOf s' b) (a :: kids)) ∧
      (r = .TREE_REL_NEXT_SIBLING →
        ∃ p, parentOf s b = some p ∧ parentOf s' a = some p ∧ parentOf s' b = some p ∧
          ChildChain s' (childrenOf s' p) (pre ++ b :: a :: post)) := by
    intro s' hpl
    cases r with
    | TREE_REL_FIRST_CHILD => exact ⟨fun _ => hpl, fun h => by cases h⟩
    | TREE_REL_NEXT_SIBLING => exact ⟨fun h => (by cases h), fun _ => hpl⟩
  refine ⟨?_, ?_⟩
  · obtain ⟨s', hs', _, hpl⟩ := insert_fresh_placed g font_width s a b r
      (new_folder g field data) nb kids pre post path fuel rfl hfresh hb hpath hfirst hnext hfuel
    refine ⟨s', ?_, hplaced s' hpl⟩
    simp only [treeview_create_node_folder, c_assert, hdata, load, hroot, bind, Except.bind,
      hfresh, ht, hs', pure, Except.pure, ne_eq, not_false_eq_true, decide_True, if_true]
  · rintro ⟨hf0, hf0a, hf0b, hfs⟩
    obtain ⟨s', hs', _, hpl⟩ := insert_fresh_placed g font_width s a b r
      (new_entry g f0 fs data) nb kids pre post path fuel rfl hfresh hb hpath hfirst hnext hfuel
    refine ⟨s', ?_, hplaced s' hpl⟩
    simp only [treeview_create_node_entry, c_assert, hdata, load, hroot, bind, Except.bind,
      hfresh, ht, hs', pure, Except.pure, hf0, hf0a, hf0b, hfs, ne_eq, not_false_eq_true,
      decide_True, if_true]

/-- Three creations on `exState` (root 0 with the children 1
and 4; folder 1 with the children 2 and 3; folder 3 with the child 5), the new
node being 6: as first child of folder 3 it heads the child list `[6, 5]`; as
next sibling of entry 2 it stands between 2 and 3 in the child list of folder
1; and with a `NULL` relation and the relationship next-sibling passed it is
the first child of the root. -/
theorem create_node_placement_witness :
    (∃ s', treeview_create_node_folder ⟨20, 10, 10, 6, 23⟩ (fun _ l => 7 * l) 3 ⟨0, [], 1, 0⟩
        exState (some 6) (some 3) .TREE_REL_FIRST_CHILD ⟨none, [70], 1⟩ 16 =
        .ok (.NSERROR_OK, s', some 6) ∧
      parentOf s' 6 = some 3 ∧ ChildChain s' (childrenOf s' 3) [6, 5]) ∧
    (∃ s', treeview_create_node_folder ⟨20, 10, 10, 6, 23⟩ (fun _ l => 7 * l) 3 ⟨0, [], 1, 0⟩
        exState (some 6) (some 2) .TREE_REL_NEXT_SIBLING ⟨none, [70], 1⟩ 16 =
        .ok (.NSERROR_OK, s', some 6) ∧
      parentOf s' 6 = some 1 ∧ ChildChain s' (childrenOf s' 1) [2, 6, 3]) ∧
    (∃ s', treeview_create_node_folder ⟨20, 10, 10, 6, 23⟩ (fun _ l => 7 * l) 3 ⟨0, [], 1, 0⟩
        exState (some 6) none .TREE_REL_NEXT_SIBLING ⟨none, [70], 1⟩ 16 =
        .ok (.NSERROR_OK, s', some 6) ∧
      parentOf s' 6 = some 0 ∧ ChildChain s' (childrenOf s' 0) [6, 1, 4]) :=
  ⟨(create_node_placement ⟨20, 10, 10, 6, 23⟩ (fun _ l => 7 * l) ⟨0, [], 1, 0⟩ exState 6 (some 3)
      .TREE_REL_FIRST_CHILD ⟨none, [70], 1⟩ [] 16
      (mkNode .TREE_NODE_ROOT true 80 none none none (some 1) 0)
      (mkNode .TREE_NODE_FOLDER false 20 (some 1) (some 2) none (some 5) 13)
      [5] [] [] [1, 0] 3 ⟨none, [], 0⟩ [] 3 .TREE_REL_FIRST_CHILD (Or.inr ⟨rfl, rfl⟩)
      (by decide) rfl rfl rfl (by decide) (fun _ => by decide)
      (fun h => absurd h (by decide)) (by decide)).1.imp
    (fun _ h => ⟨h.1, h.2.1 rfl⟩),
   (create_node_placement ⟨20, 10, 10, 6, 23⟩ (fun _ l => 7 * l) ⟨0, [], 1, 0⟩ exState 6 (some 2)
      .TREE_REL_NEXT_SIBLING ⟨none, [70], 1⟩ [] 16
      (mkNode .TREE_NODE_ROOT true 80 none none none (some 1) 0)
      (mkNode .TREE_NODE_ENTRY false 20 (some 1) none (some 3) none 12)
      [] [] [3] [1, 0] 3 ⟨none, [], 0⟩ [] 2 .TREE_REL_NEXT_SIBLING (Or.inr ⟨rfl, rfl⟩)
      (by decide) rfl rfl rfl (by decide) (fun h => absurd h (by decide))
      (fun _ => ⟨by decide, 1,
        mkNode .TREE_NODE_FOLDER true 60 (some 0) none (some 4) (some 2) 11, rfl, rfl,
        by decide⟩) (by decide)).1.imp
    (fun _ h => by
      obtain ⟨p, h1, h2, _, h4⟩ := h.2.2 rfl
      have hp : p = 1 := by
        have : parentOf exState 2 = some 1 := by decide
        rw [this] at h1
        exact (Option.some.inj h1).symm
      subst hp
      exact ⟨h.1, h2, h4⟩),
   (create_node_placement ⟨20, 10, 10, 6, 23⟩ (fun _ l => 7 * l) ⟨0, [], 1, 0⟩ exState 6 none
      .TREE_REL_NEXT_SIBLING ⟨none, [70], 1⟩ [] 16
      (mkNode .TREE_NODE_ROOT true 80 none none none (some 1) 0)
      (mkNode .TREE_NODE_ROOT true 80 none none none (some 1) 0)
      [1, 4] [] [] [] 3 ⟨none, [], 0⟩ [] 0 .TREE_REL_FIRST_CHILD (Or.inl ⟨rfl, rfl, rfl⟩)
      (by decide) rfl rfl rfl (by decide) (fun _ => by decide)
      (fun h => absurd h (by decide)) (by decide)).1.imp
    (fun _ h => ⟨h.1, h.2.1 rfl⟩)⟩

/-! ## Runs that show the defects of the height bookkeeping -/

/-- The example tree is what `treeview_create` returns: `NSERROR_OK`, a tree
with two entry fields whose root, at address 0, is expanded with height 0. -/
theorem exTree_created :
    (treeview_create exG exFont emptyState true (some 0) 3 exSchema).toOption.map
        (fun r => (r.1, r.2.2.map (fun t => (t.root, t.n_fields)))) =
        some (.NSERROR_OK, some (0, 2)) ∧
      exTree.root = 0 ∧ exTree.n_fields = 2 ∧ observe (.ok exFresh) 0 = some (0, true) := by
  decide

/-- C8, the run that fails.  A folder (node 1) under the root holds an entry
(node 2) and is expanded: the root and the folder have height 40.  Creating a
second entry (node 3, one row of height 20) as first child of the folder, whose
parent chain is visible, raises the folder to 60 but the root to 100: the
loop of `treeview_insert_node` adds to each further ancestor the height of the
ancestor below it, not the height of the new node. -/
theorem insert_adds_wrong_height_to_grandparent :
    observe (apply_ops exG exFont 8 exTree
      [.create_folder 1 none .TREE_REL_FIRST_CHILD exField 101,
       .create_entry 2 (some 1) .TREE_REL_FIRST_CHILD exFields 102,
       .expand 1] exFresh) 0 = some (40, true) ∧
    observe (apply_ops exG exFont 8 exTree
      [.create_folder 1 none .TREE_REL_FIRST_CHILD exField 101,
       .create_entry 2 (some 1) .TREE_REL_FIRST_CHILD exFields 102,
       .expand 1,
       .create_entry 3 (some 1) .TREE_REL_FIRST_CHILD exFields 103] exFresh) 0 =
      some (100, true) ∧
    observe (apply_ops exG exFont 8 exTree
      [.create_folder 1 none .TREE_REL_FIRST_CHILD exField 101,
       .create_entry 2 (some 1) .TREE_REL_FIRST_CHILD exFields 102,
       .expand 1,
       .create_entry 3 (some 1) .TREE_REL_FIRST_CHILD exFields 103] exFresh) 1 =
      some (60, true) ∧
    observe (apply_ops exG exFont 8 exTree
      [.create_folder 1 none .TREE_REL_FIRST_CHILD exField 101,
       .create_entry 2 (some 1) .TREE_REL_FIRST_CHILD exFields 102,
       .expand 1,
       .create_entry 3 (some 1) .TREE_REL_FIRST_CHILD exFields 103] exFresh) 3 =
      some (20, false) := by
  decide

/-- C2, the run that fails.  With a collapsed folder (node 1) holding one entry
the root has height 20; expanding the folder and contracting it again leaves
the folder collapsed with height 20, as before, but the root at 40:
`treeview_node_contract_cb` never reaches the root. -/
theorem expand_contract_leaves_root_stale :
    observe (apply_ops exG exFont 8 exTree
      [.create_folder 1 none .TREE_REL_FIRST_CHILD exField 101,
       .create_entry 2 (some 1) .TREE_REL_FIRST_CHILD exFields 102] exFresh) 0 =
      some (20, true) ∧
    observe (apply_ops exG exFont 8 exTree
      [.create_folder 1 none .TREE_REL_FIRST_CHILD exField 101,
       .create_entry 2 (some 1) .TREE_REL_FIRST_CHILD exFields 102,
       .expand 1, .contract 1] exFresh) 0 = some (40, true) ∧
    observe (apply_ops exG exFont 8 exTree
      [.create_folder 1 none .TREE_REL_FIRST_CHILD exField 101,
       .create_entry 2 (some 1) .TREE_REL_FIRST_CHILD exFields 102,
       .expand 1, .contract 1] exFresh) 1 = some (20, false) := by
  decide

/-- C3, the run that fails.  Three nested folders (nodes 1, 2, 3) and an entry
(node 4) are all expanded from the top down.  Contracting folder 1 clears the
flag of folders 1 and 2 and brings them to one row, but folder 3, two levels
below, keeps its expanded flag and its height 40: the walk calls the callback
on folder 2 before it looks at its children, and then finds folder 2
collapsed. -/
theorem contract_skips_deeper_descendants :
    observe (apply_ops exG exFont 10 exTree
      [.create_folder 1 none .TREE_REL_FIRST_CHILD exField 101,
       .create_folder 2 (some 1) .TREE_REL_FIRST_CHILD exField 102,
       .create_folder 3 (some 2) .TREE_REL_FIRST_CHILD exField 103,
       .create_entry 4 (some 3) .TREE_REL_FIRST_CHILD exFields 104,
       .expand 1, .expand 2, .expand 3] exFresh) 3 = some (40, true) ∧
    observe (apply_ops exG exFont 10 exTree
      [.create_folder 1 none .TREE_REL_FIRST_CHILD exField 101,
       .create_folder 2 (some 1) .TREE_REL_FIRST_CHILD exField 102,
       .create_folder 3 (some 2) .TREE_REL_FIRST_CHILD exField 103,
       .create_entry 4 (some 3) .TREE_REL_FIRST_CHILD exFields 104,
       .expand 1, .expand 2, .expand 3, .contract 1] exFresh) 1 = some (20, false) ∧
    observe (apply_ops exG exFont 10 exTree
      [.create_folder 1 none .TREE_REL_FIRST_CHILD exField 101,
       .create_folder 2 (some 1) .TREE_REL_FIRST_CHILD exField 102,
       .create_folder 3 (some 2) .TREE_REL_FIRST_CHILD exField 103,
       .create_entry 4 (some 3) .TREE_REL_FIRST_CHILD exFields 104,
       .expand 1, .expand 2, .expand 3, .contract 1] exFresh) 2 = some (20, false) ∧
    observe (apply_ops exG exFont 10 exTree
      [.create_folder 1 none .TREE_REL_FIRST_CHILD exField 101,
       .create_folder 2 (some 1) .TREE_REL_FIRST_CHILD exField 102,
       .create_folder 3 (some 2) .TREE_REL_FIRST_CHILD exField 103,
       .create_entry 4 (some 3) .TREE_REL_FIRST_CHILD exFields 104,
       .expand 1, .expand 2, .expand 3, .contract 1] exFresh) 3 = some (40, true) := by
  decide

/-- C4, the run that fails.  Under the root, the expanded folder 1 holds the
expanded entry 2 (one secondary field): heights 40, 60 and 60 for the entry,
the folder and the root.  Contracting the entry brings it to 20 and the folder
to 40, but the root stays at 60: the loop of `treeview_node_contract_cb`
stops below the root. -/
theorem contract_stops_below_root :
    observe (apply_ops exG exFont 8 exTree
      [.create_folder 1 none .TREE_REL_FIRST_CHILD exField 101,
       .create_entry 2 (some 1) .TREE_REL_FIRST_CHILD exFields 102,
       .expand 1, .expand 2] exFresh) 0 = some (60, true) ∧
    observe (apply_ops exG exFont 8 exTree
      [.create_folder 1 none .TREE_REL_FIRST_CHILD exField 101,
       .create_entry 2 (some 1) .TREE_REL_FIRST_CHILD exFields 102,
       .expand 1, .expand 2] exFresh) 2 = some (40, true) ∧
    observe (apply_ops exG exFont 8 exTree
      [.create_folder 1 none .TREE_REL_FIRST_CHILD exField 101,
       .create_entry 2 (some 1) .TREE_REL_FIRST_CHILD exFields 102,
       .expand 1, .expand 2, .contract 2] exFresh) 2 = some (20, false) ∧
    observe (apply_ops exG exFont 8 exTree
      [.create_folder 1 none .TREE_REL_FIRST_CHILD exField 101,
       .create_entry 2 (some 1) .TREE_REL_FIRST_CHILD exFields 102,
       .expand 1, .expand 2, .contract 2] exFresh) 1 = some (40, true) ∧
    observe (apply_ops exG exFont 8 exTree
      [.create_folder 1 none .TREE_REL_FIRST_CHILD exField 101,
       .create_entry 2 (some 1) .TREE_REL_FIRST_CHILD exFields 102,
       .expand 1, .expand 2, .contract 2] exFresh) 0 = some (60, true) := by
  decide

/-! ## Height conservation on built trees -/

theorem store_heap_same (s : State) (p : Nat) (n : treeview_node) :
    (store s p n).heap p = some n := by
  simp

theorem treeInv_fresh (g : treeview_globals) (font_width : List Nat → Nat → Int)
    (tree : treeview) (s : State) (addr : Nat) (n_fields : Int)
    (fields : List treeview_field_desc)
    (h : treeview_create g font_width emptyState true (some addr) n_fields fields =
      .ok (.NSERROR_OK, s, some tree)) : TreeInv g tree s := by
  simp only [treeview_create, bind, Except.bind, pure, Except.pure, c_assert] at h
  split at h
  · simp at h
  rename_i first hfirst
  split at h
  · simp at h
  split at h
  · simp at h
  rename_i last hlast
  split at h
  · simp at h
  split at h
  · simp at h
  rename_i hnf1
  simp only [not_true_eq_false, if_false, treeview_create_node_root, emptyState,
    Except.ok.injEq, Prod.mk.injEq, true_and, Option.some.injEq] at h
  obtain ⟨hs, ht⟩ := h
  subst hs
  subst ht
  have hnf : (2 : Int) ≤ n_fields := by
    split at hnf1
    · rename_i h2
      simpa using h2
    · simp at hnf1
  have hheap : ∀ k, (store { heap := fun _ => none, events := [] } addr
      { expanded := true, selected := false, type := .TREE_NODE_ROOT, height := 0,
        inset := g.window_padding - g.step_width, parent := none, sibling_prev := none,
        sibling_next := none, children := none, client_data := 0,
        text := { flags := { dflt := false, show_name := false }, field := none,
                  value := { data := [], len := 0, width := 0 } },
        fields := [] }).heap k ≠ none → k = addr := by
    intro k hk
    by_contra hne
    simp [hne] at hk
  refine ⟨by simp; omega, ⟨_, store_heap_same _ _ _, rfl, rfl, rfl⟩, ?_, ?_, ?_, ?_, ?_, ?_, ?_, ?_⟩
  · intro a ha
    have := hheap a ha
    subst this
    exact ⟨[], by simp [AncPath], rfl⟩
  · intro a n ha
    have := hheap a (by rw [ha]; simp)
    subst this
    simp only [store_heap, if_true, Option.some.injEq] at ha
    subst ha
    refine ⟨[], rfl, ?_⟩
    intro k
    simp only [List.not_mem_nil, false_iff, parentOf, store_heap]
    split
    · rename_i n' hn'
      split at hn'
      · simp only [Option.some.injEq] at hn'
        subst hn'
        simp
      · simp at hn'
    · simp
  · intro a n ha hty
    have := hheap a (by rw [ha]; simp)
    subst this
    simp only [store_heap, if_true, Option.some.injEq] at ha
    subst ha
    simp at hty
  · intro a n ha _
    exact hheap a (by rw [ha]; simp)
  · intro a n ha _ hne
    exact absurd (hheap a (by rw [ha]; simp)) hne
  · intro a n ha hexp
    have := hheap a (by rw [ha]; simp)
    subst this
    simp only [store_heap, if_true, Option.some.injEq] at ha
    subst ha
    simp at hexp
  · intro a n ha _ hty
    have := hheap a (by rw [ha]; simp)
    subst this
    simp only [store_heap, if_true, Option.some.injEq] at ha
    subst ha
    simp at hty
  · intro kids hk
    simp only [childrenOf, store_heap, if_true] at hk
    cases kids with
    | nil => simp [heightOf]
    | cons c cs => simp [ChildChain] at hk

/-! ## More fuel does not change a result -/

theorem insert_height_loop_mono : ∀ (fuel : Nat) (s : State) (b : Nat) (r : State),
    insert_height_loop fuel s b = .ok r → insert_height_loop (fuel + 1) s b = .ok r := by
  intro fuel
  induction fuel with
  | zero => intro s b r h; simp [insert_height_loop] at h
  | succ f ih =>
    intro s b r h
    rw [insert_height_loop] at h ⊢
    simp only [bind, Except.bind] at h ⊢
    cases h1 : load s b with
    | error e => rw [h1] at h; simp at h
    | ok nb =>
      rw [h1] at h
      simp only [] at h ⊢
      cases h2 : ptr nb.parent with
      | error e => rw [h2] at h; simp at h
      | ok p =>
        rw [h2] at h
        simp only [] at h ⊢
        cases h3 : modify s p (fun np => { np with height := np.height + nb.height }) with
        | error e => rw [h3] at h; simp at h
        | ok s1 =>
          rw [h3] at h
          simp only [] at h ⊢
          cases h4 : load s1 p with
          | error e => rw [h4] at h; simp at h
          | ok np =>
            rw [h4] at h
            simp only [] at h ⊢
            cases h5 : np.parent with
            | none => rw [h5] at h; exact h
            | some q =>
              rw [h5] at h
              simp only [] at h ⊢
              exact ih _ _ _ h

theorem insert_height_loop_mono_le (fuel fuel' : Nat) (hle : fuel ≤ fuel') (s : State) (b : Nat)
    (r : State) (h : insert_height_loop fuel s b = .ok r) :
    insert_height_loop fuel' s b = .ok r := by
  induction hle with
  | refl => exact h
  | step _ ih => exact insert_height_loop_mono _ _ _ _ ih

theorem expand_height_loop_mono (d : Int) : ∀ (fuel : Nat) (s : State) (node : Nat)
    (r : State × Nat),
    expand_height_loop d fuel s node = .ok r → expand_height_loop d (fuel + 1) s node = .ok r := by
  intro fuel
  induction fuel with
  | zero => intro s b r h; simp [expand_height_loop] at h
  | succ f ih =>
    intro s node r h
    rw [expand_height_loop] at h ⊢
    simp only [bind, Except.bind] at h ⊢
    cases h1 : modify s node (fun n => { n with height := n.height + d }) with
    | error e => rw [h1] at h; simp at h
    | ok s1 =>
      rw [h1] at h
      simp only [] at h ⊢
      cases h2 : load s1 node with
      | error e => rw [h2] at h; simp at h
      | ok n1 =>
        rw [h2] at h
        simp only [] at h ⊢
        cases h3 : ptr n1.parent with
        | error e => rw [h3] at h; simp at h
        | ok p =>
          rw [h3] at h
          simp only [] at h ⊢
          cases h4 : load s1 p with
          | error e => rw [h4] at h; simp at h
          | ok np =>
            rw [h4] at h
            simp only [] at h ⊢
            cases h5 : np.parent with
            | none => rw [h5] at h; exact h
            | some q =>
              rw [h5] at h
              simp only [] at h ⊢
              exact ih _ _ _ h

theorem expand_children_loop_mono (font_width : List Nat → Nat → Int) :
    ∀ (fuel : Nat) (s : State) (child : Nat) (acc : Int) (r : State × Int),
    expand_children_loop font_width fuel s child acc = .ok r →
    expand_children_loop font_width (fuel + 1) s child acc = .ok r := by
  intro fuel
  induction fuel with
  | zero => intro s b acc r h; simp [expand_children_loop] at h
  | succ f ih =>
    intro s child acc r h
    rw [expand_children_loop] at h ⊢
    simp only [bind, Except.bind] at h ⊢
    cases h1 : load s child with
    | error e => rw [h1] at h; simp at h
    | ok nc =>
      rw [h1] at h
      simp only [] at h ⊢
      cases h2 : c_assert (decide (nc.expanded = false)) with
      | error e => rw [h2] at h; simp at h
      | ok u =>
        rw [h2] at h
        simp only [] at h ⊢
        generalize (if nc.text.value.width = 0 then
            modify s child (fun n => { n with text := { n.text with value :=
              { n.text.value with width := font_width n.text.value.data n.text.value.len } } })
          else pure s) = e3 at h ⊢
        cases e3 with
        | error e => simp at h
        | ok s1 =>
          simp only [] at h ⊢
          cases h4 : load s1 child with
          | error e => rw [h4] at h; simp at h
          | ok nc1 =>
            rw [h4] at h
            simp only [] at h ⊢
            cases h5 : nc1.sibling_next with
            | none => rw [h5] at h; exact h
            | some q =>
              rw [h5] at h
              simp only [] at h ⊢
              exact ih _ _ _ _ h

theorem expand_fields_loop_mono (g : treeview_globals) (font_width : List Nat → Nat → Int)
    (tree : treeview) (node : Nat) :
    ∀ (fuel i : Nat) (s : State) (acc : Int) (r : State × Int),
    expand_fields_loop g font_width tree node fuel i s acc = .ok r →
    expand_fields_loop g font_width tree node (fuel + 1) i s acc = .ok r := by
  intro fuel
  induction fuel with
  | zero => intro i s acc r h; simp [expand_fields_loop] at h
  | succ f ih =>
    intro i s acc r h
    rw [expand_fields_loop] at h ⊢
    by_cases hi : (i : Int) < tree.n_fields - 1
    · simp only [hi, if_true, bind, Except.bind] at h ⊢
      cases h1 : load s node with
      | error e => rw [h1] at h; simp at h
      | ok e =>
        rw [h1] at h
        simp only [] at h ⊢
        generalize (match e.fields.get? i with
          | some f => (pure f : Except Fault treeview_field)
          | none => Except.error Fault.null) = e2 at h ⊢
        cases e2 with
        | error e => simp at h
        | ok fld =>
          simp only [] at h ⊢
          generalize (if fld.value.width = 0 then
              modify s node (fun n => { n with fields := measure_field font_width i n.fields })
            else pure s) = e3 at h ⊢
          cases e3 with
          | error e => simp at h
          | ok s1 =>
            simp only [] at h ⊢
            exact ih _ _ _ _ h
    · simp only [hi, if_false] at h ⊢
      exact h

theorem treeview_node_expand_mono (g : treeview_globals) (font_width : List Nat → Nat → Int)
    (tree : treeview) (fuel : Nat) (s : State) (node : Nat) (r : nserror × State)
    (h : treeview_node_expand g font_width fuel tree s node = .ok r) :
    treeview_node_expand g font_width (fuel + 1) tree s node = .ok r := by
  rw [treeview_node_expand] at h ⊢
  simp only [bind, Except.bind] at h ⊢
  cases h1 : load s node with
  | error e => rw [h1] at h; simp at h
  | ok n =>
    rw [h1] at h
    simp only [] at h ⊢
    by_cases hexp : n.expanded = true
    · simp only [hexp, if_true] at h ⊢
      exact h
    · simp only [hexp, Bool.false_eq_true, if_false] at h ⊢
      cases hty : n.type with
      | TREE_NODE_ROOT => rw [hty] at h; simp at h
      | TREE_NODE_FOLDER =>
        rw [hty] at h
        simp only [] at h ⊢
        cases hch : n.children with
        | none => rw [hch] at h; exact h
        | some c =>
          rw [hch] at h
          simp only [] at h ⊢
          cases h2 : expand_children_loop font_width fuel s c 0 with
          | error e => rw [h2] at h; simp at h
          | ok r2 =>
            rw [h2] at h
            rw [expand_children_loop_mono font_width fuel s c 0 r2 h2]
            simp only [] at h ⊢
            cases h3 : modify r2.1 node (fun x => { x with expanded := true }) with
            | error e => rw [h3] at h; simp at h
            | ok s3 =>
              rw [h3] at h
              simp only [] at h ⊢
              cases h4 : expand_height_loop r2.2 fuel s3 node with
              | error e => rw [h4] at h; simp at h
              | ok r4 =>
                rw [h4] at h
                rw [expand_height_loop_mono r2.2 fuel s3 node r4 h4]
                exact h
      | TREE_NODE_ENTRY =>
        rw [hty] at h
        simp only [] at h ⊢
        cases h0 : c_assert (decide (n.children = none)) with
        | error e => rw [h0] at h; simp at h
        | ok u =>
          rw [h0] at h
          simp only [] at h ⊢
          cases h2 : expand_fields_loop g font_width tree node fuel 0 s 0 with
          | error e => rw [h2] at h; simp at h
          | ok r2 =>
            rw [h2] at h
            rw [expand_fields_loop_mono g font_width tree node fuel 0 s 0 r2 h2]
            simp only [] at h ⊢
            cases h3 : modify r2.1 node (fun x => { x with expanded := true }) with
            | error e => rw [h3] at h; simp at h
            | ok s3 =>
              rw [h3] at h
              simp only [] at h ⊢
              cases h4 : expand_height_loop r2.2 fuel s3 node with
              | error e => rw [h4] at h; simp at h
              | ok r4 =>
                rw [h4] at h
                rw [expand_height_loop_mono r2.2 fuel s3 node r4 h4]
                exact h

theorem treeview_node_expand_mono_le (g : treeview_globals) (font_width : List Nat → Nat → Int)
    (tree : treeview) (fuel fuel' : Nat) (hle : fuel ≤ fuel') (s : State) (node : Nat)
    (r : nserror × State) (h : treeview_node_expand g font_width fuel tree s node = .ok r) :
    treeview_node_expand g font_width fuel' tree s node = .ok r := by
  induction hle with
  | refl => exact h
  | step _ ih => exact treeview_node_expand_mono g font_width tree _ s node r ih

theorem treeview_insert_node_mono_le (g : treeview_globals) (font_width : List Nat → Nat → Int)
    (fuel fuel' : Nat) (hle : fuel ≤ fuel') (s : State) (a b : Nat)
    (rel : treeview_relationship) (r : State)
    (h : treeview_insert_node g font_width fuel s a b rel = .ok r) :
    treeview_insert_node g font_width fuel' s a b rel = .ok r := by
  rw [treeview_insert_node] at h ⊢
  simp only [bind, Except.bind] at h ⊢
  cases h1 : load s a with
  | error e => rw [h1] at h; simp at h
  | ok na =>
    rw [h1] at h
    simp only [] at h ⊢
    cases h2 : c_assert (decide (na.parent = none)) with
    | error e => rw [h2] at h; simp at h
    | ok u =>
      rw [h2] at h
      simp only [] at h ⊢
      cases h3 : load s b with
      | error e => rw [h3] at h; simp at h
      | ok nb =>
        rw [h3] at h
        simp only [] at h ⊢
        cases h4 : insert_link s a b rel with
        | error e => rw [h4] at h; simp at h
        | ok s1 =>
          rw [h4] at h
          simp only [] at h ⊢
          rw [insert_layout] at h ⊢
          simp only [bind, Except.bind] at h ⊢
          cases h5 : load s1 a with
          | error e => rw [h5] at h; simp at h
          | ok na1 =>
            rw [h5] at h
            simp only [] at h ⊢
            cases h6 : c_assert (decide (na1.parent ≠ none)) with
            | error e => rw [h6] at h; simp at h
            | ok u2 =>
              rw [h6] at h
              simp only [] at h ⊢
              cases h7 : ptr na1.parent with
              | error e => rw [h7] at h; simp at h
              | ok p =>
                rw [h7] at h
                simp only [] at h ⊢
                cases h8 : load s1 p with
                | error e => rw [h8] at h; simp at h
                | ok np =>
                  rw [h8] at h
                  simp only [] at h ⊢
                  cases h9 : modify s1 a (fun n => { n with inset := np.inset + g.step_width }) with
                  | error e => rw [h9] at h; simp at h
                  | ok s2 =>
                    rw [h9] at h
                    simp only [] at h ⊢
                    cases h10 : load s2 p with
                    | error e => rw [h10] at h; simp at h
                    | ok np2 =>
                      rw [h10] at h
                      simp only [] at h ⊢
                      by_cases hexp : np2.expanded = true
                      · simp only [hexp, if_true] at h ⊢
                        cases h11 : insert_height_loop fuel s2 a with
                        | error e => rw [h11] at h; simp at h
                        | ok s3 =>
                          rw [h11] at h
                          rw [insert_height_loop_mono_le fuel fuel' hle s2 a s3 h11]
                          exact h
                      · simp only [hexp, Bool.false_eq_true, if_false] at h ⊢
                        exact h

/-! ## Sums of heights over child lists -/

theorem sum_map_bump_one {l : List Nat} (h h' : Nat → Int) (c : Nat) (d : Int)
    (hnd : l.Nodup) (hc : c ∈ l) (hh : ∀ k ∈ l, h' k = h k + (if k = c then d else 0)) :
    (l.map h').sum = (l.map h).sum + d := by
  induction l with
  | nil => simp at hc
  | cons x xs ih =>
    simp only [List.map_cons, List.sum_cons]
    have hx := hh x (List.mem_cons_self _ _)
    have hnd' := List.nodup_cons.mp hnd
    by_cases hxc : x = c
    · subst hxc
      have hrest : xs.map h' = xs.map h := by
        refine List.map_congr_left (fun k hk => ?_)
        have := hh k (List.mem_cons_of_mem _ hk)
        have hne : k ≠ x := by rintro rfl; exact hnd'.1 hk
        simpa [hne] using this
      rw [hrest, hx]
      simp only [if_true]
      ring
    · have hcx : c ∈ xs := by
        simp only [List.mem_cons] at hc
        rcases hc with rfl | hc
        · exact absurd rfl hxc
        · exact hc
      rw [ih hnd'.2 hcx (fun k hk => hh k (List.mem_cons_of_mem _ hk)), hx]
      simp only [if_neg hxc]
      ring

theorem sum_map_same {l : List Nat} (h h' : Nat → Int) (hh : ∀ k ∈ l, h' k = h k) :
    (l.map h').sum = (l.map h).sum := by
  rw [List.map_congr_left hh]

/-! ## The place of a node in an ancestor chain -/

theorem ancPath_parent_mem {s : State} : ∀ (ps : List Nat) (p : Nat), AncPath s p ps →
    ∀ c ∈ p :: ps, ∀ q, parentOf s c = some q → q ∈ ps := by
  intro ps
  induction ps with
  | nil =>
    intro p h c hc q hq
    simp only [List.mem_singleton] at hc
    subst hc
    simp only [AncPath] at h
    unfold parentOf at hq
    cases hp : s.heap c with
    | none => rw [hp] at hq; simp at hq
    | some n =>
      rw [hp] at h hq
      simp only [] at h hq
      rw [h] at hq
      simp at hq
  | cons q' qs ih =>
    intro p h c hc q hq
    simp only [List.mem_cons] at hc
    rcases hc with rfl | hc
    · have h1 := h.1
      unfold parentOf at hq
      cases hp : s.heap c with
      | none => rw [hp] at hq; simp at hq
      | some n =>
        rw [hp] at h1 hq
        simp only [] at h1 hq
        rw [h1] at hq
        simp only [Option.some.injEq] at hq
        simp [← hq]
    · exact List.mem_cons_of_mem _ (ih q' h.2 c (by simpa using hc) q hq)

/-- On the chain of a node and its ancestors, each ancestor has exactly one
child. -/
theorem ancPath_child_unique {s : State} : ∀ (path : List Nat) (c0 : Nat), AncPath s c0 path →
    ∀ k ∈ path, ∃ c, c ∈ c0 :: path ∧ parentOf s c = some k ∧
      ∀ c' ∈ c0 :: path, parentOf s c' = some k → c' = c := by
  intro path
  induction path with
  | nil => intro _ _ k hk; simp at hk
  | cons p ps ih =>
    intro c0 h k hk
    have hnd := AncPath_nodup _ _ h
    have hnd2 : (p :: ps).Nodup := (List.nodup_cons.mp hnd).2
    have hpps : p ∉ ps := (List.nodup_cons.mp hnd2).1
    have hc0 : parentOf s c0 = some p := by
      have h1 := h.1
      unfold parentOf
      cases hp : s.heap c0 with
      | none => rw [hp] at h1; exact h1.elim
      | some n => rw [hp] at h1; exact h1
    by_cases hkp : k = p
    · subst hkp
      refine ⟨c0, List.mem_cons_self _ _, hc0, ?_⟩
      intro c' hc' hpar
      simp only [List.mem_cons] at hc'
      rcases hc' with rfl | hc'
      · rfl
      · exact absurd (ancPath_parent_mem ps k h.2 c' (by simpa using hc') k hpar) hpps
    · have hkps : k ∈ ps := by
        simp only [List.mem_cons] at hk
        rcases hk with rfl | hk
        · exact absurd rfl hkp
        · exact hk
      obtain ⟨c, hc, hcpar, huniq⟩ := ih p h.2 k hkps
      refine ⟨c, List.mem_cons_of_mem _ hc, hcpar, ?_⟩
      intro c' hc' hpar
      simp only [List.mem_cons] at hc'
      rcases hc' with rfl | hc'
      · rw [hc0] at hpar
        simp only [Option.some.injEq] at hpar
        exact absurd hpar.symm hkp
      · exact huniq c' (by simpa using hc') hpar

/-! ## What an expansion leaves of the invariant -/

/-- The description `expand_core` gives of the memory after an expansion, read
node by node. -/
theorem expand_desc_get {s s' : State} {node : Nat} {l : List Nat} {d : Int}
    (hdesc : ∀ a, (s'.heap a).map core = (s.heap a).map (fun x => core { x with
      expanded := x.expanded || decide (a = node),
      height := x.height + (if a ∈ l then d else 0) }))
    (a : Nat) :
    (s.heap a = none → s'.heap a = none) ∧
    ∀ x, s.heap a = some x → ∃ x', s'.heap a = some x' ∧
      x'.expanded = (x.expanded || decide (a = node)) ∧ x'.type = x.type ∧
      x'.height = x.height + (if a ∈ l then d else 0) ∧ x'.parent = x.parent ∧
      x'.children = x.children ∧ x'.sibling_next = x.sibling_next ∧
      x'.fields.length = x.fields.length := by
  have := hdesc a
  constructor
  · intro h
    rw [h] at this
    cases hs : s'.heap a with
    | none => rfl
    | some x' => rw [hs] at this; simp at this
  · intro x hx
    rw [hx] at this
    cases hs : s'.heap a with
    | none => rw [hs] at this; simp at this
    | some x' =>
      rw [hs] at this
      simp only [Option.map_some', Option.some.injEq, core, Prod.mk.injEq] at this
      obtain ⟨e1, _, e3, e4, _, e6, _, e8, e9, _, e11⟩ := this
      exact ⟨x', rfl, e1, e3, e4, e6, e9, e8, e11⟩

theorem expand_desc_alloc {s s' : State} {node : Nat} {l : List Nat} {d : Int}
    (hdesc : ∀ a, (s'.heap a).map core = (s.heap a).map (fun x => core { x with
      expanded := x.expanded || decide (a = node),
      height := x.height + (if a ∈ l then d else 0) }))
    (a : Nat) (x' : treeview_node) (h : s'.heap a = some x') :
    ∃ x, s.heap a = some x ∧
      x'.expanded = (x.expanded || decide (a = node)) ∧ x'.type = x.type ∧
      x'.height = x.height + (if a ∈ l then d else 0) ∧ x'.parent = x.parent ∧
      x'.children = x.children ∧ x'.sibling_next = x.sibling_next ∧
      x'.fields.length = x.fields.length := by
  cases hs : s.heap a with
  | none =>
    rw [(expand_desc_get hdesc a).1 hs] at h
    simp at h
  | some x =>
    obtain ⟨x'', hx'', rest⟩ := (expand_desc_get hdesc a).2 x hs
    rw [hx''] at h
    simp only [Option.some.injEq] at h
    subst h
    exact ⟨x, rfl, rest⟩

theorem expand_desc_proj {α : Type} (f : treeview_node → α) {s s' : State} {node : Nat}
    {l : List Nat} {d : Int}
    (hdesc : ∀ a, (s'.heap a).map core = (s.heap a).map (fun x => core { x with
      expanded := x.expanded || decide (a = node),
      height := x.height + (if a ∈ l then d else 0) }))
    (hf : ∀ x x' : treeview_node, x'.parent = x.parent → x'.children = x.children →
      x'.sibling_next = x.sibling_next → f x' = f x) (a : Nat) :
    (s'.heap a).map f = (s.heap a).map f := by
  cases hs : s.heap a with
  | none => rw [(expand_desc_get hdesc a).1 hs]
  | some x =>
    obtain ⟨x', hx', _, _, _, e1, e2, e3, _⟩ := (expand_desc_get hdesc a).2 x hs
    rw [hx']
    simp only [Option.map_some', Option.some.injEq]
    exact hf x x' e1 e2 e3

theorem expand_desc_height {s s' : State} {node : Nat} {l : List Nat} {d : Int}
    (hdesc : ∀ a, (s'.heap a).map core = (s.heap a).map (fun x => core { x with
      expanded := x.expanded || decide (a = node),
      height := x.height + (if a ∈ l then d else 0) }))
    (hl : ∀ a ∈ l, s.heap a ≠ none) (a : Nat) :
    heightOf s' a = heightOf s a + (if a ∈ l then d else 0) := by
  cases hs : s.heap a with
  | none =>
    have : a ∉ l := fun h => hl a h hs
    simp [heightOf, hs, (expand_desc_get hdesc a).1 hs, this]
  | some x =>
    obtain ⟨x', hx', _, _, e, _⟩ := (expand_desc_get hdesc a).2 x hs
    simp [heightOf, hs, hx', e]
theorem parentOf_some_alloc {s : State} {k a : Nat} (h : parentOf s k = some a) :
    s.heap k ≠ none := by
  intro h0
  simp [parentOf, h0] at h

/-- After the heights of a node and its ancestors have all been raised by `d`,
the heights of the children of a node `a` sum to `d` more when `a` is one of
the ancestors, and to the same otherwise. -/
theorem sum_kids_after_bump {s s' : State} {node : Nat} {path : List Nat} {d : Int}
    (hpath : AncPath s node path)
    (hh : ∀ a, heightOf s' a = heightOf s a + (if a ∈ node :: path then d else 0))
    (a : Nat) (kids : List Nat) (hnd : kids.Nodup)
    (hmem : ∀ k, k ∈ kids ↔ parentOf s k = some a) :
    (kids.map (heightOf s')).sum = (kids.map (heightOf s)).sum + (if a ∈ path then d else 0) := by
  by_cases ha : a ∈ path
  · rw [if_pos ha]
    obtain ⟨c, hc, hcpar, huniq⟩ := ancPath_child_unique path node hpath a ha
    refine sum_map_bump_one _ _ c d hnd ((hmem c).mpr hcpar) ?_
    intro k hk
    rw [hh k]
    by_cases hkc : k = c
    · subst hkc
      simp [hc]
    · have : k ∉ node :: path := fun h => hkc (huniq k h ((hmem k).mp hk))
      simp [this, hkc]
  · rw [if_neg ha, add_zero]
    refine sum_map_same _ _ ?_
    intro k hk
    rw [hh k]
    have : k ∉ node :: path := by
      intro h
      exact ha (ancPath_parent_mem path node hpath k h a ((hmem k).mp hk))
    simp [this]

theorem treeInv_of_expand (g : treeview_globals) (tree : treeview) (s s' : State) (node : Nat)
    (n : treeview_node) (path kids : List Nat) (d : Int)
    (hinv : TreeInv g tree s) (hn : s.heap node = some n) (hcol : n.expanded = false)
    (hpath : AncPath s node path)
    (hpvis : ∀ p ∈ path, ∀ np, s.heap p = some np → np.expanded = true)
    (hkids : ChildChain s n.children kids)
    (hd : n.type = .TREE_NODE_FOLDER → d = (kids.map (heightOf s)).sum)
    (hdesc : ∀ a, (s'.heap a).map core = (s.heap a).map (fun x => core { x with
      expanded := x.expanded || decide (a = node),
      height := x.height + (if a ∈ node :: path then d else 0) })) :
    TreeInv g tree s' := by
  have hnd := AncPath_nodup _ _ hpath
  have hnode_path : node ∉ path := (List.nodup_cons.mp hnd).1
  have hlalloc : ∀ a ∈ node :: path, s.heap a ≠ none := by
    intro a ha
    simp only [List.mem_cons] at ha
    rcases ha with rfl | ha
    · rw [hn]; simp
    · exact AncPath_alloc _ _ hpath a ha
  have hh := expand_desc_height hdesc hlalloc
  have hpar : ∀ a, (s'.heap a).map (fun x => x.parent) = (s.heap a).map (fun x => x.parent) :=
    expand_desc_proj (fun x => x.parent) hdesc (fun _ _ h _ _ => h)
  have hnext : ∀ a, (s'.heap a).map (fun x => x.sibling_next) =
      (s.heap a).map (fun x => x.sibling_next) :=
    expand_desc_proj (fun x => x.sibling_next) hdesc (fun _ _ _ _ h => h)
  have hpar' : ∀ a, (s.heap a).map (fun x => x.parent) = (s'.heap a).map (fun x => x.parent) :=
    fun a => (hpar a).symm
  have hnext' : ∀ a, (s.heap a).map (fun x => x.sibling_next) =
      (s'.heap a).map (fun x => x.sibling_next) := fun a => (hnext a).symm
  have hparentOf : ∀ a, parentOf s' a = parentOf s a := fun a => parentOf_eq (hpar a)
  have hchain : ∀ first l, ChildChain s' first l ↔ ChildChain s first l := by
    intro first l
    constructor
    · exact ChildChain_congr hnext' l first
    · exact ChildChain_congr hnext l first
  obtain ⟨r, hr, hrpar, hrexp, hrty⟩ := hinv.root
  have hnode_root : node ≠ tree.root := by
    rintro rfl
    rw [hn] at hr
    simp only [Option.some.injEq] at hr
    subst hr
    rw [hcol] at hrexp
    simp at hrexp
  have hroot_path : tree.root ∈ path := by
    obtain ⟨path', hp', hlast⟩ := hinv.paths node (by rw [hn]; simp)
    have := AncPath_unique _ _ _ hpath hp'
    subst this
    cases path with
    | nil =>
      simp only [List.getLast?_singleton, Option.some.injEq] at hlast
      exact absurd hlast hnode_root
    | cons p ps =>
      rw [List.getLast?_cons_cons] at hlast
      exact List.mem_of_getLast?_eq_some hlast
  have hsum : ∀ a x, s.heap a = some x → ∀ l, ChildChain s x.children l →
      (l.map (heightOf s')).sum = (l.map (heightOf s)).sum + (if a ∈ path then d else 0) := by
    intro a x hx l hl
    obtain ⟨l', hl', hmem⟩ := hinv.kids a x hx
    have : l = l' := ChainTo_unique _ _ _ ((ChildChain_iff_ChainTo s _ _).mp hl)
      ((ChildChain_iff_ChainTo s _ _).mp hl')
    subst this
    exact sum_kids_after_bump hpath hh a l (ChildChain_nodup _ _ hl) hmem
  refine ⟨hinv.nf, ?_, ?_, ?_, ?_, ?_, ?_, ?_, ?_, ?_⟩
  · obtain ⟨r', hr', e1, e2, _, e4, _⟩ := (expand_desc_get hdesc tree.root).2 r hr
    exact ⟨r', hr', by rw [e4, hrpar], by rw [e1, hrexp]; rfl, by rw [e2, hrty]⟩
  · intro a ha
    have ha0 : s.heap a ≠ none := fun h => ha ((expand_desc_get hdesc a).1 h)
    obtain ⟨p, hp, hlast⟩ := hinv.paths a ha0
    exact ⟨p, AncPath_congr hpar _ _ hp, hlast⟩
  · intro a x' hx'
    obtain ⟨x, hx, _, _, _, _, ech, _⟩ := expand_desc_alloc hdesc a x' hx'
    obtain ⟨l, hl, hmem⟩ := hinv.kids a x hx
    refine ⟨l, ?_, fun k => ?_⟩
    · rw [ech]
      exact (hchain _ _).mpr hl
    · rw [hparentOf]
      exact hmem k
  · intro a x' hx' hty
    obtain ⟨x, hx, _, ety, _, _, ech, _, efl⟩ := expand_desc_alloc hdesc a x' hx'
    rw [ech, efl]
    exact hinv.entry a x hx (by rw [← ety]; exact hty)
  · intro a x' hx' hty
    obtain ⟨x, hx, _, ety, _⟩ := expand_desc_alloc hdesc a x' hx'
    exact hinv.kind a x hx (by rw [← ety]; exact hty)
  · intro a x' hx' hexp hne
    obtain ⟨x, hx, eexp, _, _, epar, _⟩ := expand_desc_alloc hdesc a x' hx'
    have hparent_ok : ∀ p np, x.parent = some p → s.heap p = some np → np.expanded = true →
        ∃ p np, x'.parent = some p ∧ s'.heap p = some np ∧ np.expanded = true := by
      intro p np h1 h2 h3
      obtain ⟨np', hnp', e1, _⟩ := (expand_desc_get hdesc p).2 np h2
      exact ⟨p, np', by rw [epar, h1], hnp', by rw [e1, h3]; rfl⟩
    by_cases han : a = node
    · subst han
      rw [hn] at hx
      simp only [Option.some.injEq] at hx
      subst hx
      cases path with
      | nil => simp at hroot_path
      | cons p ps =>
        have h1 : n.parent = some p := by
          have := hpath.1
          rw [hn] at this
          exact this
        obtain ⟨np, hnp⟩ := Option.ne_none_iff_exists'.mp
          (AncPath_alloc _ _ hpath p (List.mem_cons_self _ _))
        exact hparent_ok p np h1 hnp (hpvis p (List.mem_cons_self _ _) np hnp)
    · have hxe : x.expanded = true := by
        rw [eexp] at hexp
        simpa [han] using hexp
      obtain ⟨p, np, h1, h2, h3⟩ := hinv.vis a x hx hxe hne
      exact hparent_ok p np h1 h2 h3
  · intro a x' hx' hexp
    obtain ⟨x, hx, eexp, _, eh, _⟩ := expand_desc_alloc hdesc a x' hx'
    rw [eexp] at hexp
    simp only [Bool.or_eq_false_iff, decide_eq_false_iff_not] at hexp
    obtain ⟨hxe, han⟩ := hexp
    have hap : a ∉ node :: path := by
      intro h
      simp only [List.mem_cons] at h
      rcases h with h | h
      · exact han h
      · have := hpvis a h x hx
        rw [hxe] at this
        simp at this
    rw [eh, if_neg hap, add_zero]
    exact hinv.coll a x hx hxe
  · intro a x' hx' hexp hty l hl
    obtain ⟨x, hx, eexp, ety, eh, _, ech, _⟩ := expand_desc_alloc hdesc a x' hx'
    rw [ech] at hl
    have hl0 := (hchain _ _).mp hl
    rw [hsum a x hx l hl0, eh]
    by_cases han : a = node
    · subst han
      rw [hn] at hx
      simp only [Option.some.injEq] at hx
      subst hx
      have hl' : l = kids := ChainTo_unique _ _ _ ((ChildChain_iff_ChainTo s _ _).mp hl0)
        ((ChildChain_iff_ChainTo s _ _).mp hkids)
      subst hl'
      rw [hinv.coll a n hn hcol, if_pos (List.mem_cons_self _ _), if_neg hnode_path,
        hd (by rw [← ety]; exact hty)]
      ring
    · have hxe : x.expanded = true := by
        rw [eexp] at hexp
        simpa [han] using hexp
      rw [hinv.folder a x hx hxe (by rw [← ety]; exact hty) l hl0]
      have : (a ∈ node :: path) ↔ a ∈ path := by
        simp [han]
      by_cases hap : a ∈ path
      · rw [if_pos (this.mpr hap), if_pos hap]
        ring
      · rw [if_neg (fun h => hap (this.mp h)), if_neg hap]
        ring
  · intro l hl
    obtain ⟨r', hr', _, _, _, _, ech, _⟩ := (expand_desc_get hdesc tree.root).2 r hr
    have hl1 : ChildChain s' r.children l := by
      have : childrenOf s' tree.root = r.children := by simp [childrenOf, hr', ech]
      rw [← this]
      exact hl
    have hl0 := (hchain _ _).mp hl1
    rw [hsum tree.root r hr l hl0, hh tree.root, if_pos (List.mem_cons_of_mem _ hroot_path),
      if_pos hroot_path]
    have : ChildChain s (childrenOf s tree.root) l := by
      have : childrenOf s tree.root = r.children := by simp [childrenOf, hr]
      rw [this]
      exact hl0
    rw [hinv.top l this]

theorem treeInv_expand_step (g : treeview_globals) (font_width : List Nat → Nat → Int)
    (tree : treeview) (s s' : State) (fuel node : Nat)
    (hinv : TreeInv g tree s) (hvis : Visible s node)
    (h : treeview_node_expand g font_width fuel tree s node = .ok (.NSERROR_OK, s')) :
    TreeInv g tree s' := by
  obtain ⟨path, hpath, hpvis⟩ := hvis
  cases hn : s.heap node with
  | none =>
    rw [treeview_node_expand] at h
    simp [load, hn, bind, Except.bind] at h
  | some n =>
    obtain ⟨r, hr, hrpar, hrexp, hrty⟩ := hinv.root
    obtain ⟨kids, hkids, hmem⟩ := hinv.kids node n hn
    cases hexp : n.expanded with
    | true =>
      rw [treeview_node_expand] at h
      simp only [load_ok hn, bind, Except.bind, hexp, if_true, pure, Except.pure,
        Except.ok.injEq, Prod.mk.injEq, true_and] at h
      subst h
      exact hinv
    | false =>
      have hnode_root : node ≠ tree.root := by
        rintro rfl
        rw [hn] at hr
        simp only [Option.some.injEq] at hr
        subst hr
        rw [hexp] at hrexp
        simp at hrexp
      have hne : path ≠ [] := by
        rintro rfl
        obtain ⟨path', hp', hlast⟩ := hinv.paths node (by rw [hn]; simp)
        have := AncPath_unique _ _ _ hpath hp'
        subst this
        simp only [List.getLast?_singleton, Option.some.injEq] at hlast
        exact hnode_root hlast
      have hkind : (n.type = .TREE_NODE_FOLDER ∧ kids ≠ [] ∧
            ∀ k ∈ kids, ∀ x, s.heap k = some x → x.expanded = false) ∨
          (n.type = .TREE_NODE_ENTRY ∧ kids = [] ∧ 1 ≤ tree.n_fields ∧
            tree.n_fields - 1 ≤ n.fields.length) ∨
          s' = s := by
        cases hty : n.type with
        | TREE_NODE_ROOT =>
          rw [treeview_node_expand] at h
          simp [load_ok hn, bind, Except.bind, hexp, hty] at h
        | TREE_NODE_FOLDER =>
          cases hch : n.children with
          | none =>
            rw [treeview_node_expand] at h
            simp only [load_ok hn, bind, Except.bind, hexp, hty, hch, pure, Except.pure,
              Except.ok.injEq, Prod.mk.injEq, true_and] at h
            exact Or.inr (Or.inr (by simpa using h.symm))
          | some c =>
            refine Or.inl ⟨rfl, ?_, ?_⟩
            · rintro rfl
              rw [hch] at hkids
              simp [ChildChain] at hkids
            · intro k hk x hx
              cases hxe : x.expanded with
              | false => rfl
              | true =>
                have hkp : parentOf s k = some node := (hmem k).mp hk
                have hkr : k ≠ tree.root := by
                  rintro rfl
                  simp [parentOf, hr, hrpar] at hkp
                obtain ⟨p, np, h1, h2, h3⟩ := hinv.vis k x hx hxe hkr
                simp only [parentOf, hx, h1, Option.some.injEq] at hkp
                subst hkp
                rw [hn] at h2
                simp only [Option.some.injEq] at h2
                subst h2
                rw [hexp] at h3
                simp at h3
        | TREE_NODE_ENTRY =>
          obtain ⟨hch, hlen⟩ := hinv.entry node n hn hty
          refine Or.inr (Or.inl ⟨rfl, ?_, hinv.nf, ?_⟩)
          · rw [hch] at hkids
            cases kids with
            | nil => rfl
            | cons c cs => simp [ChildChain] at hkids
          · rw [hlen]
            have := hinv.nf
            omega
      rcases hkind with hk | hk | hk
      · obtain ⟨s'', hrun, _, hdesc⟩ := expand_core g font_width tree s node n path kids
          (max fuel (path.length + kids.length + (tree.n_fields - 1).toNat + 1))
          hn hexp hpath hne hkids (Or.inl hk) (le_max_right _ _)
        have h' := treeview_node_expand_mono_le g font_width tree fuel
          (max fuel (path.length + kids.length + (tree.n_fields - 1).toNat + 1))
          (le_max_left _ _) s node _ h
        rw [hrun] at h'
        simp only [Except.ok.injEq, Prod.mk.injEq, true_and] at h'
        subst h'
        exact treeInv_of_expand g tree s s'' node n path kids _ hinv hn hexp hpath hpvis hkids
          (fun hty => by simp [expand_amount, hty]) hdesc
      · obtain ⟨s'', hrun, _, hdesc⟩ := expand_core g font_width tree s node n path kids
          (max fuel (path.length + kids.length + (tree.n_fields - 1).toNat + 1))
          hn hexp hpath hne hkids (Or.inr hk) (le_max_right _ _)
        have h' := treeview_node_expand_mono_le g font_width tree fuel
          (max fuel (path.length + kids.length + (tree.n_fields - 1).toNat + 1))
          (le_max_left _ _) s node _ h
        rw [hrun] at h'
        simp only [Except.ok.injEq, Prod.mk.injEq, true_and] at h'
        subst h'
        exact treeInv_of_expand g tree s s'' node n path kids _ hinv hn hexp hpath hpvis hkids
          (fun hty => by simp [expand_amount, hty]) hdesc
      · subst hk
        exact hinv

/-! ## The invariant across an insertion -/

theorem ChildChain_congr_on {s s' : State} : ∀ (l : List Nat) (first : Option Nat),
    (∀ k ∈ l, (s'.heap k).map (fun n => n.sibling_next) =
      (s.heap k).map (fun n => n.sibling_next)) →
    ChildChain s first l → ChildChain s' first l := by
  intro l
  induction l with
  | nil => intro first _ h; exact h
  | cons c cs ih =>
    intro first h hc
    simp only [ChildChain] at hc ⊢
    refine ⟨hc.1, ?_⟩
    have h1 := h c (List.mem_cons_self _ _)
    have h2 := hc.2
    cases e1 : s.heap c with
    | none => rw [e1] at h2; exact h2.elim
    | some x =>
      rw [e1] at h2 h1
      cases e2 : s'.heap c with
      | none => rw [e2] at h1; simp at h1
      | some x' =>
        rw [e2] at h1
        simp only [Option.map_some', Option.some.injEq] at h1
        simp only
        rw [h1]
        exact ih _ (fun k hk => h k (List.mem_cons_of_mem _ hk)) h2

/-- The invariant survives the insertion of a new collapsed node `a` of one
row below a parent `P` that is the root or collapsed, described by what the
insertion does to the records. -/
theorem treeInv_of_insert (g : treeview_globals) (tree : treeview) (s s' : State) (a P : Nat)
    (nP na' : treeview_node)
    (hinv : TreeInv g tree s) (hfresh : s.heap a = none) (hP : s.heap P = some nP)
    (hcase : P = tree.root ∨ nP.expanded = false)
    (hPty : nP.type ≠ .TREE_NODE_ENTRY)
    (ha' : s'.heap a = some na') (hapar : na'.parent = some P) (haexp : na'.expanded = false)
    (hah : na'.height = g.line_height) (hach : na'.children = none)
    (haty : na'.type ≠ .TREE_NODE_ROOT)
    (hafl : na'.type = .TREE_NODE_ENTRY → na'.fields.length = (tree.n_fields - 1).toNat)
    (hold : ∀ k x, s.heap k = some x → ∃ x', s'.heap k = some x' ∧ x'.expanded = x.expanded ∧
      x'.type = x.type ∧ x'.parent = x.parent ∧ x'.fields.length = x.fields.length ∧
      x'.height = x.height + (if k = P ∧ x.expanded = true then g.line_height else 0) ∧
      (k ≠ P → x'.children = x.children))
    (hnone : ∀ k, k ≠ a → s.heap k = none → s'.heap k = none)
    (hnext : ∀ k, k ≠ a → parentOf s k ≠ some P →
      (s'.heap k).map (fun n => n.sibling_next) = (s.heap k).map (fun n => n.sibling_next))
    (hPkids : ∀ kids, ChildChain s nP.children kids →
      ∃ kids', ChildChain s' (childrenOf s' P) kids' ∧ kids'.Perm (a :: kids)) :
    TreeInv g tree s' := by
  obtain ⟨r, hr, hrpar, hrexp, hrty⟩ := hinv.root
  have haP : a ≠ P := by
    rintro rfl
    rw [hfresh] at hP
    simp at hP
  have hparA0 : parentOf s a = none := by simp [parentOf, hfresh]
  have hparA : parentOf s' a = some P := by simp [parentOf, ha', hapar]
  have hparmap : ∀ k, k ≠ a →
      (s'.heap k).map (fun n => n.parent) = (s.heap k).map (fun n => n.parent) := by
    intro k hk
    cases e : s.heap k with
    | none => rw [hnone k hk e]
    | some x =>
      obtain ⟨x', hx', _, _, e3, _⟩ := hold k x e
      rw [hx']
      simp [e3]
  have hparOf : ∀ k, k ≠ a → parentOf s' k = parentOf s k := fun k hk =>
    parentOf_eq (hparmap k hk)
  have hno_a : ∀ k, parentOf s k ≠ some a := by
    intro k hk
    obtain ⟨path, hpath, _⟩ := hinv.paths k (parentOf_some_alloc hk)
    have := ancPath_parent_mem path k hpath k (List.mem_cons_self _ _) a hk
    exact AncPath_alloc _ _ hpath a this hfresh
  have hPexp_root : nP.expanded = true → P = tree.root := by
    intro h
    rcases hcase with h1 | h1
    · exact h1
    · rw [h1] at h
      simp at h
  have hrootpar : parentOf s tree.root = none := by simp [parentOf, hr, hrpar]
  have hh : ∀ k, k ≠ a → heightOf s' k =
      heightOf s k + (if k = P ∧ nP.expanded = true then g.line_height else 0) := by
    intro k hk
    cases e : s.heap k with
    | none =>
      have hkP : k ≠ P := by
        rintro rfl
        rw [hP] at e
        simp at e
      simp [heightOf, e, hnone k hk e, hkP]
    | some x =>
      obtain ⟨x', hx', _, _, _, _, e5, _⟩ := hold k x e
      simp only [heightOf, hx', e, e5]
      by_cases hkP : k = P
      · subst hkP
        rw [hP] at e
        simp only [Option.some.injEq] at e
        subst e
        rfl
      · simp [hkP]
  have hkid_h : ∀ k p, parentOf s k = some p → heightOf s' k = heightOf s k := by
    intro k p hk
    have hka : k ≠ a := by
      rintro rfl
      rw [hparA0] at hk
      simp at hk
    rw [hh k hka, if_neg, add_zero]
    rintro ⟨rfl, hexp⟩
    rw [hPexp_root hexp, hrootpar] at hk
    simp at hk
  have hsum_same : ∀ (p : Nat) (kids : List Nat), (∀ c ∈ kids, parentOf s c = some p) →
      (kids.map (heightOf s')).sum = (kids.map (heightOf s)).sum := by
    intro p kids h
    exact sum_map_same _ _ (fun c hc => hkid_h c p (h c hc))
  have halloc_ne : ∀ k, s.heap k ≠ none → k ≠ a := by
    rintro k hk rfl
    exact hk hfresh
  have hpath_tr : ∀ k path, AncPath s k path → AncPath s' k path := by
    intro k path hpath
    refine AncPath_congr_on _ _ ?_ hpath
    intro c hc
    refine hparmap c (halloc_ne c ?_)
    simp only [List.mem_cons] at hc
    rcases hc with rfl | hc
    · exact AncPath_self_alloc _ _ hpath
    · exact AncPath_alloc _ _ hpath c hc
  have hchain_tr : ∀ (p : Nat) (kids : List Nat) (first : Option Nat), p ≠ P → ChildChain s first kids →
      (∀ c, c ∈ kids → parentOf s c = some p) → ChildChain s' first kids := by
    intro p kids first hpP hch hmem
    refine ChildChain_congr_on _ _ ?_ hch
    intro c hc
    have hcp := hmem c hc
    refine hnext c (halloc_ne c (parentOf_some_alloc hcp)) ?_
    rw [hcp]
    simpa using hpP
  have hback : ∀ k, k ≠ a → ∀ x', s'.heap k = some x' → ∃ x, s.heap k = some x := by
    intro k hk x' hx'
    cases e : s.heap k with
    | none => rw [hnone k hk e] at hx'; simp at hx'
    | some x => exact ⟨x, rfl⟩
  refine ⟨hinv.nf, ?_, ?_, ?_, ?_, ?_, ?_, ?_, ?_, ?_⟩
  · obtain ⟨r', hr', e1, e2, e3, _⟩ := hold tree.root r hr
    exact ⟨r', hr', by rw [e3, hrpar], by rw [e1, hrexp], by rw [e2, hrty]⟩
  · intro k hk
    by_cases hka : k = a
    · subst hka
      obtain ⟨pathP, hpathP, hlast⟩ := hinv.paths P (by rw [hP]; simp)
      refine ⟨P :: pathP, ⟨?_, hpath_tr P pathP hpathP⟩, ?_⟩
      · rw [ha']
        exact hapar
      · rw [List.getLast?_cons_cons]
        exact hlast
    · have hk0 : s.heap k ≠ none := fun h => hk (hnone k hka h)
      obtain ⟨path, hpath, hlast⟩ := hinv.paths k hk0
      exact ⟨path, hpath_tr k path hpath, hlast⟩
  · intro k x' hx'
    by_cases hka : k = a
    · subst hka
      rw [ha'] at hx'
      simp only [Option.some.injEq] at hx'
      subst hx'
      refine ⟨[], by rw [hach]; rfl, fun c => ?_⟩
      simp only [List.not_mem_nil, false_iff]
      by_cases hck : c = k
      · subst hck
        rw [hparA]
        simpa using Ne.symm haP
      · rw [hparOf c hck]
        exact hno_a c
    · obtain ⟨x, hx⟩ := hback k hka x' hx'
      obtain ⟨x'', hx'', _, _, _, _, _, ech⟩ := hold k x hx
      rw [hx'] at hx''
      simp only [Option.some.injEq] at hx''
      subst hx''
      obtain ⟨kids, hkids, hmem⟩ := hinv.kids k x hx
      by_cases hkP : k = P
      · subst hkP
        rw [hP] at hx
        simp only [Option.some.injEq] at hx
        subst hx
        obtain ⟨kids', hk', hperm⟩ := hPkids kids hkids
        refine ⟨kids', ?_, fun c => ?_⟩
        · simpa [childrenOf, hx'] using hk'
        · rw [hperm.mem_iff, List.mem_cons, hmem c]
          by_cases hca : c = a
          · subst hca
            simp [hparA]
          · rw [hparOf c hca]
            simp [hca]
      · refine ⟨kids, ?_, fun c => ?_⟩
        · rw [ech hkP]
          exact hchain_tr k kids _ hkP hkids (fun c hc => (hmem c).mp hc)
        · rw [hmem c]
          by_cases hca : c = a
          · subst hca
            rw [hparA, hparA0]
            simp [Ne.symm hkP]
          · rw [hparOf c hca]
  · intro k x' hx' hty
    by_cases hka : k = a
    · subst hka
      rw [ha'] at hx'
      simp only [Option.some.injEq] at hx'
      subst hx'
      exact ⟨hach, hafl hty⟩
    · obtain ⟨x, hx⟩ := hback k hka x' hx'
      obtain ⟨x'', hx'', _, ety, _, efl, _, ech⟩ := hold k x hx
      rw [hx'] at hx''
      simp only [Option.some.injEq] at hx''
      subst hx''
      have hkP : k ≠ P := by
        rintro rfl
        rw [hP] at hx
        simp only [Option.some.injEq] at hx
        subst hx
        rw [ety] at hty
        exact hPty hty
      rw [ech hkP, efl]
      exact hinv.entry k x hx (by rw [← ety]; exact hty)
  · intro k x' hx' hty
    by_cases hka : k = a
    · subst hka
      rw [ha'] at hx'
      simp only [Option.some.injEq] at hx'
      subst hx'
      exact absurd hty haty
    · obtain ⟨x, hx⟩ := hback k hka x' hx'
      obtain ⟨x'', hx'', _, ety, _⟩ := hold k x hx
      rw [hx'] at hx''
      simp only [Option.some.injEq] at hx''
      subst hx''
      exact hinv.kind k x hx (by rw [← ety]; exact hty)
  · intro k x' hx' hexp hne
    by_cases hka : k = a
    · subst hka
      rw [ha'] at hx'
      simp only [Option.some.injEq] at hx'
      subst hx'
      rw [haexp] at hexp
      simp at hexp
    · obtain ⟨x, hx⟩ := hback k hka x' hx'
      obtain ⟨x'', hx'', eexp, _, epar, _⟩ := hold k x hx
      rw [hx'] at hx''
      simp only [Option.some.injEq] at hx''
      subst hx''
      obtain ⟨p, np, h1, h2, h3⟩ := hinv.vis k x hx (by rw [← eexp]; exact hexp) hne
      obtain ⟨np', hnp', e1, _⟩ := hold p np h2
      exact ⟨p, np', by rw [epar, h1], hnp', by rw [e1, h3]⟩
  · intro k x' hx' hexp
    by_cases hka : k = a
    · subst hka
      rw [ha'] at hx'
      simp only [Option.some.injEq] at hx'
      subst hx'
      exact hah
    · obtain ⟨x, hx⟩ := hback k hka x' hx'
      obtain ⟨x'', hx'', eexp, _, _, _, eh, _⟩ := hold k x hx
      rw [hx'] at hx''
      simp only [Option.some.injEq] at hx''
      subst hx''
      have hxe : x.expanded = false := by rw [← eexp]; exact hexp
      rw [eh, hxe]
      simp only [Bool.false_eq_true, and_false, if_false, add_zero]
      exact hinv.coll k x hx hxe
  · intro k x' hx' hexp hty l hl
    by_cases hka : k = a
    · subst hka
      rw [ha'] at hx'
      simp only [Option.some.injEq] at hx'
      subst hx'
      rw [haexp] at hexp
      simp at hexp
    · obtain ⟨x, hx⟩ := hback k hka x' hx'
      obtain ⟨x'', hx'', eexp, ety, _, _, eh, ech⟩ := hold k x hx
      rw [hx'] at hx''
      simp only [Option.some.injEq] at hx''
      subst hx''
      have hxe : x.expanded = true := by rw [← eexp]; exact hexp
      have hxt : x.type = .TREE_NODE_FOLDER := by rw [← ety]; exact hty
      have hkP : k ≠ P := by
        rintro rfl
        rw [hP] at hx
        simp only [Option.some.injEq] at hx
        subst hx
        have := hinv.kind _ _ hr hrty
        have h2 := hPexp_root hxe
        subst h2
        rw [hP] at hr
        simp only [Option.some.injEq] at hr
        subst hr
        rw [hrty] at hxt
        simp at hxt
      obtain ⟨kids, hkids, hmem⟩ := hinv.kids k x hx
      have hk' : ChildChain s' x'.children kids := by
        rw [ech hkP]
        exact hchain_tr k kids _ hkP hkids (fun c hc => (hmem c).mp hc)
      have : l = kids := ChainTo_unique _ _ _ ((ChildChain_iff_ChainTo s' _ _).mp hl)
        ((ChildChain_iff_ChainTo s' _ _).mp hk')
      subst this
      rw [hsum_same k l (fun c hc => (hmem c).mp hc), eh, if_neg (fun h => hkP h.1), add_zero]
      exact hinv.folder k x hx hxe hxt l hkids
  · intro l hl
    obtain ⟨r', hr', _, _, _, _, _, ech⟩ := hold tree.root r hr
    obtain ⟨kids, hkids, hmem⟩ := hinv.kids tree.root r hr
    have hra : tree.root ≠ a := halloc_ne _ (by rw [hr]; simp)
    have htop := hinv.top kids (by simpa [childrenOf, hr] using hkids)
    by_cases hrP : tree.root = P
    · have hnPr : nP = r := by
        rw [← hrP, hr] at hP
        simpa using hP.symm
      subst hnPr
      obtain ⟨kids', hk', hperm⟩ := hPkids kids hkids
      rw [← hrP] at hk'
      have : l = kids' := ChainTo_unique _ _ _ ((ChildChain_iff_ChainTo s' _ _).mp hl)
        ((ChildChain_iff_ChainTo s' _ _).mp hk')
      subst this
      rw [(hperm.map (heightOf s')).sum_eq, List.map_cons, List.sum_cons,
        hsum_same tree.root kids (fun c hc => (hmem c).mp hc), hh tree.root hra,
        if_pos ⟨hrP, hrexp⟩, htop]
      simp only [heightOf, ha', hah]
      ring
    · have hk' : ChildChain s' (childrenOf s' tree.root) kids := by
        have : childrenOf s' tree.root = r.children := by
          simp [childrenOf, hr', ech hrP]
        rw [this]
        exact hchain_tr tree.root kids _ hrP hkids (fun c hc => (hmem c).mp hc)
      have : l = kids := ChainTo_unique _ _ _ ((ChildChain_iff_ChainTo s' _ _).mp hl)
        ((ChildChain_iff_ChainTo s' _ _).mp hk')
      subst this
      rw [hsum_same tree.root l (fun c hc => (hmem c).mp hc), hh tree.root hra,
        if_neg (fun h => hrP h.1), add_zero]
      exact htop

/-- The layout part of an insertion below a parent `p` that is collapsed or
has no parent itself: it ends, keeps every field but heights, the inset and
the text, and raises no height but that of an expanded `p`, by the height of
the new node. -/
theorem insert_layout_shallow (g : treeview_globals) (font_width : List Nat → Nat → Int)
    (s1 : State) (a p : Nat) (na np : treeview_node) (fuel : Nat)
    (hna : s1.heap a = some na) (hap : na.parent = some p) (hnp : s1.heap p = some np)
    (hpa : p ≠ a) (hcase : np.expanded = false ∨ np.parent = none) (hfuel : 1 ≤ fuel) :
    ∃ s', insert_layout g font_width fuel s1 a = .ok s' ∧
      (∀ k, (s'.heap k).map lay = (s1.heap k).map lay) ∧
      ∀ k, heightOf s' k =
        heightOf s1 k + (if k = p ∧ np.expanded = true then na.height else 0) := by
  have hap' : a ≠ p := fun h => hpa h.symm
  cases hexp : np.expanded with
  | false =>
    refine ⟨store s1 a { na with inset := np.inset + g.step_width }, ?_, ?_, ?_⟩
    · simp [insert_layout, load, hna, hap, c_assert, ptr, hnp, modify, bind, Except.bind,
        hpa, pure, Except.pure, hexp]
    · intro k
      by_cases hk : k = a
      · subst hk
        simp [hna, lay]
      · simp [hk]
    · intro k
      by_cases hk : k = a
      · subst hk
        simp [heightOf, hna]
      · simp [heightOf, hk]
  | true =>
    have hpar : np.parent = none := by
      rcases hcase with h | h
      · rw [h] at hexp
        simp at hexp
      · exact h
    obtain ⟨f, rfl⟩ : ∃ f, fuel = f + 1 := ⟨fuel - 1, by omega⟩
    obtain ⟨s3, hs3⟩ : ∃ s3, s3 = store (store s1 a { na with inset := np.inset + g.step_width })
        p { np with height := np.height + na.height } := ⟨_, rfl⟩
    have h3heap : ∀ k, s3.heap k =
        if k = p then some { np with height := np.height + na.height }
        else if k = a then some { na with inset := np.inset + g.step_width }
        else s1.heap k := by
      intro k
      rw [hs3]
      rfl
    have hloop : insert_height_loop (f + 1)
        (store s1 a { na with inset := np.inset + g.step_width }) a = .ok s3 := by
      rw [hs3]
      simp [insert_height_loop, load, hap, ptr, modify, hpa, hnp, bind, Except.bind, hpar]
    have h3lay : ∀ k, (s3.heap k).map lay = (s1.heap k).map lay := by
      intro k
      rw [h3heap]
      by_cases hkp : k = p
      · subst hkp
        simp [hnp, lay]
      · by_cases hka : k = a
        · subst hka
          simp [hkp, hna, lay]
        · simp [hkp, hka]
    have h3h : ∀ k, heightOf s3 k = heightOf s1 k + (if k = p ∧ true = true then na.height else 0) := by
      intro k
      simp only [heightOf, h3heap]
      by_cases hkp : k = p
      · subst hkp
        simp [hnp]
      · by_cases hka : k = a
        · subst hka
          simp [hkp, hna]
        · simp [hkp, hka]
    have hstart : insert_layout g font_width (f + 1) s1 a = .ok s3 ∨
        ∃ n3, insert_layout g font_width (f + 1) s1 a = .ok (store s3 a n3) ∧
          lay n3 = lay na ∧ n3.height = na.height := by
      rw [hap] at hloop
      simp only [insert_layout, load, hna, hap, c_assert, ptr, hnp, modify, bind, Except.bind,
        store_heap, if_neg hpa, pure, Except.pure, hexp, hloop]
      simp only [ne_eq, not_false_eq_true, decide_True, if_true, reduceCtorEq, h3heap,
        if_neg hap']
      split
      · exact Or.inr ⟨_, rfl, rfl, rfl⟩
      · exact Or.inl rfl
    rcases hstart with h | ⟨n3, h, hl, hh⟩
    · exact ⟨s3, h, h3lay, h3h⟩
    · refine ⟨_, h, ?_, ?_⟩
      · intro k
        by_cases hka : k = a
        · subst hka
          simp [hna, hl]
        · simp only [store_heap, if_neg hka]
          exact h3lay k
      · intro k
        by_cases hka : k = a
        · subst hka
          simp [heightOf, hna, hap', hh]
        · rw [← h3h k]
          simp [heightOf, hka]

theorem lay_facts {x y : treeview_node} (h : lay x = lay y) :
    x.expanded = y.expanded ∧ x.type = y.type ∧ x.parent = y.parent ∧
      x.children = y.children ∧ x.sibling_next = y.sibling_next ∧ x.fields = y.fields := by
  simp only [lay, treeview_node.mk.injEq] at h
  obtain ⟨h1, _, h3, _, _, h6, _, h8, h9, _, _, h12⟩ := h
  exact ⟨h1, h3, h6, h9, h8, h12⟩

theorem lay_some {s s' : State} {k : Nat} {y : treeview_node}
    (h : (s'.heap k).map lay = (s.heap k).map lay) (hy : s.heap k = some y) :
    ∃ x, s'.heap k = some x ∧ lay x = lay y := by
  rw [hy] at h
  cases e : s'.heap k with
  | none => rw [e] at h; simp at h
  | some x =>
    rw [e] at h
    simp only [Option.map_some', Option.some.injEq] at h
    exact ⟨x, rfl, h⟩

theorem lay_none {s s' : State} {k : Nat}
    (h : (s'.heap k).map lay = (s.heap k).map lay) (hy : s.heap k = none) :
    s'.heap k = none := by
  rw [hy] at h
  cases e : s'.heap k with
  | none => rfl
  | some x => rw [e] at h; simp at h

/-- The layout part of an insertion of the new node `a` below a parent `P`
that is collapsed or has no parent, told in terms of the memory `s` before
the insertion: `s1` is the memory after the links were set. -/
theorem insert_layout_desc (g : treeview_globals) (font_width : List Nat → Nat → Int)
    (s s1 : State) (a P : Nat) (r na1 nP : treeview_node) (fuel : Nat)
    (hfresh : s.heap a = none) (hP : s.heap P = some nP)
    (h1a : s1.heap a = some na1) (hapar : na1.parent = some P)
    (haexp : na1.expanded = r.expanded) (hah : na1.height = r.height)
    (hach : na1.children = r.children) (haty : na1.type = r.type)
    (hafl : na1.fields.length = r.fields.length)
    (hl : ∀ k x, s.heap k = some x → ∃ y, s1.heap k = some y ∧ y.expanded = x.expanded ∧
      y.type = x.type ∧ y.parent = x.parent ∧ y.fields.length = x.fields.length ∧
      y.height = x.height ∧ (k ≠ P → y.children = x.children) ∧
      (parentOf s k ≠ some P → y.sibling_next = x.sibling_next))
    (hn : ∀ k, k ≠ a → s.heap k = none → s1.heap k = none)
    (hcase : nP.expanded = false ∨ nP.parent = none) (hfuel : 1 ≤ fuel) :
    ∃ s', insert_layout g font_width fuel s1 a = .ok s' ∧
      (∃ na', s'.heap a = some na' ∧ na'.parent = some P ∧ na'.expanded = r.expanded ∧
        na'.height = r.height ∧ na'.children = r.children ∧ na'.type = r.type ∧
        na'.fields.length = r.fields.length) ∧
      (∀ k x, s.heap k = some x → ∃ x', s'.heap k = some x' ∧ x'.expanded = x.expanded ∧
        x'.type = x.type ∧ x'.parent = x.parent ∧ x'.fields.length = x.fields.length ∧
        x'.height = x.height + (if k = P ∧ x.expanded = true then r.height else 0) ∧
        (k ≠ P → x'.children = x.children)) ∧
      (∀ k, k ≠ a → s.heap k = none → s'.heap k = none) ∧
      (∀ k, k ≠ a → parentOf s k ≠ some P →
        (s'.heap k).map (fun n => n.sibling_next) = (s.heap k).map (fun n => n.sibling_next)) := by
  have hPa : P ≠ a := by
    rintro rfl
    rw [hfresh] at hP
    simp at hP
  obtain ⟨yP, hyP, eP1, _, eP3, _⟩ := hl P nP hP
  obtain ⟨s', hrun, hlay, hh⟩ := insert_layout_shallow g font_width s1 a P na1 yP fuel h1a hapar
    hyP hPa (by rw [eP1, eP3]; exact hcase) hfuel
  refine ⟨s', hrun, ?_, ?_, ?_, ?_⟩
  · obtain ⟨na', hna', hl'⟩ := lay_some (hlay a) h1a
    obtain ⟨f1, f2, f3, f4, _, f6⟩ := lay_facts hl'
    refine ⟨na', hna', by rw [f3, hapar], by rw [f1, haexp], ?_, by rw [f4, hach],
      by rw [f2, haty], by rw [f6, hafl]⟩
    have := hh a
    simp only [heightOf, hna', h1a, Ne.symm hPa, false_and, if_false, add_zero] at this
    rw [this, hah]
  · intro k x hx
    obtain ⟨y, hy, e1, e2, e3, e4, e5, e6, _⟩ := hl k x hx
    obtain ⟨x', hx', hl'⟩ := lay_some (hlay k) hy
    obtain ⟨f1, f2, f3, f4, _, f6⟩ := lay_facts hl'
    refine ⟨x', hx', by rw [f1, e1], by rw [f2, e2], by rw [f3, e3], by rw [f6, e4], ?_,
      fun hk => by rw [f4, e6 hk]⟩
    have := hh k
    simp only [heightOf, hx', hy] at this
    rw [this, e5, hah]
    by_cases hkP : k = P
    · subst hkP
      rw [hP] at hx
      simp only [Option.some.injEq] at hx
      subst hx
      rw [eP1]
    · simp [hkP]
  · intro k hk h0
    exact lay_none (hlay k) (hn k hk h0)
  · intro k hk hpar
    cases e : s.heap k with
    | none => rw [lay_none (hlay k) (hn k hk e)]
    | some x =>
      obtain ⟨y, hy, _, _, _, _, _, _, e7⟩ := hl k x e
      obtain ⟨x', hx', hl'⟩ := lay_some (hlay k) hy
      obtain ⟨_, _, _, _, f5, _⟩ := lay_facts hl'
      rw [hx']
      simp [f5, e7 hpar]

/-- The insertion of a freshly allocated record `r` at `a`, as first child or
next sibling of `b`, when the new parent `P` of `a` is collapsed or has no
parent: the call ends, and the records are changed as listed. -/
theorem insert_fresh_desc (g : treeview_globals) (font_width : List Nat → Nat → Int)
    (s : State) (a b P : Nat) (rel : treeview_relationship) (r nb nP : treeview_node)
    (fuel : Nat)
    (hr : r.parent = none) (hfresh : s.heap a = none) (hb : s.heap b = some nb)
    (hP : s.heap P = some nP) (hPdef : insert_parent s b rel = some P)
    (hfirst : rel = .TREE_REL_FIRST_CHILD → nb.type ≠ .TREE_NODE_ENTRY ∧
      ∀ x, nb.children = some x → x ≠ b ∧ s.heap x ≠ none)
    (hnext : rel = .TREE_REL_NEXT_SIBLING → nb.type ≠ .TREE_NODE_ROOT ∧
      ∀ x, nb.sibling_next = some x → x ≠ b ∧ s.heap x ≠ none)
    (hcase : nP.expanded = false ∨ nP.parent = none) (hfuel : 1 ≤ fuel) :
    ∃ s', treeview_insert_node g font_width fuel (store s a r) a b rel = .ok s' ∧
      (∃ na', s'.heap a = some na' ∧ na'.parent = some P ∧ na'.expanded = r.expanded ∧
        na'.height = r.height ∧ na'.children = r.children ∧ na'.type = r.type ∧
        na'.fields.length = r.fields.length) ∧
      (∀ k x, s.heap k = some x → ∃ x', s'.heap k = some x' ∧ x'.expanded = x.expanded ∧
        x'.type = x.type ∧ x'.parent = x.parent ∧ x'.fields.length = x.fields.length ∧
        x'.height = x.height + (if k = P ∧ x.expanded = true then r.height else 0) ∧
        (k ≠ P → x'.children = x.children)) ∧
      (∀ k, k ≠ a → s.heap k = none → s'.heap k = none) ∧
      (∀ k, k ≠ a → parentOf s k ≠ some P →
        (s'.heap k).map (fun n => n.sibling_next) = (s.heap k).map (fun n => n.sibling_next)) := by
  have hab : a ≠ b := by
    rintro rfl
    rw [hfresh] at hb
    simp at hb
  have hba : b ≠ a := fun h => hab h.symm
  obtain ⟨s0, hs0⟩ : ∃ s0, s0 = store s a r := ⟨_, rfl⟩
  have h0 : ∀ k, k ≠ a → s0.heap k = s.heap k := by
    intro k hk
    rw [hs0]
    simp [hk]
  have ha0 : s0.heap a = some r := by
    rw [hs0]
    simp
  have hb0 : s0.heap b = some nb := by rw [h0 b hba, hb]
  have hka : ∀ k x, s.heap k = some x → k ≠ a := by
    rintro k x hx rfl
    rw [hfresh] at hx
    simp at hx
  rw [← hs0]
  cases rel with
  | TREE_REL_FIRST_CHILD =>
    obtain ⟨hty, hx⟩ := hfirst rfl
    simp only [insert_parent, Option.some.injEq] at hPdef
    subst hPdef
    rw [hb] at hP
    simp only [Option.some.injEq] at hP
    subst hP
    obtain ⟨s1, hlink, _, h1⟩ := insert_link_first s0 a b r nb ha0 hb0 hab hty (by
      intro x hxc
      obtain ⟨h1, h2⟩ := hx x hxc
      have hxa : x ≠ a := by
        rintro rfl
        exact h2 hfresh
      exact ⟨hxa, h1, by rw [h0 x hxa]; exact h2⟩)
    obtain ⟨s', hrun, hrest⟩ := insert_layout_desc g font_width s s1 a b r
      { r with parent := some b, sibling_next := nb.children } nb fuel hfresh hb
      (by rw [h1]; simp) rfl rfl rfl rfl rfl rfl
      (by
        intro k x hxk
        have hk := hka k x hxk
        rw [h1, if_neg hk, h0 k hk]
        by_cases hkb : k = b
        · subst hkb
          rw [hb] at hxk
          simp only [Option.some.injEq] at hxk
          subst hxk
          rw [if_pos rfl]
          exact ⟨_, rfl, rfl, rfl, rfl, rfl, rfl, fun h => absurd rfl h, fun _ => rfl⟩
        · rw [if_neg hkb]
          by_cases hc : nb.children = some k
          · rw [if_pos hc, hxk]
            exact ⟨_, rfl, rfl, rfl, rfl, rfl, rfl, fun _ => rfl, fun _ => rfl⟩
          · rw [if_neg hc, hxk]
            exact ⟨_, rfl, rfl, rfl, rfl, rfl, rfl, fun _ => rfl, fun _ => rfl⟩)
      (by
        intro k hk hnone
        have hkb : k ≠ b := by
          rintro rfl
          rw [hb] at hnone
          simp at hnone
        rw [h1, if_neg hk, if_neg hkb, h0 k hk, hnone]
        simp)
      hcase hfuel
    refine ⟨s', ?_, hrest⟩
    simp [treeview_insert_node, load, ha0, hb0, hr, c_assert, hlink, hrun, bind, Except.bind]
  | TREE_REL_NEXT_SIBLING =>
    obtain ⟨hty, hx⟩ := hnext rfl
    have hbpar : nb.parent = some P := by
      simpa [insert_parent, parentOf, hb] using hPdef
    obtain ⟨s1, hlink, _, h1⟩ := insert_link_next s0 a b r nb ha0 hb0 hab hty (by
      intro x hxc
      obtain ⟨h1, h2⟩ := hx x hxc
      have hxa : x ≠ a := by
        rintro rfl
        exact h2 hfresh
      exact ⟨hxa, h1, by rw [h0 x hxa]; exact h2⟩)
    obtain ⟨s', hrun, hrest⟩ := insert_layout_desc g font_width s s1 a P r
      { r with parent := nb.parent, sibling_prev := some b, sibling_next := nb.sibling_next }
      nP fuel hfresh hP
      (by rw [h1]; simp) hbpar rfl rfl rfl rfl rfl
      (by
        intro k x hxk
        have hk := hka k x hxk
        rw [h1, if_neg hk, h0 k hk]
        by_cases hkb : k = b
        · subst hkb
          rw [hb] at hxk
          simp only [Option.some.injEq] at hxk
          subst hxk
          rw [if_pos rfl]
          refine ⟨_, rfl, rfl, rfl, rfl, rfl, rfl, fun _ => rfl, fun h => ?_⟩
          exact absurd (by simp [parentOf, hb, hbpar]) h
        · rw [if_neg hkb]
          by_cases hc : nb.sibling_next = some k
          · rw [if_pos hc, hxk]
            exact ⟨_, rfl, rfl, rfl, rfl, rfl, rfl, fun _ => rfl, fun _ => rfl⟩
          · rw [if_neg hc, hxk]
            exact ⟨_, rfl, rfl, rfl, rfl, rfl, rfl, fun _ => rfl, fun _ => rfl⟩)
      (by
        intro k hk hnone
        have hkb : k ≠ b := by
          rintro rfl
          rw [hb] at hnone
          simp at hnone
        rw [h1, if_neg hk, if_neg hkb, h0 k hk, hnone]
        simp)
      hcase hfuel
    refine ⟨s', ?_, hrest⟩
    simp [treeview_insert_node, load, ha0, hb0, hr, c_assert, hlink, hrun, bind, Except.bind]

theorem treeInv_parent_ne_self {g : treeview_globals} {tree : treeview} {s : State}
    (hinv : TreeInv g tree s) (x : Nat) : parentOf s x ≠ some x := by
  intro h
  obtain ⟨path, hpath, _⟩ := hinv.paths x (parentOf_some_alloc h)
  have hmem := ancPath_parent_mem path x hpath x (List.mem_cons_self _ _) x h
  have hnd := AncPath_nodup _ _ hpath
  exact (List.nodup_cons.mp hnd).1 hmem

/-- In a sibling chain, the successor of a member is another member. -/
theorem chain_next_mem {s : State} : ∀ (l : List Nat) (first : Option Nat),
    ChildChain s first l → ∀ b nb x, b ∈ l → s.heap b = some nb → nb.sibling_next = some x →
    x ∈ l ∧ x ≠ b := by
  intro l
  induction l with
  | nil => intro _ _ b _ _ hb; simp at hb
  | cons c cs ih =>
    intro first hch b nb x hb hnb hx
    have hnd := ChildChain_nodup _ _ hch
    simp only [ChildChain] at hch
    obtain ⟨_, h2⟩ := hch
    simp only [List.mem_cons] at hb
    rcases hb with rfl | hb
    · simp only [hnb, hx] at h2
      cases cs with
      | nil => simp [ChildChain] at h2
      | cons d ds =>
        have hd : x = d := by
          have := h2.1
          simpa using this
        subst hd
        refine ⟨by simp, ?_⟩
        rintro rfl
        simp at hnd
    · cases hc : s.heap c with
      | none => rw [hc] at h2; exact h2.elim
      | some nc =>
        rw [hc] at h2
        obtain ⟨h3, h4⟩ := ih _ h2 b nb x hb hnb hx
        exact ⟨List.mem_cons_of_mem _ h3, h4⟩

theorem entry_fields_loop_length (tree : treeview) (fields : List treeview_field_data) :
    ∀ (k i : Nat) (acc fs : List treeview_field),
    entry_fields_loop tree fields k i acc = .ok fs → fs.length = acc.length + k := by
  intro k
  induction k with
  | zero =>
    intro i acc fs h
    simp only [entry_fields_loop, Except.ok.injEq] at h
    subst h
    rfl
  | succ k ih =>
    intro i acc fs h
    rw [entry_fields_loop] at h
    simp only [bind, Except.bind] at h
    split at h
    · cases h
    · split at h
      · cases h
      · split at h
        · cases h
        · have := ih _ _ _ h
          rw [this]
          simp only [List.length_append, List.length_singleton]
          omega

/-- The invariant survives a successful insertion of a freshly allocated
collapsed record of one row, when the new parent is the root or collapsed. -/
theorem treeInv_insert_step (g : treeview_globals) (font_width : List Nat → Nat → Int)
    (tree : treeview) (s s' : State) (a b : Nat) (rel : treeview_relationship)
    (r : treeview_node) (fuel : Nat)
    (hinv : TreeInv g tree s) (hfresh : s.heap a = none)
    (hr : r.parent = none) (hrexp : r.expanded = false) (hrh : r.height = g.line_height)
    (hrch : r.children = none) (hrty : r.type ≠ .TREE_NODE_ROOT)
    (hrfl : r.type = .TREE_NODE_ENTRY → r.fields.length = (tree.n_fields - 1).toNat)
    (hroc : RootOrCollapsed tree s (insert_parent s b rel))
    (hrun : treeview_insert_node g font_width fuel (store s a r) a b rel = .ok s') :
    TreeInv g tree s' := by
  obtain ⟨rt, hrt, hrtpar, hrtexp, hrtty⟩ := hinv.root
  obtain ⟨P, nP, hPdef, hP, hcase⟩ : ∃ P nP, insert_parent s b rel = some P ∧
      s.heap P = some nP ∧ (P = tree.root ∨ nP.expanded = false) := by
    rcases hroc with h | ⟨q, nq, h1, h2, h3⟩
    · exact ⟨tree.root, rt, h, hrt, Or.inl rfl⟩
    · exact ⟨q, nq, h1, h2, Or.inr h3⟩
  have hcase' : nP.expanded = false ∨ nP.parent = none := by
    rcases hcase with h | h
    · right
      rw [h, hrt] at hP
      simp only [Option.some.injEq] at hP
      rw [← hP]
      exact hrtpar
    · exact Or.inl h
  obtain ⟨nb, hb⟩ : ∃ nb, s.heap b = some nb := by
    cases rel with
    | TREE_REL_FIRST_CHILD =>
      simp only [insert_parent, Option.some.injEq] at hPdef
      rw [hPdef]
      exact ⟨nP, hP⟩
    | TREE_REL_NEXT_SIBLING =>
      have h : parentOf s b = some P := hPdef
      exact Option.ne_none_iff_exists'.mp (parentOf_some_alloc h)
  have hba : b ≠ a := by
    rintro rfl
    rw [hfresh] at hb
    simp at hb
  obtain ⟨pathb, hpathb, _⟩ := hinv.paths b (by rw [hb]; simp)
  obtain ⟨kidsb, hkidsb, hmemb⟩ := hinv.kids b nb hb
  obtain ⟨kidsP, hkidsP, hmemP⟩ := hinv.kids P nP hP
  have hbnk : b ∉ kidsb := fun h => treeInv_parent_ne_self hinv b ((hmemb b).mp h)
  have hfirst : rel = .TREE_REL_FIRST_CHILD → nb.type ≠ .TREE_NODE_ENTRY ∧
      ∀ x, nb.children = some x → x ≠ b ∧ s.heap x ≠ none := by
    intro hrel
    subst hrel
    refine ⟨?_, ?_⟩
    · intro hty
      simp [treeview_insert_node, insert_link, load, hr, hb, hba, hty, c_assert, bind,
        Except.bind] at hrun
    · intro x hx
      have hxk : x ∈ kidsb := by
        cases kidsb with
        | nil =>
          simp only [ChildChain] at hkidsb
          rw [hkidsb] at hx
          simp at hx
        | cons c cs =>
          have := hkidsb.1
          rw [hx] at this
          simp only [Option.some.injEq] at this
          simp [this]
      have hxp := (hmemb x).mp hxk
      refine ⟨?_, parentOf_some_alloc hxp⟩
      rintro rfl
      exact hbnk hxk
  have hnext : rel = .TREE_REL_NEXT_SIBLING → nb.type ≠ .TREE_NODE_ROOT ∧
      ∀ x, nb.sibling_next = some x → x ≠ b ∧ s.heap x ≠ none := by
    intro hrel
    subst hrel
    have hbp : parentOf s b = some P := hPdef
    refine ⟨?_, ?_⟩
    · intro hty
      have := hinv.kind b nb hb hty
      rw [this] at hbp
      simp [parentOf, hrt, hrtpar] at hbp
    · intro x hx
      obtain ⟨h1, h2⟩ := chain_next_mem kidsP _ hkidsP b nb x ((hmemP b).mpr hbp) hb hx
      exact ⟨h2, parentOf_some_alloc ((hmemP x).mp h1)⟩
  obtain ⟨s'', hrun'', ⟨na', hna', hapar, haexp, hah, hach, haty, hafl⟩, hold, hnone, hnx⟩ :=
    insert_fresh_desc g font_width s a b P rel r nb nP (max fuel (pathb.length + 1)) hr hfresh hb
      hP hPdef hfirst hnext hcase' (le_trans (Nat.le_add_left 1 _) (le_max_right _ _))
  have hlift := treeview_insert_node_mono_le g font_width fuel (max fuel (pathb.length + 1))
    (le_max_left _ _) (store s a r) a b rel s' hrun
  have hs : s'' = s' := by
    rw [hrun''] at hlift
    simpa using hlift
  subst hs
  have hPkids : ∀ kids, ChildChain s nP.children kids →
      ∃ kids', ChildChain s'' (childrenOf s'' P) kids' ∧ kids'.Perm (a :: kids) := by
    intro kids hk
    have : kids = kidsP := ChainTo_unique _ _ _ ((ChildChain_iff_ChainTo s _ _).mp hk)
      ((ChildChain_iff_ChainTo s _ _).mp hkidsP)
    subst this
    cases rel with
    | TREE_REL_FIRST_CHILD =>
      simp only [insert_parent, Option.some.injEq] at hPdef
      subst hPdef
      rw [hP] at hb
      simp only [Option.some.injEq] at hb
      subst hb
      obtain ⟨s3, hrun3, _, hpl⟩ := insert_fresh_placed g font_width s a b .TREE_REL_FIRST_CHILD
        r nP kids [] [] pathb (max fuel (pathb.length + 1)) hr hfresh hP hpathb
        (fun _ => ⟨(hfirst rfl).1, hk, fun h => treeInv_parent_ne_self hinv b ((hmemP b).mp h)⟩)
        (fun h => absurd h (by decide)) (le_max_right _ _)
      rw [hrun''] at hrun3
      simp only [Except.ok.injEq] at hrun3
      subst hrun3
      simp only [Placed] at hpl
      exact ⟨a :: kids, hpl.2, List.Perm.refl _⟩
    | TREE_REL_NEXT_SIBLING =>
      have hbp : parentOf s b = some P := hPdef
      have hbpar : nb.parent = some P := by simpa [parentOf, hb] using hbp
      obtain ⟨pre, post, hsplit⟩ := List.append_of_mem ((hmemP b).mpr hbp)
      subst hsplit
      obtain ⟨s3, hrun3, _, hpl⟩ := insert_fresh_placed g font_width s a b .TREE_REL_NEXT_SIBLING
        r nb [] pre post pathb (max fuel (pathb.length + 1)) hr hfresh hb hpathb
        (fun h => absurd h (by decide))
        (fun _ => ⟨(hnext rfl).1, P, nP, hbpar, hP, hk⟩) (le_max_right _ _)
      rw [hrun''] at hrun3
      simp only [Except.ok.injEq] at hrun3
      subst hrun3
      simp only [Placed] at hpl
      obtain ⟨p, h1, _, _, h4⟩ := hpl
      rw [hbp] at h1
      simp only [Option.some.injEq] at h1
      subst h1
      refine ⟨_, h4, ?_⟩
      have : pre ++ b :: a :: post = (pre ++ [b]) ++ a :: post := by simp
      rw [this]
      refine List.perm_middle.trans ?_
      simp
  have hPty : nP.type ≠ .TREE_NODE_ENTRY := by
    cases rel with
    | TREE_REL_FIRST_CHILD =>
      simp only [insert_parent, Option.some.injEq] at hPdef
      subst hPdef
      rw [hP] at hb
      simp only [Option.some.injEq] at hb
      subst hb
      exact (hfirst rfl).1
    | TREE_REL_NEXT_SIBLING =>
      intro hty
      have hbp : parentOf s b = some P := hPdef
      have hch := (hinv.entry P nP hP hty).1
      rw [hch] at hkidsP
      have hbm := (hmemP b).mpr hbp
      cases kidsP with
      | nil => simp at hbm
      | cons c cs => simp [ChildChain] at hkidsP
  rw [hrh] at hold
  exact treeInv_of_insert g tree s s'' a P nP na' hinv hfresh hP hcase hPty hna' hapar
    (haexp.trans hrexp) (hah.trans hrh) (hach.trans hrch) (by rw [haty]; exact hrty)
    (fun h => by rw [hafl]; exact hrfl (by rw [← haty]; exact h)) hold hnone hnx hPkids

theorem treeInv_create_folder_step (g : treeview_globals) (font_width : List Nat → Nat → Int)
    (tree : treeview) (s s' : State) (fuel a : Nat) (relation : Option Nat)
    (rel : treeview_relationship) (field : treeview_field_data) (data : Nat)
    (hinv : TreeInv g tree s)
    (hroc : RootOrCollapsed tree s
      (insert_parent s (insert_target tree relation rel).1 (insert_target tree relation rel).2))
    (h : treeview_create_node_folder g font_width fuel tree s (some a) relation rel field data =
      .ok (.NSERROR_OK, s', some a)) :
    TreeInv g tree s' := by
  simp only [treeview_create_node_folder, bind, Except.bind] at h
  split at h
  · cases h
  · split at h
    · cases h
    · split at h
      · cases h
      · rename_i hfresh
        split at h
        · cases h
        · rename_i s1 hrun
          simp only [pure, Except.pure, Except.ok.injEq, Prod.mk.injEq, true_and, and_true] at h
          subst h
          exact treeInv_insert_step g font_width tree s s1 a _ _ (new_folder g field data) fuel
            hinv hfresh rfl rfl rfl rfl (by simp [new_folder]) (by simp [new_folder]) hroc hrun

theorem treeInv_create_entry_step (g : treeview_globals) (font_width : List Nat → Nat → Int)
    (tree : treeview) (s s' : State) (fuel a : Nat) (relation : Option Nat)
    (rel : treeview_relationship) (fields : List treeview_field_data) (data : Nat)
    (hinv : TreeInv g tree s)
    (hroc : RootOrCollapsed tree s
      (insert_parent s (insert_target tree relation rel).1 (insert_target tree relation rel).2))
    (h : treeview_create_node_entry g font_width fuel tree s (some a) relation rel fields data =
      .ok (.NSERROR_OK, s', some a)) :
    TreeInv g tree s' := by
  simp only [treeview_create_node_entry, bind, Except.bind] at h
  split at h
  · cases h
  · split at h
    · cases h
    · split at h
      · cases h
      · rename_i hfresh
        split at h
        · cases h
        · rename_i f0 hf0
          split at h
          · cases h
          · split at h
            · cases h
            · split at h
              · cases h
              · rename_i fs hfs
                split at h
                · cases h
                · rename_i s1 hrun
                  simp only [pure, Except.pure, Except.ok.injEq, Prod.mk.injEq, true_and,
                    and_true] at h
                  subst h
                  have hlen := entry_fields_loop_length tree fields _ _ _ _ hfs
                  exact treeInv_insert_step g font_width tree s s1 a _ _ (new_entry g f0 fs data)
                    fuel hinv hfresh rfl rfl rfl rfl (by simp [new_entry])
                    (fun _ => by simpa [new_entry] using hlen) hroc hrun

/-! ## Height conservation of the built memories -/

theorem heap_expanded_of_obs {s : State} {a : Nat} {b : Bool}
    (h : (s.heap a).map (fun n => n.expanded) = some b) :
    ∃ n, s.heap a = some n ∧ n.expanded = b := by
  cases e : s.heap a with
  | none => rw [e] at h; simp at h
  | some n =>
    rw [e] at h
    exact ⟨n, rfl, by simpa using h⟩

theorem exThree_obs : observe (.ok exThree) 0 = some (40, true) ∧
    observe (.ok exThree) 1 = some (40, true) ∧ observe (.ok exThree) 2 = some (20, false) := by
  decide

/-! ## The selection walks -/

theorem set_selected_events (s : State) (l : List Nat) (b : Bool) :
    (set_selected s l b).events = s.events := rfl

theorem set_selected_nil (s : State) (b : Bool) : set_selected s [] b = s := by
  refine State.ext' (fun a => ?_) rfl
  simp [set_selected]

theorem node_selected_eta (n : treeview_node) : ({ n with selected := n.selected } : treeview_node) = n := by
  cases n
  rfl

/-- Setting the flag of `x` by a store and then the flags of `xs` is setting
the flags of `x :: xs`. -/
theorem set_selected_cons (s : State) (x : Nat) (xs : List Nat) (b : Bool) (n : treeview_node)
    (hn : s.heap x = some n) (hx : x ∉ xs) :
    set_selected (store s x { n with selected := b }) xs b = set_selected s (x :: xs) b := by
  refine State.ext' (fun a => ?_) rfl
  by_cases ha : a = x
  · subst ha
    simp [set_selected, hn, hx]
  · simp [set_selected, ha]

theorem rowHeightOf_set_selected (g : treeview_globals) (s : State) (l : List Nat) (b : Bool)
    (a : Nat) : rowHeightOf g (set_selected s l b) a = rowHeightOf g s a := by
  simp only [rowHeightOf, set_selected]
  cases s.heap a with
  | none => rfl
  | some n =>
    simp only [Option.map_some']
    split <;> rfl

theorem selectedOf_set_selected (s : State) (l : List Nat) (b : Bool) (a : Nat) :
    selectedOf (set_selected s l b) a =
      if a ∈ l then (b && (s.heap a).isSome) else selectedOf s a := by
  simp only [selectedOf, set_selected]
  cases s.heap a with
  | none => simp
  | some n =>
    simp only [Option.map_some']
    split <;> simp
theorem set_selected_one (s : State) (x : Nat) (b : Bool) (n : treeview_node)
    (hn : s.heap x = some n) :
    set_selected s [x] b = store s x { n with selected := b } := by
  refine State.ext' (fun a => ?_) rfl
  by_cases ha : a = x
  · subst ha
    simp [set_selected, hn]
  · simp [set_selected, ha]

theorem set_selected_same (s : State) (x : Nat) (b : Bool) (n : treeview_node)
    (hn : s.heap x = some n) (hb : n.selected = b) : set_selected s [x] b = s := by
  refine State.ext' (fun a => ?_) rfl
  by_cases ha : a = x
  · subst ha
    simp only [set_selected, hn, Option.map_some', List.mem_singleton, if_true]
    rw [← hb, node_selected_eta]
  · simp [set_selected, ha]

theorem set_selected_append (s : State) (l1 l2 : List Nat) (b : Bool) :
    set_selected (set_selected s l1 b) l2 b = set_selected s (l1 ++ l2) b := by
  refine State.ext' (fun a => ?_) rfl
  simp only [set_selected, List.mem_append]
  cases s.heap a with
  | none => rfl
  | some n =>
    simp only [Option.map_some', Option.some.injEq]
    by_cases h1 : a ∈ l1 <;> by_cases h2 : a ∈ l2 <;> simp [h1, h2]

/-- One call of the selection callback in a walk that sets the flags to `b`. -/
theorem sel_cb_step (g : treeview_globals) (b : Bool) (x : Nat) (s1 : State)
    (sw : treeview_selection_walk_data) (n : treeview_node) (hn : s1.heap x = some n)
    (hp : sw.purpose = purpose_of b) :
    treeview_node_selection_walk_cb g x s1 sw = .ok (false, set_selected s1 [x] b,
      if (n.selected != b) = true then
        selection_mark { sw with current_y := sw.current_y + node_row_height g n }
          (node_row_height g n)
      else { sw with current_y := sw.current_y + node_row_height g n }) := by
  cases b <;> cases hsel : n.selected
  · rw [set_selected_same s1 x false n hn hsel]
    simp [treeview_node_selection_walk_cb, load, hn, hp, purpose_of, hsel, bind, Except.bind,
      pure, Except.pure]
  · rw [set_selected_one s1 x false n hn]
    simp [treeview_node_selection_walk_cb, load, hn, hp, purpose_of, hsel, bind, Except.bind,
      pure, Except.pure, modify]
  · rw [set_selected_one s1 x true n hn]
    simp [treeview_node_selection_walk_cb, load, hn, hp, purpose_of, hsel, bind, Except.bind,
      pure, Except.pure, modify]
  · rw [set_selected_same s1 x true n hn hsel]
    simp [treeview_node_selection_walk_cb, load, hn, hp, purpose_of, hsel, bind, Except.bind,
      pure, Except.pure]
theorem selection_mark_spec (sw : treeview_selection_walk_data) (h : Int) :
    (selection_mark sw h).purpose = sw.purpose ∧
    (selection_mark sw h).current_y = sw.current_y ∧
    (selection_mark sw h).required = true ∧
    (selection_mark sw h).rect.x0 = sw.rect.x0 ∧
    (selection_mark sw h).rect.x1 = sw.rect.x1 ∧
    (selection_mark sw h).rect.y0 =
      (if sw.required = false then sw.current_y - h else sw.rect.y0) ∧
    (selection_mark sw h).rect.y1 =
      (if sw.current_y > sw.rect.y1 then sw.current_y else sw.rect.y1) := by
  cases hr : sw.required <;> by_cases hy : sw.current_y > sw.rect.y1 <;>
    simp [selection_mark, hr, hy]

/-- The walk that sets the selected flags of the rows of `l` to `b`: the
memory it leaves and the walk data, told by `p` (which rows change) and `h`
(the row heights). -/
theorem sel_iterate (g : treeview_globals) (b : Bool) (p : Nat → Bool) (h : Nat → Int) :
    ∀ (l : List Nat) (s1 : State) (sw : treeview_selection_walk_data),
    sw.purpose = purpose_of b → l.Nodup →
    (∀ a ∈ l, s1.heap a ≠ none ∧ sel_changed s1 b a = p a ∧ rowHeightOf g s1 a = h a) →
    ∃ sw', iterate_cb (treeview_node_selection_walk_cb g) l s1 sw =
        .ok (false, set_selected s1 l b, sw') ∧
      sw'.purpose = sw.purpose ∧ sw'.current_y = sw.current_y + (l.map h).sum ∧
      sw'.rect.x0 = sw.rect.x0 ∧ sw'.rect.x1 = sw.rect.x1 ∧
      sw'.required = (sw.required || l.any p) ∧
      sw'.rect.y0 = (if (sw.required || !l.any p) = true then sw.rect.y0
        else sw.current_y + ((l.takeWhile (fun a => !p a)).map h).sum) ∧
      ((∀ a ∈ l, 0 ≤ h a) → sw.rect.y1 ≤ sw.current_y →
        sw'.rect.y1 = (if l.any p = true then sw.current_y + ((upto_last p l).map h).sum
          else sw.rect.y1) ∧ sw'.rect.y1 ≤ sw'.current_y) := by
  intro l
  induction l with
  | nil =>
    intro s1 sw _ _ _
    refine ⟨sw, ?_, rfl, by simp, rfl, rfl, by simp, by simp, fun _ h1 => ⟨by simp, h1⟩⟩
    rw [set_selected_nil]
    rfl
  | cons x xs ih =>
    intro s1 sw hp hnd hall
    obtain ⟨hx0, hpx, hhx⟩ := hall x (List.mem_cons_self _ _)
    obtain ⟨n, hn⟩ := Option.ne_none_iff_exists'.mp hx0
    have hstep := sel_cb_step g b x s1 sw n hn hp
    have hsel : (n.selected != b) = p x := by
      simpa [sel_changed, selectedOf, hn] using hpx
    have hh : node_row_height g n = h x := by
      simpa [rowHeightOf, hn] using hhx
    rw [hsel, hh] at hstep
    obtain ⟨hxs, hnd'⟩ := List.nodup_cons.mp hnd
    have hall2 : ∀ a ∈ xs, (set_selected s1 [x] b).heap a ≠ none ∧
        sel_changed (set_selected s1 [x] b) b a = p a ∧
        rowHeightOf g (set_selected s1 [x] b) a = h a := by
      intro a ha
      have hax : a ≠ x := by
        rintro rfl
        exact hxs ha
      obtain ⟨h1, h2, h3⟩ := hall a (List.mem_cons_of_mem _ ha)
      refine ⟨?_, ?_, ?_⟩
      · simpa [set_selected, hax] using h1
      · rw [← h2]
        simp [sel_changed, selectedOf_set_selected, hax]
      · rw [rowHeightOf_set_selected]
        exact h3
    cases hpx' : p x with
    | false =>
      rw [hpx'] at hstep
      simp only [Bool.false_eq_true, if_false] at hstep
      obtain ⟨sw', hrun, e1, e2, e3, e4, e5, e6, e7⟩ := ih (set_selected s1 [x] b)
        { sw with current_y := sw.current_y + h x } hp hnd' hall2
      refine ⟨sw', ?_, e1, ?_, e3, e4, ?_, ?_, ?_⟩
      · simp only [iterate_cb, hstep, hrun, set_selected_append, List.singleton_append]
      · rw [e2]
        simp only [List.map_cons, List.sum_cons]
        ring
      · rw [e5]
        simp [hpx']
      · rw [e6]
        simp only [List.any_cons, hpx', Bool.false_or, List.takeWhile_cons, Bool.not_false,
          if_true, List.map_cons, List.sum_cons]
        split
        · rfl
        · ring
      · intro hnn hy
        have hx1 := hnn x (List.mem_cons_self _ _)
        obtain ⟨e8, e9⟩ := e7 (fun a ha => hnn a (List.mem_cons_of_mem _ ha))
          (by show sw.rect.y1 ≤ sw.current_y + h x; omega)
        refine ⟨?_, e9⟩
        rw [e8]
        simp only [List.any_cons, hpx', Bool.false_or, upto_last]
        split
        · simp only [if_true, List.map_cons, List.sum_cons]
          ring
        · simp
    | true =>
      rw [hpx'] at hstep
      simp only [if_true] at hstep
      obtain ⟨m1, m2, m3, m4, m5, m6, m7⟩ := selection_mark_spec
        { sw with current_y := sw.current_y + h x } (h x)
      obtain ⟨sw', hrun, e1, e2, e3, e4, e5, e6, e7⟩ := ih (set_selected s1 [x] b)
        (selection_mark { sw with current_y := sw.current_y + h x } (h x)) (by rw [m1]; exact hp)
        hnd' hall2
      refine ⟨sw', ?_, by rw [e1, m1], ?_, by rw [e3, m4], by rw [e4, m5], ?_, ?_, ?_⟩
      · simp only [iterate_cb, hstep, hrun, set_selected_append, List.singleton_append]
      · rw [e2, m2]
        simp only [List.map_cons, List.sum_cons]
        ring
      · rw [e5, m3]
        simp [hpx']
      · rw [e6, m3, m6]
        simp only [Bool.true_or, if_true, List.any_cons, hpx', Bool.not_true, Bool.or_false,
          List.takeWhile_cons, Bool.false_eq_true, if_false, List.map_nil, List.sum_nil, add_zero]
        cases sw.required <;> simp
      · intro hnn hy
        have hx1 := hnn x (List.mem_cons_self _ _)
        have hy1 : (selection_mark { sw with current_y := sw.current_y + h x } (h x)).rect.y1 =
            sw.current_y + h x := by
          rw [m7]
          simp only []
          split
          · rfl
          · omega
        obtain ⟨e8, e9⟩ := e7 (fun a ha => hnn a (List.mem_cons_of_mem _ ha))
          (by rw [hy1, m2])
        refine ⟨?_, e9⟩
        rw [e8, hy1, m2]
        simp only [List.any_cons, hpx', Bool.true_or, if_true, upto_last]
        split
        · simp only [List.map_cons, List.sum_cons]
          ring
        · simp
theorem preorder_sublist (opened : Nat → Bool) (f : Forest) :
    (f.preorder opened).Sublist f.ids := by
  induction f with
  | nil => exact List.Sublist.refl _
  | cons id k r ihk ihr =>
    simp only [Forest.preorder, Forest.ids]
    refine List.Sublist.cons₂ _ (List.Sublist.append ?_ ihr)
    split
    · exact ihk
    · exact List.nil_sublist _

theorem walk_order_nodup (s : State) (full : Bool) (root : Nat) (f : Forest)
    (h : f.ids.Nodup) : (walk_order s full root f).Nodup := by
  unfold walk_order
  split
  · exact List.Nodup.sublist (preorder_sublist _ f) h
  · exact List.nodup_nil

theorem walk_order_alloc (s : State) (full : Bool) (root : Nat) (f : Forest)
    (hsub : SubtreeAt s root f) : ∀ a ∈ walk_order s full root f, s.heap a ≠ none :=
  fun a ha => Rep_heap f _ _ hsub.2.1 a (walk_order_subset s full root f a ha)

/-- The selection callback writes nothing but the selected flag of the node it
is called on. -/
theorem sel_cb_frame (g : treeview_globals) (x : Nat) (s s' : State)
    (sw sw' : treeview_selection_walk_data) (b : Bool)
    (h : treeview_node_selection_walk_cb g x s sw = .ok (b, s', sw')) :
    s'.events = s.events ∧
      ∀ a, (s'.heap a).map (fun n => { n with selected := false }) =
        (s.heap a).map (fun n => { n with selected := false }) := by
  cases hn : s.heap x with
  | none => simp [treeview_node_selection_walk_cb, load, hn, bind, Except.bind] at h
  | some n =>
    have key : s' = s ∨ s' = store s x { n with selected := !n.selected } := by
      simp only [treeview_node_selection_walk_cb, load, hn, bind, Except.bind, modify, pure,
        Except.pure] at h
      split at h <;> split at h <;> simp only [Except.ok.injEq, Prod.mk.injEq] at h
      all_goals first
        | exact Or.inl h.2.1.symm
        | exact Or.inr h.2.1.symm
    rcases key with rfl | rfl
    · exact ⟨rfl, fun _ => rfl⟩
    · refine ⟨rfl, fun a => ?_⟩
      by_cases ha : a = x
      · subst ha
        simp [hn]
      · simp [ha]

theorem sel_cb_linkEq (g : treeview_globals) (s0 : State) (x : Nat) (s s' : State)
    (sw sw' : treeview_selection_walk_data) (b : Bool) (hs : LinkEq s0 s)
    (h : treeview_node_selection_walk_cb g x s sw = .ok (b, s', sw')) : LinkEq s0 s' := by
  intro a
  rw [← hs a]
  have := (sel_cb_frame g x s s' sw sw' b h).2 a
  cases h1 : s.heap a with
  | none =>
    cases h2 : s'.heap a with
    | none => rfl
    | some y => rw [h1, h2] at this; simp at this
  | some x1 =>
    cases h2 : s'.heap a with
    | none => rw [h1, h2] at this; simp at this
    | some y =>
      rw [h1, h2] at this
      simp only [Option.map_some', Option.some.injEq] at this ⊢
      have e1 : links y = links { y with selected := false } := rfl
      have e2 : links x1 = links { x1 with selected := false } := rfl
      rw [e1, e2, this]

theorem Rep_linkEq {s s' : State} (h : LinkEq s s') :
    ∀ (f : Forest) (p prev : Option Nat), Rep s p prev f → Rep s' p prev f := by
  intro f
  induction f with
  | nil => intro _ _ _; trivial
  | cons id k r ihk ihr =>
    intro p prev hrep
    simp only [Rep] at hrep ⊢
    obtain ⟨hnode, hk, hr⟩ := hrep
    refine ⟨?_, ihk _ _ hk, ihr _ _ hr⟩
    cases h0 : s.heap id with
    | none => rw [h0] at hnode; exact hnode.elim
    | some n0 =>
      rw [h0] at hnode
      obtain ⟨n, hn, hl⟩ := linkEq_get h h0
      obtain ⟨_, e2, e3, e4, e5⟩ := links_eq hl
      rw [hn]
      simp only [] at hnode ⊢
      rw [e2, e3, e4, e5]
      exact hnode

theorem SubtreeAt_linkEq {s s' : State} (h : LinkEq s s') (root : Nat) (f : Forest)
    (hsub : SubtreeAt s root f) : SubtreeAt s' root f := by
  obtain ⟨hroot, hrep, hnot⟩ := hsub
  refine ⟨?_, Rep_linkEq h f _ _ hrep, hnot⟩
  cases h0 : s.heap root with
  | none => rw [h0] at hroot; exact hroot.elim
  | some n0 =>
    rw [h0] at hroot
    obtain ⟨n, hn, hl⟩ := linkEq_get h h0
    rw [hn]
    simp only [] at hroot ⊢
    rw [(links_eq hl).2.2.2.2]
    exact hroot

theorem isOpen_linkEq {s s' : State} (h : LinkEq s s') (full : Bool) (a : Nat) :
    isOpen s' full a = isOpen s full a := by
  have := h a
  simp only [isOpen]
  cases h1 : s.heap a <;> cases h2 : s'.heap a <;> simp [h1, h2, links] at this ⊢
  rw [this.1]

theorem walk_order_linkEq {s s' : State} (h : LinkEq s s') (full : Bool) (root : Nat)
    (f : Forest) : walk_order s' full root f = walk_order s full root f := by
  have : isOpen s' full = isOpen s full := funext (isOpen_linkEq h full)
  simp only [walk_order, this]

theorem set_selected_linkEq (s : State) (l : List Nat) (b : Bool) :
    LinkEq s (set_selected s l b) := by
  intro a
  simp only [set_selected]
  cases s.heap a with
  | none => rfl
  | some n =>
    simp only [Option.map_some', Option.some.injEq]
    split <;> rfl

/-- The selection walk that sets the flags to `b`, on a well-linked tree: it
ends, the visible rows have the flag `b`, every other record is as it was, and
the walk data tell which rows changed. -/
theorem selection_walk_run (g : treeview_globals) (root : Nat) (s : State) (f : Forest)
    (fuel : Nat) (b : Bool) (sw : treeview_selection_walk_data)
    (hsub : SubtreeAt s root f) (hnd : f.ids.Nodup) (hfuel : 2 * f.size + 2 ≤ fuel)
    (hp : sw.purpose = purpose_of b) :
    ∃ sw', treeview_walk_internal fuel (some root) false (treeview_node_selection_walk_cb g) s sw =
        .ok (false, set_selected s (walk_order s false root f) b, sw') ∧
      sw'.purpose = sw.purpose ∧
      sw'.current_y = sw.current_y + ((walk_order s false root f).map (rowHeightOf g s)).sum ∧
      sw'.rect.x0 = sw.rect.x0 ∧ sw'.rect.x1 = sw.rect.x1 ∧
      sw'.required = (sw.required || (walk_order s false root f).any (sel_changed s b)) ∧
      sw'.rect.y0 = (if (sw.required || !(walk_order s false root f).any (sel_changed s b)) = true
        then sw.rect.y0
        else sw.current_y + (((walk_order s false root f).takeWhile
          (fun a => !sel_changed s b a)).map (rowHeightOf g s)).sum) ∧
      ((∀ a ∈ walk_order s false root f, 0 ≤ rowHeightOf g s a) → sw.rect.y1 ≤ sw.current_y →
        sw'.rect.y1 = (if (walk_order s false root f).any (sel_changed s b) = true then
            sw.current_y + ((upto_last (sel_changed s b) (walk_order s false root f)).map
              (rowHeightOf g s)).sum
          else sw.rect.y1) ∧ sw'.rect.y1 ≤ sw'.current_y) := by
  rw [walk_internal_eq_iterate s (LinkEq s) (fun _ h => h) root false
    (treeview_node_selection_walk_cb g)
    (fun x s1 c b1 s' c' h1 h2 => sel_cb_linkEq g s x s1 s' c c' b1 h1 h2) f hsub s
    (linkEq_refl s) fuel hfuel sw]
  exact sel_iterate g b (sel_changed s b) (rowHeightOf g s) _ s sw hp
    (walk_order_nodup s false root f hnd)
    (fun a ha => ⟨walk_order_alloc s false root f hsub a ha, rfl, rfl⟩)
/-! ## Visible rows -/

theorem rep_parent_mem {s : State} : ∀ (f : Forest) (p : Nat) (prev : Option Nat),
    Rep s (some p) prev f → ∀ a ∈ f.ids, ∃ q, parentOf s a = some q ∧ (q = p ∨ q ∈ f.ids) := by
  intro f
  induction f with
  | nil => intro _ _ _ a ha; simp [Forest.ids] at ha
  | cons id k r ihk ihr =>
    intro p prev hrep a ha
    simp only [Rep] at hrep
    obtain ⟨hnode, hk, hr⟩ := hrep
    simp only [Forest.ids, List.mem_cons, List.mem_append] at ha ⊢
    rcases ha with rfl | ha | ha
    · cases h0 : s.heap a with
      | none => rw [h0] at hnode; exact hnode.elim
      | some n =>
        rw [h0] at hnode
        exact ⟨p, by simp [parentOf, h0, hnode.1], Or.inl rfl⟩
    · obtain ⟨q, h1, h2⟩ := ihk id none hk a ha
      refine ⟨q, h1, Or.inr ?_⟩
      rcases h2 with rfl | h2
      · exact Or.inl rfl
      · exact Or.inr (Or.inl h2)
    · obtain ⟨q, h1, h2⟩ := ihr p (some id) hr a ha
      refine ⟨q, h1, ?_⟩
      rcases h2 with rfl | h2
      · exact Or.inl rfl
      · exact Or.inr (Or.inr (Or.inr h2))

theorem chainUp_append {s : State} (id p : Nat) (hid : parentOf s id = some p) :
    ∀ (l : List Nat) (a : Nat), ChainUp s a l id → ChainUp s a (l ++ [id]) p := by
  intro l
  induction l with
  | nil => intro a h; exact ⟨h, hid⟩
  | cons q l ih => intro a h; exact ⟨h.1, ih q h.2⟩

/-- A parent chain that starts inside the children `k` of `id` and ends at a
node outside passes through `id`. -/
theorem chainUp_split {s : State} (k : Forest) (id p : Nat) (hk : Rep s (some id) none k)
    (hid : parentOf s id = some p) (hpk : p ∉ k.ids) (hne : id ≠ p) :
    ∀ (l : List Nat) (a : Nat), a ∈ k.ids → ChainUp s a l p → p ∉ l →
      ∃ l', l = l' ++ [id] ∧ ChainUp s a l' id := by
  intro l
  induction l with
  | nil =>
    intro a ha h _
    obtain ⟨q, h1, h2⟩ := rep_parent_mem k id none hk a ha
    have h' : parentOf s a = some p := h
    rw [h1] at h'
    simp only [Option.some.injEq] at h'
    subst h'
    rcases h2 with h2 | h2
    · exact absurd h2.symm hne
    · exact absurd h2 hpk
  | cons q l ih =>
    intro a ha h hpl
    obtain ⟨h1, h2⟩ := h
    obtain ⟨q', e1, e2⟩ := rep_parent_mem k id none hk a ha
    rw [h1] at e1
    simp only [Option.some.injEq] at e1
    subst e1
    simp only [List.mem_cons, not_or] at hpl
    rcases e2 with rfl | e2
    · cases l with
      | nil => exact ⟨[], rfl, h1⟩
      | cons q2 l2 =>
        have := h2.1
        rw [hid] at this
        simp only [Option.some.injEq] at this
        subst this
        simp at hpl
    · obtain ⟨l', hl', hc⟩ := ih q e2 h2 hpl.2
      exact ⟨q :: l', by rw [hl']; rfl, h1, hc⟩

theorem chainUp_mem_parent {s : State} (top : Nat) : ∀ (l : List Nat) (a : Nat),
    ChainUp s a l top → ∀ q ∈ l, ∃ q', parentOf s q = some q' ∧ (q' ∈ l ∨ q' = top) := by
  intro l
  induction l with
  | nil => intro _ _ q hq; simp at hq
  | cons x l ih =>
    intro a h q hq
    obtain ⟨_, h2⟩ := h
    simp only [List.mem_cons] at hq
    rcases hq with rfl | hq
    · cases l with
      | nil => exact ⟨top, h2, Or.inr rfl⟩
      | cons y l2 => exact ⟨y, h2.1, Or.inl (by simp)⟩
    · obtain ⟨q', e1, e2⟩ := ih x h2 q hq
      refine ⟨q', e1, ?_⟩
      rcases e2 with e2 | e2
      · exact Or.inl (List.mem_cons_of_mem _ e2)
      · exact Or.inr e2

theorem mem_preorder_chain {s : State} : ∀ (f : Forest) (p : Nat) (prev : Option Nat),
    Rep s (some p) prev f → ∀ a, a ∈ f.preorder (isOpen s false) →
      ∃ l, ChainUp s a l p ∧ (∀ q ∈ l, q ∈ f.ids) ∧ ∀ q ∈ l, isOpen s false q = true := by
  intro f
  induction f with
  | nil => intro _ _ _ a ha; simp [Forest.preorder] at ha
  | cons id k r ihk ihr =>
    intro p prev hrep a ha
    have hrep' := hrep
    simp only [Rep] at hrep
    obtain ⟨hnode, hk, hr⟩ := hrep
    have hid : parentOf s id = some p := by
      cases h0 : s.heap id with
      | none => rw [h0] at hnode; exact hnode.elim
      | some n =>
        rw [h0] at hnode
        simp [parentOf, h0, hnode.1]
    simp only [Forest.preorder, List.mem_cons, List.mem_append] at ha
    rcases ha with rfl | ha | ha
    · exact ⟨[], hid, by simp, by simp⟩
    · split at ha
      · rename_i hopen
        obtain ⟨l, h1, h2, h3⟩ := ihk id none hk a ha
        refine ⟨l ++ [id], chainUp_append id p hid l a h1, ?_, ?_⟩
        · intro q hq
          simp only [List.mem_append, List.mem_singleton] at hq
          simp only [Forest.ids, List.mem_cons, List.mem_append]
          rcases hq with hq | rfl
          · exact Or.inr (Or.inl (h2 q hq))
          · exact Or.inl rfl
        · intro q hq
          simp only [List.mem_append, List.mem_singleton] at hq
          rcases hq with hq | rfl
          · exact h3 q hq
          · exact hopen
      · simp at ha
    · obtain ⟨l, h1, h2, h3⟩ := ihr p (some id) hr a ha
      refine ⟨l, h1, ?_, h3⟩
      intro q hq
      simp only [Forest.ids, List.mem_cons, List.mem_append]
      exact Or.inr (Or.inr (h2 q hq))

theorem chain_mem_preorder {s : State} : ∀ (f : Forest) (p : Nat) (prev : Option Nat),
    Rep s (some p) prev f → p ∉ f.ids → ∀ a l, a ∈ f.ids → ChainUp s a l p → p ∉ l →
      (∀ q ∈ l, isOpen s false q = true) → a ∈ f.preorder (isOpen s false) := by
  intro f
  induction f with
  | nil => intro _ _ _ _ a _ ha; simp [Forest.ids] at ha
  | cons id k r ihk ihr =>
    intro p prev hrep hp a l ha hc hpl hopen
    simp only [Rep] at hrep
    obtain ⟨hnode, hk, hr⟩ := hrep
    have hid : parentOf s id = some p := by
      cases h0 : s.heap id with
      | none => rw [h0] at hnode; exact hnode.elim
      | some n =>
        rw [h0] at hnode
        simp [parentOf, h0, hnode.1]
    simp only [Forest.ids, List.mem_cons, List.mem_append, not_or] at hp ha
    simp only [Forest.preorder, List.mem_cons, List.mem_append]
    rcases ha with rfl | ha | ha
    · exact Or.inl rfl
    · obtain ⟨l', hl', hc'⟩ := chainUp_split k id p hk hid hp.2.1 (fun h => hp.1 h.symm) l a ha hc hpl
      subst hl'
      have hoid : isOpen s false id = true := hopen id (by simp)
      rw [if_pos hoid]
      refine Or.inr (Or.inl (ihk id none hk ?_ a l' ha hc' ?_ ?_))
      · intro h
        obtain ⟨q, e1, e2⟩ := rep_parent_mem k id none hk id h
        rw [hid] at e1
        simp only [Option.some.injEq] at e1
        subst e1
        rcases e2 with e2 | e2
        · exact hp.1 e2
        · exact hp.2.1 e2
      · intro h
        obtain ⟨q', e1, e2⟩ := chainUp_mem_parent id l' a hc' id h
        rw [hid] at e1
        simp only [Option.some.injEq] at e1
        subst e1
        rcases e2 with e2 | e2
        · exact hpl (by simp [e2])
        · exact hp.1 e2
      · intro q hq
        exact hopen q (by simp [hq])
    · exact Or.inr (Or.inr (ihr p (some id) hr hp.2.2 a l ha hc hpl hopen))

/-- The rows of the visible walk below `root` are the nodes of the shape whose
ancestors up to `root` are all expanded. -/
theorem mem_walk_order_iff (s : State) (root : Nat) (f : Forest) (hsub : SubtreeAt s root f)
    (a : Nat) : a ∈ walk_order s false root f ↔ VisibleRow s root f a := by
  obtain ⟨_, hrep, hnot⟩ := hsub
  unfold walk_order VisibleRow
  constructor
  · intro ha
    split at ha
    · rename_i hopen
      obtain ⟨l, h1, h2, h3⟩ := mem_preorder_chain f root none hrep a ha
      refine ⟨preorder_subset_ids _ f a ha, l, h1, fun h => hnot (h2 root h), ?_⟩
      intro q hq
      simp only [List.mem_cons] at hq
      rcases hq with rfl | hq
      · exact hopen
      · exact h3 q hq
    · simp at ha
  · rintro ⟨ha, l, h1, h2, h3⟩
    rw [if_pos (h3 root (List.mem_cons_self _ _))]
    exact chain_mem_preorder f root none hrep hnot a l ha h1 h2
      (fun q hq => h3 q (List.mem_cons_of_mem _ hq))

/-! ## Selection queries and updates -/

theorem has_iterate (g : treeview_globals) (s : State) :
    ∀ (l : List Nat) (sw : treeview_selection_walk_data),
    sw.purpose = .TREEVIEW_WALK_HAS_SELECTION → (∀ a ∈ l, s.heap a ≠ none) →
    ∃ sw', iterate_cb (treeview_node_selection_walk_cb g) l s sw =
        .ok (l.any (selectedOf s), s, sw') ∧
      sw'.has_selection = (sw.has_selection || l.any (selectedOf s)) := by
  intro l
  induction l with
  | nil => intro sw _ _; exact ⟨sw, rfl, by simp⟩
  | cons x xs ih =>
    intro sw hp hall
    obtain ⟨n, hn⟩ := Option.ne_none_iff_exists'.mp (hall x (List.mem_cons_self _ _))
    cases hsel : n.selected with
    | true =>
      refine ⟨{ sw with current_y := sw.current_y + node_row_height g n, has_selection := true },
        ?_, ?_⟩
      · simp [iterate_cb, treeview_node_selection_walk_cb, load, hn, hp, hsel, bind, Except.bind,
          pure, Except.pure, selectedOf]
      · simp [selectedOf, hn, hsel]
    | false =>
      obtain ⟨sw', h1, h2⟩ := ih { sw with current_y := sw.current_y + node_row_height g n } hp
        (fun a ha => hall a (List.mem_cons_of_mem _ ha))
      refine ⟨sw', ?_, ?_⟩
      · simp only [iterate_cb, treeview_node_selection_walk_cb, load, hn, hp, hsel, bind,
          Except.bind, pure, Except.pure, Bool.false_eq_true, if_false]
        rw [hp] at h1
        rw [h1]
        simp [selectedOf, hn, hsel]
      · rw [h2]
        simp [selectedOf, hn, hsel]

/-- What `treeview_has_selection` returns on a well-linked tree. -/
theorem has_selection_run (g : treeview_globals) (tree : treeview) (s : State) (f : Forest)
    (fuel : Nat) (hsub : SubtreeAt s tree.root f) (hfuel : 2 * f.size + 2 ≤ fuel) :
    treeview_has_selection g fuel tree s =
      .ok ((walk_order s false tree.root f).any (selectedOf s), s) := by
  obtain ⟨sw', h1, h2⟩ := has_iterate g s (walk_order s false tree.root f)
    { purpose := .TREEVIEW_WALK_HAS_SELECTION, has_selection := false, required := false,
      rect := { x0 := 0, y0 := 0, x1 := 0, y1 := 0 }, current_y := 0 } rfl
    (walk_order_alloc s false tree.root f hsub)
  simp only [treeview_has_selection, bind, Except.bind]
  rw [walk_internal_eq_iterate s (LinkEq s) (fun _ h => h) tree.root false
    (treeview_node_selection_walk_cb g)
    (fun x s1 c b1 s' c' h1 h2 => sel_cb_linkEq g s x s1 s' c c' b1 h1 h2) f hsub s
    (linkEq_refl s) fuel hfuel, h1]
  simp only [pure, Except.pure, h2, Bool.false_or]

theorem any_visible_iff (s : State) (root : Nat) (f : Forest) (hsub : SubtreeAt s root f)
    (p : Nat → Bool) :
    (walk_order s false root f).any p = true ↔ ∃ a, VisibleRow s root f a ∧ p a = true := by
  simp only [List.any_eq_true]
  constructor
  · rintro ⟨a, ha, hp⟩
    exact ⟨a, (mem_walk_order_iff s root f hsub a).mp ha, hp⟩
  · rintro ⟨a, ha, hp⟩
    exact ⟨a, (mem_walk_order_iff s root f hsub a).mpr ha, hp⟩

/-- C18.  On a tree whose root holds the shape `f`, `treeview_has_selection`
returns (for every fuel from `2 * f.size + 2` on) `true` if and only if some
visible row, that is a node of `f` whose ancestors up to the root are all
expanded, has its selected flag set; the memory it returns is the one it was
given. -/
theorem has_selection_iff_visible_selected (g : treeview_globals) (tree : treeview) (s : State)
    (f : Forest) (fuel : Nat) (hsub : SubtreeAt s tree.root f)
    (hfuel : 2 * f.size + 2 ≤ fuel) :
    ∃ b, treeview_has_selection g fuel tree s = .ok (b, s) ∧
      (b = true ↔ ∃ a, VisibleRow s tree.root f a ∧ selectedOf s a = true) :=
  ⟨_, has_selection_run g tree s f fuel hsub hfuel,
    any_visible_iff s tree.root f hsub (selectedOf s)⟩
/-- What `treeview_clear_selection` (`b = false`) and `treeview_select_all`
(`b = true`) return on a well-linked tree: whether a visible row had another
flag than `b`, the memory with the flags of the visible rows set to `b`, and
the rectangle. -/
theorem selection_walk_ok (g : treeview_globals) (tree : treeview) (s : State) (f : Forest)
    (fuel : Nat) (b : Bool) (hsub : SubtreeAt s tree.root f) (hnd : f.ids.Nodup)
    (hfuel : 2 * f.size + 2 ≤ fuel) :
    ∃ r, selection_walk g fuel tree s (purpose_of b) =
        .ok ((walk_order s false tree.root f).any (sel_changed s b),
          set_selected s (walk_order s false tree.root f) b, r) ∧
      r.x0 = 0 ∧ r.x1 = REDRAW_MAX ∧
      r.y0 = (if (walk_order s false tree.root f).any (sel_changed s b) = true then
          (((walk_order s false tree.root f).takeWhile
            (fun a => !sel_changed s b a)).map (rowHeightOf g s)).sum
        else 0) ∧
      ((∀ a ∈ walk_order s false tree.root f, 0 ≤ rowHeightOf g s a) →
        r.y1 = (if (walk_order s false tree.root f).any (sel_changed s b) = true then
            ((upto_last (sel_changed s b) (walk_order s false tree.root f)).map
              (rowHeightOf g s)).sum
          else 0)) := by
  obtain ⟨sw', hrun, _, _, e3, e4, e5, e6, e7⟩ := selection_walk_run g tree.root s f fuel b
    { purpose := purpose_of b, has_selection := false, required := false,
      rect := { x0 := 0, y0 := 0, x1 := REDRAW_MAX, y1 := 0 }, current_y := 0 }
    hsub hnd hfuel rfl
  refine ⟨sw'.rect, ?_, e3, e4, ?_, ?_⟩
  · simp only [selection_walk, bind, Except.bind, hrun, pure, Except.pure, e5, Bool.false_or]
  · rw [e6]
    simp only [Bool.false_or, Bool.not_eq_true', zero_add]
    cases (walk_order s false tree.root f).any (sel_changed s b) <;> simp
  · intro hh
    rw [(e7 hh (le_refl _)).1]
    simp only [zero_add]

theorem selectedOf_set_selected_mem (s : State) (l : List Nat) (b : Bool) (a : Nat)
    (ha : a ∈ l) (hal : s.heap a ≠ none) : selectedOf (set_selected s l b) a = b := by
  rw [selectedOf_set_selected, if_pos ha]
  cases h : s.heap a with
  | none => exact absurd h hal
  | some n => simp

theorem visibleRow_linkEq {s s' : State} (h : LinkEq s s') (root : Nat) (f : Forest)
    (hsub : SubtreeAt s root f) (a : Nat) : VisibleRow s' root f a ↔ VisibleRow s root f a := by
  rw [← mem_walk_order_iff s' root f (SubtreeAt_linkEq h root f hsub),
    ← mem_walk_order_iff s root f hsub, walk_order_linkEq h]

/-- C19.  On a tree whose root holds the shape `f` (its nodes distinct),
`treeview_clear_selection` returns for every fuel from `2 * f.size + 2` on;
afterwards every visible row is unselected and `treeview_has_selection`
returns `false`, and the flag returned is `true` exactly when some visible row
was selected before.  Likewise after `treeview_select_all` every visible row is
selected, and the flag returned is `true` exactly when some visible row was
unselected before.  The visible rows are the same before and after. -/
theorem selection_postcondition (g : treeview_globals) (tree : treeview) (s : State)
    (f : Forest) (fuel : Nat) (hsub : SubtreeAt s tree.root f) (hnd : f.ids.Nodup)
    (hfuel : 2 * f.size + 2 ≤ fuel) :
    (∃ c s' r, treeview_clear_selection g fuel tree s = .ok (c, s', r) ∧
      (∀ a, VisibleRow s' tree.root f a ↔ VisibleRow s tree.root f a) ∧
      (∀ a, VisibleRow s' tree.root f a → selectedOf s' a = false) ∧
      treeview_has_selection g fuel tree s' = .ok (false, s') ∧
      (c = true ↔ ∃ a, VisibleRow s tree.root f a ∧ selectedOf s a = true)) ∧
    (∃ c s' r, treeview_select_all g fuel tree s = .ok (c, s', r) ∧
      (∀ a, VisibleRow s' tree.root f a ↔ VisibleRow s tree.root f a) ∧
      (∀ a, VisibleRow s' tree.root f a → selectedOf s' a = true) ∧
      (c = true ↔ ∃ a, VisibleRow s tree.root f a ∧ selectedOf s a = false)) := by
  have hvis : ∀ b a, VisibleRow (set_selected s (walk_order s false tree.root f) b) tree.root f a ↔
      VisibleRow s tree.root f a := fun b a =>
    visibleRow_linkEq (set_selected_linkEq s _ b) tree.root f hsub a
  have hsel : ∀ b a, VisibleRow (set_selected s (walk_order s false tree.root f) b) tree.root f a →
      selectedOf (set_selected s (walk_order s false tree.root f) b) a = b := by
    intro b a ha
    have hm := (mem_walk_order_iff s tree.root f hsub a).mpr ((hvis b a).mp ha)
    exact selectedOf_set_selected_mem s _ b a hm (walk_order_alloc s false tree.root f hsub a hm)
  refine ⟨?_, ?_⟩
  · obtain ⟨r, hrun, _⟩ := selection_walk_ok g tree s f fuel false hsub hnd hfuel
    refine ⟨_, _, r, hrun, hvis false, hsel false, ?_, ?_⟩
    · have hsub' := SubtreeAt_linkEq (set_selected_linkEq s (walk_order s false tree.root f) false)
        tree.root f hsub
      rw [has_selection_run g tree _ f fuel hsub' hfuel]
      have : (walk_order (set_selected s (walk_order s false tree.root f) false) false tree.root
          f).any (selectedOf (set_selected s (walk_order s false tree.root f) false)) = false := by
        rw [List.any_eq_false]
        intro a ha
        rw [hsel false a ((mem_walk_order_iff _ tree.root f hsub' a).mp ha)]
        simp
      rw [this]
    · rw [any_visible_iff s tree.root f hsub]
      simp [sel_changed]
  · obtain ⟨r, hrun, _⟩ := selection_walk_ok g tree s f fuel true hsub hnd hfuel
    refine ⟨_, _, r, hrun, hvis true, hsel true, ?_⟩
    rw [any_visible_iff s tree.root f hsub]
    simp [sel_changed]

/-- C20.  On a tree whose root holds the shape `f` (its nodes distinct, the
rows of non-negative height), the rectangle that `treeview_clear_selection`
(`b = false`) or `treeview_select_all` (`b = true`) writes has `x0 = 0` and
`x1 = REDRAW_MAX = 8000`.  When a row changes (`c = true`), `y0` is the sum of
the row heights of the visible rows before the first changed one, and `y1`
the sum of the row heights of the visible rows up to and including the last
changed one; the row height is the height of an entry and `line_height` for a
folder.  When no row changes the rectangle is `(0, 0, 8000, 0)`. -/
theorem selection_dirty_rect (g : treeview_globals) (tree : treeview) (s : State)
    (f : Forest) (fuel : Nat) (b : Bool) (hsub : SubtreeAt s tree.root f) (hnd : f.ids.Nodup)
    (hfuel : 2 * f.size + 2 ≤ fuel)
    (hh : ∀ a ∈ walk_order s false tree.root f, 0 ≤ rowHeightOf g s a) :
    ∃ c s' r, (if b then treeview_select_all g fuel tree s
        else treeview_clear_selection g fuel tree s) = .ok (c, s', r) ∧
      c = (walk_order s false tree.root f).any (fun a => selectedOf s a != b) ∧
      r.x0 = 0 ∧ r.x1 = 8000 ∧
      (c = true →
        r.y0 = (((walk_order s false tree.root f).takeWhile
          (fun a => selectedOf s a == b)).map (rowHeightOf g s)).sum ∧
        r.y1 = ((upto_last (fun a => selectedOf s a != b)
          (walk_order s false tree.root f)).map (rowHeightOf g s)).sum) ∧
      (c = false → r = { x0 := 0, y0 := 0, x1 := 8000, y1 := 0 }) ∧
      (∀ a, rowHeightOf g s a = match s.heap a with
        | some n => if n.type = .TREE_NODE_ENTRY then n.height else g.line_height
        | none => 0) := by
  obtain ⟨r, hrun, e1, e2, e3, e4⟩ := selection_walk_ok g tree s f fuel b hsub hnd hfuel
  have e5 := e4 hh
  refine ⟨(walk_order s false tree.root f).any (sel_changed s b),
    set_selected s (walk_order s false tree.root f) b, r, ?_, rfl, e1, e2, ?_, ?_, fun a => rfl⟩
  · cases b
    · exact hrun
    · exact hrun
  · intro hc
    have hc' : (walk_order s false tree.root f).any (sel_changed s b) = true := hc
    rw [e3, e5, if_pos hc', if_pos hc']
    refine ⟨?_, rfl⟩
    have : (fun a => !sel_changed s b a) = (fun a => selectedOf s a == b) := by
      funext a
      show (!(selectedOf s a != b)) = (selectedOf s a == b)
      cases selectedOf s a <;> cases b <;> rfl
    rw [this]
  · intro hc
    have hc' : (walk_order s false tree.root f).any (sel_changed s b) = false := hc
    rw [hc'] at e3 e5
    simp only [Bool.false_eq_true, if_false] at e3 e5
    cases r
    simp only [rect.mk.injEq] at e1 e2 e3 e5 ⊢
    exact ⟨e1, e3, e2, e5⟩
theorem has_selection_iff_visible_selected_witness :
    ∃ b, treeview_has_selection exG 14 ⟨0, [], 1, 0⟩ exSelState = .ok (b, exSelState) ∧
      (b = true ↔ ∃ a, VisibleRow exSelState 0 exForest a ∧ selectedOf exSelState a = true) :=
  has_selection_iff_visible_selected exG ⟨0, [], 1, 0⟩ exSelState exForest 14 (by decide)
    (by decide)

theorem selection_postcondition_witness :
    ∃ c s' r, treeview_clear_selection exG 14 ⟨0, [], 1, 0⟩ exSelState = .ok (c, s', r) ∧
      (∀ a, VisibleRow s' 0 exForest a → selectedOf s' a = false) ∧
      treeview_has_selection exG 14 ⟨0, [], 1, 0⟩ s' = .ok (false, s') := by
  obtain ⟨c, s', r, h1, _, h3, h4, _⟩ := (selection_postcondition exG ⟨0, [], 1, 0⟩ exSelState
    exForest 14 (by decide) (by decide) (by decide)).1
  exact ⟨c, s', r, h1, h3, h4⟩

theorem selection_dirty_rect_witness :
    ∃ s', treeview_clear_selection exG 14 ⟨0, [], 1, 0⟩ exSelState =
      .ok (true, s', { x0 := 0, y0 := 20, x1 := 8000, y1 := 40 }) := by
  obtain ⟨c, s', r, h1, h2, h3, h4, h5, _⟩ := selection_dirty_rect exG ⟨0, [], 1, 0⟩ exSelState
    exForest 14 false (by decide) (by decide) (by decide) (by decide)
  have hc : c = true := by
    rw [h2]
    decide
  obtain ⟨h6, h7⟩ := h5 hc
  have h8 : r.y0 = 20 := by
    rw [h6]
    decide
  have h9 : r.y1 = 40 := by
    rw [h7]
    decide
  simp only [Bool.false_eq_true, if_false] at h1
  refine ⟨s', ?_⟩
  rw [h1, hc]
  cases r
  simp only [] at h3 h4 h8 h9
  rw [h3, h4, h8, h9]

/-! ## Frame of expanding and contracting -/

theorem bind_ok_inv {ε α β : Type} {x : Except ε α} {f : α → Except ε β} {r : β}
    (h : (x >>= f) = .ok r) : ∃ a, x = .ok a ∧ f a = .ok r := by
  cases x with
  | error e => simp [bind, Except.bind] at h
  | ok a => exact ⟨a, rfl, h⟩

theorem stableEq_refl (s : State) : StableEq s s := ⟨rfl, fun _ => rfl⟩

theorem stableEq_trans {s1 s2 s3 : State} (h1 : StableEq s1 s2) (h2 : StableEq s2 s3) :
    StableEq s1 s3 :=
  ⟨h2.1.trans h1.1, fun a => (h2.2 a).trans (h1.2 a)⟩

theorem modify_stable {s s' : State} {x : Nat} {f : treeview_node → treeview_node}
    (h : modify s x f = .ok s') (hf : ∀ n, stable (f n) = stable n) : StableEq s s' := by
  cases hx : s.heap x with
  | none => simp [modify, hx] at h
  | some n =>
    simp only [modify, hx, Except.ok.injEq] at h
    subst h
    refine ⟨rfl, fun a => ?_⟩
    by_cases ha : a = x
    · subst ha
      simp [hx, hf]
    · simp [ha]

theorem measure_field_unmeasured (font_width : List Nat → Nat → Int) :
    ∀ (fs : List treeview_field) (i : Nat),
    (measure_field font_width i fs).map unmeasured = fs.map unmeasured := by
  intro fs
  induction fs with
  | nil => intro i; simp [measure_field]
  | cons f fs ih =>
    intro i
    cases i with
    | zero => simp [measure_field, unmeasured]
    | succ j => simp [measure_field, ih]

theorem expand_height_loop_stable (d : Int) : ∀ (fuel : Nat) (s : State) (node : Nat)
    (r : State × Nat), expand_height_loop d fuel s node = .ok r → StableEq s r.1 := by
  intro fuel
  induction fuel with
  | zero => intro s node r h; simp [expand_height_loop] at h
  | succ f ih =>
    intro s node r h
    rw [expand_height_loop] at h
    obtain ⟨s1, h1, h⟩ := bind_ok_inv h
    obtain ⟨n1, _, h⟩ := bind_ok_inv h
    obtain ⟨p, _, h⟩ := bind_ok_inv h
    obtain ⟨np, _, h⟩ := bind_ok_inv h
    have e1 := modify_stable h1 (fun _ => rfl)
    split at h
    · exact stableEq_trans e1 (ih _ _ _ h)
    · simp only [pure, Except.pure, Except.ok.injEq] at h
      subst h
      exact e1

theorem contract_height_loop_stable (d : Int) : ∀ (fuel : Nat) (s : State) (node : Nat)
    (s' : State), contract_height_loop d fuel s node = .ok s' → StableEq s s' := by
  intro fuel
  induction fuel with
  | zero => intro s node r h; simp [contract_height_loop] at h
  | succ f ih =>
    intro s node r h
    rw [contract_height_loop] at h
    obtain ⟨s1, h1, h⟩ := bind_ok_inv h
    obtain ⟨n1, _, h⟩ := bind_ok_inv h
    obtain ⟨p, _, h⟩ := bind_ok_inv h
    obtain ⟨np, _, h⟩ := bind_ok_inv h
    have e1 := modify_stable h1 (fun _ => rfl)
    split at h
    · simp only [pure, Except.pure, Except.ok.injEq] at h
      subst h
      exact e1
    · obtain ⟨npp, _, h⟩ := bind_ok_inv h
      split at h
      · exact stableEq_trans e1 (ih _ _ _ h)
      · simp only [pure, Except.pure, Except.ok.injEq] at h
        subst h
        exact e1

theorem expand_children_loop_stable (font_width : List Nat → Nat → Int) :
    ∀ (fuel : Nat) (s : State) (child : Nat) (acc : Int) (r : State × Int),
    expand_children_loop font_width fuel s child acc = .ok r → StableEq s r.1 := by
  intro fuel
  induction fuel with
  | zero => intro s b acc r h; simp [expand_children_loop] at h
  | succ f ih =>
    intro s child acc r h
    rw [expand_children_loop] at h
    obtain ⟨nc, _, h⟩ := bind_ok_inv h
    obtain ⟨_, _, h⟩ := bind_ok_inv h
    obtain ⟨s1, h1, h⟩ := bind_ok_inv h
    obtain ⟨nc1, _, h⟩ := bind_ok_inv h
    have e1 : StableEq s s1 := by
      split at h1
      · exact modify_stable h1 (fun _ => rfl)
      · simp only [pure, Except.pure, Except.ok.injEq] at h1
        subst h1
        exact stableEq_refl s
    split at h
    · exact stableEq_trans e1 (ih _ _ _ _ h)
    · simp only [pure, Except.pure, Except.ok.injEq] at h
      subst h
      exact e1

theorem expand_fields_loop_stable (g : treeview_globals) (font_width : List Nat → Nat → Int)
    (tree : treeview) (node : Nat) :
    ∀ (fuel i : Nat) (s : State) (acc : Int) (r : State × Int),
    expand_fields_loop g font_width tree node fuel i s acc = .ok r → StableEq s r.1 := by
  intro fuel
  induction fuel with
  | zero => intro i s acc r h; simp [expand_fields_loop] at h
  | succ f ih =>
    intro i s acc r h
    rw [expand_fields_loop] at h
    split at h
    · obtain ⟨e, _, h⟩ := bind_ok_inv h
      obtain ⟨fld, _, h⟩ := bind_ok_inv h
      obtain ⟨s1, h1, h⟩ := bind_ok_inv h
      have e1 : StableEq s s1 := by
        split at h1
        · refine modify_stable h1 (fun n => ?_)
          simp only [stable, measure_field_unmeasured]
        · simp only [pure, Except.pure, Except.ok.injEq] at h1
          subst h1
          exact stableEq_refl s
      exact stableEq_trans e1 (ih _ _ _ _ h)
    · simp only [pure, Except.pure, Except.ok.injEq] at h
      subst h
      exact stableEq_refl s
theorem treeview_node_expand_stable (g : treeview_globals) (font_width : List Nat → Nat → Int)
    (fuel : Nat) (tree : treeview) (s : State) (node : Nat) (r : nserror × State)
    (h : treeview_node_expand g font_width fuel tree s node = .ok r) : StableEq s r.2 := by
  rw [treeview_node_expand] at h
  obtain ⟨n, _, h⟩ := bind_ok_inv h
  split at h
  · simp only [pure, Except.pure, Except.ok.injEq] at h
    subst h
    exact stableEq_refl s
  · split at h
    · split at h
      · simp only [pure, Except.pure, Except.ok.injEq] at h
        subst h
        exact stableEq_refl s
      · obtain ⟨r1, h1, h⟩ := bind_ok_inv h
        obtain ⟨s2, h2, h⟩ := bind_ok_inv h
        obtain ⟨r3, h3, h⟩ := bind_ok_inv h
        obtain ⟨s4, h4, h⟩ := bind_ok_inv h
        simp only [pure, Except.pure, Except.ok.injEq] at h
        subst h
        exact stableEq_trans (stableEq_trans (stableEq_trans
          (expand_children_loop_stable font_width _ _ _ _ _ h1)
          (modify_stable h2 (fun _ => rfl)))
          (expand_height_loop_stable _ _ _ _ _ h3)) (modify_stable h4 (fun _ => rfl))
    · obtain ⟨_, _, h⟩ := bind_ok_inv h
      obtain ⟨r1, h1, h⟩ := bind_ok_inv h
      obtain ⟨s2, h2, h⟩ := bind_ok_inv h
      obtain ⟨r3, h3, h⟩ := bind_ok_inv h
      obtain ⟨s4, h4, h⟩ := bind_ok_inv h
      simp only [pure, Except.pure, Except.ok.injEq] at h
      subst h
      exact stableEq_trans (stableEq_trans (stableEq_trans
        (expand_fields_loop_stable g font_width tree node _ _ _ _ _ h1)
        (modify_stable h2 (fun _ => rfl)))
        (expand_height_loop_stable _ _ _ _ _ h3)) (modify_stable h4 (fun _ => rfl))
    · cases h

/-- A walk leaves alone what its callback leaves alone. -/
theorem walk_loop_stable {σ : Type} (full : Bool)
    (cb : Nat → State → σ → Except Fault (Bool × State × σ)) (root : Nat)
    (hcb : ∀ x s c r, cb x s c = .ok r → StableEq s r.2.1) :
    ∀ (fuel node : Nat) (s : State) (c : σ) (r : Bool × State × σ),
    walk_loop full cb root fuel node s c = .ok r → StableEq s r.2.1 := by
  intro fuel
  induction fuel with
  | zero => intro node s c r h; simp [walk_loop] at h
  | succ f ih =>
    intro node s c r h
    rw [walk_loop] at h
    obtain ⟨n, _, h⟩ := bind_ok_inv h
    have visit : ∀ x, (do
        let (stop, s, ctx) ← cb x s c
        if stop then pure (true, s, ctx)
        else walk_loop full cb root f x s ctx) = Except.ok r → StableEq s r.2.1 := by
      intro x hx
      obtain ⟨r1, h1, hx⟩ := bind_ok_inv hx
      obtain ⟨stop, s1, c1⟩ := r1
      have e1 := hcb x s c _ h1
      simp only [] at hx
      split at hx
      · simp only [pure, Except.pure, Except.ok.injEq] at hx
        subst hx
        exact e1
      · exact stableEq_trans e1 (ih _ _ _ _ hx)
    simp only [] at h
    generalize (if (full || n.expanded) = true then n.children else none) = next at h
    cases next with
    | some child =>
      simp only [] at h
      split at h
      · cases h
      · exact visit _ h
    | none =>
      simp only [] at h
      obtain ⟨up, _, h⟩ := bind_ok_inv h
      split at h
      · simp only [pure, Except.pure, Except.ok.injEq] at h
        subst h
        exact stableEq_refl s
      · obtain ⟨nu, _, h⟩ := bind_ok_inv h
        split at h
        · cases h
        · split at h
          · cases h
          · exact visit _ h

theorem walk_internal_stable {σ : Type} (full : Bool)
    (cb : Nat → State → σ → Except Fault (Bool × State × σ))
    (hcb : ∀ x s c r, cb x s c = .ok r → StableEq s r.2.1)
    (fuel : Nat) (root : Option Nat) (s : State) (c : σ) (r : Bool × State × σ)
    (h : treeview_walk_internal fuel root full cb s c = .ok r) : StableEq s r.2.1 := by
  cases root with
  | none =>
    simp only [treeview_walk_internal, Except.ok.injEq] at h
    subst h
    exact stableEq_refl s
  | some root =>
    simp only [treeview_walk_internal] at h
    exact walk_loop_stable full cb root hcb _ _ _ _ _ h

theorem treeview_node_contract_cb_stable (g : treeview_globals) (fuel : Nat) (x : Nat)
    (s : State) (c : Unit) (r : Bool × State × Unit)
    (h : treeview_node_contract_cb g fuel x s c = .ok r) : StableEq s r.2.1 := by
  rw [treeview_node_contract_cb] at h
  obtain ⟨n, _, h⟩ := bind_ok_inv h
  obtain ⟨_, _, h⟩ := bind_ok_inv h
  split at h
  · simp only [pure, Except.pure, Except.ok.injEq] at h
    subst h
    exact stableEq_refl s
  · obtain ⟨s1, h1, h⟩ := bind_ok_inv h
    obtain ⟨n1, _, h⟩ := bind_ok_inv h
    obtain ⟨_, _, h⟩ := bind_ok_inv h
    obtain ⟨s2, h2, h⟩ := bind_ok_inv h
    simp only [pure, Except.pure, Except.ok.injEq] at h
    subst h
    exact stableEq_trans (modify_stable h1 (fun _ => rfl))
      (contract_height_loop_stable _ _ _ _ _ h2)

theorem treeview_node_contract_stable (g : treeview_globals) (fuel : Nat) (tree : treeview)
    (s : State) (node : Nat) (r : nserror × State)
    (h : treeview_node_contract g fuel tree s node = .ok r) : StableEq s r.2 := by
  rw [treeview_node_contract] at h
  obtain ⟨n, _, h⟩ := bind_ok_inv h
  split at h
  · simp only [pure, Except.pure, Except.ok.injEq] at h
    subst h
    exact stableEq_refl s
  · obtain ⟨r1, h1, h⟩ := bind_ok_inv h
    obtain ⟨r2, h2, h⟩ := bind_ok_inv h
    simp only [pure, Except.pure, Except.ok.injEq] at h
    subst h
    exact stableEq_trans
      (walk_internal_stable false _ (treeview_node_contract_cb_stable g fuel) _ _ _ _ _ h1)
      (treeview_node_contract_cb_stable g fuel _ _ _ _ h2)

/-! ## Pointer input -/

theorem mouse_cb_skip (g : treeview_globals) (font_width : List Nat → Nat → Int)
    (m : browser_mouse_masks) (fuel : Nat) (x : Nat) (s s' : State)
    (c c' : treeview_mouse_action_ctx)
    (h : treeview_node_mouse_action_cb g font_width m fuel x s c = .ok (false, s', c')) :
    s' = s := by
  rw [treeview_node_mouse_action_cb] at h
  obtain ⟨n, _, h⟩ := bind_ok_inv h
  simp only [] at h
  split at h
  · simp only [pure, Except.pure, Except.ok.injEq, Prod.mk.injEq, true_and] at h
    exact h.1.symm
  · obtain ⟨s1, _, h⟩ := bind_ok_inv h
    simp [pure, Except.pure] at h

theorem mouse_iterate (g : treeview_globals) (font_width : List Nat → Nat → Int)
    (m : browser_mouse_masks) (fuel : Nat) (tree : treeview) (s : State) (mouse : Nat)
    (x y : Int) : ∀ (l : List Nat) (cur : Int), (∀ a ∈ l, s.heap a ≠ none) →
    (iterate_cb (treeview_node_mouse_action_cb g font_width m fuel) l s
        { tree := tree, mouse := mouse, x := x, y := y, current_y := cur }).map (fun r => r.2.1) =
      match hit_scan g s y l cur with
      | none => .ok s
      | some (a, top) =>
        match s.heap a with
        | some n =>
          mouse_action_hit g font_width m fuel a n (node_row_height g n) s
            { tree := tree, mouse := mouse, x := x, y := y, current_y := top }
        | none => .error .null := by
  intro l
  induction l with
  | nil => intro cur _; rfl
  | cons a l ih =>
    intro cur hall
    obtain ⟨n, hn⟩ := Option.ne_none_iff_exists'.mp (hall a (List.mem_cons_self _ _))
    have hrow : rowHeightOf g s a = node_row_height g n := by simp [rowHeightOf, hn]
    simp only [hit_scan, iterate_cb, treeview_node_mouse_action_cb, load, hn, bind, Except.bind,
      hrow]
    by_cases hskip : y > cur + node_row_height g n
    · simp only [hskip, if_true, pure, Except.pure]
      exact ih _ (fun b hb => hall b (List.mem_cons_of_mem _ hb))
    · simp only [hskip, if_false, hn]
      cases mouse_action_hit g font_width m fuel a n (node_row_height g n) s
          { tree := tree, mouse := mouse, x := x, y := y, current_y := cur } with
      | error e => rfl
      | ok s1 => rfl

/-- A pointer dispatch on a well-linked tree acts on the row that `hit_scan`
finds among the visible rows, and on no other. -/
theorem mouse_action_eq (g : treeview_globals) (font_width : List Nat → Nat → Int)
    (m : browser_mouse_masks) (fuel : Nat) (tree : treeview) (s : State) (f : Forest)
    (mouse : Nat) (x y : Int) (hsub : SubtreeAt s tree.root f)
    (hfuel : 2 * f.size + 2 ≤ fuel) :
    treeview_mouse_action g font_width m fuel tree s mouse x y =
      mouse_dispatch g font_width m fuel tree s mouse x y (walk_order s false tree.root f) := by
  have hw := walk_internal_eq_iterate_cont s (fun s' => s' = s) (fun s' h => h ▸ linkEq_refl s)
    tree.root false (treeview_node_mouse_action_cb g font_width m fuel)
    (fun a s1 c s' c' h1 h2 => by
      subst h1
      exact mouse_cb_skip g font_width m fuel a _ s' c c' h2)
    f hsub s rfl fuel hfuel { tree := tree, mouse := mouse, x := x, y := y, current_y := 0 }
  have hi := mouse_iterate g font_width m fuel tree s mouse x y (walk_order s false tree.root f) 0
    (walk_order_alloc s false tree.root f hsub)
  unfold mouse_dispatch
  rw [← hi, ← hw]
  simp only [treeview_mouse_action, bind, Except.bind, pure, Except.pure, Except.map]
/-- The branch "toggle node expansion" of the pointer callback. -/
theorem hit_toggle (g : treeview_globals) (font_width : List Nat → Nat → Int)
    (m : browser_mouse_masks) (fuel : Nat) (node : Nat) (n n1 : treeview_node) (height : Int)
    (s s1 : State) (ma : treeview_mouse_action_ctx) (c : Bool) (r : rect)
    (h1 : ((decide (n.type = .TREE_NODE_FOLDER) &&
        mouse_has ma.mouse m.BROWSER_MOUSE_DOUBLE_CLICK &&
        mouse_has ma.mouse (m.BROWSER_MOUSE_CLICK_1 ||| m.BROWSER_MOUSE_CLICK_2)) ||
      (decide (ma.x ≥ n.inset - 1 ∧ ma.x < n.inset + g.step_width) &&
        mouse_has ma.mouse (m.BROWSER_MOUSE_CLICK_1 ||| m.BROWSER_MOUSE_CLICK_2))) = true)
    (hclear : treeview_clear_selection g fuel ma.tree s = .ok (c, s1, r))
    (hn1 : s1.heap node = some n1) :
    mouse_action_hit g font_width m fuel node n height s ma =
      match (if n1.expanded then treeview_node_contract g fuel ma.tree s1 node
          else treeview_node_expand g font_width fuel ma.tree s1 node) with
      | .ok (_, s2) => .ok (emit s2 (.redraw_request
          { x0 := r.x0, y0 := if r.y0 > ma.current_y then ma.current_y else r.y0, x1 := r.x1,
            y1 := REDRAW_MAX }))
      | .error e => .error e := by
  simp only [mouse_action_hit, h1, if_true, hclear, load, hn1, bind, Except.bind, pure,
    Except.pure]
  cases (if n1.expanded = true then treeview_node_contract g fuel ma.tree s1 node
      else treeview_node_expand g font_width fuel ma.tree s1 node) with
  | error e => rfl
  | ok r2 => rfl

/-- The branch that launches an entry. -/
theorem hit_launch (g : treeview_globals) (font_width : List Nat → Nat → Int)
    (m : browser_mouse_masks) (fuel : Nat) (node : Nat) (n n1 : treeview_node) (height : Int)
    (s s1 : State) (ma : treeview_mouse_action_ctx) (c : Bool) (r : rect)
    (h1 : ((decide (n.type = .TREE_NODE_FOLDER) &&
        mouse_has ma.mouse m.BROWSER_MOUSE_DOUBLE_CLICK &&
        mouse_has ma.mouse (m.BROWSER_MOUSE_CLICK_1 ||| m.BROWSER_MOUSE_CLICK_2)) ||
      (decide (ma.x ≥ n.inset - 1 ∧ ma.x < n.inset + g.step_width) &&
        mouse_has ma.mouse (m.BROWSER_MOUSE_CLICK_1 ||| m.BROWSER_MOUSE_CLICK_2))) = false)
    (h2 : (decide (n.type = .TREE_NODE_ENTRY) &&
        mouse_has ma.mouse m.BROWSER_MOUSE_DOUBLE_CLICK &&
        mouse_has ma.mouse (m.BROWSER_MOUSE_CLICK_1 ||| m.BROWSER_MOUSE_CLICK_2)) = true)
    (hclear : treeview_clear_selection g fuel ma.tree s = .ok (c, s1, r))
    (hn1 : s1.heap node = some n1) :
    mouse_action_hit g font_width m fuel node n height s ma =
      .ok (if c then
          emit (emit s1 (.entry (.TREE_MSG_NODE_LAUNCH ma.mouse) n1.client_data))
            (.redraw_request r)
        else emit s1 (.entry (.TREE_MSG_NODE_LAUNCH ma.mouse) n1.client_data)) := by
  simp only [mouse_action_hit, h1, h2, if_true, hclear, load, hn1, bind, Except.bind, pure,
    Except.pure, Bool.false_eq_true, if_false]

/-- The branch of a plain press on an unselected row. -/
theorem hit_press (g : treeview_globals) (font_width : List Nat → Nat → Int)
    (m : browser_mouse_masks) (fuel : Nat) (node : Nat) (n n1 : treeview_node) (height : Int)
    (s s1 : State) (ma : treeview_mouse_action_ctx) (c : Bool) (r : rect)
    (h1 : ((decide (n.type = .TREE_NODE_FOLDER) &&
        mouse_has ma.mouse m.BROWSER_MOUSE_DOUBLE_CLICK &&
        mouse_has ma.mouse (m.BROWSER_MOUSE_CLICK_1 ||| m.BROWSER_MOUSE_CLICK_2)) ||
      (decide (ma.x ≥ n.inset - 1 ∧ ma.x < n.inset + g.step_width) &&
        mouse_has ma.mouse (m.BROWSER_MOUSE_CLICK_1 ||| m.BROWSER_MOUSE_CLICK_2))) = false)
    (h2 : (decide (n.type = .TREE_NODE_ENTRY) &&
        mouse_has ma.mouse m.BROWSER_MOUSE_DOUBLE_CLICK &&
        mouse_has ma.mouse (m.BROWSER_MOUSE_CLICK_1 ||| m.BROWSER_MOUSE_CLICK_2)) = false)
    (h3 : (mouse_has ma.mouse m.BROWSER_MOUSE_PRESS_1 && !n.selected &&
        !decide (ma.x ≥ n.inset - 1 ∧ ma.x < n.inset + g.step_width)) = true)
    (hclear : treeview_clear_selection g fuel ma.tree s = .ok (c, s1, r))
    (hn1 : s1.heap node = some n1) :
    ∃ r', mouse_action_hit g font_width m fuel node n height s ma =
      .ok (emit (store s1 node { n1 with selected := !n1.selected }) (.redraw_request r')) := by
  cases c with
  | false =>
    refine ⟨{ r with y0 := ma.current_y, y1 := ma.current_y + height }, ?_⟩
    simp only [mouse_action_hit, h1, h2, h3, if_true, hclear, load, hn1, bind, Except.bind, pure,
      Except.pure, Bool.false_eq_true, if_false, modify]
  | true =>
    refine ⟨rect.mk r.x0 (if r.y0 > ma.current_y then ma.current_y else r.y0) r.x1
      (if r.y1 < ma.current_y + height then ma.current_y + height else r.y1), ?_⟩
    simp only [mouse_action_hit, h1, h2, h3, if_true, hclear, load, hn1, bind, Except.bind, pure,
      Except.pure, Bool.false_eq_true, if_false, modify, Bool.true_eq_false]

/-- The branch that toggles the selection of the row. -/
theorem hit_multi (g : treeview_globals) (font_width : List Nat → Nat → Int)
    (m : browser_mouse_masks) (fuel : Nat) (node : Nat) (n : treeview_node) (height : Int)
    (s : State) (ma : treeview_mouse_action_ctx)
    (h1 : ((decide (n.type = .TREE_NODE_FOLDER) &&
        mouse_has ma.mouse m.BROWSER_MOUSE_DOUBLE_CLICK &&
        mouse_has ma.mouse (m.BROWSER_MOUSE_CLICK_1 ||| m.BROWSER_MOUSE_CLICK_2)) ||
      (decide (ma.x ≥ n.inset - 1 ∧ ma.x < n.inset + g.step_width) &&
        mouse_has ma.mouse (m.BROWSER_MOUSE_CLICK_1 ||| m.BROWSER_MOUSE_CLICK_2))) = false)
    (h2 : (decide (n.type = .TREE_NODE_ENTRY) &&
        mouse_has ma.mouse m.BROWSER_MOUSE_DOUBLE_CLICK &&
        mouse_has ma.mouse (m.BROWSER_MOUSE_CLICK_1 ||| m.BROWSER_MOUSE_CLICK_2)) = false)
    (h3 : (mouse_has ma.mouse m.BROWSER_MOUSE_PRESS_1 && !n.selected &&
        !decide (ma.x ≥ n.inset - 1 ∧ ma.x < n.inset + g.step_width)) = false)
    (h4 : (mouse_has ma.mouse m.BROWSER_MOUSE_PRESS_2 ||
        (mouse_has ma.mouse m.BROWSER_MOUSE_PRESS_1 &&
          mouse_has ma.mouse m.BROWSER_MOUSE_MOD_2)) = true)
    (hn : s.heap node = some n) :
    mouse_action_hit g font_width m fuel node n height s ma =
      .ok (emit (store s node { n with selected := !n.selected }) (.redraw_request
        { x0 := 0, y0 := ma.current_y, x1 := REDRAW_MAX, y1 := ma.current_y + height })) := by
  simp only [mouse_action_hit, h1, h2, h3, h4, if_true, bind, Except.bind, pure,
    Except.pure, Bool.false_eq_true, if_false, modify, hn]

/-- No branch of the pointer callback applies. -/
theorem hit_none (g : treeview_globals) (font_width : List Nat → Nat → Int)
    (m : browser_mouse_masks) (fuel : Nat) (node : Nat) (n : treeview_node) (height : Int)
    (s : State) (ma : treeview_mouse_action_ctx)
    (h1 : ((decide (n.type = .TREE_NODE_FOLDER) &&
        mouse_has ma.mouse m.BROWSER_MOUSE_DOUBLE_CLICK &&
        mouse_has ma.mouse (m.BROWSER_MOUSE_CLICK_1 ||| m.BROWSER_MOUSE_CLICK_2)) ||
      (decide (ma.x ≥ n.inset - 1 ∧ ma.x < n.inset + g.step_width) &&
        mouse_has ma.mouse (m.BROWSER_MOUSE_CLICK_1 ||| m.BROWSER_MOUSE_CLICK_2))) = false)
    (h2 : (decide (n.type = .TREE_NODE_ENTRY) &&
        mouse_has ma.mouse m.BROWSER_MOUSE_DOUBLE_CLICK &&
        mouse_has ma.mouse (m.BROWSER_MOUSE_CLICK_1 ||| m.BROWSER_MOUSE_CLICK_2)) = false)
    (h3 : (mouse_has ma.mouse m.BROWSER_MOUSE_PRESS_1 && !n.selected &&
        !decide (ma.x ≥ n.inset - 1 ∧ ma.x < n.inset + g.step_width)) = false)
    (h4 : (mouse_has ma.mouse m.BROWSER_MOUSE_PRESS_2 ||
        (mouse_has ma.mouse m.BROWSER_MOUSE_PRESS_1 &&
          mouse_has ma.mouse m.BROWSER_MOUSE_MOD_2)) = false) :
    mouse_action_hit g font_width m fuel node n height s ma = .ok s := by
  simp only [mouse_action_hit, h1, h2, h3, h4, if_true, bind, Except.bind, pure,
    Except.pure, Bool.false_eq_true, if_false]

theorem hit_scan_split (g : treeview_globals) (s : State) (y : Int) :
    ∀ (l : List Nat) (cur : Int) (a : Nat) (top : Int), hit_scan g s y l cur = some (a, top) →
    ∃ pre rest, l = pre ++ a :: rest ∧ top = cur + (pre.map (rowHeightOf g s)).sum ∧
      ¬ (y > top + rowHeightOf g s a) ∧
      ∀ pre1 b pre2, pre = pre1 ++ b :: pre2 →
        y > cur + ((pre1 ++ [b]).map (rowHeightOf g s)).sum := by
  intro l
  induction l with
  | nil => intro cur a top h; simp [hit_scan] at h
  | cons x xs ih =>
    intro cur a top h
    simp only [hit_scan] at h
    split at h
    · rename_i hskip
      obtain ⟨pre, rest, h1, h2, h3, h4⟩ := ih _ a top h
      refine ⟨x :: pre, rest, by rw [h1]; rfl, ?_, h3, ?_⟩
      · rw [h2]
        simp only [List.map_cons, List.sum_cons]
        ring
      · intro pre1 b pre2 hp
        cases pre1 with
        | nil =>
          simp only [List.nil_append, List.cons.injEq] at hp
          obtain ⟨rfl, _⟩ := hp
          simpa using hskip
        | cons z zs =>
          simp only [List.cons_append, List.cons.injEq] at hp
          obtain ⟨rfl, hp⟩ := hp
          have := h4 zs b pre2 hp
          simp only [List.cons_append, List.map_cons, List.sum_cons]
          linarith
    · rename_i hskip
      simp only [Option.some.injEq, Prod.mk.injEq] at h
      obtain ⟨rfl, rfl⟩ := h
      refine ⟨[], xs, rfl, by simp, hskip, ?_⟩
      intro pre1 b pre2 hp
      simp at hp

theorem hit_scan_mem (g : treeview_globals) (s : State) (y : Int) (l : List Nat) (cur : Int)
    (a : Nat) (top : Int) (h : hit_scan g s y l cur = some (a, top)) : a ∈ l := by
  obtain ⟨pre, rest, h1, _⟩ := hit_scan_split g s y l cur a top h
  rw [h1]
  simp

/-- A pointer below the last row hits no row. -/
theorem hit_scan_below (g : treeview_globals) (s : State) (y : Int) :
    ∀ (l : List Nat) (cur : Int), (∀ a ∈ l, 0 ≤ rowHeightOf g s a) →
    y > cur + (l.map (rowHeightOf g s)).sum → hit_scan g s y l cur = none := by
  intro l
  induction l with
  | nil => intro _ _ _; rfl
  | cons x xs ih =>
    intro cur hh hy
    simp only [List.map_cons, List.sum_cons] at hy
    have hx := hh x (List.mem_cons_self _ _)
    have hs : 0 ≤ (xs.map (rowHeightOf g s)).sum :=
      List.sum_nonneg (fun v hv => by
        obtain ⟨a, ha, rfl⟩ := List.mem_map.mp hv
        exact hh a (List.mem_cons_of_mem _ ha))
    simp only [hit_scan]
    rw [if_pos (by linarith)]
    exact ih _ (fun a ha => hh a (List.mem_cons_of_mem _ ha)) (by linarith)

theorem set_selected_proj {α : Type} (f : treeview_node → α)
    (hf : ∀ k v, f { k with selected := v } = f k) (s : State) (l : List Nat) (b : Bool)
    (a : Nat) : ((set_selected s l b).heap a).map f = (s.heap a).map f := by
  simp only [set_selected]
  cases s.heap a with
  | none => rfl
  | some n =>
    simp only [Option.map_some', Option.some.injEq]
    split
    · exact hf n b
    · rfl

theorem set_selected_get (s : State) (l : List Nat) (b : Bool) (a : Nat) (n : treeview_node)
    (hn : s.heap a = some n) (ha : a ∈ l) :
    (set_selected s l b).heap a = some { n with selected := b } := by
  simp [set_selected, hn, ha]

/-- Clearing a selection that is empty changes nothing. -/
theorem set_selected_id (s : State) (l : List Nat) (b : Bool)
    (h : l.any (sel_changed s b) = false) : set_selected s l b = s := by
  refine State.ext' (fun a => ?_) rfl
  simp only [set_selected]
  cases hn : s.heap a with
  | none => rfl
  | some n =>
    simp only [Option.map_some', Option.some.injEq]
    split
    · rename_i ha
      have := List.any_eq_false.mp h a ha
      have hb : n.selected = b := by
        simpa [sel_changed, selectedOf, hn] using this
      rw [← hb, node_selected_eta]
    · rfl

theorem clear_selection_ok (g : treeview_globals) (tree : treeview) (s : State) (f : Forest)
    (fuel : Nat) (hsub : SubtreeAt s tree.root f) (hnd : f.ids.Nodup)
    (hfuel : 2 * f.size + 2 ≤ fuel) :
    ∃ r, treeview_clear_selection g fuel tree s =
      .ok ((walk_order s false tree.root f).any (selectedOf s),
        set_selected s (walk_order s false tree.root f) false, r) := by
  obtain ⟨r, h, _⟩ := selection_walk_ok g tree s f fuel false hsub hnd hfuel
  refine ⟨r, ?_⟩
  have : (walk_order s false tree.root f).any (sel_changed s false) =
      (walk_order s false tree.root f).any (selectedOf s) := by
    congr 1
    funext a
    simp [sel_changed]
  rw [← this]
  exact h
theorem linkEq_trans {s0 s1 s2 : State} (h1 : LinkEq s0 s1) (h2 : LinkEq s1 s2) :
    LinkEq s0 s2 := fun a => (h2 a).trans (h1 a)

theorem linkEq_of_heap {s s' : State} (h : ∀ a, s'.heap a = s.heap a) : LinkEq s s' :=
  fun a => by rw [h a]

theorem selectedOf_of_heap {s s' : State} (h : ∀ a, s'.heap a = s.heap a) (a : Nat) :
    selectedOf s' a = selectedOf s a := by
  simp only [selectedOf, h a]

/-- A press with `PRESS_1` and no click bit on an unselected row, outside its
toggle zone: the run and what it leaves. -/
theorem press_unselected_row (g : treeview_globals) (font_width : List Nat → Nat → Int)
    (m : browser_mouse_masks) (tree : treeview) (s : State) (f : Forest) (fuel : Nat)
    (mouse : Nat) (x y : Int) (a : Nat) (top : Int) (n : treeview_node)
    (hsub : SubtreeAt s tree.root f) (hnd : f.ids.Nodup) (hfuel : 2 * f.size + 2 ≤ fuel)
    (hhit : hit_scan g s y (walk_order s false tree.root f) 0 = some (a, top))
    (hn : s.heap a = some n) (hunsel : n.selected = false)
    (hzone : ¬ (x ≥ n.inset - 1 ∧ x < n.inset + g.step_width))
    (hpress : mouse_has mouse m.BROWSER_MOUSE_PRESS_1 = true)
    (hclick : mouse_has mouse (m.BROWSER_MOUSE_CLICK_1 ||| m.BROWSER_MOUSE_CLICK_2) = false) :
    ∃ s' r, treeview_mouse_action g font_width m fuel tree s mouse x y = .ok s' ∧
      s'.events = s.events ++ [.redraw_request r] ∧
      VisibleRow s tree.root f a ∧
      (∀ v, VisibleRow s' tree.root f v ↔ VisibleRow s tree.root f v) ∧
      (∀ v, VisibleRow s tree.root f v → (selectedOf s' v = true ↔ v = a)) ∧
      (∀ v, ¬ VisibleRow s tree.root f v → selectedOf s' v = selectedOf s v) ∧
      (∀ b, (s'.heap b).map (fun k => (k.expanded, k.height)) =
        (s.heap b).map (fun k => (k.expanded, k.height))) := by
  have ha := hit_scan_mem g s y _ 0 a top hhit
  obtain ⟨r, hclear⟩ := clear_selection_ok g tree s f fuel hsub hnd hfuel
  have hn1 := set_selected_get s (walk_order s false tree.root f) false a n hn ha
  have hz : decide (x ≥ n.inset - 1 ∧ x < n.inset + g.step_width) = false :=
    decide_eq_false hzone
  obtain ⟨r', hrun⟩ := hit_press g font_width m fuel a n { n with selected := false }
    (node_row_height g n) s (set_selected s (walk_order s false tree.root f) false)
    { tree := tree, mouse := mouse, x := x, y := y, current_y := top } _ r
    (by simp [hclick]) (by simp [hclick])
    (by
      show (mouse_has mouse _ && !n.selected &&
        !decide (x ≥ n.inset - 1 ∧ x < n.inset + g.step_width)) = true
      rw [hpress, hunsel, hz]
      rfl) hclear hn1
  have hone := set_selected_one (set_selected s (walk_order s false tree.root f) false) a true
    { n with selected := false } hn1
  simp only [Bool.not_false] at hrun
  rw [← hone] at hrun
  have hheap : ∀ b, (emit (set_selected (set_selected s (walk_order s false tree.root f) false)
      [a] true) (Event.redraw_request r')).heap b =
      (set_selected (set_selected s (walk_order s false tree.root f) false) [a] true).heap b :=
    fun _ => rfl
  have hlink : LinkEq s (emit (set_selected (set_selected s (walk_order s false tree.root f)
      false) [a] true) (Event.redraw_request r')) :=
    linkEq_trans (linkEq_trans (set_selected_linkEq s _ false) (set_selected_linkEq _ _ true))
      (linkEq_of_heap hheap)
  have hsel : ∀ v, selectedOf (emit (set_selected (set_selected s
      (walk_order s false tree.root f) false) [a] true) (Event.redraw_request r')) v =
      if v = a then true else if v ∈ walk_order s false tree.root f then false
        else selectedOf s v := by
    intro v
    rw [selectedOf_of_heap hheap, selectedOf_set_selected, selectedOf_set_selected]
    by_cases hva : v = a
    · subst hva
      simp [set_selected, hn]
    · simp only [List.mem_singleton, hva, if_false]
      split <;> simp
  refine ⟨_, r', ?_, rfl, (mem_walk_order_iff s tree.root f hsub a).mp ha,
    fun v => visibleRow_linkEq hlink tree.root f hsub v, ?_, ?_, ?_⟩
  · rw [mouse_action_eq g font_width m fuel tree s f mouse x y hsub hfuel]
    simp only [mouse_dispatch, hhit, hn]
    exact hrun
  · intro v hv
    have hm := (mem_walk_order_iff s tree.root f hsub v).mpr hv
    rw [hsel]
    by_cases hva : v = a
    · simp [hva]
    · simp [hva, hm]
  · intro v hv
    have hm : v ∉ walk_order s false tree.root f := fun h =>
      hv ((mem_walk_order_iff s tree.root f hsub v).mp h)
    have hva : v ≠ a := by
      rintro rfl
      exact hm ha
    rw [hsel]
    simp [hva, hm]
  · intro b
    show ((set_selected (set_selected s (walk_order s false tree.root f) false) [a] true).heap
      b).map _ = _
    rw [set_selected_proj (fun k => (k.expanded, k.height)) (fun _ _ => rfl),
      set_selected_proj (fun k => (k.expanded, k.height)) (fun _ _ => rfl)]
/-- C13 (plain primary press).  On a tree whose root holds the shape `f` (its
nodes distinct), let the pointer walk hit the row `a` (`hit_scan`), let that
row be unselected, `x` outside its toggle zone, and the mouse state have
`PRESS_1` set and neither click bit.  Then `treeview_mouse_action` returns for
every fuel from `2 * f.size + 2` on, with one `redraw_request` made; the row
`a` is visible, the visible rows are the same afterwards, and among them `a`
and only `a` is selected; the selected flags of hidden nodes, and the expanded
flag and the height of every node, are as before. -/
theorem plain_press_selects_row (g : treeview_globals) (font_width : List Nat → Nat → Int)
    (m : browser_mouse_masks) (tree : treeview) (s : State) (f : Forest) (fuel : Nat)
    (mouse : Nat) (x y : Int) (a : Nat) (top : Int) (n : treeview_node)
    (hsub : SubtreeAt s tree.root f) (hnd : f.ids.Nodup) (hfuel : 2 * f.size + 2 ≤ fuel)
    (hhit : hit_scan g s y (walk_order s false tree.root f) 0 = some (a, top))
    (hn : s.heap a = some n) (hunsel : n.selected = false)
    (hzone : ¬ (x ≥ n.inset - 1 ∧ x < n.inset + g.step_width))
    (hpress : mouse_has mouse m.BROWSER_MOUSE_PRESS_1 = true)
    (hclick : mouse_has mouse (m.BROWSER_MOUSE_CLICK_1 ||| m.BROWSER_MOUSE_CLICK_2) = false) :
    ∃ s' r, treeview_mouse_action g font_width m fuel tree s mouse x y = .ok s' ∧
      s'.events = s.events ++ [.redraw_request r] ∧
      VisibleRow s tree.root f a ∧
      (∀ v, VisibleRow s' tree.root f v ↔ VisibleRow s tree.root f v) ∧
      (∀ v, VisibleRow s tree.root f v → (selectedOf s' v = true ↔ v = a)) ∧
      (∀ v, ¬ VisibleRow s tree.root f v → selectedOf s' v = selectedOf s v) ∧
      (∀ b, (s'.heap b).map (fun k => (k.expanded, k.height)) =
        (s.heap b).map (fun k => (k.expanded, k.height))) :=
  press_unselected_row g font_width m tree s f fuel mouse x y a top n hsub hnd hfuel hhit hn
    hunsel hzone hpress hclick

theorem plain_press_selects_row_witness :
    ∃ s' r, treeview_mouse_action exG exFont exMasks 14 ⟨0, [], 1, 0⟩ exSelState 1 30 50 =
        .ok s' ∧
      s'.events = exSelState.events ++ [.redraw_request r] ∧
      (∀ v, VisibleRow exSelState 0 exForest v → (selectedOf s' v = true ↔ v = 3)) := by
  obtain ⟨s', r, h1, h2, _, _, h5, _⟩ := plain_press_selects_row exG exFont exMasks
    ⟨0, [], 1, 0⟩ exSelState exForest 14 1 30 50 3 40
    (mkNode .TREE_NODE_FOLDER false 20 (some 1) (some 2) none (some 5) 13)
    (by decide) (by decide) (by decide) (by decide) (by decide) rfl (by decide) (by decide)
    (by decide)
  exact ⟨s', r, h1, h2, h5⟩

/-- C16 (entry activation).  On a tree whose root holds the shape `f` (its
nodes distinct), let the pointer walk hit the entry `a` with `x` outside its
toggle zone and the mouse state have `DOUBLE_CLICK` and a click bit set.  Then
`treeview_mouse_action` returns for every fuel from `2 * f.size + 2` on; the
calls it makes on the host are exactly one entry notification
`TREE_MSG_NODE_LAUNCH` carrying the mouse state and the client data of `a`,
followed by one `redraw_request` when a visible row was selected before and by
nothing otherwise (no folder notification); afterwards no visible row is
selected, and the expanded flag, the height and the links of every node are as
before. -/
theorem entry_activation (g : treeview_globals) (font_width : List Nat → Nat → Int)
    (m : browser_mouse_masks) (tree : treeview) (s : State) (f : Forest) (fuel : Nat)
    (mouse : Nat) (x y : Int) (a : Nat) (top : Int) (n : treeview_node)
    (hsub : SubtreeAt s tree.root f) (hnd : f.ids.Nodup) (hfuel : 2 * f.size + 2 ≤ fuel)
    (hhit : hit_scan g s y (walk_order s false tree.root f) 0 = some (a, top))
    (hn : s.heap a = some n) (hty : n.type = .TREE_NODE_ENTRY)
    (hzone : ¬ (x ≥ n.inset - 1 ∧ x < n.inset + g.step_width))
    (hdbl : mouse_has mouse m.BROWSER_MOUSE_DOUBLE_CLICK = true)
    (hclick : mouse_has mouse (m.BROWSER_MOUSE_CLICK_1 ||| m.BROWSER_MOUSE_CLICK_2) = true) :
    ∃ s' r, treeview_mouse_action g font_width m fuel tree s mouse x y = .ok s' ∧
      s'.events = s.events ++ .entry (.TREE_MSG_NODE_LAUNCH mouse) n.client_data ::
        (if (walk_order s false tree.root f).any (selectedOf s) then [.redraw_request r]
          else []) ∧
      (∀ v, VisibleRow s' tree.root f v ↔ VisibleRow s tree.root f v) ∧
      (∀ v, VisibleRow s tree.root f v → selectedOf s' v = false) ∧
      (∀ b, (s'.heap b).map (fun k => { k with selected := false }) =
        (s.heap b).map (fun k => { k with selected := false })) := by
  have ha := hit_scan_mem g s y _ 0 a top hhit
  obtain ⟨r, hclear⟩ := clear_selection_ok g tree s f fuel hsub hnd hfuel
  have hn1 := set_selected_get s (walk_order s false tree.root f) false a n hn ha
  have hz : decide (x ≥ n.inset - 1 ∧ x < n.inset + g.step_width) = false :=
    decide_eq_false hzone
  have hrun := hit_launch g font_width m fuel a n { n with selected := false }
    (node_row_height g n) s (set_selected s (walk_order s false tree.root f) false)
    { tree := tree, mouse := mouse, x := x, y := y, current_y := top } _ r
    (by
      show ((decide (n.type = .TREE_NODE_FOLDER) && mouse_has mouse _ && mouse_has mouse _) ||
        (decide (x ≥ n.inset - 1 ∧ x < n.inset + g.step_width) && mouse_has mouse _)) = false
      rw [hty, hz]
      rfl)
    (by
      show (decide (n.type = .TREE_NODE_ENTRY) && mouse_has mouse _ && mouse_has mouse _) = true
      rw [hty, hdbl, hclick]
      rfl) hclear hn1
  have hrun' : treeview_mouse_action g font_width m fuel tree s mouse x y =
      .ok (if (walk_order s false tree.root f).any (selectedOf s) = true then
          emit (emit (set_selected s (walk_order s false tree.root f) false)
            (Event.entry (treeview_msg.TREE_MSG_NODE_LAUNCH mouse) n.client_data))
            (Event.redraw_request r)
        else emit (set_selected s (walk_order s false tree.root f) false)
          (Event.entry (treeview_msg.TREE_MSG_NODE_LAUNCH mouse) n.client_data)) := by
    rw [mouse_action_eq g font_width m fuel tree s f mouse x y hsub hfuel]
    simp only [mouse_dispatch, hhit, hn]
    exact hrun
  have hheap : ∀ b, (if (walk_order s false tree.root f).any (selectedOf s) = true then
        emit (emit (set_selected s (walk_order s false tree.root f) false)
          (Event.entry (treeview_msg.TREE_MSG_NODE_LAUNCH mouse) n.client_data))
          (Event.redraw_request r)
      else emit (set_selected s (walk_order s false tree.root f) false)
        (Event.entry (treeview_msg.TREE_MSG_NODE_LAUNCH mouse) n.client_data)).heap b =
      (set_selected s (walk_order s false tree.root f) false).heap b := by
    intro b
    cases (walk_order s false tree.root f).any (selectedOf s) <;> rfl
  refine ⟨_, r, hrun', ?_, ?_, ?_, ?_⟩
  · cases (walk_order s false tree.root f).any (selectedOf s) <;>
      simp [emit, set_selected_events]
  · intro v
    exact visibleRow_linkEq (linkEq_trans (set_selected_linkEq s _ false)
      (linkEq_of_heap hheap)) tree.root f hsub v
  · intro v hv
    have hm := (mem_walk_order_iff s tree.root f hsub v).mpr hv
    rw [selectedOf_of_heap hheap]
    exact selectedOf_set_selected_mem s _ false v hm
      (walk_order_alloc s false tree.root f hsub v hm)
  · intro b
    rw [hheap, set_selected_proj (fun k => ({ k with selected := false } : treeview_node))
      (fun _ _ => rfl)]

theorem entry_activation_witness :
    ∃ s' r, treeview_mouse_action exG exFont exMasks 14 ⟨0, [], 1, 0⟩ exSelState 20 30 70 =
        .ok s' ∧
      s'.events = [.entry (.TREE_MSG_NODE_LAUNCH 20) 14, .redraw_request r] ∧
      (∀ v, VisibleRow exSelState 0 exForest v → selectedOf s' v = false) := by
  obtain ⟨s', r, h1, h2, _, h4, _⟩ := entry_activation exG exFont exMasks
    ⟨0, [], 1, 0⟩ exSelState exForest 14 20 30 70 4 60
    (mkNode .TREE_NODE_ENTRY false 20 (some 0) (some 1) none none 14)
    (by decide) (by decide) (by decide) (by decide) (by decide) rfl (by decide) (by decide)
    (by decide)
  refine ⟨s', r, h1, ?_, h4⟩
  rw [h2]
  rfl

theorem selectedOf_of_stable {s s' : State} (h : StableEq s s') (a : Nat) :
    selectedOf s' a = selectedOf s a := by
  have := h.2 a
  simp only [selectedOf]
  cases h1 : s'.heap a <;> cases h2 : s.heap a <;> simp [h1, h2, stable] at this ⊢
  exact this.1

/-- C15 (expand toggle by pointer).  On a tree whose root holds the shape `f`
(its nodes distinct), let the pointer walk hit the row `a` with a click bit
set, and either `x` inside the toggle zone
`inset - 1 ≤ x < inset + step_width` of the row, or the row a folder and
`DOUBLE_CLICK` set.  Then, for every fuel from `2 * f.size + 2` on,
`treeview_clear_selection` returns on the memory before, leaving the memory
`s1` (every visible row unselected), and the dispatch is
`treeview_node_contract` on `a` in `s1` when `a` was expanded and
`treeview_node_expand` on `a` in `s1` when it was collapsed, followed by one
`redraw_request`; it fails exactly when that call fails.  When the dispatch
returns, no visible row is selected, the hit row among them, and the selected
flags of the other nodes are as before. -/
theorem pointer_toggle_expand (g : treeview_globals) (font_width : List Nat → Nat → Int)
    (m : browser_mouse_masks) (tree : treeview) (s : State) (f : Forest) (fuel : Nat)
    (mouse : Nat) (x y : Int) (a : Nat) (top : Int) (n : treeview_node)
    (hsub : SubtreeAt s tree.root f) (hnd : f.ids.Nodup) (hfuel : 2 * f.size + 2 ≤ fuel)
    (hhit : hit_scan g s y (walk_order s false tree.root f) 0 = some (a, top))
    (hn : s.heap a = some n)
    (hclick : mouse_has mouse (m.BROWSER_MOUSE_CLICK_1 ||| m.BROWSER_MOUSE_CLICK_2) = true)
    (hcase : (x ≥ n.inset - 1 ∧ x < n.inset + g.step_width) ∨
      (n.type = .TREE_NODE_FOLDER ∧ mouse_has mouse m.BROWSER_MOUSE_DOUBLE_CLICK = true)) :
    ∃ c r r',
      treeview_clear_selection g fuel tree s =
        .ok (c, set_selected s (walk_order s false tree.root f) false, r) ∧
      treeview_mouse_action g font_width m fuel tree s mouse x y =
        (match (if n.expanded then
            treeview_node_contract g fuel tree
              (set_selected s (walk_order s false tree.root f) false) a
          else treeview_node_expand g font_width fuel tree
              (set_selected s (walk_order s false tree.root f) false) a) with
        | .ok (_, s2) => .ok (emit s2 (.redraw_request r'))
        | .error e => .error e) ∧
      ∀ s', treeview_mouse_action g font_width m fuel tree s mouse x y = .ok s' →
        s'.events = s.events ++ [.redraw_request r'] ∧
        selectedOf s' a = false ∧
        (∀ v, VisibleRow s tree.root f v → selectedOf s' v = false) ∧
        (∀ v, ¬ VisibleRow s tree.root f v → selectedOf s' v = selectedOf s v) := by
  have ha := hit_scan_mem g s y _ 0 a top hhit
  obtain ⟨r, hclear⟩ := clear_selection_ok g tree s f fuel hsub hnd hfuel
  have hn1 := set_selected_get s (walk_order s false tree.root f) false a n hn ha
  have hrun := hit_toggle g font_width m fuel a n { n with selected := false }
    (node_row_height g n) s (set_selected s (walk_order s false tree.root f) false)
    { tree := tree, mouse := mouse, x := x, y := y, current_y := top } _ r
    (by
      show ((decide (n.type = .TREE_NODE_FOLDER) && mouse_has mouse _ && mouse_has mouse _) ||
        (decide (x ≥ n.inset - 1 ∧ x < n.inset + g.step_width) && mouse_has mouse _)) = true
      rw [hclick]
      rcases hcase with hz | ⟨hty, hdbl⟩
      · rw [decide_eq_true hz]
        simp
      · rw [hty, hdbl]
        simp) hclear hn1
  have hrun' : treeview_mouse_action g font_width m fuel tree s mouse x y =
      (match (if n.expanded then
          treeview_node_contract g fuel tree
            (set_selected s (walk_order s false tree.root f) false) a
        else treeview_node_expand g font_width fuel tree
            (set_selected s (walk_order s false tree.root f) false) a) with
      | .ok (_, s2) => .ok (emit s2 (.redraw_request (rect.mk r.x0
          (if r.y0 > top then top else r.y0) r.x1 REDRAW_MAX)))
      | .error e => .error e) := by
    rw [mouse_action_eq g font_width m fuel tree s f mouse x y hsub hfuel]
    simp only [mouse_dispatch, hhit, hn]
    exact hrun
  refine ⟨_, r, _, hclear, hrun', ?_⟩
  intro s' hs'
  rw [hrun'] at hs'
  have hst : ∃ s2, StableEq (set_selected s (walk_order s false tree.root f) false) s2 ∧
      s' = emit s2 (.redraw_request (rect.mk r.x0 (if r.y0 > top then top else r.y0) r.x1
        REDRAW_MAX)) := by
    show ∃ s2, StableEq (set_selected s (walk_order s false tree.root f) false) s2 ∧
      s' = emit s2 _
    cases hb : n.expanded with
    | true =>
      simp only [hb, if_true] at hs'
      cases hc : treeview_node_contract g fuel tree
          (set_selected s (walk_order s false tree.root f) false) a with
      | error e => simp [hc] at hs'
      | ok r2 =>
        simp only [hc, Except.ok.injEq] at hs'
        exact ⟨r2.2, treeview_node_contract_stable g fuel tree _ a r2 hc, hs'.symm⟩
    | false =>
      simp only [hb, Bool.false_eq_true, if_false] at hs'
      cases hc : treeview_node_expand g font_width fuel tree
          (set_selected s (walk_order s false tree.root f) false) a with
      | error e => simp [hc] at hs'
      | ok r2 =>
        simp only [hc, Except.ok.injEq] at hs'
        exact ⟨r2.2, treeview_node_expand_stable g font_width fuel tree _ a r2 hc, hs'.symm⟩
  obtain ⟨s2, hst, rfl⟩ := hst
  have hsel : ∀ v, selectedOf (emit s2 (.redraw_request (rect.mk r.x0
      (if r.y0 > top then top else r.y0) r.x1 REDRAW_MAX))) v =
      selectedOf (set_selected s (walk_order s false tree.root f) false) v := by
    intro v
    exact (selectedOf_of_heap (s := s2) (fun _ => rfl) v).trans (selectedOf_of_stable hst v)
  have hvis : ∀ v, VisibleRow s tree.root f v → selectedOf (emit s2 (.redraw_request (rect.mk
      r.x0 (if r.y0 > top then top else r.y0) r.x1 REDRAW_MAX))) v = false := by
    intro v hv
    have hm := (mem_walk_order_iff s tree.root f hsub v).mpr hv
    rw [hsel]
    exact selectedOf_set_selected_mem s _ false v hm
      (walk_order_alloc s false tree.root f hsub v hm)
  refine ⟨?_, hvis a ((mem_walk_order_iff s tree.root f hsub a).mp ha), hvis, ?_⟩
  · show s2.events ++ _ = _
    rw [hst.1, set_selected_events]
  · intro v hv
    have hm : v ∉ walk_order s false tree.root f := fun h =>
      hv ((mem_walk_order_iff s tree.root f hsub v).mp h)
    rw [hsel, selectedOf_set_selected]
    simp [hm]
theorem pointer_toggle_expand_witness :
    (∃ c r r', treeview_clear_selection exG 14 ⟨0, [], 1, 0⟩ exSelState =
        .ok (c, set_selected exSelState (walk_order exSelState false 0 exForest) false, r) ∧
      treeview_mouse_action exG exFont exMasks 14 ⟨0, [], 1, 0⟩ exSelState 4 5 50 =
        (match treeview_node_expand exG exFont 14 ⟨0, [], 1, 0⟩
            (set_selected exSelState (walk_order exSelState false 0 exForest) false) 3 with
        | .ok (_, s2) => .ok (emit s2 (.redraw_request r'))
        | .error e => .error e)) ∧
    ends_with (treeview_mouse_action exG exFont exMasks 14 ⟨0, [], 1, 0⟩ exSelState 4 5 50)
      (fun s' => decide ((s'.heap 3).map (fun k => (k.expanded, k.height, k.selected)) =
          some (true, 40, false) ∧
        [1, 2, 3, 4, 5].map (selectedOf s') = [false, false, false, false, true])) = true := by
  obtain ⟨c, r, r', h1, h2, _⟩ := pointer_toggle_expand exG exFont exMasks
    ⟨0, [], 1, 0⟩ exSelState exForest 14 4 5 50 3 40
    (mkNode .TREE_NODE_FOLDER false 20 (some 1) (some 2) none (some 5) 13)
    (by decide) (by decide) (by decide) (by decide) (by decide) (by decide)
    (Or.inl (by decide))
  exact ⟨⟨c, r, r', h1, h2⟩, by decide⟩

/-- A dispatch that is not an expand toggle returns. -/
theorem dispatch_returns (g : treeview_globals) (font_width : List Nat → Nat → Int)
    (m : browser_mouse_masks) (tree : treeview) (s : State) (f : Forest) (fuel : Nat)
    (mouse : Nat) (x y : Int)
    (hsub : SubtreeAt s tree.root f) (hnd : f.ids.Nodup) (hfuel : 2 * f.size + 2 ≤ fuel)
    (htog : ∀ a top n, hit_scan g s y (walk_order s false tree.root f) 0 = some (a, top) →
      s.heap a = some n →
      ((decide (n.type = .TREE_NODE_FOLDER) && mouse_has mouse m.BROWSER_MOUSE_DOUBLE_CLICK &&
          mouse_has mouse (m.BROWSER_MOUSE_CLICK_1 ||| m.BROWSER_MOUSE_CLICK_2)) ||
        (decide (x ≥ n.inset - 1 ∧ x < n.inset + g.step_width) &&
          mouse_has mouse (m.BROWSER_MOUSE_CLICK_1 ||| m.BROWSER_MOUSE_CLICK_2))) = false) :
    ∃ s', treeview_mouse_action g font_width m fuel tree s mouse x y = .ok s' := by
  rw [mouse_action_eq g font_width m fuel tree s f mouse x y hsub hfuel, mouse_dispatch]
  cases hh : hit_scan g s y (walk_order s false tree.root f) 0 with
  | none => exact ⟨s, rfl⟩
  | some p =>
    obtain ⟨a, top⟩ := p
    have ha := hit_scan_mem g s y _ 0 a top hh
    obtain ⟨n, hn⟩ := Option.ne_none_iff_exists'.mp
      (walk_order_alloc s false tree.root f hsub a ha)
    have h1 := htog a top n hh hn
    simp only [hn]
    obtain ⟨r, hclear⟩ := clear_selection_ok g tree s f fuel hsub hnd hfuel
    have hn1 := set_selected_get s (walk_order s false tree.root f) false a n hn ha
    cases h2 : (decide (n.type = .TREE_NODE_ENTRY) &&
      mouse_has mouse m.BROWSER_MOUSE_DOUBLE_CLICK &&
      mouse_has mouse (m.BROWSER_MOUSE_CLICK_1 ||| m.BROWSER_MOUSE_CLICK_2)) with
    | true =>
      exact ⟨_, hit_launch g font_width m fuel a n _ _ s _ _ _ r h1 h2 hclear hn1⟩
    | false =>
      cases h3 : (mouse_has mouse m.BROWSER_MOUSE_PRESS_1 && !n.selected &&
        !decide (x ≥ n.inset - 1 ∧ x < n.inset + g.step_width)) with
      | true =>
        obtain ⟨r', hr'⟩ := hit_press g font_width m fuel a n _ (node_row_height g n) s _
          { tree := tree, mouse := mouse, x := x, y := y, current_y := top } _ r
          h1 h2 h3 hclear hn1
        exact ⟨_, hr'⟩
      | false =>
        cases h4 : (mouse_has mouse m.BROWSER_MOUSE_PRESS_2 ||
          (mouse_has mouse m.BROWSER_MOUSE_PRESS_1 &&
            mouse_has mouse m.BROWSER_MOUSE_MOD_2)) with
        | true => exact ⟨_, hit_multi g font_width m fuel a n _ s _ h1 h2 h3 h4 hn⟩
        | false => exact ⟨_, hit_none g font_width m fuel a n _ s _ h1 h2 h3 h4⟩

/-- C14 (multi-select toggle), the failing run.  In `exSelState` the visible
entry 2 and the hidden entry 5 are selected.  A dispatch with `PRESS_1` and
`MOD_2` on the unselected row of entry 4, outside its toggle zone, selects
entry 4 and clears the selection of entry 2: the branch of the plain press is
tested first and does not look at the modifier.  The same press with `PRESS_2`
leaves entry 2 selected, and `PRESS_1` with `MOD_2` on the selected row of
entry 2 only flips that row. -/
theorem multi_select_press_clears_others :
    [1, 2, 3, 4, 5].map (selectedOf exSelState) = [false, true, false, false, true] ∧
    ends_with (treeview_mouse_action exG exFont exMasks 14 ⟨0, [], 1, 0⟩ exSelState 2049 30 70)
      (fun s' => decide ([1, 2, 3, 4, 5].map (selectedOf s') =
        [false, false, false, true, true])) = true ∧
    ends_with (treeview_mouse_action exG exFont exMasks 14 ⟨0, [], 1, 0⟩ exSelState 2 30 70)
      (fun s' => decide ([1, 2, 3, 4, 5].map (selectedOf s') =
        [false, true, false, true, true])) = true ∧
    ends_with (treeview_mouse_action exG exFont exMasks 14 ⟨0, [], 1, 0⟩ exSelState 2049 30 30)
      (fun s' => decide ([1, 2, 3, 4, 5].map (selectedOf s') =
        [false, false, false, false, true])) = true := by
  decide

theorem redraw_node_state (env : redraw_env) (g : treeview_globals) (tree : treeview)
    (r : rect) (inner node : Nat) (s : State) (v : redraw_vars) (p : Bool × State × redraw_vars)
    (h : redraw_node env g tree r inner node s v = .ok p) : p.2.1 = s := by
  rw [redraw_node] at h
  obtain ⟨n, _, h⟩ := bind_ok_inv h
  obtain ⟨q, _, h⟩ := bind_ok_inv h
  exact (congrArg (fun q => q.2.1) (Except.ok.inj h)).symm

/-- The loop of `treeview_redraw` is the loop of `treeview_walk_internal` with
`full = false` and the body `redraw_node` as callback. -/
theorem redraw_loop_eq_walk (env : redraw_env) (g : treeview_globals) (tree : treeview)
    (r : rect) (root inner : Nat) :
    ∀ (fuel node : Nat) (s : State) (v : redraw_vars),
      redraw_loop env g tree r root inner fuel node s v =
        (walk_loop false (redraw_node env g tree r inner) root fuel node s v).map
          (fun p => p.2.2) := by
  intro fuel
  induction fuel with
  | zero => intro node s v; rfl
  | succ fuel ih =>
    intro node s v
    have hvisit : ∀ x, (do
          let (stop, _, v) ← redraw_node env g tree r inner x s v
          if stop then pure v
          else redraw_loop env g tree r root inner fuel x s v : Except Fault redraw_vars) =
        (do
          let (stop, s, ctx) ← redraw_node env g tree r inner x s v
          if stop then pure (true, s, ctx)
          else walk_loop false (redraw_node env g tree r inner) root fuel x s ctx :
            Except Fault (Bool × State × redraw_vars)).map (fun p => p.2.2) := by
      intro x
      cases hcb : redraw_node env g tree r inner x s v with
      | error e => rfl
      | ok p =>
        have hs1 := redraw_node_state env g tree r inner x s v p hcb
        obtain ⟨stop, s1, v1⟩ := p
        simp only [] at hs1
        subst hs1
        cases stop with
        | true => rfl
        | false =>
          simp only [bind, Except.bind, Bool.false_eq_true, if_false]
          exact ih x s1 v1
    rw [redraw_loop, walk_loop]
    cases hn : load s node with
    | error e => rfl
    | ok n =>
      simp only [bind, Except.bind, Bool.false_or]
      cases hnext : (if n.expanded = true then n.children else none) with
      | some child =>
        simp only []
        by_cases hc : child = root
        · simp only [hc, if_true]
          rfl
        · simp only [hc, if_false]
          exact hvisit child
      | none =>
        simp only []
        cases hup : walk_ascend fuel s root node with
        | error e => rfl
        | ok up =>
          simp only []
          by_cases hu : up = root
          · simp only [hu, if_true]
            rfl
          · simp only [hu, if_false]
            cases hnu : load s up with
            | error e => rfl
            | ok nu =>
              simp only []
              cases hsib : nu.sibling_next with
              | none => rfl
              | some sib =>
                simp only []
                by_cases hc : sib = root
                · simp only [hc, if_true]
                  rfl
                · simp only [hc, if_false]
                  exact hvisit sib

theorem plot_rectangles_append (l1 l2 : List Plot) :
    plot_rectangles (l1 ++ l2) = plot_rectangles l1 ++ plot_rectangles l2 := by
  induction l1 with
  | nil => rfl
  | cons p l ih =>
    cases p <;> simp [plot_rectangles, ih]

theorem redraw_fields_loop_spec (g : treeview_globals) (tree : treeview) (n : treeview_node)
    (x0 baseline : Int) (st : style_ref)
    (h1 : (tree.n_fields - 1).toNat + 1 ≤ tree.fields.length)
    (h2 : (tree.n_fields - 1).toNat ≤ n.fields.length) :
    ∀ (k i fuel : Nat) (render_y : Int) (plots : List Plot),
      i + k = (tree.n_fields - 1).toNat → k < fuel →
      ∃ plots', redraw_fields_loop g tree n x0 baseline st fuel i render_y plots =
          .ok (render_y + k * g.line_height, plots') ∧
        plot_rectangles plots' = plot_rectangles plots := by
  intro k
  induction k with
  | zero =>
    intro i fuel render_y plots hi hf
    obtain ⟨fuel, rfl⟩ : ∃ f, fuel = f + 1 := ⟨fuel - 1, by omega⟩
    refine ⟨plots, ?_, rfl⟩
    rw [redraw_fields_loop, if_neg (by omega)]
    simp [pure, Except.pure]
  | succ k ih =>
    intro i fuel render_y plots hi hf
    obtain ⟨fuel, rfl⟩ : ∃ f, fuel = f + 1 := ⟨fuel - 1, by omega⟩
    rw [redraw_fields_loop, if_pos (by omega)]
    obtain ⟨ef, hef⟩ : ∃ ef, tree.fields.get? (i + 1) = some ef := by
      cases h : tree.fields.get? (i + 1) with
      | some ef => exact ⟨ef, rfl⟩
      | none =>
        rw [List.get?_eq_none] at h
        omega
    obtain ⟨e, he⟩ : ∃ e, n.fields.get? i = some e := by
      cases h : n.fields.get? i with
      | some e => exact ⟨e, rfl⟩
      | none =>
        rw [List.get?_eq_none] at h
        omega
    simp only [hef, he, bind, Except.bind, pure, Except.pure]
    obtain ⟨plots', hp, hr⟩ := ih (i + 1) fuel (render_y + g.line_height)
      (if ef.flags.show_name = true then
          plots ++ [.text (x0 + tree.field_width - ef.value.width - g.step_width)
              (render_y + baseline) ef.value.data ef.value.len st,
            .text (x0 + tree.field_width) (render_y + baseline) e.value.data e.value.len st]
        else plots ++ [.text x0 (render_y + baseline) e.value.data e.value.len st])
      (by omega) (by omega)
    refine ⟨plots', ?_, ?_⟩
    · rw [hp]
      congr 2
      push_cast
      ring
    · rw [hr]
      split <;> simp [plot_rectangles_append, plot_rectangles]
theorem paintable_height_ge (g : treeview_globals) (tree : treeview) (n : treeview_node)
    (hp : PaintableRow g tree n) (hlh : 0 ≤ g.line_height) :
    g.line_height ≤ node_row_height g n := by
  unfold node_row_height
  split
  · next hty =>
    have := hp.2 hty
    split at this
    · rw [this.1]
      have : 0 ≤ ((tree.n_fields - 1).toNat : Int) * g.line_height :=
        mul_nonneg (Int.ofNat_nonneg _) hlh
      omega
    · omega
  · exact le_refl _

/-- One row of the redraw, passed over: its bottom is above the clip
rectangle. -/
theorem redraw_row_above (env : redraw_env) (g : treeview_globals) (tree : treeview) (r : rect)
    (inner : Nat) (n : treeview_node) (v : redraw_vars) (hp : PaintableRow g tree n)
    (habove : v.render_y + node_row_height g n < r.y0) :
    ∃ v', redraw_row env g tree r inner n v = .ok (false, v') ∧
      v'.render_y = v.render_y + node_row_height g n ∧ v'.plots = v.plots := by
  have hty : (decide (n.type = .TREE_NODE_FOLDER) || decide (n.type = .TREE_NODE_ENTRY)) = true := by
    rcases hp.1 with h | h <;> simp [h]
  unfold node_row_height at habove ⊢
  refine ⟨redraw_vars.mk ((v.count + 1) % 2 ^ 32)
    (v.render_y + (if n.type = .TREE_NODE_ENTRY then n.height else g.line_height)) v.res v.plots,
    ?_, rfl, rfl⟩
  simp only [redraw_row, hty, c_assert, if_true, bind, Except.bind, pure, Except.pure,
    if_pos habove]

/-- One row of the redraw, painted: one rectangle from its top to its bottom
is added, and the loop is left exactly when its bottom is below the clip
rectangle. -/
theorem redraw_row_painted (env : redraw_env) (g : treeview_globals) (tree : treeview) (r : rect)
    (inner : Nat) (n : treeview_node) (v : redraw_vars) (hp : PaintableRow g tree n)
    (hlh : 0 ≤ g.line_height) (hin : (tree.n_fields - 1).toNat < inner)
    (habove : ¬ v.render_y + node_row_height g n < r.y0) :
    ∃ v', redraw_row env g tree r inner n v =
        .ok (decide (v.render_y + node_row_height g n > r.y1), v') ∧
      plot_rectangles v'.plots = plot_rectangles v.plots ++
        [{ x0 := r.x0, y0 := v.render_y, x1 := r.x1,
           y1 := v.render_y + node_row_height g n }] ∧
      (if v.render_y + node_row_height g n > r.y1 then v'.render_y > r.y1
        else v'.render_y = v.render_y + node_row_height g n) := by
  have hty : (decide (n.type = .TREE_NODE_FOLDER) || decide (n.type = .TREE_NODE_ENTRY)) = true := by
    rcases hp.1 with h | h <;> simp [h]
  have hge := paintable_height_ge g tree n hp hlh
  unfold node_row_height at habove hge ⊢
  simp only [redraw_row, hty, c_assert, if_true, bind, Except.bind, pure, Except.pure,
    if_neg habove]
  by_cases hb1 : v.render_y + g.line_height > r.y1
  · rw [if_pos hb1]
    have hb : v.render_y + (if n.type = .TREE_NODE_ENTRY then n.height else g.line_height) >
        r.y1 := by omega
    simp only [decide_eq_true hb, if_pos hb]
    refine ⟨_, rfl, ?_, hb1⟩
    simp only []
    simp [apply_ite plot_rectangles, plot_rectangles_append, plot_rectangles]
  · rw [if_neg hb1]
    by_cases hx : n.type = .TREE_NODE_ENTRY ∧ n.expanded = true
    · obtain ⟨hty2, hexp⟩ := hx
      have hpe := hp.2 hty2
      rw [if_pos hexp] at hpe
      obtain ⟨hh, hf1, hf2⟩ := hpe
      rw [if_neg (by simp [hty2, hexp])]
      obtain ⟨plots', hloop, hr⟩ := redraw_fields_loop_spec g tree n
        (n.inset + g.step_width + g.icon_step) (Int.tdiv (g.line_height * 3 + 2) 4)
        { odd := decide ((v.count + 1) % 2 ^ 32 % 2 = 1),
          member := if n.selected = true then .sitext else .itext } hf1 hf2
        (tree.n_fields - 1).toNat 0 inner (v.render_y + g.line_height)
        _ (by omega) hin
      rw [hloop]
      simp only [if_pos hty2]
      have hy : v.render_y + g.line_height + ((tree.n_fields - 1).toNat : Int) * g.line_height =
          v.render_y + n.height := by rw [hh]; ring
      simp only [hy]
      refine ⟨_, rfl, ?_, ?_⟩
      · simp only []
        rw [hr]
        simp [apply_ite plot_rectangles, plot_rectangles_append, plot_rectangles, hty2]
      · simp only []
        split <;> first | assumption | rfl | trivial
    · have hh : (if n.type = .TREE_NODE_ENTRY then n.height else g.line_height) =
          g.line_height := by
        by_cases hty2 : n.type = .TREE_NODE_ENTRY
        · have hpe := hp.2 hty2
          have hexp : ¬ n.expanded = true := fun h => hx ⟨hty2, h⟩
          rw [if_neg hexp] at hpe
          rw [if_pos hty2, hpe]
        · rw [if_neg hty2]
      rw [if_pos (by
        by_cases hty2 : n.type = .TREE_NODE_ENTRY
        · have hexp : n.expanded = false := by
            cases h : n.expanded
            · rfl
            · exact absurd ⟨hty2, h⟩ hx
          simp [hexp]
        · simp [hty2])]
      simp only [hh, decide_eq_false hb1, if_neg hb1]
      refine ⟨_, rfl, ?_, rfl⟩
      simp only []
      simp [apply_ite plot_rectangles, plot_rectangles_append, plot_rectangles]
theorem redraw_node_eq (env : redraw_env) (g : treeview_globals) (tree : treeview) (r : rect)
    (inner a : Nat) (s : State) (v : redraw_vars) (n : treeview_node) (hn : s.heap a = some n)
    (stop : Bool) (v' : redraw_vars) (h : redraw_row env g tree r inner n v = .ok (stop, v')) :
    redraw_node env g tree r inner a s v = .ok (stop, s, v') := by
  simp only [redraw_node, load, hn, h, bind, Except.bind, pure, Except.pure]

/-- The redraw along the rows `l`: the rectangles painted are those of
`painted_rows`, and the loop is left early only below the clip rectangle. -/
theorem paint_iterate (env : redraw_env) (g : treeview_globals) (tree : treeview) (r : rect)
    (inner : Nat) (s : State) (hlh : 0 ≤ g.line_height)
    (hin : (tree.n_fields - 1).toNat < inner) :
    ∀ (l : List Nat) (v : redraw_vars),
      (∀ a ∈ l, ∃ n, s.heap a = some n ∧ PaintableRow g tree n) →
      ∃ stop v', iterate_cb (redraw_node env g tree r inner) l s v = .ok (stop, s, v') ∧
        plot_rectangles v'.plots = plot_rectangles v.plots ++
          (painted_rows g s r l v.render_y).map (row_rect g s r) ∧
        (stop = true → v'.render_y > r.y1) ∧
        (stop = false → v'.render_y = v.render_y + (l.map (rowHeightOf g s)).sum) := by
  intro l
  induction l with
  | nil =>
    intro v _
    exact ⟨false, v, rfl, by simp [painted_rows], by simp, by simp⟩
  | cons a l ih =>
    intro v hl
    obtain ⟨n, hn, hp⟩ := hl a (List.mem_cons_self _ _)
    have hrh : rowHeightOf g s a = node_row_height g n := by simp [rowHeightOf, hn]
    have hl' : ∀ b ∈ l, ∃ n, s.heap b = some n ∧ PaintableRow g tree n :=
      fun b hb => hl b (List.mem_cons_of_mem _ hb)
    by_cases habove : v.render_y + node_row_height g n < r.y0
    · obtain ⟨v1, h1, hy1, hp1⟩ := redraw_row_above env g tree r inner n v hp habove
      have hcb := redraw_node_eq env g tree r inner a s v n hn false v1 h1
      obtain ⟨stop, v', hit, hrect, hs1, hs2⟩ := ih v1 hl'
      refine ⟨stop, v', ?_, ?_, hs1, ?_⟩
      · rw [iterate_cb, hcb]
        exact hit
      · rw [hrect, hp1, hy1, painted_rows, hrh, if_pos habove]
      · intro hst
        rw [hs2 hst, hy1, List.map_cons, List.sum_cons, hrh]
        ring
    · obtain ⟨v1, h1, hr1, hy1⟩ := redraw_row_painted env g tree r inner n v hp hlh hin habove
      by_cases hbelow : v.render_y + node_row_height g n > r.y1
      · rw [decide_eq_true hbelow] at h1
        rw [if_pos hbelow] at hy1
        have hcb := redraw_node_eq env g tree r inner a s v n hn true v1 h1
        refine ⟨true, v1, ?_, ?_, fun _ => hy1, by simp⟩
        · rw [iterate_cb, hcb]
        · rw [hr1, painted_rows, hrh, if_neg habove, if_pos hbelow]
          simp [row_rect, hrh]
      · rw [decide_eq_false hbelow] at h1
        rw [if_neg hbelow] at hy1
        have hcb := redraw_node_eq env g tree r inner a s v n hn false v1 h1
        obtain ⟨stop, v', hit, hrect, hs1, hs2⟩ := ih v1 hl'
        refine ⟨stop, v', ?_, ?_, hs1, ?_⟩
        · rw [iterate_cb, hcb]
          exact hit
        · rw [hrect, hr1, hy1, painted_rows, hrh, if_neg habove, if_neg hbelow]
          simp [row_rect, hrh]
        · intro hst
          rw [hs2 hst, hy1, List.map_cons, List.sum_cons, hrh]
          ring

theorem painted_rows_mem (g : treeview_globals) (s : State) (r : rect) :
    ∀ (l : List Nat) (y : Int) (a : Nat) (top : Int), (a, top) ∈ painted_rows g s r l y →
      ∃ pre post, l = pre ++ a :: post ∧ top = y + (pre.map (rowHeightOf g s)).sum := by
  intro l
  induction l with
  | nil => intro y a top h; simp [painted_rows] at h
  | cons b l ih =>
    intro y a top h
    rw [painted_rows] at h
    split at h
    · obtain ⟨pre, post, h1, h2⟩ := ih _ a top h
      exact ⟨b :: pre, post, by rw [h1]; rfl, by rw [h2, List.map_cons, List.sum_cons]; ring⟩
    · rcases List.mem_cons.mp h with h | h
      · simp only [Prod.mk.injEq] at h
        exact ⟨[], l, by rw [h.1]; rfl, by simp [h.2]⟩
      · split at h
        · simp at h
        · obtain ⟨pre, post, h1, h2⟩ := ih _ a top h
          exact ⟨b :: pre, post, by rw [h1]; rfl,
            by rw [h2, List.map_cons, List.sum_cons]; ring⟩

theorem hit_scan_hit (g : treeview_globals) (s : State) (y : Int) :
    ∀ (pre : List Nat) (a : Nat) (post : List Nat) (cur : Int),
      (∀ b ∈ pre, 0 ≤ rowHeightOf g s b) →
      cur + (pre.map (rowHeightOf g s)).sum < y →
      y ≤ cur + (pre.map (rowHeightOf g s)).sum + rowHeightOf g s a →
      hit_scan g s y (pre ++ a :: post) cur =
        some (a, cur + (pre.map (rowHeightOf g s)).sum) := by
  intro pre
  induction pre with
  | nil =>
    intro a post cur _ _ h2
    simp only [List.map_nil, List.sum_nil, add_zero, List.nil_append] at h2 ⊢
    rw [hit_scan, if_neg (by omega)]
  | cons b pre ih =>
    intro a post cur hpos h1 h2
    simp only [List.map_cons, List.sum_cons] at h1 h2 ⊢
    have hb := hpos b (List.mem_cons_self _ _)
    have hsum : 0 ≤ (pre.map (rowHeightOf g s)).sum :=
      List.sum_nonneg (fun x hx => by
        obtain ⟨c, hc, rfl⟩ := List.mem_map.mp hx
        exact hpos c (List.mem_cons_of_mem _ hc))
    rw [List.cons_append, hit_scan, if_pos (by omega),
      ih a post _ (fun c hc => hpos c (List.mem_cons_of_mem _ hc)) (by omega) (by omega)]
    congr 2
    ring

/-- The redraw loop from the root is the body `redraw_node` along the visible
rows in document order, left at the first row where the body asks for it. -/
theorem redraw_loop_eq_iterate (env : redraw_env) (g : treeview_globals) (tree : treeview)
    (r : rect) (inner : Nat) (s : State) (root : Nat) (f : Forest) (fuel : Nat)
    (hsub : SubtreeAt s root f) (hfuel : 2 * f.size + 2 ≤ fuel) (v : redraw_vars) :
    redraw_loop env g tree r root inner fuel root s v =
      (iterate_cb (redraw_node env g tree r inner) (walk_order s false root f) s v).map
        (fun p => p.2.2) := by
  rw [redraw_loop_eq_walk]
  have h := walk_internal_eq_iterate_cont s (fun t => t = s) (fun t ht => by rw [ht]; exact linkEq_refl s)
    root false (redraw_node env g tree r inner)
    (fun x t c t' c' ht hcb => by
      have := redraw_node_state env g tree r inner x t c _ hcb
      simp only [] at this
      rw [this, ht])
    f hsub s rfl fuel hfuel v
  rw [treeview_walk_internal] at h
  rw [h]

/-- What `treeview_redraw` paints: when the root is expanded and every visible
row is paintable, the call returns, and the rectangles it draws are those of
the painted rows in document order, followed by at most one rectangle that
fills the clip rectangle below the last row. -/
theorem redraw_rectangles (env : redraw_env) (g : treeview_globals) (tree : treeview)
    (s : State) (f : Forest) (fuel : Nat) (x y : Int) (clip : rect)
    (hsub : SubtreeAt s tree.root f) (hfuel : 2 * f.size + 2 ≤ fuel)
    (hroot : isOpen s false tree.root = true) (hlh : 0 ≤ g.line_height)
    (hin : (tree.n_fields - 1).toNat < fuel)
    (hrows : ∀ a ∈ walk_order s false tree.root f,
      ∃ n, s.heap a = some n ∧ PaintableRow g tree n) :
    ∃ plots fill, treeview_redraw env g fuel tree s x y clip = .ok plots ∧
      plot_rectangles plots =
        (painted_rows g s (rect.mk (clip.x0 + x) (clip.y0 + y) (clip.x1 + x) (clip.y1 + y))
          (walk_order s false tree.root f) y).map
          (row_rect g s (rect.mk (clip.x0 + x) (clip.y0 + y) (clip.x1 + x) (clip.y1 + y))) ++
          fill ∧
      ∀ q ∈ fill, q = rect.mk (clip.x0 + x)
        (y + ((walk_order s false tree.root f).map (rowHeightOf g s)).sum) (clip.x1 + x)
        (clip.y1 + y) := by
  obtain ⟨rn, hrn, hexp⟩ : ∃ rn, s.heap tree.root = some rn ∧ rn.expanded = true := by
    cases h : s.heap tree.root with
    | none => simp [isOpen, h] at hroot
    | some rn => exact ⟨rn, rfl, by simpa [isOpen, h] using hroot⟩
  obtain ⟨stop, v', hit, hrect, hs1, hs2⟩ := paint_iterate env g tree
    (rect.mk (clip.x0 + x) (clip.y0 + y) (clip.x1 + x) (clip.y1 + y)) fuel s hlh hin
    (walk_order s false tree.root f)
    (redraw_vars.mk 0 y .TREE_RES_CONTENT
      ((if env.option_knockout then [Plot.knockout_plot_start] else []) ++
        [.clip (rect.mk (clip.x0 + x) (clip.y0 + y) (clip.x1 + x) (clip.y1 + y))])) hrows
  have hloop := redraw_loop_eq_iterate env g tree
    (rect.mk (clip.x0 + x) (clip.y0 + y) (clip.x1 + x) (clip.y1 + y)) fuel s tree.root f fuel
    hsub hfuel (redraw_vars.mk 0 y .TREE_RES_CONTENT
      ((if env.option_knockout then [Plot.knockout_plot_start] else []) ++
        [.clip (rect.mk (clip.x0 + x) (clip.y0 + y) (clip.x1 + x) (clip.y1 + y))]))
  rw [hit] at hloop
  have hstart : plot_rectangles ((if env.option_knockout then [Plot.knockout_plot_start]
      else []) ++ [.clip (rect.mk (clip.x0 + x) (clip.y0 + y) (clip.x1 + x) (clip.y1 + y))]) =
      [] := by
    cases env.option_knockout <;> rfl
  simp only [hstart, List.nil_append] at hrect
  refine ⟨(if env.option_knockout = true then
      (if v'.render_y < clip.y1 + y then
        v'.plots ++ [Plot.rectangle (clip.x0 + x) v'.render_y (clip.x1 + x) (clip.y1 + y)
          (style_ref.mk false .bg)] else v'.plots) ++ [Plot.knockout_plot_end]
    else (if v'.render_y < clip.y1 + y then
        v'.plots ++ [Plot.rectangle (clip.x0 + x) v'.render_y (clip.x1 + x) (clip.y1 + y)
          (style_ref.mk false .bg)] else v'.plots)),
    (if v'.render_y < clip.y1 + y then
      [rect.mk (clip.x0 + x) v'.render_y (clip.x1 + x) (clip.y1 + y)] else []), ?_, ?_, ?_⟩
  · simp only [treeview_redraw, load, hrn, hexp, c_assert, if_true, bind, Except.bind, hloop,
      Except.map, pure, Except.pure]
  · rw [← hrect]
    by_cases hfill : v'.render_y < clip.y1 + y
    · simp only [if_pos hfill]
      cases env.option_knockout <;>
        simp [plot_rectangles_append, plot_rectangles]
    · simp only [if_neg hfill]
      cases env.option_knockout <;>
        simp [plot_rectangles_append, plot_rectangles]
  · intro q hq
    by_cases hfill : v'.render_y < clip.y1 + y
    · rw [if_pos hfill] at hq
      rw [List.mem_singleton] at hq
      cases hst : stop with
      | true =>
        have := hs1 hst
        simp only [] at this
        omega
      | false =>
        have := hs2 hst
        simp only [] at this
        rw [hq, this]
    · rw [if_neg hfill] at hq
      simp at hq

/-- The pointer walk on the top edge of a painted rectangle.  Redrawn at the
origin with a clip rectangle that holds them, the four rows of `exState` get
the rectangles from 0, 20, 40 and 60, each 20 high; a dispatch with `PRESS_1`
at `y = 20` ends with folder 1, the first row, selected. -/
theorem press_on_top_edge_run :
    rectangles_of (treeview_redraw exEnv exG 14 ⟨0, [], 1, 0⟩ exState 0 0 ⟨0, 0, 100, 200⟩) =
      [⟨0, 0, 100, 20⟩, ⟨0, 20, 100, 40⟩, ⟨0, 40, 100, 60⟩, ⟨0, 60, 100, 80⟩,
       ⟨0, 80, 100, 200⟩] ∧
    walk_order exState false 0 exForest = [1, 2, 3, 4] ∧
    ends_with (treeview_mouse_action exG exFont exMasks 14 ⟨0, [], 1, 0⟩ exState 1 30 20)
      (fun s' => decide ([1, 2, 3, 4, 5].map (selectedOf s') =
        [true, false, false, false, false])) = true := by
  decide

/-- C12 (hit-testing consistency), a run on which it fails.  In `exSelTwo` the
visible rows are 1, 2, 3 and 4, and the entries 2 and 4 are selected.  Redrawn
at the origin with a clip rectangle that holds them, the four rows get the
rectangles from 0, 20, 40 and 60, each 20 high.  A press with `PRESS_1` at
`(30, 30)`, inside the rectangle of entry 2 and outside its toggle zone,
returns and changes no selected flag: the press branch of the callback is
guarded by the row being unselected.  So entry 4, another visible row, is
selected afterwards. -/
theorem hit_testing_counterexample :
    walk_order exSelTwo false 0 exForest = [1, 2, 3, 4] ∧
    [1, 2, 3, 4, 5].map (selectedOf exSelTwo) = [false, true, false, true, false] ∧
    rectangles_of (treeview_redraw exEnv exG 14 ⟨0, [], 1, 0⟩ exSelTwo 0 0 ⟨0, 0, 100, 200⟩) =
      [⟨0, 0, 100, 20⟩, ⟨0, 20, 100, 40⟩, ⟨0, 40, 100, 60⟩, ⟨0, 60, 100, 80⟩,
       ⟨0, 80, 100, 200⟩] ∧
    (exSelTwo.heap 2).map (fun n => decide (30 ≥ n.inset - 1 ∧ 30 < n.inset + exG.step_width)) =
      some false ∧
    ends_with (treeview_mouse_action exG exFont exMasks 14 ⟨0, [], 1, 0⟩ exSelTwo 1 30 30)
      (fun s' => decide ([1, 2, 3, 4, 5].map (selectedOf s') =
        [false, true, false, true, false])) = true := by
  decide

theorem paintableAt_iff (g : treeview_globals) (tree : treeview) (s : State) (b : Nat) :
    PaintableAt g tree s b ↔ ∃ k, s.heap b = some k ∧ PaintableRow g tree k := by
  unfold PaintableAt
  cases h : s.heap b with
  | none => simp
  | some k => simp

/-- C12 (hit-testing consistency), amended.  On a tree whose root is expanded
and holds the shape `f` (its nodes distinct), with a row height that is not
negative and every visible row paintable, `treeview_redraw` at the origin
returns and draws, in document order, one rectangle
`[top, top + row height)` for each painted row (then at most one rectangle
that fills the clip below the last row).  For each such row `a` that is
unselected, a dispatch with `PRESS_1` and no click bit at a point with `y`
inside the rectangle, `top ≤ y < top + row height`, and `x` outside the toggle
zone of the row returns with one `redraw_request` made, and afterwards `a` is
the only visible row that is selected.  The edge `y = top` is covered for the
first visible row; nothing is said here about a press on the top edge of a
later row. -/
theorem press_inside_painted_row (env : redraw_env) (g : treeview_globals)
    (font_width : List Nat → Nat → Int) (m : browser_mouse_masks) (tree : treeview)
    (s : State) (f : Forest) (fuel : Nat) (mouse : Nat) (x y : Int) (clip : rect)
    (a : Nat) (top : Int) (n : treeview_node)
    (hsub : SubtreeAt s tree.root f) (hnd : f.ids.Nodup) (hfuel : 2 * f.size + 2 ≤ fuel)
    (hroot : isOpen s false tree.root = true) (hlh : 0 ≤ g.line_height)
    (hin : (tree.n_fields - 1).toNat < fuel)
    (hrows : ∀ b ∈ walk_order s false tree.root f, PaintableAt g tree s b)
    (hpainted : (a, top) ∈ painted_rows g s clip (walk_order s false tree.root f) 0)
    (hn : s.heap a = some n) (hunsel : n.selected = false)
    (hzone : ¬ (x ≥ n.inset - 1 ∧ x < n.inset + g.step_width))
    (hpress : mouse_has mouse m.BROWSER_MOUSE_PRESS_1 = true)
    (hclick : mouse_has mouse (m.BROWSER_MOUSE_CLICK_1 ||| m.BROWSER_MOUSE_CLICK_2) = false)
    (hy : (top < y ∨ (y = top ∧ ∃ post, walk_order s false tree.root f = a :: post)) ∧
      y < top + rowHeightOf g s a) :
    ∃ plots fill s' r,
      treeview_redraw env g fuel tree s 0 0 clip = .ok plots ∧
      plot_rectangles plots =
        (painted_rows g s clip (walk_order s false tree.root f) 0).map
          (fun p => rect.mk clip.x0 p.2 clip.x1 (p.2 + rowHeightOf g s p.1)) ++ fill ∧
      (∀ q ∈ fill, q = rect.mk clip.x0
        ((walk_order s false tree.root f).map (rowHeightOf g s)).sum clip.x1 clip.y1) ∧
      treeview_mouse_action g font_width m fuel tree s mouse x y = .ok s' ∧
      s'.events = s.events ++ [.redraw_request r] ∧
      (∀ v, VisibleRow s' tree.root f v ↔ VisibleRow s tree.root f v) ∧
      (∀ v, VisibleRow s tree.root f v → (selectedOf s' v = true ↔ v = a)) := by
  have hrows' : ∀ b ∈ walk_order s false tree.root f,
      ∃ k, s.heap b = some k ∧ PaintableRow g tree k :=
    fun b hb => (paintableAt_iff g tree s b).mp (hrows b hb)
  obtain ⟨plots, fill, hre, hrect, hfill⟩ := redraw_rectangles env g tree s f fuel 0 0 clip
    hsub hfuel hroot hlh hin hrows'
  have hclip : rect.mk (clip.x0 + 0) (clip.y0 + 0) (clip.x1 + 0) (clip.y1 + 0) = clip := by
    cases clip
    simp
  rw [hclip] at hrect
  simp only [add_zero, zero_add] at hfill
  obtain ⟨pre, post, hsplit, htop⟩ := painted_rows_mem g s clip _ 0 a top hpainted
  have hpos : ∀ b ∈ pre, 0 ≤ rowHeightOf g s b := by
    intro b hb
    obtain ⟨k, hk, hp⟩ := hrows' b (by rw [hsplit]; exact List.mem_append_left _ hb)
    have := paintable_height_ge g tree k hp hlh
    simp only [rowHeightOf, hk]
    omega
  have hhit : hit_scan g s y (walk_order s false tree.root f) 0 = some (a, top) := by
    rcases hy.1 with hlt | ⟨heq, post', hw⟩
    · rw [hsplit, htop]
      exact hit_scan_hit g s y pre a post 0 hpos (by omega) (by omega)
    · have hpre : pre = [] := by
        cases pre with
        | nil => rfl
        | cons b pre' =>
          exfalso
          have hnw := walk_order_nodup s false tree.root f hnd
          rw [hsplit] at hw hnw
          simp only [List.cons_append, List.cons.injEq] at hw
          rw [hw.1] at hnw
          simp at hnw
      rw [hpre] at hsplit htop
      simp only [List.map_nil, List.sum_nil, add_zero] at htop
      rw [hsplit, List.nil_append, hit_scan, if_neg (by omega), htop]
  obtain ⟨s', r, h1, h2, _, h4, h5, _⟩ := press_unselected_row g font_width m tree s f fuel
    mouse x y a top n hsub hnd hfuel hhit hn hunsel hzone hpress hclick
  exact ⟨plots, fill, s', r, hre, hrect, hfill, h1, h2, h4, h5⟩

/-- Two presses on `exFour`, whose rows are the folder 1 (from 0, 20 high) and
the expanded entry 2 (from 20, 40 high): one inside the rectangle of entry 2,
and one on the top edge of the first row. -/
theorem press_inside_painted_row_witness :
    (∃ plots fill s' r,
      treeview_redraw exEnv exG 14 exTree exFour 0 0 ⟨0, 0, 300, 200⟩ = .ok plots ∧
      plot_rectangles plots = [⟨0, 0, 300, 20⟩, ⟨0, 20, 300, 60⟩] ++ fill ∧
      treeview_mouse_action exG exFont exMasks 14 exTree exFour 1 200 50 = .ok s' ∧
      s'.events = exFour.events ++ [.redraw_request r] ∧
      (∀ v, VisibleRow exFour exTree.root (.cons 1 (.cons 2 .nil .nil) .nil) v →
        (selectedOf s' v = true ↔ v = 2))) ∧
    (∃ s' r,
      treeview_mouse_action exG exFont exMasks 14 exTree exFour 1 200 0 = .ok s' ∧
      s'.events = exFour.events ++ [.redraw_request r] ∧
      (∀ v, VisibleRow exFour exTree.root (.cons 1 (.cons 2 .nil .nil) .nil) v →
        (selectedOf s' v = true ↔ v = 1))) := by
  refine ⟨?_, ?_⟩
  · obtain ⟨plots, fill, s', r, h1, h2, _, h4, h5, _, h7⟩ := press_inside_painted_row exEnv exG
      exFont exMasks exTree exFour (.cons 1 (.cons 2 .nil .nil) .nil) 14 1 200 50
      ⟨0, 0, 300, 200⟩ 2 20
      { expanded := true, selected := false, type := .TREE_NODE_ENTRY, height := 40,
        inset := 16, parent := some 1, sibling_prev := none, sibling_next := none,
        children := none, client_data := 102,
        text := { flags := { dflt := false, show_name := false }, field := none,
                  value := { data := [102, 105, 108, 101], len := 4, width := 28 } },
        fields := [{ flags := { dflt := false, show_name := false }, field := none,
                     value := { data := [49, 48], len := 2, width := 14 } }] }
      (by decide) (by decide) (by decide) (by decide) (by decide) (by decide) (by decide)
      (by decide) (by decide) rfl (by decide) (by decide) (by decide)
      ⟨Or.inl (by decide), by decide⟩
    exact ⟨plots, fill, s', r, h1, h2, h4, h5, h7⟩
  · obtain ⟨_, _, s', r, _, _, _, h4, h5, _, h7⟩ := press_inside_painted_row exEnv exG
      exFont exMasks exTree exFour (.cons 1 (.cons 2 .nil .nil) .nil) 14 1 200 0
      ⟨0, 0, 300, 200⟩ 1 0
      { expanded := true, selected := false, type := .TREE_NODE_FOLDER, height := 60,
        inset := 6, parent := some 0, sibling_prev := none, sibling_next := none,
        children := some 2, client_data := 101,
        text := { flags := { dflt := false, show_name := false }, field := none,
                  value := { data := [68], len := 1, width := 7 } },
        fields := [] }
      (by decide) (by decide) (by decide) (by decide) (by decide) (by decide) (by decide)
      (by decide) (by decide) rfl (by decide) (by decide) (by decide)
      ⟨Or.inr ⟨rfl, [2], by decide⟩, by decide⟩
    exact ⟨s', r, h4, h5, h7⟩

theorem tops_subset_ids : ∀ (f : Forest) (a : Nat), a ∈ f.tops → a ∈ f.ids := by
  intro f
  induction f with
  | nil => intro a h; simp [Forest.tops] at h
  | cons id k r _ ihr =>
    intro a h
    simp only [Forest.tops, List.mem_cons] at h
    simp only [Forest.ids, List.mem_cons, List.mem_append]
    rcases h with h | h
    · exact Or.inl h
    · exact Or.inr (Or.inr (ihr a h))

theorem sub_ids_subset (n : Nat) : ∀ (f : Forest) (a : Nat), a ∈ (f.sub n).ids → a ∈ f.ids := by
  intro f
  induction f with
  | nil => intro a h; simp [Forest.sub, Forest.ids] at h
  | cons id k r ihk ihr =>
    intro a h
    simp only [Forest.ids, List.mem_cons, List.mem_append]
    rw [Forest.sub] at h
    split at h
    · exact Or.inr (Or.inl h)
    · split at h
      · exact Or.inr (Or.inl (ihk a h))
      · exact Or.inr (Or.inr (ihr a h))

theorem sub_of_not_mem (n : Nat) : ∀ (f : Forest), n ∉ f.ids → f.sub n = .nil := by
  intro f
  induction f with
  | nil => intro _; rfl
  | cons id k r _ ihr =>
    intro h
    simp only [Forest.ids, List.mem_cons, List.mem_append, not_or] at h
    rw [Forest.sub, if_neg (fun e => h.1 e.symm), if_neg h.2.1, ihr h.2.2]

theorem sub_ids_nodup (n : Nat) : ∀ (f : Forest), f.ids.Nodup → (f.sub n).ids.Nodup := by
  intro f
  induction f with
  | nil => intro _; simp [Forest.sub, Forest.ids]
  | cons id k r ihk ihr =>
    intro h
    simp only [Forest.ids, List.nodup_cons, List.nodup_append] at h
    rw [Forest.sub]
    split
    · exact h.2.1
    · split
      · exact ihk h.2.1
      · exact ihr h.2.2.1

theorem not_mem_sub_self (n : Nat) : ∀ (f : Forest), f.ids.Nodup → n ∉ (f.sub n).ids := by
  intro f
  induction f with
  | nil => intro _; simp [Forest.sub, Forest.ids]
  | cons id k r ihk ihr =>
    intro h
    simp only [Forest.ids, List.nodup_cons, List.mem_append, not_or, List.nodup_append] at h
    rw [Forest.sub]
    split
    · next e =>
      subst e
      exact h.1.1
    · split
      · exact ihk h.2.1
      · exact ihr h.2.2.1

theorem remove_of_not_mem (n : Nat) : ∀ (f : Forest), n ∉ f.ids → f.remove n = f := by
  intro f
  induction f with
  | nil => intro _; rfl
  | cons id k r ihk ihr =>
    intro h
    simp only [Forest.ids, List.mem_cons, List.mem_append, not_or] at h
    rw [Forest.remove, if_neg (fun e => h.1 e.symm), ihk h.2.1, ihr h.2.2]

theorem remove_ids_subset (n : Nat) : ∀ (f : Forest) (a : Nat), a ∈ (f.remove n).ids → a ∈ f.ids := by
  intro f
  induction f with
  | nil => intro a h; simp [Forest.remove, Forest.ids] at h
  | cons id k r ihk ihr =>
    intro a h
    simp only [Forest.ids, List.mem_cons, List.mem_append]
    rw [Forest.remove] at h
    split at h
    · exact Or.inr (Or.inr h)
    · simp only [Forest.ids, List.mem_cons, List.mem_append] at h
      rcases h with h | h | h
      · exact Or.inl h
      · exact Or.inr (Or.inl (ihk a h))
      · exact Or.inr (Or.inr (ihr a h))

/-- The nodes that are left are the nodes outside the subtree of `n`. -/
theorem remove_ids (n : Nat) : ∀ (f : Forest), f.ids.Nodup →
    ∀ a, a ∈ (f.remove n).ids ↔ a ∈ f.ids ∧ a ≠ n ∧ a ∉ (f.sub n).ids := by
  intro f
  induction f with
  | nil => intro _ a; simp [Forest.remove, Forest.ids]
  | cons id k r ihk ihr =>
    intro h a
    have h0 := h
    simp only [Forest.ids, List.nodup_cons, List.mem_append, not_or, List.nodup_append] at h
    obtain ⟨⟨hik, hir⟩, hk, hr, hdis⟩ := h
    rw [Forest.remove, Forest.sub]
    by_cases e : id = n
    · subst e
      simp only [if_true, Forest.ids, List.mem_cons, List.mem_append]
      constructor
      · intro ha
        exact ⟨Or.inr (Or.inr ha), fun e => hir (e ▸ ha), fun hak => hdis hak ha⟩
      · rintro ⟨h1 | h1 | h1, h2, h3⟩
        · exact absurd h1 h2
        · exact absurd h1 h3
        · exact h1
    · simp only [if_neg e, Forest.ids, List.mem_cons, List.mem_append]
      by_cases hnk : n ∈ k.ids
      · have hnr : n ∉ r.ids := fun h => hdis hnk h
        rw [if_pos hnk, remove_of_not_mem n r hnr, ihk hk a]
        constructor
        · rintro (h1 | ⟨h1, h2, h3⟩ | h1)
          · subst h1
            exact ⟨Or.inl rfl, e, fun h => hik (sub_ids_subset n k _ h)⟩
          · exact ⟨Or.inr (Or.inl h1), h2, h3⟩
          · exact ⟨Or.inr (Or.inr h1), fun e => hnr (e ▸ h1),
              fun h => hdis (sub_ids_subset n k _ h) h1⟩
        · rintro ⟨h1 | h1 | h1, h2, h3⟩
          · exact Or.inl h1
          · exact Or.inr (Or.inl ⟨h1, h2, h3⟩)
          · exact Or.inr (Or.inr h1)
      · rw [if_neg hnk, remove_of_not_mem n k hnk, ihr hr a]
        constructor
        · rintro (h1 | h1 | ⟨h1, h2, h3⟩)
          · subst h1
            exact ⟨Or.inl rfl, e, fun h => hir (sub_ids_subset n r _ h)⟩
          · exact ⟨Or.inr (Or.inl h1), fun e => hnk (e ▸ h1),
              fun h => hdis h1 (sub_ids_subset n r _ h)⟩
          · exact ⟨Or.inr (Or.inr h1), h2, h3⟩
        · rintro ⟨h1 | h1 | h1, h2, h3⟩
          · exact Or.inl h1
          · exact Or.inr (Or.inl h1)
          · exact Or.inr (Or.inr ⟨h1, h2, h3⟩)
theorem filter_ne_of_not_mem (n : Nat) (l : List Nat) (h : n ∉ l) :
    l.filter (fun a => decide (a ≠ n)) = l := by
  rw [List.filter_eq_self]
  intro a ha
  exact decide_eq_true (fun e => h (e ▸ ha))

theorem remove_tops (n : Nat) : ∀ (f : Forest), f.ids.Nodup →
    (f.remove n).tops = f.tops.filter (fun a => decide (a ≠ n)) := by
  intro f
  induction f with
  | nil => intro _; rfl
  | cons id k r _ ihr =>
    intro h
    simp only [Forest.ids, List.nodup_cons, List.mem_append, not_or, List.nodup_append] at h
    obtain ⟨⟨_, hir⟩, _, hr, _⟩ := h
    rw [Forest.remove]
    by_cases e : id = n
    · subst e
      simp only [if_true, Forest.tops, List.filter_cons, ne_eq, not_true_eq_false,
        decide_False, Bool.false_eq_true, if_false]
      exact (filter_ne_of_not_mem id r.tops (fun h => hir (tops_subset_ids r _ h))).symm
    · simp only [if_neg e, Forest.tops, List.filter_cons, ne_eq, e, not_false_eq_true,
        decide_True, if_true, ihr hr]

/-- The children of a node that is left are its children before without `n`,
in the same order. -/
theorem sub_remove_tops (n p : Nat) (hpn : p ≠ n) : ∀ (f : Forest), f.ids.Nodup →
    p ∉ (f.sub n).ids →
    ((f.remove n).sub p).tops = (f.sub p).tops.filter (fun a => decide (a ≠ n)) := by
  intro f
  induction f with
  | nil => intro _ _; rfl
  | cons id k r ihk ihr =>
    intro h hp
    have h0 := h
    simp only [Forest.ids, List.nodup_cons, List.mem_append, not_or, List.nodup_append] at h
    obtain ⟨⟨hik, hir⟩, hk, hr, hdis⟩ := h
    have hsubk : ∀ q, n ∉ k.ids → ((k.sub q).tops).filter (fun a => decide (a ≠ n)) =
        (k.sub q).tops := fun q hn =>
      filter_ne_of_not_mem n _ (fun h => hn (sub_ids_subset q k _ (tops_subset_ids _ _ h)))
    have hsubr : ∀ q, n ∉ r.ids → ((r.sub q).tops).filter (fun a => decide (a ≠ n)) =
        (r.sub q).tops := fun q hn =>
      filter_ne_of_not_mem n _ (fun h => hn (sub_ids_subset q r _ (tops_subset_ids _ _ h)))
    rw [Forest.sub] at hp
    by_cases e : id = n
    · subst e
      rw [if_pos rfl] at hp
      rw [Forest.remove, if_pos rfl, Forest.sub, if_neg (fun e => hpn e.symm), if_neg hp]
      exact (hsubr p hir).symm
    · rw [if_neg e] at hp
      rw [Forest.remove, if_neg e]
      by_cases hip : id = p
      · subst hip
        rw [Forest.sub, if_pos rfl, Forest.sub, if_pos rfl]
        exact remove_tops n k hk
      · rw [Forest.sub, if_neg hip, Forest.sub, if_neg hip]
        by_cases hnk : n ∈ k.ids
        · have hnr : n ∉ r.ids := fun h => hdis hnk h
          rw [if_pos hnk] at hp
          rw [remove_of_not_mem n r hnr]
          by_cases hpk : p ∈ k.ids
          · rw [if_pos hpk, if_pos ((remove_ids n k hk p).mpr ⟨hpk, hpn, hp⟩)]
            exact ihk hk hp
          · rw [if_neg hpk, if_neg (fun h => hpk (remove_ids_subset n k p h))]
            exact (hsubr p hnr).symm
        · rw [if_neg hnk] at hp
          rw [remove_of_not_mem n k hnk]
          by_cases hpk : p ∈ k.ids
          · simp only [if_pos hpk]
            exact (hsubk p hnk).symm
          · simp only [if_neg hpk]
            exact ihr hr hp

theorem remove_first (n : Nat) (f : Forest) (h : f.first ≠ some n) :
    (f.remove n).first = f.first := by
  cases f with
  | nil => rfl
  | cons id k r =>
    have e : id ≠ n := fun e => h (by rw [e]; rfl)
    rw [Forest.remove, if_neg e]
    rfl

theorem delete_unlink_prev (s : State) (c p v : Nat) (nc np nv : treeview_node)
    (hc : s.heap c = some nc) (hpar : nc.parent = some p) (hp : s.heap p = some np)
    (hfirst : np.children ≠ some c) (hprev : nc.sibling_prev = some v)
    (hv : s.heap v = some nv) (hvc : v ≠ c)
    (hx : ∀ d, nc.sibling_next = some d → d ≠ c ∧ d ≠ v ∧ s.heap d ≠ none) :
    ∃ s', delete_unlink s c = .ok s' ∧ s'.events = s.events ∧
      ∀ a, s'.heap a =
        if nc.sibling_next = some a then
          (s.heap a).map (fun x => { x with sibling_prev := nc.sibling_prev })
        else if a = v then some { nv with sibling_next := nc.sibling_next }
        else s.heap a := by
  have h1 : unlink_before s c = .ok (store s v { nv with sibling_next := nc.sibling_next }) := by
    rw [unlink_before]
    simp [load_ok hc, bind, Except.bind, pure, Except.pure, hpar, load_ok hp, hfirst, hprev,
      modify_ok hv]
  have hc1 : (store s v { nv with sibling_next := nc.sibling_next }).heap c = some nc := by
    simp [Ne.symm hvc, hc]
  cases hq : nc.sibling_next with
  | none =>
    rw [hq] at h1 hc1
    refine ⟨store s v { nv with sibling_next := none }, ?_, rfl, ?_⟩
    · simp only [delete_unlink, h1, bind, Except.bind, unlink_after, load_ok hc1, hq, pure,
        Except.pure]
    · intro a
      simp
  | some d =>
    rw [hq] at h1 hc1
    obtain ⟨hdc, hdp, hdv⟩ := hx d hq
    obtain ⟨nd, hnd⟩ := Option.ne_none_iff_exists'.mp hdv
    have hd1 : (store s v { nv with sibling_next := some d }).heap d = some nd := by
      simp [hdp, hnd]
    refine ⟨store (store s v { nv with sibling_next := some d }) d
      { nd with sibling_prev := nc.sibling_prev }, ?_, rfl, ?_⟩
    · simp only [delete_unlink, h1, bind, Except.bind, unlink_after, load_ok hc1, hq]
      exact modify_ok hd1 _
    · intro a
      by_cases ha : a = d
      · subst ha
        simp [hnd]
      · have : d ≠ a := fun h => ha h.symm
        simp [ha, this]

/-- What the links of a node of a well linked forest say about its place: its
children are its forest of children; its parent is there and is neither the
node nor below it, and has the node as first child exactly when the node has
no previous sibling; its siblings are there, distinct from the node, from its
parent and from each other, and not below it. -/
theorem rep_local (s : State) (n : Nat) : ∀ (f : Forest) (q : Nat) (prev : Option Nat)
    (nq : treeview_node),
    Rep s (some q) prev f → q ∉ f.ids → f.ids.Nodup →
    (∀ v, prev = some v → v ∉ f.ids ∧ v ≠ q ∧ s.heap v ≠ none) →
    s.heap q = some nq →
    (prev = none → nq.children = f.first) →
    (prev ≠ none → ∀ a ∈ f.ids, nq.children ≠ some a) →
    n ∈ f.ids →
    ∃ nn y ny, s.heap n = some nn ∧ nn.children = (f.sub n).first ∧
      Rep s (some n) none (f.sub n) ∧
      nn.parent = some y ∧ s.heap y = some ny ∧ y ≠ n ∧ y ∉ (f.sub n).ids ∧
      (ny.children = some n ↔ nn.sibling_prev = none) ∧
      (∀ v, nn.sibling_prev = some v →
        v ≠ n ∧ v ≠ y ∧ v ∉ (f.sub n).ids ∧ s.heap v ≠ none) ∧
      (∀ d, nn.sibling_next = some d →
        d ≠ n ∧ d ≠ y ∧ d ∉ (f.sub n).ids ∧ s.heap d ≠ none ∧ nn.sibling_prev ≠ some d) := by
  intro f
  induction f with
  | nil => intro q prev nq _ _ _ _ _ _ _ h; simp [Forest.ids] at h
  | cons id k r ihk ihr =>
    intro q prev nq hrep hq hnd hprev hnq hfst hnfst hn
    have hnd0 := hnd
    simp only [Forest.ids, List.nodup_cons, List.mem_append, not_or, List.nodup_append] at hnd
    obtain ⟨⟨hik, hir⟩, hk, hr, hdis⟩ := hnd
    simp only [Forest.ids, List.mem_cons, List.mem_append, not_or] at hq
    obtain ⟨hqi, hqk, hqr⟩ := hq
    rw [Rep] at hrep
    obtain ⟨hid, hrk, hrr⟩ := hrep
    cases hni : s.heap id with
    | none => simp [hni] at hid
    | some ni =>
      simp only [hni] at hid
      obtain ⟨hpar, hsp, hch, hsn⟩ := hid
      rw [Forest.sub]
      by_cases e : id = n
      · subst e
        rw [if_pos rfl]
        refine ⟨ni, q, nq, hni, hch, hrk, hpar, hnq, hqi, hqk, ?_, ?_, ?_⟩
        · rw [hsp]
          constructor
          · intro h
            by_contra hne
            exact hnfst hne id (by simp [Forest.ids]) h
          · intro h
            rw [hfst h]
            rfl
        · intro v hv
          rw [hsp] at hv
          obtain ⟨h1, h2, h3⟩ := hprev v hv
          simp only [Forest.ids, List.mem_cons, List.mem_append, not_or] at h1
          exact ⟨h1.1, h2, h1.2.1, h3⟩
        · intro d hd
          rw [hsn] at hd
          have hdr : d ∈ r.ids := by
            cases r with
            | nil => simp [Forest.first] at hd
            | cons rid rk rr =>
              simp only [Forest.first, Option.some.injEq] at hd
              subst hd
              simp [Forest.ids]
          refine ⟨fun e => hir (e ▸ hdr), fun e => hqr (e ▸ hdr), fun h => hdis h hdr,
            Rep_heap r _ _ hrr d hdr, ?_⟩
          rw [hsp]
          intro hp
          exact (hprev d hp).1 (by simp [Forest.ids, hdr])
      · rw [if_neg e]
        simp only [Forest.ids, List.mem_cons, List.mem_append] at hn
        by_cases hnk : n ∈ k.ids
        · rw [if_pos hnk]
          exact ihk id none ni hrk hik hk (fun v hv => by simp at hv) hni (fun _ => hch)
            (fun h => absurd rfl h) hnk
        · rw [if_neg hnk]
          have hnr : n ∈ r.ids := by
            rcases hn with h | h | h
            · exact absurd h.symm e
            · exact absurd h hnk
            · exact h
          refine ihr q (some id) nq hrr hqr hr ?_ hnq (fun h => by simp at h) ?_ hnr
          · intro v hv
            simp only [Option.some.injEq] at hv
            subst hv
            exact ⟨hir, fun e => hqi e.symm, by simp [hni]⟩
          · intro _ a ha hc
            cases hp : prev with
            | none =>
              rw [hfst hp] at hc
              simp only [Forest.first, Option.some.injEq] at hc
              exact hir (hc ▸ ha)
            | some v =>
              exact hnfst (by simp [hp]) a (by simp [Forest.ids, ha]) hc

/-- The run of `treeview_delete_node` on a node whose place is as `rep_local`
says: it returns, notifies the host for the subtree in post-order, and leaves
the memory `unlinked`. -/
theorem delete_node_unlinked (tree : treeview) (s : State) (n : Nat) (K : Forest)
    (nn : treeview_node) (y : Nat) (ny : treeview_node) (fuel : Nat)
    (hn : s.heap n = some nn) (hch : nn.children = K.first) (hrep : Rep s (some n) none K)
    (hnK : n ∉ K.ids) (hKnd : K.ids.Nodup)
    (hpar : nn.parent = some y) (hy : s.heap y = some ny) (hyn : y ≠ n) (hyK : y ∉ K.ids)
    (hfirst : ny.children = some n ↔ nn.sibling_prev = none)
    (hv : ∀ v, nn.sibling_prev = some v → v ≠ n ∧ v ≠ y ∧ v ∉ K.ids ∧ s.heap v ≠ none)
    (hd : ∀ d, nn.sibling_next = some d →
      d ≠ n ∧ d ≠ y ∧ d ∉ K.ids ∧ s.heap d ≠ none ∧ nn.sibling_prev ≠ some d)
    (hfuel : 2 * K.size + 2 ≤ fuel) :
    ∃ s', treeview_delete_node fuel tree s n = .ok (.NSERROR_OK, s') ∧
      s'.events = s.events ++ delete_events s (K.postorder ++ [n]) ∧
      ∀ a, s'.heap a = unlinked s n nn K.ids a := by
  obtain ⟨fuel1, rfl⟩ : ∃ i, fuel = i + 1 := ⟨fuel - 1, by omega⟩
  obtain ⟨s1, hd1, he1, hc1, hfree1, hframe1⟩ :=
    delete_children_spec tree K s n nn fuel1 hn hch hrep hnK hKnd (by omega)
  have hy1 : s1.heap y = some ny := by rw [hframe1 y hyn hyK]; exact hy
  have hx1 : ∀ d, nn.sibling_next = some d → d ≠ n ∧ s1.heap d ≠ none := by
    intro d hdd
    obtain ⟨h1, _, h3, h4, _⟩ := hd d hdd
    exact ⟨h1, by rw [hframe1 d h1 h3]; exact h4⟩
  have hfin : ∀ (s2 : State), delete_unlink s1 n = .ok s2 → s2.events = s1.events →
      s2.heap n = some { nn with children := none } →
      (∀ a, a ≠ n → s2.heap a = unlinked s n nn K.ids a) →
      ∃ s', treeview_delete_node (fuel1 + 1) tree s n = .ok (.NSERROR_OK, s') ∧
        s'.events = s.events ++ delete_events s (K.postorder ++ [n]) ∧
        ∀ a, s'.heap a = unlinked s n nn K.ids a := by
    intro s2 hd2 he2 hc2 hheap
    refine ⟨free { s2 with events := s2.events ++ delete_event { nn with children := none } } n,
      ?_, ?_, ?_⟩
    · rw [delete_node_succ, hd1]
      simp only [hd2, hc2]
    · show s2.events ++ delete_event nn = _
      rw [he2, he1, delete_events_append]
      simp [delete_events, hn]
    · intro a
      show (if a = n then none else s2.heap a) = _
      by_cases ha : a = n
      · simp [ha, unlinked]
      · rw [if_neg ha]
        exact hheap a ha
  cases hprev : nn.sibling_prev with
  | none =>
    obtain ⟨s2, hd2, he2, hh2⟩ := delete_unlink_first s1 n y { nn with children := none } ny
      hc1 hpar hy1 (hfirst.mpr hprev) hyn
      (fun d hdd => ⟨(hx1 d hdd).1, (hd d hdd).2.1, (hx1 d hdd).2⟩)
    refine hfin s2 hd2 he2 ?_ ?_
    · rw [hh2]
      have h1 : nn.sibling_next ≠ some n := fun h => (hd n h).1 rfl
      simp only [h1, if_false, if_neg (Ne.symm hyn)]
      exact hc1
    · intro a ha
      rw [hh2]
      simp only [unlinked, ha, false_or, hprev, true_and]
      by_cases haK : a ∈ K.ids
      · have h1 : nn.sibling_next ≠ some a := fun h => (hd a h).2.2.1 haK
        have h2 : a ≠ y := fun h => hyK (h ▸ haK)
        simp [haK, h1, h2, hfree1 a haK]
      · simp only [haK, if_false]
        by_cases h1 : nn.sibling_next = some a
        · simp [h1, hframe1 a ha haK]
        · simp only [h1, if_false]
          by_cases h2 : a = y
          · subst h2
            simp [hpar, hy]
          · have h3 : nn.parent ≠ some a := by
              rw [hpar]
              simpa using Ne.symm h2
            simp [h2, h3, hframe1 a ha haK]
  | some v =>
    obtain ⟨hvn, hvy, hvK, hva⟩ := hv v hprev
    obtain ⟨nv, hnv⟩ := Option.ne_none_iff_exists'.mp hva
    have hv1 : s1.heap v = some nv := by rw [hframe1 v hvn hvK]; exact hnv
    have hnf : ny.children ≠ some n := fun h => by
      have := hfirst.mp h
      rw [hprev] at this
      cases this
    obtain ⟨s2, hd2, he2, hh2⟩ := delete_unlink_prev s1 n y v { nn with children := none }
      ny nv hc1 hpar hy1 hnf hprev hv1 hvn
      (fun d hdd => ⟨(hx1 d hdd).1, fun e => (hd d hdd).2.2.2.2 (by rw [hprev, e]),
        (hx1 d hdd).2⟩)
    refine hfin s2 hd2 he2 ?_ ?_
    · rw [hh2]
      have h1 : nn.sibling_next ≠ some n := fun h => (hd n h).1 rfl
      simp only [h1, if_false, if_neg (Ne.symm hvn)]
      exact hc1
    · intro a ha
      rw [hh2]
      simp only [unlinked, ha, false_or, hprev]
      by_cases haK : a ∈ K.ids
      · have h1 : nn.sibling_next ≠ some a := fun h => (hd a h).2.2.1 haK
        have h2 : a ≠ v := fun h => hvK (h ▸ haK)
        simp [haK, h1, h2, hfree1 a haK]
      · simp only [haK, if_false]
        by_cases h1 : nn.sibling_next = some a
        · simp [h1, hframe1 a ha haK]
        · simp only [h1, if_false]
          by_cases h2 : a = v
          · subst h2
            simp [hnv]
          · have h3 : v ≠ a := Ne.symm h2
            simp [h2, h3, hframe1 a ha haK]

/-- Where the links of a node of a well linked forest point: its next sibling
is in the forest; its previous sibling is in the forest, or is the one before
the forest when the node is its first; its parent is in the forest or is the
parent of the forest; and a node without a previous sibling whose parent is
the parent of the forest is the first of the forest. -/
theorem rep_links_mem (s : State) (n : Nat) (nn : treeview_node) (hnn : s.heap n = some nn) :
    ∀ (f : Forest) (q : Nat) (prev : Option Nat),
    Rep s (some q) prev f → q ∉ f.ids → f.ids.Nodup → n ∈ f.ids →
    (∀ x, nn.sibling_next = some x → x ∈ f.ids) ∧
    (∀ v, nn.sibling_prev = some v → v ∈ f.ids ∨ (prev = some v ∧ f.first = some n)) ∧
    (∀ y, nn.parent = some y → y ∈ f.ids ∨ y = q) ∧
    (nn.sibling_prev = none → nn.parent = some q → prev = none ∧ f.first = some n) := by
  intro f
  induction f with
  | nil => intro q prev _ _ _ h; simp [Forest.ids] at h
  | cons id k r ihk ihr =>
    intro q prev hrep hq hnd hn
    simp only [Forest.ids, List.nodup_cons, List.mem_append, not_or, List.nodup_append] at hnd
    obtain ⟨⟨hik, hir⟩, hk, hr, hdis⟩ := hnd
    simp only [Forest.ids, List.mem_cons, List.mem_append, not_or] at hq hn
    obtain ⟨hqi, hqk, hqr⟩ := hq
    rw [Rep] at hrep
    obtain ⟨hid, hrk, hrr⟩ := hrep
    by_cases e : id = n
    · subst e
      simp only [hnn] at hid
      obtain ⟨hpar, hsp, _, hsn⟩ := hid
      refine ⟨?_, ?_, ?_, ?_⟩
      · intro x hx
        rw [hsn] at hx
        cases r with
        | nil => simp [Forest.first] at hx
        | cons rid rk rr =>
          simp only [Forest.first, Option.some.injEq] at hx
          subst hx
          simp [Forest.ids]
      · intro v hv
        rw [hsp] at hv
        exact Or.inr ⟨hv, rfl⟩
      · intro y hy
        rw [hpar] at hy
        simp only [Option.some.injEq] at hy
        exact Or.inr hy.symm
      · intro h _
        rw [hsp] at h
        exact ⟨h, rfl⟩
    · by_cases hnk : n ∈ k.ids
      · obtain ⟨h1, h2, h3, _⟩ := ihk id none hrk hik hk hnk
        refine ⟨?_, ?_, ?_, ?_⟩
        · intro x hx
          simp [Forest.ids, h1 x hx]
        · intro v hv
          rcases h2 v hv with h | ⟨h, _⟩
          · simp [Forest.ids, h]
          · cases h
        · intro y hy
          rcases h3 y hy with h | h
          · simp [Forest.ids, h]
          · simp [Forest.ids, h]
        · intro _ hp
          rcases h3 q hp with h | h
          · exact absurd h hqk
          · exact absurd h hqi
      · have hnr : n ∈ r.ids := by
          rcases hn with h | h | h
          · exact absurd h.symm e
          · exact absurd h hnk
          · exact h
        obtain ⟨h1, h2, h3, h4⟩ := ihr q (some id) hrr hqr hr hnr
        refine ⟨?_, ?_, ?_, ?_⟩
        · intro x hx
          simp [Forest.ids, h1 x hx]
        · intro v hv
          rcases h2 v hv with h | ⟨h, _⟩
          · simp [Forest.ids, h]
          · simp only [Option.some.injEq] at h
            simp [Forest.ids, h]
        · intro y hy
          rcases h3 y hy with h | h
          · simp [Forest.ids, h]
          · exact Or.inr h
        · intro hp hq'
          exact absurd (h4 hp hq').1 (by simp)

theorem unlinked_same (s : State) (n : Nat) (nn : treeview_node) (dead : List Nat) (a : Nat)
    (h1 : a ≠ n) (h2 : a ∉ dead) (h3 : nn.sibling_next ≠ some a)
    (h4 : nn.sibling_prev ≠ some a) (h5 : nn.parent ≠ some a) :
    unlinked s n nn dead a = s.heap a := by
  simp [unlinked, h1, h2, h3, h4, h5]
/-- The memory `unlinked` holds the forest without the subtree of `n`. -/
theorem rep_remove (s s' : State) (n : Nat) (nn : treeview_node) (dead : List Nat)
    (hnn : s.heap n = some nn) (hs' : ∀ a, s'.heap a = unlinked s n nn dead a) :
    ∀ (f : Forest) (q : Nat) (prev : Option Nat),
    Rep s (some q) prev f → q ∉ f.ids → f.ids.Nodup → (∀ v, prev = some v → v ∉ f.ids) →
    n ∈ f.ids → dead = (f.sub n).ids → Rep s' (some q) prev (f.remove n) := by
  intro f
  induction f with
  | nil => intro q prev _ _ _ _ h; simp [Forest.ids] at h
  | cons id k r ihk ihr =>
    intro q prev hrep hq hnd hprev hn hdead
    have hrep0 := hrep
    have hnd0 := hnd
    have hq0 := hq
    simp only [Forest.ids, List.nodup_cons, List.mem_append, not_or, List.nodup_append] at hnd
    obtain ⟨⟨hik, hir⟩, hk, hr, hdis⟩ := hnd
    simp only [Forest.ids, List.mem_cons, List.mem_append, not_or] at hq hn
    obtain ⟨hqi, hqk, hqr⟩ := hq
    rw [Rep] at hrep
    obtain ⟨hid, hrk, hrr⟩ := hrep
    rw [Forest.sub] at hdead
    rw [Forest.remove]
    by_cases e : id = n
    · subst e
      rw [if_pos rfl] at hdead ⊢
      simp only [hnn] at hid
      obtain ⟨hpar, hsp, _, hsn⟩ := hid
      refine Rep_set_prev r (some q) (some id) prev hr ?_ ?_ hrr
      · intro a ha
        have har : a ∈ r.ids := by
          cases r with
          | nil => simp [Forest.first] at ha
          | cons rid rk rr =>
            simp only [Forest.first, Option.some.injEq] at ha
            subst ha
            simp [Forest.ids]
        obtain ⟨na, hna⟩ := Option.ne_none_iff_exists'.mp (Rep_heap r _ _ hrr a har)
        refine ⟨na, hna, ?_⟩
        have h1 : a ≠ id := fun e => hir (e ▸ har)
        have h2 : a ∉ dead := by
          rw [hdead]
          exact fun h => hdis h har
        rw [hs', unlinked]
        simp [h1, h2, hsn, ha, hna, hsp]
      · intro a har hfa
        rw [hs']
        refine unlinked_same s id nn dead a (fun e => hir (e ▸ har)) ?_ ?_ ?_ ?_
        · rw [hdead]
          exact fun h => hdis h har
        · rw [hsn]
          exact hfa
        · rw [hsp]
          intro h
          exact hprev a h (by simp [Forest.ids, har])
        · rw [hpar]
          intro h
          simp only [Option.some.injEq] at h
          exact hqr (h ▸ har)
    · rw [if_neg e] at hdead ⊢
      cases hni : s.heap id with
      | none => simp [hni] at hid
      | some ni =>
        simp only [hni] at hid
        obtain ⟨hpar, hsp, hch, hsn⟩ := hid
        by_cases hnk : n ∈ k.ids
        · rw [if_pos hnk] at hdead
          have hnr : n ∉ r.ids := fun h => hdis hnk h
          rw [remove_of_not_mem n r hnr]
          obtain ⟨c1, c2, c3, c4⟩ := rep_links_mem s n nn hnn k id none hrk hik hk hnk
          have hdk : ∀ a, a ∈ dead → a ∈ k.ids := by
            intro a ha
            rw [hdead] at ha
            exact sub_ids_subset n k a ha
          have hidrec : s'.heap id = some { ni with children := (k.remove n).first } := by
            rw [hs', unlinked]
            have g1 : ¬ (id = n ∨ id ∈ dead) := by
              rintro (h | h)
              · exact e h
              · exact hik (hdk id h)
            have g2 : nn.sibling_next ≠ some id := fun h => hik (c1 id h)
            have g3 : nn.sibling_prev ≠ some id := by
              intro h
              rcases c2 id h with h | ⟨h, _⟩
              · exact hik h
              · cases h
            rw [if_neg g1, if_neg g2, if_neg g3]
            by_cases g4 : nn.sibling_prev = none ∧ nn.parent = some id
            · rw [if_pos g4, hni]
              obtain ⟨_, hkf⟩ := c4 g4.1 g4.2
              cases k with
              | nil => simp [Forest.first] at hkf
              | cons kid kk kr =>
                simp only [Forest.first, Option.some.injEq] at hkf
                subst hkf
                rw [Rep] at hrk
                simp only [hnn] at hrk
                rw [Forest.remove, if_pos rfl, hrk.1.2.2.2]
                rfl
            · rw [if_neg g4, hni]
              have hkf : k.first ≠ some n := by
                intro hkf
                cases k with
                | nil => simp [Forest.first] at hkf
                | cons kid kk kr =>
                  simp only [Forest.first, Option.some.injEq] at hkf
                  subst hkf
                  rw [Rep] at hrk
                  simp only [hnn] at hrk
                  exact g4 ⟨hrk.1.2.1, hrk.1.1⟩
              rw [remove_first n k hkf, ← hch]
          rw [Rep]
          simp only [hidrec]
          refine ⟨⟨hpar, hsp, trivial, hsn⟩, ?_, ?_⟩
          · exact ihk id none hrk hik hk (fun v hv => by simp at hv) hnk hdead
          · refine Rep_congr r _ _ (fun a har => ?_) hrr
            rw [hs']
            refine unlinked_same s n nn dead a (fun e => hnr (e ▸ har))
              (fun h => hdis (hdk a h) har) (fun h => hdis (c1 a h) har) ?_ ?_
            · intro h
              rcases c2 a h with h | ⟨h, _⟩
              · exact hdis h har
              · cases h
            · intro h
              rcases c3 a h with h | h
              · exact hdis h har
              · exact hir (h ▸ har)
        · rw [if_neg hnk] at hdead
          have hnr : n ∈ r.ids := by
            rcases hn with h | h | h
            · exact absurd h.symm e
            · exact absurd h hnk
            · exact h
          rw [remove_of_not_mem n k hnk]
          obtain ⟨c1, c2, c3, c4⟩ := rep_links_mem s n nn hnn r q (some id) hrr hqr hr hnr
          have hdr : ∀ a, a ∈ dead → a ∈ r.ids := by
            intro a ha
            rw [hdead] at ha
            exact sub_ids_subset n r a ha
          have hidrec : s'.heap id = some { ni with sibling_next := (r.remove n).first } := by
            rw [hs', unlinked]
            have g1 : ¬ (id = n ∨ id ∈ dead) := by
              rintro (h | h)
              · exact e h
              · exact hir (hdr id h)
            have g2 : nn.sibling_next ≠ some id := fun h => hir (c1 id h)
            rw [if_neg g1, if_neg g2]
            by_cases g3 : nn.sibling_prev = some id
            · rw [if_pos g3, hni]
              have hrf : r.first = some n := by
                rcases c2 id g3 with h | ⟨_, h⟩
                · exact absurd h hir
                · exact h
              cases r with
              | nil => simp [Forest.first] at hrf
              | cons rid rk rr =>
                simp only [Forest.first, Option.some.injEq] at hrf
                subst hrf
                rw [Rep] at hrr
                simp only [hnn] at hrr
                rw [Forest.remove, if_pos rfl, hrr.1.2.2.2]
                rfl
            · have g4 : ¬ (nn.sibling_prev = none ∧ nn.parent = some id) := by
                rintro ⟨_, h⟩
                rcases c3 id h with h | h
                · exact hir h
                · exact hqi h.symm
              rw [if_neg g3, if_neg g4, hni]
              have hrf : r.first ≠ some n := by
                intro hrf
                cases r with
                | nil => simp [Forest.first] at hrf
                | cons rid rk rr =>
                  simp only [Forest.first, Option.some.injEq] at hrf
                  subst hrf
                  rw [Rep] at hrr
                  simp only [hnn] at hrr
                  exact g3 hrr.1.2.1
              rw [remove_first n r hrf, ← hsn]
          rw [Rep]
          simp only [hidrec]
          refine ⟨⟨hpar, hsp, hch, trivial⟩, ?_, ?_⟩
          · refine Rep_congr k _ _ (fun a hak => ?_) hrk
            rw [hs']
            refine unlinked_same s n nn dead a (fun e => hnk (e ▸ hak))
              (fun h => hdis hak (hdr a h)) (fun h => hdis hak (c1 a h)) ?_ ?_
            · intro h
              rcases c2 a h with h | ⟨h, _⟩
              · exact hdis hak h
              · simp only [Option.some.injEq] at h
                exact hik (h ▸ hak)
            · intro h
              rcases c3 a h with h | h
              · exact hdis hak h
              · exact hqk (h ▸ hak)
          · exact ihr q (some id) hrr hqr hr (fun v hv => by
              simp only [Option.some.injEq] at hv
              subst hv
              exact hir) hnr hdead

/-- C11 (delete unlinks exactly the subtree).  On a tree whose root holds the
shape `f` (its nodes distinct), deleting a node `n` of `f` returns
`NSERROR_OK` for every fuel from `2 * (f.sub n).size + 2` on, and afterwards:
the root holds the shape `f.remove n`, so that every node that is left is
reached from the root and the parent, child and sibling links of the nodes
that are left agree with each other as that shape says; the nodes that are
left are the nodes of `f` other than `n` and its descendants, and they and the
root are still in memory; `n` and its descendants are freed; the top-level
nodes, and the children of every node that is left, are those before without
`n`, in the same order; and when `n` had neither a previous nor a next sibling,
the child pointer of its parent is null. -/
theorem delete_unlinks_subtree (tree : treeview) (s : State) (f : Forest) (n : Nat)
    (fuel : Nat) (hsub : SubtreeAt s tree.root f) (hnd : f.ids.Nodup) (hn : n ∈ f.ids)
    (hfuel : 2 * (f.sub n).size + 2 ≤ fuel) :
    ∃ s', treeview_delete_node fuel tree s n = .ok (.NSERROR_OK, s') ∧
      SubtreeAt s' tree.root (f.remove n) ∧
      (∀ a, a ∈ (f.remove n).ids ↔ a ∈ f.ids ∧ a ≠ n ∧ a ∉ (f.sub n).ids) ∧
      (∀ a ∈ tree.root :: (f.remove n).ids, s'.heap a ≠ none) ∧
      (∀ a ∈ n :: (f.sub n).ids, s'.heap a = none) ∧
      (f.remove n).tops = f.tops.filter (fun a => decide (a ≠ n)) ∧
      (∀ p, p ≠ n → p ∉ (f.sub n).ids →
        ((f.remove n).sub p).tops = (f.sub p).tops.filter (fun a => decide (a ≠ n))) ∧
      (∀ p nn, s.heap n = some nn → nn.parent = some p → nn.sibling_prev = none →
        nn.sibling_next = none → childrenOf s' p = none) := by
  obtain ⟨hroot, hrep, hrf⟩ := hsub
  cases hnr : s.heap tree.root with
  | none => simp [hnr] at hroot
  | some nr =>
    simp only [hnr] at hroot
    obtain ⟨nn, y, ny, hnn, hch, hrk, hpar, hy, hyn, hyK, hfirst, hv, hd⟩ :=
      rep_local s n f tree.root none nr hrep hrf hnd (fun v hv => by simp at hv) hnr
        (fun _ => hroot) (fun h => absurd rfl h) hn
    obtain ⟨s', hrun, _, hheap⟩ := delete_node_unlinked tree s n (f.sub n) nn y ny fuel hnn hch
      hrk (not_mem_sub_self n f hnd) (sub_ids_nodup n f hnd) hpar hy hyn hyK hfirst hv hd hfuel
    obtain ⟨c1, c2, c3, c4⟩ := rep_links_mem s n nn hnn f tree.root none hrep hrf hnd hn
    have hrep' : Rep s' (some tree.root) none (f.remove n) :=
      rep_remove s s' n nn (f.sub n).ids hnn hheap f tree.root none hrep hrf hnd
        (fun v hv => by simp at hv) hn rfl
    have hrn : tree.root ≠ n := fun e => hrf (e ▸ hn)
    have hrootrec : s'.heap tree.root = some { nr with children := (f.remove n).first } := by
      rw [hheap, unlinked]
      have g1 : ¬ (tree.root = n ∨ tree.root ∈ (f.sub n).ids) := by
        rintro (h | h)
        · exact hrn h
        · exact hrf (sub_ids_subset n f _ h)
      have g2 : nn.sibling_next ≠ some tree.root := fun h => hrf (c1 _ h)
      have g3 : nn.sibling_prev ≠ some tree.root := by
        intro h
        rcases c2 _ h with h | ⟨h, _⟩
        · exact hrf h
        · cases h
      rw [if_neg g1, if_neg g2, if_neg g3]
      by_cases g4 : nn.sibling_prev = none ∧ nn.parent = some tree.root
      · rw [if_pos g4, hnr]
        obtain ⟨_, hff⟩ := c4 g4.1 g4.2
        cases f with
        | nil => simp [Forest.first] at hff
        | cons fid fk fr =>
          simp only [Forest.first, Option.some.injEq] at hff
          subst hff
          rw [Rep] at hrep
          simp only [hnn] at hrep
          rw [Forest.remove, if_pos rfl, hrep.1.2.2.2]
          rfl
      · rw [if_neg g4, hnr]
        have hff : f.first ≠ some n := by
          intro hff
          cases f with
          | nil => simp [Forest.first] at hff
          | cons fid fk fr =>
            simp only [Forest.first, Option.some.injEq] at hff
            subst hff
            rw [Rep] at hrep
            simp only [hnn] at hrep
            exact g4 ⟨hrep.1.2.1, hrep.1.1⟩
        rw [remove_first n f hff, ← hroot]
    have hsub' : SubtreeAt s' tree.root (f.remove n) := by
      refine ⟨?_, hrep', fun h => hrf (remove_ids_subset n f _ h)⟩
      simp only [hrootrec]
    refine ⟨s', hrun, hsub', remove_ids n f hnd, ?_, ?_, remove_tops n f hnd,
      fun p hp1 hp2 => sub_remove_tops n p hp1 f hnd hp2, ?_⟩
    · intro a ha
      rcases List.mem_cons.mp ha with rfl | ha
      · simp [hrootrec]
      · exact Rep_heap _ _ _ hrep' a ha
    · intro a ha
      rw [hheap, unlinked, if_pos (by simpa using ha)]
    · intro p nn' hnn' hp hsp hsn
      rw [hnn] at hnn'
      cases hnn'
      rw [hpar] at hp
      cases hp
      have g1 : ¬ (y = n ∨ y ∈ (f.sub n).ids) := by
        rintro (h | h)
        · exact hyn h
        · exact hyK h
      simp only [childrenOf, hheap, unlinked, if_neg g1, hsn, hsp, hpar, hy]
      simp
theorem delete_unlinks_subtree_witness :
    ∃ s', treeview_delete_node 14 ⟨0, [], 1, 0⟩ exState 3 = .ok (.NSERROR_OK, s') ∧
      SubtreeAt s' 0 (.cons 1 (.cons 2 .nil .nil) (.cons 4 .nil .nil)) ∧
      s'.heap 3 = none ∧ s'.heap 5 = none := by
  obtain ⟨s', h1, h2, _, _, h5, _⟩ := delete_unlinks_subtree ⟨0, [], 1, 0⟩ exState exForest 3 14
    (by decide) (by decide) (by decide) (by decide)
  exact ⟨s', h1, h2, h5 3 (by decide), h5 5 (by decide)⟩

/-- The selection walk along rows whose flag is already what the walk sets:
nothing is written, and of the walk data only `current_y` moves. -/
theorem sel_iterate_unchanged (g : treeview_globals) (b : Bool) (s : State) :
    ∀ (l : List Nat) (sw : treeview_selection_walk_data),
    sw.purpose = purpose_of b → (∀ a ∈ l, ∃ n, s.heap a = some n ∧ n.selected = b) →
    ∃ y, iterate_cb (treeview_node_selection_walk_cb g) l s sw =
      .ok (false, s, { sw with current_y := y }) := by
  intro l
  induction l with
  | nil => intro sw _ _; exact ⟨sw.current_y, rfl⟩
  | cons x l ih =>
    intro sw hp hl
    obtain ⟨n, hn, hb⟩ := hl x (List.mem_cons_self _ _)
    have hstep := sel_cb_step g b x s sw n hn hp
    rw [set_selected_same s x b n hn hb] at hstep
    have hne : (n.selected != b) = false := by simp [hb]
    simp only [hne, Bool.false_eq_true, if_false] at hstep
    obtain ⟨y, hy⟩ := ih { sw with current_y := sw.current_y + node_row_height g n } hp
      (fun a ha => hl a (List.mem_cons_of_mem _ ha))
    exact ⟨y, by rw [iterate_cb, hstep]; exact hy⟩

/-- C21 (selection idempotence).  On a tree whose root holds the shape `f`
(its nodes distinct), for every fuel from `2 * f.size + 2` on,
`treeview_select_all` returns, and called again on the memory it leaves it
returns `false`, leaves that memory as it is (so the selected flags are those
after the first call), and hands back the rectangle `(0, 0, REDRAW_MAX, 0)`,
with `y0 = y1 = 0`. -/
theorem select_all_idempotent (g : treeview_globals) (tree : treeview) (s : State)
    (f : Forest) (fuel : Nat) (hsub : SubtreeAt s tree.root f) (hnd : f.ids.Nodup)
    (hfuel : 2 * f.size + 2 ≤ fuel) :
    ∃ c s1 r, treeview_select_all g fuel tree s = .ok (c, s1, r) ∧
      treeview_select_all g fuel tree s1 =
        .ok (false, s1, { x0 := 0, y0 := 0, x1 := REDRAW_MAX, y1 := 0 }) := by
  obtain ⟨r, hrun, _⟩ := selection_walk_ok g tree s f fuel true hsub hnd hfuel
  refine ⟨_, _, r, hrun, ?_⟩
  have hlink := set_selected_linkEq s (walk_order s false tree.root f) true
  have hsub1 := SubtreeAt_linkEq hlink tree.root f hsub
  have hall : ∀ a ∈ walk_order s false tree.root f,
      ∃ n, (set_selected s (walk_order s false tree.root f) true).heap a = some n ∧
        n.selected = true := by
    intro a ha
    obtain ⟨n, hn⟩ := Option.ne_none_iff_exists'.mp (walk_order_alloc s false tree.root f hsub a ha)
    exact ⟨_, set_selected_get s _ true a n hn ha, rfl⟩
  obtain ⟨y, hy⟩ := sel_iterate_unchanged g true
    (set_selected s (walk_order s false tree.root f) true) (walk_order s false tree.root f)
    { purpose := purpose_of true, has_selection := false, required := false,
      rect := { x0 := 0, y0 := 0, x1 := REDRAW_MAX, y1 := 0 }, current_y := 0 } rfl hall
  have hwalk := walk_internal_eq_iterate (set_selected s (walk_order s false tree.root f) true)
    (LinkEq (set_selected s (walk_order s false tree.root f) true)) (fun _ h => h) tree.root
    false (treeview_node_selection_walk_cb g)
    (fun x s1 c b1 s' c' h1 h2 => sel_cb_linkEq g _ x s1 s' c c' b1 h1 h2) f hsub1 _
    (linkEq_refl _) fuel hfuel
    { purpose := purpose_of true, has_selection := false, required := false,
      rect := { x0 := 0, y0 := 0, x1 := REDRAW_MAX, y1 := 0 }, current_y := 0 }
  rw [walk_order_linkEq hlink, hy] at hwalk
  show selection_walk g fuel tree _ (purpose_of true) = _
  simp only [selection_walk, bind, Except.bind, hwalk, pure, Except.pure]

theorem select_all_idempotent_witness :
    ∃ c s1 r, treeview_select_all exG 14 ⟨0, [], 1, 0⟩ exSelState = .ok (c, s1, r) ∧
      treeview_select_all exG 14 ⟨0, [], 1, 0⟩ s1 =
        .ok (false, s1, { x0 := 0, y0 := 0, x1 := REDRAW_MAX, y1 := 0 }) :=
  select_all_idempotent exG ⟨0, [], 1, 0⟩ exSelState exForest 14 (by decide) (by decide)
    (by decide)

/-- C24 (no-op cases).  For a node `n` held at `node`, and every fuel:
`treeview_node_expand` on a node that is already expanded, and on a collapsed
folder without children, and `treeview_node_contract` on a node that is
already collapsed, each return `NSERROR_OK` and the memory they were given,
unchanged (so a childless folder stays collapsed). -/
theorem expand_contract_noop (g : treeview_globals) (font_width : List Nat → Nat → Int)
    (fuel : Nat) (tree : treeview) (s : State) (node : Nat) (n : treeview_node)
    (hn : s.heap node = some n) :
    (n.expanded = true →
      treeview_node_expand g font_width fuel tree s node = .ok (.NSERROR_OK, s)) ∧
    (n.expanded = false → n.type = .TREE_NODE_FOLDER → n.children = none →
      treeview_node_expand g font_width fuel tree s node = .ok (.NSERROR_OK, s)) ∧
    (n.expanded = false →
      treeview_node_contract g fuel tree s node = .ok (.NSERROR_OK, s)) := by
  refine ⟨?_, ?_, ?_⟩
  · intro h
    simp [treeview_node_expand, load, hn, h, bind, Except.bind, pure, Except.pure]
  · intro h hty hch
    simp [treeview_node_expand, load, hn, h, hty, hch, bind, Except.bind, pure, Except.pure]
  · intro h
    simp [treeview_node_contract, load, hn, h, bind, Except.bind, pure, Except.pure]

theorem expand_contract_noop_witness :
    treeview_node_expand exG exFont 0 exTree exOne 0 = .ok (.NSERROR_OK, exOne) ∧
    treeview_node_expand exG exFont 0 exTree exState 1 = .ok (.NSERROR_OK, exState) ∧
    treeview_node_contract exG 0 exTree exState 3 = .ok (.NSERROR_OK, exState) ∧
    treeview_node_expand exG exFont 0 exTree exOne 1 = .ok (.NSERROR_OK, exOne) :=
  ⟨(expand_contract_noop exG exFont 0 exTree exOne 0
      { expanded := true, selected := false, type := .TREE_NODE_ROOT, height := 20,
        inset := -4, parent := none, sibling_prev := none, sibling_next := none,
        children := some 1, client_data := 0,
        text := { flags := { dflt := false, show_name := false }, field := none,
                  value := { data := [], len := 0, width := 0 } },
        fields := [] } (by decide)).1 rfl,
   (expand_contract_noop exG exFont 0 exTree exState 1
      (mkNode .TREE_NODE_FOLDER true 60 (some 0) none (some 4) (some 2) 11) rfl).1 rfl,
   (expand_contract_noop exG exFont 0 exTree exState 3
      (mkNode .TREE_NODE_FOLDER false 20 (some 1) (some 2) none (some 5) 13) rfl).2.2 rfl,
   (expand_contract_noop exG exFont 0 exTree exOne 1
      { expanded := false, selected := false, type := .TREE_NODE_FOLDER, height := 20,
        inset := 6, parent := some 0, sibling_prev := none, sibling_next := none,
        children := none, client_data := 101,
        text := { flags := { dflt := false, show_name := false }, field := none,
                  value := { data := [68], len := 1, width := 7 } },
        fields := [] } (by decide)).2.1 rfl rfl rfl⟩

theorem set_field_text_get (data : List Nat) (len : Nat) :
    ∀ (fs : List treeview_field) (i j : Nat),
    (set_field_text i data len fs).get? j = (fs.get? j).map (fun f =>
      if j = i then { f with value := { f.value with data := data, len := len } } else f) := by
  intro fs
  induction fs with
  | nil => intro i j; simp [set_field_text]
  | cons f fs ih =>
    intro i j
    cases i with
    | zero =>
      cases j with
      | zero => simp [set_field_text]
      | succ j => simp [set_field_text]
    | succ i =>
      cases j with
      | zero => simp [set_field_text]
      | succ j => simpa [set_field_text] using ih i j

theorem measure_field_get (font_width : List Nat → Nat → Int) :
    ∀ (fs : List treeview_field) (i j : Nat),
    (measure_field font_width i fs).get? j = (fs.get? j).map (fun f =>
      if j = i then { f with value :=
        { f.value with width := font_width f.value.data f.value.len } } else f) := by
  intro fs
  induction fs with
  | nil => intro i j; simp [measure_field]
  | cons f fs ih =>
    intro i j
    cases i with
    | zero =>
      cases j with
      | zero => simp [measure_field]
      | succ j => simp [measure_field]
    | succ i =>
      cases j with
      | zero => simp [measure_field]
      | succ j => simpa [measure_field] using ih i j

theorem invalidate_field_get :
    ∀ (fs : List treeview_field) (i j : Nat),
    (invalidate_field i fs).get? j = (fs.get? j).map (fun f =>
      if j = i then { f with value := { f.value with width := 0 } } else f) := by
  intro fs
  induction fs with
  | nil => intro i j; simp [invalidate_field]
  | cons f fs ih =>
    intro i j
    cases i with
    | zero =>
      cases j with
      | zero => simp [invalidate_field]
      | succ j => simp [invalidate_field]
    | succ i =>
      cases j with
      | zero => simp [invalidate_field]
      | succ j => simpa [invalidate_field] using ih i j

theorem set_field_text_length (data : List Nat) (len : Nat) :
    ∀ (fs : List treeview_field) (i : Nat), (set_field_text i data len fs).length = fs.length := by
  intro fs
  induction fs with
  | nil => intro i; simp [set_field_text]
  | cons f fs ih => intro i; cases i <;> simp [set_field_text, ih]

theorem invalidate_field_length :
    ∀ (fs : List treeview_field) (i : Nat), (invalidate_field i fs).length = fs.length := by
  intro fs
  induction fs with
  | nil => intro i; simp [invalidate_field]
  | cons f fs ih => intro i; cases i <;> simp [invalidate_field, ih]

/-- One iteration of the loop of `treeview_update_node_entry` on the slot
`i - 1` of an entry that has it. -/
theorem update_fields_step (font_width : List Nat → Nat → Int) (tree : treeview)
    (fields : List treeview_field_data) (entry : Nat) (k i : Nat) (s : State)
    (e : treeview_node) (fd : treeview_field_data)
    (he : s.heap entry = some e) (hfd : fields.get? i = some fd) (hf : fd.field ≠ none)
    (hm : (tree.fields.get? i).map (fun f => f.field) = some fd.field)
    (hslot : i - 1 < e.fields.length) :
    update_fields_loop font_width tree fields entry (k + 1) i s =
      update_fields_loop font_width tree fields entry k (i + 1)
        (store s entry { e with fields := (if e.expanded then measure_field font_width (i - 1) (set_field_text (i - 1) fd.value fd.value_len e.fields) else invalidate_field (i - 1) (set_field_text (i - 1) fd.value fd.value_len e.fields)) }) := by
  obtain ⟨f, hfslot⟩ : ∃ f, e.fields.get? (i - 1) = some f := by
    cases h : e.fields.get? (i - 1) with
    | some f => exact ⟨f, rfl⟩
    | none =>
      rw [List.get?_eq_none] at h
      omega
  rw [update_fields_loop]
  simp only [hfd, hf, hm, c_assert, bind, Except.bind, pure, Except.pure, load, he, hfslot,
    modify, ne_eq, not_false_eq_true, decide_True, if_true, store_heap_same]
  cases hx : e.expanded
  · simp only [Bool.false_eq_true, if_false, store_heap_same]
    congr 1
    apply State.ext'
    · intro q
      by_cases hq : q = entry <;> simp [store, hq]
    · rfl
  · simp only [if_true, store_heap_same]
    congr 1
    apply State.ext'
    · intro q
      by_cases hq : q = entry <;> simp [store, hq]
    · rfl

theorem store_same (s : State) (p : Nat) (n : treeview_node) (h : s.heap p = some n) :
    store s p n = s := by
  apply State.ext'
  · intro q
    by_cases hq : q = p
    · simp [store, hq, h]
    · simp [store, hq]
  · rfl

theorem store_store (s : State) (p : Nat) (n n' : treeview_node) :
    store (store s p n) p n' = store s p n' := by
  apply State.ext'
  · intro q
    by_cases hq : q = p <;> simp [store, hq]
  · rfl

/-- The loop of `treeview_update_node_entry` from `i` on, with `k` iterations
left, on an entry that has the slots: it ends, and rewrites the slots
`i - 1 .. i + k - 2` of the entry and nothing else. -/
theorem update_fields_loop_spec (font_width : List Nat → Nat → Int) (tree : treeview)
    (fields : List treeview_field_data) (entry : Nat) :
    ∀ (k i : Nat) (s : State) (e : treeview_node),
    s.heap entry = some e → 1 ≤ i →
    (∀ j, i ≤ j → j < i + k → ∃ fd, fields.get? j = some fd ∧ fd.field ≠ none ∧
      (tree.fields.get? j).map (fun f => f.field) = some fd.field) →
    i - 1 + k ≤ e.fields.length →
    ∃ fs', update_fields_loop font_width tree fields entry k i s =
        .ok (store s entry { e with fields := fs' }) ∧
      fs'.length = e.fields.length ∧
      ∀ j, fs'.get? j = (e.fields.get? j).map (fun f =>
        if i - 1 ≤ j ∧ j < i - 1 + k then
          match fields.get? (j + 1) with
          | some fd =>
            { f with value := { data := fd.value, len := fd.value_len,
                                width := if e.expanded then font_width fd.value fd.value_len
                                         else 0 } }
          | none => f
        else f) := by
  intro k
  induction k with
  | zero =>
    intro i s e he _ _ _
    refine ⟨e.fields, ?_, rfl, ?_⟩
    · rw [update_fields_loop, store_same s entry _ he]
    · intro j
      have h1 : ¬ (i - 1 ≤ j ∧ j < i - 1 + 0) := by omega
      cases e.fields.get? j with
      | none => rfl
      | some f => simp only [Option.map_some', if_neg h1]
  | succ k ih =>
    intro i s e he hi hchk hlen
    obtain ⟨fd, hfd, hf, hm⟩ := hchk i (le_refl _) (by omega)
    rw [update_fields_step font_width tree fields entry k i s e fd he hfd hf hm (by omega)]
    obtain ⟨F1, hF1⟩ : ∃ F1, F1 = (if e.expanded = true then
        measure_field font_width (i - 1) (set_field_text (i - 1) fd.value fd.value_len e.fields)
      else invalidate_field (i - 1)
        (set_field_text (i - 1) fd.value fd.value_len e.fields)) := ⟨_, rfl⟩
    rw [← hF1]
    have hF1len : F1.length = e.fields.length := by
      rw [hF1]
      split
      · rw [measure_field_length, set_field_text_length]
      · rw [invalidate_field_length, set_field_text_length]
    have hF1get : ∀ j, F1.get? j = (e.fields.get? j).map (fun f =>
        if j = i - 1 then
          { f with value := { data := fd.value, len := fd.value_len,
                              width := if e.expanded then font_width fd.value fd.value_len
                                       else 0 } }
        else f) := by
      intro j
      rw [hF1]
      cases hx : e.expanded
      · simp only [Bool.false_eq_true, if_false]
        rw [invalidate_field_get, set_field_text_get]
        cases e.fields.get? j with
        | none => rfl
        | some f =>
          by_cases hj : j = i - 1 <;> simp [hj]
      · simp only [if_true]
        rw [measure_field_get, set_field_text_get]
        cases e.fields.get? j with
        | none => rfl
        | some f =>
          by_cases hj : j = i - 1 <;> simp [hj]
    obtain ⟨fs', hrun, hlen', hget⟩ := ih (i + 1) (store s entry { e with fields := F1 })
      { e with fields := F1 } (store_heap_same _ _ _) (by omega)
      (fun j h1 h2 => hchk j (by omega) (by omega))
      (by
        show i + 1 - 1 + k ≤ F1.length
        rw [hF1len]
        omega)
    refine ⟨fs', ?_, hlen'.trans hF1len, ?_⟩
    · rw [hrun, store_store]
    · intro j
      rw [hget j]
      show Option.map _ (F1.get? j) = _
      rw [hF1get j]
      cases e.fields.get? j with
      | none => rfl
      | some f =>
        simp only [Option.map_some', Option.some.injEq]
        by_cases hj : j = i - 1
        · subst hj
          have h1 : ¬ (i + 1 - 1 ≤ i - 1 ∧ i - 1 < i + 1 - 1 + k) := by omega
          have h2 : i - 1 ≤ i - 1 ∧ i - 1 < i - 1 + (k + 1) := by omega
          have h3 : i - 1 + 1 = i := by omega
          simp only [if_neg h1, if_pos h2, if_true, h3, hfd]
        · simp only [if_neg hj]
          by_cases h1 : i + 1 - 1 ≤ j ∧ j < i + 1 - 1 + k
          · have h2 : i - 1 ≤ j ∧ j < i - 1 + (k + 1) := by omega
            simp only [if_pos h1, if_pos h2]
          · have h2 : ¬ (i - 1 ≤ j ∧ j < i - 1 + (k + 1)) := by omega
            simp only [if_neg h1, if_neg h2]

/-- The run of `treeview_update_node_entry` on an entry `e` with a parent in
memory, given fields that pass its checks. -/
theorem update_entry_run (font_width : List Nat → Nat → Int) (tree : treeview) (s : State)
    (entry : Nat) (fields : List treeview_field_data) (data : Nat) (e : treeview_node)
    (p : Nat) (np : treeview_node) (f0 : treeview_field_data)
    (hdata : data ≠ 0) (he : s.heap entry = some e) (hcd : data = e.client_data)
    (hpar : e.parent = some p) (hp : s.heap p = some np)
    (hf0 : fields.get? 0 = some f0) (hf0f : f0.field ≠ none)
    (hf0m : (tree.fields.get? 0).map (fun f => f.field) = some f0.field)
    (hchk : ∀ j : Nat, 1 ≤ j → (j : Int) < tree.n_fields → ∃ fd, fields.get? j = some fd ∧
      fd.field ≠ none ∧ (tree.fields.get? j).map (fun f => f.field) = some fd.field)
    (hslots : (tree.n_fields - 1).toNat ≤ e.fields.length) :
    ∃ fs', treeview_update_node_entry font_width tree s entry fields data =
        .ok (.NSERROR_OK, store s entry { e with
          text := updated_text font_width np.expanded f0 e.text, fields := fs' }) ∧
      fs'.length = e.fields.length ∧
      ∀ j, fs'.get? j = (e.fields.get? j).map
        (updated_slot font_width e.expanded fields (tree.n_fields - 1).toNat j) := by
  subst hcd
  obtain ⟨e0, he0⟩ : ∃ e0 : treeview_node,
      e0 = { e with text := { e.text with value := ⟨f0.value, f0.value_len, 0⟩ } } := ⟨_, rfl⟩
  obtain ⟨e1, he1⟩ : ∃ e1 : treeview_node,
      e1 = { e with text := updated_text font_width np.expanded f0 e.text } := ⟨_, rfl⟩
  obtain ⟨x, hx, hxe⟩ : ∃ x, (store s entry e0).heap p = some x ∧
      x.expanded = np.expanded := by
    by_cases hpe : p = entry
    · subst hpe
      refine ⟨e0, store_heap_same _ _ _, ?_⟩
      rw [he] at hp
      cases hp
      rw [he0]
    · exact ⟨np, by simp [store, hpe, hp], rfl⟩
  have htext : update_text font_width tree s entry fields e.client_data =
      .ok (store s entry e1) := by
    have hpar0 : e0.parent = some p := by rw [he0]; exact hpar
    have hpne : e.parent ≠ none := by rw [hpar]; simp
    simp only [update_text, c_assert, hdata, ne_eq, not_false_eq_true,
      decide_True, if_true, bind, Except.bind, load, he, hpne, hf0, hf0f, hf0m, pure,
      Except.pure, modify, decide_eq_true_eq, reduceCtorEq]
    rw [← he0]
    simp only [store_heap_same, hpar0, ptr, hx, hxe]
    rw [he1, he0]
    cases np.expanded <;> simp [store_store, updated_text, hpar]
  have hrun : treeview_update_node_entry font_width tree s entry fields e.client_data =
      (match update_fields_loop font_width tree fields entry (tree.n_fields - 1).toNat 1
          (store s entry e1) with
      | .ok s2 => .ok (.NSERROR_OK, s2)
      | .error err => .error err) := by
    simp only [treeview_update_node_entry, htext, bind, Except.bind, pure, Except.pure]
    cases update_fields_loop font_width tree fields entry (tree.n_fields - 1).toNat 1 _ <;> rfl
  obtain ⟨fs', hloop, hlen, hget⟩ := update_fields_loop_spec font_width tree fields entry
    (tree.n_fields - 1).toNat 1 (store s entry e1) e1 (store_heap_same _ _ _) (le_refl _)
    (fun j h1 h2 => hchk j h1 (by omega))
    (by
      rw [he1]
      show 1 - 1 + (tree.n_fields - 1).toNat ≤ e.fields.length
      omega)
  refine ⟨fs', ?_, ?_, ?_⟩
  · rw [hrun, hloop, store_store, he1]
  · rw [hlen, he1]
  · intro j
    rw [hget j, he1]
    show Option.map _ (e.fields.get? j) = _
    congr 1
    funext f
    simp only [updated_slot, Nat.sub_self, zero_le, true_and, zero_add]


/-- C23 (`treeview_update_node_entry`): for an entry `e` at `entry` with the
parent `np`, called with the client data of the entry and with `fields`
matching the schema in every position below `tree.n_fields`, the call returns
`NSERROR_OK`; afterwards the primary text of the entry is the value of
`fields[0]`, with the measured width of that value if the parent is expanded
and the width 0 otherwise; for every `1 ≤ i < tree.n_fields` the secondary
slot `i - 1` holds the value of `fields[i]`, with the measured width if the
entry is expanded and 0 otherwise; and every node of the memory keeps its
height, flags, kind, inset and links, no node being added or removed. -/
theorem update_node_entry_sets_texts (font_width : List Nat → Nat → Int) (tree : treeview)
    (s : State) (entry : Nat) (fields : List treeview_field_data) (data : Nat)
    (e : treeview_node) (p : Nat) (np : treeview_node) (f0 : treeview_field_data)
    (hdata : data ≠ 0) (he : s.heap entry = some e) (hcd : data = e.client_data)
    (hpar : e.parent = some p) (hp : s.heap p = some np)
    (hf0 : fields.get? 0 = some f0) (hf0f : f0.field ≠ none)
    (hf0m : (tree.fields.get? 0).map (fun f => f.field) = some f0.field)
    (hchk : ∀ j : Nat, 1 ≤ j → (j : Int) < tree.n_fields → ∃ fd, fields.get? j = some fd ∧
      fd.field ≠ none ∧ (tree.fields.get? j).map (fun f => f.field) = some fd.field)
    (hslots : (tree.n_fields - 1).toNat ≤ e.fields.length) :
    ∃ s1 e1, treeview_update_node_entry font_width tree s entry fields data =
        .ok (.NSERROR_OK, s1) ∧ s1.heap entry = some e1 ∧
      e1.text.value = { data := f0.value, len := f0.value_len,
                        width := if np.expanded then font_width f0.value f0.value_len else 0 } ∧
      (∀ (i : Nat) (fd : treeview_field_data), 1 ≤ i → (i : Int) < tree.n_fields →
        fields.get? i = some fd →
        ∃ f, e1.fields.get? (i - 1) = some f ∧
          f.value = { data := fd.value, len := fd.value_len,
                      width := if e.expanded then font_width fd.value fd.value_len else 0 }) ∧
      (∀ a n, s.heap a = some n → ∃ n1, s1.heap a = some n1 ∧ n1.height = n.height ∧
        n1.expanded = n.expanded ∧ n1.selected = n.selected ∧ n1.type = n.type ∧
        n1.inset = n.inset ∧ n1.parent = n.parent ∧ n1.sibling_prev = n.sibling_prev ∧
        n1.sibling_next = n.sibling_next ∧ n1.children = n.children) ∧
      (∀ a, s.heap a = none → s1.heap a = none) ∧ s1.events = s.events := by
  obtain ⟨fs1, hrun, hlen, hget⟩ := update_entry_run font_width tree s entry fields data e p np
    f0 hdata he hcd hpar hp hf0 hf0f hf0m hchk hslots
  refine ⟨_, _, hrun, store_heap_same _ _ _, ?_, ?_, ?_, ?_, rfl⟩
  · simp [updated_text]
  · intro i fd hi1 hin hfd
    have hik : i - 1 < (tree.n_fields - 1).toNat := by omega
    have hlt : i - 1 < e.fields.length := by omega
    obtain ⟨f, hf⟩ : ∃ f, e.fields.get? (i - 1) = some f :=
      ⟨_, List.get?_eq_get hlt⟩
    have hi : i - 1 + 1 = i := by omega
    refine ⟨_, (hget (i - 1)).trans (by rw [hf]; rfl), ?_⟩
    unfold updated_slot
    rw [if_pos hik, hi]
    have hfd2 : fields[i]? = some fd := by simpa using hfd
    simp only [List.get?_eq_getElem?] at hfd ⊢
    rw [hfd]
  · intro a n ha
    by_cases hae : a = entry
    · subst hae
      rw [he] at ha
      cases ha
      exact ⟨_, store_heap_same _ _ _, rfl, rfl, rfl, rfl, rfl, rfl, rfl, rfl, rfl⟩
    · exact ⟨n, by rw [store_heap, if_neg hae]; exact ha, rfl, rfl, rfl, rfl, rfl, rfl, rfl,
        rfl, rfl⟩
  · intro a ha
    have hae : a ≠ entry := by
      intro h
      rw [h, he] at ha
      cases ha
    rw [store_heap, if_neg hae]; exact ha

/-- An instance of the C23 theorem: the expanded entry 2 of `exFour`, whose
parent 1 is expanded, updated with two new texts. -/
theorem update_node_entry_sets_texts_witness :
    ∃ s1 e1, treeview_update_node_entry exFont exTree exFour 2
        [{ field := some [1], value := [110, 101, 119], value_len := 3 },
         { field := some [2], value := [57], value_len := 1 }] 102 = .ok (.NSERROR_OK, s1) ∧
      s1.heap 2 = some e1 ∧
      e1.text.value = { data := [110, 101, 119], len := 3, width := 21 } ∧
      (e1.fields.get? 0).map (fun f => f.value) = some { data := [57], len := 1, width := 7 } ∧
      (∀ a n, exFour.heap a = some n → ∃ n1, s1.heap a = some n1 ∧ n1.height = n.height) := by
  obtain ⟨np, hp, hnp⟩ : ∃ np, exFour.heap 1 = some np ∧ np.expanded = true :=
    heap_expanded_of_obs (by decide)
  obtain ⟨s1, e1, hrun, h1, htext, hsec, hsame, -, -⟩ :=
    update_node_entry_sets_texts exFont exTree exFour 2
      [{ field := some [1], value := [110, 101, 119], value_len := 3 },
       { field := some [2], value := [57], value_len := 1 }] 102
      { expanded := true, selected := false, type := .TREE_NODE_ENTRY, height := 40,
        inset := 16, parent := some 1, sibling_prev := none, sibling_next := none,
        children := none, client_data := 102,
        text := { flags := { dflt := false, show_name := false }, field := none,
                  value := { data := [102, 105, 108, 101], len := 4, width := 28 } },
        fields := [{ flags := { dflt := false, show_name := false }, field := none,
                     value := { data := [49, 48], len := 2, width := 14 } }] }
      1 np { field := some [1], value := [110, 101, 119], value_len := 3 }
      (by decide) (by decide) rfl rfl hp rfl (by decide) (by decide)
      (by
        intro j h1 h2
        have h3 : exTree.n_fields = 2 := by decide
        rw [h3] at h2
        have hj : j = 1 := by omega
        subst hj
        exact ⟨_, rfl, by decide, by decide⟩)
      (by decide)
  refine ⟨s1, e1, hrun, h1, ?_, ?_, ?_⟩
  · rw [htext, hnp]; rfl
  · obtain ⟨f, hf, hv⟩ := hsec 1 _ (by decide) (by decide) rfl
    rw [show (0 : Nat) = 1 - 1 from rfl, hf, Option.map_some', hv]
    rfl
  · intro a n ha
    obtain ⟨n1, hn1, hh, -⟩ := hsame a n ha
    exact ⟨n1, hn1, hh⟩


theorem row_tops_get (g : treeview_globals) (s : State) : ∀ (l : List Nat) (y : Int) (i : Nat),
    (row_tops g s l y).get? i =
      (l.get? i).map (fun a => (a, y + ((l.take i).map (rowHeightOf g s)).sum)) := by
  intro l
  induction l with
  | nil => intro y i; simp [row_tops]
  | cons b l ih =>
    intro y i
    cases i with
    | zero => simp [row_tops]
    | succ i =>
      simp only [row_tops, List.get?_cons_succ, List.take_succ_cons, List.map_cons, List.sum_cons]
      rw [ih]
      cases l.get? i with
      | none => rfl
      | some a => simp only [Option.map_some', Option.some.injEq, Prod.mk.injEq, true_and]; ring

theorem painted_rows_all (g : treeview_globals) (s : State) (r : rect) :
    ∀ (l : List Nat) (y : Int), (∀ a ∈ l, 0 ≤ rowHeightOf g s a) → r.y0 ≤ y →
      y + (l.map (rowHeightOf g s)).sum ≤ r.y1 → painted_rows g s r l y = row_tops g s l y := by
  intro l
  induction l with
  | nil => intro y _ _ _; rfl
  | cons b l ih =>
    intro y hpos h0 h1
    have hb : 0 ≤ rowHeightOf g s b := hpos b (List.mem_cons_self _ _)
    have hrest : 0 ≤ (l.map (rowHeightOf g s)).sum := by
      apply List.sum_nonneg
      intro x hx
      obtain ⟨a, ha, rfl⟩ := List.mem_map.mp hx
      exact hpos a (List.mem_cons_of_mem _ ha)
    simp only [List.map_cons, List.sum_cons] at h1
    rw [painted_rows, row_tops, if_neg (by omega), if_neg (by omega),
      ih _ (fun a ha => hpos a (List.mem_cons_of_mem _ ha)) (by omega) (by omega)]

theorem paintable_row_height_nonneg (g : treeview_globals) (tree : treeview) (s : State)
    (hlh : 0 ≤ g.line_height) (a : Nat) (n : treeview_node) (hn : s.heap a = some n)
    (hp : PaintableRow g tree n) : 0 ≤ rowHeightOf g s a := by
  simp only [rowHeightOf, hn, node_row_height]
  by_cases ht : n.type = .TREE_NODE_ENTRY
  · rw [if_pos ht]
    have h := hp.2 ht
    cases he : n.expanded with
    | false =>
      rw [he] at h
      simp only [Bool.false_eq_true, if_false] at h
      omega
    | true =>
      rw [he] at h
      simp only [if_true] at h
      rw [h.1]
      positivity
  · rw [if_neg ht]
    exact hlh

theorem walk_record (s : State) (root : Nat) (f : Forest) (full : Bool)
    (hwf : SubtreeAt s root f) (fuel : Nat) (hfuel : 2 * f.size + 2 ≤ fuel) (c : List Nat) :
    treeview_walk_internal fuel (some root) full record_cb s c =
      .ok (false, s, c ++ walk_order s full root f) := by
  rw [walk_internal_eq_iterate s (fun s' => s' = s) (fun s' h => h ▸ linkEq_refl s) root full
    record_cb ?_ f hwf s rfl fuel hfuel c]
  · generalize walk_order s full root f = l
    induction l generalizing c with
    | nil => simp [iterate_cb]
    | cons x xs ih => simp [iterate_cb, record_cb, ih]
  · intro x s1 c1 b s' c' h1 h2
    subst h1
    simp only [record_cb, Except.ok.injEq, Prod.mk.injEq] at h2
    exact h2.2.1.symm

theorem redraw_paints_walk (env : redraw_env) (g : treeview_globals) (tree : treeview)
    (s : State) (f : Forest) (fuel : Nat) (x y : Int) (clip : rect)
    (hsub : SubtreeAt s tree.root f) (hfuel : 2 * f.size + 2 ≤ fuel)
    (hroot : isOpen s false tree.root = true) (hlh : 0 ≤ g.line_height)
    (hin : (tree.n_fields - 1).toNat < fuel)
    (hrows : ∀ a ∈ walk_order s false tree.root f,
      ∃ n, s.heap a = some n ∧ PaintableRow g tree n)
    (htop : clip.y0 ≤ 0)
    (hbot : ((walk_order s false tree.root f).map (rowHeightOf g s)).sum ≤ clip.y1) :
    ∃ plots fill rows, treeview_redraw env g fuel tree s x y clip = .ok plots ∧
      treeview_walk_internal fuel (some tree.root) false record_cb s [] = .ok (false, s, rows) ∧
      plot_rectangles plots = (row_tops g s rows y).map
        (row_rect g s (rect.mk (clip.x0 + x) (clip.y0 + y) (clip.x1 + x) (clip.y1 + y))) ++
          fill ∧
      (∀ q ∈ fill, q = rect.mk (clip.x0 + x) (y + (rows.map (rowHeightOf g s)).sum)
        (clip.x1 + x) (clip.y1 + y)) ∧
      ∀ i a, rows.get? i = some a →
        (row_tops g s rows y).get? i = some (a, y + ((rows.take i).map (rowHeightOf g s)).sum) := by
  obtain ⟨plots, fill, hrun, hrect, hfill⟩ := redraw_rectangles env g tree s f fuel x y clip
    hsub hfuel hroot hlh hin hrows
  refine ⟨plots, fill, walk_order s false tree.root f, hrun, ?_, ?_, hfill, ?_⟩
  · simpa using walk_record s tree.root f false hsub fuel hfuel []
  · rw [hrect, painted_rows_all g s _ _ y ?_ (by show clip.y0 + y ≤ y; omega)
      (by show y + _ ≤ clip.y1 + y; omega)]
    intro a ha
    obtain ⟨n, hn, hp⟩ := hrows a ha
    exact paintable_row_height_nonneg g tree s hlh a n hn hp
  · intro i a hia
    rw [row_tops_get, hia]
    rfl

/-- C22 (traversal order matches paint order).  For a tree whose root is
expanded and holds the forest `f`, whose visible rows are paintable, with
rows of non-negative height and a clip rectangle (in window coordinates) that
contains all rows, `treeview_redraw` at the origin `(x, y)` returns, the walk
`treeview_walk_internal (root, full = false)` visits the sequence `rows`, and
the rectangles drawn are one row background for each node of `rows`, in the
order of `rows`, followed by at most one rectangle filling the clip rectangle
below the last row; the background of the `i`-th visited node has its top at
`y` plus the sum of the row heights of the nodes visited before it. -/
theorem paint_order_is_walk_order (env : redraw_env) (g : treeview_globals) (tree : treeview)
    (s : State) (f : Forest) (fuel : Nat) (x y : Int) (clip : rect)
    (hsub : SubtreeAt s tree.root f) (hfuel : 2 * f.size + 2 ≤ fuel)
    (hroot : isOpen s false tree.root = true) (hlh : 0 ≤ g.line_height)
    (hin : (tree.n_fields - 1).toNat < fuel)
    (hrows : ∀ a ∈ walk_order s false tree.root f,
      ∃ n, s.heap a = some n ∧ PaintableRow g tree n)
    (htop : clip.y0 ≤ 0)
    (hbot : ((walk_order s false tree.root f).map (rowHeightOf g s)).sum ≤ clip.y1) :
    ∃ plots fill rows, treeview_redraw env g fuel tree s x y clip = .ok plots ∧
      treeview_walk_internal fuel (some tree.root) false record_cb s [] = .ok (false, s, rows) ∧
      plot_rectangles plots = (row_tops g s rows y).map
        (row_rect g s (rect.mk (clip.x0 + x) (clip.y0 + y) (clip.x1 + x) (clip.y1 + y))) ++
          fill ∧
      (∀ q ∈ fill, q = rect.mk (clip.x0 + x) (y + (rows.map (rowHeightOf g s)).sum)
        (clip.x1 + x) (clip.y1 + y)) ∧
      ∀ i a, rows.get? i = some a →
        (row_tops g s rows y).get? i = some (a, y + ((rows.take i).map (rowHeightOf g s)).sum) :=
  redraw_paints_walk env g tree s f fuel x y clip hsub hfuel hroot hlh hin hrows htop hbot

/-- An instance of the C22 theorem: the tree `exFour` (the expanded folder 1
holding the expanded entry 2) redrawn at the origin (5, 3) with a clip
rectangle 200 high: the walk visits 1 and 2, and the rectangles drawn are the
row of 1 at 3, the row of 2 at 23 and the fill below 63. -/
theorem paint_order_is_walk_order_witness :
    (∃ plots fill rows, treeview_redraw exEnv exG 14 exTree exFour 5 3 ⟨0, 0, 300, 200⟩ =
        .ok plots ∧
      treeview_walk_internal 14 (some exTree.root) false record_cb exFour [] =
        .ok (false, exFour, rows) ∧
      plot_rectangles plots = (row_tops exG exFour rows 3).map
        (row_rect exG exFour (rect.mk (0 + 5) (0 + 3) (300 + 5) (200 + 3))) ++ fill ∧
      (∀ q ∈ fill, q = rect.mk (0 + 5) (3 + (rows.map (rowHeightOf exG exFour)).sum)
        (300 + 5) (200 + 3)) ∧
      ∀ i a, rows.get? i = some a → (row_tops exG exFour rows 3).get? i =
        some (a, 3 + ((rows.take i).map (rowHeightOf exG exFour)).sum)) ∧
      walk_order exFour false exTree.root (.cons 1 (.cons 2 .nil .nil) .nil) = [1, 2] ∧
      rectangles_of (treeview_redraw exEnv exG 14 exTree exFour 5 3 ⟨0, 0, 300, 200⟩) =
        [⟨5, 3, 305, 23⟩, ⟨5, 23, 305, 63⟩, ⟨5, 63, 305, 203⟩] :=
  ⟨paint_order_is_walk_order exEnv exG exTree
    exFour (.cons 1 (.cons 2 .nil .nil) .nil) 14 5 3 ⟨0, 0, 300, 200⟩
    (by decide) (by decide) (by decide) (by decide) (by decide) (by decide) (by decide)
    (by decide), by decide, by decide⟩


/-- C27 (collapsed folder height), refuted by evaluation: on a fresh tree with
rows of height 20, create the folder 1 below the root, the folder 2 inside 1,
the entry 3 inside 2 (each creation leaves every collapsed folder with the
height 20), then expand the folder 2, which is hidden inside the collapsed
folder 1.  Every call returns `NSERROR_OK`; afterwards the folder 1 is still
collapsed and has the height 40, two rows, and the root has the height 40
while one row is visible. -/
theorem hidden_expand_grows_collapsed_folder :
    observe (apply_ops exG exFont 5 exTree
      [.create_folder 1 none .TREE_REL_FIRST_CHILD exField 101,
       .create_folder 2 (some 1) .TREE_REL_FIRST_CHILD exField 103,
       .create_entry 3 (some 2) .TREE_REL_FIRST_CHILD exFields 102] exFresh) 1 =
        some (20, false) ∧
      observe (apply_ops exG exFont 5 exTree
      [.create_folder 1 none .TREE_REL_FIRST_CHILD exField 101,
       .create_folder 2 (some 1) .TREE_REL_FIRST_CHILD exField 103,
       .create_entry 3 (some 2) .TREE_REL_FIRST_CHILD exFields 102,
       .expand 2] exFresh) 1 = some (40, false) ∧
      observe (apply_ops exG exFont 5 exTree
      [.create_folder 1 none .TREE_REL_FIRST_CHILD exField 101,
       .create_folder 2 (some 1) .TREE_REL_FIRST_CHILD exField 103,
       .create_entry 3 (some 2) .TREE_REL_FIRST_CHILD exFields 102,
       .expand 2] exFresh) 0 = some (40, true) ∧
      ends_with (apply_ops exG exFont 5 exTree
      [.create_folder 1 none .TREE_REL_FIRST_CHILD exField 101,
       .create_folder 2 (some 1) .TREE_REL_FIRST_CHILD exField 103,
       .create_entry 3 (some 2) .TREE_REL_FIRST_CHILD exFields 102,
       .expand 2] exFresh)
        (fun s => decide ((s.heap 1).map (fun n => n.type) = some .TREE_NODE_FOLDER)) = true := by
  decide


/-! ## The invariant of the reachable memories -/

theorem skelEq_refl (s : State) : SkelEq s s := fun _ => rfl

theorem skelEq_trans {s1 s2 s3 : State} (h1 : SkelEq s1 s2) (h2 : SkelEq s2 s3) :
    SkelEq s1 s3 := fun a => (h2 a).trans (h1 a)

theorem skelEq_get {s s' : State} (h : SkelEq s s') {a : Nat} {n : treeview_node}
    (hn : s.heap a = some n) : ∃ n', s'.heap a = some n' ∧ skel n' = skel n := by
  have := h a
  rw [hn] at this
  cases h' : s'.heap a with
  | none => rw [h'] at this; simp at this
  | some n' =>
    rw [h'] at this
    exact ⟨n', rfl, by simpa using this⟩

theorem skelEq_get_rev {s s' : State} (h : SkelEq s s') {a : Nat} {n' : treeview_node}
    (hn : s'.heap a = some n') : ∃ n, s.heap a = some n ∧ skel n' = skel n := by
  have := h a
  rw [hn] at this
  cases h' : s.heap a with
  | none => rw [h'] at this; simp at this
  | some n =>
    rw [h'] at this
    exact ⟨n, rfl, by simpa using this⟩

theorem skel_eq {n n' : treeview_node} (h : skel n' = skel n) :
    n'.type = n.type ∧ n'.inset = n.inset ∧ n'.parent = n.parent ∧
      n'.sibling_prev = n.sibling_prev ∧ n'.sibling_next = n.sibling_next ∧
      n'.children = n.children ∧ n'.fields.length = n.fields.length := by
  simp only [skel, Prod.mk.injEq] at h
  exact h

theorem Rep_skelEq {s s' : State} (h : SkelEq s s') :
    ∀ (f : Forest) (p prev : Option Nat), Rep s p prev f → Rep s' p prev f := by
  intro f
  induction f with
  | nil => intro _ _ _; trivial
  | cons id k r ihk ihr =>
    intro p prev hrep
    simp only [Rep] at hrep ⊢
    obtain ⟨hnode, hk, hr⟩ := hrep
    refine ⟨?_, ihk _ _ hk, ihr _ _ hr⟩
    cases h0 : s.heap id with
    | none => rw [h0] at hnode; exact hnode.elim
    | some n0 =>
      rw [h0] at hnode
      obtain ⟨n, hn, hl⟩ := skelEq_get h h0
      obtain ⟨_, _, h1, h2, h3, h4, _⟩ := skel_eq hl
      rw [hn]
      simp only [] at hnode ⊢
      rw [h1, h2, h3, h4]
      exact hnode

theorem SubtreeAt_skelEq {s s' : State} (h : SkelEq s s') (root : Nat) (f : Forest)
    (hsub : SubtreeAt s root f) : SubtreeAt s' root f := by
  obtain ⟨hroot, hrep, hnot⟩ := hsub
  refine ⟨?_, Rep_skelEq h f _ _ hrep, hnot⟩
  cases h0 : s.heap root with
  | none => rw [h0] at hroot; exact hroot.elim
  | some n0 =>
    rw [h0] at hroot
    obtain ⟨n, hn, hl⟩ := skelEq_get h h0
    rw [hn]
    simp only [] at hroot ⊢
    rw [(skel_eq hl).2.2.2.2.2.1]
    exact hroot

/-- The invariant carries over to a memory with the same skeleton once the
flags of the root, the heights of the entries and the cached widths are
accounted for. -/
theorem inv_of_skel {g : treeview_globals} {font_width : List Nat → Nat → Int}
    {tree : treeview} {s s' : State} (hI : Inv g font_width tree s) (hsk : SkelEq s s')
    (hroot : ∀ r, s'.heap tree.root = some r → r.expanded = true ∧ r.selected = false)
    (hentry : ∀ a n, s'.heap a = some n → n.type = .TREE_NODE_ENTRY →
      n.height = if n.expanded then g.line_height * (1 + (tree.n_fields - 1))
        else g.line_height)
    (hwidth : ∀ a n, s'.heap a = some n →
      Cached font_width n.text.value ∧ (∀ f ∈ n.fields, Cached font_width f.value) ∧
      (∀ p np, n.parent = some p → s'.heap p = some np → np.expanded = true →
        Measured font_width n.text.value) ∧
      (n.type = .TREE_NODE_ENTRY → n.expanded = true →
        ∀ f ∈ n.fields, Measured font_width f.value)) :
    Inv g font_width tree s' := by
  obtain ⟨F, hsub, hnd, hall⟩ := hI.shape
  obtain ⟨r, hr, hrt, hrp, hrsp, hrsn, _, _, hri⟩ := hI.root
  refine ⟨hI.nf, ⟨F, SubtreeAt_skelEq hsk _ _ hsub, hnd, ?_⟩, ?_, ?_, ?_, hwidth⟩
  · intro a ha
    apply hall a
    intro h0
    have := hsk a
    rw [h0] at this
    cases h' : s'.heap a with
    | none => exact ha h'
    | some n' => rw [h'] at this; simp at this
  · obtain ⟨r', hr', hl⟩ := skelEq_get hsk hr
    obtain ⟨h1, h2, h3, h4, h5, _, _⟩ := skel_eq hl
    obtain ⟨he, hs⟩ := hroot r' hr'
    exact ⟨r', hr', h1.trans hrt, h3.trans hrp, h4.trans hrsp, h5.trans hrsn, he, hs,
      h2.trans hri⟩
  · intro a n' hn' har
    obtain ⟨n, hn, hl⟩ := skelEq_get_rev hsk hn'
    obtain ⟨h1, h2, h3, _, _, _, _⟩ := skel_eq hl
    obtain ⟨hty, p, np, hp, hnp, hpt, hin⟩ := hI.node a n hn har
    obtain ⟨np', hnp', hl'⟩ := skelEq_get hsk hnp
    obtain ⟨k1, k2, _, _, _, _, _⟩ := skel_eq hl'
    exact ⟨by rw [h1]; exact hty, p, np', h3.trans hp, hnp', by rw [k1]; exact hpt,
      by rw [h2, k2]; exact hin⟩
  · intro a n' hn' hty
    obtain ⟨n, hn, hl⟩ := skelEq_get_rev hsk hn'
    obtain ⟨h1, _, _, _, _, _, h7⟩ := skel_eq hl
    exact ⟨h7.trans (hI.entry a n hn (h1 ▸ hty)).1, hentry a n' hn' hty⟩

theorem heightEq_refl (Q : Nat → Prop) (s : State) : HeightEq Q s s :=
  ⟨rfl, fun _ => Or.inl rfl⟩

theorem heightEq_trans {Q : Nat → Prop} {s1 s2 s3 : State} (h1 : HeightEq Q s1 s2)
    (h2 : HeightEq Q s2 s3) : HeightEq Q s1 s3 := by
  refine ⟨h2.1.trans h1.1, fun k => ?_⟩
  rcases h2.2 k with h | ⟨hq, n, h, hn, hn'⟩
  · rw [h]; exact h1.2 k
  · rcases h1.2 k with h' | ⟨_, n0, h0, hn0, hn0'⟩
    · exact Or.inr ⟨hq, n, h, h' ▸ hn, hn'⟩
    · rw [hn0'] at hn
      cases hn
      exact Or.inr ⟨hq, n0, h, hn0, hn'⟩

theorem heightEq_store {Q : Nat → Prop} {s : State} {k : Nat} {n : treeview_node}
    (hq : Q k) (hn : s.heap k = some n) (h : Int) :
    HeightEq Q s (store s k { n with height := h }) := by
  refine ⟨rfl, fun a => ?_⟩
  by_cases hak : a = k
  · subst hak
    exact Or.inr ⟨hq, n, h, hn, store_heap_same _ _ _⟩
  · exact Or.inl (by rw [store_heap, if_neg hak])

theorem heightEq_get {Q : Nat → Prop} {s s' : State} (h : HeightEq Q s s') {a : Nat}
    {n' : treeview_node} (hn : s'.heap a = some n') :
    ∃ n, s.heap a = some n ∧ { n with height := n'.height } = n' ∧
      (n'.height ≠ n.height → Q a) := by
  rcases h.2 a with h1 | ⟨hq, n, x, h1, h2⟩
  · exact ⟨n', h1 ▸ hn, rfl, fun h => absurd rfl h⟩
  · rw [h2] at hn
    cases hn
    exact ⟨n, h1, rfl, fun _ => hq⟩

theorem heightEq_skel {Q : Nat → Prop} {s s' : State} (h : HeightEq Q s s') : SkelEq s s' := by
  intro a
  rcases h.2 a with h1 | ⟨_, n, x, h1, h2⟩
  · rw [h1]
  · rw [h1, h2]; rfl

/-- The parents of the nodes in memory all satisfy `Q`. -/
theorem parents_heightEq {Q : Nat → Prop} {s s' : State} (h : HeightEq Q s s')
    (hp : ∀ c nc, s.heap c = some nc → ∀ p, nc.parent = some p → Q p) :
    ∀ c nc, s'.heap c = some nc → ∀ p, nc.parent = some p → Q p := by
  intro c nc hc p hpp
  obtain ⟨n, hn, he, _⟩ := heightEq_get h hc
  exact hp c n hn p (by rw [← he] at hpp; exact hpp)

theorem insert_height_loop_heightEq (Q : Nat → Prop) : ∀ (fuel : Nat) (s : State) (b : Nat)
    (s' : State), (∀ c nc, s.heap c = some nc → ∀ p, nc.parent = some p → Q p) →
    insert_height_loop fuel s b = .ok s' → HeightEq Q s s' := by
  intro fuel
  induction fuel with
  | zero => intro s b s' _ h; simp [insert_height_loop] at h
  | succ fuel ih =>
    intro s b s' hp h
    rw [insert_height_loop] at h
    obtain ⟨nb, hnb, h⟩ := bind_ok_inv h
    obtain ⟨p, hpb, h⟩ := bind_ok_inv h
    obtain ⟨s1, hs1, h⟩ := bind_ok_inv h
    obtain ⟨np1, hnp1, h⟩ := bind_ok_inv h
    have hnb' : s.heap b = some nb := by
      simp only [load] at hnb
      split at hnb <;> simp_all
    have hpp : nb.parent = some p := by
      simp only [ptr] at hpb
      split at hpb <;> simp_all
    have hq : Q p := hp b nb hnb' p hpp
    have h01 : HeightEq Q s s1 := by
      simp only [modify] at hs1
      split at hs1
      · rename_i np hnp
        simp only [Except.ok.injEq] at hs1
        rw [← hs1]
        exact heightEq_store hq hnp _
      · simp at hs1
    split at h
    · exact heightEq_trans h01 (ih s1 p s' (parents_heightEq h01 hp) h)
    · simp only [Except.ok.injEq] at h
      rw [← h]
      exact h01

theorem expand_height_loop_heightEq (Q : Nat → Prop) (d : Int) : ∀ (fuel : Nat) (s : State)
    (node : Nat) (n : treeview_node) (s' : State) (top : Nat),
    (∀ c nc, s.heap c = some nc → ∀ p, nc.parent = some p → Q p) →
    s.heap node = some n → expand_height_loop d fuel s node = .ok (s', top) →
    HeightEq Q (store s node { n with height := n.height + d }) s' ∧ Q top ∧
      s'.heap top ≠ none := by
  intro fuel
  induction fuel with
  | zero => intro s node n s' top _ _ h; simp [expand_height_loop] at h
  | succ fuel ih =>
    intro s node n s' top hp hn h
    rw [expand_height_loop] at h
    obtain ⟨s1, hs1, h⟩ := bind_ok_inv h
    have hs1' : s1 = store s node { n with height := n.height + d } := by
      simp only [modify, hn, Except.ok.injEq] at hs1
      exact hs1.symm
    subst hs1'
    obtain ⟨n1, hn1, h⟩ := bind_ok_inv h
    have hn1' : n1 = { n with height := n.height + d } := by
      simp only [load, store_heap_same, Except.ok.injEq] at hn1
      exact hn1.symm
    subst hn1'
    obtain ⟨p, hpb, h⟩ := bind_ok_inv h
    have hpp : n.parent = some p := by
      simp only [ptr] at hpb
      split at hpb <;> simp_all
    obtain ⟨np, hnp, h⟩ := bind_ok_inv h
    have hnp' : (store s node { n with height := n.height + d }).heap p = some np := by
      simp only [load] at hnp
      split at hnp <;> simp_all
    have hq : Q p := hp node n hn p hpp
    have h01 : HeightEq (fun k => k = node ∨ Q k) s
        (store s node { n with height := n.height + d }) := heightEq_store (Or.inl rfl) hn _
    have hp1 : ∀ c nc, (store s node { n with height := n.height + d }).heap c = some nc →
        ∀ p, nc.parent = some p → Q p := by
      intro c nc hc q hq'
      obtain ⟨m, hm, he, _⟩ := heightEq_get h01 hc
      exact hp c m hm q (by rw [← he] at hq'; exact hq')
    split at h
    · obtain ⟨h2, h3, h4⟩ := ih _ p np s' top hp1 hnp' h
      exact ⟨heightEq_trans (heightEq_store hq hnp' _) h2, h3, h4⟩
    · simp only [pure, Except.pure, Except.ok.injEq, Prod.mk.injEq] at h
      obtain ⟨h2, h3⟩ := h
      subst h2
      subst h3
      exact ⟨heightEq_refl _ _, hq, by rw [hnp']; simp⟩

theorem contract_height_loop_heightEq (Q : Nat → Prop) (d : Int) : ∀ (fuel : Nat) (s : State)
    (node : Nat) (n : treeview_node) (s' : State),
    (∀ c nc, s.heap c = some nc → ∀ p, nc.parent = some p → Q p) →
    s.heap node = some n → contract_height_loop d fuel s node = .ok s' →
    HeightEq Q (store s node { n with height := n.height - d }) s' := by
  intro fuel
  induction fuel with
  | zero => intro s node n s' _ _ h; simp [contract_height_loop] at h
  | succ fuel ih =>
    intro s node n s' hp hn h
    rw [contract_height_loop] at h
    obtain ⟨s1, hs1, h⟩ := bind_ok_inv h
    have hs1' : s1 = store s node { n with height := n.height - d } := by
      simp only [modify, hn, Except.ok.injEq] at hs1
      exact hs1.symm
    subst hs1'
    obtain ⟨n1, hn1, h⟩ := bind_ok_inv h
    have hn1' : n1 = { n with height := n.height - d } := by
      simp only [load, store_heap_same, Except.ok.injEq] at hn1
      exact hn1.symm
    subst hn1'
    obtain ⟨p, hpb, h⟩ := bind_ok_inv h
    have hpp : n.parent = some p := by
      simp only [ptr] at hpb
      split at hpb <;> simp_all
    obtain ⟨np, hnp, h⟩ := bind_ok_inv h
    have hnp' : (store s node { n with height := n.height - d }).heap p = some np := by
      simp only [load] at hnp
      split at hnp <;> simp_all
    have hq : Q p := hp node n hn p hpp
    have h01 : HeightEq (fun k => k = node ∨ Q k) s
        (store s node { n with height := n.height - d }) := heightEq_store (Or.inl rfl) hn _
    have hp1 : ∀ c nc, (store s node { n with height := n.height - d }).heap c = some nc →
        ∀ p, nc.parent = some p → Q p := by
      intro c nc hc q hq'
      obtain ⟨m, hm, he, _⟩ := heightEq_get h01 hc
      exact hp c m hm q (by rw [← he] at hq'; exact hq')
    split at h
    · simp only [pure, Except.pure, Except.ok.injEq] at h
      rw [← h]
      exact heightEq_refl _ _
    · obtain ⟨npp, _, h⟩ := bind_ok_inv h
      split at h
      · exact heightEq_trans (heightEq_store hq hnp' _) (ih _ p np s' hp1 hnp' h)
      · simp only [pure, Except.pure, Except.ok.injEq] at h
        rw [← h]
        exact heightEq_refl _ _

theorem load_inv {s : State} {p : Nat} {n : treeview_node} (h : load s p = .ok n) :
    s.heap p = some n := by
  simp only [load] at h
  split at h <;> simp_all

theorem ptr_inv {o : Option Nat} {p : Nat} (h : ptr o = .ok p) : o = some p := by
  simp only [ptr] at h
  split at h <;> simp_all

theorem modify_inv {s s' : State} {p : Nat} {f : treeview_node → treeview_node}
    (h : modify s p f = .ok s') : ∃ n, s.heap p = some n ∧ s' = store s p (f n) := by
  simp only [modify] at h
  split at h
  · rename_i n hn
    exact ⟨n, hn, by simpa using h.symm⟩
  · simp at h

theorem c_assert_inv {b : Bool} {u : Unit} (h : c_assert b = .ok u) : b = true := by
  simp only [c_assert] at h
  split at h <;> simp_all

theorem inv_heightEq {g : treeview_globals} {font_width : List Nat → Nat → Int}
    {tree : treeview} {s s' : State} {Q : Nat → Prop} (hI : Inv g font_width tree s)
    (h : HeightEq Q s s')
    (hQ : ∀ k n, Q k → s.heap k = some n → n.type ≠ .TREE_NODE_ENTRY) :
    Inv g font_width tree s' := by
  refine inv_of_skel hI (heightEq_skel h) ?_ ?_ ?_
  · intro r hr
    obtain ⟨r0, hr0, he, _⟩ := heightEq_get h hr
    obtain ⟨r1, hr1, _, _, _, _, hx, hsel, _⟩ := hI.root
    rw [hr0] at hr1
    cases hr1
    rw [← he]
    exact ⟨hx, hsel⟩
  · intro a n hn hty
    obtain ⟨n0, hn0, he, hq⟩ := heightEq_get h hn
    have hty0 : n0.type = .TREE_NODE_ENTRY := by rw [← he] at hty; exact hty
    have hh : n.height = n0.height := by
      by_contra hne
      exact hQ a n0 (hq hne) hn0 hty0
    have hexp : n.expanded = n0.expanded := by rw [← he]
    rw [hh, hexp]
    exact (hI.entry a n0 hn0 hty0).2
  · intro a n hn
    obtain ⟨n0, hn0, he, _⟩ := heightEq_get h hn
    obtain ⟨w1, w2, w3, w4⟩ := hI.width a n0 hn0
    rw [← he]
    refine ⟨w1, w2, ?_, w4⟩
    intro p np hp hnp hexp
    obtain ⟨np0, hnp0, hpe, _⟩ := heightEq_get h hnp
    exact w3 p np0 hp hnp0 (by rw [← hpe] at hexp; exact hexp)

theorem measured_text_twice (font_width : List Nat → Nat → Int) (t : treeview_text) :
    measured_text font_width (measured_text font_width t) = measured_text font_width t := by
  unfold measured_text
  by_cases h : t.width = 0
  · simp only [h, if_true]
    split
    · rename_i h2
      simp only [] at h2 ⊢
    · rfl
  · simp [h]

theorem measure_node_twice (font_width : List Nat → Nat → Int) (n : treeview_node) :
    measure_node font_width (measure_node font_width n) = measure_node font_width n := by
  simp [measure_node, measured_text_twice]

theorem measured_of_cached {font_width : List Nat → Nat → Int} {t : treeview_text}
    (h : Cached font_width t) : Measured font_width (measured_text font_width t) := by
  unfold measured_text Measured
  by_cases h0 : t.width = 0
  · simp [h0]
  · simp only [h0, if_false]
    rcases h with h | h
    · exact absurd h h0
    · exact h

theorem cached_of_measured {font_width : List Nat → Nat → Int} {t : treeview_text}
    (h : Measured font_width t) : Cached font_width t := Or.inr h

theorem rep_childChain {s : State} : ∀ (f : Forest) (p prev : Option Nat),
    Rep s p prev f → ChildChain s f.first f.tops := by
  intro f
  induction f with
  | nil => intro _ _ _; simp [Forest.first, Forest.tops, ChildChain]
  | cons id k r _ ihr =>
    intro p prev hrep
    simp only [Rep] at hrep
    simp only [Forest.first, Forest.tops, ChildChain, true_and]
    cases h0 : s.heap id with
    | none => rw [h0] at hrep; exact hrep.1.elim
    | some n =>
      rw [h0] at hrep
      simp only [] at hrep ⊢
      rw [hrep.1.2.2.2]
      exact ihr _ _ hrep.2.2

theorem rep_parent_tops {s : State} : ∀ (f : Forest) (q : Nat) (prev : Option Nat),
    Rep s (some q) prev f → f.ids.Nodup → q ∉ f.ids → ∀ a ∈ f.ids, ∀ x,
    parentOf s a = some x → (x = q ∧ a ∈ f.tops) ∨ (x ∈ f.ids ∧ a ∈ (f.sub x).tops) := by
  intro f
  induction f with
  | nil => intro _ _ _ _ _ a ha; simp [Forest.ids] at ha
  | cons id k r ihk ihr =>
    intro q prev hrep hnd hq a ha x hx
    simp only [Rep] at hrep
    simp only [Forest.ids, List.nodup_cons, List.mem_append, not_or, List.nodup_append] at hnd
    obtain ⟨⟨hidk, hidr⟩, hkn, hrn, hdisj⟩ := hnd
    simp only [Forest.ids, List.mem_cons, List.mem_append, not_or] at hq ha
    obtain ⟨hqid, hqk, hqr⟩ := hq
    rcases ha with rfl | ha | ha
    · left
      cases h0 : s.heap a with
      | none => rw [h0] at hrep; exact hrep.1.elim
      | some n =>
        rw [h0] at hrep
        simp only [parentOf, h0] at hx
        rw [hrep.1.1] at hx
        cases hx
        exact ⟨rfl, by simp [Forest.tops]⟩
    · right
      rcases ihk id none hrep.2.1 hkn hidk a ha x hx with ⟨h1, h2⟩ | ⟨h1, h2⟩
      · subst h1
        refine ⟨by simp [Forest.ids], ?_⟩
        simpa [Forest.sub] using h2
      · have hxid : x ≠ id := fun h => hidk (h ▸ h1)
        refine ⟨by simp [Forest.ids, h1], ?_⟩
        simp only [Forest.sub, if_neg (Ne.symm hxid ∘ Eq.symm), h1, if_true]
        rw [if_neg (fun h => hxid h.symm)]
        exact h2
    · rcases ihr q (some id) hrep.2.2 hrn hqr a ha x hx with ⟨h1, h2⟩ | ⟨h1, h2⟩
      · left
        exact ⟨h1, by simp [Forest.tops, h2]⟩
      · right
        have hxid : x ≠ id := fun h => hidr (h ▸ h1)
        have hxk : x ∉ k.ids := fun h => hdisj h h1
        refine ⟨by simp [Forest.ids, h1], ?_⟩
        simp only [Forest.sub]
        rw [if_neg (fun h => hxid h.symm), if_neg hxk]
        exact h2


theorem measure_node_step (font_width : List Nat → Nat → Int) (s : State) (child : Nat)
    (nc : treeview_node) (hnc : s.heap child = some nc) (s1 : State)
    (h : (if nc.text.value.width = 0 then
        modify s child (fun n => { n with text := { n.text with value :=
          { n.text.value with width := font_width n.text.value.data n.text.value.len } } })
      else pure s) = Except.ok s1) :
    s1 = store s child (measure_node font_width nc) := by
  by_cases hw : nc.text.value.width = 0
  · rw [if_pos hw, modify_ok hnc] at h
    simp only [Except.ok.injEq] at h
    rw [← h]
    simp [measure_node, measured_text, hw]
  · rw [if_neg hw] at h
    simp only [pure, Except.pure, Except.ok.injEq] at h
    rw [← h]
    have : measure_node font_width nc = nc := by simp [measure_node, measured_text, hw]
    rw [this, store_same _ _ _ hnc]

theorem expand_children_loop_inv (font_width : List Nat → Nat → Int) :
    ∀ (fuel : Nat) (s : State) (child : Nat) (acc : Int) (r : State × Int),
    expand_children_loop font_width fuel s child acc = .ok r →
    r.1.events = s.events ∧
    (∀ k, r.1.heap k = s.heap k ∨ r.1.heap k = (s.heap k).map (measure_node font_width)) ∧
    ∀ l, ChildChain s (some child) l →
      ∀ c ∈ l, r.1.heap c = (s.heap c).map (measure_node font_width) := by
  intro fuel
  induction fuel with
  | zero => intro s child acc r h; simp [expand_children_loop] at h
  | succ fuel ih =>
    intro s child acc r h
    rw [expand_children_loop] at h
    obtain ⟨nc, hnc, h⟩ := bind_ok_inv h
    have hnc := load_inv hnc
    obtain ⟨_, _, h⟩ := bind_ok_inv h
    obtain ⟨s1, hs1, h⟩ := bind_ok_inv h
    have hs1 := measure_node_step font_width s child nc hnc s1 hs1
    subst hs1
    obtain ⟨nc1, hnc1, h⟩ := bind_ok_inv h
    have hnc1 := load_inv hnc1
    rw [store_heap_same] at hnc1
    cases hnc1
    have hstep : ∀ k, (store s child (measure_node font_width nc)).heap k = s.heap k ∨
        (store s child (measure_node font_width nc)).heap k =
          (s.heap k).map (measure_node font_width) := by
      intro k
      by_cases hk : k = child
      · subst hk
        right
        rw [store_heap_same, hnc]
        rfl
      · left
        rw [store_heap, if_neg hk]
    have hsn : (measure_node font_width nc).sibling_next = nc.sibling_next := rfl
    rw [hsn] at h
    cases hnext : nc.sibling_next with
    | none =>
      rw [hnext] at h
      simp only [pure, Except.pure, Except.ok.injEq] at h
      rw [← h]
      refine ⟨rfl, hstep, ?_⟩
      intro l hl c hc
      cases l with
      | nil => simp at hc
      | cons c0 rest =>
        simp only [ChildChain, Option.some.injEq] at hl
        obtain ⟨h1, h2⟩ := hl
        subst h1
        rw [hnc] at h2
        simp only [] at h2
        rw [hnext] at h2
        cases rest with
        | nil =>
          simp only [List.mem_singleton] at hc
          subst hc
          simp only [store_heap_same, hnc, Option.map_some']
        | cons _ _ => simp [ChildChain] at h2
    | some next =>
      rw [hnext] at h
      simp only [] at h
      obtain ⟨e1, e2, e3⟩ := ih _ next _ r h
      refine ⟨e1, ?_, ?_⟩
      · intro k
        rcases e2 k with hk | hk
        · rw [hk]; exact hstep k
        · rw [hk]
          rcases hstep k with hk2 | hk2
          · right; rw [hk2]
          · right
            rw [hk2]
            cases s.heap k with
            | none => rfl
            | some x => simp [measure_node_twice]
      · intro l hl c hc
        cases l with
        | nil => simp at hc
        | cons c0 rest =>
          simp only [ChildChain, Option.some.injEq] at hl
          obtain ⟨h1, h2⟩ := hl
          subst h1
          rw [hnc] at h2
          simp only [] at h2
          rw [hnext] at h2
          have hrest : ChildChain (store s child (measure_node font_width nc)) (some next)
              rest := by
            refine ChildChain_congr ?_ rest _ h2
            intro a
            by_cases ha : a = child
            · subst ha
              rw [store_heap_same, hnc]
              rfl
            · rw [store_heap, if_neg ha]
          have key : ∀ k, (Option.map (measure_node font_width)
              ((store s child (measure_node font_width nc)).heap k)) =
              (s.heap k).map (measure_node font_width) := by
            intro k
            by_cases hk : k = child
            · subst hk
              simp [store_heap_same, hnc, measure_node_twice]
            · rw [store_heap, if_neg hk]
          rcases List.mem_cons.mp hc with hc | hc
          · subst hc
            rcases e2 c with hk | hk
            · rw [hk, store_heap_same, hnc]; rfl
            · rw [hk, key]
          · rw [e3 rest hrest c hc, key]

theorem expand_fields_loop_inv (g : treeview_globals) (font_width : List Nat → Nat → Int)
    (tree : treeview) (node : Nat) : ∀ (fuel i : Nat) (s : State) (acc : Int)
    (r : State × Int) (e : treeview_node), s.heap node = some e →
    expand_fields_loop g font_width tree node fuel i s acc = .ok r →
    ∃ fs, r.1 = store s node { e with fields := fs } ∧ fs.length = e.fields.length ∧
      r.2 = acc + g.line_height * (((tree.n_fields - 1).toNat - i : Nat) : Int) ∧
      ∀ j, fs.get? j = (e.fields.get? j).map (fun f =>
        if i ≤ j ∧ j < (tree.n_fields - 1).toNat then
          { f with value := measured_text font_width f.value } else f) := by
  intro fuel
  induction fuel with
  | zero => intro i s acc r e _ h; simp [expand_fields_loop] at h
  | succ fuel ih =>
    intro i s acc r e he h
    rw [expand_fields_loop] at h
    by_cases hi : (i : Int) < tree.n_fields - 1
    · rw [if_pos hi] at h
      obtain ⟨e0, he0, h⟩ := bind_ok_inv h
      have he0 := load_inv he0
      rw [he] at he0
      cases he0
      obtain ⟨f, hf, h⟩ := bind_ok_inv h
      have hf : e.fields.get? i = some f := by
        split at hf <;> simp_all [pure, Except.pure]
      obtain ⟨s1, hs1, h⟩ := bind_ok_inv h
      obtain ⟨fs1, hfs1, hs1e, hget1⟩ : ∃ fs1 : List treeview_field,
          fs1.length = e.fields.length ∧ s1 = store s node { e with fields := fs1 } ∧
          ∀ j, fs1.get? j = (e.fields.get? j).map (fun f =>
            if j = i then { f with value := measured_text font_width f.value } else f) := by
        by_cases hw : f.value.width = 0
        · rw [if_pos hw, modify_ok he] at hs1
          simp only [Except.ok.injEq] at hs1
          refine ⟨measure_field font_width i e.fields, measure_field_length _ _ _, hs1.symm, ?_⟩
          intro j
          rw [measure_field_get]
          cases hj : e.fields.get? j with
          | none => rfl
          | some f' =>
            simp only [Option.map_some', Option.some.injEq]
            by_cases hji : j = i
            · subst hji
              rw [hf] at hj
              cases hj
              simp [measured_text, hw]
            · simp [hji]
        · rw [if_neg hw] at hs1
          simp only [pure, Except.pure, Except.ok.injEq] at hs1
          refine ⟨e.fields, rfl, ?_, ?_⟩
          · rw [← hs1]
            exact (store_same _ _ _ he).symm
          · intro j
            cases hj : e.fields.get? j with
            | none => rfl
            | some f' =>
              simp only [Option.map_some', Option.some.injEq]
              by_cases hji : j = i
              · subst hji
                rw [hf] at hj
                cases hj
                simp [measured_text, hw]
              · simp [hji]
      subst hs1e
      obtain ⟨fs, h1, h2, h3, h4⟩ := ih (i + 1) _ _ r { e with fields := fs1 }
        (store_heap_same _ _ _) h
      refine ⟨fs, ?_, h2.trans hfs1, ?_, ?_⟩
      · rw [h1, store_store]
      · rw [h3]
        have hlt : i < (tree.n_fields - 1).toNat := by omega
        have : (((tree.n_fields - 1).toNat - i : Nat) : Int) =
            (((tree.n_fields - 1).toNat - (i + 1) : Nat) : Int) + 1 := by omega
        rw [this]
        ring
      · intro j
        rw [h4]
        simp only []
        rw [hget1]
        cases hj : e.fields.get? j with
        | none => rfl
        | some f' =>
          simp only [Option.map_some', Option.some.injEq]
          have hlt : i < (tree.n_fields - 1).toNat := by omega
          by_cases hji : j = i
          · subst hji
            have h1 : ¬ (j + 1 ≤ j ∧ j < (tree.n_fields - 1).toNat) := by omega
            have h2 : (j ≤ j ∧ j < (tree.n_fields - 1).toNat) := ⟨le_refl _, hlt⟩
            rw [if_neg h1, if_pos h2]
            simp
          · by_cases hc : i + 1 ≤ j ∧ j < (tree.n_fields - 1).toNat
            · have h2 : i ≤ j ∧ j < (tree.n_fields - 1).toNat := ⟨by omega, hc.2⟩
              rw [if_pos hc, if_pos h2]
              simp [hji]
            · have h2 : ¬ (i ≤ j ∧ j < (tree.n_fields - 1).toNat) := by omega
              rw [if_neg hc, if_neg h2]
              simp [hji]
    · rw [if_neg hi] at h
      simp only [pure, Except.pure, Except.ok.injEq] at h
      rw [← h]
      refine ⟨e.fields, (store_same _ _ _ he).symm, rfl, ?_, ?_⟩
      · have : ((tree.n_fields - 1).toNat - i : Nat) = 0 := by omega
        simp only [this]
        simp
      · intro j
        have h2 : ¬ (i ≤ j ∧ j < (tree.n_fields - 1).toNat) := by omega
        simp only [h2, if_false]
        cases e.fields.get? j <;> rfl

/-- In a memory with the skeleton of `s`, the parent of every node is a node
of `s` that is not an entry. -/
theorem inv_parents {g : treeview_globals} {font_width : List Nat → Nat → Int}
    {tree : treeview} {s s1 : State} (hI : Inv g font_width tree s) (hsk : SkelEq s s1) :
    ∀ c nc, s1.heap c = some nc → ∀ p, nc.parent = some p →
      ∃ n0, s.heap p = some n0 ∧ n0.type ≠ .TREE_NODE_ENTRY := by
  intro c nc hc p hp
  obtain ⟨n0, hn0, hl⟩ := skelEq_get_rev hsk hc
  have hpar : n0.parent = some p := by rw [← (skel_eq hl).2.2.1]; exact hp
  have hcr : c ≠ tree.root := by
    intro h
    obtain ⟨r, hr, _, hrp, _⟩ := hI.root
    rw [h, hr] at hn0
    cases hn0
    rw [hrp] at hpar
    cases hpar
  obtain ⟨_, q, nq, hq, hnq, hty, _⟩ := hI.node c n0 hn0 hcr
  rw [hpar] at hq
  cases hq
  exact ⟨nq, hnq, hty⟩

theorem expand_tail_inv (Q : Nat → Prop) (d : Int) (fuel : Nat) (s1 : State) (node : Nat)
    (n1 : treeview_node) (r : nserror × State)
    (hpar : ∀ c nc, s1.heap c = some nc → ∀ p, nc.parent = some p → Q p)
    (hn1 : s1.heap node = some n1)
    (h : (do
        let s ← modify s1 node (fun x => { x with expanded := true })
        let (s, top) ← expand_height_loop d fuel s node
        let s ← modify s top (fun x => { x with height := x.height + d })
        pure (nserror.NSERROR_OK, s) : Except Fault (nserror × State)) = .ok r) :
    HeightEq Q (store s1 node { n1 with expanded := true, height := n1.height + d }) r.2 := by
  obtain ⟨s2, hs2, h⟩ := bind_ok_inv h
  obtain ⟨x, hx, hs2⟩ := modify_inv hs2
  rw [hn1] at hx
  cases hx
  subst hs2
  obtain ⟨⟨s3, top⟩, hloop, h⟩ := bind_ok_inv h
  simp only [] at h
  obtain ⟨s4, hs4, h⟩ := bind_ok_inv h
  simp only [pure, Except.pure, Except.ok.injEq] at h
  rw [← h]
  have hpar2 : ∀ c nc, (store s1 node { n1 with expanded := true }).heap c = some nc →
      ∀ p, nc.parent = some p → Q p := by
    intro c nc hc p hp
    by_cases hcn : c = node
    · subst hcn
      rw [store_heap_same] at hc
      cases hc
      exact hpar c n1 hn1 p hp
    · rw [store_heap, if_neg hcn] at hc
      exact hpar c nc hc p hp
  obtain ⟨h1, h2, _⟩ := expand_height_loop_heightEq Q d fuel _ node _ s3 top hpar2
    (store_heap_same _ _ _) hloop
  rw [store_store] at h1
  obtain ⟨t, ht, hs4⟩ := modify_inv hs4
  subst hs4
  exact heightEq_trans h1 (heightEq_store h2 ht _)

theorem nonentry_of_skel {s s' : State} (hsk : SkelEq s s') (k : Nat) (n : treeview_node)
    (hq : ∃ n0, s.heap k = some n0 ∧ n0.type ≠ .TREE_NODE_ENTRY) (hn : s'.heap k = some n) :
    n.type ≠ .TREE_NODE_ENTRY := by
  obtain ⟨n0, hn0, hty⟩ := hq
  obtain ⟨n1, hn1, hl⟩ := skelEq_get hsk hn0
  rw [hn] at hn1
  cases hn1
  rw [(skel_eq hl).1]
  exact hty


theorem measure_node_skel (font_width : List Nat → Nat → Int) (n : treeview_node) :
    skel (measure_node font_width n) = skel n := rfl

theorem cached_measured_text {font_width : List Nat → Nat → Int} {t : treeview_text}
    (h : Cached font_width t) : Cached font_width (measured_text font_width t) :=
  Or.inr (measured_of_cached h)

theorem measured_measured_text {font_width : List Nat → Nat → Int} {t : treeview_text}
    (h : Measured font_width t) : Measured font_width (measured_text font_width t) :=
  measured_of_cached (Or.inr h)

/-- Expanding a folder whose children are in the chain `kids`. -/
theorem inv_expand_folder {g : treeview_globals} {font_width : List Nat → Nat → Int}
    {tree : treeview} {s s1 : State} {node : Nat} {n : treeview_node} (d : Int)
    (hI : Inv g font_width tree s) (hn : s.heap node = some n) (hcol : n.expanded = false)
    (hty : n.type = .TREE_NODE_FOLDER)
    (e2 : ∀ k, s1.heap k = s.heap k ∨ s1.heap k = (s.heap k).map (measure_node font_width))
    (e3 : ∀ c nc, s.heap c = some nc → nc.parent = some node →
      s1.heap c = (s.heap c).map (measure_node font_width)) :
    ∃ n1, s1.heap node = some n1 ∧ SkelEq s s1 ∧
      SkelEq s (store s1 node { n1 with expanded := true, height := n1.height + d }) ∧
      Inv g font_width tree
        (store s1 node { n1 with expanded := true, height := n1.height + d }) := by
  have hsk1 : SkelEq s s1 := by
    intro a
    rcases e2 a with h | h
    · rw [h]
    · rw [h]
      cases s.heap a <;> rfl
  obtain ⟨n1, hn1, hl1⟩ := skelEq_get hsk1 hn
  have hrel : ∀ a x, s1.heap a = some x → ∃ x0, s.heap a = some x0 ∧
      (x = x0 ∨ x = measure_node font_width x0) := by
    intro a x hx
    rcases e2 a with h | h
    · exact ⟨x, h ▸ hx, Or.inl rfl⟩
    · rw [hx] at h
      cases h0 : s.heap a with
      | none => rw [h0] at h; simp at h
      | some x0 =>
        rw [h0] at h
        simp only [Option.map_some', Option.some.injEq] at h
        exact ⟨x0, rfl, Or.inr h⟩
  have hskB : SkelEq s (store s1 node { n1 with expanded := true, height := n1.height + d }) := by
    intro a
    by_cases ha : a = node
    · subst ha
      rw [store_heap_same, hn]
      simp only [Option.map_some', Option.some.injEq]
      exact hl1
    · rw [store_heap, if_neg ha]
      exact hsk1 a
  obtain ⟨r, hr, hrt, _, _, _, hrexp, hrsel, _⟩ := hI.root
  have hnr : node ≠ tree.root := by
    intro h
    rw [h, hr] at hn
    cases hn
    rw [hrexp] at hcol
    cases hcol
  refine ⟨n1, hn1, hsk1, hskB, inv_of_skel hI hskB ?_ ?_ ?_⟩
  · intro r' hr'
    rw [store_heap, if_neg (Ne.symm hnr)] at hr'
    obtain ⟨x0, hx0, hx⟩ := hrel _ _ hr'
    rw [hr] at hx0
    cases hx0
    rcases hx with rfl | rfl
    · exact ⟨hrexp, hrsel⟩
    · exact ⟨hrexp, hrsel⟩
  · intro a x hx hxt
    have han : a ≠ node := by
      intro h
      subst h
      rw [store_heap_same] at hx
      cases hx
      have : n1.type = n.type := (skel_eq hl1).1
      simp only [] at hxt
      rw [this, hty] at hxt
      cases hxt
    rw [store_heap, if_neg han] at hx
    obtain ⟨x0, hx0, hx⟩ := hrel _ _ hx
    rcases hx with rfl | rfl
    · exact (hI.entry a x hx0 hxt).2
    · exact (hI.entry a x0 hx0 hxt).2
  · intro a x hx
    -- the record of `a` before its flag and height were written
    obtain ⟨y, hy, hyx⟩ : ∃ y, s1.heap a = some y ∧ x.text = y.text ∧ x.fields = y.fields ∧
        x.parent = y.parent ∧ x.type = y.type ∧ (a ≠ node → x = y) := by
      by_cases han : a = node
      · subst han
        rw [store_heap_same] at hx
        cases hx
        exact ⟨n1, hn1, rfl, rfl, rfl, rfl, fun h => absurd rfl h⟩
      · rw [store_heap, if_neg han] at hx
        exact ⟨x, hx, rfl, rfl, rfl, rfl, fun _ => rfl⟩
    obtain ⟨hxt, hxf, hxp, hxty, hxe⟩ := hyx
    obtain ⟨x0, hx0, hyx0⟩ := hrel _ _ hy
    obtain ⟨w1, w2, w3, w4⟩ := hI.width a x0 hx0
    have hyt : y.text.value = x0.text.value ∨
        y.text.value = measured_text font_width x0.text.value := by
      rcases hyx0 with rfl | rfl
      · exact Or.inl rfl
      · exact Or.inr rfl
    have hyf : y.fields = x0.fields := by
      rcases hyx0 with rfl | rfl <;> rfl
    have hyp : y.parent = x0.parent := by
      rcases hyx0 with rfl | rfl <;> rfl
    have hyty : y.type = x0.type := by
      rcases hyx0 with rfl | rfl <;> rfl
    have hye : y.expanded = x0.expanded := by
      rcases hyx0 with rfl | rfl <;> rfl
    refine ⟨?_, ?_, ?_, ?_⟩
    · rw [hxt]
      rcases hyt with h | h
      · rw [h]; exact w1
      · rw [h]; exact cached_measured_text w1
    · rw [hxf, hyf]; exact w2
    · intro p np hp hnp hexp
      rw [hxp, hyp] at hp
      rw [hxt]
      by_cases hpn : p = node
      · subst hpn
        have := e3 a x0 hx0 hp
        rw [hy, hx0] at this
        simp only [Option.map_some', Option.some.injEq] at this
        rw [this]
        exact measured_of_cached w1
      · rw [store_heap, if_neg hpn] at hnp
        obtain ⟨np0, hnp0, hnpx⟩ := hrel _ _ hnp
        have hexp0 : np0.expanded = true := by
          rcases hnpx with rfl | rfl
          · exact hexp
          · exact hexp
        have hm := w3 p np0 hp hnp0 hexp0
        rcases hyt with h | h
        · rw [h]; exact hm
        · rw [h]; exact measured_measured_text hm
    · intro hxty' hxexp
      have han : a ≠ node := by
        intro h
        subst h
        rw [hx0] at hn
        cases hn
        rw [hxty, hyty, hty] at hxty'
        cases hxty'
      have hxy := hxe han
      subst hxy
      rw [hyf]
      exact w4 (by rw [← hyty]; exact hxty') (by rw [← hye]; exact hxexp)

/-- Expanding an entry whose secondary slots were measured into `fs`. -/
theorem inv_expand_entry {g : treeview_globals} {font_width : List Nat → Nat → Int}
    {tree : treeview} {s : State} {node : Nat} {e : treeview_node} (fs : List treeview_field)
    (hI : Inv g font_width tree s) (he : s.heap node = some e) (hcol : e.expanded = false)
    (hty : e.type = .TREE_NODE_ENTRY) (hlen : fs.length = e.fields.length)
    (hget : ∀ j, fs.get? j = (e.fields.get? j).map (fun f =>
      if 0 ≤ j ∧ j < (tree.n_fields - 1).toNat then
        { f with value := measured_text font_width f.value } else f)) :
    SkelEq s (store s node { e with fields := fs, expanded := true,
                                    height := e.height + g.line_height * (((tree.n_fields - 1).toNat - 0 : Nat) : Int) }) ∧
      Inv g font_width tree (store s node { e with fields := fs, expanded := true,
                                                   height := e.height + g.line_height * (((tree.n_fields - 1).toNat - 0 : Nat) : Int) }) := by
  have hskB : SkelEq s (store s node { e with fields := fs, expanded := true,
                                              height := e.height + g.line_height * (((tree.n_fields - 1).toNat - 0 : Nat) : Int) }) := by
    intro a
    by_cases ha : a = node
    · subst ha
      rw [store_heap_same, he]
      simp only [Option.map_some', Option.some.injEq, skel, hlen]
    · rw [store_heap, if_neg ha]
  obtain ⟨r, hr, hrt, _, _, _, hrexp, hrsel, _⟩ := hI.root
  have hnr : node ≠ tree.root := by
    intro h
    rw [h, hr] at he
    cases he
    rw [hrexp] at hcol
    cases hcol
  obtain ⟨hel, heh⟩ := hI.entry node e he hty
  rw [hcol] at heh
  simp only [Bool.false_eq_true, if_false] at heh
  have hnf := hI.nf
  refine ⟨hskB, inv_of_skel hI hskB ?_ ?_ ?_⟩
  · intro r' hr'
    rw [store_heap, if_neg (Ne.symm hnr), hr] at hr'
    cases hr'
    exact ⟨hrexp, hrsel⟩
  · intro a x hx hxt
    by_cases han : a = node
    · subst han
      rw [store_heap_same] at hx
      cases hx
      simp only [if_true]
      rw [heh]
      have : (((tree.n_fields - 1).toNat - 0 : Nat) : Int) = tree.n_fields - 1 := by omega
      rw [this]
      ring
    · rw [store_heap, if_neg han] at hx
      exact (hI.entry a x hx hxt).2
  · intro a x hx
    by_cases han : a = node
    · subst han
      rw [store_heap_same] at hx
      cases hx
      obtain ⟨w1, w2, w3, _⟩ := hI.width a e he
      have hslot : ∀ f ∈ fs, Measured font_width f.value := by
        intro f hf
        obtain ⟨j, hj⟩ := List.mem_iff_get?.mp hf
        rw [hget] at hj
        cases h0 : e.fields.get? j with
        | none => rw [h0] at hj; simp at hj
        | some f0 =>
          rw [h0] at hj
          have hjl : j < e.fields.length := by
            by_contra hc
            rw [List.get?_eq_none.mpr (by omega)] at h0
            cases h0
          have hc : 0 ≤ j ∧ j < (tree.n_fields - 1).toNat := ⟨Nat.zero_le _, by omega⟩
          simp only [Option.map_some', if_pos hc, Option.some.injEq] at hj
          rw [← hj]
          exact measured_of_cached (w2 f0 (List.mem_iff_get?.mpr ⟨j, h0⟩))
      refine ⟨w1, fun f hf => Or.inr (hslot f hf), ?_, fun _ _ => hslot⟩
      intro p np hp hnp hexp
      have hpn : p ≠ a := by
        intro h
        subst h
        obtain ⟨_, q, nq, hq, hnq, hqt, _⟩ := hI.node p e he hnr
        simp only [] at hp
        rw [hp] at hq
        cases hq
        rw [he] at hnq
        cases hnq
        exact hqt hty
      rw [store_heap, if_neg hpn] at hnp
      exact w3 p np hp hnp hexp
    · rw [store_heap, if_neg han] at hx
      obtain ⟨w1, w2, w3, w4⟩ := hI.width a x hx
      refine ⟨w1, w2, ?_, w4⟩
      intro p np hp hnp hexp
      have hpn : p ≠ node := by
        intro h
        subst h
        have har : a ≠ tree.root := by
          intro h
          rw [h, hr] at hx
          cases hx
          simp_all
        obtain ⟨_, q, nq, hq, hnq, hqt, _⟩ := hI.node a x hx har
        rw [hp] at hq
        cases hq
        rw [he] at hnq
        cases hnq
        exact hqt hty
      rw [store_heap, if_neg hpn] at hnp
      exact w3 p np hp hnp hexp

theorem inv_expand {g : treeview_globals} {font_width : List Nat → Nat → Int}
    {tree : treeview} {s : State} (fuel node : Nat) (r : nserror × State)
    (hI : Inv g font_width tree s)
    (h : treeview_node_expand g font_width fuel tree s node = .ok r) :
    Inv g font_width tree r.2 ∧ SkelEq s r.2 := by
  rw [treeview_node_expand] at h
  obtain ⟨n, hn, h⟩ := bind_ok_inv h
  have hn := load_inv hn
  by_cases hexp : n.expanded = true
  · rw [if_pos hexp] at h
    simp only [pure, Except.pure, Except.ok.injEq] at h
    rw [← h]
    exact ⟨hI, skelEq_refl s⟩
  rw [if_neg hexp] at h
  have hcol : n.expanded = false := by simpa using hexp
  cases hty : n.type with
  | TREE_NODE_ROOT => rw [hty] at h; simp at h
  | TREE_NODE_FOLDER =>
    rw [hty] at h
    simp only [] at h
    cases hch : n.children with
    | none =>
      rw [hch] at h
      simp only [pure, Except.pure, Except.ok.injEq] at h
      rw [← h]
      exact ⟨hI, skelEq_refl s⟩
    | some child =>
      rw [hch] at h
      simp only [] at h
      obtain ⟨⟨s1, d⟩, hloop, h⟩ := bind_ok_inv h
      simp only [] at h
      obtain ⟨e1, e2, e3⟩ := expand_children_loop_inv font_width fuel s child 0 _ hloop
      simp only [] at e1 e2 e3
      obtain ⟨F, hsub, hnd, hall⟩ := hI.shape
      obtain ⟨rr, hrr, _, hrp, _, _, hrexp, _, _⟩ := hI.root
      have hnr : node ≠ tree.root := by
        intro h
        rw [h, hrr] at hn
        cases hn
        exact hexp hrexp
      have hnF : node ∈ F.ids := by
        rcases hall node (by rw [hn]; simp) with h | h
        · exact absurd h hnr
        · exact h
      obtain ⟨hroot, hrep, hrF⟩ := hsub
      rw [hrr] at hroot
      simp only [] at hroot
      obtain ⟨nn, y, ny, hnn, hkids, hrepn, _⟩ := rep_local s node F tree.root none rr hrep hrF
        hnd (fun v hv => by cases hv) hrr (fun _ => hroot) (fun h => absurd rfl h) hnF
      rw [hn] at hnn
      cases hnn
      have hchain : ChildChain s (some child) (F.sub node).tops := by
        have := rep_childChain (F.sub node) _ _ hrepn
        rw [← hkids, hch] at this
        exact this
      have hkid : ∀ c nc, s.heap c = some nc → nc.parent = some node →
          s1.heap c = (s.heap c).map (measure_node font_width) := by
        intro c nc hc hp
        have hcr : c ≠ tree.root := by
          intro h
          rw [h, hrr] at hc
          cases hc
          rw [hrp] at hp
          cases hp
        have hcF : c ∈ F.ids := by
          rcases hall c (by rw [hc]; simp) with h | h
          · exact absurd h hcr
          · exact h
        rcases rep_parent_tops F tree.root none hrep hnd hrF c hcF node
          (by simp [parentOf, hc, hp]) with ⟨h1, _⟩ | ⟨_, h2⟩
        · exact absurd h1 hnr
        · exact e3 _ hchain c h2
      obtain ⟨n1, hn1, hsk1, hskB, hIB⟩ := inv_expand_folder d hI hn hcol hty e2 hkid
      have hH := expand_tail_inv
        (fun k => ∃ n0, s.heap k = some n0 ∧ n0.type ≠ .TREE_NODE_ENTRY) d fuel s1 node n1 r
        (inv_parents hI hsk1) hn1 h
      exact ⟨inv_heightEq hIB hH (fun k x hq hx => nonentry_of_skel hskB k x hq hx),
        skelEq_trans hskB (heightEq_skel hH)⟩
  | TREE_NODE_ENTRY =>
    rw [hty] at h
    simp only [] at h
    obtain ⟨_, _, h⟩ := bind_ok_inv h
    obtain ⟨⟨s1, d⟩, hloop, h⟩ := bind_ok_inv h
    simp only [] at h
    obtain ⟨fs, h1, h2, h3, h4⟩ := expand_fields_loop_inv g font_width tree node fuel 0 s 0 _ n
      hn hloop
    simp only [] at h1 h3
    subst h1
    obtain ⟨hskB, hIB⟩ := inv_expand_entry fs hI hn hcol hty h2 h4
    have hsk1 : SkelEq s (store s node { n with fields := fs }) := by
      intro a
      by_cases ha : a = node
      · subst ha
        rw [store_heap_same, hn]
        simp only [Option.map_some', Option.some.injEq, skel, h2]
      · rw [store_heap, if_neg ha]
    have hH := expand_tail_inv
      (fun k => ∃ n0, s.heap k = some n0 ∧ n0.type ≠ .TREE_NODE_ENTRY) d fuel _ node _ r
      (inv_parents hI hsk1) (store_heap_same _ _ _) h
    rw [store_store] at hH
    have hd : d = g.line_height * (((tree.n_fields - 1).toNat - 0 : Nat) : Int) := by
      rw [h3]; ring
    subst hd
    exact ⟨inv_heightEq hIB hH (fun k x hq hx => nonentry_of_skel hskB k x hq hx),
      skelEq_trans hskB (heightEq_skel hH)⟩


theorem walk_loop_inv {σ : Type} (I : State → Prop) (full : Bool)
    (cb : Nat → State → σ → Except Fault (Bool × State × σ)) (root : Nat)
    (hcb : ∀ x s c r, x ≠ root → I s → cb x s c = .ok r → I r.2.1) :
    ∀ (fuel node : Nat) (s : State) (c : σ) (r : Bool × State × σ), I s →
    walk_loop full cb root fuel node s c = .ok r → I r.2.1 := by
  intro fuel
  induction fuel with
  | zero => intro node s c r _ h; simp [walk_loop] at h
  | succ f ih =>
    intro node s c r hI h
    rw [walk_loop] at h
    obtain ⟨n, _, h⟩ := bind_ok_inv h
    have visit : ∀ x, x ≠ root → (do
        let (stop, s, ctx) ← cb x s c
        if stop then pure (true, s, ctx)
        else walk_loop full cb root f x s ctx) = Except.ok r → I r.2.1 := by
      intro x hxr hx
      obtain ⟨r1, h1, hx⟩ := bind_ok_inv hx
      obtain ⟨stop, s1, c1⟩ := r1
      have e1 := hcb x s c _ hxr hI h1
      simp only [] at hx
      split at hx
      · simp only [pure, Except.pure, Except.ok.injEq] at hx
        subst hx
        exact e1
      · exact ih _ _ _ _ e1 hx
    simp only [] at h
    generalize (if (full || n.expanded) = true then n.children else none) = next at h
    cases next with
    | some child =>
      simp only [] at h
      split at h
      · cases h
      · rename_i hcr
        exact visit _ hcr h
    | none =>
      simp only [] at h
      obtain ⟨up, _, h⟩ := bind_ok_inv h
      split at h
      · simp only [pure, Except.pure, Except.ok.injEq] at h
        subst h
        exact hI
      · obtain ⟨nu, _, h⟩ := bind_ok_inv h
        split at h
        · cases h
        · split at h
          · cases h
          · rename_i hsr
            exact visit _ hsr h

theorem walk_internal_inv {σ : Type} (I : State → Prop) (full : Bool)
    (cb : Nat → State → σ → Except Fault (Bool × State × σ)) (root : Nat)
    (hcb : ∀ x s c r, x ≠ root → I s → cb x s c = .ok r → I r.2.1)
    (fuel : Nat) (s : State) (c : σ) (r : Bool × State × σ) (hI : I s)
    (h : treeview_walk_internal fuel (some root) full cb s c = .ok r) : I r.2.1 := by
  simp only [treeview_walk_internal] at h
  exact walk_loop_inv I full cb root hcb _ _ _ _ _ hI h

theorem skelEq_of_heap {s s' : State} (h : ∀ a, s'.heap a = s.heap a) : SkelEq s s' :=
  fun a => by rw [h a]

theorem inv_congr {g : treeview_globals} {font_width : List Nat → Nat → Int}
    {tree : treeview} {s s' : State} (hI : Inv g font_width tree s)
    (h : ∀ a, s'.heap a = s.heap a) : Inv g font_width tree s' := by
  refine inv_of_skel hI (skelEq_of_heap h) ?_ ?_ ?_
  · intro r hr
    rw [h] at hr
    obtain ⟨r0, hr0, _, _, _, _, h1, h2, _⟩ := hI.root
    rw [hr0] at hr
    cases hr
    exact ⟨h1, h2⟩
  · intro a n hn hty
    rw [h] at hn
    exact (hI.entry a n hn hty).2
  · intro a n hn
    rw [h] at hn
    obtain ⟨w1, w2, w3, w4⟩ := hI.width a n hn
    exact ⟨w1, w2, fun p np hp hnp => w3 p np hp (by rw [← h]; exact hnp), w4⟩

theorem inv_emit {g : treeview_globals} {font_width : List Nat → Nat → Int}
    {tree : treeview} {s : State} (hI : Inv g font_width tree s) (e : Event) :
    Inv g font_width tree (emit s e) ∧ SkelEq s (emit s e) :=
  ⟨inv_congr hI (fun _ => rfl), fun _ => rfl⟩

theorem inv_set_selected {g : treeview_globals} {font_width : List Nat → Nat → Int}
    {tree : treeview} {s : State} {x : Nat} {n : treeview_node} (b : Bool)
    (hI : Inv g font_width tree s) (hn : s.heap x = some n) (hx : x ≠ tree.root) :
    Inv g font_width tree (store s x { n with selected := b }) ∧
      SkelEq s (store s x { n with selected := b }) := by
  have hsk : SkelEq s (store s x { n with selected := b }) := by
    intro a
    by_cases ha : a = x
    · subst ha
      rw [store_heap_same, hn]
      rfl
    · rw [store_heap, if_neg ha]
  have hget : ∀ a y, (store s x { n with selected := b }).heap a = some y →
      ∃ y0, s.heap a = some y0 ∧ y = { y0 with selected := y.selected } ∧
        (a ≠ x → y = y0) := by
    intro a y hy
    by_cases ha : a = x
    · subst ha
      rw [store_heap_same] at hy
      cases hy
      exact ⟨n, hn, rfl, fun h => absurd rfl h⟩
    · rw [store_heap, if_neg ha] at hy
      exact ⟨y, hy, rfl, fun _ => rfl⟩
  refine ⟨inv_of_skel hI hsk ?_ ?_ ?_, hsk⟩
  · intro r hr
    obtain ⟨r0, hr0, _, hr1⟩ := hget _ _ hr
    obtain ⟨r1, hr1', _, _, _, _, h1, h2, _⟩ := hI.root
    rw [hr1 (Ne.symm hx)]
    rw [hr0] at hr1'
    cases hr1'
    exact ⟨h1, h2⟩
  · intro a y hy hty
    obtain ⟨y0, hy0, he, _⟩ := hget _ _ hy
    rw [he] at hty ⊢
    exact (hI.entry a y0 hy0 hty).2
  · intro a y hy
    obtain ⟨y0, hy0, he, _⟩ := hget _ _ hy
    obtain ⟨w1, w2, w3, w4⟩ := hI.width a y0 hy0
    rw [he]
    refine ⟨w1, w2, ?_, w4⟩
    intro p np hp hnp hexp
    obtain ⟨np0, hnp0, hpe, _⟩ := hget _ _ hnp
    exact w3 p np0 hp hnp0 (by rw [hpe] at hexp; exact hexp)

theorem inv_selection_cb {g : treeview_globals} {font_width : List Nat → Nat → Int}
    {tree : treeview} {s : State} (x : Nat) (sw : treeview_selection_walk_data)
    (r : Bool × State × treeview_selection_walk_data)
    (hx : x ≠ tree.root) (hI : Inv g font_width tree s)
    (h : treeview_node_selection_walk_cb g x s sw = .ok r) :
    Inv g font_width tree r.2.1 ∧ SkelEq s r.2.1 := by
  obtain ⟨b, s', sw'⟩ := r
  cases hn : s.heap x with
  | none => simp [treeview_node_selection_walk_cb, load, hn, bind, Except.bind] at h
  | some n =>
    have key : s' = s ∨ s' = store s x { n with selected := !n.selected } := by
      simp only [treeview_node_selection_walk_cb, load, hn, bind, Except.bind, modify, pure,
        Except.pure] at h
      split at h <;> split at h <;> simp only [Except.ok.injEq, Prod.mk.injEq] at h
      all_goals first
        | exact Or.inl h.2.1.symm
        | exact Or.inr h.2.1.symm
    simp only []
    rcases key with h1 | h1
    · rw [h1]
      exact ⟨hI, skelEq_refl s⟩
    · rw [h1]
      exact inv_set_selected _ hI hn hx

/-- The invariant together with the skeleton of a starting memory. -/
theorem inv_walk {σ : Type} {g : treeview_globals} {font_width : List Nat → Nat → Int}
    {tree : treeview} (full : Bool)
    (cb : Nat → State → σ → Except Fault (Bool × State × σ)) (root : Nat)
    (hcb : ∀ x s c r, x ≠ root → Inv g font_width tree s → cb x s c = .ok r →
      Inv g font_width tree r.2.1 ∧ SkelEq s r.2.1)
    (fuel : Nat) (s : State) (c : σ) (r : Bool × State × σ) (hI : Inv g font_width tree s)
    (h : treeview_walk_internal fuel (some root) full cb s c = .ok r) :
    Inv g font_width tree r.2.1 ∧ SkelEq s r.2.1 :=
  walk_internal_inv (fun t => Inv g font_width tree t ∧ SkelEq s t) full cb root
    (fun x t c r hx ht hr =>
      ⟨(hcb x t c r hx ht.1 hr).1, skelEq_trans ht.2 (hcb x t c r hx ht.1 hr).2⟩)
    fuel s c r ⟨hI, skelEq_refl s⟩ h

theorem inv_selection_walk {g : treeview_globals} {font_width : List Nat → Nat → Int}
    {tree : treeview} {s : State} (fuel : Nat) (purpose : selection_walk_purpose)
    (r : Bool × State × rect) (hI : Inv g font_width tree s)
    (h : selection_walk g fuel tree s purpose = .ok r) :
    Inv g font_width tree r.2.1 ∧ SkelEq s r.2.1 := by
  simp only [selection_walk] at h
  obtain ⟨⟨b, s1, sw⟩, hw, h⟩ := bind_ok_inv h
  simp only [pure, Except.pure, Except.ok.injEq] at h
  rw [← h]
  exact inv_walk false _ tree.root (fun x t c r hx ht hr => inv_selection_cb x c r hx ht hr)
    fuel s _ _ hI hw

theorem inv_has_selection {g : treeview_globals} {font_width : List Nat → Nat → Int}
    {tree : treeview} {s : State} (fuel : Nat) (r : Bool × State)
    (hI : Inv g font_width tree s) (h : treeview_has_selection g fuel tree s = .ok r) :
    Inv g font_width tree r.2 ∧ SkelEq s r.2 := by
  simp only [treeview_has_selection] at h
  obtain ⟨⟨b, s1, sw⟩, hw, h⟩ := bind_ok_inv h
  simp only [pure, Except.pure, Except.ok.injEq] at h
  rw [← h]
  exact inv_walk false _ tree.root (fun x t c r hx ht hr => inv_selection_cb x c r hx ht hr)
    fuel s _ _ hI hw

theorem inv_contract_cb {g : treeview_globals} {font_width : List Nat → Nat → Int}
    {tree : treeview} {s : State} (fuel x : Nat) (c : Unit) (r : Bool × State × Unit)
    (hI : Inv g font_width tree s) (h : treeview_node_contract_cb g fuel x s c = .ok r) :
    Inv g font_width tree r.2.1 ∧ SkelEq s r.2.1 := by
  rw [treeview_node_contract_cb] at h
  obtain ⟨n, hn, h⟩ := bind_ok_inv h
  have hn := load_inv hn
  obtain ⟨_, hty, h⟩ := bind_ok_inv h
  have hty := c_assert_inv hty
  simp only [ne_eq, decide_eq_true_eq] at hty
  by_cases hexp : n.expanded = false
  · rw [if_pos hexp] at h
    simp only [pure, Except.pure, Except.ok.injEq] at h
    rw [← h]
    exact ⟨hI, skelEq_refl s⟩
  rw [if_neg hexp] at h
  have hexp : n.expanded = true := by simpa using hexp
  obtain ⟨s1, hs1, h⟩ := bind_ok_inv h
  obtain ⟨n0, hn0, hs1⟩ := modify_inv hs1
  rw [hn] at hn0
  cases hn0
  subst hs1
  obtain ⟨n1, hn1, h⟩ := bind_ok_inv h
  have hn1 := load_inv hn1
  rw [store_heap_same] at hn1
  cases hn1
  obtain ⟨_, _, h⟩ := bind_ok_inv h
  obtain ⟨s2, hloop, h⟩ := bind_ok_inv h
  simp only [pure, Except.pure, Except.ok.injEq] at h
  rw [← h]
  simp only [] at hloop ⊢
  obtain ⟨rr, hrr, hrt, _, _, _, hrexp, hrsel, _⟩ := hI.root
  have hxr : x ≠ tree.root := by
    intro hx
    rw [hx, hrr] at hn
    cases hn
    exact hty hrt
  have hsk1 : SkelEq s (store s x { n with expanded := !n.expanded }) := by
    intro a
    by_cases ha : a = x
    · subst ha
      rw [store_heap_same, hn]
      rfl
    · rw [store_heap, if_neg ha]
  have hH := contract_height_loop_heightEq
    (fun k => ∃ n0, s.heap k = some n0 ∧ n0.type ≠ .TREE_NODE_ENTRY) _ fuel _ x _ s2
    (inv_parents hI hsk1) (store_heap_same _ _ _) hloop
  rw [store_store] at hH
  simp only [hexp, Bool.not_true] at hH hsk1
  have hskB : SkelEq s (store s x { n with expanded := false,
                                           height := n.height - (n.height - g.line_height) }) := by
    intro a
    by_cases ha : a = x
    · subst ha
      rw [store_heap_same, hn]
      rfl
    · rw [store_heap, if_neg ha]
  have hIB : Inv g font_width tree (store s x { n with expanded := false,
                                                       height := n.height - (n.height - g.line_height) }) := by
    refine inv_of_skel hI hskB ?_ ?_ ?_
    · intro r' hr'
      rw [store_heap, if_neg (Ne.symm hxr), hrr] at hr'
      cases hr'
      exact ⟨hrexp, hrsel⟩
    · intro a y hy hyt
      by_cases ha : a = x
      · subst ha
        rw [store_heap_same] at hy
        cases hy
        simp
      · rw [store_heap, if_neg ha] at hy
        exact (hI.entry a y hy hyt).2
    · intro a y hy
      have hpar : ∀ p np, (store s x { n with expanded := false,
                                              height := n.height - (n.height - g.line_height) }).heap p = some np →
          np.expanded = true → s.heap p = some np := by
        intro p np hnp hexp'
        by_cases hp : p = x
        · subst hp
          rw [store_heap_same] at hnp
          cases hnp
          cases hexp'
        · rw [store_heap, if_neg hp] at hnp
          exact hnp
      by_cases ha : a = x
      · subst ha
        rw [store_heap_same] at hy
        cases hy
        obtain ⟨w1, w2, w3, _⟩ := hI.width a n hn
        exact ⟨w1, w2, fun p np hp hnp he => w3 p np hp (hpar p np hnp he) he,
          fun _ h => by cases h⟩
      · rw [store_heap, if_neg ha] at hy
        obtain ⟨w1, w2, w3, w4⟩ := hI.width a y hy
        exact ⟨w1, w2, fun p np hp hnp he => w3 p np hp (hpar p np hnp he) he, w4⟩
  exact ⟨inv_heightEq hIB hH (fun k y hq hy => nonentry_of_skel hskB k y hq hy),
    skelEq_trans hskB (heightEq_skel hH)⟩

theorem inv_contract {g : treeview_globals} {font_width : List Nat → Nat → Int}
    {tree : treeview} {s : State} (fuel node : Nat) (r : nserror × State)
    (hI : Inv g font_width tree s)
    (h : treeview_node_contract g fuel tree s node = .ok r) :
    Inv g font_width tree r.2 ∧ SkelEq s r.2 := by
  rw [treeview_node_contract] at h
  obtain ⟨n, hn, h⟩ := bind_ok_inv h
  by_cases hexp : n.expanded = false
  · rw [if_pos hexp] at h
    simp only [pure, Except.pure, Except.ok.injEq] at h
    rw [← h]
    exact ⟨hI, skelEq_refl s⟩
  rw [if_neg hexp] at h
  obtain ⟨⟨b, s1, u⟩, hw, h⟩ := bind_ok_inv h
  simp only [] at h
  obtain ⟨⟨b2, s2, u2⟩, hcb, h⟩ := bind_ok_inv h
  simp only [pure, Except.pure, Except.ok.injEq] at h
  rw [← h]
  obtain ⟨i1, k1⟩ := inv_walk false _ node
    (fun x t c r _ ht hr => inv_contract_cb fuel x c r ht hr) fuel s _ _ hI hw
  obtain ⟨i2, k2⟩ := inv_contract_cb fuel node _ _ i1 hcb
  exact ⟨i2, skelEq_trans k1 k2⟩


theorem inv_clear_selection {g : treeview_globals} {font_width : List Nat → Nat → Int}
    {tree : treeview} {s : State} (fuel : Nat) (r : Bool × State × rect)
    (hI : Inv g font_width tree s) (h : treeview_clear_selection g fuel tree s = .ok r) :
    Inv g font_width tree r.2.1 ∧ SkelEq s r.2.1 :=
  inv_selection_walk fuel _ r hI h

theorem inv_mouse_hit {g : treeview_globals} {font_width : List Nat → Nat → Int}
    {tree : treeview} {s : State} (m : browser_mouse_masks) (fuel node : Nat)
    (n : treeview_node) (height : Int) (ma : treeview_mouse_action_ctx) (s' : State)
    (hma : ma.tree = tree) (hx : node ≠ tree.root) (hI : Inv g font_width tree s)
    (h : mouse_action_hit g font_width m fuel node n height s ma = .ok s') :
    Inv g font_width tree s' ∧ SkelEq s s' := by
  rw [mouse_action_hit] at h
  simp only [] at h
  obtain ⟨⟨s1, r1, redraw1, action1⟩, h1, h⟩ := bind_ok_inv h
  simp only [] at h
  obtain ⟨⟨s2, r2, redraw2⟩, h2, h⟩ := bind_ok_inv h
  simp only [pure, Except.pure, Except.ok.injEq] at h
  have step1 : Inv g font_width tree s1 ∧ SkelEq s s1 := by
    split at h1
    · obtain ⟨⟨c, t1, q1⟩, hc, h1⟩ := bind_ok_inv h1
      simp only [] at h1
      obtain ⟨n1, _, h1⟩ := bind_ok_inv h1
      obtain ⟨⟨e, t2⟩, he, h1⟩ := bind_ok_inv h1
      simp only [pure, Except.pure, Except.ok.injEq, Prod.mk.injEq] at h1
      rw [hma] at hc he
      obtain ⟨i1, k1⟩ := inv_clear_selection fuel _ hI hc
      simp only [] at i1 k1
      rw [← h1.1]
      split at he
      · obtain ⟨i2, k2⟩ := inv_contract fuel node _ i1 he
        exact ⟨i2, skelEq_trans k1 k2⟩
      · obtain ⟨i2, k2⟩ := inv_expand fuel node _ i1 he
        exact ⟨i2, skelEq_trans k1 k2⟩
    · split at h1
      · obtain ⟨⟨c, t1, q1⟩, hc, h1⟩ := bind_ok_inv h1
        simp only [] at h1
        obtain ⟨n1, _, h1⟩ := bind_ok_inv h1
        simp only [pure, Except.pure, Except.ok.injEq, Prod.mk.injEq] at h1
        rw [hma] at hc
        obtain ⟨i1, k1⟩ := inv_clear_selection fuel _ hI hc
        simp only [] at i1 k1
        rw [← h1.1]
        exact ⟨(inv_emit i1 _).1, skelEq_trans k1 (inv_emit i1 _).2⟩
      · split at h1
        · obtain ⟨⟨c, t1, q1⟩, hc, h1⟩ := bind_ok_inv h1
          simp only [pure, Except.pure, Except.ok.injEq, Prod.mk.injEq] at h1
          rw [hma] at hc
          obtain ⟨i1, k1⟩ := inv_clear_selection fuel _ hI hc
          simp only [] at i1 k1
          rw [← h1.1]
          exact ⟨i1, k1⟩
        · split at h1
          · simp only [pure, Except.pure, Except.ok.injEq, Prod.mk.injEq] at h1
            rw [← h1.1]
            exact ⟨hI, skelEq_refl s⟩
          · simp only [pure, Except.pure, Except.ok.injEq, Prod.mk.injEq] at h1
            rw [← h1.1]
            exact ⟨hI, skelEq_refl s⟩
  have step2 : Inv g font_width tree s2 ∧ SkelEq s1 s2 := by
    split at h2
    · obtain ⟨t, ht, h2⟩ := bind_ok_inv h2
      obtain ⟨y, hy, ht⟩ := modify_inv ht
      obtain ⟨i2, k2⟩ := inv_set_selected (!y.selected) step1.1 hy hx
      subst ht
      split at h2 <;>
        (simp only [pure, Except.pure, Except.ok.injEq, Prod.mk.injEq] at h2
         rw [← h2.1]
         exact ⟨i2, k2⟩)
    · simp only [pure, Except.pure, Except.ok.injEq, Prod.mk.injEq] at h2
      rw [← h2.1]
      exact ⟨step1.1, skelEq_refl s1⟩
  rw [← h]
  split
  · exact ⟨(inv_emit step2.1 _).1,
      skelEq_trans step1.2 (skelEq_trans step2.2 (inv_emit step2.1 _).2)⟩
  · exact ⟨step2.1, skelEq_trans step1.2 step2.2⟩

theorem inv_mouse_cb {g : treeview_globals} {font_width : List Nat → Nat → Int}
    {tree : treeview} {s : State} (m : browser_mouse_masks) (fuel node : Nat)
    (ma : treeview_mouse_action_ctx) (r : Bool × State × treeview_mouse_action_ctx)
    (hma : ma.tree = tree) (hx : node ≠ tree.root) (hI : Inv g font_width tree s)
    (h : treeview_node_mouse_action_cb g font_width m fuel node s ma = .ok r) :
    (Inv g font_width tree r.2.1 ∧ SkelEq s r.2.1) ∧ r.2.2.tree = tree := by
  rw [treeview_node_mouse_action_cb] at h
  obtain ⟨n, _, h⟩ := bind_ok_inv h
  simp only [] at h
  split at h
  · simp only [pure, Except.pure, Except.ok.injEq] at h
    rw [← h]
    exact ⟨⟨hI, skelEq_refl s⟩, hma⟩
  · obtain ⟨s1, h1, h⟩ := bind_ok_inv h
    simp only [pure, Except.pure, Except.ok.injEq] at h
    rw [← h]
    exact ⟨inv_mouse_hit m fuel node n _ ma s1 hma hx hI h1, hma⟩

theorem walk_loop_inv2 {σ : Type} (I : State → σ → Prop) (full : Bool)
    (cb : Nat → State → σ → Except Fault (Bool × State × σ)) (root : Nat)
    (hcb : ∀ x s c r, x ≠ root → I s c → cb x s c = .ok r → I r.2.1 r.2.2) :
    ∀ (fuel node : Nat) (s : State) (c : σ) (r : Bool × State × σ), I s c →
    walk_loop full cb root fuel node s c = .ok r → I r.2.1 r.2.2 := by
  intro fuel
  induction fuel with
  | zero => intro node s c r _ h; simp [walk_loop] at h
  | succ f ih =>
    intro node s c r hI h
    rw [walk_loop] at h
    obtain ⟨n, _, h⟩ := bind_ok_inv h
    have visit : ∀ x, x ≠ root → (do
        let (stop, s, ctx) ← cb x s c
        if stop then pure (true, s, ctx)
        else walk_loop full cb root f x s ctx) = Except.ok r → I r.2.1 r.2.2 := by
      intro x hxr hx
      obtain ⟨r1, h1, hx⟩ := bind_ok_inv hx
      obtain ⟨stop, s1, c1⟩ := r1
      have e1 := hcb x s c _ hxr hI h1
      simp only [] at hx
      split at hx
      · simp only [pure, Except.pure, Except.ok.injEq] at hx
        subst hx
        exact e1
      · exact ih _ _ _ _ e1 hx
    simp only [] at h
    generalize (if (full || n.expanded) = true then n.children else none) = next at h
    cases next with
    | some child =>
      simp only [] at h
      split at h
      · cases h
      · rename_i hcr
        exact visit _ hcr h
    | none =>
      simp only [] at h
      obtain ⟨up, _, h⟩ := bind_ok_inv h
      split at h
      · simp only [pure, Except.pure, Except.ok.injEq] at h
        subst h
        exact hI
      · obtain ⟨nu, _, h⟩ := bind_ok_inv h
        split at h
        · cases h
        · split at h
          · cases h
          · rename_i hsr
            exact visit _ hsr h

theorem inv_mouse_action {g : treeview_globals} {font_width : List Nat → Nat → Int}
    {tree : treeview} {s : State} (m : browser_mouse_masks) (fuel : Nat) (mouse : Nat)
    (x y : Int) (s' : State) (hI : Inv g font_width tree s)
    (h : treeview_mouse_action g font_width m fuel tree s mouse x y = .ok s') :
    Inv g font_width tree s' ∧ SkelEq s s' := by
  rw [treeview_mouse_action] at h
  obtain ⟨⟨b, s1, c1⟩, hw, h⟩ := bind_ok_inv h
  simp only [pure, Except.pure, Except.ok.injEq] at h
  rw [← h]
  simp only [treeview_walk_internal] at hw
  have := walk_loop_inv2
    (fun t (c : treeview_mouse_action_ctx) =>
      (Inv g font_width tree t ∧ SkelEq s t) ∧ c.tree = tree) false
    (treeview_node_mouse_action_cb g font_width m fuel) tree.root
    (fun a t c r ha ht hr =>
      ⟨⟨(inv_mouse_cb m fuel a c r ht.2 ha ht.1.1 hr).1.1,
        skelEq_trans ht.1.2 (inv_mouse_cb m fuel a c r ht.2 ha ht.1.1 hr).1.2⟩,
        (inv_mouse_cb m fuel a c r ht.2 ha ht.1.1 hr).2⟩)
    fuel tree.root s _ _ ⟨⟨hI, skelEq_refl s⟩, rfl⟩ hw
  exact this.1


theorem update_text_inv (font_width : List Nat → Nat → Int) (tree : treeview) (s : State)
    (entry : Nat) (fields : List treeview_field_data) (data : Nat) (s2 : State)
    (h : update_text font_width tree s entry fields data = .ok s2) :
    ∃ e p np f0, s.heap entry = some e ∧ e.parent = some p ∧ s.heap p = some np ∧
      s2 = store s entry { e with text := updated_text font_width np.expanded f0 e.text } := by
  rw [update_text] at h
  obtain ⟨_, _, h⟩ := bind_ok_inv h
  obtain ⟨e, he, h⟩ := bind_ok_inv h
  have he := load_inv he
  obtain ⟨_, _, h⟩ := bind_ok_inv h
  obtain ⟨_, _, h⟩ := bind_ok_inv h
  obtain ⟨f0, _, h⟩ := bind_ok_inv h
  obtain ⟨_, _, h⟩ := bind_ok_inv h
  obtain ⟨_, _, h⟩ := bind_ok_inv h
  obtain ⟨s1, hs1, h⟩ := bind_ok_inv h
  obtain ⟨e0, he0, hs1⟩ := modify_inv hs1
  rw [he] at he0
  cases he0
  subst hs1
  obtain ⟨e1, he1, h⟩ := bind_ok_inv h
  have he1 := load_inv he1
  rw [store_heap_same] at he1
  cases he1
  obtain ⟨p, hp, h⟩ := bind_ok_inv h
  have hp : e.parent = some p := ptr_inv hp
  obtain ⟨np, hnp, h⟩ := bind_ok_inv h
  have hnp := load_inv hnp
  obtain ⟨np0, hnp0, hexp⟩ : ∃ np0, s.heap p = some np0 ∧ np0.expanded = np.expanded := by
    by_cases hpe : p = entry
    · subst hpe
      rw [store_heap_same] at hnp
      cases hnp
      exact ⟨e, he, rfl⟩
    · rw [store_heap, if_neg hpe] at hnp
      exact ⟨np, hnp, rfl⟩
  refine ⟨e, p, np0, f0, he, hp, hnp0, ?_⟩
  rw [hexp]
  split at h
  · rename_i hx
    obtain ⟨y, hy, h⟩ := modify_inv h
    rw [store_heap_same] at hy
    cases hy
    rw [h, store_store]
    simp [updated_text, hx]
  · rename_i hx
    obtain ⟨y, hy, h⟩ := modify_inv h
    rw [store_heap_same] at hy
    cases hy
    rw [h, store_store]
    simp [updated_text, hx]

theorem update_fields_loop_inv (font_width : List Nat → Nat → Int) (tree : treeview)
    (fields : List treeview_field_data) (entry : Nat) (G : treeview_field → Prop) (b : Bool)
    (hG : ∀ (f : treeview_field) data len, G { f with value :=
      { data := data, len := len, width := if b then font_width data len else 0 } }) :
    ∀ (k i : Nat) (s s' : State) (e : treeview_node), s.heap entry = some e →
    e.expanded = b → (∀ f ∈ e.fields, G f) →
    update_fields_loop font_width tree fields entry k i s = .ok s' →
    ∃ fs, s' = store s entry { e with fields := fs } ∧ fs.length = e.fields.length ∧
      ∀ f ∈ fs, G f := by
  intro k
  induction k with
  | zero =>
    intro i s s' e he _ hg h
    simp only [update_fields_loop, Except.ok.injEq] at h
    exact ⟨e.fields, by rw [← h]; exact (store_same _ _ _ he).symm, rfl, hg⟩
  | succ k ih =>
    intro i s s' e he hb hg h
    rw [update_fields_loop] at h
    obtain ⟨fd, _, h⟩ := bind_ok_inv h
    obtain ⟨_, _, h⟩ := bind_ok_inv h
    obtain ⟨_, _, h⟩ := bind_ok_inv h
    obtain ⟨e0, he0, h⟩ := bind_ok_inv h
    have he0 := load_inv he0
    rw [he] at he0
    cases he0
    obtain ⟨_, _, h⟩ := bind_ok_inv h
    obtain ⟨s1, hs1, h⟩ := bind_ok_inv h
    obtain ⟨y, hy, hs1⟩ := modify_inv hs1
    rw [he] at hy
    cases hy
    subst hs1
    obtain ⟨e1, he1, h⟩ := bind_ok_inv h
    have he1 := load_inv he1
    rw [store_heap_same] at he1
    cases he1
    obtain ⟨s2, hs2, h⟩ := bind_ok_inv h
    simp only [] at hs2
    obtain ⟨fs2, hfs2, hlen2, hg2⟩ : ∃ fs2, s2 = store s entry { e with fields := fs2 } ∧
        fs2.length = e.fields.length ∧ ∀ f ∈ fs2, G f := by
      cases hbe : e.expanded with
      | true =>
        rw [hbe] at hs2
        simp only [if_true] at hs2
        obtain ⟨y, hy, hs2⟩ := modify_inv hs2
        rw [store_heap_same] at hy
        cases hy
        refine ⟨_, by rw [hs2, store_store], ?_, ?_⟩
        · simp [measure_field_length, set_field_text_length]
        · intro f hf
          obtain ⟨j, hj⟩ := List.mem_iff_get?.mp hf
          simp only [] at hj
          rw [measure_field_get, set_field_text_get] at hj
          cases h0 : e.fields.get? j with
          | none => rw [h0] at hj; simp at hj
          | some f0 =>
            rw [h0] at hj
            simp only [Option.map_some', Option.some.injEq] at hj
            by_cases hji : j = i - 1
            · simp only [hji, if_true] at hj
              rw [← hj]
              have := hG f0 fd.value fd.value_len
              rw [← hb, hbe] at this
              simpa using this
            · simp only [hji, if_false] at hj
              rw [← hj]
              exact hg f0 (List.mem_iff_get?.mpr ⟨j, h0⟩)
      | false =>
        rw [hbe] at hs2
        simp only [Bool.false_eq_true, if_false] at hs2
        obtain ⟨y, hy, hs2⟩ := modify_inv hs2
        rw [store_heap_same] at hy
        cases hy
        refine ⟨_, by rw [hs2, store_store], ?_, ?_⟩
        · simp [invalidate_field_length, set_field_text_length]
        · intro f hf
          obtain ⟨j, hj⟩ := List.mem_iff_get?.mp hf
          simp only [] at hj
          rw [invalidate_field_get, set_field_text_get] at hj
          cases h0 : e.fields.get? j with
          | none => rw [h0] at hj; simp at hj
          | some f0 =>
            rw [h0] at hj
            simp only [Option.map_some', Option.some.injEq] at hj
            by_cases hji : j = i - 1
            · simp only [hji, if_true] at hj
              rw [← hj]
              have := hG f0 fd.value fd.value_len
              rw [← hb, hbe] at this
              simpa using this
            · simp only [hji, if_false] at hj
              rw [← hj]
              exact hg f0 (List.mem_iff_get?.mpr ⟨j, h0⟩)
    subst hfs2
    obtain ⟨fs, h1, h2, h3⟩ := ih (i + 1) _ s' { e with fields := fs2 }
      (store_heap_same _ _ _) hb hg2 h
    exact ⟨fs, by rw [h1, store_store], h2.trans hlen2, h3⟩

theorem inv_update {g : treeview_globals} {font_width : List Nat → Nat → Int}
    {tree : treeview} {s : State} (entry : Nat) (fields : List treeview_field_data)
    (data : Nat) (r : nserror × State) (hI : Inv g font_width tree s)
    (h : treeview_update_node_entry font_width tree s entry fields data = .ok r) :
    Inv g font_width tree r.2 ∧ SkelEq s r.2 := by
  rw [treeview_update_node_entry] at h
  obtain ⟨s1, h1, h⟩ := bind_ok_inv h
  obtain ⟨s2, h2, h⟩ := bind_ok_inv h
  simp only [pure, Except.pure, Except.ok.injEq] at h
  rw [← h]
  simp only []
  obtain ⟨e, p, np, f0, he, hp, hnp, hs1⟩ := update_text_inv font_width tree s entry fields data
    s1 h1
  subst hs1
  obtain ⟨w1, w2, w3, w4⟩ := hI.width entry e he
  obtain ⟨fs, hs2, hlen, hgood⟩ := update_fields_loop_inv font_width tree fields entry
    (fun f => (e.type = .TREE_NODE_ENTRY → e.expanded = true → Measured font_width f.value) ∧
      Cached font_width f.value)
    e.expanded
    (by
      intro f data len
      cases e.expanded
      · exact ⟨fun _ h => (by cases h), Or.inl rfl⟩
      · exact ⟨fun _ _ => rfl, Or.inr rfl⟩)
    _ 1 _ s2 { e with text := updated_text font_width np.expanded f0 e.text }
    (store_heap_same _ _ _) rfl
    (fun f hf => ⟨fun hty hx => w4 hty hx f hf, w2 f hf⟩) h2
  rw [store_store] at hs2
  subst hs2
  obtain ⟨rr, hrr, hrt, hrp, _, _, hrexp, hrsel, _⟩ := hI.root
  have her : entry ≠ tree.root := by
    intro hx
    rw [hx, hrr] at he
    cases he
    rw [hrp] at hp
    cases hp
  have hsk : SkelEq s (store s entry { e with
      text := updated_text font_width np.expanded f0 e.text, fields := fs }) := by
    intro a
    by_cases ha : a = entry
    · subst ha
      rw [store_heap_same, he]
      simp only [Option.map_some', Option.some.injEq, skel, hlen]
    · rw [store_heap, if_neg ha]
  have hexp : ∀ q nq, (store s entry { e with
      text := updated_text font_width np.expanded f0 e.text, fields := fs }).heap q = some nq →
      ∃ nq0, s.heap q = some nq0 ∧ nq0.expanded = nq.expanded := by
    intro q nq hq
    by_cases hqe : q = entry
    · subst hqe
      rw [store_heap_same] at hq
      cases hq
      exact ⟨e, he, rfl⟩
    · rw [store_heap, if_neg hqe] at hq
      exact ⟨nq, hq, rfl⟩
  refine ⟨inv_of_skel hI hsk ?_ ?_ ?_, hsk⟩
  · intro r' hr'
    rw [store_heap, if_neg (Ne.symm her), hrr] at hr'
    cases hr'
    exact ⟨hrexp, hrsel⟩
  · intro a y hy hyt
    by_cases ha : a = entry
    · subst ha
      rw [store_heap_same] at hy
      cases hy
      exact (hI.entry a e he hyt).2
    · rw [store_heap, if_neg ha] at hy
      exact (hI.entry a y hy hyt).2
  · intro a y hy
    by_cases ha : a = entry
    · subst ha
      rw [store_heap_same] at hy
      cases hy
      refine ⟨?_, fun f hf => (hgood f hf).2, ?_, fun hty hx f hf => (hgood f hf).1 hty hx⟩
      · simp only [updated_text]
        cases np.expanded
        · exact Or.inl rfl
        · exact Or.inr rfl
      · intro q nq hq hnq hqexp
        simp only [] at hq
        rw [hp] at hq
        cases hq
        obtain ⟨nq0, hnq0, hx⟩ := hexp _ _ hnq
        rw [hnp] at hnq0
        cases hnq0
        simp only [updated_text, hx, hqexp, if_true]
        rfl
    · rw [store_heap, if_neg ha] at hy
      obtain ⟨v1, v2, v3, v4⟩ := hI.width a y hy
      refine ⟨v1, v2, ?_, v4⟩
      intro q nq hq hnq hqexp
      obtain ⟨nq0, hnq0, hx⟩ := hexp _ _ hnq
      exact v3 q nq0 hq hnq0 (by rw [hx]; exact hqexp)


theorem inv_fresh (g : treeview_globals) (font_width : List Nat → Nat → Int)
    (tree : treeview) (s : State) (addr : Nat) (n_fields : Int)
    (fields : List treeview_field_desc)
    (h : treeview_create g font_width emptyState true (some addr) n_fields fields =
      .ok (.NSERROR_OK, s, some tree)) : Inv g font_width tree s := by
  simp only [treeview_create, bind, Except.bind, pure, Except.pure, c_assert] at h
  split at h
  · simp at h
  rename_i first hfirst
  split at h
  · simp at h
  split at h
  · simp at h
  rename_i last hlast
  split at h
  · simp at h
  split at h
  · simp at h
  rename_i hnf1
  simp only [not_true_eq_false, if_false, treeview_create_node_root, emptyState,
    Except.ok.injEq, Prod.mk.injEq, true_and, Option.some.injEq] at h
  obtain ⟨hs, ht⟩ := h
  subst hs
  subst ht
  have hnf : (2 : Int) ≤ n_fields := by
    split at hnf1
    · rename_i h2
      simpa using h2
    · simp at hnf1
  have hheap : ∀ k n, (store { heap := fun _ => none, events := [] } addr
      { expanded := true, selected := false, type := .TREE_NODE_ROOT, height := 0,
        inset := g.window_padding - g.step_width, parent := none, sibling_prev := none,
        sibling_next := none, children := none, client_data := 0,
        text := { flags := { dflt := false, show_name := false }, field := none,
                  value := { data := [], len := 0, width := 0 } },
        fields := [] }).heap k = some n → k = addr ∧ n =
      { expanded := true, selected := false, type := .TREE_NODE_ROOT, height := 0,
        inset := g.window_padding - g.step_width, parent := none, sibling_prev := none,
        sibling_next := none, children := none, client_data := 0,
        text := { flags := { dflt := false, show_name := false }, field := none,
                  value := { data := [], len := 0, width := 0 } },
        fields := [] } := by
    intro k n hk
    by_cases hka : k = addr
    · subst hka
      rw [store_heap_same] at hk
      cases hk
      exact ⟨rfl, rfl⟩
    · rw [store_heap, if_neg hka] at hk
      cases hk
  refine ⟨by simp only []; omega, ⟨.nil, ⟨?_, trivial, by simp [Forest.ids]⟩, by simp [Forest.ids],
    ?_⟩, ⟨_, store_heap_same _ _ _, rfl, rfl, rfl, rfl, rfl, rfl, rfl⟩, ?_, ?_, ?_⟩
  · simp only [store_heap_same]
    rfl
  · intro a ha
    left
    cases hn : (store { heap := fun _ => none, events := [] } addr _).heap a with
    | none => exact absurd hn ha
    | some n => exact (hheap a n hn).1
  · intro a n ha har
    exact absurd (hheap a n ha).1 har
  · intro a n ha hty
    rw [(hheap a n ha).2] at hty
    cases hty
  · intro a n ha
    obtain ⟨h1, h2⟩ := hheap a n ha
    subst h2
    refine ⟨Or.inl rfl, ?_, ?_, ?_⟩
    · intro f hf
      simp at hf
    · intro p np hp
      cases hp
    · intro hty
      cases hty


theorem delete_mono : ∀ (fuel : Nat),
    (∀ (tree : treeview) (s : State) (n : Nat) (r : nserror × State),
      treeview_delete_node fuel tree s n = .ok r →
      treeview_delete_node (fuel + 1) tree s n = .ok r) ∧
    (∀ (tree : treeview) (s : State) (n : Nat) (r : State),
      delete_children fuel tree s n = .ok r → delete_children (fuel + 1) tree s n = .ok r) := by
  intro fuel
  induction fuel with
  | zero =>
    refine ⟨?_, ?_⟩
    · intro tree s n r h
      simp [treeview_delete_node] at h
    · intro tree s n r h
      simp [delete_children] at h
  | succ fuel ih =>
    obtain ⟨ih1, ih2⟩ := ih
    refine ⟨?_, ?_⟩
    · intro tree s n r h
      rw [delete_node_succ] at h ⊢
      cases h1 : delete_children fuel tree s n with
      | error e => rw [h1] at h; cases h
      | ok s1 =>
        rw [h1] at h
        rw [ih2 tree s n s1 h1]
        exact h
    · intro tree s n r h
      rw [delete_children_succ] at h ⊢
      cases hn : s.heap n with
      | none => rw [hn] at h; cases h
      | some nn =>
        rw [hn] at h
        simp only [] at h ⊢
        cases hc : nn.children with
        | none => rw [hc] at h; exact h
        | some c =>
          rw [hc] at h
          simp only [] at h ⊢
          cases h1 : treeview_delete_node fuel tree s c with
          | error e => rw [h1] at h; cases h
          | ok r1 =>
            rw [h1] at h
            rw [ih1 tree s c r1 h1]
            simp only [] at h ⊢
            exact ih2 tree r1.2 n r h

theorem delete_mono_le (tree : treeview) (s : State) (n : Nat) (r : nserror × State)
    (fuel fuel' : Nat) (hle : fuel ≤ fuel')
    (h : treeview_delete_node fuel tree s n = .ok r) :
    treeview_delete_node fuel' tree s n = .ok r := by
  induction hle with
  | refl => exact h
  | step _ ih => exact (delete_mono _).1 tree s n r ih

theorem remove_ids_sublist (n : Nat) : ∀ (f : Forest), (f.remove n).ids.Sublist f.ids := by
  intro f
  induction f with
  | nil => simp [Forest.remove, Forest.ids]
  | cons id k r ihk ihr =>
    simp only [Forest.remove]
    split
    · simp only [Forest.ids]
      exact List.Sublist.cons _ (List.sublist_append_right _ _)
    · simp only [Forest.ids]
      exact List.Sublist.cons₂ _ (List.Sublist.append ihk ihr)

/-- Deleting a node of the shape below the root: the call returns, the shape
that is left is `f.remove n`, and the memory is the one `unlinked`
describes. -/
theorem delete_shape (tree : treeview) (s : State) (f : Forest) (n : Nat)
    (fuel : Nat) (hsub : SubtreeAt s tree.root f) (hnd : f.ids.Nodup) (hn : n ∈ f.ids)
    (hfuel : 2 * (f.sub n).size + 2 ≤ fuel) :
    ∃ s' nn, treeview_delete_node fuel tree s n = .ok (.NSERROR_OK, s') ∧
      s.heap n = some nn ∧ SubtreeAt s' tree.root (f.remove n) ∧
      (∀ a, s'.heap a = unlinked s n nn (f.sub n).ids a) ∧
      (∀ x, nn.sibling_next = some x → x ∈ f.ids) ∧
      (∀ v, nn.sibling_prev = some v → v ∈ f.ids) := by
  obtain ⟨hroot, hrep, hrf⟩ := hsub
  cases hnr : s.heap tree.root with
  | none => simp [hnr] at hroot
  | some nr =>
    simp only [hnr] at hroot
    obtain ⟨nn, y, ny, hnn, hch, hrk, hpar, hy, hyn, hyK, hfirst, hv, hd⟩ :=
      rep_local s n f tree.root none nr hrep hrf hnd (fun v hv => by simp at hv) hnr
        (fun _ => hroot) (fun h => absurd rfl h) hn
    obtain ⟨s', hrun, _, hheap⟩ := delete_node_unlinked tree s n (f.sub n) nn y ny fuel hnn hch
      hrk (not_mem_sub_self n f hnd) (sub_ids_nodup n f hnd) hpar hy hyn hyK hfirst hv hd hfuel
    obtain ⟨c1, c2, c3, c4⟩ := rep_links_mem s n nn hnn f tree.root none hrep hrf hnd hn
    have hrep' : Rep s' (some tree.root) none (f.remove n) :=
      rep_remove s s' n nn (f.sub n).ids hnn hheap f tree.root none hrep hrf hnd
        (fun v hv => by simp at hv) hn rfl
    have hrn : tree.root ≠ n := fun e => hrf (e ▸ hn)
    have hrootrec : s'.heap tree.root = some { nr with children := (f.remove n).first } := by
      rw [hheap, unlinked]
      have g1 : ¬ (tree.root = n ∨ tree.root ∈ (f.sub n).ids) := by
        rintro (h | h)
        · exact hrn h
        · exact hrf (sub_ids_subset n f _ h)
      have g2 : nn.sibling_next ≠ some tree.root := fun h => hrf (c1 _ h)
      have g3 : nn.sibling_prev ≠ some tree.root := by
        intro h
        rcases c2 _ h with h | ⟨h, _⟩
        · exact hrf h
        · cases h
      rw [if_neg g1, if_neg g2, if_neg g3]
      by_cases g4 : nn.sibling_prev = none ∧ nn.parent = some tree.root
      · rw [if_pos g4, hnr]
        obtain ⟨_, hff⟩ := c4 g4.1 g4.2
        cases f with
        | nil => simp [Forest.first] at hff
        | cons fid fk fr =>
          simp only [Forest.first, Option.some.injEq] at hff
          subst hff
          rw [Rep] at hrep
          simp only [hnn] at hrep
          rw [Forest.remove, if_pos rfl, hrep.1.2.2.2]
          rfl
      · rw [if_neg g4, hnr]
        have hff : f.first ≠ some n := by
          intro hff
          cases f with
          | nil => simp [Forest.first] at hff
          | cons fid fk fr =>
            simp only [Forest.first, Option.some.injEq] at hff
            subst hff
            rw [Rep] at hrep
            simp only [hnn] at hrep
            exact g4 ⟨hrep.1.2.1, hrep.1.1⟩
        rw [remove_first n f hff, ← hroot]
    have hsub' : SubtreeAt s' tree.root (f.remove n) := by
      refine ⟨?_, hrep', fun h => hrf (remove_ids_subset n f _ h)⟩
      simp only [hrootrec]
    refine ⟨s', nn, hrun, hnn, hsub', hheap, c1, ?_⟩
    intro v hv
    rcases c2 v hv with h | ⟨h, _⟩
    · exact h
    · cases h


theorem unlinked_get {s : State} {n : Nat} {nn : treeview_node} {dead : List Nat} {a : Nat}
    {x' : treeview_node} (h : unlinked s n nn dead a = some x') :
    a ≠ n ∧ a ∉ dead ∧ ∃ x, s.heap a = some x ∧ x'.type = x.type ∧ x'.inset = x.inset ∧
      x'.parent = x.parent ∧ x'.expanded = x.expanded ∧ x'.selected = x.selected ∧
      x'.height = x.height ∧ x'.text = x.text ∧ x'.fields = x.fields ∧
      (nn.sibling_next ≠ some a → x'.sibling_prev = x.sibling_prev) ∧
      (nn.sibling_prev ≠ some a → x'.sibling_next = x.sibling_next) := by
  unfold unlinked at h
  by_cases h1 : a = n ∨ a ∈ dead
  · rw [if_pos h1] at h
    cases h
  rw [if_neg h1] at h
  refine ⟨fun e => h1 (Or.inl e), fun e => h1 (Or.inr e), ?_⟩
  cases hx : s.heap a with
  | none =>
    rw [hx] at h
    simp only [Option.map_none', ite_self] at h
    cases h
  | some x =>
    rw [hx] at h
    simp only [Option.map_some'] at h
    refine ⟨x, rfl, ?_⟩
    by_cases h2 : nn.sibling_next = some a
    · rw [if_pos h2] at h
      cases h
      exact ⟨rfl, rfl, rfl, rfl, rfl, rfl, rfl, rfl, fun e => absurd h2 e, fun _ => rfl⟩
    rw [if_neg h2] at h
    by_cases h3 : nn.sibling_prev = some a
    · rw [if_pos h3] at h
      cases h
      exact ⟨rfl, rfl, rfl, rfl, rfl, rfl, rfl, rfl, fun _ => rfl, fun e => absurd h3 e⟩
    rw [if_neg h3] at h
    by_cases h4 : nn.sibling_prev = none ∧ nn.parent = some a
    · rw [if_pos h4] at h
      cases h
      exact ⟨rfl, rfl, rfl, rfl, rfl, rfl, rfl, rfl, fun _ => rfl, fun _ => rfl⟩
    · rw [if_neg h4] at h
      cases h
      exact ⟨rfl, rfl, rfl, rfl, rfl, rfl, rfl, rfl, fun _ => rfl, fun _ => rfl⟩

theorem delete_alloc (fuel : Nat) (tree : treeview) (s : State) (n : Nat)
    (r : nserror × State) (h : treeview_delete_node fuel tree s n = .ok r) :
    s.heap n ≠ none := by
  intro hn
  cases fuel with
  | zero => simp [treeview_delete_node] at h
  | succ fuel =>
    rw [delete_node_succ] at h
    cases fuel with
    | zero => simp [delete_children] at h
    | succ fuel =>
      rw [delete_children_succ, hn] at h
      cases h

theorem inv_delete {g : treeview_globals} {font_width : List Nat → Nat → Int}
    {tree : treeview} {s : State} (fuel node : Nat) (r : nserror × State)
    (hI : Inv g font_width tree s) (hnr : node ≠ tree.root)
    (h : treeview_delete_node fuel tree s node = .ok r) :
    Inv g font_width tree r.2 ∧
      ∀ a n', r.2.heap a = some n' → ∃ n, s.heap a = some n ∧ n'.inset = n.inset := by
  obtain ⟨F, hsub, hnd, hall⟩ := hI.shape
  have hnF : node ∈ F.ids := by
    rcases hall node (delete_alloc fuel tree s node r h) with h1 | h1
    · exact absurd h1 hnr
    · exact h1
  obtain ⟨s', nn, hrun, hnn, hsub', hheap, c1, c2⟩ := delete_shape tree s F node
    (max fuel (2 * (F.sub node).size + 2)) hsub hnd hnF (le_max_right _ _)
  have h' := delete_mono_le tree s node r fuel (max fuel (2 * (F.sub node).size + 2))
    (le_max_left _ _) h
  rw [hrun] at h'
  simp only [Except.ok.injEq] at h'
  rw [← h']
  simp only []
  have hrF : tree.root ∉ F.ids := hsub.2.2
  have hget : ∀ a x', s'.heap a = some x' →
      a ≠ node ∧ a ∉ (F.sub node).ids ∧ ∃ x, s.heap a = some x ∧ x'.type = x.type ∧
      x'.inset = x.inset ∧
      x'.parent = x.parent ∧ x'.expanded = x.expanded ∧ x'.selected = x.selected ∧
      x'.height = x.height ∧ x'.text = x.text ∧ x'.fields = x.fields ∧
      (nn.sibling_next ≠ some a → x'.sibling_prev = x.sibling_prev) ∧
      (nn.sibling_prev ≠ some a → x'.sibling_next = x.sibling_next) := by
    intro a x' hx'
    rw [hheap] at hx'
    exact unlinked_get hx'
  have hmem : ∀ a, s'.heap a ≠ none → a = tree.root ∨ a ∈ (F.remove node).ids := by
    intro a ha
    cases hx' : s'.heap a with
    | none => exact absurd hx' ha
    | some x' =>
      obtain ⟨h1, h2, x, hx, _⟩ := hget a x' hx'
      rcases hall a (by rw [hx]; simp) with h3 | h3
      · exact Or.inl h3
      · exact Or.inr ((remove_ids node F hnd a).mpr ⟨h3, h1, h2⟩)
  have halloc : ∀ a, a = tree.root ∨ a ∈ (F.remove node).ids → s'.heap a ≠ none := by
    intro a ha
    rcases ha with rfl | ha
    · obtain ⟨hr, _, _⟩ := hsub'
      intro h0
      rw [h0] at hr
      exact hr
    · exact Rep_heap _ _ _ hsub'.2.1 a ha
  obtain ⟨rr, hrr, hrt, hrp, hrsp, hrsn, hrexp, hrsel, hrin⟩ := hI.root
  refine ⟨⟨hI.nf, ⟨F.remove node, hsub', (remove_ids_sublist node F).nodup hnd, hmem⟩, ?_, ?_, ?_,
    ?_⟩, ?_⟩
  · cases hx' : s'.heap tree.root with
    | none => exact absurd hx' (halloc _ (Or.inl rfl))
    | some x' =>
      obtain ⟨_, _, x, hx, e1, e2, e3, e4, e5, _, _, _, e9, e10⟩ := hget _ _ hx'
      rw [hrr] at hx
      cases hx
      refine ⟨x', rfl, e1.trans hrt, e3.trans hrp, ?_, ?_, e4.trans hrexp, e5.trans hrsel,
        e2.trans hrin⟩
      · rw [e9 (fun e => hrF (c1 _ e))]
        exact hrsp
      · rw [e10 (fun e => hrF (c2 _ e))]
        exact hrsn
  · intro a x' hx' har
    obtain ⟨_, _, x, hx, e1, e2, e3, _⟩ := hget _ _ hx'
    obtain ⟨hty, p, np, hp, hnp, hpt, hin⟩ := hI.node a x hx har
    have haF : a ∈ (F.remove node).ids := by
      rcases hmem a (by rw [hx']; simp) with h1 | h1
      · exact absurd h1 har
      · exact h1
    obtain ⟨q, hq, hqm⟩ := rep_parent_mem (F.remove node) tree.root none hsub'.2.1 a haF
    simp only [parentOf, hx'] at hq
    rw [e3, hp] at hq
    cases hq
    cases hp' : s'.heap p with
    | none => exact absurd hp' (halloc p hqm)
    | some np' =>
      obtain ⟨_, _, y, hy, f1, f2, _⟩ := hget _ _ hp'
      rw [hnp] at hy
      cases hy
      exact ⟨by rw [e1]; exact hty, p, np', e3.trans hp, hp', by rw [f1]; exact hpt,
        by rw [e2, f2]; exact hin⟩
  · intro a x' hx' hty
    obtain ⟨_, _, x, hx, e1, _, _, e4, _, e6, _, e8, _⟩ := hget _ _ hx'
    rw [e8, e6, e4]
    exact hI.entry a x hx (e1 ▸ hty)
  · intro a x' hx'
    obtain ⟨_, _, x, hx, e1, _, e3, e4, _, _, e7, e8, _⟩ := hget _ _ hx'
    obtain ⟨w1, w2, w3, w4⟩ := hI.width a x hx
    rw [e7, e8]
    refine ⟨w1, w2, ?_, ?_⟩
    · intro p np' hp hnp' hexp
      obtain ⟨_, _, np, hnp, _, _, _, f4, _⟩ := hget _ _ hnp'
      exact w3 p np (e3 ▸ hp) hnp (f4 ▸ hexp)
    · intro hty hexp
      exact w4 (e1 ▸ hty) (e4 ▸ hexp)
  · intro a x' hx'
    obtain ⟨_, _, x, hx, _, e2, _⟩ := hget _ _ hx'
    exact ⟨x, hx, e2⟩


theorem add_first (a b : Nat) (rel : treeview_relationship) :
    ∀ (f : Forest), (f.add a b rel).first = f.first := by
  intro f
  cases f with
  | nil => rfl
  | cons id k r =>
    simp only [Forest.add]
    split
    · cases rel <;> rfl
    · rfl

theorem add_of_not_mem (a b : Nat) (rel : treeview_relationship) :
    ∀ (f : Forest), b ∉ f.ids → f.add a b rel = f := by
  intro f
  induction f with
  | nil => intro _; rfl
  | cons id k r ihk ihr =>
    intro h
    simp only [Forest.ids, List.mem_cons, List.mem_append, not_or] at h
    simp only [Forest.add]
    rw [if_neg (fun e => h.1 e.symm), ihk h.2.1, ihr h.2.2]

theorem add_ids_perm (a b : Nat) (rel : treeview_relationship) :
    ∀ (f : Forest), f.ids.Nodup → b ∈ f.ids → (f.add a b rel).ids.Perm (a :: f.ids) := by
  intro f
  induction f with
  | nil => intro _ h; simp [Forest.ids] at h
  | cons id k r ihk ihr =>
    intro hnd hb
    simp only [Forest.ids, List.nodup_cons, List.mem_append, not_or, List.nodup_append] at hnd
    obtain ⟨⟨hidk, hidr⟩, hkn, hrn, hdisj⟩ := hnd
    simp only [Forest.ids, List.mem_cons, List.mem_append] at hb
    simp only [Forest.add]
    by_cases hid : id = b
    · rw [if_pos hid]
      cases rel with
      | TREE_REL_FIRST_CHILD =>
        simp only [Forest.ids, List.nil_append, List.cons_append]
        exact List.Perm.swap _ _ _
      | TREE_REL_NEXT_SIBLING =>
        simp only [Forest.ids, List.nil_append]
        refine (List.Perm.cons _ ?_).trans (List.Perm.swap _ _ _)
        exact List.perm_middle
    · rw [if_neg hid]
      simp only [Forest.ids]
      rcases hb with hb | hb | hb
      · exact absurd hb.symm hid
      · have hbr : b ∉ r.ids := fun h => hdisj hb h
        rw [add_of_not_mem a b rel r hbr]
        refine (List.Perm.cons _ ((ihk hkn hb).append_right _)).trans ?_
        exact List.Perm.swap _ _ _
      · have hbk : b ∉ k.ids := fun h => hdisj h hb
        rw [add_of_not_mem a b rel k hbk]
        refine (List.Perm.cons _ ((ihr hrn hb).append_left _)).trans ?_
        refine (List.Perm.cons _ List.perm_middle).trans ?_
        exact List.Perm.swap _ _ _

/-! ### Linking a new first child -/

theorem rep_first_kids {s s1 : State} {a b : Nat} {nb : treeview_node} (k : Forest)
    (h1 : ∀ x, x ≠ a → x ≠ b → s1.heap x =
      if nb.children = some x then (s.heap x).map (fun n => { n with sibling_prev := some a })
      else s.heap x)
    (hrep : Rep s (some b) none k) (hnd : k.ids.Nodup) (hak : a ∉ k.ids) (hbk : b ∉ k.ids)
    (hch : nb.children = k.first) : Rep s1 (some b) (some a) k := by
  refine Rep_set_prev k _ _ _ hnd ?_ ?_ hrep
  · intro x hx
    have hxk : x ∈ k.ids := by
      cases k with
      | nil => simp [Forest.first] at hx
      | cons id kk rr =>
        simp only [Forest.first, Option.some.injEq] at hx
        subst hx
        simp [Forest.ids]
    cases hn : s.heap x with
    | none => exact absurd hn (Rep_heap _ _ _ hrep x hxk)
    | some n =>
      refine ⟨n, rfl, ?_⟩
      rw [h1 x (fun e => hak (e ▸ hxk)) (fun e => hbk (e ▸ hxk)), if_pos (hch.trans hx), hn]
      rfl
  · intro x hxk hne
    rw [h1 x (fun e => hak (e ▸ hxk)) (fun e => hbk (e ▸ hxk)), if_neg (by rw [hch]; exact hne)]

theorem rep_first_other {s s1 : State} {a b : Nat} {nb : treeview_node}
    (h1 : ∀ x, x ≠ a → x ≠ b → s1.heap x =
      if nb.children = some x then (s.heap x).map (fun n => { n with sibling_prev := some a })
      else s.heap x)
    (hxp : ∀ x, nb.children = some x → parentOf s x = some b)
    (f : Forest) (q : Nat) (prev : Option Nat) (hrep : Rep s (some q) prev f)
    (hqb : q ≠ b) (hbf : b ∉ f.ids) (haf : a ∉ f.ids) : Rep s1 (some q) prev f := by
  refine Rep_congr f _ _ ?_ hrep
  intro x hx
  rw [h1 x (fun e => haf (e ▸ hx)) (fun e => hbf (e ▸ hx)), if_neg]
  intro hc
  obtain ⟨q', hq', hq''⟩ := rep_parent_mem f q prev hrep x hx
  rw [hxp x hc] at hq'
  cases hq'
  rcases hq'' with h | h
  · exact hqb h.symm
  · exact hbf h

theorem rep_add_first {s s1 : State} {a b : Nat} {nb A : treeview_node}
    (hb : s.heap b = some nb)
    (ha1 : s1.heap a = some A) (hAp : A.parent = some b) (hAv : A.sibling_prev = none)
    (hAn : A.sibling_next = nb.children) (hAc : A.children = none)
    (hb1 : s1.heap b = some { nb with children := some a })
    (h1 : ∀ x, x ≠ a → x ≠ b → s1.heap x =
      if nb.children = some x then (s.heap x).map (fun n => { n with sibling_prev := some a })
      else s.heap x)
    (hxp : ∀ x, nb.children = some x → parentOf s x = some b) (hab : a ≠ b) :
    ∀ (f : Forest) (q : Nat) (prev : Option Nat), Rep s (some q) prev f → f.ids.Nodup →
    q ≠ b → a ∉ f.ids → b ∈ f.ids →
    Rep s1 (some q) prev (f.add a b .TREE_REL_FIRST_CHILD) := by
  intro f
  induction f with
  | nil => intro _ _ _ _ _ _ h; simp [Forest.ids] at h
  | cons id k r ihk ihr =>
    intro q prev hrep hnd hqb haf hbf
    simp only [Forest.ids, List.nodup_cons, List.mem_append, not_or, List.nodup_append] at hnd
    obtain ⟨⟨hidk, hidr⟩, hkn, hrn, hdisj⟩ := hnd
    simp only [Forest.ids, List.mem_cons, List.mem_append, not_or] at haf hbf
    obtain ⟨haid, hak, har⟩ := haf
    simp only [Rep] at hrep
    obtain ⟨hnode, hk, hr⟩ := hrep
    simp only [Forest.add]
    by_cases hid : id = b
    · subst hid
      rw [if_pos rfl]
      rw [hb] at hnode
      simp only [] at hnode
      simp only [Rep, hb1, ha1, Forest.first]
      refine ⟨⟨hnode.1, hnode.2.1, trivial, hnode.2.2.2⟩, ⟨⟨hAp, hAv, hAc, ?_⟩, trivial, ?_⟩, ?_⟩
      · rw [hAn]; exact hnode.2.2.1
      · exact rep_first_kids k h1 hk hkn hak hidk hnode.2.2.1
      · exact rep_first_other h1 hxp r q _ hr hqb hidr har
    · rw [if_neg hid]
      have hidn : s1.heap id = s.heap id := by
        rw [h1 id (fun e => haid e.symm) hid, if_neg]
        intro hc
        have := hxp id hc
        cases hn : s.heap id with
        | none => rw [hn] at hnode; exact hnode
        | some n =>
          rw [hn] at hnode
          simp only [parentOf, hn] at this
          rw [hnode.1] at this
          cases this
          exact hqb rfl
      simp only [Rep, hidn, add_first]
      refine ⟨hnode, ?_, ?_⟩
      · by_cases hbk : b ∈ k.ids
        · exact ihk id none hk hkn hid hak hbk
        · rw [add_of_not_mem _ _ _ k hbk]
          exact rep_first_other h1 hxp k id _ hk hid hbk hak
      · by_cases hbr : b ∈ r.ids
        · exact ihr q _ hr hrn hqb har hbr
        · rw [add_of_not_mem _ _ _ r hbr]
          exact rep_first_other h1 hxp r q _ hr hqb hbr har

/-! ### Linking a new next sibling -/

theorem rep_next_other {s s1 : State} {a b : Nat} {nb : treeview_node}
    (h1 : ∀ x, x ≠ a → x ≠ b → s1.heap x =
      if nb.sibling_next = some x then
        (s.heap x).map (fun n => { n with sibling_prev := some a })
      else s.heap x)
    (f : Forest) (p prev : Option Nat) (hrep : Rep s p prev f)
    (hbf : b ∉ f.ids) (haf : a ∉ f.ids) (hy : ∀ y, nb.sibling_next = some y → y ∉ f.ids) :
    Rep s1 p prev f := by
  refine Rep_congr f _ _ ?_ hrep
  intro x hx
  rw [h1 x (fun e => haf (e ▸ hx)) (fun e => hbf (e ▸ hx)), if_neg]
  intro hc
  exact hy x hc hx

theorem rep_add_next {s s1 : State} {a b : Nat} {nb A : treeview_node}
    (hb : s.heap b = some nb)
    (ha1 : s1.heap a = some A) (hAp : A.parent = nb.parent) (hAv : A.sibling_prev = some b)
    (hAn : A.sibling_next = nb.sibling_next) (hAc : A.children = none)
    (hb1 : s1.heap b = some { nb with sibling_next := some a })
    (h1 : ∀ x, x ≠ a → x ≠ b → s1.heap x =
      if nb.sibling_next = some x then
        (s.heap x).map (fun n => { n with sibling_prev := some a })
      else s.heap x) (hab : a ≠ b) :
    ∀ (f : Forest) (q : Nat) (prev : Option Nat), Rep s (some q) prev f → f.ids.Nodup →
    q ∉ f.ids → a ∉ f.ids → b ∈ f.ids →
    Rep s1 (some q) prev (f.add a b .TREE_REL_NEXT_SIBLING) := by
  intro f
  induction f with
  | nil => intro _ _ _ _ _ _ h; simp [Forest.ids] at h
  | cons id k r ihk ihr =>
    intro q prev hrep hnd hqf haf hbf
    have hlinks := fun (hbm : b ∈ (Forest.cons id k r).ids) =>
      (rep_links_mem s b nb hb (Forest.cons id k r) q prev hrep hqf hnd hbm).1
    simp only [Forest.ids, List.nodup_cons, List.mem_append, not_or, List.nodup_append] at hnd
    obtain ⟨⟨hidk, hidr⟩, hkn, hrn, hdisj⟩ := hnd
    simp only [Forest.ids, List.mem_cons, List.mem_append, not_or] at haf hbf hqf
    obtain ⟨haid, hak, har⟩ := haf
    obtain ⟨hqid, hqk, hqr⟩ := hqf
    simp only [Rep] at hrep
    obtain ⟨hnode, hk, hr⟩ := hrep
    simp only [Forest.add]
    by_cases hid : id = b
    · subst hid
      rw [if_pos rfl]
      rw [hb] at hnode
      simp only [] at hnode
      simp only [Rep, hb1, ha1, Forest.first]
      refine ⟨⟨hnode.1, hnode.2.1, hnode.2.2.1, trivial⟩, ?_, ⟨⟨?_, hAv, hAc, ?_⟩, trivial, ?_⟩⟩
      · refine rep_next_other h1 k _ _ hk hidk hak ?_
        intro y hy hyk
        rw [hnode.2.2.2] at hy
        cases r with
        | nil => simp [Forest.first] at hy
        | cons rid rk rr =>
          simp only [Forest.first, Option.some.injEq] at hy
          subst hy
          exact hdisj hyk (by simp [Forest.ids])
      · rw [hAp]; exact hnode.1
      · rw [hAn]; exact hnode.2.2.2
      · refine Rep_set_prev r _ _ _ hrn ?_ ?_ hr
        · intro x hx
          have hxr : x ∈ r.ids := by
            cases r with
            | nil => simp [Forest.first] at hx
            | cons rid rk rr =>
              simp only [Forest.first, Option.some.injEq] at hx
              subst hx
              simp [Forest.ids]
          cases hn : s.heap x with
          | none => exact absurd hn (Rep_heap _ _ _ hr x hxr)
          | some n =>
            refine ⟨n, rfl, ?_⟩
            rw [h1 x (fun e => har (e ▸ hxr)) (fun e => hidr (e ▸ hxr)),
              if_pos (hnode.2.2.2.trans hx), hn]
            rfl
        · intro x hxr hne
          rw [h1 x (fun e => har (e ▸ hxr)) (fun e => hidr (e ▸ hxr)),
            if_neg (by rw [hnode.2.2.2]; exact hne)]
    · rw [if_neg hid]
      have hbkr : b ∈ k.ids ∨ b ∈ r.ids := by
        rcases hbf with h | h | h
        · exact absurd h.symm hid
        · exact Or.inl h
        · exact Or.inr h
      have hyid : nb.sibling_next ≠ some id := by
        intro hc
        rcases hbkr with hbk | hbr
        · have := (rep_links_mem s b nb hb k id none hk hidk hkn hbk).1 id hc
          exact hidk this
        · have := (rep_links_mem s b nb hb r q (some id) hr hqr hrn hbr).1 id hc
          exact hidr this
      have hidn : s1.heap id = s.heap id := by
        rw [h1 id (fun e => haid e.symm) hid, if_neg hyid]
      simp only [Rep, hidn, add_first]
      refine ⟨hnode, ?_, ?_⟩
      · by_cases hbk : b ∈ k.ids
        · exact ihk id none hk hkn hidk hak hbk
        · rw [add_of_not_mem _ _ _ k hbk]
          have hbr : b ∈ r.ids := hbkr.resolve_left hbk
          refine rep_next_other h1 k _ _ hk hbk hak ?_
          intro y hy hyk
          exact hdisj hyk ((rep_links_mem s b nb hb r q (some id) hr hqr hrn hbr).1 y hy)
      · by_cases hbr : b ∈ r.ids
        · exact ihr q _ hr hrn hqr har hbr
        · rw [add_of_not_mem _ _ _ r hbr]
          have hbk : b ∈ k.ids := hbkr.resolve_right hbr
          refine rep_next_other h1 r _ _ hr hbr har ?_
          intro y hy hyr
          exact hdisj ((rep_links_mem s b nb hb k id none hk hidk hkn hbk).1 y hy) hyr


theorem heightEq_store_both {Q : Nat → Prop} {s s' : State} (h : HeightEq Q s s') (a : Nat)
    (x : treeview_node) : HeightEq Q (store s a x) (store s' a x) := by
  refine ⟨h.1, fun k => ?_⟩
  by_cases hk : k = a
  · subst hk
    left
    rw [store_heap_same, store_heap_same]
  · rw [store_heap, store_heap, if_neg hk, if_neg hk]
    exact h.2 k

/-- What `insert_layout` leaves: the new node with its inset and, below an
expanded parent, its text measured; and heights of nodes that satisfy `Q`. -/
theorem insert_layout_inv (Q : Nat → Prop) (g : treeview_globals)
    (font_width : List Nat → Nat → Int) (fuel : Nat) (s1 : State) (a : Nat) (s' : State)
    (na1 : treeview_node) (p : Nat) (np : treeview_node)
    (hpar : ∀ c nc, s1.heap c = some nc → ∀ q, nc.parent = some q → Q q)
    (ha : s1.heap a = some na1) (hp : na1.parent = some p) (hnp : s1.heap p = some np)
    (hpa : p ≠ a) (hQa : ¬ Q a) (h : insert_layout g font_width fuel s1 a = .ok s') :
    HeightEq Q (store s1 a (if np.expanded then
        measure_node font_width { na1 with inset := np.inset + g.step_width }
      else { na1 with inset := np.inset + g.step_width })) s' := by
  rw [insert_layout] at h
  obtain ⟨na, hna, h⟩ := bind_ok_inv h
  have hna := load_inv hna
  rw [ha] at hna
  cases hna
  obtain ⟨_, _, h⟩ := bind_ok_inv h
  obtain ⟨p', hp', h⟩ := bind_ok_inv h
  have hp' := ptr_inv hp'
  rw [hp] at hp'
  cases hp'
  obtain ⟨np', hnp', h⟩ := bind_ok_inv h
  have hnp' := load_inv hnp'
  rw [hnp] at hnp'
  cases hnp'
  obtain ⟨s2, hs2, h⟩ := bind_ok_inv h
  obtain ⟨y, hy, hs2⟩ := modify_inv hs2
  rw [ha] at hy
  cases hy
  subst hs2
  obtain ⟨np2, hnp2, h⟩ := bind_ok_inv h
  have hnp2 := load_inv hnp2
  rw [store_heap, if_neg hpa, hnp] at hnp2
  cases hnp2
  cases hexp : np.expanded with
  | false =>
    rw [hexp] at h
    simp only [Bool.false_eq_true, if_false, pure, Except.pure, Except.ok.injEq] at h ⊢
    rw [← h]
    exact heightEq_refl _ _
  | true =>
    rw [hexp] at h
    simp only [if_true] at h ⊢
    obtain ⟨s3, hs3, h⟩ := bind_ok_inv h
    have hpar2 : ∀ c nc, (store s1 a { na1 with inset := np.inset + g.step_width }).heap c =
        some nc → ∀ q, nc.parent = some q → Q q := by
      intro c nc hc q hq
      by_cases hca : c = a
      · subst hca
        rw [store_heap_same] at hc
        cases hc
        exact hpar c na1 ha q hq
      · rw [store_heap, if_neg hca] at hc
        exact hpar c nc hc q hq
    have hH := insert_height_loop_heightEq Q fuel _ a s3 hpar2 hs3
    obtain ⟨na3, hna3, h⟩ := bind_ok_inv h
    have hna3 := load_inv hna3
    have hna3' : s3.heap a = some { na1 with inset := np.inset + g.step_width } := by
      rcases hH.2 a with h1 | ⟨hq, _⟩
      · rw [h1, store_heap_same]
      · exact absurd hq hQa
    rw [hna3'] at hna3
    cases hna3
    have hs' := measure_node_step font_width s3 a _ hna3' s' h
    rw [hs']
    have := heightEq_store_both hH a
      (measure_node font_width { na1 with inset := np.inset + g.step_width })
    rw [store_store] at this
    exact this

/-- The invariant after an insertion, from the facts that describe the memory
the insertion leaves before heights are adjusted. -/
theorem inv_of_insert {g : treeview_globals} {font_width : List Nat → Nat → Int}
    {tree : treeview} {s sB : State} {a P : Nat} {A nP : treeview_node} (F1 : Forest)
    (hI : Inv g font_width tree s) (hfresh : s.heap a = none)
    (hP : s.heap P = some nP) (hPt : nP.type ≠ .TREE_NODE_ENTRY)
    (hA : sB.heap a = some A) (hAt : A.type ≠ .TREE_NODE_ROOT) (hAp : A.parent = some P)
    (hAi : A.inset = nP.inset + g.step_width) (hAe : A.expanded = false)
    (hAh : A.height = g.line_height)
    (hAf : A.type = .TREE_NODE_ENTRY → A.fields.length = (tree.n_fields - 1).toNat)
    (hAw : ∀ f ∈ A.fields, f.value.width = 0)
    (hAx : Cached font_width A.text.value)
    (hAm : nP.expanded = true → Measured font_width A.text.value)
    (h2 : ∀ k, k ≠ a → ∀ x', sB.heap k = some x' → ∃ x, s.heap k = some x ∧
      x'.type = x.type ∧ x'.inset = x.inset ∧ x'.parent = x.parent ∧
      x'.expanded = x.expanded ∧ x'.selected = x.selected ∧ x'.height = x.height ∧
      x'.text = x.text ∧ x'.fields = x.fields ∧
      (k = tree.root → x'.sibling_prev = x.sibling_prev ∧ x'.sibling_next = x.sibling_next))
    (h3 : ∀ k x, s.heap k = some x → ∃ x', sB.heap k = some x')
    (hsub : SubtreeAt sB tree.root F1) (hnd : F1.ids.Nodup)
    (hall : ∀ k, sB.heap k ≠ none → k = tree.root ∨ k ∈ F1.ids) :
    Inv g font_width tree sB := by
  have hne : ∀ k x, s.heap k = some x → k ≠ a := by
    intro k x hk e
    rw [e, hfresh] at hk
    cases hk
  have h23 : ∀ k x, s.heap k = some x → ∃ x', sB.heap k = some x' ∧
      x'.type = x.type ∧ x'.inset = x.inset ∧ x'.expanded = x.expanded := by
    intro k x hk
    obtain ⟨x', hx'⟩ := h3 k x hk
    obtain ⟨y, hy, e1, e2, _, e4, _⟩ := h2 k (hne k x hk) x' hx'
    rw [hk] at hy
    cases hy
    exact ⟨x', hx', e1, e2, e4⟩
  obtain ⟨rr, hrr, hrt, hrp, hrsp, hrsn, hrexp, hrsel, hrin⟩ := hI.root
  refine ⟨hI.nf, ⟨F1, hsub, hnd, hall⟩, ?_, ?_, ?_, ?_⟩
  · obtain ⟨x', hx'⟩ := h3 _ _ hrr
    obtain ⟨y, hy, e1, e2, e3, e4, e5, _, _, _, e9⟩ := h2 _ (hne _ _ hrr) x' hx'
    rw [hrr] at hy
    cases hy
    exact ⟨x', hx', e1.trans hrt, e3.trans hrp, (e9 rfl).1.trans hrsp, (e9 rfl).2.trans hrsn,
      e4.trans hrexp, e5.trans hrsel, e2.trans hrin⟩
  · intro k x' hx' hkr
    by_cases hka : k = a
    · subst hka
      rw [hA] at hx'
      cases hx'
      obtain ⟨nP', hnP', f1, f2, _⟩ := h23 P nP hP
      exact ⟨hAt, P, nP', hAp, hnP', by rw [f1]; exact hPt, by rw [hAi, f2]⟩
    · obtain ⟨x, hx, e1, e2, e3, _⟩ := h2 k hka x' hx'
      obtain ⟨hty, p, np, hp, hnp, hpt, hin⟩ := hI.node k x hx hkr
      obtain ⟨np', hnp', f1, f2, _⟩ := h23 p np hnp
      exact ⟨by rw [e1]; exact hty, p, np', e3.trans hp, hnp', by rw [f1]; exact hpt,
        by rw [e2, f2]; exact hin⟩
  · intro k x' hx' hty
    by_cases hka : k = a
    · subst hka
      rw [hA] at hx'
      cases hx'
      refine ⟨hAf hty, ?_⟩
      rw [hAe, hAh]
      simp
    · obtain ⟨x, hx, e1, _, _, e4, _, e6, _, e8, _⟩ := h2 k hka x' hx'
      rw [e8, e6, e4]
      exact hI.entry k x hx (e1 ▸ hty)
  · intro k x' hx'
    by_cases hka : k = a
    · subst hka
      rw [hA] at hx'
      cases hx'
      refine ⟨hAx, fun f hf => Or.inl (hAw f hf), ?_, ?_⟩
      · intro p np' hp hnp' hexp
        rw [hAp] at hp
        cases hp
        obtain ⟨y, hy, _, _, _, f4, _⟩ := h2 P (hne _ _ hP) np' hnp'
        rw [hP] at hy
        cases hy
        exact hAm (f4 ▸ hexp)
      · intro _ hx
        rw [hAe] at hx
        cases hx
    · obtain ⟨x, hx, e1, _, e3, e4, _, _, e7, e8, _⟩ := h2 k hka x' hx'
      obtain ⟨w1, w2, w3, w4⟩ := hI.width k x hx
      rw [e7, e8]
      refine ⟨w1, w2, ?_, fun hty hexp => w4 (e1 ▸ hty) (e4 ▸ hexp)⟩
      intro p np' hp hnp' hexp
      rw [e3] at hp
      have hpa : p ≠ a := by
        intro e
        subst e
        have hkr : k ≠ tree.root := by
          intro e
          rw [e, hrr] at hx
          cases hx
          rw [hrp] at hp
          cases hp
        obtain ⟨_, q, nq, hq, hnq, _⟩ := hI.node k x hx hkr
        rw [hp] at hq
        cases hq
        rw [hfresh] at hnq
        cases hnq
      obtain ⟨np, hnp, _, _, _, f4, _⟩ := h2 p hpa np' hnp'
      exact w3 p np hp hnp (f4 ▸ hexp)


/-- The invariant after `insert_layout`, from the facts that describe the
memory `insert_link` leaves. -/
theorem inv_insert_tail {g : treeview_globals} {font_width : List Nat → Nat → Int}
    {tree : treeview} {s s1 s' : State} {a P : Nat} {A nP nP1 : treeview_node}
    (F F1 : Forest) (fuel : Nat)
    (hI : Inv g font_width tree s) (hfresh : s.heap a = none)
    (hP : s.heap P = some nP) (hPt : nP.type ≠ .TREE_NODE_ENTRY)
    (hP1 : s1.heap P = some nP1) (hPe : nP1.expanded = nP.expanded)
    (hPi : nP1.inset = nP.inset)
    (hA : s1.heap a = some A) (hAt : A.type ≠ .TREE_NODE_ROOT) (hAp : A.parent = some P)
    (hAe : A.expanded = false) (hAs : A.selected = false) (hAh : A.height = g.line_height)
    (hAf : A.type = .TREE_NODE_ENTRY → A.fields.length = (tree.n_fields - 1).toNat)
    (hAw : ∀ f ∈ A.fields, f.value.width = 0) (hAx : A.text.value.width = 0)
    (h2 : ∀ k, k ≠ a → ∀ x', s1.heap k = some x' → ∃ x, s.heap k = some x ∧
      x'.type = x.type ∧ x'.inset = x.inset ∧ x'.parent = x.parent ∧
      x'.expanded = x.expanded ∧ x'.selected = x.selected ∧ x'.height = x.height ∧
      x'.text = x.text ∧ x'.fields = x.fields ∧
      (k = tree.root → x'.sibling_prev = x.sibling_prev ∧ x'.sibling_next = x.sibling_next))
    (h3 : ∀ k x, s.heap k = some x → ∃ x', s1.heap k = some x')
    (hsub : SubtreeAt s1 tree.root F1) (hperm : F1.ids.Perm (a :: F.ids))
    (hnd : F.ids.Nodup) (haF : a ∉ F.ids)
    (hall : ∀ k, s.heap k ≠ none → k = tree.root ∨ k ∈ F.ids)
    (hlay : insert_layout g font_width fuel s1 a = .ok s') :
    Inv g font_width tree s' ∧
      (∀ k n, s.heap k = some n → ∃ n', s'.heap k = some n' ∧ n'.inset = n.inset) ∧
      ∃ na, s'.heap a = some na ∧ na.expanded = false ∧ na.selected = false ∧
        na.height = g.line_height := by
  obtain ⟨rr, hrr, hrt, hrp, _⟩ := hI.root
  have hPa : P ≠ a := by
    intro e
    rw [e, hfresh] at hP
    cases hP
  have hQa : ¬ ∃ n0, s.heap a = some n0 ∧ n0.type ≠ .TREE_NODE_ENTRY := by
    rintro ⟨n0, h0, _⟩
    rw [hfresh] at h0
    cases h0
  have hpar : ∀ c nc, s1.heap c = some nc → ∀ q, nc.parent = some q →
      ∃ n0, s.heap q = some n0 ∧ n0.type ≠ .TREE_NODE_ENTRY := by
    intro c nc hc q hq
    by_cases hca : c = a
    · subst hca
      rw [hA] at hc
      cases hc
      rw [hAp] at hq
      cases hq
      exact ⟨nP, hP, hPt⟩
    · obtain ⟨x, hx, _, _, e3, _⟩ := h2 c hca nc hc
      rw [e3] at hq
      have hcr : c ≠ tree.root := by
        intro e
        rw [e, hrr] at hx
        cases hx
        rw [hrp] at hq
        cases hq
      obtain ⟨_, q', nq, hq', hnq, hqt, _⟩ := hI.node c x hx hcr
      rw [hq] at hq'
      cases hq'
      exact ⟨nq, hnq, hqt⟩
  have hH := insert_layout_inv
    (fun k => ∃ n0, s.heap k = some n0 ∧ n0.type ≠ .TREE_NODE_ENTRY) g font_width fuel s1 a s'
    A P nP1 hpar hA hAp hP1 hPa hQa hlay
  obtain ⟨A1, hA1, b1, b2, b3, b4, b5, b6, b7, b8, b9, b10, b11, b12⟩ : ∃ A1 : treeview_node,
      A1 = (if nP1.expanded then
        measure_node font_width { A with inset := nP1.inset + g.step_width }
      else { A with inset := nP1.inset + g.step_width }) ∧
      A1.type = A.type ∧ A1.parent = A.parent ∧ A1.inset = nP.inset + g.step_width ∧
      A1.expanded = A.expanded ∧ A1.selected = A.selected ∧ A1.height = A.height ∧
      A1.fields = A.fields ∧ Cached font_width A1.text.value ∧
      (nP.expanded = true → Measured font_width A1.text.value) ∧
      A1.sibling_prev = A.sibling_prev ∧ A1.sibling_next = A.sibling_next ∧
      A1.children = A.children := by
    refine ⟨_, rfl, ?_⟩
    rw [hPe, hPi]
    cases nP.expanded with
    | false =>
      rw [if_neg (by decide)]
      exact ⟨rfl, rfl, rfl, rfl, rfl, rfl, rfl, Or.inl hAx, fun h => (by cases h), rfl, rfl,
        rfl⟩
    | true =>
      rw [if_pos rfl]
      refine ⟨rfl, rfl, rfl, rfl, rfl, rfl, rfl, ?_, ?_, rfl, rfl, rfl⟩
      · exact cached_measured_text (Or.inl hAx)
      · intro _
        exact measured_of_cached (Or.inl hAx)
  rw [← hA1] at hH
  have hsB : ∀ k, k ≠ a → (store s1 a A1).heap k = s1.heap k := by
    intro k hk
    rw [store_heap, if_neg hk]
  have hlink : LinkEq s1 (store s1 a A1) := by
    intro k
    by_cases hk : k = a
    · subst hk
      rw [store_heap_same, hA]
      simp only [Option.map_some', Option.some.injEq, links, Prod.mk.injEq]
      exact ⟨b4, b2, b10, b11, b12⟩
    · rw [hsB k hk]
  have hndF1 : F1.ids.Nodup := hperm.nodup_iff.mpr (List.nodup_cons.mpr ⟨haF, hnd⟩)
  have hIB : Inv g font_width tree (store s1 a A1) := by
    refine inv_of_insert F1 hI hfresh hP hPt (store_heap_same _ _ _) (b1 ▸ hAt) (b2.trans hAp)
      b3 (b4.trans hAe) (b6.trans hAh) ?_ ?_ b8 b9 ?_ ?_
      (SubtreeAt_linkEq hlink _ _ hsub) hndF1 ?_
    · intro hty
      rw [b7]
      exact hAf (b1 ▸ hty)
    · rw [b7]
      exact hAw
    · intro k hk x' hx'
      rw [hsB k hk] at hx'
      exact h2 k hk x' hx'
    · intro k x hx
      obtain ⟨x', hx'⟩ := h3 k x hx
      have hk : k ≠ a := by
        intro e
        rw [e, hfresh] at hx
        cases hx
      exact ⟨x', by rw [hsB k hk]; exact hx'⟩
    · intro k hk
      by_cases hka : k = a
      · right
        exact hperm.mem_iff.mpr (by simp [hka])
      · rw [hsB k hka] at hk
        cases hx' : s1.heap k with
        | none => exact absurd hx' hk
        | some x' =>
          obtain ⟨x, hx, _⟩ := h2 k hka x' hx'
          rcases hall k (by rw [hx]; simp) with h | h
          · exact Or.inl h
          · right
            exact hperm.mem_iff.mpr (by simp [h])
  have hQB : ∀ k n, (∃ n0, s.heap k = some n0 ∧ n0.type ≠ .TREE_NODE_ENTRY) →
      (store s1 a A1).heap k = some n → n.type ≠ .TREE_NODE_ENTRY := by
    intro k n hq hn
    obtain ⟨n0, hn0, hty⟩ := hq
    have hk : k ≠ a := by
      intro e
      rw [e, hfresh] at hn0
      cases hn0
    rw [hsB k hk] at hn
    obtain ⟨x, hx, e1, _⟩ := h2 k hk n hn
    rw [hn0] at hx
    cases hx
    rw [e1]
    exact hty
  refine ⟨inv_heightEq hIB hH hQB, ?_, ?_⟩
  · intro k n hn
    obtain ⟨x1, hx1⟩ := h3 k n hn
    have hk : k ≠ a := by
      intro e
      rw [e, hfresh] at hn
      cases hn
    obtain ⟨x, hx, _, e2, _⟩ := h2 k hk x1 hx1
    rw [hn] at hx
    cases hx
    obtain ⟨y, hy, hl⟩ := skelEq_get (heightEq_skel hH) (by rw [hsB k hk]; exact hx1)
    exact ⟨y, hy, (skel_eq hl).2.1.trans e2⟩
  · have : s'.heap a = some A1 := by
      rcases hH.2 a with h | ⟨hq, _⟩
      · rw [h, store_heap_same]
      · exact absurd hq hQa
    exact ⟨A1, this, b4.trans hAe, b5.trans hAs, b6.trans hAh⟩


theorem rep_first_parent {s : State} {p prev : Option Nat} {K : Forest} {x : Nat}
    (hrep : Rep s p prev K) (hx : K.first = some x) : parentOf s x = p := by
  cases K with
  | nil => simp [Forest.first] at hx
  | cons id k r =>
    simp only [Forest.first, Option.some.injEq] at hx
    subst hx
    simp only [Rep] at hrep
    cases hn : s.heap id with
    | none => rw [hn] at hrep; exact hrep.1.elim
    | some n =>
      rw [hn] at hrep
      simp only [parentOf, hn]
      exact hrep.1.1

theorem first_mem_ids {K : Forest} {x : Nat} (hx : K.first = some x) : x ∈ K.ids := by
  cases K with
  | nil => simp [Forest.first] at hx
  | cons id k r =>
    simp only [Forest.first, Option.some.injEq] at hx
    subst hx
    simp [Forest.ids]

/-- The children of a node in memory, as a forest. -/
theorem inv_kids {tree : treeview} {s : State} (F : Forest) (hsub : SubtreeAt s tree.root F)
    (hnd : F.ids.Nodup) (hall : ∀ k, s.heap k ≠ none → k = tree.root ∨ k ∈ F.ids)
    (b : Nat) (nb : treeview_node) (hb : s.heap b = some nb) :
    ∃ K, Rep s (some b) none K ∧ nb.children = K.first ∧ (∀ x ∈ K.ids, x ∈ F.ids) ∧
      b ∉ K.ids ∧ K.ids.Nodup := by
  obtain ⟨hroot, hrep, hrF⟩ := hsub
  rcases hall b (by rw [hb]; simp) with h | h
  · subst h
    rw [hb] at hroot
    exact ⟨F, hrep, hroot, fun _ h => h, hrF, hnd⟩
  · cases hr : s.heap tree.root with
    | none => rw [hr] at hroot; exact hroot.elim
    | some rr =>
      rw [hr] at hroot
      obtain ⟨nn, y, ny, hnn, hkids, hrepn, _⟩ := rep_local s b F tree.root none rr hrep hrF
        hnd (fun v hv => by cases hv) hr (fun _ => hroot) (fun h => absurd rfl h) h
      rw [hb] at hnn
      cases hnn
      exact ⟨F.sub b, hrepn, hkids, sub_ids_subset b F, not_mem_sub_self b F hnd,
        sub_ids_nodup b F hnd⟩

theorem inv_insert_first {g : treeview_globals} {font_width : List Nat → Nat → Int}
    {tree : treeview} {s : State} (fuel a b : Nat) (r nb : treeview_node) (s1 s' : State)
    (hI : Inv g font_width tree s) (hfresh : s.heap a = none) (hb : s.heap b = some nb)
    (hrv : r.sibling_prev = none)
    (hrc : r.children = none) (hre : r.expanded = false) (hrs : r.selected = false)
    (hrh : r.height = g.line_height) (hrt : r.type ≠ .TREE_NODE_ROOT)
    (hrw : r.text.value.width = 0) (hrf : ∀ f ∈ r.fields, f.value.width = 0)
    (hrl : r.type = .TREE_NODE_ENTRY → r.fields.length = (tree.n_fields - 1).toNat)
    (hlink : insert_link (store s a r) a b .TREE_REL_FIRST_CHILD = .ok s1)
    (hlay : insert_layout g font_width fuel s1 a = .ok s') :
    Inv g font_width tree s' ∧
      (∀ k n, s.heap k = some n → ∃ n', s'.heap k = some n' ∧ n'.inset = n.inset) ∧
      ∃ na, s'.heap a = some na ∧ na.expanded = false ∧ na.selected = false ∧
        na.height = g.line_height := by
  obtain ⟨F, hsub, hnd, hall⟩ := hI.shape
  obtain ⟨rr, hrr, hrrt, _⟩ := hI.root
  have hab : a ≠ b := by
    intro e
    rw [e, hb] at hfresh
    cases hfresh
  have haF : a ∉ F.ids := fun h => Rep_heap _ _ _ hsub.2.1 a h hfresh
  have har : a ≠ tree.root := by
    intro e
    rw [e, hrr] at hfresh
    cases hfresh
  have hb0 : (store s a r).heap b = some nb := by
    rw [store_heap, if_neg (Ne.symm hab)]
    exact hb
  have hty : nb.type ≠ .TREE_NODE_ENTRY := by
    have hl := hlink
    simp only [insert_link] at hl
    obtain ⟨nb', hnb', hl⟩ := bind_ok_inv hl
    have hnb' := load_inv hnb'
    rw [hb0] at hnb'
    cases hnb'
    obtain ⟨_, hc, _⟩ := bind_ok_inv hl
    simpa using c_assert_inv hc
  obtain ⟨K, hK1, hK2, hK3, hK4, hK5⟩ := inv_kids F hsub hnd hall b nb hb
  have hxF : ∀ x, nb.children = some x → x ∈ F.ids ∧ x ≠ b ∧ x ≠ a ∧ x ≠ tree.root := by
    intro x hx
    have hxK := first_mem_ids (hK2.symm.trans hx)
    exact ⟨hK3 x hxK, fun e => hK4 (e ▸ hxK), fun e => haF (e ▸ hK3 x hxK),
      fun e => hsub.2.2 (e ▸ hK3 x hxK)⟩
  obtain ⟨s1', hl1, _, hs1⟩ := insert_link_first (store s a r) a b r nb (store_heap_same _ _ _)
    hb0 hab hty (by
      intro x hx
      obtain ⟨h1, h2, h3, _⟩ := hxF x hx
      refine ⟨h3, h2, ?_⟩
      rw [store_heap, if_neg h3]
      exact Rep_heap _ _ _ hsub.2.1 x h1)
  rw [hlink] at hl1
  cases hl1
  have h0 : ∀ k, k ≠ a → (store s a r).heap k = s.heap k := by
    intro k hk
    rw [store_heap, if_neg hk]
  have ha1 : s1.heap a = some { r with parent := some b, sibling_next := nb.children } := by
    rw [hs1, if_pos rfl]
  have hb1 : s1.heap b = some { nb with children := some a } := by
    rw [hs1, if_neg (Ne.symm hab), if_pos rfl]
  have h1 : ∀ x, x ≠ a → x ≠ b → s1.heap x =
      if nb.children = some x then (s.heap x).map (fun n => { n with sibling_prev := some a })
      else s.heap x := by
    intro x hxa hxb
    rw [hs1, if_neg hxa, if_neg hxb, h0 x hxa]
  have hxp : ∀ x, nb.children = some x → parentOf s x = some b := by
    intro x hx
    exact rep_first_parent hK1 (hK2.symm.trans hx)
  have h2 : ∀ k, k ≠ a → ∀ x', s1.heap k = some x' → ∃ x, s.heap k = some x ∧
      x'.type = x.type ∧ x'.inset = x.inset ∧ x'.parent = x.parent ∧
      x'.expanded = x.expanded ∧ x'.selected = x.selected ∧ x'.height = x.height ∧
      x'.text = x.text ∧ x'.fields = x.fields ∧
      (k = tree.root → x'.sibling_prev = x.sibling_prev ∧
        x'.sibling_next = x.sibling_next) := by
    intro k hka x' hx'
    by_cases hkb : k = b
    · subst hkb
      rw [hb1] at hx'
      cases hx'
      exact ⟨nb, hb, rfl, rfl, rfl, rfl, rfl, rfl, rfl, rfl, fun _ => ⟨rfl, rfl⟩⟩
    · rw [h1 k hka hkb] at hx'
      by_cases hc : nb.children = some k
      · rw [if_pos hc] at hx'
        cases hx : s.heap k with
        | none => rw [hx] at hx'; cases hx'
        | some x =>
          rw [hx] at hx'
          cases hx'
          exact ⟨x, rfl, rfl, rfl, rfl, rfl, rfl, rfl, rfl, rfl,
            fun e => absurd e (hxF k hc).2.2.2⟩
      · rw [if_neg hc] at hx'
        exact ⟨x', hx', rfl, rfl, rfl, rfl, rfl, rfl, rfl, rfl, fun _ => ⟨rfl, rfl⟩⟩
  have h3 : ∀ k x, s.heap k = some x → ∃ x', s1.heap k = some x' := by
    intro k x hx
    have hka : k ≠ a := by
      intro e
      rw [e, hfresh] at hx
      cases hx
    by_cases hkb : k = b
    · subst hkb
      exact ⟨_, hb1⟩
    · rw [h1 k hka hkb, hx]
      by_cases hc : nb.children = some k
      · rw [if_pos hc]; exact ⟨_, rfl⟩
      · rw [if_neg hc]; exact ⟨_, rfl⟩
  obtain ⟨F1, hsub1, hperm⟩ : ∃ F1, SubtreeAt s1 tree.root F1 ∧ F1.ids.Perm (a :: F.ids) := by
    obtain ⟨hroot, hrep, hrF⟩ := hsub
    by_cases hbr : b = tree.root
    · subst hbr
      rw [hb] at hroot
      simp only [] at hroot
      have hKF : K.first = F.first := hK2.symm.trans hroot
      refine ⟨.cons a .nil F, ⟨?_, ?_, ?_⟩, by simp [Forest.ids]⟩
      · rw [hb1]
        rfl
      · simp only [Rep, ha1]
        refine ⟨⟨trivial, hrv, hrc, hroot⟩, trivial, ?_⟩
        exact rep_first_kids F h1 hrep hnd haF hrF hroot
      · simp only [Forest.ids, List.mem_cons, List.nil_append, not_or]
        exact ⟨Ne.symm har, hrF⟩
    · have hbF : b ∈ F.ids := by
        rcases hall b (by rw [hb]; simp) with h | h
        · exact absurd h hbr
        · exact h
      have hperm := add_ids_perm a b .TREE_REL_FIRST_CHILD F hnd hbF
      refine ⟨F.add a b .TREE_REL_FIRST_CHILD, ⟨?_, ?_, ?_⟩, hperm⟩
      · have : s1.heap tree.root = s.heap tree.root := by
          rw [h1 _ (Ne.symm har) (Ne.symm hbr), if_neg]
          intro hc
          exact (hxF _ hc).2.2.2 rfl
        rw [this, add_first]
        exact hroot
      · exact rep_add_first hb ha1 rfl hrv rfl hrc hb1 h1 hxp hab F tree.root none hrep hnd
          (Ne.symm hbr) haF hbF
      · intro hm
        rcases List.mem_cons.mp (hperm.mem_iff.mp hm) with h | h
        · exact har h.symm
        · exact hrF h
  exact inv_insert_tail F F1 fuel hI hfresh hb hty hb1 rfl rfl ha1 hrt rfl hre hrs hrh hrl hrf
    hrw h2 h3 hsub1 hperm hnd haF hall hlay

theorem inv_insert_next {g : treeview_globals} {font_width : List Nat → Nat → Int}
    {tree : treeview} {s : State} (fuel a b : Nat) (r nb : treeview_node) (s1 s' : State)
    (hI : Inv g font_width tree s) (hfresh : s.heap a = none) (hb : s.heap b = some nb)
    (hrc : r.children = none) (hre : r.expanded = false) (hrs : r.selected = false)
    (hrh : r.height = g.line_height) (hrt : r.type ≠ .TREE_NODE_ROOT)
    (hrw : r.text.value.width = 0) (hrf : ∀ f ∈ r.fields, f.value.width = 0)
    (hrl : r.type = .TREE_NODE_ENTRY → r.fields.length = (tree.n_fields - 1).toNat)
    (hlink : insert_link (store s a r) a b .TREE_REL_NEXT_SIBLING = .ok s1)
    (hlay : insert_layout g font_width fuel s1 a = .ok s') :
    Inv g font_width tree s' ∧
      (∀ k n, s.heap k = some n → ∃ n', s'.heap k = some n' ∧ n'.inset = n.inset) ∧
      ∃ na, s'.heap a = some na ∧ na.expanded = false ∧ na.selected = false ∧
        na.height = g.line_height := by
  obtain ⟨F, hsub, hnd, hall⟩ := hI.shape
  obtain ⟨rr, hrr, hrrt, _⟩ := hI.root
  have hab : a ≠ b := by
    intro e
    rw [e, hb] at hfresh
    cases hfresh
  have haF : a ∉ F.ids := fun h => Rep_heap _ _ _ hsub.2.1 a h hfresh
  have har : a ≠ tree.root := by
    intro e
    rw [e, hrr] at hfresh
    cases hfresh
  have hb0 : (store s a r).heap b = some nb := by
    rw [store_heap, if_neg (Ne.symm hab)]
    exact hb
  have hty : nb.type ≠ .TREE_NODE_ROOT := by
    have hl := hlink
    simp only [insert_link] at hl
    obtain ⟨nb', hnb', hl⟩ := bind_ok_inv hl
    have hnb' := load_inv hnb'
    rw [hb0] at hnb'
    cases hnb'
    obtain ⟨_, hc, _⟩ := bind_ok_inv hl
    simpa using c_assert_inv hc
  have hbr : b ≠ tree.root := by
    intro e
    rw [e, hrr] at hb
    cases hb
    exact hty hrrt
  have hbF : b ∈ F.ids := by
    rcases hall b (by rw [hb]; simp) with h | h
    · exact absurd h hbr
    · exact h
  obtain ⟨hroot, hrep, hrF⟩ := hsub
  rw [hrr] at hroot
  simp only [] at hroot
  obtain ⟨nn, y, ny, hnn, _, _, hpar, hy, hyb, _, _, _, hd⟩ := rep_local s b F tree.root none rr
    hrep hrF hnd (fun v hv => by cases hv) hrr (fun _ => hroot) (fun h => absurd rfl h) hbF
  rw [hb] at hnn
  cases hnn
  have hc1 := (rep_links_mem s b nb hb F tree.root none hrep hrF hnd hbF).1
  have hya : y ≠ a := by
    intro e
    rw [e, hfresh] at hy
    cases hy
  have hyt : ny.type ≠ .TREE_NODE_ENTRY := by
    obtain ⟨_, p, np, hp, hnp, hpt, _⟩ := hI.node b nb hb hbr
    rw [hpar] at hp
    cases hp
    rw [hy] at hnp
    cases hnp
    exact hpt
  obtain ⟨s1', hl1, _, hs1⟩ := insert_link_next (store s a r) a b r nb (store_heap_same _ _ _)
    hb0 hab hty (by
      intro x hx
      obtain ⟨h1, _, _, h4, _⟩ := hd x hx
      have hxa : x ≠ a := fun e => haF (e ▸ hc1 x hx)
      refine ⟨hxa, h1, ?_⟩
      rw [store_heap, if_neg hxa]
      exact h4)
  rw [hlink] at hl1
  cases hl1
  have h0 : ∀ k, k ≠ a → (store s a r).heap k = s.heap k := by
    intro k hk
    rw [store_heap, if_neg hk]
  have ha1 : s1.heap a = some { r with parent := nb.parent, sibling_prev := some b,
                                       sibling_next := nb.sibling_next } := by
    rw [hs1, if_pos rfl]
  have hb1 : s1.heap b = some { nb with sibling_next := some a } := by
    rw [hs1, if_neg (Ne.symm hab), if_pos rfl]
  have h1 : ∀ x, x ≠ a → x ≠ b → s1.heap x =
      if nb.sibling_next = some x then
        (s.heap x).map (fun n => { n with sibling_prev := some a })
      else s.heap x := by
    intro x hxa hxb
    rw [hs1, if_neg hxa, if_neg hxb, h0 x hxa]
  have hy1 : s1.heap y = some ny := by
    rw [h1 y hya hyb, if_neg, hy]
    intro hc
    exact (hd y hc).2.1 rfl
  have h2 : ∀ k, k ≠ a → ∀ x', s1.heap k = some x' → ∃ x, s.heap k = some x ∧
      x'.type = x.type ∧ x'.inset = x.inset ∧ x'.parent = x.parent ∧
      x'.expanded = x.expanded ∧ x'.selected = x.selected ∧ x'.height = x.height ∧
      x'.text = x.text ∧ x'.fields = x.fields ∧
      (k = tree.root → x'.sibling_prev = x.sibling_prev ∧
        x'.sibling_next = x.sibling_next) := by
    intro k hka x' hx'
    by_cases hkb : k = b
    · subst hkb
      rw [hb1] at hx'
      cases hx'
      exact ⟨nb, hb, rfl, rfl, rfl, rfl, rfl, rfl, rfl, rfl, fun e => absurd e hbr⟩
    · rw [h1 k hka hkb] at hx'
      by_cases hc : nb.sibling_next = some k
      · rw [if_pos hc] at hx'
        cases hx : s.heap k with
        | none => rw [hx] at hx'; cases hx'
        | some x =>
          rw [hx] at hx'
          cases hx'
          exact ⟨x, rfl, rfl, rfl, rfl, rfl, rfl, rfl, rfl, rfl,
            fun e => absurd (e ▸ hc1 k hc) hrF⟩
      · rw [if_neg hc] at hx'
        exact ⟨x', hx', rfl, rfl, rfl, rfl, rfl, rfl, rfl, rfl, fun _ => ⟨rfl, rfl⟩⟩
  have h3 : ∀ k x, s.heap k = some x → ∃ x', s1.heap k = some x' := by
    intro k x hx
    have hka : k ≠ a := by
      intro e
      rw [e, hfresh] at hx
      cases hx
    by_cases hkb : k = b
    · subst hkb
      exact ⟨_, hb1⟩
    · rw [h1 k hka hkb, hx]
      by_cases hc : nb.sibling_next = some k
      · rw [if_pos hc]; exact ⟨_, rfl⟩
      · rw [if_neg hc]; exact ⟨_, rfl⟩
  have hperm := add_ids_perm a b .TREE_REL_NEXT_SIBLING F hnd hbF
  have hsub1 : SubtreeAt s1 tree.root (F.add a b .TREE_REL_NEXT_SIBLING) := by
    refine ⟨?_, ?_, ?_⟩
    · have : s1.heap tree.root = s.heap tree.root := by
        rw [h1 _ (Ne.symm har) (Ne.symm hbr), if_neg]
        intro hc
        exact hrF (hc1 _ hc)
      rw [this, add_first, hrr]
      exact hroot
    · exact rep_add_next hb ha1 rfl rfl rfl hrc hb1 h1 hab F tree.root none hrep hnd hrF haF hbF
    · intro hm
      rcases List.mem_cons.mp (hperm.mem_iff.mp hm) with h | h
      · exact har h.symm
      · exact hrF h
  exact inv_insert_tail F _ fuel hI hfresh hy hyt hy1 rfl rfl ha1 hrt hpar hre hrs hrh hrl hrf
    hrw h2 h3 hsub1 hperm hnd haF hall hlay

theorem inv_insert {g : treeview_globals} {font_width : List Nat → Nat → Int}
    {tree : treeview} {s : State} (fuel a b : Nat) (rel : treeview_relationship)
    (r : treeview_node) (s' : State)
    (hI : Inv g font_width tree s) (hfresh : s.heap a = none) (hb : s.heap b ≠ none)
    (hrv : r.sibling_prev = none)
    (hrc : r.children = none) (hre : r.expanded = false) (hrs : r.selected = false)
    (hrh : r.height = g.line_height) (hrt : r.type ≠ .TREE_NODE_ROOT)
    (hrw : r.text.value.width = 0) (hrf : ∀ f ∈ r.fields, f.value.width = 0)
    (hrl : r.type = .TREE_NODE_ENTRY → r.fields.length = (tree.n_fields - 1).toNat)
    (h : treeview_insert_node g font_width fuel (store s a r) a b rel = .ok s') :
    Inv g font_width tree s' ∧
      (∀ k n, s.heap k = some n → ∃ n', s'.heap k = some n' ∧ n'.inset = n.inset) ∧
      ∃ na, s'.heap a = some na ∧ na.expanded = false ∧ na.selected = false ∧
        na.height = g.line_height := by
  rw [treeview_insert_node] at h
  obtain ⟨_, _, h⟩ := bind_ok_inv h
  obtain ⟨_, _, h⟩ := bind_ok_inv h
  obtain ⟨_, _, h⟩ := bind_ok_inv h
  obtain ⟨s1, hlink, hlay⟩ := bind_ok_inv h
  cases hnb : s.heap b with
  | none => exact absurd hnb hb
  | some nb =>
    cases rel with
    | TREE_REL_FIRST_CHILD =>
      exact inv_insert_first fuel a b r nb s1 s' hI hfresh hnb hrv hrc hre hrs hrh hrt hrw hrf
        hrl hlink hlay
    | TREE_REL_NEXT_SIBLING =>
      exact inv_insert_next fuel a b r nb s1 s' hI hfresh hnb hrc hre hrs hrh hrt hrw hrf
        hrl hlink hlay


theorem entry_fields_loop_width (tree : treeview) (fields : List treeview_field_data) :
    ∀ (k i : Nat) (acc fs : List treeview_field), (∀ f ∈ acc, f.value.width = 0) →
    entry_fields_loop tree fields k i acc = .ok fs → ∀ f ∈ fs, f.value.width = 0 := by
  intro k
  induction k with
  | zero =>
    intro i acc fs hacc h
    simp only [entry_fields_loop, Except.ok.injEq] at h
    rw [← h]
    exact hacc
  | succ k ih =>
    intro i acc fs hacc h
    rw [entry_fields_loop] at h
    obtain ⟨fd, _, h⟩ := bind_ok_inv h
    obtain ⟨_, _, h⟩ := bind_ok_inv h
    obtain ⟨_, _, h⟩ := bind_ok_inv h
    refine ih _ _ _ ?_ h
    intro f hf
    rcases List.mem_append.mp hf with hf | hf
    · exact hacc f hf
    · simp only [List.mem_singleton] at hf
      rw [hf]

/-- The insets of the nodes that stay in memory are kept. -/
theorem insetKept_of_skel {s s' : State} (h : SkelEq s s') :
    ∀ k n n', s.heap k = some n → s'.heap k = some n' → n'.inset = n.inset := by
  intro k n n' hn hn'
  obtain ⟨y, hy, hl⟩ := skelEq_get h hn
  rw [hn'] at hy
  cases hy
  exact (skel_eq hl).2.1

theorem inv_create_folder {g : treeview_globals} {font_width : List Nat → Nat → Int}
    {tree : treeview} {s : State} (fuel : Nat) (addr relation : Option Nat)
    (rel : treeview_relationship) (field : treeview_field_data) (data : Nat)
    (r : nserror × State × Option Nat) (hI : Inv g font_width tree s)
    (hv : ∀ b, relation = some b → s.heap b ≠ none)
    (h : treeview_create_node_folder g font_width fuel tree s addr relation rel field data =
      .ok r) :
    Inv g font_width tree r.2.1 ∧
      (∀ k n n', s.heap k = some n → r.2.1.heap k = some n' → n'.inset = n.inset) ∧
      ∀ a, r.2.2 = some a → ∃ na, r.2.1.heap a = some na ∧ na.expanded = false ∧
        na.selected = false ∧ na.height = g.line_height := by
  rw [treeview_create_node_folder] at h
  obtain ⟨_, _, h⟩ := bind_ok_inv h
  obtain ⟨rr, hrr, h⟩ := bind_ok_inv h
  have hrr := load_inv hrr
  simp only [] at h
  cases addr with
  | none =>
    simp only [pure, Except.pure, Except.ok.injEq] at h
    rw [← h]
    exact ⟨hI, fun k n n' hn hn' => by rw [hn] at hn'; cases hn'; rfl, fun a ha => by cases ha⟩
  | some a =>
    simp only [] at h
    cases hfresh : s.heap a with
    | some _ => rw [hfresh] at h; cases h
    | none =>
      rw [hfresh] at h
      simp only [] at h
      obtain ⟨s', hins, h⟩ := bind_ok_inv h
      simp only [pure, Except.pure, Except.ok.injEq] at h
      rw [← h]
      have hb : s.heap (insert_target tree relation rel).1 ≠ none := by
        cases relation with
        | none => simp only [insert_target]; rw [hrr]; simp
        | some b => exact hv b rfl
      obtain ⟨i1, i2, i3⟩ := inv_insert fuel a _ _ (new_folder g field data) s' hI hfresh hb
        rfl rfl rfl rfl rfl (by simp [new_folder]) rfl (by simp [new_folder])
        (by simp [new_folder]) hins
      refine ⟨i1, ?_, ?_⟩
      · intro k n n' hn hn'
        obtain ⟨y, hy, hi⟩ := i2 k n hn
        simp only [] at hn'
        rw [hn'] at hy
        cases hy
        exact hi
      · intro a' ha'
        cases ha'
        exact i3

theorem inv_create_entry {g : treeview_globals} {font_width : List Nat → Nat → Int}
    {tree : treeview} {s : State} (fuel : Nat) (addr relation : Option Nat)
    (rel : treeview_relationship) (fields : List treeview_field_data) (data : Nat)
    (r : nserror × State × Option Nat) (hI : Inv g font_width tree s)
    (hv : ∀ b, relation = some b → s.heap b ≠ none)
    (h : treeview_create_node_entry g font_width fuel tree s addr relation rel fields data =
      .ok r) :
    Inv g font_width tree r.2.1 ∧
      (∀ k n n', s.heap k = some n → r.2.1.heap k = some n' → n'.inset = n.inset) ∧
      ∀ a, r.2.2 = some a → ∃ na, r.2.1.heap a = some na ∧ na.expanded = false ∧
        na.selected = false ∧ na.height = g.line_height := by
  rw [treeview_create_node_entry] at h
  obtain ⟨_, _, h⟩ := bind_ok_inv h
  obtain ⟨rr, hrr, h⟩ := bind_ok_inv h
  have hrr := load_inv hrr
  simp only [] at h
  cases addr with
  | none =>
    simp only [pure, Except.pure, Except.ok.injEq] at h
    rw [← h]
    exact ⟨hI, fun k n n' hn hn' => by rw [hn] at hn'; cases hn'; rfl, fun a ha => by cases ha⟩
  | some a =>
    simp only [] at h
    cases hfresh : s.heap a with
    | some _ => rw [hfresh] at h; cases h
    | none =>
      rw [hfresh] at h
      simp only [] at h
      obtain ⟨f0, _, h⟩ := bind_ok_inv h
      obtain ⟨_, _, h⟩ := bind_ok_inv h
      obtain ⟨_, _, h⟩ := bind_ok_inv h
      obtain ⟨fs, hfs, h⟩ := bind_ok_inv h
      obtain ⟨s', hins, h⟩ := bind_ok_inv h
      simp only [pure, Except.pure, Except.ok.injEq] at h
      rw [← h]
      have hb : s.heap (insert_target tree relation rel).1 ≠ none := by
        cases relation with
        | none => simp only [insert_target]; rw [hrr]; simp
        | some b => exact hv b rfl
      have hlen := entry_fields_loop_length tree fields _ _ _ _ hfs
      have hw := entry_fields_loop_width tree fields _ _ _ _ (by simp) hfs
      obtain ⟨i1, i2, i3⟩ := inv_insert fuel a _ _ (new_entry g f0 fs data) s' hI hfresh hb
        rfl rfl rfl rfl rfl (by simp [new_entry]) rfl hw
        (fun _ => by simpa [new_entry] using hlen) hins
      refine ⟨i1, ?_, ?_⟩
      · intro k n n' hn hn'
        obtain ⟨y, hy, hi⟩ := i2 k n hn
        simp only [] at hn'
        rw [hn'] at hy
        cases hy
        exact hi
      · intro a' ha'
        cases ha'
        exact i3

/-- One valid call keeps the invariant and the insets of the nodes that stay
in memory. -/
theorem inv_run_call {g : treeview_globals} {font_width : List Nat → Nat → Int}
    {tree : treeview} {s : State} (m : browser_mouse_masks) (fuel : Nat) (c : Call)
    (s' : State) (hI : Inv g font_width tree s) (hv : Call.valid tree s c)
    (h : run_call g font_width m fuel tree s c = .ok s') :
    Inv g font_width tree s' ∧
      ∀ k n n', s.heap k = some n → s'.heap k = some n' → n'.inset = n.inset := by
  cases c with
  | create_folder addr relation rel field data =>
    simp only [run_call] at h
    obtain ⟨r, hr, h⟩ := bind_ok_inv h
    simp only [pure, Except.pure, Except.ok.injEq] at h
    rw [← h]
    have hv' : ∀ b, relation = some b → s.heap b ≠ none := by
      intro b hb
      subst hb
      exact hv
    exact ⟨(inv_create_folder fuel addr relation rel field data r hI hv' hr).1,
      (inv_create_folder fuel addr relation rel field data r hI hv' hr).2.1⟩
  | create_entry addr relation rel fields data =>
    simp only [run_call] at h
    obtain ⟨r, hr, h⟩ := bind_ok_inv h
    simp only [pure, Except.pure, Except.ok.injEq] at h
    rw [← h]
    have hv' : ∀ b, relation = some b → s.heap b ≠ none := by
      intro b hb
      subst hb
      exact hv
    exact ⟨(inv_create_entry fuel addr relation rel fields data r hI hv' hr).1,
      (inv_create_entry fuel addr relation rel fields data r hI hv' hr).2.1⟩
  | update_entry entry fields data =>
    simp only [run_call] at h
    obtain ⟨r, hr, h⟩ := bind_ok_inv h
    simp only [pure, Except.pure, Except.ok.injEq] at h
    rw [← h]
    obtain ⟨i1, i2⟩ := inv_update entry fields data r hI hr
    exact ⟨i1, insetKept_of_skel i2⟩
  | delete node =>
    simp only [run_call] at h
    obtain ⟨r, hr, h⟩ := bind_ok_inv h
    simp only [pure, Except.pure, Except.ok.injEq] at h
    rw [← h]
    obtain ⟨i1, i2⟩ := inv_delete fuel node r hI hv hr
    refine ⟨i1, ?_⟩
    intro k n n' hn hn'
    obtain ⟨y, hy, hi⟩ := i2 k n' hn'
    rw [hn] at hy
    cases hy
    exact hi
  | expand node =>
    simp only [run_call] at h
    obtain ⟨r, hr, h⟩ := bind_ok_inv h
    simp only [pure, Except.pure, Except.ok.injEq] at h
    rw [← h]
    obtain ⟨i1, i2⟩ := inv_expand fuel node r hI hr
    exact ⟨i1, insetKept_of_skel i2⟩
  | contract node =>
    simp only [run_call] at h
    obtain ⟨r, hr, h⟩ := bind_ok_inv h
    simp only [pure, Except.pure, Except.ok.injEq] at h
    rw [← h]
    obtain ⟨i1, i2⟩ := inv_contract fuel node r hI hr
    exact ⟨i1, insetKept_of_skel i2⟩
  | has_selection =>
    simp only [run_call] at h
    obtain ⟨r, hr, h⟩ := bind_ok_inv h
    simp only [pure, Except.pure, Except.ok.injEq] at h
    rw [← h]
    obtain ⟨i1, i2⟩ := inv_has_selection fuel r hI hr
    exact ⟨i1, insetKept_of_skel i2⟩
  | clear_selection =>
    simp only [run_call] at h
    obtain ⟨r, hr, h⟩ := bind_ok_inv h
    simp only [pure, Except.pure, Except.ok.injEq] at h
    rw [← h]
    obtain ⟨i1, i2⟩ := inv_clear_selection fuel r hI hr
    exact ⟨i1, insetKept_of_skel i2⟩
  | select_all =>
    simp only [run_call] at h
    obtain ⟨r, hr, h⟩ := bind_ok_inv h
    simp only [pure, Except.pure, Except.ok.injEq] at h
    rw [← h]
    obtain ⟨i1, i2⟩ := inv_selection_walk fuel _ r hI hr
    exact ⟨i1, insetKept_of_skel i2⟩
  | mouse_action mouse x y =>
    simp only [run_call] at h
    obtain ⟨i1, i2⟩ := inv_mouse_action m fuel mouse x y s' hI h
    exact ⟨i1, insetKept_of_skel i2⟩

/-- Every reachable memory satisfies the invariant. -/
theorem reach_inv {g : treeview_globals} {font_width : List Nat → Nat → Int}
    {m : browser_mouse_masks} {tree : treeview} {s : State}
    (h : Reach g font_width m tree s) : Inv g font_width tree s := by
  induction h with
  | fresh s addr n_fields fields h => exact inv_fresh g font_width tree s addr n_fields fields h
  | step s s' fuel c _ hv hrun ih => exact (inv_run_call m fuel c s' ih hv hrun).1


/-- The creation scenario on a fresh tree, for every configuration: a folder
below the root, an entry inside the folder, then the folder expanded. -/
theorem fresh_scenario_run (g : treeview_globals) (font_width : List Nat → Nat → Int)
    (tree : treeview) (s0 : State) (a0 a1 a2 : Nat) (n_fields : Int)
    (schema : List treeview_field_desc) (field : treeview_field_data)
    (fields : List treeview_field_data) (f0 : treeview_field_data) (fs : List treeview_field)
    (d1 d2 fuel : Nat)
    (hcreate : treeview_create g font_width emptyState true (some a0) n_fields schema =
      .ok (.NSERROR_OK, s0, some tree))
    (h10 : a1 ≠ a0) (h20 : a2 ≠ a0) (h21 : a2 ≠ a1) (hd1 : d1 ≠ 0) (hd2 : d2 ≠ 0)
    (hchk : EntryChecks tree fields f0 fs) (hfuel : (tree.n_fields - 1).toNat + 3 ≤ fuel) :
    ∃ s1 s2 s3,
      treeview_create_node_folder g font_width fuel tree s0 (some a1) none
        .TREE_REL_FIRST_CHILD field d1 = .ok (.NSERROR_OK, s1, some a1) ∧
      treeview_create_node_entry g font_width fuel tree s1 (some a2) (some a1)
        .TREE_REL_FIRST_CHILD fields d2 = .ok (.NSERROR_OK, s2, some a2) ∧
      heightOf s2 tree.root = g.line_height ∧
      treeview_node_expand g font_width fuel tree s2 a1 = .ok (.NSERROR_OK, s3) ∧
      heightOf s3 tree.root = 2 * g.line_height ∧ heightOf s3 a1 = 2 * g.line_height := by
  simp only [treeview_create, bind, Except.bind, pure, Except.pure, c_assert] at hcreate
  split at hcreate
  · simp at hcreate
  split at hcreate
  · simp at hcreate
  split at hcreate
  · simp at hcreate
  split at hcreate
  · simp at hcreate
  split at hcreate
  · simp at hcreate
  simp only [not_true_eq_false, if_false, treeview_create_node_root, emptyState,
    Except.ok.injEq, Prod.mk.injEq, true_and, Option.some.injEq] at hcreate
  obtain ⟨hs, ht⟩ := hcreate
  obtain ⟨R, hR, hRe, hRp, hRh, hRt, hRc, hnone⟩ : ∃ R, s0.heap a0 = some R ∧
      R.expanded = true ∧ R.parent = none ∧ R.height = 0 ∧ R.type = .TREE_NODE_ROOT ∧
      R.children = none ∧ ∀ k, k ≠ a0 → s0.heap k = none := by
    rw [← hs]
    refine ⟨_, store_heap_same _ _ _, rfl, rfl, rfl, rfl, rfl, ?_⟩
    intro k hk
    rw [store_heap, if_neg hk]
  have hroot : tree.root = a0 := by rw [← ht]
  have hchk' := hchk
  obtain ⟨hf0, hf0a, hf0b, hfs⟩ := hchk'
  -- the folder below the root
  obtain ⟨s1, hi1, ⟨F1, hF1, hF1p, hF1e, hF1h, hF1c, hF1t, _⟩, hold1, hnone1, _⟩ :=
    insert_fresh_desc g font_width s0 a1 a0 a0 .TREE_REL_FIRST_CHILD (new_folder g field d1) R R
      fuel rfl (hnone a1 h10) hR hR rfl
      (fun _ => ⟨by rw [hRt]; decide, fun x hx => by rw [hRc] at hx; cases hx⟩)
      (fun h => by cases h) (Or.inr hRp) (by omega)
  have hrun1 : treeview_create_node_folder g font_width fuel tree s0 (some a1) none
      .TREE_REL_FIRST_CHILD field d1 = .ok (.NSERROR_OK, s1, some a1) := by
    simp only [treeview_create_node_folder, c_assert, hd1, load, hroot, hR, bind, Except.bind,
      hnone a1 h10, insert_target, hi1, pure, Except.pure, ne_eq, not_false_eq_true,
      decide_True, if_true]
  obtain ⟨R1, hR1, hR1e, hR1t, hR1p, _, hR1h, _⟩ := hold1 a0 R hR
  rw [if_pos ⟨rfl, hRe⟩, hRh] at hR1h
  have hF1h' : F1.height = g.line_height := hF1h
  have hF1e' : F1.expanded = false := hF1e
  have hF1t' : F1.type = .TREE_NODE_FOLDER := hF1t
  have hF1c' : F1.children = none := hF1c
  have hfresh2 : s1.heap a2 = none := hnone1 a2 h21 (hnone a2 h20)
  -- the entry inside the folder
  obtain ⟨s2, hi2, ⟨E2, hE2, hE2p, hE2e, hE2h, _, _, _⟩, hold2, _, _⟩ :=
    insert_fresh_desc g font_width s1 a2 a1 a1 .TREE_REL_FIRST_CHILD (new_entry g f0 fs d2) F1
      F1 fuel rfl hfresh2 hF1 hF1 rfl
      (fun _ => ⟨by rw [hF1t']; decide, fun x hx => by rw [hF1c'] at hx; cases hx⟩)
      (fun h => by cases h) (Or.inl hF1e') (by omega)
  have hpath1 : AncPath s1 a1 [a0] := by
    simp only [AncPath, hF1, hR1]
    exact ⟨hF1p, hR1p.trans hRp⟩
  obtain ⟨s2', hi2', _, hpl⟩ := insert_fresh_placed g font_width s1 a2 a1 .TREE_REL_FIRST_CHILD
    (new_entry g f0 fs d2) F1 [] [] [] [a0] fuel rfl hfresh2 hF1 hpath1
    (fun _ => ⟨by rw [hF1t']; decide, by rw [hF1c']; rfl, by simp⟩)
    (fun h => by cases h) (by simp; omega)
  rw [hi2] at hi2'
  cases hi2'
  have hrun2 : treeview_create_node_entry g font_width fuel tree s1 (some a2) (some a1)
      .TREE_REL_FIRST_CHILD fields d2 = .ok (.NSERROR_OK, s2, some a2) := by
    simp only [treeview_create_node_entry, c_assert, hd2, load, hroot, hR1, bind, Except.bind,
      hfresh2, insert_target, hi2, pure, Except.pure, hf0, hf0a, hf0b, hfs, ne_eq,
      not_false_eq_true, decide_True, if_true]
  obtain ⟨R2, hR2, hR2e, _, hR2p, _, hR2h, _⟩ := hold2 a0 R1 hR1
  rw [if_neg (fun h => h10 h.1.symm)] at hR2h
  obtain ⟨F2, hF2, hF2e, hF2t, hF2p, _, hF2h, _⟩ := hold2 a1 F1 hF1
  rw [if_neg (fun h => by rw [hF1e'] at h; cases h.2)] at hF2h
  simp only [Placed, parentOf, childrenOf, hF2] at hpl
  have hE2h' : E2.height = g.line_height := hE2h
  have hE2e' : E2.expanded = false := hE2e
  -- the folder expanded
  obtain ⟨s3, hrun3, _, hdesc⟩ := expand_core g font_width tree s2 a1 F2 [a0] [a2] fuel hF2
    (hF2e.trans hF1e') (by
      simp only [AncPath, hF2, hR2]
      exact ⟨hF2p.trans hF1p, hR2p.trans (hR1p.trans hRp)⟩) (by simp) hpl.2
    (Or.inl ⟨hF2t.trans hF1t', by simp, by
      intro k hk x hx
      simp only [List.mem_singleton] at hk
      subst hk
      rw [hE2] at hx
      cases hx
      exact hE2e'⟩) (by simp; omega)
  have hamount : expand_amount g tree s2 F2 [a2] = g.line_height := by
    simp [expand_amount, hF2t.trans hF1t', heightOf, hE2, hE2h']
  have hh := expand_desc_height hdesc (by
    intro a ha
    simp only [List.mem_cons, List.mem_singleton, List.not_mem_nil, or_false] at ha
    rcases ha with rfl | rfl
    · rw [hF2]; simp
    · rw [hR2]; simp)
  refine ⟨s1, s2, s3, hrun1, hrun2, ?_, hrun3, ?_, ?_⟩
  · rw [hroot]
    simp only [heightOf, hR2]
    rw [hR2h, hR1h]
    simp [new_folder]
  · rw [hroot, hh a0, hamount]
    simp only [heightOf, hR2]
    rw [hR2h, hR1h, if_pos (by simp)]
    simp only [new_folder]
    ring
  · rw [hh a1, hamount]
    simp only [heightOf, hF2, List.mem_cons, true_or, if_true]
    rw [hF2h, hF1h']
    ring


theorem rep_ancPath {s : State} : ∀ (f : Forest) (q : Nat) (prev : Option Nat) (pq : List Nat),
    Rep s (some q) prev f → AncPath s q pq → ∀ a ∈ f.ids, ∃ path, AncPath s a path := by
  intro f
  induction f with
  | nil => intro _ _ _ _ _ a ha; simp [Forest.ids] at ha
  | cons id k r ihk ihr =>
    intro q prev pq hrep hq a ha
    simp only [Rep] at hrep
    simp only [Forest.ids, List.mem_cons, List.mem_append] at ha
    have hid : AncPath s id (q :: pq) := by
      cases hn : s.heap id with
      | none => rw [hn] at hrep; exact hrep.1.elim
      | some n =>
        rw [hn] at hrep
        simp only [AncPath, hn]
        exact ⟨hrep.1.1, hq⟩
    rcases ha with rfl | ha | ha
    · exact ⟨_, hid⟩
    · exact ihk id none _ hrep.2.1 hid a ha
    · exact ihr q _ pq hrep.2.2 hq a ha

theorem inv_inset_depth {g : treeview_globals} {font_width : List Nat → Nat → Int}
    {tree : treeview} {s : State} (hI : Inv g font_width tree s) :
    ∀ (path : List Nat) (a : Nat) (n : treeview_node), s.heap a = some n → AncPath s a path →
    n.inset = g.window_padding + ((path.length : Int) - 1) * g.step_width := by
  obtain ⟨rr, hrr, _, hrp, _, _, _, _, hri⟩ := hI.root
  intro path
  induction path with
  | nil =>
    intro a n hn hp
    simp only [AncPath, hn] at hp
    have har : a = tree.root := by
      by_contra hne
      obtain ⟨_, p, np, hpp, _⟩ := hI.node a n hn hne
      rw [hp] at hpp
      cases hpp
    subst har
    rw [hrr] at hn
    cases hn
    rw [hri]
    simp only [List.length_nil, Nat.cast_zero]
    ring
  | cons p ps ih =>
    intro a n hn hp
    simp only [AncPath, hn] at hp
    have har : a ≠ tree.root := by
      intro e
      rw [e, hrr] at hn
      cases hn
      rw [hrp] at hp
      cases hp.1
    obtain ⟨_, q, nq, hq, hnq, _, hin⟩ := hI.node a n hn har
    rw [hp.1] at hq
    cases hq
    rw [hin, ih p nq hnq hp.2]
    simp only [List.length_cons, Nat.cast_add, Nat.cast_one]
    ring

theorem inv_paths {g : treeview_globals} {font_width : List Nat → Nat → Int}
    {tree : treeview} {s : State} (hI : Inv g font_width tree s) (a : Nat) (n : treeview_node)
    (hn : s.heap a = some n) : ∃ path, AncPath s a path := by
  obtain ⟨F, hsub, _, hall⟩ := hI.shape
  obtain ⟨rr, hrr, _, hrp, _⟩ := hI.root
  have hroot : AncPath s tree.root [] := by
    simp only [AncPath, hrr]
    exact hrp
  rcases hall a (by rw [hn]; simp) with h | h
  · exact ⟨[], h ▸ hroot⟩
  · exact rep_ancPath F tree.root none [] hsub.2.1 hroot a h

/-- The memory `exFour` is reachable: the tree created, the folder 1 created
below the root, the entry 2 created inside it, then both expanded. -/
theorem exFour_reach : Reach exG exFont exMasks exTree exFour := by
  have h0 : Reach exG exFont exMasks exTree exFresh := Reach.fresh exFresh 0 3 exSchema rfl
  have h1 : Reach exG exFont exMasks exTree exOne :=
    Reach.step exFresh exOne 5 (.create_folder (some 1) none .TREE_REL_FIRST_CHILD exField 101)
      h0 trivial rfl
  have h2 : Reach exG exFont exMasks exTree exTwo :=
    Reach.step exOne exTwo 5 (.create_entry (some 2) (some 1) .TREE_REL_FIRST_CHILD exFields 102)
      h1 (by
        obtain ⟨n, hn, _⟩ : ∃ n, exOne.heap 1 = some n ∧ n.expanded = false :=
          heap_expanded_of_obs (by decide)
        show exOne.heap 1 ≠ none
        rw [hn]
        simp) rfl
  have h3 : Reach exG exFont exMasks exTree exThree :=
    Reach.step exTwo exThree 5 (.expand 1) h2 trivial rfl
  exact Reach.step exThree exFour 5 (.expand 2) h3 trivial rfl

/-- C26 (entry height invariant).  In every memory reached from a freshly
created tree by valid create, update, delete, expand, contract, selection and
pointer calls that return, every entry has `tree.n_fields - 1` secondary
slots, and its height is `line_height` while it is collapsed and
`line_height * (1 + number of secondary slots)` while it is expanded. -/
theorem entry_height_invariant (g : treeview_globals) (font_width : List Nat → Nat → Int)
    (m : browser_mouse_masks) (tree : treeview) (s : State)
    (h : Reach g font_width m tree s) (a : Nat) (n : treeview_node)
    (hn : s.heap a = some n) (hty : n.type = .TREE_NODE_ENTRY) :
    (n.fields.length : Int) = tree.n_fields - 1 ∧
      n.height = if n.expanded then g.line_height * (1 + (n.fields.length : Int))
        else g.line_height := by
  have hI := reach_inv h
  obtain ⟨h1, h2⟩ := hI.entry a n hn hty
  have hnf := hI.nf
  have hlen : (n.fields.length : Int) = tree.n_fields - 1 := by
    rw [h1]
    omega
  exact ⟨hlen, by rw [hlen]; exact h2⟩

/-- An instance of the C26 theorem: the expanded entry 2 of `exFour`, with one
secondary slot and rows of height 20, has height 40. -/
theorem entry_height_invariant_witness :
    ∃ n, exFour.heap 2 = some n ∧ n.type = .TREE_NODE_ENTRY ∧ n.expanded = true ∧
      (n.fields.length : Int) = exTree.n_fields - 1 ∧ n.height = 20 * (1 + 1) := by
  have h := entry_height_invariant exG exFont exMasks exTree exFour exFour_reach 2
    { expanded := true, selected := false, type := .TREE_NODE_ENTRY, height := 40,
      inset := 16, parent := some 1, sibling_prev := none, sibling_next := none,
      children := none, client_data := 102,
      text := { flags := { dflt := false, show_name := false }, field := none,
                value := { data := [102, 105, 108, 101], len := 4, width := 28 } },
      fields := [{ flags := { dflt := false, show_name := false }, field := none,
                   value := { data := [49, 48], len := 2, width := 14 } }] }
    (by decide) rfl
  exact ⟨_, by decide, rfl, rfl, h.1, by decide⟩

/-- C28 (inset invariant).  In every reachable memory the root has the inset
`window_padding - step_width`; every other node has a parent in memory and the
inset of its parent plus `step_width`; every node has a chain of ancestors up
to the root, and with `d` ancestors its inset is
`window_padding + (d - 1) * step_width`; and a valid call that returns leaves
the inset of every node that was and still is in memory as it was (only the
node an insertion adds gets an inset). -/
theorem inset_invariant (g : treeview_globals) (font_width : List Nat → Nat → Int)
    (m : browser_mouse_masks) (tree : treeview) (s : State)
    (h : Reach g font_width m tree s) :
    (∃ r, s.heap tree.root = some r ∧ r.inset = g.window_padding - g.step_width) ∧
    (∀ a n, s.heap a = some n → a ≠ tree.root →
      ∃ p np, n.parent = some p ∧ s.heap p = some np ∧ n.inset = np.inset + g.step_width) ∧
    (∀ a n, s.heap a = some n → ∃ path, AncPath s a path) ∧
    (∀ a n path, s.heap a = some n → AncPath s a path →
      n.inset = g.window_padding + ((path.length : Int) - 1) * g.step_width) ∧
    (∀ fuel c s', Call.valid tree s c → run_call g font_width m fuel tree s c = .ok s' →
      ∀ k n n', s.heap k = some n → s'.heap k = some n' → n'.inset = n.inset) := by
  have hI := reach_inv h
  refine ⟨?_, ?_, inv_paths hI, fun a n path hn hp => inv_inset_depth hI path a n hn hp, ?_⟩
  · obtain ⟨r, hr, _, _, _, _, _, _, hri⟩ := hI.root
    exact ⟨r, hr, hri⟩
  · intro a n hn har
    obtain ⟨_, p, np, hp, hnp, _, hin⟩ := hI.node a n hn har
    exact ⟨p, np, hp, hnp, hin⟩
  · intro fuel c s' hv hrun
    exact (inv_run_call m fuel c s' hI hv hrun).2

/-- An instance of the C28 theorem: in `exFour` (window padding 6, step 10) the
entry 2, two levels below the root, has the inset 16. -/
theorem inset_invariant_witness :
    AncPath exFour 2 [1, 0] ∧ ∃ n, exFour.heap 2 = some n ∧ n.inset = 6 + (2 - 1) * 10 := by
  have h := (inset_invariant exG exFont exMasks exTree exFour exFour_reach).2.2.2.1 2
    { expanded := true, selected := false, type := .TREE_NODE_ENTRY, height := 40,
      inset := 16, parent := some 1, sibling_prev := none, sibling_next := none,
      children := none, client_data := 102,
      text := { flags := { dflt := false, show_name := false }, field := none,
                value := { data := [102, 105, 108, 101], len := 4, width := 28 } },
      fields := [{ flags := { dflt := false, show_name := false }, field := none,
                   value := { data := [49, 48], len := 2, width := 14 } }] }
    [1, 0] (by decide) (by decide)
  exact ⟨by decide, _, by decide, h⟩

/-- C29 (root invariant).  In every memory reached from `treeview_create` by
valid create, update, delete (not of the root), expand, contract, selection
and pointer calls that return, the root of the tree is in memory, is of kind
root, has no parent and no siblings, is expanded and is not selected; and it
is the only node of kind root. -/
theorem root_invariant (g : treeview_globals) (font_width : List Nat → Nat → Int)
    (m : browser_mouse_masks) (tree : treeview) (s : State)
    (h : Reach g font_width m tree s) :
    (∃ r, s.heap tree.root = some r ∧ r.type = .TREE_NODE_ROOT ∧ r.parent = none ∧
      r.sibling_prev = none ∧ r.sibling_next = none ∧ r.expanded = true ∧
      r.selected = false) ∧
    ∀ a n, s.heap a = some n → n.type = .TREE_NODE_ROOT → a = tree.root := by
  have hI := reach_inv h
  refine ⟨?_, ?_⟩
  · obtain ⟨r, hr, h1, h2, h3, h4, h5, h6, _⟩ := hI.root
    exact ⟨r, hr, h1, h2, h3, h4, h5, h6⟩
  · intro a n hn hty
    by_contra hne
    exact (hI.node a n hn hne).1 hty

/-- An instance of the C29 theorem: the root of `exFour` is the node 0, and it
is expanded. -/
theorem root_invariant_witness :
    exTree.root = 0 ∧ ∃ r, exFour.heap exTree.root = some r ∧ r.type = .TREE_NODE_ROOT ∧
      r.parent = none ∧ r.sibling_prev = none ∧ r.sibling_next = none ∧ r.expanded = true ∧
      r.selected = false :=
  ⟨by decide, (root_invariant exG exFont exMasks exTree exFour exFour_reach).1⟩

/-- C30 (width cache invariant).  With `font_width` the measurement of a text,
in every reachable memory and for every node: the cached width of its primary
text and of each of its secondary fields is 0 or the measurement of the text
stored with it; if its parent is expanded, the width of its primary text is
the measurement of that text; and if it is an expanded entry, the width of
each of its secondary fields is the measurement of that field's text. -/
theorem width_cache_invariant (g : treeview_globals) (font_width : List Nat → Nat → Int)
    (m : browser_mouse_masks) (tree : treeview) (s : State)
    (h : Reach g font_width m tree s) (a : Nat) (n : treeview_node)
    (hn : s.heap a = some n) :
    (n.text.value.width = 0 ∨
      n.text.value.width = font_width n.text.value.data n.text.value.len) ∧
    (∀ f ∈ n.fields, f.value.width = 0 ∨
      f.value.width = font_width f.value.data f.value.len) ∧
    (∀ p np, n.parent = some p → s.heap p = some np → np.expanded = true →
      n.text.value.width = font_width n.text.value.data n.text.value.len) ∧
    (n.type = .TREE_NODE_ENTRY → n.expanded = true →
      ∀ f ∈ n.fields, f.value.width = font_width f.value.data f.value.len) :=
  (reach_inv h).width a n hn

/-- An instance of the C30 theorem: in `exFour`, measured at 7 pixels per
byte, the expanded entry 2 below the expanded folder 1 has its four-byte
title cached at 28 and its two-byte field at 14. -/
theorem width_cache_invariant_witness :
    ∃ n, exFour.heap 2 = some n ∧ n.text.value.width = exFont n.text.value.data 4 ∧
      ∀ f ∈ n.fields, f.value.width = exFont f.value.data f.value.len := by
  have h := width_cache_invariant exG exFont exMasks exTree exFour exFour_reach 2
    { expanded := true, selected := false, type := .TREE_NODE_ENTRY, height := 40,
      inset := 16, parent := some 1, sibling_prev := none, sibling_next := none,
      children := none, client_data := 102,
      text := { flags := { dflt := false, show_name := false }, field := none,
                value := { data := [102, 105, 108, 101], len := 4, width := 28 } },
      fields := [{ flags := { dflt := false, show_name := false }, field := none,
                   value := { data := [49, 48], len := 2, width := 14 } }] }
    (by decide)
  exact ⟨_, by decide, by decide, h.2.2.2 rfl rfl⟩

/-- C25 (creation scenario).  In a reachable memory, a node that
`treeview_create_node_folder` or `treeview_create_node_entry` returns (called
with a relation that is in memory) is collapsed, not selected, and has the
height of one row.  And on a tree fresh from `treeview_create`, with enough
fuel: creating a folder below the root and then an entry as first child of
that folder (its field checks passing) returns `NSERROR_OK` twice and leaves
the root with the height `line_height`; expanding the folder then returns
`NSERROR_OK` and leaves the root and the folder with the height
`2 * line_height`. -/
theorem creation_scenario (g : treeview_globals) (font_width : List Nat → Nat → Int)
    (m : browser_mouse_masks) (tree : treeview) (s0 : State) (a0 a1 a2 : Nat)
    (n_fields : Int) (schema : List treeview_field_desc) (field : treeview_field_data)
    (fields : List treeview_field_data) (f0 : treeview_field_data) (fs : List treeview_field)
    (d1 d2 fuel : Nat)
    (hcreate : treeview_create g font_width emptyState true (some a0) n_fields schema =
      .ok (.NSERROR_OK, s0, some tree))
    (h10 : a1 ≠ a0) (h20 : a2 ≠ a0) (h21 : a2 ≠ a1) (hd1 : d1 ≠ 0) (hd2 : d2 ≠ 0)
    (hchk : EntryChecks tree fields f0 fs) (hfuel : (tree.n_fields - 1).toNat + 3 ≤ fuel) :
    (∀ s, Reach g font_width m tree s → ∀ fl addr relation rel fd data err s' a,
      (∀ b, relation = some b → s.heap b ≠ none) →
      treeview_create_node_folder g font_width fl tree s addr relation rel fd data =
        .ok (err, s', some a) →
      ∃ na, s'.heap a = some na ∧ na.expanded = false ∧ na.selected = false ∧
        na.height = g.line_height) ∧
    (∀ s, Reach g font_width m tree s → ∀ fl addr relation rel fds data err s' a,
      (∀ b, relation = some b → s.heap b ≠ none) →
      treeview_create_node_entry g font_width fl tree s addr relation rel fds data =
        .ok (err, s', some a) →
      ∃ na, s'.heap a = some na ∧ na.expanded = false ∧ na.selected = false ∧
        na.height = g.line_height) ∧
    ∃ s1 s2 s3,
      treeview_create_node_folder g font_width fuel tree s0 (some a1) none
        .TREE_REL_FIRST_CHILD field d1 = .ok (.NSERROR_OK, s1, some a1) ∧
      treeview_create_node_entry g font_width fuel tree s1 (some a2) (some a1)
        .TREE_REL_FIRST_CHILD fields d2 = .ok (.NSERROR_OK, s2, some a2) ∧
      heightOf s2 tree.root = g.line_height ∧
      treeview_node_expand g font_width fuel tree s2 a1 = .ok (.NSERROR_OK, s3) ∧
      heightOf s3 tree.root = 2 * g.line_height ∧ heightOf s3 a1 = 2 * g.line_height := by
  refine ⟨?_, ?_, fresh_scenario_run g font_width tree s0 a0 a1 a2 n_fields schema field
    fields f0 fs d1 d2 fuel hcreate h10 h20 h21 hd1 hd2 hchk hfuel⟩
  · intro s hs fl addr relation rel fd data err s' a hv hrun
    exact (inv_create_folder fl addr relation rel fd data _ (reach_inv hs) hv hrun).2.2 a rfl
  · intro s hs fl addr relation rel fds data err s' a hv hrun
    exact (inv_create_entry fl addr relation rel fds data _ (reach_inv hs) hv hrun).2.2 a rfl

/-- An instance of the C25 theorem: the tree of the examples (rows of height
20), the folder at 1 and the entry at 2; the memories are `exOne`, `exTwo` and
`exThree`, where the root and the folder have the height 40. -/
theorem creation_scenario_witness :
    (∃ s1 s2 s3,
      treeview_create_node_folder exG exFont 5 exTree exFresh (some 1) none
        .TREE_REL_FIRST_CHILD exField 101 = .ok (.NSERROR_OK, s1, some 1) ∧
      treeview_create_node_entry exG exFont 5 exTree s1 (some 2) (some 1)
        .TREE_REL_FIRST_CHILD exFields 102 = .ok (.NSERROR_OK, s2, some 2) ∧
      heightOf s2 exTree.root = exG.line_height ∧
      treeview_node_expand exG exFont 5 exTree s2 1 = .ok (.NSERROR_OK, s3) ∧
      heightOf s3 exTree.root = 2 * exG.line_height ∧ heightOf s3 1 = 2 * exG.line_height) ∧
    observe (.ok exTwo) 0 = some (20, true) ∧ observe (.ok exThree) 0 = some (40, true) ∧
    observe (.ok exThree) 1 = some (40, true) :=
  ⟨(creation_scenario exG exFont exMasks exTree exFresh 0 1 2 3 exSchema exField exFields
    { field := some [1], value := [102, 105, 108, 101], value_len := 4 }
    [{ flags := { dflt := false, show_name := false }, field := none,
       value := { data := [49, 48], len := 2, width := 0 } }]
    101 102 5 rfl (by decide) (by decide) (by decide) (by decide) (by decide)
    ⟨rfl, by decide, by decide, rfl⟩ (by decide)).2.2, by decide, by decide, by decide⟩


/-! ## Deletion leaves the heights alone -/

theorem unlinked_keeps {s : State} {n : Nat} {nn : treeview_node} {dead : List Nat} {a : Nat}
    {x : treeview_node} (ha : a ≠ n) (hd : a ∉ dead) (hx : s.heap a = some x) :
    ∃ x', unlinked s n nn dead a = some x' ∧ x'.height = x.height ∧ x'.inset = x.inset ∧
      x'.expanded = x.expanded ∧ x'.selected = x.selected := by
  unfold unlinked
  rw [if_neg (by rintro (h | h); exact ha h; exact hd h), hx]
  simp only [Option.map_some']
  split
  · exact ⟨_, rfl, rfl, rfl, rfl, rfl⟩
  · split
    · exact ⟨_, rfl, rfl, rfl, rfl, rfl⟩
    · split
      · exact ⟨_, rfl, rfl, rfl, rfl, rfl⟩
      · exact ⟨_, rfl, rfl, rfl, rfl, rfl⟩

/-- C33 (delete does no height re-accounting).  On a tree whose root holds the
shape `f` (its nodes distinct), `treeview_delete_node (tree, n)` on a node `n`
of `f` returns `NSERROR_OK` for every fuel from `2 * (f.sub n).size + 2` on,
and every node in memory other than `n` and its descendants is still there
with the height, the inset, the expanded flag and the selected flag it had.
The parent of `n` and the root of the tree are such nodes: their heights are
what they were, although the rows of `n` are gone. -/
theorem delete_keeps_heights (tree : treeview) (s : State) (f : Forest) (n : Nat)
    (fuel : Nat) (hsub : SubtreeAt s tree.root f) (hnd : f.ids.Nodup) (hn : n ∈ f.ids)
    (hfuel : 2 * (f.sub n).size + 2 ≤ fuel) :
    ∃ s', treeview_delete_node fuel tree s n = .ok (.NSERROR_OK, s') ∧
      (∀ a x, a ≠ n → a ∉ (f.sub n).ids → s.heap a = some x →
        ∃ x', s'.heap a = some x' ∧ x'.height = x.height ∧ x'.inset = x.inset ∧
          x'.expanded = x.expanded ∧ x'.selected = x.selected) ∧
      (∃ p np np', parentOf s n = some p ∧ s.heap p = some np ∧ s'.heap p = some np' ∧
        np'.height = np.height) ∧
      (∃ nr nr', s.heap tree.root = some nr ∧ s'.heap tree.root = some nr' ∧
        nr'.height = nr.height) := by
  obtain ⟨s', nn, hrun, hnn, _, hheap, _, _⟩ := delete_shape tree s f n fuel hsub hnd hn hfuel
  obtain ⟨hroot, hrep, hrf⟩ := hsub
  have hall : ∀ a x, a ≠ n → a ∉ (f.sub n).ids → s.heap a = some x →
      ∃ x', s'.heap a = some x' ∧ x'.height = x.height ∧ x'.inset = x.inset ∧
        x'.expanded = x.expanded ∧ x'.selected = x.selected := by
    intro a x ha hd hx
    rw [hheap a]
    exact unlinked_keeps ha hd hx
  cases hnr : s.heap tree.root with
  | none => simp [hnr] at hroot
  | some nr =>
    simp only [hnr] at hroot
    obtain ⟨nn2, y, ny, hnn2, _, _, hpar, hy, hyn, hyK, _, _, _⟩ :=
      rep_local s n f tree.root none nr hrep hrf hnd (fun v hv => by simp at hv) hnr
        (fun _ => hroot) (fun h => absurd rfl h) hn
    refine ⟨s', hrun, hall, ?_, ?_⟩
    · obtain ⟨x', h1, h2, _⟩ := hall y ny hyn hyK hy
      refine ⟨y, ny, x', ?_, hy, h1, h2⟩
      simp [parentOf, hnn2, hpar]
    · obtain ⟨x', h1, h2, _⟩ := hall tree.root nr (fun e => hrf (e ▸ hn))
        (fun h => hrf (sub_ids_subset n f _ h)) hnr
      exact ⟨nr, x', rfl, h1, h2⟩
theorem delete_keeps_heights_witness :
    ∃ s', treeview_delete_node 14 ⟨0, [], 1, 0⟩ exState 3 = .ok (.NSERROR_OK, s') ∧
      (∃ x', s'.heap 1 = some x' ∧ x'.height = 60 ∧ x'.expanded = true) ∧
      (∃ x', s'.heap 0 = some x' ∧ x'.height = 80) := by
  obtain ⟨s', h1, h2, _, _⟩ := delete_keeps_heights ⟨0, [], 1, 0⟩ exState exForest 3 14
    (by decide) (by decide) (by decide) (by decide)
  obtain ⟨x1, a1, a2, _, a3, _⟩ := h2 1
    (mkNode .TREE_NODE_FOLDER true 60 (some 0) none (some 4) (some 2) 11)
    (by decide) (by decide) rfl
  obtain ⟨x0, b1, b2, _⟩ := h2 0 (mkNode .TREE_NODE_ROOT true 80 none none none (some 1) 0)
    (by decide) (by decide) rfl
  exact ⟨s', h1, ⟨x1, a1, a2, a3⟩, ⟨x0, b1, b2⟩⟩

/-! ## Mixing two colours -/

theorem land_ff00ff (x : Nat) : x &&& 0xff00ff = 65536 * (x / 65536 % 256) + x % 256 := by
  apply Nat.eq_of_testBit_eq
  intro i
  have h16 : (65536 : Nat) = 2 ^ 16 := by norm_num
  have h8 : (256 : Nat) = 2 ^ 8 := by norm_num
  rw [Nat.testBit_and]
  conv_rhs => rw [h16, h8]
  rw [Nat.testBit_mul_pow_two_add _ (lt_of_lt_of_le (Nat.mod_lt _ (by norm_num)) (by norm_num))]
  simp only [Nat.testBit_mod_two_pow, ← Nat.shiftRight_eq_div_pow, Nat.testBit_shiftRight]
  by_cases h : i < 24
  · interval_cases i <;> simp [Nat.testBit, Nat.shiftRight_eq_div_pow]
  · have : Nat.testBit 0xff00ff i = false :=
      Nat.testBit_lt_two_pow (lt_of_lt_of_le (by norm_num : 0xff00ff < 2 ^ 24)
        (Nat.pow_le_pow_right (by norm_num) (by omega)))
    rw [this]
    have h1 : ¬ i < 16 := by omega
    have h2 : ¬ i - 16 < 8 := by omega
    simp [h1, h2]

theorem land_00ff00 (x : Nat) : x &&& 0x00ff00 = 256 * (x / 256 % 256) := by
  apply Nat.eq_of_testBit_eq
  intro i
  have h8 : (256 : Nat) = 2 ^ 8 := by norm_num
  rw [Nat.testBit_and]
  conv_rhs => rw [h8]
  have := Nat.testBit_mul_pow_two_add (x / 2 ^ 8 % 2 ^ 8) (by norm_num : 0 < 2 ^ 8) i
  rw [Nat.add_zero] at this
  rw [this]
  simp only [Nat.testBit_mod_two_pow, ← Nat.shiftRight_eq_div_pow, Nat.testBit_shiftRight]
  by_cases h : i < 16
  · interval_cases i <;> simp [Nat.testBit, Nat.shiftRight_eq_div_pow]
  · have : Nat.testBit 0x00ff00 i = false :=
      Nat.testBit_lt_two_pow (lt_of_lt_of_le (by norm_num : 0x00ff00 < 2 ^ 16)
        (Nat.pow_le_pow_right (by norm_num) (by omega)))
    rw [this]
    have h1 : ¬ i < 8 := by omega
    have h2 : ¬ i - 8 < 8 := by omega
    simp [h1, h2]

theorem lor_channels (a b c : Nat) (ha : a < 256) (hb : b < 256) :
    (65536 * c + a) ||| (256 * b) = a + 256 * b + 65536 * c := by
  apply Nat.eq_of_testBit_eq
  intro i
  have e1 : a + 256 * b + 65536 * c = 2 ^ 16 * c + (2 ^ 8 * b + a) := by ring
  have e2 : (65536 : Nat) * c + a = 2 ^ 16 * c + a := by ring
  have e3 : (256 : Nat) * b = 2 ^ 8 * b + 0 := by ring
  rw [Nat.testBit_or, e1, e2, e3,
    Nat.testBit_mul_pow_two_add _ (by omega : 2 ^ 8 * b + a < 2 ^ 16),
    Nat.testBit_mul_pow_two_add _ (by omega : a < 2 ^ 16),
    Nat.testBit_mul_pow_two_add _ (by omega : a < 2 ^ 8),
    Nat.testBit_mul_pow_two_add _ (by norm_num : 0 < 2 ^ 8)]
  by_cases h8 : i < 8
  · have h16 : i < 16 := by omega
    simp [h8, h16]
  · by_cases h16 : i < 16
    · have : a.testBit i = false :=
        Nat.testBit_lt_two_pow (lt_of_lt_of_le (by omega : a < 2 ^ 8)
          (Nat.pow_le_pow_right (by norm_num) (by omega)))
      simp [h8, h16, this]
    · have : b.testBit (i - 8) = false :=
        Nat.testBit_lt_two_pow (lt_of_lt_of_le (by omega : b < 2 ^ 8)
          (Nat.pow_le_pow_right (by norm_num) (by omega)))
      simp [h8, h16, this]

theorem dim_channel (v : Nat) (hv : v < 256) : 255 * v / 256 = v - 1 := by omega

theorem dim_red_blue (b r : Nat) (hb : b < 256) (hr : r < 256) :
    (65536 * b + r) * 255 % 2 ^ 32 % 2 ^ 32 / 2 ^ 8 / 65536 % 256 = b - 1 ∧
    (65536 * b + r) * 255 % 2 ^ 32 % 2 ^ 32 / 2 ^ 8 % 256 = r - 1 := by
  have h : (65536 * b + r) * 255 < 2 ^ 32 := by omega
  rw [Nat.mod_mod, Nat.mod_eq_of_lt h]
  have e : (65536 * b + r) * 255 / 2 ^ 8 = 65280 * b + (r - 1) := by omega
  rw [e]
  clear e h
  constructor
  · rcases Nat.eq_zero_or_pos b with h0 | h0
    · subst h0
      omega
    · have : (65280 * b + (r - 1)) / 65536 = b - 1 :=
        Nat.div_eq_of_lt_le (by omega) (by omega)
      rw [this]
      omega
  · omega

theorem dim_green (g : Nat) (hg : g < 256) :
    256 * g * 255 % 2 ^ 32 % 2 ^ 32 / 2 ^ 8 / 256 % 256 = g - 1 := by
  have h : 256 * g * 255 < 2 ^ 32 := by omega
  rw [Nat.mod_mod, Nat.mod_eq_of_lt h]
  have e : 256 * g * 255 / 2 ^ 8 = 255 * g := by omega
  rw [e, dim_channel g hg]
  omega

/-- The macro at `p = 0`: the colour `c1`, each channel one step darker; `c0`
plays no part. -/
theorem mix_colour_zero (c0 c1 : Nat) : mix_colour c0 c1 0 = darker c1 := by
  unfold mix_colour darker colour_channel
  simp only [land_ff00ff, land_00ff00, Nat.shiftRight_eq_div_pow]
  have e0 : ((255 - (0 : Int)) % 2 ^ 32).toNat = 255 := by decide
  have e1 : ((0 : Int) % 2 ^ 32).toNat = 0 := by decide
  rw [e0, e1]
  simp only [Nat.mul_zero, Nat.zero_mod, Nat.add_zero, Nat.pow_zero, Nat.div_one, Nat.pow_one]
  have hr : c1 % 256 < 256 := Nat.mod_lt _ (by norm_num)
  have hg : c1 / 256 % 256 < 256 := Nat.mod_lt _ (by norm_num)
  have hb : c1 / 65536 % 256 < 256 := Nat.mod_lt _ (by norm_num)
  have hb2 : c1 / 256 ^ 2 % 256 = c1 / 65536 % 256 := by norm_num
  rw [hb2]
  generalize c1 % 256 = r at hr ⊢
  generalize c1 / 256 % 256 = g at hg ⊢
  generalize c1 / 65536 % 256 = b at hb ⊢
  rw [(dim_red_blue b r hb hr).1, (dim_red_blue b r hb hr).2, dim_green g hg]
  exact lor_channels _ _ _ (by omega) (by omega)

/-- The macro at `p = 255`: the colour `c0`, each channel one step darker;
`c1` plays no part. -/
theorem mix_colour_full (c0 c1 : Nat) : mix_colour c0 c1 255 = darker c0 := by
  unfold mix_colour darker colour_channel
  simp only [land_ff00ff, land_00ff00, Nat.shiftRight_eq_div_pow]
  have e0 : ((255 - (255 : Int)) % 2 ^ 32).toNat = 0 := by decide
  have e1 : ((255 : Int) % 2 ^ 32).toNat = 255 := by decide
  rw [e0, e1]
  simp only [Nat.mul_zero, Nat.zero_mod, Nat.zero_add, Nat.pow_zero, Nat.div_one, Nat.pow_one]
  have hr : c0 % 256 < 256 := Nat.mod_lt _ (by norm_num)
  have hg : c0 / 256 % 256 < 256 := Nat.mod_lt _ (by norm_num)
  have hb : c0 / 65536 % 256 < 256 := Nat.mod_lt _ (by norm_num)
  have hb2 : c0 / 256 ^ 2 % 256 = c0 / 65536 % 256 := by norm_num
  rw [hb2]
  generalize c0 % 256 = r at hr ⊢
  generalize c0 / 256 % 256 = g at hg ⊢
  generalize c0 / 65536 % 256 = b at hb ⊢
  rw [(dim_red_blue b r hb hr).1, (dim_red_blue b r hb hr).2, dim_green g hg]
  exact lor_channels _ _ _ (by omega) (by omega)

/-- The macro at three inputs.  With `c0` pure red (`0x0000ff`) and `c1` pure
green (`0x00ff00`), it gives at `p = 0` the green `0x00fe00`, which is not
`c0`, and at `p = 255` the red `0x0000fe`, which is not `c1`; and with both
colours white it gives `0xfefefe` at both ends. -/
theorem mix_colour_at_endpoints :
    mix_colour 0x0000ff 0x00ff00 0 = 0x00fe00 ∧ mix_colour 0x0000ff 0x00ff00 0 ≠ 0x0000ff ∧
    mix_colour 0x0000ff 0x00ff00 255 = 0x0000fe ∧ mix_colour 0x0000ff 0x00ff00 255 ≠ 0x00ff00 ∧
    mix_colour 0xffffff 0xffffff 0 = 0xfefefe ∧ mix_colour 0xffffff 0xffffff 255 = 0xfefefe := by
  decide

/-- C36 (endpoints of `mix_colour`): what the macro computes at the two ends,
for all colours, against the comment above it.  The comment
above the macro says that `p = 0` gives `c0` and `p = 255` gives `c1`.  The
macro gives, for all colours `c0` and `c1` (24-bit or not), at `p = 0` the
colour `c1` with each of its three channels one step darker and at `p = 255`
the colour `c0` with each channel one step darker, a channel that is 0 staying
0: the weights `255 - p` and `p` are on the wrong colours, and the shift by 8
divides by 256 what was multiplied by 255.  So for 24-bit colours it returns
`c1` at `p = 0` only when `c1` is black, and `c0` at `p = 255` only when `c0`
is black. -/
theorem mix_colour_swapped_endpoints (c0 c1 : Nat) :
    mix_colour c0 c1 0 = darker c1 ∧ mix_colour c0 c1 255 = darker c0 ∧
    (c1 < 2 ^ 24 → (mix_colour c0 c1 0 = c1 ↔ c1 = 0)) ∧
    (c0 < 2 ^ 24 → (mix_colour c0 c1 255 = c0 ↔ c0 = 0)) := by
  have hd : ∀ c, c < 2 ^ 24 → (darker c = c ↔ c = 0) := by
    intro c hc
    unfold darker colour_channel
    constructor
    · intro h
      simp only [Nat.pow_zero, Nat.div_one, Nat.pow_one] at h
      have hb2 : c / 256 ^ 2 % 256 = c / 65536 % 256 := by norm_num
      rw [hb2] at h
      omega
    · intro h
      subst h
      decide
  refine ⟨mix_colour_zero c0 c1, mix_colour_full c0 c1, ?_, ?_⟩
  · intro h
    rw [mix_colour_zero]
    exact hd c1 h
  · intro h
    rw [mix_colour_full]
    exact hd c0 h
theorem mix_colour_swapped_endpoints_witness :
    mix_colour 0x102030 0x405060 0 = darker 0x405060 ∧
    mix_colour 0x102030 0x405060 255 = darker 0x102030 ∧
    (mix_colour 0x102030 0x405060 0 = 0x405060 ↔ 0x405060 = 0) ∧
    (mix_colour 0x102030 0x405060 255 = 0x102030 ↔ 0x102030 = 0) :=
  ⟨(mix_colour_swapped_endpoints 0x102030 0x405060).1,
    (mix_colour_swapped_endpoints 0x102030 0x405060).2.1,
    (mix_colour_swapped_endpoints 0x102030 0x405060).2.2.1 (by decide),
    (mix_colour_swapped_endpoints 0x102030 0x405060).2.2.2 (by decide)⟩

/-! ## The visibility invariant -/

theorem reach_run_calls {g : treeview_globals} {font_width : List Nat → Nat → Int}
    {m : browser_mouse_masks} {tree : treeview} (fuel : Nat) :
    ∀ (cs : List Call) (s s' : State), Reach g font_width m tree s →
      run_calls g font_width m fuel tree cs s = some s' → Reach g font_width m tree s' := by
  intro cs
  induction cs with
  | nil =>
    intro s s' hs h
    simp only [run_calls, Option.some.injEq] at h
    exact h ▸ hs
  | cons c cs ih =>
    intro s s' hs h
    rw [run_calls] at h
    by_cases hv : Call.valid tree s c
    · rw [if_pos hv] at h
      cases hr : run_call g font_width m fuel tree s c with
      | error e => rw [hr] at h; cases h
      | ok s1 =>
        rw [hr] at h
        exact ih s1 s' (Reach.step s s1 fuel c hs hv hr) h
    · rw [if_neg hv] at h
      cases h

theorem some_getD_of_isSome {α : Type} (o : Option α) (d : α) (h : o.isSome = true) :
    o = some (o.getD d) := by
  cases o with
  | none => cases h
  | some a => rfl

/-- C34 (visibility invariant), refuted by evaluation.  On a fresh tree the
folders 1, 2 and 3 are created one inside the other with the entry 4 inside
folder 3, the folders are expanded from the top down, each while it is
visible, and folder 1 is contracted.  Every call returns, so the memory `s` is
reachable; in it folder 2 is collapsed and its child, folder 3, is still
expanded.  Folder 1 is then expanded again (memory `t`, reachable), and
`treeview_node_expand` on the visible folder 2 fails the assertion it makes on
the children of the folder it expands. -/
theorem contract_leaves_expanded_descendant :
    ∃ s t, Reach exG exFont exMasks exTree s ∧ Reach exG exFont exMasks exTree t ∧
      (s.heap 2).map (fun n => (n.parent, n.expanded)) = some (some 1, false) ∧
      (s.heap 3).map (fun n => (n.parent, n.expanded)) = some (some 2, true) ∧
      run_call exG exFont exMasks 10 exTree s (.expand 1) = .ok t ∧
      (t.heap 1).map (fun n => (n.parent, n.expanded)) = some (some 0, true) ∧
      (t.heap 2).map (fun n => (n.parent, n.expanded)) = some (some 1, false) ∧
      (t.heap 3).map (fun n => (n.parent, n.expanded)) = some (some 2, true) ∧
      fault_of (treeview_node_expand exG exFont 10 exTree t 2) = some .assertion := by
  have hs : (run_calls exG exFont exMasks 10 exTree
      [.create_folder (some 1) none .TREE_REL_FIRST_CHILD exField 101,
       .create_folder (some 2) (some 1) .TREE_REL_FIRST_CHILD exField 102,
       .create_folder (some 3) (some 2) .TREE_REL_FIRST_CHILD exField 103,
       .create_entry (some 4) (some 3) .TREE_REL_FIRST_CHILD exFields 104,
       .expand 1, .expand 2, .expand 3, .contract 1] exFresh).isSome = true := by decide
  have h0 : Reach exG exFont exMasks exTree exFresh := Reach.fresh exFresh 0 3 exSchema rfl
  have hrs := reach_run_calls 10 _ _ _ h0 (some_getD_of_isSome _ emptyState hs)
  have ht : (run_calls exG exFont exMasks 10 exTree [.expand 1]
    ((run_calls exG exFont exMasks 10 exTree
      [.create_folder (some 1) none .TREE_REL_FIRST_CHILD exField 101,
       .create_folder (some 2) (some 1) .TREE_REL_FIRST_CHILD exField 102,
       .create_folder (some 3) (some 2) .TREE_REL_FIRST_CHILD exField 103,
       .create_entry (some 4) (some 3) .TREE_REL_FIRST_CHILD exFields 104,
       .expand 1, .expand 2, .expand 3, .contract 1] exFresh).getD emptyState)).isSome = true := by
    decide
  have hrt := reach_run_calls 10 _ _ _ hrs (some_getD_of_isSome _ emptyState ht)
  refine ⟨_, _, hrs, hrt, by decide, by decide, ?_, by decide, by decide, by decide, by decide⟩
  rfl

/-- C5 (expand adds `additional_height`), a reachable node on which it fails.
The memory `t` is reached from a fresh tree by calls that all return: the
folders 1, 2 and 3 are created one inside the other with the entry 4 inside
folder 3, the folders are expanded from the top down, folder 1 is contracted
and expanded again.  In `t` node 2 is a collapsed folder with a child (folder
3, which is expanded), all its ancestors are expanded, and
`treeview_node_expand` on it does not return: it stops at the assertion that
every child of the folder it expands is collapsed. -/
theorem expand_asserts_children_collapsed_counterexample :
    ∃ t, Reach exG exFont exMasks exTree t ∧
      (t.heap 1).map (fun n => (n.parent, n.expanded)) = some (some 0, true) ∧
      (t.heap 2).map (fun n => (n.type, n.parent, n.expanded, n.children)) =
        some (.TREE_NODE_FOLDER, some 1, false, some 3) ∧
      (t.heap 3).map (fun n => (n.parent, n.expanded)) = some (some 2, true) ∧
      fault_of (treeview_node_expand exG exFont 10 exTree t 2) = some .assertion := by
  have ht : (run_calls exG exFont exMasks 10 exTree
      [.create_folder (some 1) none .TREE_REL_FIRST_CHILD exField 101,
       .create_folder (some 2) (some 1) .TREE_REL_FIRST_CHILD exField 102,
       .create_folder (some 3) (some 2) .TREE_REL_FIRST_CHILD exField 103,
       .create_entry (some 4) (some 3) .TREE_REL_FIRST_CHILD exFields 104,
       .expand 1, .expand 2, .expand 3, .contract 1, .expand 1] exFresh).isSome = true := by
    decide
  have h0 : Reach exG exFont exMasks exTree exFresh := Reach.fresh exFresh 0 3 exSchema rfl
  have hrt := reach_run_calls 10 _ _ _ h0 (some_getD_of_isSome _ emptyState ht)
  exact ⟨_, hrt, by decide, by decide, by decide, by decide⟩

/-! ## What the selection functions leave alone -/

theorem set_selected_selectedOnly (s : State) (l : List Nat) (b : Bool) (Q : Nat → Prop)
    (hQ : ∀ a ∈ l, Q a) : SelectedOnly Q s (set_selected s l b) := by
  intro a
  refine ⟨fun h => by simp [set_selected, h], fun x hx => ?_⟩
  by_cases ha : a ∈ l
  · exact ⟨{ x with selected := b }, by simp [set_selected, hx, ha], rfl,
      fun hq => absurd (hQ a ha) hq⟩
  · exact ⟨x, by simp [set_selected, hx, ha], rfl, fun _ => rfl⟩

/-- C35 (selection operations touch only selection flags of visible nodes).
On a tree whose root holds the shape `f` (its nodes distinct), for every fuel
from `2 * f.size + 2` on: `treeview_has_selection` returns the memory it was
given; `treeview_clear_selection` and `treeview_select_all` return a memory
in which the same addresses are in use, every node has the kind, height,
inset, expanded flag, parent, sibling and child links, client data, text and
fields it had, and every node that is not a visible row (a node of `f` whose
ancestors up to the root are all expanded) has the selected flag it had. -/
theorem selection_touches_visible_flags (g : treeview_globals) (tree : treeview) (s : State)
    (f : Forest) (fuel : Nat) (hsub : SubtreeAt s tree.root f) (hnd : f.ids.Nodup)
    (hfuel : 2 * f.size + 2 ≤ fuel) :
    (∃ b, treeview_has_selection g fuel tree s = .ok (b, s)) ∧
    (∃ c s' r, treeview_clear_selection g fuel tree s = .ok (c, s', r) ∧
      SelectedOnly (VisibleRow s tree.root f) s s') ∧
    (∃ c s' r, treeview_select_all g fuel tree s = .ok (c, s', r) ∧
      SelectedOnly (VisibleRow s tree.root f) s s') := by
  refine ⟨⟨_, has_selection_run g tree s f fuel hsub hfuel⟩, ?_, ?_⟩
  · obtain ⟨r, hrun, _⟩ := selection_walk_ok g tree s f fuel false hsub hnd hfuel
    exact ⟨_, _, r, hrun, set_selected_selectedOnly s _ false _
      (fun a ha => (mem_walk_order_iff s tree.root f hsub a).mp ha)⟩
  · obtain ⟨r, hrun, _⟩ := selection_walk_ok g tree s f fuel true hsub hnd hfuel
    exact ⟨_, _, r, hrun, set_selected_selectedOnly s _ true _
      (fun a ha => (mem_walk_order_iff s tree.root f hsub a).mp ha)⟩

/-- An instance of the C35 theorem: in `exState` the entry 5, inside the
collapsed folder 3, is as it was after `treeview_select_all`, and the visible
folder 1 has the height 60 and the expanded flag it had. -/
theorem selection_touches_visible_flags_witness :
    ∃ c s' r, treeview_select_all exG 14 ⟨0, [], 1, 0⟩ exState = .ok (c, s', r) ∧
      s'.heap 5 = exState.heap 5 ∧
      (∃ x', s'.heap 1 = some x' ∧ x'.height = 60 ∧ x'.expanded = true) := by
  obtain ⟨_, _, c, s', r, hrun, hfr⟩ := selection_touches_visible_flags exG ⟨0, [], 1, 0⟩ exState
    exForest 14 (by decide) (by decide) (by decide)
  refine ⟨c, s', r, hrun, ?_, ?_⟩
  · obtain ⟨x', h1, _, h3⟩ := (hfr 5).2 _ rfl
    rw [h1, h3 (by
      intro hv
      have := (mem_walk_order_iff exState 0 exForest (by decide) 5).mpr hv
      revert this
      decide)]
    rfl
  · obtain ⟨x', h1, h2, _⟩ := (hfr 1).2 _ rfl
    refine ⟨x', h1, ?_, ?_⟩
    · rw [h2]; rfl
    · rw [h2]; rfl

/-! ## Redraw: which rows are painted -/

theorem painted_rows_sublist (g : treeview_globals) (s : State) (r : rect) :
    ∀ (l : List Nat) (y : Int), (painted_rows g s r l y).Sublist (row_tops g s l y) := by
  intro l
  induction l with
  | nil => intro y; exact List.Sublist.slnil
  | cons b l ih =>
    intro y
    rw [painted_rows, row_tops]
    split
    · exact List.Sublist.cons _ (ih _)
    · split
      · exact List.Sublist.cons₂ _ (List.nil_sublist _)
      · exact List.Sublist.cons₂ _ (ih _)

theorem painted_rows_bottom (g : treeview_globals) (s : State) (r : rect) :
    ∀ (l : List Nat) (y : Int), ∀ p ∈ painted_rows g s r l y,
      r.y0 ≤ p.2 + rowHeightOf g s p.1 := by
  intro l
  induction l with
  | nil => intro y p hp; simp [painted_rows] at hp
  | cons b l ih =>
    intro y p hp
    rw [painted_rows] at hp
    split at hp
    · exact ih _ p hp
    · rename_i hb
      rcases List.mem_cons.mp hp with h | h
      · subst h
        simp only []
        omega
      · split at h
        · simp at h
        · exact ih _ p h

theorem painted_rows_top (g : treeview_globals) (s : State) (r : rect) :
    ∀ (l : List Nat) (y : Int), ∀ p ∈ painted_rows g s r l y,
      p.2 = y ∨ p.2 < r.y0 ∨ p.2 ≤ r.y1 := by
  intro l
  induction l with
  | nil => intro y p hp; simp [painted_rows] at hp
  | cons b l ih =>
    intro y p hp
    rw [painted_rows] at hp
    split at hp
    · rename_i hb
      rcases ih _ p hp with h | h | h
      · exact Or.inr (Or.inl (by omega))
      · exact Or.inr (Or.inl h)
      · exact Or.inr (Or.inr h)
    · rcases List.mem_cons.mp hp with h | h
      · subst h
        exact Or.inl rfl
      · split at h
        · simp at h
        · rename_i hb
          rcases ih _ p h with h | h | h
          · exact Or.inr (Or.inr (by omega))
          · exact Or.inr (Or.inl h)
          · exact Or.inr (Or.inr h)

theorem row_tops_ge (g : treeview_globals) (s : State) :
    ∀ (l : List Nat) (y : Int), (∀ a ∈ l, 0 ≤ rowHeightOf g s a) →
      ∀ p ∈ row_tops g s l y, y ≤ p.2 := by
  intro l
  induction l with
  | nil => intro y _ p hp; simp [row_tops] at hp
  | cons b l ih =>
    intro y hpos p hp
    rw [row_tops] at hp
    rcases List.mem_cons.mp hp with h | h
    · subst h
      exact le_refl _
    · have := ih _ (fun a ha => hpos a (List.mem_cons_of_mem _ ha)) p h
      have hb := hpos b (List.mem_cons_self _ _)
      omega

theorem painted_rows_complete (g : treeview_globals) (s : State) (r : rect) :
    ∀ (l : List Nat) (y : Int), (∀ a ∈ l, 0 ≤ rowHeightOf g s a) →
      ∀ p ∈ row_tops g s l y, r.y0 ≤ p.2 + rowHeightOf g s p.1 → p.2 ≤ r.y1 →
        p ∈ painted_rows g s r l y := by
  intro l
  induction l with
  | nil => intro y _ p hp; simp [row_tops] at hp
  | cons b l ih =>
    intro y hpos p hp h0 h1
    have hpos' : ∀ a ∈ l, 0 ≤ rowHeightOf g s a := fun a ha => hpos a (List.mem_cons_of_mem _ ha)
    rw [row_tops] at hp
    rw [painted_rows]
    rcases List.mem_cons.mp hp with h | h
    · subst h
      simp only [] at h0
      rw [if_neg (by omega)]
      exact List.mem_cons_self _ _
    · have hge := row_tops_ge g s l _ hpos' p h
      split
      · exact ih _ hpos' p h h0 h1
      · rw [if_neg (by omega)]
        exact List.mem_cons_of_mem _ (ih _ hpos' p h h0 h1)

/-- C31 (row virtualization), the run on which it fails.  The four visible
rows of `exState`, 20 high each, are redrawn at the origin `(0, 0)` with a
clip rectangle from `y = -100` to `y = -50`, which lies above the tree.  The
top of the first row, 0, exceeds the bottom edge of the clip rectangle, and
the row is drawn all the same: one rectangle from 0 to 20.  And with a clip
rectangle from 20 to 30 the first row, which ends where the clip rectangle
starts, is drawn as well as the second. -/
theorem virtualization_counterexample :
    rectangles_of (treeview_redraw exEnv exG 14 ⟨0, [], 1, 0⟩ exState 0 0 ⟨0, -100, 100, -50⟩) =
      [⟨0, 0, 100, 20⟩] ∧
    walk_order exState false 0 exForest = [1, 2, 3, 4] ∧
    rectangles_of (treeview_redraw exEnv exG 14 ⟨0, [], 1, 0⟩ exState 0 0 ⟨0, 20, 100, 30⟩) =
      [⟨0, 0, 100, 20⟩, ⟨0, 20, 100, 40⟩] := by
  decide

/-- C31 (row virtualization), amended.  On a tree whose root is expanded and
holds the shape `f`, with a row height that is not negative and every visible
row paintable, `treeview_redraw` at the origin `(x, y)` returns.  With `r` the
clip rectangle moved by the origin, the row backgrounds it draws are those of
a list `drawn` of visible rows, each with its top, followed by at most one
rectangle that fills the clip rectangle below the last row.  The list `drawn`
is picked, in order, from the visible rows in document order, the top of a row
being `y` plus the heights of the rows before it, drawn or not.  No row whose
bottom is above `r.y0` is drawn.  A row that is drawn is the first visible row
(top `y`), or its top is above `r.y0`, or its top is not below `r.y1`; so when
the clip rectangle is not empty and its bottom is not above the origin of the
tree, no row whose top exceeds `r.y1` is drawn.  And every visible row whose
bottom is not above `r.y0` and whose top does not exceed `r.y1` is drawn. -/
theorem redraw_draws_rows_in_clip (env : redraw_env) (g : treeview_globals) (tree : treeview)
    (s : State) (f : Forest) (fuel : Nat) (x y : Int) (clip : rect)
    (hsub : SubtreeAt s tree.root f) (hfuel : 2 * f.size + 2 ≤ fuel)
    (hroot : isOpen s false tree.root = true) (hlh : 0 ≤ g.line_height)
    (hin : (tree.n_fields - 1).toNat < fuel)
    (hrows : ∀ a ∈ walk_order s false tree.root f,
      ∃ n, s.heap a = some n ∧ PaintableRow g tree n) :
    ∃ (plots : List Plot) (fill : List rect) (drawn : List (Nat × Int)),
      treeview_redraw env g fuel tree s x y clip = .ok plots ∧
      plot_rectangles plots = drawn.map
        (row_rect g s (rect.mk (clip.x0 + x) (clip.y0 + y) (clip.x1 + x) (clip.y1 + y))) ++
          fill ∧
      (∀ q ∈ fill, q = rect.mk (clip.x0 + x)
        (y + ((walk_order s false tree.root f).map (rowHeightOf g s)).sum) (clip.x1 + x)
        (clip.y1 + y)) ∧
      drawn.Sublist (row_tops g s (walk_order s false tree.root f) y) ∧
      (∀ p ∈ drawn, clip.y0 + y ≤ p.2 + rowHeightOf g s p.1) ∧
      (∀ p ∈ drawn, p.2 = y ∨ p.2 < clip.y0 + y ∨ p.2 ≤ clip.y1 + y) ∧
      (clip.y0 ≤ clip.y1 → 0 ≤ clip.y1 → ∀ p ∈ drawn, p.2 ≤ clip.y1 + y) ∧
      (∀ p ∈ row_tops g s (walk_order s false tree.root f) y,
        clip.y0 + y ≤ p.2 + rowHeightOf g s p.1 → p.2 ≤ clip.y1 + y → p ∈ drawn) := by
  obtain ⟨plots, fill, hrun, hrect, hfill⟩ := redraw_rectangles env g tree s f fuel x y clip
    hsub hfuel hroot hlh hin hrows
  have hpos : ∀ a ∈ walk_order s false tree.root f, 0 ≤ rowHeightOf g s a := by
    intro a ha
    obtain ⟨n, hn, hp⟩ := hrows a ha
    exact paintable_row_height_nonneg g tree s hlh a n hn hp
  have htop := painted_rows_top g s
    (rect.mk (clip.x0 + x) (clip.y0 + y) (clip.x1 + x) (clip.y1 + y))
    (walk_order s false tree.root f) y
  refine ⟨plots, fill, _, hrun, hrect, hfill, painted_rows_sublist g s _ _ y,
    painted_rows_bottom g s
      (rect.mk (clip.x0 + x) (clip.y0 + y) (clip.x1 + x) (clip.y1 + y)) _ y, htop, ?_,
    painted_rows_complete g s
      (rect.mk (clip.x0 + x) (clip.y0 + y) (clip.x1 + x) (clip.y1 + y)) _ y hpos⟩
  intro h1 h2 p hp
  rcases htop p hp with h | h | h
  · omega
  · simp only [] at h
    omega
  · exact h

/-- An instance of the amended C31 theorem: the four visible rows of `exState`
(tops 0, 20, 40 and 60) redrawn at the origin with a clip rectangle from 30 to
50: the first row is passed over, the second and the third are drawn, and the
fourth is not reached. -/
theorem redraw_draws_rows_in_clip_witness :
    (∃ (plots : List Plot) (fill : List rect) (drawn : List (Nat × Int)),
      treeview_redraw exEnv exG 14 ⟨0, [], 1, 0⟩ exState 0 0 ⟨0, 30, 100, 50⟩ = .ok plots ∧
      plot_rectangles plots = drawn.map
        (row_rect exG exState (rect.mk (0 + 0) (30 + 0) (100 + 0) (50 + 0))) ++ fill ∧
      (∀ q ∈ fill, q = rect.mk (0 + 0)
        (0 + ((walk_order exState false 0 exForest).map (rowHeightOf exG exState)).sum) (100 + 0)
        (50 + 0)) ∧
      drawn.Sublist (row_tops exG exState (walk_order exState false 0 exForest) 0) ∧
      (∀ p ∈ drawn, 30 + 0 ≤ p.2 + rowHeightOf exG exState p.1) ∧
      (∀ p ∈ drawn, p.2 = 0 ∨ p.2 < 30 + 0 ∨ p.2 ≤ 50 + 0) ∧
      ((30 : Int) ≤ 50 → (0 : Int) ≤ 50 → ∀ p ∈ drawn, p.2 ≤ 50 + 0) ∧
      (∀ p ∈ row_tops exG exState (walk_order exState false 0 exForest) 0,
        30 + 0 ≤ p.2 + rowHeightOf exG exState p.1 → p.2 ≤ 50 + 0 → p ∈ drawn)) ∧
    row_tops exG exState (walk_order exState false 0 exForest) 0 =
      [(1, 0), (2, 20), (3, 40), (4, 60)] ∧
    rectangles_of (treeview_redraw exEnv exG 14 ⟨0, [], 1, 0⟩ exState 0 0 ⟨0, 30, 100, 50⟩) =
      [⟨0, 20, 100, 40⟩, ⟨0, 40, 100, 60⟩] :=
  ⟨redraw_draws_rows_in_clip exEnv exG ⟨0, [], 1, 0⟩ exState exForest 14 0 0 ⟨0, 30, 100, 50⟩
    (by decide) (by decide) (by decide) (by decide) (by decide) (by decide), by decide,
    by decide⟩

/-! ## Redraw: the styles of the rows -/

theorem redraw_fields_loop_plots (g : treeview_globals) (tree : treeview) (n : treeview_node)
    (x0 baseline : Int) (st : style_ref) :
    ∀ (fuel i : Nat) (render_y : Int) (plots : List Plot) (res : Int × List Plot),
      redraw_fields_loop g tree n x0 baseline st fuel i render_y plots = .ok res →
      ∃ extra, res.2 = plots ++ extra ∧ ∀ q ∈ extra, plot_style q = some st := by
  intro fuel
  induction fuel with
  | zero => intro i render_y plots res h; cases h
  | succ fuel ih =>
    intro i render_y plots res h
    rw [redraw_fields_loop] at h
    split at h
    · obtain ⟨ef, _, h⟩ := bind_ok_inv h
      obtain ⟨e, _, h⟩ := bind_ok_inv h
      obtain ⟨extra, h1, h2⟩ := ih _ _ _ _ h
      by_cases hs : ef.flags.show_name = true
      · rw [if_pos hs] at h1
        refine ⟨[.text (x0 + tree.field_width - ef.value.width - g.step_width)
              (render_y + baseline) ef.value.data ef.value.len st,
            .text (x0 + tree.field_width) (render_y + baseline) e.value.data e.value.len
              st] ++ extra, by rw [h1, List.append_assoc], ?_⟩
        intro q hq
        simp only [List.cons_append, List.nil_append, List.mem_cons] at hq
        rcases hq with rfl | rfl | hq
        · rfl
        · rfl
        · exact h2 q hq
      · rw [if_neg hs] at h1
        refine ⟨[.text x0 (render_y + baseline) e.value.data e.value.len st] ++ extra,
          by rw [h1, List.append_assoc], ?_⟩
        intro q hq
        simp only [List.cons_append, List.nil_append, List.mem_cons] at hq
        rcases hq with rfl | hq
        · rfl
        · exact h2 q hq
    · cases h
      exact ⟨[], by simp, by simp⟩

theorem row_plots_assoc (A : List Plot) (x y c t : Plot) (b : Prop) [Decidable b] :
    (if b then A ++ [x] ++ [y] ++ [c] else A ++ [x] ++ [y]) ++ [t] =
      A ++ (x :: y :: ((if b then [c] else []) ++ [t])) := by
  split <;> simp

theorem row_seg_styles (P : Plot → Prop) (x y c t : Plot) (b : Prop) [Decidable b]
    (extra : List Plot) (hx : P x) (hy : P y) (hc : P c) (ht : P t)
    (hextra : ∀ q ∈ extra, P q) :
    ∀ q ∈ (x :: y :: ((if b then [c] else []) ++ [t])) ++ extra, P q := by
  intro q hq
  rcases List.mem_append.mp hq with hq | hq
  · rcases List.mem_cons.mp hq with rfl | hq
    · exact hx
    · rcases List.mem_cons.mp hq with rfl | hq
      · exact hy
      · rcases List.mem_append.mp hq with hq | hq
        · split at hq
          · rw [List.mem_singleton] at hq
            exact hq ▸ hc
          · cases hq
        · rw [List.mem_singleton] at hq
          exact hq ▸ ht
  · exact hextra q hq

theorem row_seg_styles_nil (P : Plot → Prop) (x y c t : Plot) (b : Prop) [Decidable b]
    (hx : P x) (hy : P y) (hc : P c) (ht : P t) :
    ∀ q ∈ x :: y :: ((if b then [c] else []) ++ [t]), P q := by
  intro q hq
  exact row_seg_styles P x y c t b [] hx hy hc ht (by simp) q (by simpa using hq)

theorem redraw_row_plots (env : redraw_env) (g : treeview_globals) (tree : treeview) (r : rect)
    (inner : Nat) (n : treeview_node) (v : redraw_vars) (stop : Bool) (v' : redraw_vars)
    (h : redraw_row env g tree r inner n v = .ok (stop, v')) :
    v'.count = (v.count + 1) % 2 ^ 32 ∧
    ∃ seg, v'.plots = v.plots ++ seg ∧
      (v.render_y + node_row_height g n < r.y0 → seg = []) ∧
      (¬ v.render_y + node_row_height g n < r.y0 →
        seg.head? = some (.rectangle r.x0 v.render_y r.x1 (v.render_y + node_row_height g n)
          { odd := decide ((v.count + 1) % 2 ^ 32 % 2 = 1),
            member := if n.selected then .sbg else .bg }) ∧
        ∀ q ∈ seg, ∃ st, plot_style q = some st ∧
          st.odd = decide ((v.count + 1) % 2 ^ 32 % 2 = 1) ∧
          st.member.for_selected = n.selected) := by
  unfold redraw_row at h
  obtain ⟨_, _, h⟩ := bind_ok_inv h
  unfold node_row_height
  simp only [] at h
  by_cases habove : v.render_y + (if n.type = .TREE_NODE_ENTRY then n.height else g.line_height)
      < r.y0
  · rw [if_pos habove] at h
    cases h
    exact ⟨rfl, [], by simp, fun _ => rfl, fun hn => absurd habove hn⟩
  · rw [if_neg habove] at h
    simp only [row_plots_assoc] at h
    have hsel : ∀ (a b : style_member), a.for_selected = true → b.for_selected = false →
        (if n.selected = true then a else b).for_selected = n.selected := by
      intro a b ha hb
      cases n.selected
      · simpa using hb
      · simpa using ha
    by_cases hb : v.render_y + g.line_height > r.y1
    · rw [if_pos hb] at h
      simp only [pure, Except.pure, Except.ok.injEq, Prod.mk.injEq] at h
      obtain ⟨_, rfl⟩ := h
      refine ⟨rfl, _, rfl, fun ha => absurd ha habove, fun _ => ⟨rfl, ?_⟩⟩
      exact row_seg_styles_nil (fun q => ∃ st, plot_style q = some st ∧
        st.odd = decide ((v.count + 1) % 2 ^ 32 % 2 = 1) ∧
        st.member.for_selected = n.selected) _ _ _ _ _
        ⟨_, rfl, rfl, hsel _ _ rfl rfl⟩ ⟨_, rfl, rfl, hsel _ _ rfl rfl⟩
        ⟨_, rfl, rfl, hsel _ _ rfl rfl⟩ ⟨_, rfl, rfl, hsel _ _ rfl rfl⟩
    · rw [if_neg hb] at h
      by_cases hc : (decide (n.type ≠ .TREE_NODE_ENTRY) || !n.expanded) = true
      · rw [if_pos hc] at h
        simp only [pure, Except.pure, Except.ok.injEq, Prod.mk.injEq] at h
        obtain ⟨_, rfl⟩ := h
        refine ⟨rfl, _, rfl, fun ha => absurd ha habove, fun _ => ⟨rfl, ?_⟩⟩
        exact row_seg_styles_nil (fun q => ∃ st, plot_style q = some st ∧
          st.odd = decide ((v.count + 1) % 2 ^ 32 % 2 = 1) ∧
          st.member.for_selected = n.selected) _ _ _ _ _
          ⟨_, rfl, rfl, hsel _ _ rfl rfl⟩ ⟨_, rfl, rfl, hsel _ _ rfl rfl⟩
          ⟨_, rfl, rfl, hsel _ _ rfl rfl⟩ ⟨_, rfl, rfl, hsel _ _ rfl rfl⟩
      · rw [if_neg hc] at h
        obtain ⟨res, hloop, h⟩ := bind_ok_inv h
        obtain ⟨extra, he1, he2⟩ := redraw_fields_loop_plots g tree n _ _ _ _ _ _ _ _ hloop
        simp only [pure, Except.pure, Except.ok.injEq, Prod.mk.injEq] at h
        obtain ⟨_, rfl⟩ := h
        refine ⟨rfl, ?_, ?_, ?_, ?_⟩
        rotate_left
        · simp only []
          rw [he1, List.append_assoc]
          exact rfl
        · exact fun ha => absurd ha habove
        refine fun _ => ⟨rfl, ?_⟩
        exact row_seg_styles (fun q => ∃ st, plot_style q = some st ∧
          st.odd = decide ((v.count + 1) % 2 ^ 32 % 2 = 1) ∧
          st.member.for_selected = n.selected) _ _ _ _ _ extra
          ⟨_, rfl, rfl, hsel _ _ rfl rfl⟩ ⟨_, rfl, rfl, hsel _ _ rfl rfl⟩
          ⟨_, rfl, rfl, hsel _ _ rfl rfl⟩ ⟨_, rfl, rfl, hsel _ _ rfl rfl⟩
          (fun q hq => ⟨_, he2 q hq, rfl, hsel _ _ rfl rfl⟩)

/-- The redraw along the rows `l`, the rest of the visible rows `rows` after
`pre`, with the counter at the number of rows passed: the calls added are those
of the painted rows, each striped by its place in `rows`. -/
theorem paint_iterate_styles (env : redraw_env) (g : treeview_globals) (tree : treeview)
    (r : rect) (inner : Nat) (s : State) (hlh : 0 ≤ g.line_height)
    (hin : (tree.n_fields - 1).toNat < inner) (rows : List Nat) (hnd : rows.Nodup) :
    ∀ (l pre : List Nat) (v : redraw_vars), rows = pre ++ l →
      v.count = pre.length % 2 ^ 32 →
      (∀ a ∈ l, ∃ n, s.heap a = some n ∧ PaintableRow g tree n) →
      ∃ stop v' segs, iterate_cb (redraw_node env g tree r inner) l s v = .ok (stop, s, v') ∧
        v'.plots = v.plots ++ segs.flatten ∧
        List.Forall₂ (RowPlots g s r rows) segs (painted_rows g s r l v.render_y) ∧
        (stop = true → v'.render_y > r.y1) ∧
        (stop = false → v'.render_y = v.render_y + (l.map (rowHeightOf g s)).sum) := by
  intro l
  induction l with
  | nil =>
    intro pre v _ _ _
    exact ⟨false, v, [], rfl, by simp, by simp [painted_rows], by simp, by simp⟩
  | cons a l ih =>
    intro pre v hrows hcount hl
    obtain ⟨n, hn, hp⟩ := hl a (List.mem_cons_self _ _)
    have hrh : rowHeightOf g s a = node_row_height g n := by simp [rowHeightOf, hn]
    have hsl : selectedOf s a = n.selected := by simp [selectedOf, hn]
    have hl' : ∀ b ∈ l, ∃ n, s.heap b = some n ∧ PaintableRow g tree n :=
      fun b hb => hl b (List.mem_cons_of_mem _ hb)
    have hapre : a ∉ pre := by
      intro ha
      rw [hrows] at hnd
      exact (List.disjoint_of_nodup_append hnd) ha (List.mem_cons_self _ _)
    have hidx : rows.indexOf a = pre.length := by
      rw [hrows, List.indexOf_append_of_not_mem hapre, List.indexOf_cons_self]
      rfl
    have hpar : decide ((v.count + 1) % 2 ^ 32 % 2 = 1) =
        decide ((rows.indexOf a + 1) % 2 = 1) := by
      rw [hidx, hcount]
      congr 1
      apply propext
      constructor <;> intro h <;> omega
    have hrows' : rows = (pre ++ [a]) ++ l := by rw [hrows]; simp
    by_cases habove : v.render_y + node_row_height g n < r.y0
    · obtain ⟨v1, h1, hy1, hp1⟩ := redraw_row_above env g tree r inner n v hp habove
      have hcb := redraw_node_eq env g tree r inner a s v n hn false v1 h1
      obtain ⟨hc1, _⟩ := redraw_row_plots env g tree r inner n v false v1 h1
      obtain ⟨stop, v', segs, hit, hpl, hfa, hs1, hs2⟩ := ih (pre ++ [a]) v1 hrows'
        (by rw [hc1, hcount, List.length_append, List.length_singleton]; omega) hl'
      refine ⟨stop, v', segs, ?_, ?_, ?_, hs1, ?_⟩
      · rw [iterate_cb, hcb]
        exact hit
      · rw [hpl, hp1]
      · rw [painted_rows, hrh, if_pos habove, ← hy1]
        exact hfa
      · intro hst
        rw [hs2 hst, hy1, List.map_cons, List.sum_cons, hrh]
        ring
    · obtain ⟨v1, h1, _, hy1⟩ := redraw_row_painted env g tree r inner n v hp hlh hin habove
      obtain ⟨hc1, seg, hseg, _, hsegp⟩ := redraw_row_plots env g tree r inner n v _ v1 h1
      obtain ⟨hhead, hstyles⟩ := hsegp habove
      have hrow : RowPlots g s r rows seg (a, v.render_y) := by
        refine ⟨?_, ?_⟩
        · rw [hhead]
          simp only [hrh, hsl, hpar]
        · intro q hq
          obtain ⟨st, e1, e2, e3⟩ := hstyles q hq
          exact ⟨st, e1, by rw [e2, hpar], by rw [e3, hsl]⟩
      by_cases hbelow : v.render_y + node_row_height g n > r.y1
      · rw [decide_eq_true hbelow] at h1
        rw [if_pos hbelow] at hy1
        have hcb := redraw_node_eq env g tree r inner a s v n hn true v1 h1
        refine ⟨true, v1, [seg], ?_, by rw [hseg]; simp, ?_, fun _ => hy1, by simp⟩
        · rw [iterate_cb, hcb]
        · rw [painted_rows, hrh, if_neg habove, if_pos hbelow]
          exact List.Forall₂.cons hrow List.Forall₂.nil
      · rw [decide_eq_false hbelow] at h1
        rw [if_neg hbelow] at hy1
        have hcb := redraw_node_eq env g tree r inner a s v n hn false v1 h1
        obtain ⟨stop, v', segs, hit, hpl, hfa, hs1, hs2⟩ := ih (pre ++ [a]) v1 hrows'
          (by rw [hc1, hcount, List.length_append, List.length_singleton]; omega) hl'
        refine ⟨stop, v', seg :: segs, ?_, ?_, ?_, hs1, ?_⟩
        · rw [iterate_cb, hcb]
          exact hit
        · rw [hpl, hseg]
          simp
        · rw [painted_rows, hrh, if_neg habove, if_neg hbelow, ← hy1]
          exact List.Forall₂.cons hrow hfa
        · intro hst
          rw [hs2 hst, hy1, List.map_cons, List.sum_cons, hrh]
          ring

/-- C32 (zebra striping by row counter).  On a tree whose root is expanded and
holds the shape `f` (its nodes distinct), with a row height that is not
negative and every visible row paintable, `treeview_redraw` at the origin
`(x, y)` returns, and the calls it makes are: the start of the knockout layer
if the plotter has one, the call that sets the clip rectangle, then for each
row that is painted, in document order, a run of calls that starts with the
background rectangle of the row and in which every call is made with a member
of `plot_style_odd` when the place `k` of the row among all visible rows
(counted from 1, rows passed over above the clip rectangle included) is odd
and with a member of `plot_style_even` when `k` is even, a member for selected
nodes (`sbg`, `stext`, `sitext`) exactly when the node is selected; and at the
end at most one rectangle in the style `plot_style_even.bg` and the end of the
knockout layer.  The place of a row is its index in the sequence of visible
rows, whatever its depth in the tree. -/
theorem zebra_striping_by_row_counter (env : redraw_env) (g : treeview_globals)
    (tree : treeview) (s : State) (f : Forest) (fuel : Nat) (x y : Int) (clip : rect)
    (hsub : SubtreeAt s tree.root f) (hnd : f.ids.Nodup) (hfuel : 2 * f.size + 2 ≤ fuel)
    (hroot : isOpen s false tree.root = true) (hlh : 0 ≤ g.line_height)
    (hin : (tree.n_fields - 1).toNat < fuel)
    (hrows : ∀ a ∈ walk_order s false tree.root f,
      ∃ n, s.heap a = some n ∧ PaintableRow g tree n) :
    ∃ (plots : List Plot) (segs : List (List Plot)) (post : List Plot),
      treeview_redraw env g fuel tree s x y clip = .ok plots ∧
      plots = (if env.option_knockout then [Plot.knockout_plot_start] else []) ++
        [.clip (rect.mk (clip.x0 + x) (clip.y0 + y) (clip.x1 + x) (clip.y1 + y))] ++
        segs.flatten ++ post ∧
      List.Forall₂
        (RowPlots g s (rect.mk (clip.x0 + x) (clip.y0 + y) (clip.x1 + x) (clip.y1 + y))
          (walk_order s false tree.root f)) segs
        (painted_rows g s (rect.mk (clip.x0 + x) (clip.y0 + y) (clip.x1 + x) (clip.y1 + y))
          (walk_order s false tree.root f) y) ∧
      (∀ q ∈ post, q = .knockout_plot_end ∨
        ∃ top, q = .rectangle (clip.x0 + x) top (clip.x1 + x) (clip.y1 + y)
          { odd := false, member := .bg }) ∧
      (∀ k a, (walk_order s false tree.root f).get? k = some a →
        (walk_order s false tree.root f).indexOf a = k) := by
  obtain ⟨rn, hrn, hexp⟩ : ∃ rn, s.heap tree.root = some rn ∧ rn.expanded = true := by
    cases h : s.heap tree.root with
    | none => simp [isOpen, h] at hroot
    | some rn => exact ⟨rn, rfl, by simpa [isOpen, h] using hroot⟩
  have hwnd := walk_order_nodup s false tree.root f hnd
  obtain ⟨stop, v', segs, hit, hpl, hfa, _, _⟩ := paint_iterate_styles env g tree
    (rect.mk (clip.x0 + x) (clip.y0 + y) (clip.x1 + x) (clip.y1 + y)) fuel s hlh hin
    (walk_order s false tree.root f) hwnd (walk_order s false tree.root f) []
    (redraw_vars.mk 0 y .TREE_RES_CONTENT
      ((if env.option_knockout then [Plot.knockout_plot_start] else []) ++
        [.clip (rect.mk (clip.x0 + x) (clip.y0 + y) (clip.x1 + x) (clip.y1 + y))]))
    rfl rfl hrows
  have hloop := redraw_loop_eq_iterate env g tree
    (rect.mk (clip.x0 + x) (clip.y0 + y) (clip.x1 + x) (clip.y1 + y)) fuel s tree.root f fuel
    hsub hfuel (redraw_vars.mk 0 y .TREE_RES_CONTENT
      ((if env.option_knockout then [Plot.knockout_plot_start] else []) ++
        [.clip (rect.mk (clip.x0 + x) (clip.y0 + y) (clip.x1 + x) (clip.y1 + y))]))
  rw [hit] at hloop
  simp only [] at hpl
  refine ⟨(if env.option_knockout = true then
      (if v'.render_y < clip.y1 + y then
        v'.plots ++ [Plot.rectangle (clip.x0 + x) v'.render_y (clip.x1 + x) (clip.y1 + y)
          (style_ref.mk false .bg)] else v'.plots) ++ [Plot.knockout_plot_end]
    else (if v'.render_y < clip.y1 + y then
        v'.plots ++ [Plot.rectangle (clip.x0 + x) v'.render_y (clip.x1 + x) (clip.y1 + y)
          (style_ref.mk false .bg)] else v'.plots)), segs,
    (if v'.render_y < clip.y1 + y then
      [Plot.rectangle (clip.x0 + x) v'.render_y (clip.x1 + x) (clip.y1 + y)
        (style_ref.mk false .bg)] else []) ++
    (if env.option_knockout = true then [Plot.knockout_plot_end] else []), ?_, ?_, hfa, ?_, ?_⟩
  · simp only [treeview_redraw, load, hrn, hexp, c_assert, if_true, bind, Except.bind, hloop,
      Except.map, pure, Except.pure]
  · rw [hpl]
    by_cases hfill : v'.render_y < clip.y1 + y <;> cases env.option_knockout <;>
      simp [hfill]
  · intro q hq
    rcases List.mem_append.mp hq with hq | hq
    · split at hq
      · rw [List.mem_singleton] at hq
        exact Or.inr ⟨_, hq⟩
      · cases hq
    · split at hq
      · rw [List.mem_singleton] at hq
        exact Or.inl hq
      · cases hq
  · intro k a hk
    rw [List.get?_eq_some] at hk
    obtain ⟨hlt, hget⟩ := hk
    rw [← hget]
    exact List.get_indexOf hwnd ⟨k, hlt⟩

/-- An instance of the C32 theorem: the four visible rows of `exSelTwo`, of
which the second and the fourth are selected, redrawn at the origin with a
clip rectangle from 30 to 100.  The first row is passed over; the second is
drawn in the even style for selected nodes, the third in the odd style, the
fourth in the even style for selected nodes, and the rest of the clip
rectangle is filled in the even background. -/
theorem zebra_striping_by_row_counter_witness :
    (∃ (plots : List Plot) (segs : List (List Plot)) (post : List Plot),
      treeview_redraw exEnv exG 14 ⟨0, [], 1, 0⟩ exSelTwo 0 0 ⟨0, 30, 100, 100⟩ = .ok plots ∧
      plots = (if exEnv.option_knockout then [Plot.knockout_plot_start] else []) ++
        [.clip (rect.mk (0 + 0) (30 + 0) (100 + 0) (100 + 0))] ++ segs.flatten ++ post ∧
      List.Forall₂
        (RowPlots exG exSelTwo (rect.mk (0 + 0) (30 + 0) (100 + 0) (100 + 0))
          (walk_order exSelTwo false 0 exForest)) segs
        (painted_rows exG exSelTwo (rect.mk (0 + 0) (30 + 0) (100 + 0) (100 + 0))
          (walk_order exSelTwo false 0 exForest) 0) ∧
      (∀ q ∈ post, q = .knockout_plot_end ∨
        ∃ top, q = .rectangle (0 + 0) top (100 + 0) (100 + 0) { odd := false, member := .bg }) ∧
      (∀ k a, (walk_order exSelTwo false 0 exForest).get? k = some a →
        (walk_order exSelTwo false 0 exForest).indexOf a = k)) ∧
    painted_rows exG exSelTwo (rect.mk 0 30 100 100) (walk_order exSelTwo false 0 exForest) 0 =
      [(2, 20), (3, 40), (4, 60)] ∧
    styles_of (treeview_redraw exEnv exG 14 ⟨0, [], 1, 0⟩ exSelTwo 0 0 ⟨0, 30, 100, 100⟩) =
      [⟨false, .sbg⟩, ⟨false, .stext⟩, ⟨false, .stext⟩,
       ⟨true, .bg⟩, ⟨true, .text⟩, ⟨true, .text⟩,
       ⟨false, .sbg⟩, ⟨false, .stext⟩, ⟨false, .stext⟩, ⟨false, .bg⟩] :=
  ⟨zebra_striping_by_row_counter exEnv exG ⟨0, [], 1, 0⟩ exSelTwo exForest 14 0 0
    ⟨0, 30, 100, 100⟩ (by decide) (by decide) (by decide) (by decide) (by decide) (by decide)
    (by decide), by decide, by decide⟩

/-! ## Searching for a literal pattern -/

theorem skip_asterisks_literal (pattern : List Nat) (fuel : Nat)
    (h0 : pattern.getD 0 0 ≠ 42) : skip_asterisks pattern (fuel + 1) (-1) = .ok 0 := by
  rw [skip_asterisks]
  have : ((-1 : Int) + 1).toNat = 0 := by decide
  rw [this, if_neg (fun h => h0 h.2)]
  rfl

theorem scan_forward_spec (string : List Nat) (case_sens : Bool) (ch : Nat) :
    ∀ (d s fuel : Nat), string.length - s = d → s ≤ string.length → d < fuel →
      ∃ j, scan_forward string case_sens ch fuel s = .ok j ∧ s ≤ j ∧ j ≤ string.length ∧
        (j < string.length →
          (if case_sens then string.getD j 0 = ch else toupper (string.getD j 0) = ch)) ∧
        ∀ i, s ≤ i → i < j →
          ¬ (if case_sens then string.getD i 0 = ch else toupper (string.getD i 0) = ch) := by
  intro d
  induction d with
  | zero =>
    intro s fuel hd hs hf
    obtain ⟨fuel, rfl⟩ : ∃ f, fuel = f + 1 := ⟨fuel - 1, by omega⟩
    rw [scan_forward, if_neg (by omega)]
    exact ⟨s, rfl, le_refl _, hs, fun h => absurd h (by omega), fun i h1 h2 => absurd h1 (by omega)⟩
  | succ d ih =>
    intro s fuel hd hs hf
    obtain ⟨fuel, rfl⟩ : ∃ f, fuel = f + 1 := ⟨fuel - 1, by omega⟩
    rw [scan_forward, if_pos (by omega)]
    by_cases hit : (if case_sens then string.getD s 0 = ch else toupper (string.getD s 0) = ch)
    · rw [if_pos hit]
      exact ⟨s, rfl, le_refl _, hs, fun _ => hit, fun i h1 h2 => absurd h1 (by omega)⟩
    · rw [if_neg hit]
      obtain ⟨j, h1, h2, h3, h4, h5⟩ := ih (s + 1) fuel (by omega) (by omega) (by omega)
      refine ⟨j, h1, by omega, h3, h4, ?_⟩
      intro i hi1 hi2
      by_cases hi : i = s
      · rw [hi]; exact hit
      · exact h5 i (by omega) hi2

theorem char_eq_iff (case_sens : Bool) (a c : Nat) :
    char_eq case_sens a c = true ↔
      (if case_sens then a = (if !case_sens then toupper c else c)
        else toupper a = (if !case_sens then toupper c else c)) := by
  cases case_sens <;> simp [char_eq]

/-- The body of the loop at a character of a literal pattern, after the first:
the character is compared with the one at `s`. -/
theorem find_pattern_match_literal (string pattern : List Nat) (case_sens : Bool) (inner : Nat)
    (v : find_vars) (k : Nat) (hp : v.p = k) (h42 : pattern.getD k 0 ≠ 42)
    (h35 : pattern.getD k 0 ≠ 35) (hfirst : v.first = false) :
    find_pattern_match string pattern case_sens inner v =
      .ok (some (decide (v.s < string.length) &&
        char_eq case_sens (string.getD v.s 0) (pattern.getD k 0), v)) := by
  unfold find_pattern_match
  have hk : v.p.toNat = k := by rw [hp]; exact Int.toNat_natCast k
  rw [hk, if_neg (by
    rintro (h | h)
    · omega
    · exact h42 h)]
  by_cases hs : v.s < string.length
  · rw [if_pos hs]
    simp only [hfirst, Bool.and_false, Bool.false_eq_true, if_false, h35, decide_eq_true hs,
      Bool.true_and, char_eq]
    rfl
  · rw [if_neg hs]
    simp only [hs, decide_False, Bool.false_and]
    rfl

/-- The body of the loop at the virtual asterisk before a literal pattern: the
string is scanned from `i` for the first character of the pattern. -/
theorem find_pattern_match_start (string pattern : List Nat) (case_sens : Bool) (inner : Nat)
    (i : Nat) (hm : 0 < pattern.length) (h42 : pattern.getD 0 0 ≠ 42)
    (h35 : pattern.getD 0 0 ≠ 35) (hi : i ≤ string.length) (hin : string.length - i < inner) :
    ∃ j, i ≤ j ∧ j ≤ string.length ∧
      (∀ t, i ≤ t → t < j →
        char_eq case_sens (string.getD t 0) (pattern.getD 0 0) = false) ∧
      (j < string.length → char_eq case_sens (string.getD j 0) (pattern.getD 0 0) = true) ∧
      find_pattern_match string pattern case_sens inner
          { p := -1, ss := 0, s := i, first := true, context := [] } =
        .ok (some (if j < string.length then
            (true, { p := 0, ss := j, s := j, first := false,
                     context := [{ ss := 0, s := j + 1, p := -1, first := true }] })
          else (false, { p := 0, ss := 0, s := j, first := true, context := [] }))) := by
  obtain ⟨inner, rfl⟩ : ∃ f, inner = f + 1 := ⟨inner - 1, by omega⟩
  obtain ⟨j, h1, h2, h3, h4, h5⟩ := scan_forward_spec string case_sens
    (if !case_sens then toupper (pattern.getD 0 0) else pattern.getD 0 0)
    (string.length - i) i (inner + 1) rfl hi hin
  refine ⟨j, h2, h3, ?_, ?_, ?_⟩
  · intro t ht1 ht2
    have := h5 t ht1 ht2
    rw [← char_eq_iff] at this
    simpa using this
  · intro hj
    rw [char_eq_iff]
    exact h4 hj
  · unfold find_pattern_match
    simp only []
    rw [if_pos (Or.inl (by decide)), skip_asterisks_literal pattern inner h42]
    simp only [bind, Except.bind]
    rw [if_neg (by omega)]
    have h0 : (0 : Int).toNat = 0 := rfl
    simp only [h0, if_pos h35, h1]
    by_cases hj : j < string.length
    · simp [hj]
      rfl
    · simp [hj]
      rfl

theorem firstFrom_of_range (case_sens : Bool) (string pattern : List Nat) (i j : Nat)
    (r : Option (Nat × Int)) (hij : i ≤ j)
    (hno : ∀ t, i ≤ t → t < j → ¬ occurs_at case_sens string pattern t)
    (h : FirstFrom case_sens string pattern j r) : FirstFrom case_sens string pattern i r := by
  cases r with
  | none =>
    intro t ht
    by_cases htj : t < j
    · exact hno t ht htj
    · exact h t (by omega)
  | some q =>
    obtain ⟨pos, len⟩ := q
    obtain ⟨h1, h2, h3, h4⟩ := h
    refine ⟨by omega, h2, ?_, h4⟩
    intro t ht1 ht2
    by_cases htj : t < j
    · exact hno t ht1 htj
    · exact h3 t (by omega) ht2

/-- The loop of `find_pattern` on a literal pattern, after the first `k`
characters of the pattern were matched at the offset `j`: the rest of the
pattern is compared, and at a mismatch the search is resumed at `j + 1`. -/
theorem find_literal_tail (string pattern : List Nat) (case_sens : Bool) (inner : Nat)
    (hlit : ∀ k < pattern.length, pattern.getD k 0 ≠ 42 ∧ pattern.getD k 0 ≠ 35) (j : Nat)
    (hA : ∀ fuel, (string.length - (j + 1)) * (pattern.length + 1) + 1 ≤ fuel →
      ∃ r, find_pattern_loop string pattern case_sens inner fuel
          { p := -1, ss := 0, s := j + 1, first := true, context := [] } = .ok r ∧
        FirstFrom case_sens string pattern (j + 1) r) :
    ∀ (e k fuel : Nat), pattern.length - k = e → k ≤ pattern.length →
      j + k ≤ string.length →
      (∀ t < k, char_eq case_sens (string.getD (j + t) 0) (pattern.getD t 0) = true) →
      e + 1 + ((string.length - (j + 1)) * (pattern.length + 1) + 1) ≤ fuel →
      ∃ r, find_pattern_loop string pattern case_sens inner fuel
          { p := k, ss := j, s := j + k, first := false,
            context := [{ ss := 0, s := j + 1, p := -1, first := true }] } = .ok r ∧
        FirstFrom case_sens string pattern j r := by
  intro e
  induction e with
  | zero =>
    intro k fuel he hk hjk hpre hfuel
    obtain ⟨fuel, rfl⟩ : ∃ f, fuel = f + 1 := ⟨fuel - 1, by omega⟩
    have hkm : k = pattern.length := by omega
    rw [find_pattern_loop, if_neg (by simp only []; omega)]
    refine ⟨some (j, ((j + k : Nat) : Int) - (j : Nat)), rfl, ?_⟩
    refine ⟨le_refl _, ⟨by omega, fun t ht => hpre t (by omega)⟩,
      fun t h1 h2 => absurd h1 (by omega), ?_⟩
    push_cast
    omega
  | succ e ih =>
    intro k fuel he hk hjk hpre hfuel
    obtain ⟨fuel, rfl⟩ : ∃ f, fuel = f + 1 := ⟨fuel - 1, by omega⟩
    have hkm : k < pattern.length := by omega
    rw [find_pattern_loop, if_pos (by simp only []; omega),
      find_pattern_match_literal string pattern case_sens inner _ k rfl (hlit k hkm).1
        (hlit k hkm).2 rfl]
    simp only [bind, Except.bind]
    cases hm : (decide (j + k < string.length) &&
        char_eq case_sens (string.getD (j + k) 0) (pattern.getD k 0)) with
    | true =>
      simp only [Bool.and_eq_true, decide_eq_true_eq] at hm
      have hcast : ((k : Int) + 1) = ((k + 1 : Nat) : Int) := by push_cast; rfl
      simp only [hcast]
      refine ih (k + 1) fuel (by omega) (by omega) (by omega) ?_ (by omega)
      intro t ht
      by_cases htk : t = k
      · rw [htk]; exact hm.2
      · exact hpre t (by omega)
    | false =>
      simp only []
      obtain ⟨r, hr1, hr2⟩ := hA fuel (by omega)
      refine ⟨r, hr1, firstFrom_of_range case_sens string pattern j (j + 1) r (by omega) ?_ hr2⟩
      intro t ht1 ht2 hocc
      have htj : t = j := by omega
      subst htj
      rw [Bool.and_eq_false_iff] at hm
      rcases hm with hm | hm
      · have := hocc.1
        simp only [decide_eq_false_iff_not] at hm
        omega
      · have := hocc.2 k hkm
        rw [this] at hm
        cases hm

/-- The loop of `find_pattern` on a non-empty literal pattern, (re)started at
the virtual asterisk with the string position `i`: it returns the first
occurrence from `i` on. -/
theorem find_literal_from (string pattern : List Nat) (case_sens : Bool) (inner : Nat)
    (hm : 0 < pattern.length)
    (hlit : ∀ k < pattern.length, pattern.getD k 0 ≠ 42 ∧ pattern.getD k 0 ≠ 35)
    (hin : string.length < inner) :
    ∀ (d i fuel : Nat), string.length - i = d → i ≤ string.length →
      d * (pattern.length + 1) + 1 ≤ fuel →
      ∃ r, find_pattern_loop string pattern case_sens inner fuel
          { p := -1, ss := 0, s := i, first := true, context := [] } = .ok r ∧
        FirstFrom case_sens string pattern i r := by
  intro d
  induction d using Nat.strong_induction_on with
  | _ d ih =>
    intro i fuel hd hi hfuel
    obtain ⟨fuel, rfl⟩ : ∃ f, fuel = f + 1 := ⟨fuel - 1, by omega⟩
    obtain ⟨j, h1, h2, h3, h4, h5⟩ := find_pattern_match_start string pattern case_sens inner i hm
      (hlit 0 hm).1 (hlit 0 hm).2 hi (by omega)
    have hno : ∀ t, i ≤ t → t < j → ¬ occurs_at case_sens string pattern t := by
      intro t ht1 ht2 hocc
      have := hocc.2 0 hm
      rw [Nat.add_zero, h3 t ht1 ht2] at this
      cases this
    rw [find_pattern_loop, if_pos (by simp only []; omega), h5]
    simp only [bind, Except.bind]
    by_cases hj : j < string.length
    · rw [if_pos hj]
      simp only []
      have hcast : ((0 : Int) + 1) = ((1 : Nat) : Int) := rfl
      rw [hcast]
      have hmul : (string.length - (j + 1) + 1) * (pattern.length + 1) ≤
          d * (pattern.length + 1) := Nat.mul_le_mul_right _ (by omega)
      rw [Nat.add_mul, Nat.one_mul] at hmul
      obtain ⟨r, hr1, hr2⟩ := find_literal_tail string pattern case_sens inner hlit j
        (fun fuel' hf => ih (string.length - (j + 1)) (by omega) (j + 1) fuel' rfl (by omega) hf)
        (pattern.length - 1) 1 fuel rfl hm (by omega)
        (fun t ht => by
          have ht0 : t = 0 := by omega
          rw [ht0, Nat.add_zero]
          exact h4 hj)
        (by omega)
      exact ⟨r, hr1, firstFrom_of_range case_sens string pattern i j r h1 hno hr2⟩
    · rw [if_neg hj]
      simp only []
      refine ⟨none, rfl, ?_⟩
      intro t ht hocc
      by_cases htj : t < j
      · exact hno t ht htj hocc
      · have := hocc.1
        omega

/-- C37 (`find_pattern` on literal patterns).  For every string and every
pattern that holds no `*` (42) and no `#` (35), case sensitive or not,
`find_pattern` returns for every fuel from
`string.length * (pattern.length + 1) + 1` on.  When it returns a position,
the pattern occurs there (the characters compared exactly when `case_sens` is
set, and after `toupper` on both otherwise), it occurs at no smaller offset,
and `*m_len` is the length of the pattern.  It returns `NULL` exactly when
the pattern occurs nowhere in the string.  For the empty pattern it returns
the start of the string with `*m_len = 0`. -/
theorem find_pattern_literal (string pattern : List Nat) (case_sens : Bool) (fuel : Nat)
    (hlit : ∀ c ∈ pattern, c ≠ 42 ∧ c ≠ 35)
    (hfuel : string.length * (pattern.length + 1) + 1 ≤ fuel) :
    ∃ r, find_pattern fuel string pattern case_sens = .ok r ∧
      (∀ pos m_len, r = some (pos, m_len) →
        occurs_at case_sens string pattern pos ∧
        (∀ j, j < pos → ¬ occurs_at case_sens string pattern j) ∧
        m_len = pattern.length) ∧
      (r = none ↔ ∀ j, ¬ occurs_at case_sens string pattern j) ∧
      (pattern = [] → r = some (0, 0)) := by
  have hlit' : ∀ k < pattern.length, pattern.getD k 0 ≠ 42 ∧ pattern.getD k 0 ≠ 35 := by
    intro k hk
    rw [List.getD_eq_getElem _ _ hk]
    exact hlit _ (List.getElem_mem hk)
  rcases Nat.eq_zero_or_pos pattern.length with h0 | hm
  · have hnil : pattern = [] := List.length_eq_zero.mp h0
    subst hnil
    obtain ⟨fuel, rfl⟩ : ∃ f, fuel = f + 1 := ⟨fuel - 1, by omega⟩
    refine ⟨some (0, 0), ?_, ?_, ?_, fun _ => rfl⟩
    · unfold find_pattern
      rw [find_pattern_loop, if_pos (by decide)]
      unfold find_pattern_match
      simp only []
      rw [if_pos (Or.inl (by decide)), skip_asterisks_literal [] fuel (by decide)]
      rfl
    · intro pos m_len h
      simp only [Option.some.injEq, Prod.mk.injEq] at h
      obtain ⟨rfl, rfl⟩ := h
      exact ⟨⟨by simp, fun k hk => absurd hk (by simp)⟩, fun j hj => absurd hj (by omega), rfl⟩
    · constructor
      · intro h; cases h
      · intro h
        exact absurd ⟨by simp, fun k hk => absurd hk (by simp)⟩ (h 0)
  · have hmul : string.length ≤ string.length * (pattern.length + 1) :=
      Nat.le_mul_of_pos_right _ (by omega)
    obtain ⟨r, hr1, hr2⟩ := find_literal_from string pattern case_sens fuel hm hlit' (by omega)
      string.length 0 fuel rfl (by omega) hfuel
    refine ⟨r, hr1, ?_, ?_, fun h => absurd hm (by rw [h]; decide)⟩
    · intro pos m_len h
      subst h
      obtain ⟨_, h2, h3, h4⟩ := hr2
      exact ⟨h2, fun j hj => h3 j (by omega) hj, h4⟩
    · constructor
      · intro h
        subst h
        exact fun j => hr2 j (by omega)
      · intro h
        cases r with
        | none => rfl
        | some q => exact absurd hr2.2.1 (h q.1)

/-- An instance of the C37 theorem: the pattern `LO` in the string `hello`,
without case sensitivity, is found at the offset 3 with the length 2. -/
theorem find_pattern_literal_witness :
    (∃ r, find_pattern 100 [104, 101, 108, 108, 111] [76, 79] false = .ok r ∧
      (∀ pos m_len, r = some (pos, m_len) →
        occurs_at false [104, 101, 108, 108, 111] [76, 79] pos ∧
        (∀ j, j < pos → ¬ occurs_at false [104, 101, 108, 108, 111] [76, 79] j) ∧
        m_len = ([76, 79] : List Nat).length) ∧
      (r = none ↔ ∀ j, ¬ occurs_at false [104, 101, 108, 108, 111] [76, 79] j) ∧
      (([76, 79] : List Nat) = [] → r = some (0, 0))) ∧
    result_of (find_pattern 100 [104, 101, 108, 108, 111] [76, 79] false) = some (some (3, 2)) :=
  ⟨find_pattern_literal [104, 101, 108, 108, 111] [76, 79] false 100 (by decide) (by decide),
    by decide⟩

/-! ## Searching with wildcards -/

/-- C38 (`find_pattern` on wildcard patterns), refuted by evaluation.  The
pattern `a*b*c*d*e*f*g*h*i*j*k*l*m*n*o*p*yz` matches the whole of the string
`abcdefghijklmnopyxyz` (the last asterisk standing for `yx`, the others for
nothing), and `find_pattern` returns `NULL`: at the sixteenth asterisk the
array `context` is full (the virtual asterisk and fifteen others), the place
to resume from is not stacked, and after the mismatch of `z` with `x` the
search resumes at the fifteenth asterisk and fails.  With the letter `p` and
the asterisk after it taken out of both, the match is found. -/
theorem sixteenth_asterisk_is_not_stacked :
    result_of (find_pattern 200 exString exPattern true) = some none ∧
    wild_match true exPattern exString = true ∧
    result_of (find_pattern 200 (exString.take 15 ++ exString.drop 16)
      (exPattern.take 30 ++ exPattern.drop 32) true) = some (some (0, 19)) ∧
    wild_match true (exPattern.take 30 ++ exPattern.drop 32)
      (exString.take 15 ++ exString.drop 16) = true := by
  decide

/-! ## The occurrences in a text box -/

theorem find_pattern_asterisk (string : List Nat) (case_sens : Bool) (fuel : Nat) :
    find_pattern (fuel + 2) string [42] case_sens = .ok (some (0, 0)) := by
  unfold find_pattern
  rw [find_pattern_loop, if_pos (by decide)]
  unfold find_pattern_match
  simp only []
  rw [if_pos (Or.inl (by decide))]
  have h : skip_asterisks [42] (fuel + 2) (-1) = .ok 1 := by
    rw [skip_asterisks, if_pos (by decide), skip_asterisks, if_neg (by decide)]
    rfl
  rw [h]
  rfl

theorem occurrences_step_asterisk (box_text : List Nat) (case_sens : Bool) (length : Nat)
    (h0 : 0 < length) (h32 : length < 2 ^ 32) (fuel avail : Nat) (found : List (Nat × Nat)) :
    find_occurrences_loop box_text [42] case_sens 2 (fuel + 1) 0 length (avail + 1) found =
      find_occurrences_loop box_text [42] case_sens 2 fuel 0 length avail
        (found ++ [(0, 0)]) := by
  have hi : ((0 : Int) % 2 ^ 32).toNat = 0 := by decide
  rw [find_occurrences_loop, if_pos h0, find_pattern_asterisk]
  simp only [bind, Except.bind, if_neg (Nat.succ_ne_zero avail), hi, Nat.add_zero, Nat.zero_mod,
    Nat.sub_zero, Nat.sub_self, Nat.add_mod_right, Nat.mod_eq_of_lt h32, Nat.add_sub_cancel]

/-- C39 (`find_occurrences` makes progress), refuted.  For the pattern `*`,
which is not empty, `find_pattern` returns the start of the text with
`*m_len = 0` whatever the text is.  So on a box with a text of `length`
characters (`0 < length < 2 ^ 32`) the loop of `find_occurrences` appends an
entry from 0 to 0 and goes round with `text` and `length` as they were: with
`avail` entries left to allocate it appends `avail` such entries and returns
`false` when `calloc` fails, and with fewer than `avail` turns of fuel it has
not returned. -/
theorem asterisk_pattern_makes_no_progress (box_text : List Nat) (case_sens : Bool)
    (length : Nat) (h0 : 0 < length) (h32 : length < 2 ^ 32) :
    (∀ (avail : Nat) (found : List (Nat × Nat)),
      find_occurrences_loop box_text [42] case_sens 2 (avail + 1) 0 length avail found =
        .ok (false, found ++ List.replicate avail (0, 0))) ∧
    (∀ (fuel k : Nat) (found : List (Nat × Nat)),
      find_occurrences_loop box_text [42] case_sens 2 fuel 0 length (fuel + k) found =
        .error .fuel) := by
  constructor
  · intro avail
    induction avail with
    | zero =>
      intro found
      rw [find_occurrences_loop, if_pos h0, find_pattern_asterisk]
      simp only [bind, Except.bind, if_true, List.replicate_zero, List.append_nil]
      rfl
    | succ avail ih =>
      intro found
      rw [occurrences_step_asterisk box_text case_sens length h0 h32, ih, List.replicate_succ,
        List.append_assoc]
      rfl
  · intro fuel
    induction fuel with
    | zero => intro k found; rfl
    | succ fuel ih =>
      intro k found
      have : fuel + 1 + k = (fuel + k) + 1 := by omega
      rw [this, occurrences_step_asterisk box_text case_sens length h0 h32, ih]

/-- An instance of the C39 theorem: on a box with the text `ab` and three
entries left to allocate, the loop appends three empty matches at the offset 0
and returns `false`. -/
theorem asterisk_pattern_makes_no_progress_witness :
    find_occurrences_loop [97, 98] [42] true 2 4 0 2 3 [] =
      .ok (false, [(0, 0), (0, 0), (0, 0)]) ∧
    find_occurrences_loop [97, 98] [42] true 2 3 0 2 3 [] = .error .fuel :=
  ⟨(asterisk_pattern_makes_no_progress [97, 98] true 2 (by decide) (by decide)).1 3 [],
    (asterisk_pattern_makes_no_progress [97, 98] true 2 (by decide) (by decide)).2 3 0 []⟩

/-! ## Child lists, as the shape gives them -/

theorem rep_tops_parent {s : State} : ∀ (f : Forest) (p prev : Option Nat), Rep s p prev f →
    ∀ k ∈ f.tops, ∃ x, s.heap k = some x ∧ x.parent = p := by
  intro f
  induction f with
  | nil => intro _ _ _ k hk; simp [Forest.tops] at hk
  | cons id kd r _ ihr =>
    intro p prev hrep k hk
    simp only [Rep] at hrep
    simp only [Forest.tops, List.mem_cons] at hk
    rcases hk with rfl | hk
    · cases hn : s.heap k with
      | none => rw [hn] at hrep; exact hrep.1.elim
      | some n =>
        rw [hn] at hrep
        exact ⟨n, rfl, hrep.1.1⟩
    · exact ihr p (some id) hrep.2.2 k hk

theorem childChain_none (s : State) (kids : List Nat) (h : ChildChain s none kids) :
    kids = [] := by
  cases kids with
  | nil => rfl
  | cons c cs => exact absurd h.1 (by simp)

theorem ChildChain_unique {s : State} : ∀ (l1 l2 : List Nat) (first : Option Nat),
    ChildChain s first l1 → ChildChain s first l2 → l1 = l2 := by
  intro l1
  induction l1 with
  | nil =>
    intro l2 first h1 h2
    cases l2 with
    | nil => rfl
    | cons c cs =>
      simp only [ChildChain] at h1 h2
      rw [h1] at h2
      cases h2.1
  | cons c cs ih =>
    intro l2 first h1 h2
    cases l2 with
    | nil =>
      simp only [ChildChain] at h1 h2
      rw [h2] at h1
      cases h1.1
    | cons d ds =>
      simp only [ChildChain] at h1 h2
      have hcd : c = d := by
        have := h1.1.symm.trans h2.1
        exact Option.some.inj this
      subst hcd
      cases hn : s.heap c with
      | none => rw [hn] at h1; exact h1.2.elim
      | some n =>
        rw [hn] at h1 h2
        rw [ih ds _ h1.2 h2.2]

theorem childChain_heap {s : State} : ∀ (l : List Nat) (first : Option Nat),
    ChildChain s first l → ∀ k ∈ l, s.heap k ≠ none := by
  intro l
  induction l with
  | nil => intro _ _ k hk; simp at hk
  | cons c cs ih =>
    intro first h k hk
    simp only [ChildChain] at h
    cases hn : s.heap c with
    | none => rw [hn] at h; exact h.2.elim
    | some n =>
      rw [hn] at h
      simp only [List.mem_cons] at hk
      rcases hk with rfl | hk
      · rw [hn]; simp
      · exact ih _ h.2 k hk

/-- The children of the root, as the shape gives them. -/
theorem shape_chain_root {s : State} {root : Nat} {F : Forest} (hsub : SubtreeAt s root F)
    (r : treeview_node) (hr : s.heap root = some r) :
    ChildChain s r.children F.tops ∧ ∀ k ∈ F.tops, parentOf s k = some root := by
  obtain ⟨hroot, hrep, _⟩ := hsub
  rw [hr] at hroot
  simp only [] at hroot
  refine ⟨by rw [hroot]; exact rep_childChain _ _ _ hrep, ?_⟩
  intro k hk
  obtain ⟨x, hx, hp⟩ := rep_tops_parent F (some root) none hrep k hk
  simp only [parentOf, hx, hp]

/-- The children of a node of the shape, as the shape gives them. -/
theorem shape_chain_node {s : State} {root : Nat} {F : Forest} (hsub : SubtreeAt s root F)
    (hnd : F.ids.Nodup) (a : Nat) (n : treeview_node) (ha : a ∈ F.ids)
    (hn : s.heap a = some n) :
    ChildChain s n.children (F.sub a).tops ∧ ∀ k ∈ (F.sub a).tops, parentOf s k = some a := by
  obtain ⟨hroot, hrep, hnot⟩ := hsub
  cases hr : s.heap root with
  | none => rw [hr] at hroot; exact hroot.elim
  | some rr =>
    rw [hr] at hroot
    obtain ⟨nn, _, _, hnn, hfirst, hrepn, _⟩ := rep_local s a F root none rr hrep hnot
      hnd (fun v hv => by cases hv) hr (fun _ => hroot) (fun h => absurd rfl h) ha
    rw [hn] at hnn
    cases hnn
    refine ⟨by rw [hfirst]; exact rep_childChain _ _ _ hrepn, ?_⟩
    intro k hk
    obtain ⟨x, hx, hp⟩ := rep_tops_parent (F.sub a) (some a) none hrepn k hk
    simp only [parentOf, hx, hp]

/-! ## Expand toggles that return -/

theorem lowered_id (x : treeview_node) : lowered x true 0 = x := by
  cases x
  simp [lowered]

theorem lowered_lowered (x : treeview_node) (b1 b2 : Bool) (e1 e2 : Int) :
    lowered (lowered x b1 e1) b2 e2 = lowered x (b1 && b2) (e1 + e2) := by
  cases x
  simp [lowered, Bool.and_assoc, sub_sub]

theorem contract_cb_collapsed (g : treeview_globals) (fuel : Nat) (x : Nat) (s : State)
    (n : treeview_node) (hn : s.heap x = some n) (hty : n.type ≠ .TREE_NODE_ROOT)
    (hcol : n.expanded = false) :
    treeview_node_contract_cb g fuel x s () = .ok (false, s, ()) := by
  simp [treeview_node_contract_cb, load, hn, c_assert, hty, hcol, bind, Except.bind, pure,
    Except.pure]

/-- The height loop of the contraction on a node with a parent chain: it
returns, and lowers by `d` the height of the node and of some of its
ancestors, nothing else. -/
theorem contract_height_loop_spec (d : Int) : ∀ (path : List Nat) (s : State) (node : Nat)
    (fuel : Nat), AncPath s node path → path ≠ [] → path.length ≤ fuel →
    ∃ s', contract_height_loop d fuel s node = .ok s' ∧ s'.events = s.events ∧
      ∀ k, ∃ e : Int, (e = 0 ∨ e = d) ∧ (k ∉ node :: path → e = 0) ∧ (k = node → e = d) ∧
        s'.heap k = (s.heap k).map (fun x => lowered x true e) := by
  intro path
  induction path with
  | nil => intro _ _ _ _ h; exact absurd rfl h
  | cons p ps ih =>
    intro s node fuel hpath _ hfuel
    obtain ⟨f1, rfl⟩ : ∃ i, fuel = i + 1 := ⟨fuel - 1, by simp at hfuel; omega⟩
    have hnd := AncPath_nodup _ _ hpath
    have hpn : p ≠ node := by
      intro h
      rw [h] at hnd
      simp at hnd
    obtain ⟨h1, h2⟩ := hpath
    cases hn : s.heap node with
    | none => rw [hn] at h1; exact h1.elim
    | some n =>
    rw [hn] at h1
    simp only [] at h1
    have hcongr : ∀ a, ((store s node { n with height := n.height - d }).heap a).map
        (fun n => n.parent) = (s.heap a).map (fun n => n.parent) := by
      intro a
      simp only [store]
      by_cases ha : a = node
      · simp [ha, hn]
      · simp [ha]
    have h2' := AncPath_congr hcongr ps p h2
    have e1 : load (store s node { n with height := n.height - d }) node =
        .ok { n with height := n.height - d } := by simp [load, store]
    have e2 : ∀ q, q ≠ node → load (store s node { n with height := n.height - d }) q =
        load s q := by
      intro q hq
      simp [load, store, hq]
    have e3 : ptr ({ n with height := n.height - d } : treeview_node).parent = .ok p := by
      show ptr n.parent = _
      rw [h1]
      rfl
    have hstop : ∀ k, ∃ e : Int, (e = 0 ∨ e = d) ∧ (k ∉ node :: p :: ps → e = 0) ∧
        (k = node → e = d) ∧
        (store s node { n with height := n.height - d }).heap k =
          (s.heap k).map (fun x => lowered x true e) := by
      intro k
      by_cases hk : k = node
      · refine ⟨d, Or.inr rfl, fun h => absurd (by simp [hk]) h, fun _ => rfl, ?_⟩
        simp [store, hk, hn, lowered]
      · refine ⟨0, Or.inl rfl, fun _ => rfl, fun h => absurd h hk, ?_⟩
        simp only [store, if_neg hk]
        cases s.heap k with
        | none => rfl
        | some x => simp [lowered_id]
    rw [contract_height_loop]
    simp only [modify, hn, bind, Except.bind, e1, e3, e2 p hpn]
    cases ps with
    | nil =>
      simp only [AncPath] at h2
      cases hp : s.heap p with
      | none => rw [hp] at h2; exact h2.elim
      | some np =>
        rw [hp] at h2
        simp only [] at h2
        refine ⟨store s node { n with height := n.height - d },
          by simp [load, hp, h2, pure, Except.pure], rfl, hstop⟩
    | cons pp ps' =>
      obtain ⟨h3, h4⟩ := h2
      cases hp : s.heap p with
      | none => rw [hp] at h3; exact h3.elim
      | some np =>
        rw [hp] at h3
        simp only [] at h3
        have hq : pp ≠ node := by
          intro h
          rw [h] at hnd
          simp at hnd
        have hpp : ∃ x, s.heap pp = some x := by
          cases ps' with
          | nil =>
            simp only [AncPath] at h4
            cases hx : s.heap pp with
            | none => rw [hx] at h4; exact h4.elim
            | some x => exact ⟨x, rfl⟩
          | cons q qs =>
            have := h4.1
            cases hx : s.heap pp with
            | none => rw [hx] at this; exact this.elim
            | some x => exact ⟨x, rfl⟩
        obtain ⟨x, hx⟩ := hpp
        have e4 : load s p = .ok np := by simp [load, hp]
        have e5 : load s pp = .ok x := by simp [load, hx]
        simp only [e4, h3, e2 pp hq, e5]
        by_cases he : x.expanded = true
        · simp only [he, if_true]
          obtain ⟨s', hs', hev, hheap⟩ := ih _ p f1 h2' (by simp)
            (by simp at hfuel ⊢; omega)
          refine ⟨s', hs', hev, ?_⟩
          intro k
          obtain ⟨e, hed, hout, _, hk'⟩ := hheap k
          by_cases hk : k = node
          · have hnp : node ∉ p :: pp :: ps' := (List.nodup_cons.mp hnd).1
            have he0 := hout (hk ▸ hnp)
            refine ⟨d, Or.inr rfl, fun h => absurd (by simp [hk]) h, fun _ => rfl, ?_⟩
            rw [hk', he0]
            simp [store, hk, hn, lowered]
          · refine ⟨e, hed, fun h => hout (fun h' => h (List.mem_cons_of_mem _ h')),
              fun h => absurd h hk, ?_⟩
            rw [hk']
            simp only [store, if_neg hk]
        · refine ⟨store s node { n with height := n.height - d },
            by simp [he, pure, Except.pure], rfl, hstop⟩

/-- The contraction callback on an expanded node that is not the root, whose
height is at least one row and which has a parent chain: it returns, collapses
the node, and lowers by its height less one row the height of the node and of
some of its ancestors, nothing else. -/
theorem contract_cb_spec (g : treeview_globals) (fuel : Nat) (node : Nat) (s : State)
    (n : treeview_node) (path : List Nat) (hn : s.heap node = some n)
    (hexp : n.expanded = true) (hty : n.type ≠ .TREE_NODE_ROOT)
    (hh : g.line_height ≤ n.height) (hpath : AncPath s node path) (hne : path ≠ [])
    (hfuel : path.length ≤ fuel) :
    ∃ s', treeview_node_contract_cb g fuel node s () = .ok (false, s', ()) ∧
      s'.events = s.events ∧
      ∀ k, ∃ e : Int, (e = 0 ∨ e = n.height - g.line_height) ∧ (k ∉ node :: path → e = 0) ∧
        (k = node → e = n.height - g.line_height) ∧
        s'.heap k = (s.heap k).map (fun x => lowered x (!decide (k = node)) e) := by
  have hcongr : ∀ a, ((store s node { n with expanded := !n.expanded }).heap a).map
      (fun n => n.parent) = (s.heap a).map (fun n => n.parent) := by
    intro a
    simp only [store]
    by_cases ha : a = node
    · simp [ha, hn]
    · simp [ha]
  have hpath1 := AncPath_congr hcongr path node hpath
  obtain ⟨s', hs', hev, hheap⟩ := contract_height_loop_spec (n.height - g.line_height) path
    (store s node { n with expanded := !n.expanded }) node fuel hpath1 hne hfuel
  refine ⟨s', ?_, hev, ?_⟩
  · simp only [treeview_node_contract_cb, load, hn, c_assert, hty, hexp, bind, Except.bind,
      modify, ne_eq, not_false_eq_true, decide_True, if_true, Bool.true_eq_false, if_false,
      pure, Except.pure]
    have hl : (store s node { n with expanded := !true }).heap node =
        some { n with expanded := !true } := by simp [store]
    simp only [hexp] at hs'
    simp only [hl, ge_iff_le, sub_nonneg, hh, decide_True, if_true, hs']
  · intro k
    obtain ⟨e, hed, hout, hnode, hk'⟩ := hheap k
    refine ⟨e, hed, hout, hnode, ?_⟩
    rw [hk']
    simp only [store]
    by_cases hk : k = node
    · simp [hk, hn, hexp, lowered]
    · simp only [if_neg hk]
      cases s.heap k with
      | none => rfl
      | some x => simp [lowered, hk]

theorem contracted_refl (g : treeview_globals) (a : Nat) (path : List Nat) (s : State) :
    Contracted g a path s s [] := by
  refine ⟨rfl, fun k => ⟨0, le_refl _, fun _ _ => rfl, fun _ => by simp, ?_⟩⟩
  cases s.heap k with
  | none => rfl
  | some x => simp [lowered_id]

theorem contracted_parent {g : treeview_globals} {a : Nat} {path : List Nat} {s t : State}
    {D : List Nat} (h : Contracted g a path s t D) (k : Nat) :
    (t.heap k).map (fun n => n.parent) = (s.heap k).map (fun n => n.parent) := by
  obtain ⟨e, _, _, _, hk⟩ := h.2 k
  rw [hk, Option.map_map]
  rfl

/-- One more call of the contraction callback, on a child `c` of `a` that it
has not been called on: it returns, and the memory it leaves is the starting
memory contracted at `c` as well. -/
theorem contracted_step (g : treeview_globals) (cfuel : Nat) (a : Nat) (path : List Nat)
    (s t : State) (D : List Nat) (c : Nat) (x : treeview_node)
    (hC : Contracted g a path s t D) (hcD : c ∉ D) (hcp : c ∉ a :: path)
    (hx : s.heap c = some x) (hty : x.type ≠ .TREE_NODE_ROOT) (hpar : x.parent = some a)
    (hh : x.expanded = true → g.line_height ≤ x.height)
    (hpath : AncPath s a path) (hfuel : path.length + 1 ≤ cfuel) :
    ∃ t', treeview_node_contract_cb g cfuel c t () = .ok (false, t', ()) ∧
      Contracted g a path s t' (c :: D) := by
  obtain ⟨e0, _, hout0, _, hc0⟩ := hC.2 c
  have he0 : e0 = 0 := hout0 hcD hcp
  have htc : t.heap c = some x := by
    rw [hc0, hx, he0]
    simp [hcD, lowered_id]
  have hmem : ∀ k, k ≠ c → (decide (k ∈ c :: D)) = decide (k ∈ D) := by
    intro k hk
    simp [hk]
  cases hxe : x.expanded with
  | false =>
    refine ⟨t, contract_cb_collapsed g cfuel c t x htc hty hxe, hC.1, ?_⟩
    intro k
    obtain ⟨e, h1, h2, h3, h4⟩ := hC.2 k
    refine ⟨e, h1, fun hk => h2 (fun h => hk (List.mem_cons_of_mem _ h)), ?_, ?_⟩
    · intro hk
      have := h3 hk
      have hr : contract_reduction g s c = 0 := by simp [contract_reduction, hx, hxe]
      simp only [List.map_cons, List.sum_cons, hr, zero_add]
      exact this
    · by_cases hk : k = c
      · subst hk
        rw [h4, hx]
        simp [lowered, hxe]
      · rw [h4, hmem k hk]
  | true =>
    have hpc : AncPath t c (a :: path) := by
      refine AncPath_congr (fun k => contracted_parent hC k) (a :: path) c ?_
      exact ⟨by simp only [hx]; exact hpar, hpath⟩
    obtain ⟨t', hrun, hev, hheap⟩ := contract_cb_spec g cfuel c t x (a :: path) htc hxe hty
      (hh hxe) hpc (by simp) (by simpa using hfuel)
    refine ⟨t', hrun, hev.trans hC.1, ?_⟩
    intro k
    obtain ⟨e, h1, h2, h3, h4⟩ := hC.2 k
    obtain ⟨e', h1', h2', _, h4'⟩ := hheap k
    have hred : contract_reduction g s c = x.height - g.line_height := by
      simp [contract_reduction, hx, hxe]
    have hnn : 0 ≤ x.height - g.line_height := by
      have := hh hxe
      omega
    have he' : 0 ≤ e' ∧ e' ≤ x.height - g.line_height := by
      rcases h1' with h | h <;> rw [h]
      · exact ⟨le_refl _, hnn⟩
      · exact ⟨hnn, le_refl _⟩
    refine ⟨e + e', by omega, ?_, ?_, ?_⟩
    · intro hk hkp
      have hkD : k ∉ D := fun h => hk (List.mem_cons_of_mem _ h)
      have hkc : k ∉ c :: a :: path := by
        intro h
        rcases List.mem_cons.mp h with h | h
        · exact hk (by simp [h])
        · exact hkp h
      rw [h2 hkD hkp, h2' hkc]
      rfl
    · intro hk
      have := h3 hk
      simp only [List.map_cons, List.sum_cons, hred]
      omega
    · rw [h4', h4, Option.map_map]
      congr 1
      funext y
      simp only [Function.comp, lowered_lowered]
      congr 1
      by_cases hk : k = c
      · simp [hk]
      · simp [hk]

/-- The walk of `treeview_node_contract` below the node `a`, from the child `c`
on which the callback was just called: the callback is called on each later
child in turn, and the walk returns. -/
theorem contract_walk (g : treeview_globals) (cfuel : Nat) (a : Nat) (path : List Nat)
    (s : State) (hpath : AncPath s a path) (hfuel : path.length + 1 ≤ cfuel) :
    ∀ (todo : List Nat) (c : Nat) (fuel : Nat) (t : State) (D : List Nat),
    Contracted g a path s t D → c ∈ D → ChildChain s (some c) (c :: todo) →
    (∀ k ∈ c :: todo, k ∉ a :: path ∧ ∃ x, s.heap k = some x ∧ x.type ≠ .TREE_NODE_ROOT ∧
      x.parent = some a ∧ (x.expanded = true → g.line_height ≤ x.height)) →
    (∀ k ∈ todo, k ∉ D) → todo.Nodup → todo.length + 3 ≤ fuel →
    ∃ t', walk_loop false (treeview_node_contract_cb g cfuel) a fuel c t () =
        .ok (false, t', ()) ∧
      Contracted g a path s t' (todo.reverse ++ D) := by
  intro todo
  induction todo with
  | nil =>
    intro c fuel t D hC hcD hch hk _ _ hf
    obtain ⟨hca, x, hx, _, hxp, _⟩ := hk c (List.mem_cons_self _ _)
    have hca' : c ≠ a := fun h => hca (by simp [h])
    obtain ⟨f1, rfl⟩ : ∃ i, fuel = i + 1 := ⟨fuel - 1, by omega⟩
    obtain ⟨f2, rfl⟩ : ∃ i, f1 = i + 1 := ⟨f1 - 1, by omega⟩
    obtain ⟨f3, rfl⟩ : ∃ i, f2 = i + 1 := ⟨f2 - 1, by omega⟩
    simp only [ChildChain, hx, true_and] at hch
    obtain ⟨e, _, _, _, htc⟩ := hC.2 c
    rw [hx] at htc
    simp only [Option.map_some'] at htc
    refine ⟨t, ?_, by simpa using hC⟩
    simp [walk_loop, walk_ascend, load, htc, lowered, hcD, hch, hxp, hca', ptr, bind,
      Except.bind, pure, Except.pure]
  | cons d rest ih =>
    intro c fuel t D hC hcD hch hk hD hnd hf
    obtain ⟨hca, x, hx, _, hxp, _⟩ := hk c (List.mem_cons_self _ _)
    obtain ⟨hda, y, hy, hyt, hyp, hyh⟩ := hk d (List.mem_cons_of_mem _ (List.mem_cons_self _ _))
    have hca' : c ≠ a := fun h => hca (by simp [h])
    have hda' : d ≠ a := fun h => hda (by simp [h])
    obtain ⟨f1, rfl⟩ : ∃ i, fuel = i + 1 := ⟨fuel - 1, by omega⟩
    obtain ⟨f2, rfl⟩ : ∃ i, f1 = i + 1 := ⟨f1 - 1, by omega⟩
    simp only [List.length_cons] at hf
    simp only [ChildChain, hx, true_and] at hch
    have hnext : x.sibling_next = some d := hch.1
    obtain ⟨e, _, _, _, htc⟩ := hC.2 c
    rw [hx] at htc
    simp only [Option.map_some'] at htc
    have hdD : d ∉ D := hD d (List.mem_cons_self _ _)
    obtain ⟨t1, hcb, hC1⟩ := contracted_step g cfuel a path s t D d y hC hdD hda hy hyt hyp hyh
      hpath hfuel
    obtain ⟨t', hrun, hC'⟩ := ih d (f2 + 1) t1 (d :: D) hC1 (List.mem_cons_self _ _)
      (by
        simp only [ChildChain, true_and]
        rw [hnext] at hch
        simpa [ChildChain] using hch.2)
      (fun k hk' => hk k (List.mem_cons_of_mem _ hk'))
      (by
        intro k hk' h
        rcases List.mem_cons.mp h with h | h
        · rw [h] at hk'
          exact (List.nodup_cons.mp hnd).1 hk'
        · exact hD k (List.mem_cons_of_mem _ hk') h)
      (List.nodup_cons.mp hnd).2 (by omega)
    refine ⟨t', ?_, by simpa using hC'⟩
    rw [walk_loop]
    simp only [load, htc, lowered, hcD, bind, Except.bind, decide_True, Bool.not_true,
      Bool.and_false, Bool.false_or, Bool.false_eq_true, if_false, walk_ascend, hca', hnext,
      hda', hcb, pure, Except.pure]
    exact hrun

/-- The contraction of an expanded node that is not the root and has a parent
chain, when every child is no root and is, if expanded, at least one row
high, and the node is at least one row higher than what the callback takes
off for its children: `treeview_node_contract` returns `NSERROR_OK`, makes no
host call, and leaves the node and its children collapsed, the other expanded
flags as they were. -/
theorem contract_returns (g : treeview_globals) (fuel : Nat) (tree : treeview) (s : State)
    (node : Nat) (n : treeview_node) (path kids : List Nat) (hn : s.heap node = some n)
    (hexp : n.expanded = true) (hty : n.type ≠ .TREE_NODE_ROOT)
    (hkids : ChildChain s n.children kids)
    (hcol : ∀ k ∈ kids, ∃ x, s.heap k = some x ∧ x.type ≠ .TREE_NODE_ROOT ∧
      x.parent = some node ∧ (x.expanded = true → g.line_height ≤ x.height))
    (hh : g.line_height + (kids.map (contract_reduction g s)).sum ≤ n.height)
    (hpath : AncPath s node path) (hne : path ≠ [])
    (hfuel : path.length + kids.length + 3 ≤ fuel) :
    ∃ s', treeview_node_contract g fuel tree s node = .ok (.NSERROR_OK, s') ∧
      s'.events = s.events ∧
      ∀ k, (s'.heap k).map (fun x => x.expanded) =
        (s.heap k).map (fun x => x.expanded && !decide (k = node ∨ k ∈ kids)) := by
  have hknp : ∀ k ∈ kids, k ∉ node :: path := by
    intro k hk
    obtain ⟨x, hx, _, hxp, _⟩ := hcol k hk
    have hp : AncPath s k (node :: path) := ⟨by simp only [hx]; exact hxp, hpath⟩
    exact (List.nodup_cons.mp (AncPath_nodup _ _ hp)).1
  have hnd := ChildChain_nodup kids _ hkids
  have hnk : node ∉ kids := fun h => hknp node h (List.mem_cons_self _ _)
  -- the walk over the children
  have hwalk : ∃ t D, treeview_walk_internal fuel (some node) false
      (treeview_node_contract_cb g fuel) s () = .ok (false, t, ()) ∧
      Contracted g node path s t D ∧ (∀ k, k ∈ D ↔ k ∈ kids) ∧
      (D.map (contract_reduction g s)).sum = (kids.map (contract_reduction g s)).sum := by
    obtain ⟨f1, rfl⟩ : ∃ i, fuel = i + 1 := ⟨fuel - 1, by omega⟩
    obtain ⟨f2, rfl⟩ : ∃ i, f1 = i + 1 := ⟨f1 - 1, by omega⟩
    simp only [treeview_walk_internal]
    rw [walk_loop_succ, hn]
    simp only [hexp, Bool.or_true, if_true]
    cases kids with
    | nil =>
      simp only [ChildChain] at hkids
      rw [hkids]
      exact ⟨s, [], walk_else_root false _ node f2 _ s (), contracted_refl g node path s,
        fun _ => Iff.rfl, rfl⟩
    | cons c rest =>
      have hc : n.children = some c := hkids.1
      rw [hc] at hkids ⊢
      obtain ⟨x, hx, hxt, hxp, hxh⟩ := hcol c (List.mem_cons_self _ _)
      have hcn : c ≠ node := fun h => hnk (h ▸ List.mem_cons_self _ _)
      obtain ⟨t1, hcb, hC1⟩ := contracted_step g (f2 + 1 + 1) node path s s [] c x
        (contracted_refl g node path s) (by simp) (hknp c (List.mem_cons_self _ _)) hx hxt hxp
        hxh hpath (by omega)
      obtain ⟨t', hrun, hC'⟩ := contract_walk g (f2 + 1 + 1) node path s hpath (by omega) rest
        c (f2 + 1) t1 [c] hC1 (List.mem_cons_self _ _) hkids
        (fun k hk => ⟨hknp k hk, hcol k hk⟩)
        (by
          intro k hk h
          rw [List.mem_singleton] at h
          rw [h] at hk
          exact (List.nodup_cons.mp hnd).1 hk)
        (List.nodup_cons.mp hnd).2
        (by simp only [List.length_cons] at hfuel; omega)
      refine ⟨t', rest.reverse ++ [c], ?_, hC', ?_, ?_⟩
      · simp only [walk_visit, if_neg hcn, hcb]
        exact hrun
      · intro k
        simp only [List.mem_append, List.mem_reverse, List.mem_singleton, List.mem_cons]
        tauto
      · simp only [List.map_append, List.map_reverse, List.sum_append, List.sum_reverse,
          List.map_cons, List.map_nil, List.sum_cons, List.sum_nil, add_zero]
        exact add_comm _ _
  obtain ⟨t, D, hw, hC, hDm, hDs⟩ := hwalk
  obtain ⟨e, he0, _, hea, htn⟩ := hC.2 node
  have hnD : node ∉ D := fun h => hnk ((hDm node).mp h)
  rw [hn] at htn
  simp only [Option.map_some', hnD, decide_False, Bool.not_false] at htn
  have hea' := hea rfl
  rw [hDs] at hea'
  have hpt : AncPath t node path := AncPath_congr (fun k => contracted_parent hC k) path node hpath
  obtain ⟨s', hrun, hev, hheap⟩ := contract_cb_spec g fuel node t (lowered n true e) path htn
    (by simp [lowered, hexp]) (by simpa [lowered] using hty)
    (by simp only [lowered]; omega) hpt hne (by omega)
  refine ⟨s', ?_, hev.trans hC.1, ?_⟩
  · simp only [treeview_node_contract, load, hn, hexp, bind, Except.bind, hw, hrun, pure,
      Except.pure, Bool.true_eq_false, if_false]
  · intro k
    obtain ⟨e1, _, _, _, h1⟩ := hheap k
    obtain ⟨e2, _, _, _, h2⟩ := hC.2 k
    rw [h1, h2, Option.map_map, Option.map_map]
    congr 1
    funext x
    simp only [Function.comp, lowered]
    by_cases hk : k = node
    · simp [hk]
    · by_cases hkD : k ∈ D
      · simp [hk, hkD, (hDm k).mp hkD]
      · have : k ∉ kids := fun h => hkD ((hDm k).mpr h)
        simp [hk, hkD, this]

theorem set_selected_heap (s : State) (l : List Nat) (b : Bool) (k : Nat) (x : treeview_node)
    (hx : s.heap k = some x) :
    ∃ v, (set_selected s l b).heap k = some { x with selected := v } := by
  by_cases hk : k ∈ l
  · exact ⟨b, by simp [set_selected, hx, hk]⟩
  · exact ⟨x.selected, by simp [set_selected, hx, hk]⟩

theorem set_selected_reduction (g : treeview_globals) (s : State) (l : List Nat) (b : Bool)
    (k : Nat) : contract_reduction g (set_selected s l b) k = contract_reduction g s k := by
  cases hx : s.heap k with
  | none => simp [contract_reduction, set_selected, hx]
  | some x =>
    obtain ⟨v, hv⟩ := set_selected_heap s l b k x hx
    simp only [contract_reduction, hv, hx]

/-- An expand toggle returns.  On a tree whose root holds the shape `f`, let
the pointer walk hit the row `a`, in its toggle zone or with a double click
when it is a folder, a click bit set, and let `a` have a parent chain and the
child list `kids`.  If `a` is expanded and not the root, every child is no
root and is, if expanded, at least one row high, and `a` is at least one row
higher than what the contraction takes off for its children, the dispatch
contracts `a`: it returns with one `redraw_request` made, and `a` and its
children are collapsed.  If `a` is a collapsed folder whose children are all
collapsed, or a collapsed entry without children that holds its secondary
slots, the dispatch expands `a`: it returns with one `redraw_request` made,
and `a` is expanded (a folder without children stays collapsed).  Every other
expanded flag is as before. -/
theorem toggle_returns (g : treeview_globals) (font_width : List Nat → Nat → Int)
    (m : browser_mouse_masks) (tree : treeview) (s : State) (f : Forest) (fuel : Nat)
    (mouse : Nat) (x y : Int) (a : Nat) (top : Int) (n : treeview_node) (path kids : List Nat)
    (hsub : SubtreeAt s tree.root f) (hnd : f.ids.Nodup) (hfuel : 2 * f.size + 2 ≤ fuel)
    (hhit : hit_scan g s y (walk_order s false tree.root f) 0 = some (a, top))
    (hn : s.heap a = some n)
    (htog : ((decide (n.type = .TREE_NODE_FOLDER) &&
        mouse_has mouse m.BROWSER_MOUSE_DOUBLE_CLICK &&
        mouse_has mouse (m.BROWSER_MOUSE_CLICK_1 ||| m.BROWSER_MOUSE_CLICK_2)) ||
      (decide (x ≥ n.inset - 1 ∧ x < n.inset + g.step_width) &&
        mouse_has mouse (m.BROWSER_MOUSE_CLICK_1 ||| m.BROWSER_MOUSE_CLICK_2))) = true)
    (hpath : AncPath s a path) (hne : path ≠ []) (hkids : ChildChain s n.children kids)
    (hcon : n.expanded = true → n.type ≠ .TREE_NODE_ROOT ∧
      (∀ k ∈ kids, (s.heap k).map (fun xk => decide (xk.type ≠ .TREE_NODE_ROOT ∧
        (xk.expanded = true → g.line_height ≤ xk.height))) = some true) ∧
      g.line_height + (kids.map (contract_reduction g s)).sum ≤ n.height)
    (hexp : n.expanded = false →
      (n.type = .TREE_NODE_FOLDER ∧ ∀ k ∈ kids, isOpen s false k = false) ∨
      (n.type = .TREE_NODE_ENTRY ∧ n.children = none ∧ 1 ≤ tree.n_fields ∧
        tree.n_fields - 1 ≤ n.fields.length))
    (hfuel2 : path.length + kids.length + (tree.n_fields - 1).toNat + 3 ≤ fuel) :
    ∃ s' r', treeview_mouse_action g font_width m fuel tree s mouse x y = .ok s' ∧
      s'.events = s.events ++ [.redraw_request r'] ∧
      ∀ b, (s'.heap b).map (fun k => k.expanded) =
        (s.heap b).map (fun k =>
          if n.expanded then k.expanded && !decide (b = a ∨ b ∈ kids)
          else k.expanded || (decide (b = a) &&
            !(decide (n.type = .TREE_NODE_FOLDER) && decide (n.children = none)))) := by
  have ha := hit_scan_mem g s y _ 0 a top hhit
  have ha' := walk_order_subset s false tree.root f a ha
  obtain ⟨r, hclear⟩ := clear_selection_ok g tree s f fuel hsub hnd hfuel
  have hn1 := set_selected_get s (walk_order s false tree.root f) false a n hn ha
  have hrun := hit_toggle g font_width m fuel a n { n with selected := false }
    (node_row_height g n) s (set_selected s (walk_order s false tree.root f) false)
    { tree := tree, mouse := mouse, x := x, y := y, current_y := top } _ r htog hclear hn1
  have hrun' : treeview_mouse_action g font_width m fuel tree s mouse x y =
      (match (if n.expanded then
          treeview_node_contract g fuel tree
            (set_selected s (walk_order s false tree.root f) false) a
        else treeview_node_expand g font_width fuel tree
            (set_selected s (walk_order s false tree.root f) false) a) with
      | .ok (_, s2) => .ok (emit s2 (.redraw_request (rect.mk r.x0
          (if r.y0 > top then top else r.y0) r.x1 REDRAW_MAX)))
      | .error e => .error e) := by
    rw [mouse_action_eq g font_width m fuel tree s f mouse x y hsub hfuel]
    simp only [mouse_dispatch, hhit, hn]
    exact hrun
  -- the children of `a` have the parent `a`
  obtain ⟨c2, c3⟩ := shape_chain_node hsub hnd a n ha' hn
  have hk : kids = (f.sub a).tops := ChildChain_unique _ _ _ hkids c2
  have hkp : ∀ k ∈ kids, parentOf s k = some a := fun k hk' => c3 k (hk ▸ hk')
  -- the memory after the selection is cleared
  have hpath1 : AncPath (set_selected s (walk_order s false tree.root f) false) a path :=
    AncPath_congr (set_selected_proj (fun k => k.parent) (fun _ _ => rfl) s _ false) path a hpath
  have hch1 : ChildChain (set_selected s (walk_order s false tree.root f) false) n.children
      kids :=
    ChildChain_congr (set_selected_proj (fun k => k.sibling_next) (fun _ _ => rfl) s _ false)
      _ _ hkids
  have hflag1 : ∀ b, ((set_selected s (walk_order s false tree.root f) false).heap b).map
      (fun k => k.expanded) = (s.heap b).map (fun k => k.expanded) :=
    set_selected_proj (fun k => k.expanded) (fun _ _ => rfl) s _ false
  cases hb : n.expanded with
  | true =>
    obtain ⟨hty, hkc, hh⟩ := hcon hb
    have hcol1 : ∀ k ∈ kids,
        ∃ x1, (set_selected s (walk_order s false tree.root f) false).heap k = some x1 ∧
          x1.type ≠ .TREE_NODE_ROOT ∧ x1.parent = some a ∧
          (x1.expanded = true → g.line_height ≤ x1.height) := by
      intro k hk'
      have h1 := hkc k hk'
      have h2 := hkp k hk'
      cases hxk : s.heap k with
      | none => simp [hxk] at h1
      | some xk =>
        simp only [hxk, Option.map_some', Option.some.injEq, decide_eq_true_eq] at h1
        simp only [parentOf, hxk] at h2
        obtain ⟨v, hv⟩ := set_selected_heap s (walk_order s false tree.root f) false k xk hxk
        exact ⟨_, hv, h1.1, h2, h1.2⟩
    have hh1 : g.line_height + (kids.map (contract_reduction g
        (set_selected s (walk_order s false tree.root f) false))).sum ≤
        ({ n with selected := false } : treeview_node).height := by
      have : kids.map (contract_reduction g
          (set_selected s (walk_order s false tree.root f) false)) =
          kids.map (contract_reduction g s) :=
        List.map_congr_left (fun k _ => set_selected_reduction g s _ false k)
      rw [this]
      exact hh
    obtain ⟨s2, hs2, hev, hfl⟩ := contract_returns g fuel tree
      (set_selected s (walk_order s false tree.root f) false) a { n with selected := false }
      path kids hn1 hb hty hch1 hcol1 hh1 hpath1 hne (by omega)
    refine ⟨emit s2 (.redraw_request (rect.mk r.x0 (if r.y0 > top then top else r.y0) r.x1
      REDRAW_MAX)), rect.mk r.x0 (if r.y0 > top then top else r.y0) r.x1 REDRAW_MAX,
      ?_, ?_, ?_⟩
    · rw [hrun']
      simp only [hb, if_true, hs2]
    · show s2.events ++ _ = _
      rw [hev, set_selected_events]
    · intro b
      show (s2.heap b).map _ = _
      rw [hfl b]
      have := hflag1 b
      cases h1 : (set_selected s (walk_order s false tree.root f) false).heap b <;>
        cases h2 : s.heap b <;> simp [h1, h2] at this ⊢
      rw [this]
  | false =>
    have hkcol1 : ∀ k ∈ kids, ∀ x1,
        (set_selected s (walk_order s false tree.root f) false).heap k = some x1 →
        isOpen s false k = false → x1.expanded = false := by
      intro k _ x1 hx1 ho
      have := hflag1 k
      rw [hx1] at this
      cases hxk : s.heap k with
      | none => simp [hxk] at this
      | some xk =>
        simp only [hxk, Option.map_some', Option.some.injEq] at this
        simp only [isOpen, hxk, Bool.false_or] at ho
        rw [this, ho]
    have hcases : (n.type = .TREE_NODE_FOLDER ∧ n.children = none) ∨
        ((n.type = .TREE_NODE_FOLDER ∧ kids ≠ [] ∧
            ∀ k ∈ kids, ∀ x1,
              (set_selected s (walk_order s false tree.root f) false).heap k = some x1 →
              x1.expanded = false) ∨
          (n.type = .TREE_NODE_ENTRY ∧ kids = [] ∧ 1 ≤ tree.n_fields ∧
            tree.n_fields - 1 ≤ n.fields.length)) := by
      rcases hexp hb with ⟨hty, hc⟩ | ⟨hty, hc, h1, h2⟩
      · by_cases hcn : n.children = none
        · exact Or.inl ⟨hty, hcn⟩
        · refine Or.inr (Or.inl ⟨hty, ?_, ?_⟩)
          · intro h
            rw [h] at hkids
            exact hcn hkids
          · intro k hk' x1 hx1
            exact hkcol1 k hk' x1 hx1 (hc k hk')
      · refine Or.inr (Or.inr ⟨hty, ?_, h1, h2⟩)
        rw [hc] at hkids
        exact childChain_none s _ hkids
    rcases hcases with ⟨hty, hc⟩ | hkind
    · refine ⟨emit (set_selected s (walk_order s false tree.root f) false)
        (.redraw_request (rect.mk r.x0 (if r.y0 > top then top else r.y0) r.x1 REDRAW_MAX)),
        rect.mk r.x0 (if r.y0 > top then top else r.y0) r.x1 REDRAW_MAX, ?_, ?_, ?_⟩
      · rw [hrun']
        simp only [hb, Bool.false_eq_true, if_false, treeview_node_expand, load, hn1, hty, hc,
          bind, Except.bind, pure, Except.pure]
      · show (set_selected s (walk_order s false tree.root f) false).events ++ _ = _
        rw [set_selected_events]
      · intro b
        show ((set_selected s (walk_order s false tree.root f) false).heap b).map _ = _
        rw [hflag1 b]
        cases h2 : s.heap b with
        | none => rfl
        | some k => simp [hty, hc]
    · obtain ⟨s2, hs2, hev, hcore⟩ := expand_core g font_width tree
        (set_selected s (walk_order s false tree.root f) false) a { n with selected := false }
        path kids fuel hn1 hb hpath1 hne hch1 hkind (by omega)
      refine ⟨emit s2 (.redraw_request (rect.mk r.x0 (if r.y0 > top then top else r.y0) r.x1
        REDRAW_MAX)), rect.mk r.x0 (if r.y0 > top then top else r.y0) r.x1 REDRAW_MAX,
        ?_, ?_, ?_⟩
      · rw [hrun']
        simp only [hb, Bool.false_eq_true, if_false, hs2]
      · show s2.events ++ _ = _
        rw [hev, set_selected_events]
      · intro b
        show (s2.heap b).map _ = _
        have h1 := congrArg (Option.map (fun c => c.1)) (hcore b)
        simp only [Option.map_map] at h1
        have h2 := hflag1 b
        have hty : ¬ (n.type = .TREE_NODE_FOLDER ∧ n.children = none) := by
          rintro ⟨hty, hc⟩
          rcases hkind with ⟨_, hk', _⟩ | ⟨he, _⟩
          · rw [hc] at hkids
            exact hk' (childChain_none s _ hkids)
          · rw [hty] at he
            cases he
        cases h3 : s2.heap b <;>
          cases h4 : (set_selected s (walk_order s false tree.root f) false).heap b <;>
          cases h5 : s.heap b <;> simp [h3, h4, h5, core] at h1 h2 ⊢
        by_cases hba : b = a
        · simp only [hba, decide_True, Bool.or_true] at h1
          rw [h1]
          by_cases hf : n.type = .TREE_NODE_FOLDER
          · have : n.children ≠ none := fun hc => hty ⟨hf, hc⟩
            simp [hba, hf, this]
          · simp [hba, hf]
        · simp only [hba, decide_False, Bool.or_false] at h1
          simp [hba, h1, h2]

/-- C17 (redraw requests per dispatch).  On a tree whose root holds the shape
`f` (its nodes distinct), for every fuel from `2 * f.size + 2` on:
`treeview_mouse_action` is `mouse_dispatch` on the visible rows in document
order, which acts on the one row `hit_scan` gives and on none when it gives
none; the row given is the first whose accumulated bottom is not above `y`
(every row before it has its bottom above `y`); when the row heights are not
negative and `y` is below the bottom of the last row the call returns the
memory unchanged, with no call made on the host; whenever the call returns,
the host calls it made hold at most one `redraw_request`, and exactly one when
the selected or the expanded flag of some node has changed; the call does
return when it is not an expand toggle (a click in the toggle zone of the row
hit, or a double click on a folder); and an expand toggle on a row with a
parent chain returns, with exactly one `redraw_request` made, in these cases:
the row is expanded and not the root, each of its children is no root and,
if expanded, at least one row high, and the row is at least one row higher
than what the contraction takes off for its children (the row and its
children are then collapsed); or the row is a collapsed folder whose children
are all collapsed, or a collapsed entry without children that holds its
secondary slots (the row is then expanded; a folder without children stays
collapsed).  In each case every other expanded flag is kept.  These are the
conditions that `treeview_node_contract_cb` and `treeview_node_expand`
assert. -/
theorem dispatch_redraw_requests (g : treeview_globals) (font_width : List Nat → Nat → Int)
    (m : browser_mouse_masks) (tree : treeview) (s : State) (f : Forest) (fuel : Nat)
    (mouse : Nat) (x y : Int)
    (hsub : SubtreeAt s tree.root f) (hnd : f.ids.Nodup) (hfuel : 2 * f.size + 2 ≤ fuel) :
    treeview_mouse_action g font_width m fuel tree s mouse x y =
      mouse_dispatch g font_width m fuel tree s mouse x y (walk_order s false tree.root f) ∧
    (∀ a top, hit_scan g s y (walk_order s false tree.root f) 0 = some (a, top) →
      ∃ pre rest, walk_order s false tree.root f = pre ++ a :: rest ∧
        top = (pre.map (rowHeightOf g s)).sum ∧ y ≤ top + rowHeightOf g s a ∧
        ∀ pre1 b pre2, pre = pre1 ++ b :: pre2 →
          y > ((pre1 ++ [b]).map (rowHeightOf g s)).sum) ∧
    ((∀ a ∈ walk_order s false tree.root f, 0 ≤ rowHeightOf g s a) →
      y > ((walk_order s false tree.root f).map (rowHeightOf g s)).sum →
      treeview_mouse_action g font_width m fuel tree s mouse x y = .ok s) ∧
    (∀ s', treeview_mouse_action g font_width m fuel tree s mouse x y = .ok s' →
      ∃ evs, s'.events = s.events ++ evs ∧ redraw_requests evs ≤ 1 ∧
        ((∃ b, (s'.heap b).map (fun k => (k.selected, k.expanded)) ≠
            (s.heap b).map (fun k => (k.selected, k.expanded))) →
          redraw_requests evs = 1)) ∧
    ((∀ a top n, hit_scan g s y (walk_order s false tree.root f) 0 = some (a, top) →
        s.heap a = some n →
        ((decide (n.type = .TREE_NODE_FOLDER) &&
            mouse_has mouse m.BROWSER_MOUSE_DOUBLE_CLICK &&
            mouse_has mouse (m.BROWSER_MOUSE_CLICK_1 ||| m.BROWSER_MOUSE_CLICK_2)) ||
          (decide (x ≥ n.inset - 1 ∧ x < n.inset + g.step_width) &&
            mouse_has mouse (m.BROWSER_MOUSE_CLICK_1 ||| m.BROWSER_MOUSE_CLICK_2))) = false) →
      ∃ s', treeview_mouse_action g font_width m fuel tree s mouse x y = .ok s') ∧
    (∀ a top n path kids,
      hit_scan g s y (walk_order s false tree.root f) 0 = some (a, top) →
      s.heap a = some n →
      ((decide (n.type = .TREE_NODE_FOLDER) &&
          mouse_has mouse m.BROWSER_MOUSE_DOUBLE_CLICK &&
          mouse_has mouse (m.BROWSER_MOUSE_CLICK_1 ||| m.BROWSER_MOUSE_CLICK_2)) ||
        (decide (x ≥ n.inset - 1 ∧ x < n.inset + g.step_width) &&
          mouse_has mouse (m.BROWSER_MOUSE_CLICK_1 ||| m.BROWSER_MOUSE_CLICK_2))) = true →
      AncPath s a path → path ≠ [] → ChildChain s n.children kids →
      (n.expanded = true → n.type ≠ .TREE_NODE_ROOT ∧
        (∀ k ∈ kids, (s.heap k).map (fun xk => decide (xk.type ≠ .TREE_NODE_ROOT ∧
          (xk.expanded = true → g.line_height ≤ xk.height))) = some true) ∧
        g.line_height + (kids.map (contract_reduction g s)).sum ≤ n.height) →
      (n.expanded = false →
        (n.type = .TREE_NODE_FOLDER ∧ ∀ k ∈ kids, isOpen s false k = false) ∨
        (n.type = .TREE_NODE_ENTRY ∧ n.children = none ∧ 1 ≤ tree.n_fields ∧
          tree.n_fields - 1 ≤ n.fields.length)) →
      path.length + kids.length + (tree.n_fields - 1).toNat + 3 ≤ fuel →
      ∃ s' r', treeview_mouse_action g font_width m fuel tree s mouse x y = .ok s' ∧
        s'.events = s.events ++ [.redraw_request r'] ∧
        ∀ b, (s'.heap b).map (fun k => k.expanded) =
          (s.heap b).map (fun k =>
            if n.expanded then k.expanded && !decide (b = a ∨ b ∈ kids)
            else k.expanded || (decide (b = a) &&
              !(decide (n.type = .TREE_NODE_FOLDER) && decide (n.children = none))))) := by
  have heq := mouse_action_eq g font_width m fuel tree s f mouse x y hsub hfuel
  refine ⟨heq, ?_, ?_, ?_,
    dispatch_returns g font_width m tree s f fuel mouse x y hsub hnd hfuel, ?_⟩
  · intro a top h
    obtain ⟨pre, rest, h1, h2, h3, h4⟩ := hit_scan_split g s y _ 0 a top h
    refine ⟨pre, rest, h1, by simpa using h2, by omega, ?_⟩
    intro pre1 b pre2 hp
    simpa using h4 pre1 b pre2 hp
  · intro hpos hy
    rw [heq, mouse_dispatch, hit_scan_below g s y _ 0 hpos (by simpa using hy)]
  · intro s' hs'
    rw [heq, mouse_dispatch] at hs'
    cases hh : hit_scan g s y (walk_order s false tree.root f) 0 with
    | none =>
      simp only [hh, Except.ok.injEq] at hs'
      subst hs'
      exact ⟨[], by simp, by simp [redraw_requests], fun ⟨b, hb⟩ => absurd rfl hb⟩
    | some p =>
      obtain ⟨a, top⟩ := p
      have ha := hit_scan_mem g s y _ 0 a top hh
      cases hn : s.heap a with
      | none => simp [hh, hn] at hs'
      | some n =>
        simp only [hh, hn] at hs'
        obtain ⟨r, hclear⟩ := clear_selection_ok g tree s f fuel hsub hnd hfuel
        have hn1 := set_selected_get s (walk_order s false tree.root f) false a n hn ha
        cases h1 : ((decide (n.type = .TREE_NODE_FOLDER) &&
            mouse_has mouse m.BROWSER_MOUSE_DOUBLE_CLICK &&
            mouse_has mouse (m.BROWSER_MOUSE_CLICK_1 ||| m.BROWSER_MOUSE_CLICK_2)) ||
          (decide (x ≥ n.inset - 1 ∧ x < n.inset + g.step_width) &&
            mouse_has mouse (m.BROWSER_MOUSE_CLICK_1 ||| m.BROWSER_MOUSE_CLICK_2))) with
        | true =>
          rw [hit_toggle g font_width m fuel a n _ _ s _ _ _ r h1 hclear hn1] at hs'
          have hst : ∃ s2 r', StableEq (set_selected s (walk_order s false tree.root f) false)
              s2 ∧ s' = emit s2 (.redraw_request r') := by
            cases hb : n.expanded with
            | true =>
              simp only [hb, if_true] at hs'
              cases hc : treeview_node_contract g fuel tree
                  (set_selected s (walk_order s false tree.root f) false) a with
              | error e => simp [hc] at hs'
              | ok r2 =>
                simp only [hc, Except.ok.injEq] at hs'
                exact ⟨r2.2, _, treeview_node_contract_stable g fuel tree _ a r2 hc, hs'.symm⟩
            | false =>
              simp only [hb, Bool.false_eq_true, if_false] at hs'
              cases hc : treeview_node_expand g font_width fuel tree
                  (set_selected s (walk_order s false tree.root f) false) a with
              | error e => simp [hc] at hs'
              | ok r2 =>
                simp only [hc, Except.ok.injEq] at hs'
                exact ⟨r2.2, _, treeview_node_expand_stable g font_width fuel tree _ a r2 hc,
                  hs'.symm⟩
          obtain ⟨s2, r', hst, rfl⟩ := hst
          refine ⟨[.redraw_request r'], ?_, by simp [redraw_requests], fun _ => rfl⟩
          show s2.events ++ _ = _
          rw [hst.1, set_selected_events]
        | false =>
          cases h2 : (decide (n.type = .TREE_NODE_ENTRY) &&
            mouse_has mouse m.BROWSER_MOUSE_DOUBLE_CLICK &&
            mouse_has mouse (m.BROWSER_MOUSE_CLICK_1 ||| m.BROWSER_MOUSE_CLICK_2)) with
          | true =>
            rw [hit_launch g font_width m fuel a n _ _ s _ _ _ r h1 h2 hclear hn1] at hs'
            simp only [Except.ok.injEq] at hs'
            subst hs'
            cases hc : (walk_order s false tree.root f).any (selectedOf s) with
            | true =>
              refine ⟨[.entry (.TREE_MSG_NODE_LAUNCH mouse) n.client_data,
                .redraw_request r], ?_, by simp [redraw_requests], fun _ => rfl⟩
              simp [emit, set_selected_events]
            | false =>
              refine ⟨[.entry (.TREE_MSG_NODE_LAUNCH mouse) n.client_data], ?_,
                by simp [redraw_requests], ?_⟩
              · simp [emit, set_selected_events]
              · rintro ⟨b, hb⟩
                exfalso
                apply hb
                have hid : set_selected s (walk_order s false tree.root f) false = s := by
                  apply set_selected_id
                  have hany : (walk_order s false tree.root f).any (sel_changed s false) =
                      (walk_order s false tree.root f).any (selectedOf s) := by
                    congr 1
                    funext v
                    simp [sel_changed]
                  rw [hany]
                  exact hc
                simp only [Bool.false_eq_true, if_false, emit]
                rw [hid]
          | false =>
            cases h3 : (mouse_has mouse m.BROWSER_MOUSE_PRESS_1 && !n.selected &&
              !decide (x ≥ n.inset - 1 ∧ x < n.inset + g.step_width)) with
            | true =>
              obtain ⟨r', hr'⟩ := hit_press g font_width m fuel a n _ (node_row_height g n) s _
                { tree := tree, mouse := mouse, x := x, y := y, current_y := top } _ r
                h1 h2 h3 hclear hn1
              rw [hr'] at hs'
              simp only [Except.ok.injEq] at hs'
              subst hs'
              refine ⟨[.redraw_request r'], ?_, by simp [redraw_requests], fun _ => rfl⟩
              simp [emit, store, set_selected_events]
            | false =>
              cases h4 : (mouse_has mouse m.BROWSER_MOUSE_PRESS_2 ||
                (mouse_has mouse m.BROWSER_MOUSE_PRESS_1 &&
                  mouse_has mouse m.BROWSER_MOUSE_MOD_2)) with
              | true =>
                rw [hit_multi g font_width m fuel a n _ s _ h1 h2 h3 h4 hn] at hs'
                simp only [Except.ok.injEq] at hs'
                subst hs'
                exact ⟨[_], rfl, by simp [redraw_requests], fun _ => rfl⟩
              | false =>
                rw [hit_none g font_width m fuel a n _ s _ h1 h2 h3 h4] at hs'
                simp only [Except.ok.injEq] at hs'
                subst hs'
                exact ⟨[], by simp, by simp [redraw_requests],
                  fun ⟨b, hb⟩ => absurd rfl hb⟩
  · intro a top n path kids hhit hn htog hpath hne hkids hcon hexp hfuel2
    exact toggle_returns g font_width m tree s f fuel mouse x y a top n path kids hsub hnd
      hfuel hhit hn htog hpath hne hkids hcon hexp hfuel2

/-- Three dispatches on the example trees: a press below the last
row of `exSelState`, which changes nothing; a click in the toggle zone of the
collapsed folder 3, which expands it; and a click in the toggle zone of the
expanded folder 1 of `exNested`, which contracts it and its expanded child,
folder 3.  Each toggle returns with one `redraw_request` made. -/
theorem dispatch_redraw_requests_witness :
    treeview_mouse_action exG exFont exMasks 14 ⟨0, [], 1, 0⟩ exSelState 1 30 81 =
      .ok exSelState ∧
    (∃ s' r', treeview_mouse_action exG exFont exMasks 14 ⟨0, [], 1, 0⟩ exSelState 4 5 50 =
        .ok s' ∧
      s'.events = exSelState.events ++ [.redraw_request r'] ∧
      (s'.heap 3).map (fun k => k.expanded) = some true) ∧
    (∃ s' r', treeview_mouse_action exG exFont exMasks 14 ⟨0, [], 1, 0⟩ exNested 4 5 10 =
        .ok s' ∧
      s'.events = exNested.events ++ [.redraw_request r'] ∧
      (s'.heap 1).map (fun k => k.expanded) = some false ∧
      (s'.heap 3).map (fun k => k.expanded) = some false ∧
      (s'.heap 0).map (fun k => k.expanded) = some true) := by
  refine ⟨(dispatch_redraw_requests exG exFont exMasks ⟨0, [], 1, 0⟩ exSelState exForest 14 1 30
    81 (by decide) (by decide) (by decide)).2.2.1 (by decide) (by decide), ?_, ?_⟩
  · obtain ⟨s', r', h1, h2, h3⟩ := (dispatch_redraw_requests exG exFont exMasks ⟨0, [], 1, 0⟩
      exSelState exForest 14 4 5 50 (by decide) (by decide) (by decide)).2.2.2.2.2 3 40
      (mkNode .TREE_NODE_FOLDER false 20 (some 1) (some 2) none (some 5) 13) [1, 0] [5]
      (by decide) (by decide) (by decide) (by decide) (by decide) (by decide)
      (fun h => absurd h (by decide)) (fun _ => Or.inl (by decide)) (by decide)
    exact ⟨s', r', h1, h2, by rw [h3 3]; decide⟩
  · obtain ⟨s', r', h1, h2, h3⟩ := (dispatch_redraw_requests exG exFont exMasks ⟨0, [], 1, 0⟩
      exNested exForest 14 4 5 10 (by decide) (by decide) (by decide)).2.2.2.2.2 1 0
      (mkNode .TREE_NODE_FOLDER true 80 (some 0) none (some 4) (some 2) 11) [0] [2, 3]
      (by decide) (by decide) (by decide) (by decide) (by decide) (by decide)
      (fun _ => by decide) (fun h => absurd h (by decide)) (by decide)
    exact ⟨s', r', h1, h2, by rw [h3 1]; decide, by rw [h3 3]; decide, by rw [h3 0]; decide⟩

/-! ## Height conservation with deletions of hidden nodes -/

/-- Under the invariant of the reachable memories a parent chain ends at the
root. -/
theorem ancPath_last_root {g : treeview_globals} {font_width : List Nat → Nat → Int}
    {tree : treeview} {s : State} (hI : Inv g font_width tree s) :
    ∀ (path : List Nat) (a : Nat), AncPath s a path →
    (a :: path).getLast? = some tree.root := by
  intro path
  induction path with
  | nil =>
    intro a h
    simp only [AncPath] at h
    cases hn : s.heap a with
    | none => rw [hn] at h; exact h.elim
    | some n =>
      rw [hn] at h
      simp only [] at h
      by_cases ha : a = tree.root
      · simp [ha]
      · obtain ⟨_, p, _, hp, _⟩ := hI.node a n hn ha
        rw [h] at hp
        cases hp
  | cons p ps ih =>
    intro a h
    rw [List.getLast?_cons_cons]
    exact ih p h.2

/-- The invariant of the reachable memories gives the structural part of the
invariant of the built memories; the four clauses on expanded flags and
heights are left to prove. -/
theorem treeInv_of_inv {g : treeview_globals} {font_width : List Nat → Nat → Int}
    {tree : treeview} {s : State} (hI : Inv g font_width tree s)
    (hvis : ∀ a n, s.heap a = some n → n.expanded = true → a ≠ tree.root →
      ∃ p np, n.parent = some p ∧ s.heap p = some np ∧ np.expanded = true)
    (hcoll : ∀ a n, s.heap a = some n → n.expanded = false → n.height = g.line_height)
    (hfolder : ∀ a n, s.heap a = some n → n.expanded = true → n.type = .TREE_NODE_FOLDER →
      ∀ kids, ChildChain s n.children kids →
        n.height = g.line_height + (kids.map (heightOf s)).sum)
    (htop : ∀ kids, ChildChain s (childrenOf s tree.root) kids →
      heightOf s tree.root = (kids.map (heightOf s)).sum) :
    TreeInv g tree s := by
  obtain ⟨F, hsub, hnd, hall⟩ := hI.shape
  obtain ⟨rr, hrr, hrt, hrp, _, _, hre, _⟩ := hI.root
  have hkids : ∀ a n, s.heap a = some n →
      ∃ kids, ChildChain s n.children kids ∧ ∀ k, k ∈ kids ↔ parentOf s k = some a := by
    intro a n hn
    by_cases har : a = tree.root
    · subst har
      obtain ⟨h1, h2⟩ := shape_chain_root hsub n hn
      refine ⟨F.tops, h1, fun k => ⟨h2 k, fun hk => ?_⟩⟩
      have hkh : s.heap k ≠ none := by
        intro e
        simp [parentOf, e] at hk
      rcases hall k hkh with e | hkF
      · rw [e] at hk
        simp [parentOf, hrr, hrp] at hk
      · rcases rep_parent_tops F tree.root none hsub.2.1 hnd hsub.2.2 k hkF tree.root hk with
          ⟨_, h⟩ | ⟨h, _⟩
        · exact h
        · exact absurd h hsub.2.2
    · have haF : a ∈ F.ids := by
        rcases hall a (by rw [hn]; simp) with e | h
        · exact absurd e har
        · exact h
      obtain ⟨h1, h2⟩ := shape_chain_node hsub hnd a n haF hn
      refine ⟨(F.sub a).tops, h1, fun k => ⟨h2 k, fun hk => ?_⟩⟩
      have hkh : s.heap k ≠ none := by
        intro e
        simp [parentOf, e] at hk
      rcases hall k hkh with e | hkF
      · rw [e] at hk
        simp [parentOf, hrr, hrp] at hk
      · rcases rep_parent_tops F tree.root none hsub.2.1 hnd hsub.2.2 k hkF a hk with
          ⟨h, _⟩ | ⟨_, h⟩
        · exact absurd h har
        · exact h
  refine ⟨hI.nf, ⟨rr, hrr, hrp, hre, hrt⟩, ?_, hkids, ?_, ?_, hvis, hcoll, hfolder, htop⟩
  · intro a ha
    obtain ⟨n, hn⟩ := Option.ne_none_iff_exists'.mp ha
    obtain ⟨path, hpath⟩ := inv_paths hI a n hn
    exact ⟨path, hpath, ancPath_last_root hI path a hpath⟩
  · intro a n hn hty
    refine ⟨?_, (hI.entry a n hn hty).1⟩
    obtain ⟨kids, hch, hmem⟩ := hkids a n hn
    cases kids with
    | nil => exact hch
    | cons c cs =>
      exfalso
      have hc := (hmem c).mp (List.mem_cons_self _ _)
      have hch' := childChain_heap _ _ hch c (List.mem_cons_self _ _)
      obtain ⟨nc, hnc⟩ := Option.ne_none_iff_exists'.mp hch'
      have hcr : c ≠ tree.root := by
        intro e
        rw [e] at hc
        simp [parentOf, hrr, hrp] at hc
      obtain ⟨_, p, np, hp, hnp, hpt, _⟩ := hI.node c nc hnc hcr
      simp only [parentOf, hnc, hp, Option.some.injEq] at hc
      subst hc
      rw [hn] at hnp
      cases hnp
      exact hpt hty
  · intro a n hn hty
    by_contra har
    exact (hI.node a n hn har).1 hty

/-- In a memory that satisfies the invariant of the built memories every
ancestor of an expanded node is expanded. -/
theorem treeInv_expanded_visible {g : treeview_globals} {tree : treeview} {s : State}
    (hT : TreeInv g tree s) : ∀ (path : List Nat) (a : Nat) (n : treeview_node),
    s.heap a = some n → n.expanded = true → AncPath s a path →
    ∀ q ∈ path, ∀ nq, s.heap q = some nq → nq.expanded = true := by
  obtain ⟨r, hr, hrpar, _, _⟩ := hT.root
  intro path
  induction path with
  | nil => intro _ _ _ _ _ q hq; simp at hq
  | cons p ps ih =>
    intro a n hn he hpath q hq nq hnq
    obtain ⟨h1, h2⟩ := hpath
    rw [hn] at h1
    simp only [] at h1
    have har : a ≠ tree.root := by
      intro e
      rw [e, hr] at hn
      cases hn
      rw [hrpar] at h1
      cases h1
    obtain ⟨p', np, hp', hnp, hpe⟩ := hT.vis a n hn he har
    rw [h1] at hp'
    cases hp'
    simp only [List.mem_cons] at hq
    rcases hq with rfl | hq
    · rw [hnp] at hnq
      cases hnq
      exact hpe
    · exact ih p np hnp hpe h2 q hq nq hnq

theorem unlinked_children {s : State} {n : Nat} {nn : treeview_node} {dead : List Nat}
    {a : Nat} {x x' : treeview_node} (h : unlinked s n nn dead a = some x')
    (hx : s.heap a = some x) (hp : nn.parent ≠ some a) : x'.children = x.children := by
  unfold unlinked at h
  split at h
  · cases h
  · rw [hx] at h
    simp only [Option.map_some'] at h
    split at h
    · cases h; rfl
    · split at h
      · cases h; rfl
      · split at h
        · rename_i h3
          exact absurd h3.2 hp
        · cases h; rfl

/-- Deleting a node that is not visible keeps the invariant of the built
memories: its parent is collapsed, so no height that the invariant speaks of
counts its rows. -/
theorem treeInv_delete_step (g : treeview_globals) (font_width : List Nat → Nat → Int)
    (tree : treeview) (s s' : State) (fuel node : Nat)
    (hT : TreeInv g tree s) (hI : Inv g font_width tree s) (hhid : ¬ Visible s node)
    (h : treeview_delete_node fuel tree s node = .ok (.NSERROR_OK, s')) :
    TreeInv g tree s' := by
  obtain ⟨r, hr, hrpar, hrexp, hrty⟩ := hT.root
  have hnr : node ≠ tree.root := by
    intro e
    apply hhid
    refine ⟨[], ?_, fun p hp => by simp at hp⟩
    simp only [AncPath, e, hr]
    exact hrpar
  have hI' : Inv g font_width tree s' := (inv_delete fuel node _ hI hnr h).1
  obtain ⟨F, hsub, hnd, hall⟩ := hI.shape
  have hnF : node ∈ F.ids := by
    rcases hall node (delete_alloc fuel tree s node _ h) with h1 | h1
    · exact absurd h1 hnr
    · exact h1
  obtain ⟨s1, nn, hrun, hnn, hsub', hheap, _, _⟩ := delete_shape tree s F node
    (max fuel (2 * (F.sub node).size + 2)) hsub hnd hnF (le_max_right _ _)
  have h' := delete_mono_le tree s node _ fuel (max fuel (2 * (F.sub node).size + 2))
    (le_max_left _ _) h
  rw [hrun] at h'
  simp only [Except.ok.injEq, Prod.mk.injEq, true_and] at h'
  subst h'
  have hrF : tree.root ∉ F.ids := hsub.2.2
  have hnd' : (F.remove node).ids.Nodup := hnd.sublist (remove_ids_sublist node F)
  -- the parent of the deleted node is collapsed
  obtain ⟨_, p, np, hpp, hnp, _, _⟩ := hI.node node nn hnn hnr
  have hpc : np.expanded = false := by
    by_contra hc
    have hc : np.expanded = true := by simpa using hc
    apply hhid
    obtain ⟨path, hpath, _⟩ := hT.paths p (by rw [hnp]; simp)
    refine ⟨p :: path, ⟨by simp only [hnn]; exact hpp, hpath⟩, ?_⟩
    intro q hq nq hnq
    simp only [List.mem_cons] at hq
    rcases hq with rfl | hq
    · rw [hnp] at hnq
      cases hnq
      exact hc
    · exact treeInv_expanded_visible hT path p np hnp hc hpath q hq nq hnq
  have hpr : p ≠ tree.root := by
    intro e
    rw [e, hr] at hnp
    cases hnp
    rw [hrexp] at hpc
    cases hpc
  -- what is left of a record
  have hget : ∀ a x', s1.heap a = some x' →
      a ≠ node ∧ a ∉ (F.sub node).ids ∧ ∃ x, s.heap a = some x ∧ x'.type = x.type ∧
        x'.parent = x.parent ∧ x'.expanded = x.expanded ∧ x'.height = x.height ∧
        (p ≠ a → x'.children = x.children) := by
    intro a x' hx'
    have hu : unlinked s node nn (F.sub node).ids a = some x' := by rw [← hheap a]; exact hx'
    obtain ⟨h1, h2, x, hx, h3, _, h5, h6, _, h8, _⟩ := unlinked_get hu
    refine ⟨h1, h2, x, hx, h3, h5, h6, h8, fun hpa => ?_⟩
    exact unlinked_children hu hx (by rw [hpp]; intro e; exact hpa (Option.some.inj e))
  have hheight : ∀ k, s1.heap k ≠ none → heightOf s1 k = heightOf s k := by
    intro k hk
    obtain ⟨x', hx'⟩ := Option.ne_none_iff_exists'.mp hk
    obtain ⟨_, _, x, hx, _, _, _, hh, _⟩ := hget k x' hx'
    simp only [heightOf, hx', hx, hh]
  have hnode_par : parentOf s node = some p := by simp only [parentOf, hnn, hpp]
  -- the child list of a node that is not the parent of the deleted node
  have hsame : ∀ l : List Nat, (∀ k ∈ l, parentOf s k ≠ some p) →
      l.filter (fun a => decide (a ≠ node)) = l := by
    intro l hl
    apply List.filter_eq_self.mpr
    intro k hk
    simp only [ne_eq, decide_not, Bool.not_eq_true', decide_eq_false_iff_not]
    intro e
    apply hl k hk
    rw [e]
    exact hnode_par
  apply treeInv_of_inv hI'
  · intro a n' hn' he har
    obtain ⟨_, _, x, hx, _, hpar, hex, _, _⟩ := hget a n' hn'
    obtain ⟨q, nq, hq, hnq, hqe⟩ := hT.vis a x hx (hex ▸ he) har
    obtain ⟨_, q', nq', hq', hnq', _, _⟩ := hI'.node a n' hn' har
    rw [hpar, hq] at hq'
    cases hq'
    obtain ⟨_, _, y, hy, _, _, hye, _, _⟩ := hget q nq' hnq'
    rw [hnq] at hy
    cases hy
    exact ⟨q, nq', by rw [hpar]; exact hq, hnq', hye.trans hqe⟩
  · intro a n' hn' he
    obtain ⟨_, _, x, hx, _, _, hex, hh, _⟩ := hget a n' hn'
    rw [hh]
    exact hT.coll a x hx (hex ▸ he)
  · intro a n' hn' he hty kids hch
    obtain ⟨han, had, x, hx, hxt, _, hex, hh, hchild⟩ := hget a n' hn'
    have hxe : x.expanded = true := hex ▸ he
    have hpa : p ≠ a := by
      intro e
      rw [← e, hnp] at hx
      cases hx
      rw [hpc] at hxe
      cases hxe
    have har : a ≠ tree.root := by
      intro e
      rw [e, hr] at hx
      cases hx
      rw [hxt, hrty] at hty
      cases hty
    have haF : a ∈ F.ids := by
      rcases hall a (by rw [hx]; simp) with e | h
      · exact absurd e har
      · exact h
    have haF' : a ∈ (F.remove node).ids := (remove_ids node F hnd a).mpr ⟨haF, han, had⟩
    obtain ⟨c1, _⟩ := shape_chain_node hsub' hnd' a n' haF' hn'
    obtain ⟨c2, c3⟩ := shape_chain_node hsub hnd a x haF hx
    have hk : kids = (F.sub a).tops := by
      rw [ChildChain_unique _ _ _ hch c1, sub_remove_tops node a han F hnd had]
      apply hsame
      intro k hk e
      rw [c3 k hk] at e
      exact hpa (Option.some.inj e).symm
    rw [hh, hT.folder a x hx hxe (hxt ▸ hty) (F.sub a).tops c2, hk]
    congr 1
    congr 1
    apply List.map_congr_left
    intro k hk'
    exact (hheight k (childChain_heap _ _ (hk ▸ hch) k hk')).symm
  · intro kids hch
    obtain ⟨r', hr'⟩ : ∃ r', s1.heap tree.root = some r' := by
      have := hsub'.1
      cases e : s1.heap tree.root with
      | none => rw [e] at this; exact this.elim
      | some r' => exact ⟨r', rfl⟩
    obtain ⟨_, _, x, hx, _, _, _, _, hchild⟩ := hget tree.root r' hr'
    rw [hr] at hx
    cases hx
    obtain ⟨c1, _⟩ := shape_chain_root hsub' r' hr'
    obtain ⟨c2, c3⟩ := shape_chain_root hsub r hr
    simp only [childrenOf, hr'] at hch
    have hk : kids = F.tops := by
      rw [ChildChain_unique _ _ _ hch c1, remove_tops node F hnd]
      apply hsame
      intro k hk e
      rw [c3 k hk] at e
      exact hpr (Option.some.inj e).symm
    have htop := hT.top F.tops (by simp only [childrenOf, hr]; exact c2)
    rw [hheight tree.root (by rw [hr']; simp), htop, hk]
    congr 1
    apply List.map_congr_left
    intro k hk'
    exact (hheight k (childChain_heap _ _ (hk ▸ hch) k hk')).symm

/-- Every memory in `Built` satisfies the invariant of the reachable
memories. -/
theorem inv_of_built (g : treeview_globals) (font_width : List Nat → Nat → Int)
    (tree : treeview) (s : State) (h : Built g font_width tree s) :
    Inv g font_width tree s := by
  have htarget : ∀ (s : State) (relation : Option Nat) (rel : treeview_relationship),
      Inv g font_width tree s →
      RootOrCollapsed tree s
        (insert_parent s (insert_target tree relation rel).1
          (insert_target tree relation rel).2) →
      ∀ b, relation = some b → s.heap b ≠ none := by
    intro s relation rel hI hroc b hb
    subst hb
    obtain ⟨rr, hrr, _⟩ := hI.root
    simp only [insert_target] at hroc
    cases rel with
    | TREE_REL_FIRST_CHILD =>
      simp only [insert_parent] at hroc
      rcases hroc with e | ⟨q, nq, e, hq, _⟩
      · rw [Option.some.inj e, hrr]
        simp
      · rw [Option.some.inj e, hq]
        simp
    | TREE_REL_NEXT_SIBLING =>
      simp only [insert_parent] at hroc
      intro hn
      simp only [parentOf, hn] at hroc
      rcases hroc with e | ⟨q, nq, e, _⟩
      · cases e
      · cases e
  induction h with
  | fresh s addr n_fields fields hc => exact inv_fresh g font_width tree s addr n_fields fields hc
  | create_folder s s' fuel a relation rel field data _ hroc hrun ih =>
    exact (inv_create_folder fuel (some a) relation rel field data _ ih
      (htarget s relation rel ih hroc) hrun).1
  | create_entry s s' fuel a relation rel fields data _ hroc hrun ih =>
    exact (inv_create_entry fuel (some a) relation rel fields data _ ih
      (htarget s relation rel ih hroc) hrun).1
  | delete s s' fuel node _ hhid hrun ih =>
    have hnr : node ≠ tree.root := by
      intro e
      apply hhid
      obtain ⟨rr, hrr, _, hrp, _⟩ := ih.root
      refine ⟨[], ?_, fun p hp => by simp at hp⟩
      simp only [AncPath, e, hrr]
      exact hrp
    exact (inv_delete fuel node _ ih hnr hrun).1
  | expand s s' fuel node _ _ hrun ih => exact (inv_expand fuel node _ ih hrun).1

/-- Every memory in `Built` satisfies the invariant. -/
theorem treeInv_of_built (g : treeview_globals) (font_width : List Nat → Nat → Int)
    (tree : treeview) (s : State) (h : Built g font_width tree s) : TreeInv g tree s := by
  induction h with
  | fresh s addr n_fields fields hc => exact treeInv_fresh g font_width tree s addr n_fields fields hc
  | create_folder s s' fuel a relation rel field data _ hroc hrun ih =>
    exact treeInv_create_folder_step g font_width tree s s' fuel a relation rel field data ih
      hroc hrun
  | create_entry s s' fuel a relation rel fields data _ hroc hrun ih =>
    exact treeInv_create_entry_step g font_width tree s s' fuel a relation rel fields data ih
      hroc hrun
  | delete s s' fuel node hb hhid hrun ih =>
    exact treeInv_delete_step g font_width tree s s' fuel node ih
      (inv_of_built g font_width tree s hb) hhid hrun
  | expand s s' fuel node _ hvis hrun ih =>
    exact treeInv_expand_step g font_width tree s s' fuel node ih hvis hrun

theorem exTwo_built : Built exG exFont exTree exTwo := by
  have h0 : Built exG exFont exTree exFresh := Built.fresh exFresh 0 3 exSchema rfl
  have h1 : Built exG exFont exTree exOne :=
    Built.create_folder exFresh exOne 5 1 none .TREE_REL_FIRST_CHILD exField 101 h0
      (Or.inl rfl) rfl
  refine Built.create_entry exOne exTwo 5 2 (some 1) .TREE_REL_FIRST_CHILD exFields 102 h1
    (Or.inr ?_) rfl
  obtain ⟨n, hn, he⟩ : ∃ n, exOne.heap 1 = some n ∧ n.expanded = false :=
    heap_expanded_of_obs (by decide)
  exact ⟨1, n, rfl, hn, he⟩

theorem exThree_built : Built exG exFont exTree exThree := by
  refine Built.expand exTwo exThree 5 1 exTwo_built ⟨[0], by decide, ?_⟩ rfl
  intro p hp np hnp
  simp only [List.mem_singleton] at hp
  subst hp
  obtain ⟨n, hn, he⟩ : ∃ n, exTwo.heap 0 = some n ∧ n.expanded = true :=
    heap_expanded_of_obs (by decide)
  rw [hn] at hnp
  simp only [Option.some.injEq] at hnp
  rw [← hnp]
  exact he

/-- The entry 2 of `exTwo` lies inside the collapsed folder 1, so it is not
visible, and deleting it gives a memory in `Built`. -/
theorem exDeleted_built : Built exG exFont exTree exDeleted := by
  refine Built.delete exTwo exDeleted 5 2 exTwo_built ?_ rfl
  rintro ⟨path, hpath, hall⟩
  have hp : AncPath exTwo 2 [1, 0] := by decide
  have := AncPath_unique _ _ 2 hpath hp
  subst this
  obtain ⟨n, hn, he⟩ : ∃ n, exTwo.heap 1 = some n ∧ n.expanded = false :=
    heap_expanded_of_obs (by decide)
  have := hall 1 (by simp) n hn
  rw [he] at this
  cases this

/-- C1, for the calls that keep the heights: in every memory reached from a
freshly created tree by `treeview_create_node_folder` and
`treeview_create_node_entry` calls whose new parent is the root or a collapsed
node, by `treeview_delete_node` calls on nodes that are not visible and by
`treeview_node_expand` calls on visible nodes, every call returning
`NSERROR_OK`, the height of the root is the sum of the heights of its
children, and the height of every expanded folder is one row (`line_height`)
plus the sum of the heights of its children. -/
theorem built_height_conservation (g : treeview_globals) (font_width : List Nat → Nat → Int)
    (tree : treeview) (s : State) (h : Built g font_width tree s) :
    HeightConservation g tree s := by
  have hinv := treeInv_of_built g font_width tree s h
  obtain ⟨r, hr, _⟩ := hinv.root
  refine ⟨?_, ?_⟩
  · obtain ⟨kids, hk, _⟩ := hinv.kids tree.root r hr
    have hk' : ChildChain s (childrenOf s tree.root) kids := by
      simpa [childrenOf, hr] using hk
    exact ⟨kids, hk', hinv.top kids hk'⟩
  · intro a n hn hty hexp
    obtain ⟨kids, hk, _⟩ := hinv.kids a n hn
    exact ⟨kids, hk, hinv.folder a n hn hexp hty kids hk⟩

/-- Height conservation at two built memories: `exThree` (a folder created below the
root, an entry created inside it, the folder expanded) and `exDeleted` (the
entry deleted while the folder was still collapsed). -/
theorem built_height_conservation_witness :
    (Built exG exFont exTree exThree ∧ HeightConservation exG exTree exThree) ∧
    (Built exG exFont exTree exDeleted ∧ HeightConservation exG exTree exDeleted) :=
  ⟨⟨exThree_built, built_height_conservation exG exFont exTree exThree exThree_built⟩,
   ⟨exDeleted_built, built_height_conservation exG exFont exTree exDeleted exDeleted_built⟩⟩

/-- C1 as stated fails when a visible node is deleted: `treeview_delete_node`
adjusts no height.  On a freshly created tree a folder is created below the
root and deleted again; both calls return, and the root is left with the
height of one row (20) and no child. -/
theorem height_conservation_counterexample :
    ∃ s, apply_ops exG exFont 5 exTree
        [.create_folder 1 none .TREE_REL_FIRST_CHILD exField 101, .delete 1] exFresh = .ok s ∧
      childrenOf s exTree.root = none ∧ heightOf s exTree.root = 20 ∧
      ¬ HeightConservation exG exTree s := by
  have hfacts : ends_with (apply_ops exG exFont 5 exTree
      [.create_folder 1 none .TREE_REL_FIRST_CHILD exField 101, .delete 1] exFresh)
      (fun s => decide (childrenOf s exTree.root = none ∧ heightOf s exTree.root = 20)) =
      true := by decide
  cases h : apply_ops exG exFont 5 exTree
      [.create_folder 1 none .TREE_REL_FIRST_CHILD exField 101, .delete 1] exFresh with
  | error e =>
    rw [h] at hfacts
    simp [ends_with] at hfacts
  | ok s =>
    rw [h] at hfacts
    simp only [ends_with, decide_eq_true_eq] at hfacts
    obtain ⟨hc, hh⟩ := hfacts
    refine ⟨s, rfl, hc, hh, ?_⟩
    rintro ⟨⟨kids, hk, hsum⟩, _⟩
    rw [hc] at hk
    cases kids with
    | nil =>
      rw [hh] at hsum
      simp at hsum
    | cons c cs => simp [ChildChain] at hk

end Treeview
